import Mathlib

/-!
# ReplicaWBCache buffer layer: a shallow embedding and its verification

The development embeds the buffer triad of the repository
(`buffer::raw`, `buffer::ptr`, `buffer::list`) and the CRC32C checksum
walk over a list.

Modelling conventions
* A `raw` region is a record held in a heap (`Mem.raws`), addressed by a
  natural-number identity that stands for the C++ `raw*`.  Deleting a region
  empties its heap slot, so every later access through a stale `raw*` is
  visible as `Err.undefined`.
* Bytes are natural numbers below 256, `uint64_t` and `uint32_t` values are
  natural numbers; wrap-around is written out (`% 2 ^ 64`, `% 2 ^ 32`) at the
  places where a caller-supplied value can make the C++ arithmetic wrap or
  where a value is narrowed.
* A `ptr_node` carries the address of the node (`node_addr`), which is what
  `_tail_pnode_cache` stores.  The intrusive chain `buffers_t` is the Lean
  list of its nodes, in link order; iterators into the chain are positions
  in that list.
* The cached counters `_len` and `_num` of a list are updated with 64-bit
  wrap-around (`add64`, `sub64`).  The reference count `nref` and the length
  of a view after a bounds-checked append are exact: a real execution cannot
  make them wrap.
* A failed `spec_assert` is `Err.assert_failed`, a thrown exception is the
  error of the same name, and behaviour the C++ standard leaves undefined
  (dereferencing `end()`, a stale pointer) is `Err.undefined`.
-/

namespace spec

/-! ## Errors and machine arithmetic -/

/-- Ways in which an operation of the buffer layer can fail to return. -/
inductive Err where
  | end_of_buffer
  | bad_alloc
  | malformed_input
  | assert_failed
  | undefined
deriving DecidableEq, Repr

/-- The number of values of a `uint64_t`. -/
def U64 : Nat := 2 ^ 64

/-- The number of values of a `uint32_t` / `unsigned`. -/
def U32 : Nat := 2 ^ 32

/-- Addition of two `uint64_t` values. -/
def add64 (a b : Nat) : Nat := (a + b) % U64

/-- Subtraction of two `uint64_t` values. -/
def sub64 (a b : Nat) : Nat := (a + U64 - b % U64) % U64

/-- Modelled from the spec: `round_up_to(n, d)` of the absent `intarith.h`,
the smallest multiple of `d` that is not below `n` ("rounded-up allocation
unit"). -/
def round_up_to (n d : Nat) : Nat :=
  if n % d = 0 then n else n + d - n % d

/-- The page size returned by `sysconf(_SC_PAGESIZE)` on the modelled
platform (`spec_page_size` in `page.cc`). -/
def SPEC_PAGE_SIZE : Nat := 4096

/-- `SPEC_BUFFER_ALLOC_UNIT` of `buffer_create.h`. -/
def SPEC_BUFFER_ALLOC_UNIT : Nat := 4096

/-- `sizeof(raw_combined)` on the modelled LP64 platform; only its being a
multiple of 8 below the allocation unit is ever used. -/
def sizeof_raw_combined : Nat := 112

/-- `SPEC_BUFFER_APPEND_SIZE` of `buffer_create.h`. -/
def SPEC_BUFFER_APPEND_SIZE : Nat := SPEC_BUFFER_ALLOC_UNIT - sizeof_raw_combined

/-! ## The CRC32C primitive -/

/-- The reflected Castagnoli polynomial. -/
def CRC32C_POLY : Nat := 0x82F63B78

/-- One bit of the CRC32C shift register. -/
def crc32c_bit (c : Nat) : Nat :=
  if c % 2 = 1 then (c / 2) ^^^ CRC32C_POLY else c / 2

/-- One byte of the CRC32C shift register: the byte is folded into the low
bits and eight register steps follow. -/
def crc32c_byte (c b : Nat) : Nat :=
  crc32c_bit (crc32c_bit (crc32c_bit (crc32c_bit
    (crc32c_bit (crc32c_bit (crc32c_bit (crc32c_bit (c ^^^ b))))))))

/-- The CRC32C of a byte string, seeded with `crc`, with no initial or final
inversion. -/
def crc32c_bytes (crc : Nat) (data : List Nat) : Nat :=
  data.foldl crc32c_byte crc

/-- Modelled from the spec: the absent implementation behind the function
pointer `crc32c_func` ("`crc32c(seed, data, len)`; `data = None` must behave
as if `len` zero bytes were hashed").  It reads the first `length` bytes at
`data`. -/
def crc32c_func (crc : Nat) (data : Option (List Nat)) (length : Nat) : Nat :=
  match data with
  | none => crc32c_bytes crc (List.replicate length 0)
  | some d => crc32c_bytes crc (d.take length)

/-- Modelled from the spec: the absent `crc32c_zeros(initial_crc, length)`,
"calculate crc32c for data that is entirely 0". -/
def crc32c_zeros (crc : Nat) (length : Nat) : Nat :=
  crc32c_bytes crc (List.replicate length 0)

/-- The inline wrapper `spec_crc32c` of `crc32c.h`.  Its `length` is an
`unsigned`: callers narrow before the call. -/
def spec_crc32c (crc : Nat) (data : Option (List Nat)) (length : Nat) : Nat :=
  if data.isNone ∧ length > 16 then crc32c_zeros crc length
  else crc32c_func crc data length

namespace buffer

/-! ## Raw regions and the heap -/

/-- A `buffer::raw`: the bytes of the region (`get_len()` is their number),
the numeric value of the data pointer, the reference count and the one-entry
checksum cache. -/
structure raw where
  m_data : List Nat
  data_addr : Nat
  nref : Nat
  last_crc_offset : Nat × Nat
  last_crc_val : Nat × Nat
deriving DecidableEq, Repr

/-- The value `std::numeric_limits<size_t>::max()` that marks an empty
checksum cache. -/
def SIZE_MAX : Nat := 2 ^ 64 - 1

/-- Accessor `raw::get_len`. -/
def raw.get_len (r : raw) : Nat := r.m_data.length

/-- Member `raw::get_crc`: the cached pair when the cached range is exactly
`fromto`. -/
def raw.get_crc (r : raw) (fromto : Nat × Nat) : Option (Nat × Nat) :=
  if r.last_crc_offset = fromto then some r.last_crc_val else none

/-- Member `raw::set_crc`. -/
def raw.set_crc (r : raw) (fromto : Nat × Nat) (crc : Nat × Nat) : raw :=
  { r with last_crc_offset := fromto, last_crc_val := crc }

/-- Member `raw::invalidate_crc`. -/
def raw.invalidate_crc (r : raw) : raw :=
  { r with last_crc_offset := (SIZE_MAX, SIZE_MAX) }

/-- The heap: the live `raw` objects by identity, the next unused identity,
the break of the bump allocator that stands behind `posix_memalign`, and the
next unused `ptr_node` address. -/
structure Mem where
  raws : Nat → Option raw
  next_raw : Nat
  brk : Nat
  next_node : Nat

/-- Replace (or delete) the raw object with identity `i`. -/
def Mem.set_raw (m : Mem) (i : Nat) (v : Option raw) : Mem :=
  { m with raws := fun j => if j = i then v else m.raws j }

/-- A heap with no region. -/
def Mem.empty : Mem := { raws := fun _ => none, next_raw := 0, brk := 0, next_node := 0 }

/-- The allocator `posix_memalign(&p, alignment, size)`: it refuses an
alignment that is not a power of two multiple of `sizeof(void*)`, and
otherwise hands out the next aligned address.  The block is returned with
indeterminate content, read as zero bytes here. -/
def posix_memalign (m : Mem) (alignment size : Nat) : Option (Nat × Mem) :=
  if alignment % 8 = 0 ∧ alignment ≠ 0 ∧ alignment &&& (alignment - 1) = 0 then
    let a := round_up_to m.brk alignment
    some (a, { m with brk := a + size })
  else none

/-- Enter a new raw object of `len` bytes at data address `a` into the heap;
the result is its identity.  The constructor `raw::raw` starts with
`nref = 0` and an empty checksum cache. -/
def Mem.new_raw (m : Mem) (a : Nat) (content : List Nat) : Nat × Mem :=
  (m.next_raw,
   { m with
     raws := fun j => if j = m.next_raw then
       some { m_data := content, data_addr := a, nref := 0,
              last_crc_offset := (SIZE_MAX, SIZE_MAX), last_crc_val := (0, 0) }
       else m.raws j,
     next_raw := m.next_raw + 1 })

/-- Static member `raw_combined::create(len, alignment)`: one allocation
holds the data (rounded up to the alignment of the header) and the header
behind it. -/
def raw_combined.create (m : Mem) (len alignment : Nat) : Except Err (Nat × Mem) :=
  let alignment := if alignment = 0 then 8 else alignment
  let rawlen := round_up_to sizeof_raw_combined 8
  let datalen := round_up_to len 8
  match posix_memalign m alignment (rawlen + datalen) with
  | none => .error .bad_alloc
  | some (a, m1) => .ok (m1.new_raw a (List.replicate len 0))

/-- Constructor `raw_posix_aligned(len, alignment)`. -/
def raw_posix_aligned.create (m : Mem) (len alignment : Nat) : Except Err (Nat × Mem) :=
  if alignment ≥ 8 ∧ alignment &&& (alignment - 1) = 0 then
    match posix_memalign m alignment len with
    | none => .error .bad_alloc
    | some (a, m1) => .ok (m1.new_raw a (List.replicate len 0))
  else .error .assert_failed

/-- Function `buffer::create_aligned(len, alignment)` (through
`create_aligned_in_mempool`): a separate aligned region when the alignment is
a page multiple or the length reaches two pages, a combined one otherwise. -/
def create_aligned (m : Mem) (len alignment : Nat) : Except Err (Nat × Mem) :=
  if alignment % SPEC_PAGE_SIZE = 0 ∨ len ≥ SPEC_PAGE_SIZE * 2 then
    raw_posix_aligned.create m len alignment
  else raw_combined.create m len alignment

/-- Function `buffer::create(len)`. -/
def create (m : Mem) (len : Nat) : Except Err (Nat × Mem) :=
  create_aligned m len 8

/-- Function `buffer::create_page_aligned(len)`. -/
def create_page_aligned (m : Mem) (len : Nat) : Except Err (Nat × Mem) :=
  create_aligned m len SPEC_PAGE_SIZE

/-- Overwrite `src.length` bytes of a byte string from position `pos` on
(the effect of `memcpy(data + pos, src, n)` on the region). -/
def write_bytes (data : List Nat) (pos : Nat) (src : List Nat) : List Nat :=
  data.take pos ++ src ++ data.drop (pos + src.length)

/-- Function `buffer::copy(buf, len)`: a fresh region holding the first `len`
bytes of `buf`. -/
def copy (m : Mem) (buf : List Nat) (len : Nat) : Except Err (Nat × Mem) :=
  match create_aligned m len 8 with
  | .error e => .error e
  | .ok (i, m1) =>
    match m1.raws i with
    | none => .error .undefined
    | some r => .ok (i, m1.set_raw i (some { r with m_data := write_bytes r.m_data 0 (buf.take len) }))

/-- Read the raw object behind a `raw*`; a stale pointer is undefined
behaviour. -/
def Mem.get (m : Mem) (i : Nat) : Except Err raw :=
  match m.raws i with
  | none => .error .undefined
  | some r => .ok r

/-- The statement `praw->nref++`. -/
def Mem.nref_inc (m : Mem) (i : Nat) : Except Err Mem :=
  match m.raws i with
  | none => .error .undefined
  | some r => .ok (m.set_raw i (some { r with nref := r.nref + 1 }))

/-- The statement `praw->nref.store(1)`. -/
def Mem.nref_store_one (m : Mem) (i : Nat) : Except Err Mem :=
  match m.raws i with
  | none => .error .undefined
  | some r => .ok (m.set_raw i (some { r with nref := 1 }))

/-! ## `buffer::ptr` -/

/-- A `buffer::ptr`: the region it views (`none` is the null `raw*`), the
offset of the view in the region and the length of the view. -/
structure ptr where
  m_raw : Option Nat
  m_off : Nat
  m_len : Nat
deriving DecidableEq, Repr

/-- The default constructor `ptr()`. -/
def ptr.mk_empty : ptr := { m_raw := none, m_off := 0, m_len := 0 }

/-- Accessor `ptr::length`. -/
def ptr.length (p : ptr) : Nat := p.m_len

/-- Accessor `ptr::offset`. -/
def ptr.offset (p : ptr) : Nat := p.m_off

/-- Accessor `ptr::start`. -/
def ptr.start (p : ptr) : Nat := p.m_off

/-- Accessor `ptr::end`, a `uint64_t` sum. -/
def ptr.end_ (p : ptr) : Nat := (p.m_off + p.m_len) % U64

/-- Accessor `ptr::have_raw`. -/
def ptr.have_raw (p : ptr) : Bool := p.m_raw.isSome

/-- Private member `ptr::release`: the last reference deletes the region,
any other one decrements the count.  The second disjunct of
`last_reference || --nref == 0` is evaluated only for a count other than 1,
and the decrement of such a `uint64_t` is never 0 (a count of 0 becomes
`2 ^ 64 - 1`), so the region is deleted exactly in the first case. -/
def ptr.release (m : Mem) (p : ptr) : Except Err (ptr × Mem) :=
  match p.m_raw with
  | none => .ok (p, m)
  | some i =>
    match m.raws i with
    | none => .error .undefined
    | some r =>
      if r.nref = 1 then
        .ok ({ p with m_raw := none }, m.set_raw i none)
      else
        .ok ({ p with m_raw := none },
             m.set_raw i (some { r with nref := if r.nref = 0 then U64 - 1 else r.nref - 1 }))

/-- Constructor `ptr(unique_leakable_ptr<raw>)`. -/
def ptr.of_raw (m : Mem) (i : Nat) : Except Err (ptr × Mem) :=
  match m.raws i with
  | none => .error .undefined
  | some r => .ok ({ m_raw := some i, m_off := 0, m_len := r.get_len },
                   m.set_raw i (some { r with nref := 1 }))

/-- Constructor `ptr(uint64_t len)`. -/
def ptr.of_len (m : Mem) (len : Nat) : Except Err (ptr × Mem) :=
  match create m len with
  | .error e => .error e
  | .ok (i, m1) =>
    match m1.nref_store_one i with
    | .error e => .error e
    | .ok m2 => .ok ({ m_raw := some i, m_off := 0, m_len := len }, m2)

/-- Constructor `ptr(const char* d, uint64_t len)`. -/
def ptr.of_buf (m : Mem) (buf : List Nat) (len : Nat) : Except Err (ptr × Mem) :=
  match copy m buf len with
  | .error e => .error e
  | .ok (i, m1) =>
    match m1.nref_store_one i with
    | .error e => .error e
    | .ok m2 => .ok ({ m_raw := some i, m_off := 0, m_len := len }, m2)

/-- Copy constructor `ptr(const ptr&)`. -/
def ptr.copy_ctor (m : Mem) (bptr : ptr) : Except Err (ptr × Mem) :=
  match bptr.m_raw with
  | none => .ok ({ m_raw := none, m_off := bptr.m_off, m_len := bptr.m_len }, m)
  | some i =>
    match m.nref_inc i with
    | .error e => .error e
    | .ok m1 => .ok ({ m_raw := some i, m_off := bptr.m_off, m_len := bptr.m_len }, m1)

/-- Move constructor `ptr(ptr&&)`: the new ptr and the moved-from one. -/
def ptr.move_ctor (bptr : ptr) : ptr × ptr :=
  ({ m_raw := bptr.m_raw, m_off := bptr.m_off, m_len := bptr.m_len },
   { m_raw := none, m_off := 0, m_len := 0 })

/-- Slicing constructor `ptr(const ptr& bptr, uint64_t offset, uint64_t len)`. -/
def ptr.slice (m : Mem) (bptr : ptr) (offset len : Nat) : Except Err (ptr × Mem) :=
  if (offset + len) % U64 ≤ bptr.m_len then
    match bptr.m_raw with
    | none => .error .assert_failed
    | some i =>
      match m.nref_inc i with
      | .error e => .error e
      | .ok m1 => .ok ({ m_raw := some i, m_off := (bptr.m_off + offset) % U64, m_len := len }, m1)
  else .error .assert_failed

/-- Constructor `ptr(const ptr& bptr, unique_leakable_ptr<raw> pbraw)`. -/
def ptr.of_ptr_raw (m : Mem) (bptr : ptr) (i : Nat) : Except Err (ptr × Mem) :=
  match m.nref_store_one i with
  | .error e => .error e
  | .ok m1 => .ok ({ m_raw := some i, m_off := bptr.m_off, m_len := bptr.m_len }, m1)

/-- Copy assignment `this = bptr` for two distinct objects. -/
def ptr.assign (m : Mem) (this bptr : ptr) : Except Err (ptr × Mem) :=
  match (match bptr.m_raw with
         | none => Except.ok m
         | some i => m.nref_inc i) with
  | .error e => .error e
  | .ok m1 =>
    match this.release m1 with
    | .error e => .error e
    | .ok (this1, m2) =>
      match bptr.m_raw with
      | some i => .ok ({ this1 with m_raw := some i, m_off := bptr.m_off, m_len := bptr.m_len }, m2)
      | none => .ok ({ this1 with m_off := 0, m_len := 0 }, m2)

/-- Copy assignment `this = this`: the argument is the object itself, so the
fields read after `release()` are those that `release()` left behind. -/
def ptr.assign_self (m : Mem) (this : ptr) : Except Err (ptr × Mem) :=
  match (match this.m_raw with
         | none => Except.ok m
         | some i => m.nref_inc i) with
  | .error e => .error e
  | .ok m1 =>
    let bpraw := this.m_raw
    match this.release m1 with
    | .error e => .error e
    | .ok (this1, m2) =>
      match bpraw with
      | some i => .ok ({ this1 with m_raw := some i, m_off := this1.m_off, m_len := this1.m_len }, m2)
      | none => .ok ({ this1 with m_off := 0, m_len := 0 }, m2)

/-- Move assignment `this = std::move(bptr)`: the assigned ptr and the
moved-from one. -/
def ptr.move_assign (m : Mem) (this bptr : ptr) : Except Err (ptr × ptr × Mem) :=
  match this.release m with
  | .error e => .error e
  | .ok (this1, m1) =>
    match bptr.m_raw with
    | some i =>
      .ok ({ this1 with m_raw := some i, m_off := bptr.m_off, m_len := bptr.m_len },
           { m_raw := none, m_off := 0, m_len := 0 }, m1)
    | none => .ok ({ this1 with m_off := 0, m_len := 0 }, bptr, m1)

/-- Member `ptr::swap`. -/
def ptr.swap (this other : ptr) : ptr × ptr :=
  ({ m_raw := other.m_raw, m_off := other.m_off, m_len := other.m_len },
   { m_raw := this.m_raw, m_off := this.m_off, m_len := this.m_len })

/-- Accessor `ptr::raw_length`. -/
def ptr.raw_length (m : Mem) (p : ptr) : Except Err Nat :=
  match p.m_raw with
  | none => .error .assert_failed
  | some i =>
    match m.raws i with
    | none => .error .undefined
    | some r => .ok r.get_len

/-- Accessor `ptr::raw_nref`. -/
def ptr.raw_nref (m : Mem) (p : ptr) : Except Err Nat :=
  match p.m_raw with
  | none => .error .assert_failed
  | some i =>
    match m.raws i with
    | none => .error .undefined
    | some r => .ok r.nref

/-- Member `ptr::set_offset`. -/
def ptr.set_offset (m : Mem) (p : ptr) (offset : Nat) : Except Err ptr :=
  match p.raw_length m with
  | .error e => .error e
  | .ok rl => if rl ≥ offset then .ok { p with m_off := offset } else .error .assert_failed

/-- Member `ptr::set_length`. -/
def ptr.set_length (m : Mem) (p : ptr) (len : Nat) : Except Err ptr :=
  match p.raw_length m with
  | .error e => .error e
  | .ok rl => if rl ≥ len then .ok { p with m_len := len } else .error .assert_failed

/-- Member `ptr::unused_tail_length`, a `uint64_t` difference. -/
def ptr.unused_tail_length (m : Mem) (p : ptr) : Except Err Nat :=
  match p.m_raw with
  | none => .ok 0
  | some i =>
    match m.raws i with
    | none => .error .undefined
    | some r => .ok ((r.get_len + U64 - (p.m_off + p.m_len) % U64) % U64)

/-- The address `ptr::c_str()` returns. -/
def ptr.c_str_addr (m : Mem) (p : ptr) : Except Err Nat :=
  match p.m_raw with
  | none => .error .assert_failed
  | some i =>
    match m.raws i with
    | none => .error .undefined
    | some r => .ok (r.data_addr + p.m_off)

/-- The bytes of the view: the `length()` bytes at `c_str()`. -/
def ptr.bytes (m : Mem) (p : ptr) : List Nat :=
  match p.m_raw with
  | none => []
  | some i =>
    match m.raws i with
    | none => []
    | some r => (r.m_data.drop p.m_off).take p.m_len

/-- Member `ptr::is_aligned`. -/
def ptr.is_aligned (m : Mem) (p : ptr) (align : Nat) : Except Err Bool :=
  match p.c_str_addr m with
  | .error e => .error e
  | .ok a => .ok (a % U64 &&& ((align + U64 - 1) % U64) == 0)

/-- Member `ptr::is_n_align_sized`; the remainder by zero traps. -/
def ptr.is_n_align_sized (p : ptr) (align : Nat) : Except Err Bool :=
  if align = 0 then .error .undefined else .ok (p.m_len % align == 0)

/-- A store of `src` at offset `pos` of region `i`; a store that leaves the
region is undefined behaviour. -/
def Mem.store (m : Mem) (i : Nat) (pos : Nat) (src : List Nat) (crc_reset : Bool) :
    Except Err Mem :=
  match m.raws i with
  | none => .error .undefined
  | some r =>
    if pos + src.length ≤ r.m_data.length then
      let r1 := if crc_reset then r.invalidate_crc else r
      .ok (m.set_raw i (some { r1 with m_data := write_bytes r.m_data pos src }))
    else .error .undefined

/-- Member `ptr::append(const char* src, uint64_t len)`: the new view and
the returned end offset.  Reading `len` bytes from a shorter `src` is
undefined behaviour. -/
def ptr.append (m : Mem) (p : ptr) (src : List Nat) (len : Nat) :
    Except Err (Nat × ptr × Mem) :=
  match p.m_raw with
  | none => .error .assert_failed
  | some i =>
    match p.unused_tail_length m with
    | .error e => .error e
    | .ok gap =>
      if len ≤ gap then
        if src.length < len then .error .undefined else
        match m.store i (p.m_off + p.m_len) (src.take len) false with
        | .error e => .error e
        | .ok m1 =>
          let p1 := { p with m_len := p.m_len + len }
          .ok ((p1.m_off + p1.m_len) % U64, p1, m1)
      else .error .assert_failed

/-- Member `ptr::append(char c)`. -/
def ptr.append_char (m : Mem) (p : ptr) (c : Nat) : Except Err (Nat × ptr × Mem) :=
  match p.m_raw with
  | none => .error .assert_failed
  | some i =>
    match p.unused_tail_length m with
    | .error e => .error e
    | .ok gap =>
      if 1 ≤ gap then
        match m.store i (p.m_off + p.m_len) [c] false with
        | .error e => .error e
        | .ok m1 =>
          let p1 := { p with m_len := p.m_len + 1 }
          .ok ((p1.m_off + p1.m_len) % U64, p1, m1)
      else .error .assert_failed

/-- Member `ptr::append_zeros`. -/
def ptr.append_zeros (m : Mem) (p : ptr) (len : Nat) : Except Err (Nat × ptr × Mem) :=
  match p.m_raw with
  | none => .error .assert_failed
  | some i =>
    match p.unused_tail_length m with
    | .error e => .error e
    | .ok gap =>
      if len ≤ gap then
        match m.store i (p.m_off + p.m_len) (List.replicate len 0) false with
        | .error e => .error e
        | .ok m1 =>
          let p1 := { p with m_len := p.m_len + len }
          .ok ((p1.m_off + p1.m_len) % U64, p1, m1)
      else .error .assert_failed

/-- Member `ptr::copy_in`. -/
def ptr.copy_in (m : Mem) (p : ptr) (offset len : Nat) (src : List Nat) (crc_reset : Bool) :
    Except Err Mem :=
  match p.m_raw with
  | none => .error .assert_failed
  | some i =>
    if offset ≤ p.m_len ∧ (offset + len) % U64 ≤ p.m_len then
      if src.length < len then .error .undefined else
      m.store i (p.m_off + offset) (src.take len) crc_reset
    else .error .assert_failed

/-- Member `ptr::zero(bool crc_reset)`.  Without a region,
`m_raw->invalidate_crc()` is a null dereference and `c_str()` fails its
assertion. -/
def ptr.zero (m : Mem) (p : ptr) (crc_reset : Bool) : Except Err Mem :=
  match p.m_raw with
  | none => if crc_reset then .error .undefined else .error .assert_failed
  | some i => m.store i p.m_off (List.replicate p.m_len 0) crc_reset

/-- Member `ptr::zero(uint64_t offset, uint64_t len, bool crc_reset)`. -/
def ptr.zero_range (m : Mem) (p : ptr) (offset len : Nat) (crc_reset : Bool) : Except Err Mem :=
  if (offset + len) % U64 ≤ p.m_len then
    match p.m_raw with
    | none => if crc_reset then .error .undefined else .error .assert_failed
    | some i => m.store i (p.m_off + offset) (List.replicate len 0) crc_reset
  else .error .assert_failed

/-! ## `buffer::ptr_node` and `buffer::list` -/

/-- A `buffer::ptr_node`: a ptr that is linked into a chain.  `node_addr`
is the address of the node object. -/
structure ptr_node extends ptr where
  node_addr : Nat
deriving DecidableEq, Repr

/-- Allocate a node object (`new ptr_node(...)`) holding the ptr `p`. -/
def Mem.new_node (m : Mem) (p : ptr) : ptr_node × Mem :=
  ({ toptr := p, node_addr := m.next_node }, { m with next_node := m.next_node + 1 })

/-- Static member `ptr_node::create(const ptr&)`. -/
def ptr_node.create_copy (m : Mem) (bptr : ptr) : Except Err (ptr_node × Mem) :=
  match ptr.copy_ctor m bptr with
  | .error e => .error e
  | .ok (p, m1) => .ok (m1.new_node p)

/-- Static member `ptr_node::create(const ptr&, offset, len)`. -/
def ptr_node.create_slice (m : Mem) (bptr : ptr) (offset len : Nat) :
    Except Err (ptr_node × Mem) :=
  match ptr.slice m bptr offset len with
  | .error e => .error e
  | .ok (p, m1) => .ok (m1.new_node p)

/-- Static member `ptr_node::create(unique_leakable_ptr<raw>)`. -/
def ptr_node.create_raw (m : Mem) (i : Nat) : Except Err (ptr_node × Mem) :=
  match ptr.of_raw m i with
  | .error e => .error e
  | .ok (p, m1) => .ok (m1.new_node p)

/-- Static member `ptr_node::create(const uint64_t len)`. -/
def ptr_node.create_len (m : Mem) (len : Nat) : Except Err (ptr_node × Mem) :=
  match create m len with
  | .error e => .error e
  | .ok (i, m1) => ptr_node.create_raw m1 i

/-- The disposer of a node: the node object is deleted, which releases its
ptr. -/
def ptr_node.dispose (m : Mem) (n : ptr_node) : Except Err Mem :=
  match n.toptr.release m with
  | .error e => .error e
  | .ok (_, m1) => .ok m1

/-- A `buffer::list`: the chain of nodes, the tail cache (`none` is the
address of the static `always_empty_bptr`, `some a` the address of a node),
the cached total length and the cached node count. -/
structure list where
  _buffers : List ptr_node
  _tail_pnode_cache : Option Nat
  _len : Nat
  _num : Nat
deriving DecidableEq, Repr

/-- The default constructor `list()`. -/
def list.mk_empty : list :=
  { _buffers := [], _tail_pnode_cache := none, _len := 0, _num := 0 }

/-- Accessor `list::length`. -/
def list.length (L : list) : Nat := L._len

/-- Accessor `list::get_num_buffers`. -/
def list.get_num_buffers (L : list) : Nat := L._num

/-- The concatenated bytes of a chain of nodes. -/
def nodes_bytes (m : Mem) : List ptr_node → List Nat
  | [] => []
  | n :: rest => n.toptr.bytes m ++ nodes_bytes m rest

/-- The sum of the lengths of a chain of nodes. -/
def nodes_len : List ptr_node → Nat
  | [] => 0
  | n :: rest => n.m_len + nodes_len rest

/-- The content of a list: the bytes of its nodes, in order. -/
def list.bytes (m : Mem) (L : list) : List Nat := nodes_bytes m L._buffers

/-- The ptr behind `_tail_pnode_cache`: the always-empty ptr, or the node of
this list with the cached address.  A cached address that belongs to no node
of the list is a stale pointer. -/
def list.tail_cache_ptr (L : list) : Except Err ptr :=
  match L._tail_pnode_cache with
  | none => .ok ptr.mk_empty
  | some a =>
    match L._buffers.find? (fun n => n.node_addr == a) with
    | some n => .ok n.toptr
    | none => .error .undefined

/-- Accessor `list::get_append_buffer_unused_tail_length`. -/
def list.get_append_buffer_unused_tail_length (m : Mem) (L : list) : Except Err Nat :=
  match L.tail_cache_ptr with
  | .error e => .error e
  | .ok p => p.unused_tail_length m

/-- The comparison `_tail_pnode_cache == &_buffers.back()`.  On an empty
chain `back()` is the root hook, which is no node and not the always-empty
ptr. -/
def list.cache_is_back (L : list) : Bool :=
  match L._tail_pnode_cache, L._buffers.getLast? with
  | some a, some n => a == n.node_addr
  | _, _ => false

/-- Replace the ptr of the node at address `a` (a write through a node
pointer). -/
def set_node : List ptr_node → Nat → ptr → List ptr_node
  | [], _, _ => []
  | n :: rest, a, p =>
    if n.node_addr == a then { n with toptr := p } :: rest else n :: set_node rest a p

/-- Member `buffers_t::clear_and_dispose`. -/
def clear_and_dispose (m : Mem) : List ptr_node → Except Err Mem
  | [] => .ok m
  | n :: rest =>
    match n.dispose m with
    | .error e => .error e
    | .ok m1 => clear_and_dispose m1 rest

/-- Member `list::clear`. -/
def list.clear (m : Mem) (L : list) : Except Err (list × Mem) :=
  match clear_and_dispose m L._buffers with
  | .error e => .error e
  | .ok m1 => .ok ({ _buffers := [], _tail_pnode_cache := none, _len := 0, _num := 0 }, m1)

/-- Member `list::push_back(const ptr&)`. -/
def list.push_back (m : Mem) (L : list) (bptr : ptr) : Except Err (list × Mem) :=
  if bptr.length = 0 then .ok (L, m) else
  match ptr_node.create_copy m bptr with
  | .error e => .error e
  | .ok (n, m1) =>
    .ok ({ L with _buffers := L._buffers ++ [n], _len := add64 L._len bptr.length,
                  _num := add64 L._num 1 }, m1)

/-- Member `list::push_back(ptr&&)`: the list and what is left in the
argument. -/
def list.push_back_move (m : Mem) (L : list) (bptr : ptr) : list × ptr × Mem :=
  if bptr.length = 0 then (L, bptr, m) else
  let (p, moved) := ptr.move_ctor bptr
  let (n, m1) := m.new_node p
  ({ _buffers := L._buffers ++ [n], _tail_pnode_cache := none,
     _len := add64 L._len bptr.length, _num := add64 L._num 1 }, moved, m1)

/-- Member `list::push_back(std::unique_ptr<ptr_node, disposer>)`: a node
that is not linked dies with the argument. -/
def list.push_back_node (m : Mem) (L : list) (n : ptr_node) : Except Err (list × Mem) :=
  if n.length = 0 then
    match n.dispose m with
    | .error e => .error e
    | .ok m1 => .ok (L, m1)
  else
    .ok ({ _buffers := L._buffers ++ [n], _tail_pnode_cache := some n.node_addr,
           _len := add64 L._len n.length, _num := add64 L._num 1 }, m)

/-- Member `list::push_back(unique_leakable_ptr<raw>)`. -/
def list.push_back_raw (m : Mem) (L : list) (i : Nat) : Except Err (list × Mem) :=
  match ptr_node.create_raw m i with
  | .error e => .error e
  | .ok (n, m1) =>
    .ok ({ _buffers := L._buffers ++ [n], _tail_pnode_cache := some n.node_addr,
           _len := add64 L._len n.length, _num := add64 L._num 1 }, m1)

/-- The ptr of the node at address `a`; an address that belongs to no node
of the list is a stale pointer. -/
def list.node_ptr (L : list) (a : Nat) : Except Err ptr :=
  match L._buffers.find? (fun n => n.node_addr == a) with
  | some n => .ok n.toptr
  | none => .error .undefined

/-- The statements shared by every path that opens a new append buffer:
`ptr_node::create(raw)`, `set_length(0)`, the node becomes the tail cache and
the back of the chain, `_num += 1`. -/
def list.push_empty_tail (m : Mem) (L : list) (i : Nat) : Except Err (list × Mem) :=
  match ptr_node.create_raw m i with
  | .error e => .error e
  | .ok (n, m2) =>
    match n.toptr.set_length m2 0 with
    | .error e => .error e
    | .ok p0 =>
      let n0 : ptr_node := { n with toptr := p0 }
      .ok ({ L with _buffers := L._buffers ++ [n0],
                    _tail_pnode_cache := some n0.node_addr,
                    _num := add64 L._num 1 }, m2)

/-- Private member `list::refill_append_space`: a new combined region that
fills out an allocation unit becomes the new, empty back node and the tail
cache.  The returned reference `_buffers.back()` is the back of the
resulting list. -/
def list.refill_append_space (m : Mem) (L : list) (len : Nat) :
    Except Err (list × Mem) :=
  let need := round_up_to len 8 + sizeof_raw_combined
  let alen := round_up_to need SPEC_BUFFER_ALLOC_UNIT - sizeof_raw_combined
  match raw_combined.create m alen 0 with
  | .error e => .error e
  | .ok (i, m1) => L.push_empty_tail m1 i

/-- The statements that re-anchor a desynchronised tail cache:
`ptr_node::create(*_tail_pnode_cache, _tail_pnode_cache->length(), 0)`
becomes the new back node and the tail cache. -/
def list.reanchor (m : Mem) (L : list) : Except Err (list × Mem) :=
  match L.tail_cache_ptr with
  | .error e => .error e
  | .ok c =>
    match ptr_node.create_slice m c c.length 0 with
    | .error e => .error e
    | .ok (n, m1) =>
      .ok ({ L with _buffers := L._buffers ++ [n],
                    _tail_pnode_cache := some n.node_addr,
                    _num := add64 L._num 1 }, m1)

/-- The guarded re-anchoring
`if (_tail_pnode_cache != &_buffers.back()) { ... }` of the append paths. -/
def list.sync_tail (m : Mem) (L : list) : Except Err (list × Mem) :=
  if L.cache_is_back then .ok (L, m) else L.reanchor m

/-- The ptr of `_buffers.back()`; on an empty chain that is the root hook
read as a node. -/
def list.back_ptr (L : list) : Except Err ptr :=
  match L._buffers.getLast? with
  | some n => .ok n.toptr
  | none => .error .undefined

/-- Replace the ptr of the back node (a write through `_buffers.back()`). -/
def set_back (bs : List ptr_node) (p : ptr) : List ptr_node :=
  match bs.getLast? with
  | some n => bs.dropLast ++ [{ n with toptr := p }]
  | none => bs

/-- A call `new_back.append(src, len)` on the back node. -/
def list.back_append (m : Mem) (L : list) (src : List Nat) (len : Nat) :
    Except Err (list × Mem) :=
  match L.back_ptr with
  | .error e => .error e
  | .ok c =>
    match c.append m src len with
    | .error e => .error e
    | .ok (_, c1, m1) => .ok ({ L with _buffers := set_back L._buffers c1 }, m1)

/-- A call `new_back.set_length(len)` on the back node. -/
def list.back_set_length (m : Mem) (L : list) (len : Nat) : Except Err list :=
  match L.back_ptr with
  | .error e => .error e
  | .ok c =>
    match c.set_length m len with
    | .error e => .error e
    | .ok c1 => .ok { L with _buffers := set_back L._buffers c1 }

/-- A call `node.append(src, len)` on the node at address `a`. -/
def list.node_append (m : Mem) (L : list) (a : Nat) (src : List Nat) (len : Nat) :
    Except Err (list × Mem) :=
  match L.node_ptr a with
  | .error e => .error e
  | .ok c =>
    match c.append m src len with
    | .error e => .error e
    | .ok (_, c1, m1) => .ok ({ L with _buffers := set_node L._buffers a c1 }, m1)

/-- A call `node.append_zeros(len)` on the node at address `a`. -/
def list.node_append_zeros (m : Mem) (L : list) (a : Nat) (len : Nat) :
    Except Err (list × Mem) :=
  match L.node_ptr a with
  | .error e => .error e
  | .ok c =>
    match c.append_zeros m len with
    | .error e => .error e
    | .ok (_, c1, m1) => .ok ({ L with _buffers := set_node L._buffers a c1 }, m1)

/-- A call `node.set_length(len)` on the node at address `a`. -/
def list.node_set_length (m : Mem) (L : list) (a : Nat) (len : Nat) : Except Err list :=
  match L.node_ptr a with
  | .error e => .error e
  | .ok c =>
    match c.set_length m len with
    | .error e => .error e
    | .ok c1 => .ok { L with _buffers := set_node L._buffers a c1 }

/-- The statement `_tail_pnode_cache->append(data, len)`; on the
always-empty ptr the assertion of `ptr::append` fails. -/
def list.cache_append (m : Mem) (L : list) (src : List Nat) (len : Nat) :
    Except Err (list × Mem) :=
  match L._tail_pnode_cache with
  | none => .error .assert_failed
  | some a => L.node_append m a src len

/-- Member `list::append(char c)`. -/
def list.append_char (m : Mem) (L : list) (c : Nat) : Except Err (list × Mem) :=
  match L.get_append_buffer_unused_tail_length m with
  | .error e => .error e
  | .ok gap =>
    match (if gap = 0 then
             match raw_combined.create m SPEC_BUFFER_APPEND_SIZE 0 with
             | .error e => .error e
             | .ok (i, m1) =>
               L.push_empty_tail m1 i
           else L.sync_tail m) with
    | .error e => .error e
    | .ok (L1, m1) =>
      match L1.cache_append m1 [c] 1 with
      | .error e => .error e
      | .ok (L2, m2) => .ok ({ L2 with _len := add64 L2._len 1 }, m2)

/-- Member `list::append(const char* data, uint64_t len)`. -/
def list.append (m : Mem) (L : list) (data : List Nat) (len : Nat) :
    Except Err (list × Mem) :=
  let L0 := { L with _len := add64 L._len len }
  match L0.get_append_buffer_unused_tail_length m with
  | .error e => .error e
  | .ok tail_pnode_unused_length =>
    let first_append_len := min len tail_pnode_unused_length
    match (if first_append_len ≠ 0 then
             match L0.sync_tail m with
             | .error e => .error e
             | .ok (L1, m1) => L1.cache_append m1 data first_append_len
           else Except.ok (L0, m)) with
    | .error e => .error e
    | .ok (L2, m2) =>
      let left_append_len := len - first_append_len
      if left_append_len ≠ 0 then
        match L2.refill_append_space m2 left_append_len with
        | .error e => .error e
        | .ok (L3, m3) => L3.back_append m3 (data.drop first_append_len) left_append_len
      else .ok (L2, m2)

/-- Member `list::append(const ptr&)`. -/
def list.append_ptr (m : Mem) (L : list) (bptr : ptr) : Except Err (list × Mem) :=
  L.push_back m bptr

/-- Member `list::append(const ptr& bptr, uint64_t off, uint64_t len)`. -/
def list.append_ptr_range (m : Mem) (L : list) (bptr : ptr) (off len : Nat) :
    Except Err (list × Mem) :=
  if (len + off) % U64 ≤ bptr.length then
    let push : Except Err (list × Mem) :=
      match ptr_node.create_slice m bptr off len with
      | .error e => .error e
      | .ok (n, m1) =>
        .ok ({ L with _buffers := L._buffers ++ [n], _len := add64 L._len len,
                      _num := add64 L._num 1 }, m1)
    match L._buffers.getLast? with
    | none => push
    | some tail_bptr =>
      if tail_bptr.m_raw = bptr.m_raw ∧ tail_bptr.end_ = (bptr.start + off) % U64 then
        match tail_bptr.toptr.set_length m (add64 tail_bptr.length len) with
        | .error e => .error e
        | .ok t1 =>
          .ok ({ L with _buffers := L._buffers.dropLast ++ [{ tail_bptr with toptr := t1 }],
                        _len := add64 L._len len }, m)
      else push
  else .error .assert_failed

/-- The loop of `list::append(const list&)`: a copy of every node of the
argument is linked behind the chain. -/
def push_copies (m : Mem) (bs : List ptr_node) : List ptr_node → Except Err (List ptr_node × Mem)
  | [] => .ok (bs, m)
  | node :: rest =>
    match ptr_node.create_copy m node.toptr with
    | .error e => .error e
    | .ok (n, m1) => push_copies m1 (bs ++ [n]) rest

/-- Member `list::append(const list&)`, for an argument that is another
list. -/
def list.append_list (m : Mem) (L : list) (blist : list) : Except Err (list × Mem) :=
  match push_copies m L._buffers blist._buffers with
  | .error e => .error e
  | .ok (bs, m1) =>
    .ok ({ L with _buffers := bs, _len := add64 L._len blist._len, _num := add64 L._num blist._num }, m1)

/-- Member `list::append_hole`; the returned filler is not modelled. -/
def list.append_hole (m : Mem) (L : list) (len : Nat) : Except Err (list × Mem) :=
  let L0 := { L with _len := add64 L._len len }
  match L0.get_append_buffer_unused_tail_length m with
  | .error e => .error e
  | .ok gap =>
    if gap < len then
      match L0.refill_append_space m len with
      | .error e => .error e
      | .ok (L1, m1) =>
        match L1.back_set_length m1 len with
        | .error e => .error e
        | .ok L2 => .ok (L2, m1)
    else
      match L0.sync_tail m with
      | .error e => .error e
      | .ok (L1, m1) =>
        match L1._tail_pnode_cache with
        | none => .error .assert_failed
        | some a =>
          match L1.node_ptr a with
          | .error e => .error e
          | .ok c =>
            match L1.node_set_length m1 a (add64 c.length len) with
            | .error e => .error e
            | .ok L2 => .ok (L2, m1)

/-- Member `list::prepend_zero`. -/
def list.prepend_zero (m : Mem) (L : list) (len : Nat) : Except Err (list × Mem) :=
  match ptr_node.create_len m len with
  | .error e => .error e
  | .ok (n, m1) =>
    match n.toptr.zero m1 false with
    | .error e => .error e
    | .ok m2 =>
      .ok ({ L with _buffers := n :: L._buffers, _len := add64 L._len len, _num := add64 L._num 1 }, m2)

/-- Member `list::append_zero`. -/
def list.append_zero (m : Mem) (L : list) (len : Nat) : Except Err (list × Mem) :=
  let L0 := { L with _len := add64 L._len len }
  match L0.get_append_buffer_unused_tail_length m with
  | .error e => .error e
  | .ok tail_pnode_unused_length =>
    let first_append_len := min len tail_pnode_unused_length
    match (if first_append_len ≠ 0 then
             match L0.sync_tail m with
             | .error e => .error e
             | .ok (L1, m1) =>
               match L1._tail_pnode_cache with
               | none => .error .assert_failed
               | some a => L1.node_append_zeros m1 a first_append_len
           else Except.ok (L0, m)) with
    | .error e => .error e
    | .ok (L2, m2) =>
      let left_append_len := len - first_append_len
      if left_append_len ≠ 0 then
        match L2.refill_append_space m2 left_append_len with
        | .error e => .error e
        | .ok (L3, m3) =>
          match L3.back_set_length m3 left_append_len with
          | .error e => .error e
          | .ok L4 =>
            match L4.back_ptr with
            | .error e => .error e
            | .ok c =>
              match c.zero m3 false with
              | .error e => .error e
              | .ok m4 => .ok (L4, m4)
      else .ok (L2, m2)

/-- Member `list::reserve`. -/
def list.reserve (m : Mem) (L : list) (pre_alloc_size : Nat) : Except Err (list × Mem) :=
  match L.get_append_buffer_unused_tail_length m with
  | .error e => .error e
  | .ok gap =>
    if gap < pre_alloc_size then
      match create_page_aligned m pre_alloc_size with
      | .error e => .error e
      | .ok (i, m1) => L.push_empty_tail m1 i
    else .ok (L, m)

/-- Constructor `list(uint64_t pre_alloc_size)`. -/
def list.mk_reserved (m : Mem) (pre_alloc_size : Nat) : Except Err (list × Mem) :=
  list.mk_empty.reserve m pre_alloc_size

/-- Member `list::claim_append(list&)`, for an argument that is another
list: the list and what is left of the argument. -/
def list.claim_append (m : Mem) (L other_blist : list) : Except Err (list × list × Mem) :=
  let L1 := { L with _len := add64 L._len other_blist._len, _num := add64 L._num other_blist._num,
                     _buffers := L._buffers ++ other_blist._buffers }
  match ({ other_blist with _buffers := [] } : list).clear m with
  | .error e => .error e
  | .ok (o1, m1) => .ok (L1, o1, m1)

/-- The loop of `list::claim_append_piecewise`. -/
def append_nodes (m : Mem) (L : list) : List ptr_node → Except Err (list × Mem)
  | [] => .ok (L, m)
  | node :: rest =>
    match L.append_ptr_range m node.toptr 0 node.length with
    | .error e => .error e
    | .ok (L1, m1) => append_nodes m1 L1 rest

/-- Member `list::claim_append_piecewise`, for an argument that is another
list. -/
def list.claim_append_piecewise (m : Mem) (L other_blist : list) :
    Except Err (list × list × Mem) :=
  match append_nodes m L other_blist._buffers with
  | .error e => .error e
  | .ok (L1, m1) =>
    match other_blist.clear m1 with
    | .error e => .error e
    | .ok (o1, m2) => .ok (L1, o1, m2)

/-- Member `list::share`, for an argument that is another list. -/
def list.share (m : Mem) (L : list) (blist : list) : Except Err (list × Mem) :=
  match L.clear m with
  | .error e => .error e
  | .ok (L1, m1) =>
    match push_copies m1 L1._buffers blist._buffers with
    | .error e => .error e
    | .ok (bs, m2) => .ok ({ L1 with _buffers := bs, _len := blist._len, _num := blist._num }, m2)

/-- Member `list::swap`. -/
def list.swap (L other : list) : list × list := (other, L)

/-- The first loop of `list::substr_of`: skip the nodes that lie before
`off`.  Evaluating `curbuf->length()` on `end()` is undefined behaviour. -/
def substr_skip : List ptr_node → Nat → Except Err (List ptr_node × Nat)
  | [], off => if off > 0 then .error .undefined else .ok ([], off)
  | node :: rest, off =>
    if off > 0 ∧ off ≥ node.length then substr_skip rest (off - node.length)
    else .ok (node :: rest, off)

/-- The second loop of `list::substr_of`, `while (len >= 0)` on an unsigned
`len`: it is left only through the `break` of the partial branch.  The
subtractions cannot wrap under the guards that precede them. -/
def substr_loop (m : Mem) (L : list) : List ptr_node → Nat → Nat → Except Err (list × Mem)
  | [], _, _ => .error .undefined
  | curbuf :: rest, off, len =>
    if (off + len) % U64 < curbuf.length then
      match ptr_node.create_slice m curbuf.toptr off len with
      | .error e => .error e
      | .ok (n, m1) =>
        .ok ({ L with _buffers := L._buffers ++ [n], _len := add64 L._len len,
                      _num := add64 L._num 1 }, m1)
    else
      let create_len := curbuf.length - off
      match ptr_node.create_slice m curbuf.toptr off create_len with
      | .error e => .error e
      | .ok (n, m1) =>
        substr_loop m1 { L with _buffers := L._buffers ++ [n], _len := add64 L._len create_len,
                                _num := add64 L._num 1 } rest 0 (len - create_len)

/-- Member `list::substr_of`, for a source that is another list. -/
def list.substr_of (m : Mem) (L : list) (other : list) (off len : Nat) :
    Except Err (list × Mem) :=
  if (off + len) % U64 > other.length then .error .end_of_buffer else
  match L.clear m with
  | .error e => .error e
  | .ok (L1, m1) =>
    match substr_skip other._buffers off with
    | .error e => .error e
    | .ok (curbuf, off1) =>
      if len = 0 ∨ curbuf ≠ [] then substr_loop m1 L1 curbuf off1 len
      else .error .assert_failed

/-- The first loop of `list::splice`: the nodes before `off` stay in front
(`curbuf_prev` walks behind `curbuf`). -/
def splice_skip : List ptr_node → List ptr_node → Nat →
    Except Err (List ptr_node × List ptr_node × Nat)
  | pre, [], off => if off > 0 then .error .assert_failed else .ok (pre, [], off)
  | pre, curbuf :: rest, off =>
    if off > 0 ∧ off ≥ curbuf.length then splice_skip (pre ++ [curbuf]) rest (off - curbuf.length)
    else .ok (pre, curbuf :: rest, off)

/-- The call `claim_by->append(*curbuf, off, len)` guarded by
`if (claim_by)`. -/
def claim_append_range (m : Mem) (claim_by : Option list) (p : ptr) (off len : Nat) :
    Except Err (Option list × Mem) :=
  match claim_by with
  | none => .ok (none, m)
  | some C =>
    match C.append_ptr_range m p off len with
    | .error e => .error e
    | .ok (C1, m1) => .ok (some C1, m1)

/-- The removal loop `while (len > 0)` of `list::splice`, from the node
`curbuf` on.  The state is the chain from `curbuf` on, `off`, `len`, the
cached `_len` and `_num`, the claim target and the heap. -/
def splice_loop (m : Mem) (claim_by : Option list) :
    List ptr_node → Nat → Nat → Nat → Nat →
    Except Err (List ptr_node × Nat × Nat × Option list × Mem)
  | [], _, len, _len, _num =>
    if len = 0 then .ok ([], _len, _num, claim_by, m) else .error .undefined
  | curbuf :: rest, off, len, _len, _num =>
    if len = 0 then .ok (curbuf :: rest, _len, _num, claim_by, m)
    else if (off + len) % U64 < curbuf.length then
      match claim_append_range m claim_by curbuf.toptr off len with
      | .error e => .error e
      | .ok (claim1, m1) =>
        match curbuf.toptr.set_offset m1 (((off + len) % U64 + curbuf.offset) % U64) with
        | .error e => .error e
        | .ok p1 =>
          match p1.set_length m1 (p1.length - (len + off) % U64) with
          | .error e => .error e
          | .ok p2 =>
            .ok ({ curbuf with toptr := p2 } :: rest, sub64 _len ((off + len) % U64), _num,
                 claim1, m1)
    else
      let create_len := curbuf.length - off
      match claim_append_range m claim_by curbuf.toptr off create_len with
      | .error e => .error e
      | .ok (claim1, m1) =>
        match curbuf.dispose m1 with
        | .error e => .error e
        | .ok m2 =>
          splice_loop m2 claim1 rest 0 (len - create_len) (sub64 _len curbuf.length)
            (sub64 _num 1)

/-- Member `list::splice`, for a claim target that is another list (or
absent): the list and the claim target afterwards. -/
def list.splice (m : Mem) (L : list) (off len : Nat) (claim_by : Option list) :
    Except Err (list × Option list × Mem) :=
  if len = 0 then .ok (L, claim_by, m) else
  if off ≥ L.length then .error .end_of_buffer else
  match splice_skip [] L._buffers off with
  | .error e => .error e
  | .ok (pre, cur, off1) =>
    match (if off1 ≠ 0 then
             match cur with
             | [] => Except.error Err.undefined
             | curbuf :: _ =>
               match ptr_node.create_slice m curbuf.toptr 0 off1 with
               | .error e => .error e
               | .ok (n, m1) => .ok (pre ++ [n], add64 L._len off1, add64 L._num 1, m1)
           else .ok (pre, L._len, L._num, m)) with
    | .error e => .error e
    | .ok (pre1, len1, num1, m1) =>
      match splice_loop m1 claim_by cur off1 len len1 num1 with
      | .error e => .error e
      | .ok (cur1, len2, num2, claim1, m2) =>
        .ok ({ _buffers := pre1 ++ cur1, _tail_pnode_cache := none, _len := len2, _num := num2 },
             claim1, m2)

/-- Member `list::is_contiguous`. -/
def list.is_contiguous (L : list) : Bool := L._num ≤ 1

/-- The bytes that a read of `len` bytes at `p.c_str()` sees: the region
from the start of the view to the end of the region. -/
def ptr.c_str_data (m : Mem) (p : ptr) : Except Err (List Nat) :=
  match p.m_raw with
  | none => .error .assert_failed
  | some i =>
    match m.raws i with
    | none => .error .undefined
    | some r => .ok (r.m_data.drop p.m_off)

/-- The copy loop of `list::rebuild(nb)`:
`nb->copy_in(pos, node.length(), node.c_str(), false)` for every node. -/
def rebuild_copy (m : Mem) (nb : ptr) : List ptr_node → Nat → Except Err Mem
  | [], _ => .ok m
  | node :: rest, pos =>
    match node.toptr.c_str_data m with
    | .error e => .error e
    | .ok src =>
      match nb.copy_in m pos node.length src false with
      | .error e => .error e
      | .ok m1 => rebuild_copy m1 nb rest (add64 pos node.length)

/-- Member `raw::invalidate_crc` on the region with identity `i`. -/
def Mem.invalidate_crc (m : Mem) (i : Nat) : Except Err Mem :=
  match m.raws i with
  | none => .error .undefined
  | some r => .ok (m.set_raw i (some r.invalidate_crc))

/-- The loop of `list::invalidate_crc`. -/
def invalidate_crc_nodes (m : Mem) : List ptr_node → Except Err Mem
  | [] => .ok m
  | node :: rest =>
    match node.m_raw with
    | none => invalidate_crc_nodes m rest
    | some i =>
      match m.invalidate_crc i with
      | .error e => .error e
      | .ok m1 => invalidate_crc_nodes m1 rest

/-- Member `list::invalidate_crc`. -/
def list.invalidate_crc (m : Mem) (L : list) : Except Err Mem :=
  invalidate_crc_nodes m L._buffers

/-- Member `list::rebuild(std::unique_ptr<ptr_node, disposer> nb)`. -/
def list.rebuild_into (m : Mem) (L : list) (nb : ptr_node) : Except Err (list × Mem) :=
  match rebuild_copy m nb.toptr L._buffers 0 with
  | .error e => .error e
  | .ok m1 =>
    match clear_and_dispose m1 L._buffers with
    | .error e => .error e
    | .ok m2 =>
      if nb.length ≠ 0 then
        let L1 : list := { L with _buffers := [nb], _tail_pnode_cache := some nb.node_addr,
                                  _num := 1 }
        match L1.invalidate_crc m2 with
        | .error e => .error e
        | .ok m3 => .ok (L1, m3)
      else
        let L1 : list := { L with _buffers := [], _tail_pnode_cache := none, _num := 0 }
        match L1.invalidate_crc m2 with
        | .error e => .error e
        | .ok m3 =>
          match nb.dispose m3 with
          | .error e => .error e
          | .ok m4 => .ok (L1, m4)

/-- Member `list::rebuild()`. -/
def list.rebuild (m : Mem) (L : list) : Except Err (list × Mem) :=
  if L._len = 0 then
    match clear_and_dispose m L._buffers with
    | .error e => .error e
    | .ok m1 => .ok ({ L with _buffers := [], _tail_pnode_cache := none, _num := 0 }, m1)
  else
    match (if L._len % SPEC_PAGE_SIZE = 0 then create_page_aligned m L._len
           else create m L._len) with
    | .error e => .error e
    | .ok (i, m1) =>
      match ptr_node.create_raw m1 i with
      | .error e => .error e
      | .ok (nb, m2) => L.rebuild_into m2 nb

/-- The test `it->is_aligned(align_memory) && it->is_n_align_sized(align_size)`
with its short-circuit evaluation. -/
def node_keep (m : Mem) (it : ptr_node) (align_size align_memory : Nat) : Except Err Bool :=
  match it.toptr.is_aligned m align_memory with
  | .error e => .error e
  | .ok false => .ok false
  | .ok true => it.toptr.is_n_align_sized align_size

/-- The loop condition `!it->is_aligned(align_memory) ||
!it->is_n_align_sized(align_size) || (unaligned_list_len % align_size)` with
its short-circuit evaluation. -/
def node_gather (m : Mem) (it : ptr_node) (align_size align_memory unaligned_list_len : Nat) :
    Except Err Bool :=
  match it.toptr.is_aligned m align_memory with
  | .error e => .error e
  | .ok false => .ok true
  | .ok true =>
    match it.toptr.is_n_align_sized align_size with
    | .error e => .error e
    | .ok false => .ok true
    | .ok true => .ok (unaligned_list_len % align_size != 0)

/-- The statements of `list::rebuild_aligned_size_and_memory` that follow
the gathering loop: the gathered list is rebuilt unless it is one aligned
node, a copy of its front node is linked behind `it_prev`, and the gathered
list dies at the end of the loop body.  The result is the node to link and
whether a rebuild took place. -/
def consolidate (m : Mem) (unaligned_list : list) (align_memory : Nat) :
    Except Err (ptr_node × Bool × Mem) :=
  let finish (ul : list) (rebuilt : Bool) (m1 : Mem) : Except Err (ptr_node × Bool × Mem) :=
    match ul._buffers with
    | [] => .error .undefined
    | front :: _ =>
      match ptr_node.create_copy m1 front.toptr with
      | .error e => .error e
      | .ok (n, m2) =>
        match clear_and_dispose m2 ul._buffers with
        | .error e => .error e
        | .ok m3 => .ok (n, rebuilt, m3)
  let rebuild_it : Except Err (ptr_node × Bool × Mem) :=
    match create_aligned m unaligned_list._len align_memory with
    | .error e => .error e
    | .ok (i, m1) =>
      match ptr_node.create_raw m1 i with
      | .error e => .error e
      | .ok (nb, m2) =>
        match unaligned_list.rebuild_into m2 nb with
        | .error e => .error e
        | .ok (ul, m3) => finish ul true m3
  if unaligned_list.is_contiguous then
    match unaligned_list._buffers with
    | [] => .error .undefined
    | front :: _ =>
      match front.toptr.is_aligned m align_memory with
      | .error e => .error e
      | .ok true => finish unaligned_list false m
      | .ok false => rebuild_it
  else rebuild_it

/-- The main loop of `list::rebuild_aligned_size_and_memory`.  `kept` is
the chain up to `it_prev`, `run` the gathered list while the inner
`do ... while` is running (`none` between runs), `num` the field `_num`,
and the last argument the chain from `it` on. -/
def rebuild_aligned_loop (align_size align_memory : Nat) (m : Mem) (kept : List ptr_node)
    (run : Option list) (num : Nat) (must_rebuild : Bool) :
    List ptr_node → Except Err (List ptr_node × Nat × Bool × Mem)
  | [] =>
    match run with
    | none => .ok (kept, num, must_rebuild, m)
    | some ul =>
      match consolidate m ul align_memory with
      | .error e => .error e
      | .ok (n, rebuilt, m1) => .ok (kept ++ [n], add64 num 1, must_rebuild || rebuilt, m1)
  | it :: rest =>
    let gather (ul : list) : list :=
      { ul with _buffers := ul._buffers ++ [it], _len := add64 ul._len it.length,
                _num := add64 ul._num 1 }
    match run with
    | none =>
      match node_keep m it align_size align_memory with
      | .error e => .error e
      | .ok true =>
        rebuild_aligned_loop align_size align_memory m (kept ++ [it]) none num must_rebuild rest
      | .ok false =>
        rebuild_aligned_loop align_size align_memory m kept (some (gather list.mk_empty))
          (sub64 num 1) must_rebuild rest
    | some ul =>
      match node_gather m it align_size align_memory ul._len with
      | .error e => .error e
      | .ok true =>
        rebuild_aligned_loop align_size align_memory m kept (some (gather ul))
          (sub64 num 1) must_rebuild rest
      | .ok false =>
        match consolidate m ul align_memory with
        | .error e => .error e
        | .ok (n, rebuilt, m1) =>
          match node_keep m1 it align_size align_memory with
          | .error e => .error e
          | .ok true =>
            rebuild_aligned_loop align_size align_memory m1 (kept ++ [n, it]) none
              (add64 num 1) (must_rebuild || rebuilt) rest
          | .ok false =>
            rebuild_aligned_loop align_size align_memory m1 (kept ++ [n])
              (some (gather list.mk_empty)) (sub64 (add64 num 1) 1) (must_rebuild || rebuilt) rest

/-- Member `list::rebuild_aligned_size_and_memory`: the list and the
returned flag. -/
def list.rebuild_aligned_size_and_memory (m : Mem) (L : list)
    (align_size align_memory max_buffers : Nat) : Except Err (list × Bool × Mem) :=
  let align_size1 :=
    if max_buffers ≠ 0 ∧ L._num > max_buffers ∧ L._len > (max_buffers * align_size) % U64 then
      round_up_to (round_up_to L._len max_buffers / max_buffers) align_size
    else align_size
  match rebuild_aligned_loop align_size1 align_memory m [] none L._num false L._buffers with
  | .error e => .error e
  | .ok (bs, num, must_rebuild, m1) => .ok ({ L with _buffers := bs, _num := num }, must_rebuild, m1)

/-- Member `list::rebuild_aligned`. -/
def list.rebuild_aligned (m : Mem) (L : list) (align : Nat) : Except Err (list × Bool × Mem) :=
  L.rebuild_aligned_size_and_memory m align align 0

/-- The loop of `list::is_aligned`. -/
def nodes_aligned (m : Mem) (align : Nat) : List ptr_node → Except Err Bool
  | [] => .ok true
  | node :: rest =>
    match node.toptr.is_aligned m align with
    | .error e => .error e
    | .ok false => .ok false
    | .ok true => nodes_aligned m align rest

/-- Member `list::is_aligned`. -/
def list.is_aligned (m : Mem) (L : list) (align : Nat) : Except Err Bool :=
  nodes_aligned m align L._buffers

/-- The loop of `list::crc32c`: the running digest is the seed of the next
node.  The length handed to `spec_crc32c` is narrowed to `unsigned`. -/
def crc32c_loop (m : Mem) : List ptr_node → Nat → Except Err (Nat × Mem)
  | [], crc => .ok (crc, m)
  | node :: rest, crc =>
    if node.length = 0 then crc32c_loop m rest crc else
    match node.m_raw with
    | none => .error .undefined
    | some i =>
      match m.raws i with
      | none => .error .undefined
      | some pbraw =>
        let ofs := (node.offset, (node.offset + node.length) % U64)
        match pbraw.get_crc ofs with
        | some ccrc =>
          if ccrc.1 = crc then crc32c_loop m rest ccrc.2
          else
            crc32c_loop m rest
              (ccrc.2 ^^^ spec_crc32c (ccrc.1 ^^^ crc) none (node.length % U32))
        | none =>
          let base := crc
          let crc1 := spec_crc32c crc (some (pbraw.m_data.drop node.m_off)) (node.length % U32)
          crc32c_loop (m.set_raw i (some (pbraw.set_crc ofs (base, crc1)))) rest crc1

/-- Member `list::crc32c`: the digest and the heap with the updated
checksum caches. -/
def list.crc32c (m : Mem) (L : list) (crc : Nat) : Except Err (Nat × Mem) :=
  crc32c_loop m L._buffers crc

/-! ## Predicates and inputs for the checksum walk -/

/-- The one-entry checksum cache of a region is empty, or it holds a
(seed, digest) pair computed over the current bytes of exactly the cached
range. -/
def raw.cache_valid (r : raw) : Bool :=
  r.last_crc_offset == (SIZE_MAX, SIZE_MAX) ||
  r.last_crc_val.2 == crc32c_bytes r.last_crc_val.1
    ((r.m_data.drop r.last_crc_offset.1).take (r.last_crc_offset.2 - r.last_crc_offset.1))

/-- What `list::crc32c` needs of a node: a node without region is empty, and
the view of any other node lies inside a live region of fewer than `2 ^ 64`
bytes whose checksum cache is valid, and is shorter than `2 ^ 32` bytes. -/
def crc_ready (m : Mem) (n : ptr_node) : Bool :=
  match n.m_raw with
  | none => n.m_len == 0
  | some i =>
    match m.raws i with
    | none => false
    | some r =>
      decide (n.m_off + n.m_len ≤ r.m_data.length) && decide (r.m_data.length < U64) &&
      decide (n.m_len < U32) && r.cache_valid

/-- A region of `2 ^ 32` zero bytes followed by one byte 1, with an empty
checksum cache. -/
def crc_cex_mem : Mem :=
  Mem.empty.set_raw 0 (some { m_data := List.replicate (2 ^ 32) 0 ++ [1], data_addr := 0,
                              nref := 1, last_crc_offset := (SIZE_MAX, SIZE_MAX),
                              last_crc_val := (0, 0) })

/-- The list whose single node views the whole region of `crc_cex_mem`. -/
def crc_cex_list : list :=
  { _buffers := [{ m_raw := some 0, m_off := 0, m_len := 2 ^ 32 + 1, node_addr := 0 }],
    _tail_pnode_cache := none, _len := 2 ^ 32 + 1, _num := 1 }

/-- A heap with one region holding the byte `A`, its checksum cached for
seed 7. -/
def crc_wit_mem : Mem :=
  Mem.empty.set_raw 0 (some { m_data := [65, 0, 0], data_addr := 0, nref := 1,
                              last_crc_offset := (0, 1),
                              last_crc_val := (7, crc32c_bytes 7 [65]) })

/-- The list `A` over `crc_wit_mem`. -/
def crc_wit_list : list :=
  { _buffers := [{ m_raw := some 0, m_off := 0, m_len := 1, node_addr := 0 }],
    _tail_pnode_cache := none, _len := 1, _num := 1 }

/-! ## Observations and concrete inputs -/

/-- The bytes of a text, as byte values. -/
def str (s : String) : List Nat := s.toList.map (fun c => c.toNat)

/-- What a caller can see of a list after an operation: `length()`,
`get_num_buffers()`, the node lengths and the content. -/
def observe (r : Except Err (list × Mem)) : Except Err (Nat × Nat × List Nat × List Nat) :=
  match r with
  | .error e => .error e
  | .ok (L, m) => .ok (L._len, L._num, L._buffers.map (fun n => n.m_len), L.bytes m)

/-- The statement `bl.push_back(buffer_ptr(s, len))` of the tests: a ptr is
built over a copy of the text, linked, and dropped at the end of the
statement. -/
def push_text (m : Mem) (L : list) (s : String) : Except Err (list × Mem) :=
  match ptr.of_buf m (str s) (str s).length with
  | .error e => .error e
  | .ok (p, m1) =>
    match L.push_back m1 p with
    | .error e => .error e
    | .ok (L1, m2) =>
      match p.release m2 with
      | .error e => .error e
      | .ok (_, m3) => .ok (L1, m3)

/-- A list built by one `push_back` per text, starting from the empty list
and the empty heap. -/
def list_of_texts : List String → Except Err (list × Mem)
  | [] => .ok (list.mk_empty, Mem.empty)
  | s :: rest =>
    match list_of_texts rest with
    | .error e => .error e
    | .ok (L, m) => push_text m L s

/-- The list `ABC`, `DEF`, `GHI`, `JKL` of the tests (the texts are pushed
from the last one of the argument to the first). -/
def list_abc_jkl : Except Err (list × Mem) := list_of_texts ["JKL", "GHI", "DEF", "ABC"]

/-- The call `dest.substr_of(src, 0, src.length())` on the one-node list
`ABC`, with an empty destination. -/
def substr_full_abc : Except Err (list × Mem) := do
  let (L, m) ← list_of_texts ["ABC"]
  list.mk_empty.substr_of m L 0 L.length

/-- The call `dest.substr_of(src, 0, 0)` on the empty list. -/
def substr_full_empty : Except Err (list × Mem) :=
  list.mk_empty.substr_of Mem.empty list.mk_empty 0 list.mk_empty.length

/-- The call `dest.substr_of(src, 4, 4)` of the test on `ABC`, `DEF`, `GHI`,
`JKL`. -/
def substr_4_4 : Except Err (list × Mem) := do
  let (L, m) ← list_abc_jkl
  list.mk_empty.substr_of m L 4 4

/-- The call `dest.substr_of(src, 4, 8)` on `ABC`, `DEF`, `GHI`, `JKL`: the
range ends with the source. -/
def substr_4_8 : Except Err (list × Mem) := do
  let (L, m) ← list_abc_jkl
  list.mk_empty.substr_of m L 4 8

/-- A list with one empty node at an odd address, built by
`bl.append(ptr, 1, 0)` from a ptr over a 32-aligned region of 2 bytes. -/
def list_empty_slice : Except Err (list × Mem) := do
  let (i, m) ← create_aligned Mem.empty 2 32
  let (p, m) ← ptr.of_raw m i
  list.mk_empty.append_ptr_range m p 1 0

/-- The call `bl.rebuild_aligned(32)` on `list_empty_slice`. -/
def rebuild_aligned_empty_slice : Except Err (list × Bool × Mem) := do
  let (L, m) ← list_empty_slice
  L.rebuild_aligned m 32

/-- The list of the test `is_aligned`: one byte at offset 1 of a 32-aligned
region. -/
def list_odd_byte : Except Err (list × Mem) := do
  let (i, m) ← create_aligned Mem.empty 2 32
  let (p, m) ← ptr.of_raw m i
  let p ← p.set_offset m 1
  let p ← p.set_length m 1
  list.mk_empty.append_ptr m p

/-- The call `bl.rebuild_aligned(32)` of the test `is_aligned`, followed by
`bl.is_aligned(32)`. -/
def rebuild_aligned_odd_byte : Except Err (Bool × Nat × Nat) := do
  let (L, m) ← list_odd_byte
  let (L1, _, m1) ← L.rebuild_aligned m 32
  let a ← L1.is_aligned m1 32
  pure (a, L1._len, L1._num)

/-- A list of two nodes: 64 bytes in a 64-aligned region, pushed with
`append(ptr)`, and the empty page-aligned node that `reserve(10)` adds. -/
def list_full_and_reserved : Except Err (list × Mem) := do
  let (i, m) ← create_aligned Mem.empty 64 64
  let (p, m) ← ptr.of_raw m i
  let (L, m) ← list.mk_empty.append_ptr m p
  L.reserve m 10

/-- The call `bl.rebuild_aligned_size_and_memory(64, 64, 1)` on
`list_full_and_reserved`: the returned flag and the node count afterwards. -/
def rebuild_max_one : Except Err (Bool × Nat × Nat) := do
  let (L, m) ← list_full_and_reserved
  let (L1, b, _) ← L.rebuild_aligned_size_and_memory m 64 64 1
  pure (b, L1._num, L1._buffers.length)

/-! ## The operations of a ptr, and the ptr invariant -/

/-- The ptr invariant: a ptr without region has offset 0 and length 0, and
the view of a ptr with a region lies inside that live region. -/
def ptr.inv (m : Mem) (p : ptr) : Bool :=
  match p.m_raw with
  | none => p.m_off == 0 && p.m_len == 0
  | some i =>
    match m.raws i with
    | none => false
    | some r => decide (p.m_off + p.m_len ≤ r.get_len)

/-- Every region referenced by one of the ptrs `ps` is live and counts at
least as many references as there are ptrs in `ps` that reference it. -/
def refs_counted (m : Mem) (ps : List ptr) : Bool :=
  ps.all (fun p =>
    match p.m_raw with
    | none => true
    | some i =>
      match m.raws i with
      | none => false
      | some r => decide ((ps.filter (fun q => q.m_raw == some i)).length ≤ r.nref))

/-- No region lives at an identity that the heap has not handed out yet. -/
def Mem.fresh (m : Mem) : Prop := ∀ i, m.next_raw ≤ i → m.raws i = none

/-- The operations of a ptr `this`: the constructors (those that read
another ptr read `this`), the assignments, `swap`, the two setters and the
appends. -/
inductive ptr_op where
  | default_ctor
  | of_raw (i : Nat)
  | of_len (len : Nat)
  | of_buf (buf : List Nat) (len : Nat)
  | copy_ctor
  | move_ctor
  | slice (offset len : Nat)
  | of_ptr_raw (i : Nat)
  | assign (bptr : ptr)
  | assign_self
  | move_assign (bptr : ptr)
  | swap (other : ptr)
  | set_offset (offset : Nat)
  | set_length (len : Nat)
  | append (src : List Nat) (len : Nat)
  | append_char (c : Nat)
  | append_zeros (len : Nat)

/-- The ptrs an operation reads besides `this`. -/
def ptr_op.args : ptr_op → List ptr
  | .assign bptr => [bptr]
  | .move_assign bptr => [bptr]
  | .swap other => [other]
  | _ => []

/-- Run an operation on `this`: the ptr objects that exist afterwards (the
ptr itself, then the argument or the constructed ptr) and the heap. -/
def ptr_op.run (m : Mem) (this : ptr) : ptr_op → Except Err (List ptr × Mem)
  | .default_ctor => .ok ([this, ptr.mk_empty], m)
  | .of_raw i =>
    match ptr.of_raw m i with
    | .error e => .error e
    | .ok (p, m1) => .ok ([this, p], m1)
  | .of_len len =>
    match ptr.of_len m len with
    | .error e => .error e
    | .ok (p, m1) => .ok ([this, p], m1)
  | .of_buf buf len =>
    match ptr.of_buf m buf len with
    | .error e => .error e
    | .ok (p, m1) => .ok ([this, p], m1)
  | .copy_ctor =>
    match ptr.copy_ctor m this with
    | .error e => .error e
    | .ok (p, m1) => .ok ([this, p], m1)
  | .move_ctor =>
    let (p, moved) := ptr.move_ctor this
    .ok ([moved, p], m)
  | .slice offset len =>
    match ptr.slice m this offset len with
    | .error e => .error e
    | .ok (p, m1) => .ok ([this, p], m1)
  | .of_ptr_raw i =>
    match ptr.of_ptr_raw m this i with
    | .error e => .error e
    | .ok (p, m1) => .ok ([this, p], m1)
  | .assign bptr =>
    match ptr.assign m this bptr with
    | .error e => .error e
    | .ok (p, m1) => .ok ([p, bptr], m1)
  | .assign_self =>
    match ptr.assign_self m this with
    | .error e => .error e
    | .ok (p, m1) => .ok ([p], m1)
  | .move_assign bptr =>
    match ptr.move_assign m this bptr with
    | .error e => .error e
    | .ok (p, moved, m1) => .ok ([p, moved], m1)
  | .swap other =>
    let (p, q) := ptr.swap this other
    .ok ([p, q], m)
  | .set_offset offset =>
    match this.set_offset m offset with
    | .error e => .error e
    | .ok p => .ok ([p], m)
  | .set_length len =>
    match this.set_length m len with
    | .error e => .error e
    | .ok p => .ok ([p], m)
  | .append src len =>
    match this.append m src len with
    | .error e => .error e
    | .ok (_, p, m1) => .ok ([p], m1)
  | .append_char c =>
    match this.append_char m c with
    | .error e => .error e
    | .ok (_, p, m1) => .ok ([p], m1)
  | .append_zeros len =>
    match this.append_zeros m len with
    | .error e => .error e
    | .ok (_, p, m1) => .ok ([p], m1)

/-- The side condition under which an operation keeps the ptr invariant:
the setters do not compare the sum of offset and length with the region, the
slicing constructor adds `offset + len` as 64-bit values, and
`ptr(const ptr&, raw)` takes offset and length over to a region it does not
measure.  Every other operation keeps the invariant unconditionally. -/
def ptr_op.keeps (m : Mem) (this : ptr) : ptr_op → Bool
  | .set_offset offset =>
    match this.raw_length m with
    | .ok rl => decide (offset + this.m_len ≤ rl)
    | .error _ => true
  | .set_length len =>
    match this.raw_length m with
    | .ok rl => decide (this.m_off + len ≤ rl)
    | .error _ => true
  | .slice offset len => decide (offset + len < U64)
  | .of_ptr_raw i =>
    match m.raws i with
    | some r => decide (this.m_off + this.m_len ≤ r.get_len)
    | none => true
  | _ => true

/-- A region of 10 zero bytes, referenced once. -/
def raw_ten : raw :=
  { m_data := List.replicate 10 0, data_addr := 0, nref := 1,
    last_crc_offset := (SIZE_MAX, SIZE_MAX), last_crc_val := (0, 0) }

/-- A heap with the one region `raw_ten`. -/
def mem_ten : Mem :=
  { raws := fun j => if j = 0 then some raw_ten else none,
    next_raw := 1, brk := 16, next_node := 0 }

/-- The ptr over the whole region of `mem_ten`. -/
def ptr_ten : ptr := { m_raw := some 0, m_off := 0, m_len := 10 }

/-- A heap with one region of 10 bytes, referenced twice, and a second
region of 5 bytes not referenced yet. -/
def mem_shared : Mem :=
  { raws := fun j =>
      if j = 0 then
        some { m_data := List.replicate 10 0, data_addr := 0, nref := 2,
               last_crc_offset := (SIZE_MAX, SIZE_MAX), last_crc_val := (0, 0) }
      else if j = 1 then
        some { m_data := List.replicate 5 0, data_addr := 16, nref := 0,
               last_crc_offset := (SIZE_MAX, SIZE_MAX), last_crc_val := (0, 0) }
      else none,
    next_raw := 2, brk := 32, next_node := 0 }

/-- The reference count of region `i` after an operation. -/
def nref_after (r : Except Err (ptr × Mem)) (i : Nat) : Except Err (Option Nat) :=
  match r with
  | .error e => .error e
  | .ok (_, m) => .ok ((m.raws i).map raw.nref)

/-- Whether every ptr left by an operation satisfies the invariant. -/
def inv_after (r : Except Err (List ptr × Mem)) : Except Err (List Bool) :=
  match r with
  | .error e => .error e
  | .ok (ps, m) => .ok (ps.map (fun p => p.inv m))

/-- The effect of a successful allocation of `len` bytes: the region gets
the next identity, starts with no reference and an empty checksum cache, and
every other region is untouched. -/
def allocated (m : Mem) (len i : Nat) (m1 : Mem) : Prop :=
  i = m.next_raw ∧ m1.next_raw = m.next_raw + 1 ∧ m1.next_node = m.next_node ∧
  (∀ j, j ≠ m.next_raw → m1.raws j = m.raws j) ∧
  ∃ r, m1.raws m.next_raw = some r ∧ r.m_data = List.replicate len 0 ∧ r.nref = 0 ∧
    r.last_crc_offset = (SIZE_MAX, SIZE_MAX)

/-! ## The mutators of a list, and the counter invariant -/

/-- The counter invariant of a list: `_len` is the sum of the node lengths
and `_num` the number of linked nodes, as `uint64_t` values (that is, modulo
`2 ^ 64`, which is the identity on every sum and count that fits). -/
def list.counted (L : list) : Prop :=
  L._len = nodes_len L._buffers % U64 ∧ L._num = L._buffers.length % U64

instance (L : list) : Decidable L.counted := by
  unfold list.counted
  exact inferInstance

/-- The mutators of a list `this`.  `append` stands for the overloads that
take characters (`const char*`, `std::string`, `std::string_view`), and
`push_back_move` also for `append(ptr&&)`. -/
inductive list_op where
  | push_back (bptr : ptr)
  | push_back_move (bptr : ptr)
  | push_back_node (n : ptr_node)
  | push_back_raw (i : Nat)
  | append_char (c : Nat)
  | append (data : List Nat) (len : Nat)
  | append_ptr (bptr : ptr)
  | append_ptr_range (bptr : ptr) (off len : Nat)
  | append_list (blist : list)
  | append_zero (len : Nat)
  | append_hole (len : Nat)
  | prepend_zero (len : Nat)
  | reserve (pre_alloc_size : Nat)
  | claim_append (other : list)
  | claim_append_piecewise (other : list)
  | splice (off len : Nat) (claim_by : Option list)
  | substr_of (other : list) (off len : Nat)
  | share (blist : list)
  | swap (other : list)
  | clear
  | rebuild
  | rebuild_aligned_size_and_memory (align_size align_memory max_buffers : Nat)

/-- The lists an operation reads or changes besides `this`. -/
def list_op.args : list_op → List list
  | .append_list blist => [blist]
  | .claim_append other => [other]
  | .claim_append_piecewise other => [other]
  | .splice _ _ (some C) => [C]
  | .substr_of other _ _ => [other]
  | .share blist => [blist]
  | .swap other => [other]
  | _ => []

/-- Run a mutator on `this`: the list itself afterwards, followed by the
other list the operation changes (if any), and the heap. -/
def list_op.run (m : Mem) (this : list) : list_op → Except Err (List list × Mem)
  | .push_back bptr =>
    match this.push_back m bptr with
    | .error e => .error e
    | .ok (L, m1) => .ok ([L], m1)
  | .push_back_move bptr =>
    let (L, _, m1) := this.push_back_move m bptr
    .ok ([L], m1)
  | .push_back_node n =>
    match this.push_back_node m n with
    | .error e => .error e
    | .ok (L, m1) => .ok ([L], m1)
  | .push_back_raw i =>
    match this.push_back_raw m i with
    | .error e => .error e
    | .ok (L, m1) => .ok ([L], m1)
  | .append_char c =>
    match this.append_char m c with
    | .error e => .error e
    | .ok (L, m1) => .ok ([L], m1)
  | .append data len =>
    match this.append m data len with
    | .error e => .error e
    | .ok (L, m1) => .ok ([L], m1)
  | .append_ptr bptr =>
    match this.append_ptr m bptr with
    | .error e => .error e
    | .ok (L, m1) => .ok ([L], m1)
  | .append_ptr_range bptr off len =>
    match this.append_ptr_range m bptr off len with
    | .error e => .error e
    | .ok (L, m1) => .ok ([L], m1)
  | .append_list blist =>
    match this.append_list m blist with
    | .error e => .error e
    | .ok (L, m1) => .ok ([L], m1)
  | .append_zero len =>
    match this.append_zero m len with
    | .error e => .error e
    | .ok (L, m1) => .ok ([L], m1)
  | .append_hole len =>
    match this.append_hole m len with
    | .error e => .error e
    | .ok (L, m1) => .ok ([L], m1)
  | .prepend_zero len =>
    match this.prepend_zero m len with
    | .error e => .error e
    | .ok (L, m1) => .ok ([L], m1)
  | .reserve pre_alloc_size =>
    match this.reserve m pre_alloc_size with
    | .error e => .error e
    | .ok (L, m1) => .ok ([L], m1)
  | .claim_append other =>
    match this.claim_append m other with
    | .error e => .error e
    | .ok (L, o, m1) => .ok ([L, o], m1)
  | .claim_append_piecewise other =>
    match this.claim_append_piecewise m other with
    | .error e => .error e
    | .ok (L, o, m1) => .ok ([L, o], m1)
  | .splice off len claim_by =>
    match this.splice m off len claim_by with
    | .error e => .error e
    | .ok (L, none, m1) => .ok ([L], m1)
    | .ok (L, some C, m1) => .ok ([L, C], m1)
  | .substr_of other off len =>
    match this.substr_of m other off len with
    | .error e => .error e
    | .ok (L, m1) => .ok ([L, other], m1)
  | .share blist =>
    match this.share m blist with
    | .error e => .error e
    | .ok (L, m1) => .ok ([L, blist], m1)
  | .swap other =>
    let (L, o) := this.swap other
    .ok ([L, o], m)
  | .clear =>
    match this.clear m with
    | .error e => .error e
    | .ok (L, m1) => .ok ([L], m1)
  | .rebuild =>
    match this.rebuild m with
    | .error e => .error e
    | .ok (L, m1) => .ok ([L], m1)
  | .rebuild_aligned_size_and_memory align_size align_memory max_buffers =>
    match this.rebuild_aligned_size_and_memory m align_size align_memory max_buffers with
    | .error e => .error e
    | .ok (L, _, m1) => .ok ([L], m1)

/-- The counter invariant while an append is under way: `_len` already
counts `k` bytes that no node holds yet. -/
def list.counted_with (L : list) (k : Nat) : Prop :=
  L._len = (nodes_len L._buffers + k) % U64 ∧ L._num = L._buffers.length % U64


/-! ## Inputs for the splice scenarios -/

/-- The list `ABC`, `DEF`, `GHI`, `JKL` and a second list holding `X`, in
one heap. -/
def abc_jkl_and_x : list × list × Mem :=
  match list_abc_jkl with
  | .error _ => (list.mk_empty, list.mk_empty, Mem.empty)
  | .ok (L, m) =>
    match push_text m list.mk_empty "X" with
    | .error _ => (list.mk_empty, list.mk_empty, Mem.empty)
    | .ok (C, m1) => (L, C, m1)

/-- The lists and the heap after `splice(4, 4, &C)` on `abc_jkl_and_x`. -/
def splice_4_4_out : List list × Mem :=
  match (list_op.splice 4 4 (some abc_jkl_and_x.2.1)).run abc_jkl_and_x.2.2 abc_jkl_and_x.1 with
  | .error _ => ([], Mem.empty)
  | .ok v => v

/-! ## Well-formed chains -/

/-- The number of nodes of a chain that reference the region `i`. -/
def refs (ns : List ptr_node) (i : Nat) : Nat :=
  ns.countP (fun x => decide (x.m_raw = some i))

/-- The view of a ptr lies inside a live region whose length fits a
`uint64_t`. -/
def node_in (m : Mem) (p : ptr) : Prop :=
  ∃ i r, p.m_raw = some i ∧ m.raws i = some r ∧ p.m_off + p.m_len ≤ r.m_data.length ∧
    r.m_data.length < U64

/-- Every node of the chain views a live region, and every live region
counts at least as many references as there are nodes that reference it. -/
def covered (m : Mem) (ns : List ptr_node) : Prop :=
  (∀ n ∈ ns, node_in m n.toptr) ∧ ∀ i r, m.raws i = some r → refs ns i ≤ r.nref

/-- Every region of the second heap is a region of the first one with the
same bytes. -/
def data_from (m m1 : Mem) : Prop :=
  ∀ i r1, m1.raws i = some r1 → ∃ r, m.raws i = some r ∧ r1.m_data = r.m_data

/-- The check of one node for `chain_ok`. -/
def node_ok (m : Mem) (ns : List ptr_node) (n : ptr_node) : Bool :=
  match n.m_raw with
  | none => false
  | some i =>
    match m.raws i with
    | none => false
    | some r =>
      decide (n.m_off + n.m_len ≤ r.m_data.length) && decide (r.m_data.length < U64) &&
      decide (refs ns i ≤ r.nref)

/-- A well-formed set of nodes: every node views a part of a live region,
and the reference count of that region is at least the number of nodes that
reference it. -/
def chain_ok (m : Mem) (ns : List ptr_node) : Bool := ns.all (node_ok m ns)

/-! ## Appending bytes: well-formed lists and the shared-tail scenario -/

/-- Every node of the chain views a part of a live region that the heap has
handed out, and the length of that region fits a `uint64_t`. -/
def views_live (m : Mem) (ns : List ptr_node) : Bool :=
  ns.all (fun x =>
    match x.m_raw with
    | none => false
    | some i =>
      match m.raws i with
      | none => false
      | some r =>
        decide (x.m_off + x.m_len ≤ r.m_data.length) && decide (r.m_data.length < U64) &&
        decide (i < m.next_raw))

/-- No node of the chain views bytes behind the end of the view `c` in the
region of `c`: the unused tail of that region belongs to `c` alone. -/
def tail_unshared (c : ptr) (ns : List ptr_node) : Bool :=
  ns.all (fun x => x.m_raw != c.m_raw || decide (x.m_off + x.m_len ≤ c.m_off + c.m_len))

/-- A list whose second node shares the region of its append buffer:
`bl.reserve(8)` and `bl.append("abc", 3)`, then a copy `p` of the back
node's ptr receives `p.append('Y')` and is linked with `bl.push_back(p)`. -/
def list_shared_tail : Except Err (list × Mem) := do
  let (L, m) ← list.mk_empty.reserve Mem.empty 8
  let (L, m) ← L.append m (str "abc") 3
  let back ← L.back_ptr
  let (p, m) ← ptr.copy_ctor m back
  let (_, p, m) ← p.append_char m 89
  let (L, m) ← L.push_back m p
  let (_, m) ← p.release m
  pure (L, m)

/-- The call `bl.append("Z", 1)` on `list_shared_tail`. -/
def append_shared_tail : Except Err (list × Mem) := do
  let (L, m) ← list_shared_tail
  L.append m (str "Z") 1

/-- A list with an append buffer of two bytes: `bl.reserve(2)` on the empty
list. -/
def list_reserved_two : list × Mem :=
  match list.mk_empty.reserve Mem.empty 2 with
  | .ok v => v
  | .error _ => (list.mk_empty, Mem.empty)

/-! ## Inputs for `append(ptr, off, len)` -/

/-- The calls of the append test: `bl.append('A')` (modelled by a list
over a two-byte region that holds `A`), a copy `in` of the back node's ptr
receives `in.append('B')`, and then `bl.append(in, back.end(), 1)`. -/
def append_range_merge : Except Err (list × Mem) := do
  let (L, m) ← list.mk_empty.reserve Mem.empty 2
  let (L, m) ← L.append_char m 65
  let back ← L.back_ptr
  let (p, m) ← ptr.copy_ctor m back
  let (_, p, m) ← p.append_char m 66
  L.append_ptr_range m p back.end_ 1

/-- The call `bl.append(ptr(), 0, 0)` on the list `A`: a ptr without
region. -/
def append_range_no_region : Except Err (list × Mem) := do
  let (L, m) ← list_of_texts ["A"]
  L.append_ptr_range m ptr.mk_empty 0 0

/-! ## Calls that end by an exception -/

/-- How a call ends: it returns with state `s`, it throws an exception
that leaves the state `s` behind, or it ends in an assertion failure or in
undefined behaviour, after which no state is left to speak of. -/
inductive outcome (σ : Type) where
  | returned (s : σ)
  | thrown (e : Err) (s : σ)
  | aborted (e : Err)

/-- Member `list::splice` with the state that its `throw end_of_buffer()`
leaves behind: the statement is the second one of the body, behind the
early return for `len == 0`, and nothing has been written before it. -/
def list.splice_outcome (m : Mem) (L : list) (off len : Nat) (claim_by : Option list) :
    outcome (list × Option list × Mem) :=
  if len = 0 then .returned (L, claim_by, m) else
  if off ≥ L.length then .thrown .end_of_buffer (L, claim_by, m) else
  match L.splice m off len claim_by with
  | .ok s => .returned s
  | .error e => .aborted e

/-- Member `list::substr_of` with the state that its
`throw end_of_buffer()` leaves behind: the statement is the first one of the
body, before `clear()`. -/
def list.substr_of_outcome (m : Mem) (L : list) (other : list) (off len : Nat) :
    outcome (list × Mem) :=
  if (off + len) % U64 > other.length then .thrown .end_of_buffer (L, m) else
  match L.substr_of m other off len with
  | .ok s => .returned s
  | .error e => .aborted e

/-- What a caller sees of an outcome of `substr_of`. -/
def observe_outcome (o : outcome (list × Mem)) :
    Option Err × Option (Nat × Nat × List Nat × List Nat) :=
  match o with
  | .returned (L, m) => (none, some (L._len, L._num, L._buffers.map (fun n => n.m_len), L.bytes m))
  | .thrown e (L, m) =>
    (some e, some (L._len, L._num, L._buffers.map (fun n => n.m_len), L.bytes m))
  | .aborted e => (some e, none)

/-- The list `ABC` and a destination list `X`, in one heap. -/
def abc_and_x : list × list × Mem :=
  match list_of_texts ["ABC"] with
  | .error _ => (list.mk_empty, list.mk_empty, Mem.empty)
  | .ok (L, m) =>
    match push_text m list.mk_empty "X" with
    | .error _ => (list.mk_empty, list.mk_empty, Mem.empty)
    | .ok (C, m1) => (L, C, m1)

/-! ## Inputs for the checksum scenarios -/

/-- The list `A`: one node over a region of one byte, with an empty
checksum cache. -/
def list_a : list × Mem :=
  match list_of_texts ["A"] with
  | .ok v => v
  | .error _ => (list.mk_empty, Mem.empty)

/-- The checksum cache of region `i`: the cached range and the cached
(seed, digest) pair. -/
def crc_cache (r : Except Err (Nat × Mem)) (i : Nat) : Option ((Nat × Nat) × (Nat × Nat)) :=
  match r with
  | .error _ => none
  | .ok (_, m) => (m.raws i).map (fun r => (r.last_crc_offset, r.last_crc_val))

/-- The list `A` as a slice of a ptr over `ABC`: the digest for seed 0 is
computed and cached, then `p.copy_in(2, 1, "Z")` (with `crc_reset = true`)
changes the byte `C` of the region, which no node of the list views.  The
result is the digest before, the digest after, and the bytes of the region
before and after. -/
def crc_after_hidden_write : Except Err (Nat × Nat × Option (List Nat) × Option (List Nat)) := do
  let (p, m) ← ptr.of_buf Mem.empty (str "ABC") 3
  let (L, m) ← list.mk_empty.append_ptr_range m p 0 1
  let (d1, m1) ← L.crc32c m 0
  let m2 ← p.copy_in m1 2 1 (str "Z") true
  let (d2, _) ← L.crc32c m2 0
  pure (d1, d2, (m1.raws 0).map raw.m_data, (m2.raws 0).map raw.m_data)

/-- The list `AB`: the digest for seed 0 is computed and cached, then
`copy_in(1, 1, "Z")` through the node's ptr changes the byte `B`. -/
def list_ab : list × Mem :=
  match list_of_texts ["AB"] with
  | .ok v => v
  | .error _ => (list.mk_empty, Mem.empty)

/-- Member `list::c_str`: the returned pointer (`none` is the null
pointer), the list and the heap after the call.  `_buffers.front()` of an
empty chain is undefined behaviour. -/
def list.c_str (m : Mem) (L : list) : Except Err (Option Nat × list × Mem) :=
  if L._buffers.isEmpty then .ok (none, L, m) else
  match (if 1 < L._buffers.length then L.rebuild m else .ok (L, m)) with
  | .error e => .error e
  | .ok (L1, m1) =>
    match L1._buffers.head? with
    | none => .error .undefined
    | some front =>
      match front.toptr.c_str_addr m1 with
      | .error e => .error e
      | .ok a => .ok (some a, L1, m1)

/-- The statements `bl.push_back(buffer::create(0)); bl.push_back(buffer::create(0));`
on a fresh list (the start of the iterator test with empty nodes). -/
def two_empty_nodes : Except Err (list × Mem) := do
  let (i, m) ← create Mem.empty 0
  let (L, m) ← list.mk_empty.push_back_raw m i
  let (j, m) ← create m 0
  L.push_back_raw m j

/-- The call `bl.c_str()` on `two_empty_nodes`. -/
def c_str_two_empty_nodes : Except Err (Option Nat × list × Mem) := do
  let (L, m) ← two_empty_nodes
  L.c_str m

/-- The call `bl.rebuild()` on `two_empty_nodes`. -/
def rebuild_two_empty_nodes : Except Err (list × Mem) := do
  let (L, m) ← two_empty_nodes
  L.rebuild m

/-- The call `bl.c_str()` on the list of the nodes `AB` and `C`: the
returned pointer, then `length()`, `get_num_buffers()`, the content of the
list and the bytes the front node views after the call. -/
def c_str_ab_c : Except Err (Option Nat × Nat × Nat × List Nat × List Nat) := do
  let (L, m) ← list_of_texts ["C", "AB"]
  let (a, L1, m1) ← L.c_str m
  pure (a, L1._len, L1._num, L1.bytes m1,
        match L1._buffers.head? with
        | some front => front.toptr.bytes m1
        | none => [])

/-- The list of the nodes `AB` and `C` with its heap. -/
def ab_c : list × Mem :=
  match list_of_texts ["C", "AB"] with
  | .ok v => v
  | .error _ => (list.mk_empty, Mem.empty)

/-- The loop of `list::zero(off, len)`; `pos` is the offset of the node
within the list.  `crc_reset` has its default `true` in every call. -/
def zero_loop (m : Mem) (off len : Nat) : List ptr_node → Nat → Except Err Mem
  | [], _ => .ok m
  | node :: rest, pos =>
    if add64 off len ≤ pos then .ok m
    else if node.length = 0 ∨ add64 pos node.length ≤ off then
      zero_loop m off len rest (add64 pos node.length)
    else
      let r :=
        if pos ≥ off ∧ add64 pos node.length < add64 off len then node.toptr.zero m true
        else if pos ≥ off then node.toptr.zero_range m 0 (sub64 (add64 off len) pos) true
        else if add64 pos node.length ≤ add64 off len then
          node.toptr.zero_range m (sub64 off pos) (sub64 node.length (sub64 off pos)) true
        else node.toptr.zero_range m (sub64 off pos) len true
      match r with
      | .error e => .error e
      | .ok m1 => zero_loop m1 off len rest (add64 pos node.length)

/-- Member `list::zero(uint64_t off, uint64_t len)`. -/
def list.zero_range (m : Mem) (L : list) (off len : Nat) : Except Err (list × Mem) :=
  if add64 off len ≤ L._len then
    match zero_loop m off len L._buffers 0 with
    | .error e => .error e
    | .ok m1 => .ok (L, m1)
  else .error .assert_failed

/-- Two views that share no byte: one of them is empty, they are on
different regions, or one ends where the other has not begun. -/
def apart (a b : ptr) : Prop :=
  a.m_len = 0 ∨ b.m_len = 0 ∨ a.m_raw ≠ b.m_raw ∨
  a.m_off + a.m_len ≤ b.m_off ∨ b.m_off + b.m_len ≤ a.m_off

instance (a b : ptr) : Decidable (apart a b) := by
  unfold apart
  infer_instance

/-- No byte of a region is viewed by two nodes of the chain. -/
def views_apart (ns : List ptr_node) : Prop :=
  ns.Pairwise (fun a b => apart a.toptr b.toptr)

instance (ns : List ptr_node) : Decidable (views_apart ns) := by
  unfold views_apart
  infer_instance

/-- The bytes `bs`, which start at offset `pos` of a list, with every byte
whose offset lies in `[off, off + len)` replaced by 0. -/
def zero_window (off len : Nat) : Nat → List Nat → List Nat
  | _, [] => []
  | pos, b :: bs => (if off ≤ pos ∧ pos < off + len then 0 else b) :: zero_window off len (pos + 1) bs

/-- The list `ABC`, `DEF`, `GHI`, `KLM` of the zero test. -/
def list_abc_klm : Except Err (list × Mem) := list_of_texts ["KLM", "GHI", "DEF", "ABC"]

/-- The statements `ptr p("ABC", 3); bl.push_back(p); bl.push_back(p);` on a
fresh list: two nodes on the same three bytes. -/
def list_abc_twice : Except Err (list × Mem) := do
  let (p, m) ← ptr.of_buf Mem.empty (str "ABC") 3
  let (L, m) ← list.mk_empty.push_back m p
  L.push_back m p

/-- The call `bl.zero(0, 3)` on `list_abc_twice`. -/
def zero_abc_twice : Except Err (list × Mem) := do
  let (L, m) ← list_abc_twice
  L.zero_range m 0 3

/-- The call `bl.zero(2^64 - 1, 2)` on `list_abc_klm`. -/
def zero_wrapped : Except Err (list × Mem) := do
  let (L, m) ← list_abc_klm
  L.zero_range m (2 ^ 64 - 1) 2

/-- The list `ABC`, `DEF`, `GHI`, `KLM` with its heap. -/
def abc_klm : list × Mem :=
  match list_abc_klm with
  | .ok v => v
  | .error _ => (list.mk_empty, Mem.empty)

/-! ## `buffer::list::iterator` -/

/-- A `list::iterator_impl` on a list `bl`, which the operations take as an
argument.  `m_list_it` is the position in the chain of `bl`, as the number
of nodes in front of it; the number of nodes of the chain is `end()`. -/
structure iterator where
  m_list_it : Nat
  m_r_off : Nat
  m_a_off : Nat
deriving DecidableEq, Repr

/-- Member `iterator_impl::end`: `m_list_it == m_list->end()`. -/
def iterator.end_ (bl : list) (it : iterator) : Bool := decide (bl._buffers.length ≤ it.m_list_it)

/-- Member `iterator_impl::get_off`. -/
def iterator.get_off (it : iterator) : Nat := it.m_a_off

/-- Member `iterator_impl::get_remaining`. -/
def iterator.get_remaining (bl : list) (it : iterator) : Nat := sub64 bl.length it.m_a_off

/-- The loop of `operator+=` on the nodes from `m_list_it` on: the number
of nodes skipped, and what is left of `m_r_off`. -/
def advance_skip : List ptr_node → Nat → Nat × Nat
  | [], r => (0, r)
  | node :: rest, r =>
    if r ≥ node.length then
      let s := advance_skip rest (r - node.length)
      (s.1 + 1, s.2)
    else (0, r)

/-- Member `iterator_impl::operator+=`.  The exception leaves `m_r_off` and
`m_list_it` as the loop has set them, and `m_a_off` as it was. -/
def iterator.advance (bl : list) (it : iterator) (off : Nat) : outcome iterator :=
  let s := advance_skip (bl._buffers.drop it.m_list_it) (add64 it.m_r_off off)
  let it1 : iterator :=
    { m_list_it := it.m_list_it + s.1, m_r_off := s.2, m_a_off := it.m_a_off }
  if it1.end_ bl = true ∧ it1.m_r_off ≠ 0 then .thrown .end_of_buffer it1
  else .returned { it1 with m_a_off := add64 it.m_a_off off }

/-- Constructor `iterator_impl(blist, off)`, which is `list::begin(off)`. -/
def list.begin_at (bl : list) (off : Nat) : outcome iterator :=
  iterator.advance bl { m_list_it := 0, m_r_off := 0, m_a_off := 0 } off

/-- Member `iterator_impl::seek`. -/
def iterator.seek (bl : list) (_it : iterator) (off : Nat) : outcome iterator :=
  iterator.advance bl { m_list_it := 0, m_r_off := 0, m_a_off := 0 } off

/-- Member `ptr::operator[]`. -/
def ptr.at (m : Mem) (p : ptr) (pos : Nat) : Except Err Nat :=
  match p.m_raw with
  | none => .error .assert_failed
  | some i =>
    if pos < p.m_len then
      match m.raws i with
      | none => .error .undefined
      | some r =>
        match r.m_data[p.m_off + pos]? with
        | none => .error .undefined
        | some b => .ok b
    else .error .assert_failed

/-- Member `iterator_impl::operator*`. -/
def iterator.deref (m : Mem) (bl : list) (it : iterator) : Except Err Nat :=
  match bl._buffers[it.m_list_it]? with
  | none => .error .end_of_buffer
  | some node => node.toptr.at m it.m_r_off

/-- Member `iterator_impl::operator++`. -/
def iterator.incr (bl : list) (it : iterator) : outcome iterator :=
  if it.end_ bl then .thrown .end_of_buffer it else it.advance bl 1

/-- Member `ptr::copy_out`: the `len` bytes that `memcpy` writes to the
destination. -/
def ptr.copy_out (m : Mem) (p : ptr) (offset len : Nat) : Except Err (List Nat) :=
  match p.m_raw with
  | none => .error .assert_failed
  | some i =>
    if (offset + len) % U64 > p.m_len then .error .end_of_buffer else
    match m.raws i with
    | none => .error .undefined
    | some r =>
      let src := r.m_data.drop (p.m_off + offset)
      if src.length < len then .error .undefined else .ok (src.take len)

/-- The `while (len > 0)` loop that the three `copy` overloads share; they
differ in the statement `emit` that hands `this_copy_len` bytes of the
current node to the destination `d`.  Every pass either ends the loop or
moves `m_list_it` forward, so the loop makes at most one pass per node and a
last one; `fuel` bounds the number of passes, and `none` says that it was
too small. -/
def copy_loop {δ : Type} (emit : δ → ptr_node → Nat → Nat → Except Err δ) (bl : list) :
    Nat → iterator → Nat → δ → Option (outcome (iterator × δ))
  | 0, it, len, d => if len = 0 then some (.returned (it, d)) else none
  | fuel + 1, it, len, d =>
    if len = 0 then some (.returned (it, d)) else
    match bl._buffers[it.m_list_it]? with
    | none => some (.thrown .end_of_buffer (it, d))
    | some node =>
      let this_copy_len := sub64 node.length it.m_r_off
      let this_copy_len := if len < this_copy_len then len else this_copy_len
      match emit d node it.m_r_off this_copy_len with
      | .error .end_of_buffer => some (.thrown .end_of_buffer (it, d))
      | .error e => some (.aborted e)
      | .ok d1 =>
        match it.advance bl this_copy_len with
        | .returned it1 => copy_loop emit bl fuel it1 (len - this_copy_len) d1
        | .thrown e it1 => some (.thrown e (it1, d1))
        | .aborted e => some (.aborted e)

/-- The frame of the three `copy` overloads: an iterator at `end()` seeks
back to `m_a_off`, then the loop runs. -/
def copy_with {δ : Type} (emit : δ → ptr_node → Nat → Nat → Except Err δ) (bl : list)
    (fuel : Nat) (it : iterator) (len : Nat) (d : δ) : Option (outcome (iterator × δ)) :=
  match (if it.end_ bl then it.seek bl it.m_a_off else .returned it) with
  | .returned it1 => copy_loop emit bl fuel it1 len d
  | .thrown e it1 => some (.thrown e (it1, d))
  | .aborted e => some (.aborted e)

/-- The statement `m_list_it->copy_out(m_r_off, this_copy_len, dest)` with
`dest += this_copy_len`; `d` holds the bytes written so far, in the order of
their addresses. -/
def copy_emit_buf (m : Mem) (d : List Nat) (node : ptr_node) (r n : Nat) :
    Except Err (List Nat) :=
  match node.toptr.copy_out m r n with
  | .error e => .error e
  | .ok bs => .ok (d ++ bs)

/-- The statement `dest.append(m_list_it->c_str() + m_r_off, this_copy_len)`
on a `std::string`. -/
def copy_emit_string (m : Mem) (d : List Nat) (node : ptr_node) (r n : Nat) :
    Except Err (List Nat) :=
  match node.toptr.c_str_data m with
  | .error e => .error e
  | .ok src =>
    if (src.drop r).length < n then .error .undefined else .ok (d ++ (src.drop r).take n)

/-- The statement `dest.append(*m_list_it, m_r_off, this_copy_len)` on a
list. -/
def copy_emit_list (d : list × Mem) (node : ptr_node) (r n : Nat) : Except Err (list × Mem) :=
  d.1.append_ptr_range d.2 node.toptr r n

/-- Member `iterator_impl::copy(uint64_t len, char* dest)`. -/
def iterator.copy (m : Mem) (bl : list) (fuel : Nat) (it : iterator) (len : Nat)
    (dest : List Nat) : Option (outcome (iterator × List Nat)) :=
  copy_with (copy_emit_buf m) bl fuel it len dest

/-- Member `iterator_impl::copy(uint64_t len, std::string& dest)`. -/
def iterator.copy_string (m : Mem) (bl : list) (fuel : Nat) (it : iterator) (len : Nat)
    (dest : List Nat) : Option (outcome (iterator × List Nat)) :=
  copy_with (copy_emit_string m) bl fuel it len dest

/-- Member `iterator_impl::copy(uint64_t len, list& dest)`, for a
destination other than the list of the iterator. -/
def iterator.copy_list (m : Mem) (bl : list) (fuel : Nat) (it : iterator) (len : Nat)
    (dest : list) : Option (outcome (iterator × list × Mem)) :=
  copy_with copy_emit_list bl fuel it len (dest, m)

/-- A pointer into a region: the region and the offset of the byte in it. -/
structure cptr where
  m_raw : Nat
  pos : Nat
deriving DecidableEq, Repr

/-- The `n` bytes that a read at the pointer sees. -/
def cptr.read (m : Mem) (p : cptr) (n : Nat) : Except Err (List Nat) :=
  match m.raws p.m_raw with
  | none => .error .undefined
  | some r =>
    if (r.m_data.drop p.pos).length < n then .error .undefined
    else .ok ((r.m_data.drop p.pos).take n)

/-- The statements of `get_ptr_and_advance` behind the test for `end()`,
with the iterator on `node`. -/
def get_ptr_step (m : Mem) (it : iterator) (node : ptr_node) (max_req_size : Nat) :
    outcome (Nat × Option cptr × iterator) :=
  match node.m_raw with
  | none => .aborted .assert_failed
  | some i =>
    match m.raws i with
    | none => .aborted .undefined
    | some _ =>
      let rst := min (sub64 node.length it.m_r_off) max_req_size
      let r1 := add64 it.m_r_off rst
      let a1 := add64 it.m_a_off rst
      .returned (rst, some { m_raw := i, pos := node.m_off + it.m_r_off },
        if r1 = node.length then { m_list_it := it.m_list_it + 1, m_r_off := 0, m_a_off := a1 }
        else { m_list_it := it.m_list_it, m_r_off := r1, m_a_off := a1 })

/-- Member `iterator_impl::get_ptr_and_advance`: the returned count, the
pointer `*p` (which keeps its value `p` when the call returns at the end of
the list) and the iterator. -/
def iterator.get_ptr_and_advance (m : Mem) (bl : list) (it : iterator) (max_req_size : Nat)
    (p : Option cptr) : outcome (Nat × Option cptr × iterator) :=
  match bl._buffers[it.m_list_it]? with
  | some node => get_ptr_step m it node max_req_size
  | none =>
    match it.seek bl it.m_a_off with
    | .thrown e it1 => .thrown e (0, p, it1)
    | .aborted e => .aborted e
    | .returned it1 =>
      match bl._buffers[it1.m_list_it]? with
      | none => .returned (0, p, it1)
      | some node => get_ptr_step m it1 node max_req_size

/-- A consistent iterator on `bl`: `m_a_off` is the offset of the position,
which is inside the node at `m_list_it` or at its end, or `end()`. -/
def iterator.valid (bl : list) (it : iterator) : Bool :=
  it.m_a_off == nodes_len (bl._buffers.take it.m_list_it) + it.m_r_off &&
  match bl._buffers[it.m_list_it]? with
  | some node => decide (it.m_r_off ≤ node.length)
  | none => it.m_list_it == bl._buffers.length && it.m_r_off == 0

/-- The list `ABC`, `DEF` of the iterator tests with its heap. -/
def abc_def : list × Mem :=
  match list_of_texts ["DEF", "ABC"] with
  | .ok v => v
  | .error _ => (list.mk_empty, Mem.empty)

/-- The list `ABC` with its heap. -/
def abc : list × Mem :=
  match list_of_texts ["ABC"] with
  | .ok v => v
  | .error _ => (list.mk_empty, Mem.empty)

/-- The list `one`, `two`, `three` of the test of `get_ptr_and_advance`,
with its heap. -/
def one_two_three : list × Mem :=
  match list_of_texts ["three", "two", "one"] with
  | .ok v => v
  | .error _ => (list.mk_empty, Mem.empty)

/-- A run of `get_ptr_and_advance` calls with the given requests: for each
call the returned count and the bytes read at the returned pointer, and the
iterator after the last call. -/
def get_ptr_run (m : Mem) (bl : list) :
    iterator → List Nat → Option (List (Nat × List Nat) × iterator)
  | it, [] => some ([], it)
  | it, req :: rest =>
    match it.get_ptr_and_advance m bl req none with
    | .returned (rst, some p, it1) =>
      match p.read m rst, get_ptr_run m bl it1 rest with
      | .ok bs, some (out, it2) => some ((rst, bs) :: out, it2)
      | _, _ => none
    | _ => none

/-! ## Inputs for the ptr contracts -/

/-- The ptr `AB` with its heap (`buffer_ptr p("AB", 2)`). -/
def ptr_ab : ptr × Mem :=
  match ptr.of_buf Mem.empty (str "AB") 2 with
  | .ok v => v
  | .error _ => (ptr.mk_empty, Mem.empty)

/-- The statements `buffer_ptr p(2); p.set_offset(2);`: a view of two bytes
behind the end of a region of two bytes. -/
def ptr_off_region : Except Err (ptr × Mem) := do
  let (p, m) ← ptr.of_len Mem.empty 2
  let p1 ← p.set_offset m 2
  pure (p1, m)

/-- The statements `buffer_ptr p(2); p.set_length(0);` of the append test. -/
def ptr_two_unused : ptr × Mem :=
  match ptr.of_len Mem.empty 2 with
  | .error _ => (ptr.mk_empty, Mem.empty)
  | .ok (p, m) =>
    match p.set_length m 0 with
    | .error _ => (ptr.mk_empty, Mem.empty)
    | .ok p1 => (p1, m)

/-- What a caller can see of a ptr and its region: offset, length, the
bytes of the view, and the bytes, reference count and cached checksum range
of the region. -/
def observe_ptr (m : Mem) (p : ptr) :
    Nat × Nat × List Nat × Option (List Nat × Nat × (Nat × Nat)) :=
  (p.m_off, p.m_len, p.bytes m,
   match p.m_raw with
   | none => none
   | some i => (m.raws i).map (fun r => (r.m_data, r.nref, r.last_crc_offset)))

/-! ## Comparison of ptrs -/

/-- The C library function `memcmp(s1, s2, n)` on the bytes found at the
two pointers: the sign of the result is the sign of the difference of the
first pair of bytes that differ, both read as `unsigned char`; here the
result is that difference.  Reading behind the bytes that are there is
undefined behaviour. -/
def memcmp : List Nat → List Nat → Nat → Except Err Int
  | _, _, 0 => .ok 0
  | x :: a, y :: b, n + 1 => if x ≠ y then .ok ((x : Int) - (y : Int)) else memcmp a b n
  | _, _, _ + 1 => .error .undefined

/-- Member `ptr::cmp`. -/
def ptr.cmp (m : Mem) (p other : ptr) : Except Err Int :=
  let len := if p.m_len < other.m_len then p.m_len else other.m_len
  let tiebreak : Int :=
    if p.m_len < other.m_len then -1 else if p.m_len > other.m_len then 1 else 0
  if len ≠ 0 then
    match p.c_str_data m with
    | .error e => .error e
    | .ok a =>
      match other.c_str_data m with
      | .error e => .error e
      | .ok b =>
        match memcmp a b len with
        | .error e => .error e
        | .ok rst => if rst ≠ 0 then .ok rst else .ok tiebreak
  else .ok tiebreak

/-- The lexicographic order of byte strings in the words of the spec: the
first bytes that differ decide, as unsigned values, and a proper prefix
comes before the longer string. -/
def lex_lt : List Nat → List Nat → Bool
  | [], [] => false
  | [], _ :: _ => true
  | _ :: _, [] => false
  | x :: xs, y :: ys => decide (x < y) || (x == y && lex_lt xs ys)

/-- The ptrs `A`, `AB`, `AF` and `ACC` of the cmp test in one heap. -/
def cmp_ptrs : ptr × ptr × ptr × ptr × Mem :=
  match (do
    let (a, m) ← ptr.of_buf Mem.empty (str "A") 1
    let (ab, m) ← ptr.of_buf m (str "AB") 2
    let (af, m) ← ptr.of_buf m (str "AF") 2
    let (acc, m) ← ptr.of_buf m (str "ACC") 3
    pure (a, ab, af, acc, m)) with
  | .ok v => v
  | .error _ => (ptr.mk_empty, ptr.mk_empty, ptr.mk_empty, ptr.mk_empty, Mem.empty)

/-! ## `mem_is_zero` and `ptr::is_zero` -/

/-- A load of a little-endian word of `k` bytes at the pointer, as in
`*(uint32_t*)data`; a load behind the bytes that are there is undefined. -/
def load_le : Nat → List Nat → Except Err Nat
  | 0, _ => .ok 0
  | _ + 1, [] => .error .undefined
  | k + 1, b :: rest =>
    match load_le k rest with
    | .error e => .error e
    | .ok v => .ok (b + 256 * v)

/-- The first loop of `mem_is_zero`: bytes are tested one by one while the
address `data` is not a multiple of 16, and `len` counts down.  The result
`none` stands for `return false`; otherwise the bytes at the aligned pointer
and the remaining `len` are returned. -/
def align_scan : Nat → List Nat → Nat → Except Err (Option (List Nat × Nat))
  | addr, [], len => if addr &&& 15 ≠ 0 then .error .undefined else .ok (some ([], len))
  | addr, b :: rest, len =>
    if addr &&& 15 ≠ 0 then
      if b ≠ 0 then .ok none
      else align_scan (addr + 1) rest ((len + U64 - 1) % U64)
    else .ok (some (b :: rest, len))

/-- A loop `while (data < max) { if (*(T*)data != 0) return false; data += sizeof(T); }`
with `max = data + n * sizeof(T)` and `w = sizeof(T)`: `n` words are loaded.
The result `none` stands for `return false`; otherwise the bytes at the
pointer after the loop are returned. -/
def words_zero (w : Nat) : Nat → List Nat → Except Err (Option (List Nat))
  | 0, data => .ok (some data)
  | n + 1, data =>
    match load_le w data with
    | .error e => .error e
    | .ok v => if v ≠ 0 then .ok none else words_zero w n (data.drop w)

/-- The part of `mem_is_zero` behind the 128-bit block: the loop over
`uint32_t` words up to `max32` and the loop over bytes up to `max`. -/
def mem_is_zero_tail (data : List Nat) (len : Nat) : Except Err Bool :=
  match words_zero 4 (len / 4) data with
  | .error e => .error e
  | .ok none => .ok false
  | .ok (some d) =>
    match words_zero 1 (len - (len / 4) * 4) d with
    | .error e => .error e
    | .ok none => .ok false
    | .ok (some _) => .ok true

/-- Function `mem_is_zero(data, len)` of `inline_memory.h` in its x86-64
version; `addr` is the address `data` and `data` the bytes found there. -/
def mem_is_zero (addr : Nat) (data : List Nat) (len : Nat) : Except Err Bool :=
  if len / 16 > 0 then
    match align_scan addr data len with
    | .error e => .error e
    | .ok none => .ok false
    | .ok (some (d, len1)) =>
      match words_zero 16 (len1 / 16) d with
      | .error e => .error e
      | .ok none => .ok false
      | .ok (some d2) => mem_is_zero_tail d2 ((len1 + U64 - (len1 / 16) * 16) % U64)
  else mem_is_zero_tail data len

/-- Function `mem_is_zero(data, len)` in the version for compilers other
than GCC: a loop over `uint64_t` words and a loop over bytes. -/
def mem_is_zero_portable (data : List Nat) (len : Nat) : Except Err Bool :=
  match words_zero 8 (len / 8) data with
  | .error e => .error e
  | .ok none => .ok false
  | .ok (some d) =>
    match words_zero 1 (len - (len / 8) * 8) d with
    | .error e => .error e
    | .ok none => .ok false
    | .ok (some _) => .ok true

/-- Member `ptr::is_zero`: `mem_is_zero(c_str(), m_len)`. -/
def ptr.is_zero (m : Mem) (p : ptr) : Except Err Bool :=
  match p.c_str_addr m with
  | .error e => .error e
  | .ok a =>
    match p.c_str_data m with
    | .error e => .error e
    | .ok d => mem_is_zero a d p.m_len

/-- Function `create_static(len, buf)`: a raw object over the `len` bytes
of the caller at the address `a` of `buf`. -/
def create_static (m : Mem) (a : Nat) (buf : List Nat) (len : Nat) : Nat × Mem :=
  m.new_raw a (buf.take len)

/-- The ptr `buffer_ptr ptr(buffer::create_static(len, str))` of the is_zero
test, with `char str[2] = { 0, 'X' }` at the address `a`. -/
def ptr_static (a len : Nat) : ptr × Mem :=
  match ptr.of_raw (create_static Mem.empty a [0, 88] len).2 (create_static Mem.empty a [0, 88] len).1 with
  | .ok v => v
  | .error _ => (ptr.mk_empty, Mem.empty)

/-- A ptr of `len` bytes at offset 3 of a region at address 4096 that holds
19 zero bytes and a byte 1 behind them. -/
def ptr_unaligned (len : Nat) : ptr × Mem :=
  match (do
    let (p, m) ← ptr.of_raw (create_static Mem.empty 4096 (List.replicate 19 0 ++ [1]) 20).2 0
    let p ← p.set_offset m 3
    let p ← p.set_length m len
    pure (p, m)) with
  | .ok v => v
  | .error _ => (ptr.mk_empty, Mem.empty)

/-- The byte-by-byte definition in the words of the spec: all bytes are 0. -/
def is_zero_bytes : List Nat → Bool
  | [] => true
  | b :: rest => b == 0 && is_zero_bytes rest

/-! ## `list::contents_equal` -/

/-- The loop of `list::contents_equal(const buffer_list&)`.  The two
iterators are positions in the chains; `fuel` bounds the number of passes,
and `none` says that it was too small.  `other_buffers_it` is dereferenced
in every pass without a test against `cend`. -/
def contents_equal_loop (m : Mem) (L other : list) :
    Nat → Nat → Nat → Nat → Nat → Option (Except Err Bool)
  | 0, _, _, _, _ => none
  | fuel + 1, this_buffers_it, this_buffers_off, other_buffers_it, other_buffers_off =>
    match L._buffers[this_buffers_it]? with
    | none => some (.ok true)
    | some this_node =>
      match other._buffers[other_buffers_it]? with
      | none => some (.error .undefined)
      | some other_node =>
        let len := sub64 this_node.length this_buffers_off
        let len :=
          if len > sub64 other_node.length other_buffers_off then sub64 other_node.length other_buffers_off
          else len
        match this_node.toptr.c_str_data m with
        | .error e => some (.error e)
        | .ok a =>
          match other_node.toptr.c_str_data m with
          | .error e => some (.error e)
          | .ok b =>
            match memcmp (a.drop this_buffers_off) (b.drop other_buffers_off) len with
            | .error e => some (.error e)
            | .ok rst =>
              if rst ≠ 0 then some (.ok false) else
              let this_buffers_off := add64 this_buffers_off len
              let other_buffers_off := add64 other_buffers_off len
              let this_pos :=
                if this_buffers_off = this_node.length then (this_buffers_it + 1, 0)
                else (this_buffers_it, this_buffers_off)
              let other_pos :=
                if other_buffers_off > other_node.length then (other_buffers_it + 1, 0)
                else (other_buffers_it, other_buffers_off)
              contents_equal_loop m L other fuel this_pos.1 this_pos.2 other_pos.1 other_pos.2

/-- Member `list::contents_equal(const buffer_list&)`. -/
def list.contents_equal (m : Mem) (L other : list) (fuel : Nat) : Option (Except Err Bool) :=
  if L.length ≠ other.length then some (.ok false)
  else contents_equal_loop m L other fuel 0 0 0 0

/-- Push the texts as ptrs of their own, in the order of the argument. -/
def push_texts (m : Mem) (L : list) : List String → Except Err (list × Mem)
  | [] => .ok (L, m)
  | s :: rest =>
    match push_text m L s with
    | .error e => .error e
    | .ok (L1, m1) => push_texts m1 L1 rest

/-- Two lists in one heap: the first with the nodes `A`, `BB`, the second
with the nodes `AB` and the text given. -/
def two_lists (last : String) : list × list × Mem :=
  match (do
    let (a, m) ← push_texts Mem.empty list.mk_empty ["A", "BB"]
    let (b, m) ← push_texts m list.mk_empty ["AB", last]
    pure (a, b, m)) with
  | .ok v => v
  | .error _ => (list.mk_empty, list.mk_empty, Mem.empty)

/-- The lists of the contents_equal test as its `append` calls leave them,
every list in one node: `ABB`, `ABB` and `ABC`. -/
def joined_lists : list × list × list × Mem :=
  match (do
    let (a, m) ← push_texts Mem.empty list.mk_empty ["ABB"]
    let (b, m) ← push_texts m list.mk_empty ["ABB"]
    let (c, m) ← push_texts m list.mk_empty ["ABC"]
    pure (a, b, c, m)) with
  | .ok v => v
  | .error _ => (list.mk_empty, list.mk_empty, list.mk_empty, Mem.empty)

/-! ## The comparison operators of lists -/

/-- The value of a byte read as `char`, which is a signed type on the
x86-64 targets the code compiles for. -/
def char_of (b : Nat) : Int := if b < 128 then (b : Int) else (b : Int) - 256

/-- Member `list::end`: `const_iterator(this, _len, _buffers.end(), 0)`. -/
def list.end_ (bl : list) : iterator :=
  { m_list_it := bl._buffers.length, m_r_off := 0, m_a_off := bl._len }

/-- The `operator==` of two iterators on the same list: the lists are the
same object, and `get_off()` decides. -/
def iterator.op_eq (lhs rhs : iterator) : Bool := lhs.get_off == rhs.get_off

/-- How the loop of `operator<` and `operator<=` ends: with a `return` from
its body, or with the two iterators behind it. -/
inductive scan where
  | decided (b : Bool)
  | finished (lhs_iter rhs_iter : iterator)
deriving DecidableEq, Repr

/-- The loop that `operator<` and `operator<=` share, on bytes read as
`char`; `fuel` bounds the number of passes, and `none` says that it was too
small. -/
def compare_loop (m : Mem) (lhs rhs : list) : Nat → iterator → iterator →
    Option (Except Err scan)
  | 0, _, _ => none
  | fuel + 1, lhs_iter, rhs_iter =>
    if (!lhs_iter.op_eq lhs.end_ && !rhs_iter.op_eq rhs.end_) = true then
      match lhs_iter.deref m lhs with
      | .error e => some (.error e)
      | .ok x =>
        match rhs_iter.deref m rhs with
        | .error e => some (.error e)
        | .ok y =>
          if char_of x < char_of y then some (.ok (.decided true))
          else if char_of x > char_of y then some (.ok (.decided false))
          else
            match lhs_iter.incr lhs with
            | .thrown e _ => some (.error e)
            | .aborted e => some (.error e)
            | .returned lhs_iter1 =>
              match rhs_iter.incr rhs with
              | .thrown e _ => some (.error e)
              | .aborted e => some (.error e)
              | .returned rhs_iter1 => compare_loop m lhs rhs fuel lhs_iter1 rhs_iter1
    else some (.ok (.finished lhs_iter rhs_iter))

/-- The frame of `operator<` and `operator<=`: both iterators start at
`begin()`, and `last` is the value returned behind the loop. -/
def compare_with (m : Mem) (lhs rhs : list) (fuel : Nat) (last : iterator → iterator → Bool) :
    Option (Except Err Bool) :=
  match lhs.begin_at 0 with
  | .thrown e _ => some (.error e)
  | .aborted e => some (.error e)
  | .returned lhs_iter =>
    match rhs.begin_at 0 with
    | .thrown e _ => some (.error e)
    | .aborted e => some (.error e)
    | .returned rhs_iter =>
      match compare_loop m lhs rhs fuel lhs_iter rhs_iter with
      | none => none
      | some (.error e) => some (.error e)
      | some (.ok (.decided b)) => some (.ok b)
      | some (.ok (.finished lhs_iter1 rhs_iter1)) => some (.ok (last lhs_iter1 rhs_iter1))

/-- The `operator<` of lists. -/
def list.op_lt (m : Mem) (lhs rhs : list) (fuel : Nat) : Option (Except Err Bool) :=
  compare_with m lhs rhs fuel
    (fun lhs_iter rhs_iter => lhs_iter.op_eq lhs.end_ && !rhs_iter.op_eq rhs.end_)

/-- The `operator<=` of lists. -/
def list.op_le (m : Mem) (lhs rhs : list) (fuel : Nat) : Option (Except Err Bool) :=
  compare_with m lhs rhs fuel (fun lhs_iter _ => lhs_iter.op_eq lhs.end_)

/-- The loop of `std::equal(first1, last1, first2)` with `last1` the end of
`lhs`. -/
def equal_loop (m : Mem) (lhs rhs : list) : Nat → iterator → iterator →
    Option (Except Err Bool)
  | 0, _, _ => none
  | fuel + 1, first1, first2 =>
    if first1.op_eq lhs.end_ = true then some (.ok true) else
    match first1.deref m lhs with
    | .error e => some (.error e)
    | .ok x =>
      match first2.deref m rhs with
      | .error e => some (.error e)
      | .ok y =>
        if x ≠ y then some (.ok false) else
        match first1.incr lhs with
        | .thrown e _ => some (.error e)
        | .aborted e => some (.error e)
        | .returned first1 =>
          match first2.incr rhs with
          | .thrown e _ => some (.error e)
          | .aborted e => some (.error e)
          | .returned first2 => equal_loop m lhs rhs fuel first1 first2

/-- The `operator==` of lists. -/
def list.op_eq (m : Mem) (lhs rhs : list) (fuel : Nat) : Option (Except Err Bool) :=
  if lhs.length ≠ rhs.length then some (.ok false) else
  match lhs.begin_at 0 with
  | .thrown e _ => some (.error e)
  | .aborted e => some (.error e)
  | .returned first1 =>
    match rhs.begin_at 0 with
    | .thrown e _ => some (.error e)
    | .aborted e => some (.error e)
    | .returned first2 => equal_loop m lhs rhs fuel first1 first2

/-- The `operator!=` of lists: `!(lhs == rhs)`. -/
def list.op_ne (m : Mem) (lhs rhs : list) (fuel : Nat) : Option (Except Err Bool) :=
  match lhs.op_eq m rhs fuel with
  | none => none
  | some (.error e) => some (.error e)
  | some (.ok b) => some (.ok (!b))

/-- The `operator>` of lists: `rhs < lhs`. -/
def list.op_gt (m : Mem) (lhs rhs : list) (fuel : Nat) : Option (Except Err Bool) :=
  rhs.op_lt m lhs fuel

/-- The `operator>=` of lists: `rhs <= lhs`. -/
def list.op_ge (m : Mem) (lhs rhs : list) (fuel : Nat) : Option (Except Err Bool) :=
  rhs.op_le m lhs fuel

/-- The lexicographic order of byte strings whose bytes are compared as
`char` values; a proper prefix comes before the longer string. -/
def char_lt : List Nat → List Nat → Bool
  | [], [] => false
  | [], _ :: _ => true
  | _ :: _, [] => false
  | x :: xs, y :: ys =>
    decide (char_of x < char_of y) || (decide (char_of x = char_of y) && char_lt xs ys)

/-- Push the byte strings as ptrs of their own, in the order of the
argument. -/
def push_byte_strings (m : Mem) (L : list) : List (List Nat) → Except Err (list × Mem)
  | [] => .ok (L, m)
  | s :: rest =>
    match ptr.of_buf m s s.length with
    | .error e => .error e
    | .ok (p, m1) =>
      match L.push_back m1 p with
      | .error e => .error e
      | .ok (L1, m2) =>
        match p.release m2 with
        | .error e => .error e
        | .ok (_, m3) => push_byte_strings m3 L1 rest

/-- Two lists in one heap, with the nodes given. -/
def lists_of (a b : List (List Nat)) : list × list × Mem :=
  match (do
    let (x, m) ← push_byte_strings Mem.empty list.mk_empty a
    let (y, m) ← push_byte_strings m list.mk_empty b
    pure (x, y, m)) with
  | .ok v => v
  | .error _ => (list.mk_empty, list.mk_empty, Mem.empty)

/-- An iterator as `begin()` and `++` leave it: inside a node, or at the
end of the chain with `m_r_off == 0`, and `m_a_off` is the offset of that
position. -/
def iterator.placed (bl : list) (it : iterator) : Prop :=
  it.m_a_off = nodes_len (bl._buffers.take it.m_list_it) + it.m_r_off ∧
  (∀ node, bl._buffers[it.m_list_it]? = some node → it.m_r_off < node.m_len) ∧
  (bl._buffers[it.m_list_it]? = none → it.m_list_it = bl._buffers.length ∧ it.m_r_off = 0)

/-! ## Base64 (`armor.c`) -/

/-- The error number `EINVAL`. -/
def EINVAL : Nat := 22

/-- The error number `ERANGE`. -/
def ERANGE : Nat := 34

/-- The table `pem_key` of `encode_bits`. -/
def pem_key : List Nat :=
  str "ABCDEFGHIJKLMNOPQRSTUVWXYZabcdefghijklmnopqrstuvwxyz0123456789+/"

/-- Function `encode_bits(c)`: `pem_key[c]`.  Every caller passes a value
below 64; the byte behind the 64 characters of the table is its NUL. -/
def encode_bits (c : Nat) : Nat := pem_key.getD c 0

/-- Function `decode_bits(c)` on the byte `c`: `A`..`Z` are 65..90, `a`..`z`
97..122, `0`..`9` 48..57, `+` 43, `-` 45, `/` 47, `_` 95 and `=` 61. -/
def decode_bits (c : Nat) : Int :=
  if c ≥ 65 ∧ c ≤ 90 then (c : Int) - 65
  else if c ≥ 97 ∧ c ≤ 122 then (c : Int) - 97 + 26
  else if c ≥ 48 ∧ c ≤ 57 then (c : Int) - 48 + 52
  else if c = 43 ∨ c = 45 then 62
  else if c = 47 ∨ c = 95 then 63
  else if c = 61 then 0
  else -(EINVAL : Int)

/-- Function `set_str_val(&dst, dst_end, c)`: `out` holds the bytes written
to the destination so far and `cap` is its size; `none` is `-ERANGE`.  The
value is stored as a `char`. -/
def set_str_val (cap : Nat) (out : List Nat) (c : Nat) : Option (List Nat) :=
  if out.length < cap then some (out ++ [c % 256]) else none

/-- A run of `SET_DST(c)` statements: the first one that fails leaves the
function, with the bytes written before it. -/
def set_dst (cap : Nat) : List Nat → List Nat → Except (List Nat) (List Nat)
  | out, [] => .ok out
  | out, c :: cs =>
    match set_str_val cap out c with
    | none => .error out
    | some out1 => set_dst cap out1 cs

/-- One pass of the loop of `spec_armor_line_break` behind the reads of the
source: the four characters are stored, the counters move on and the line
break is written when the line is full.  A failed `SET_DST` returns
`-ERANGE`, converted to the `uint64_t` of the result. -/
def armor_group (cap line_width : Nat) (out : List Nat) (out_len track_line : Nat)
    (chars : List Nat) : Except (List Nat × Nat) (List Nat × Nat × Nat) :=
  match set_dst cap out chars with
  | .error out1 => .error (out1, U64 - ERANGE)
  | .ok out1 =>
    let out_len := add64 out_len 4
    let track_line := add64 track_line 4
    if line_width ≠ 0 ∧ track_line = line_width then
      match set_dst cap out1 [10] with
      | .error out2 => .error (out2, U64 - ERANGE)
      | .ok out2 => .ok (out2, add64 out_len 1, 0)
    else .ok (out1, out_len, track_line)

/-- The loop of `spec_armor_line_break` over the source bytes, each read as
`unsigned char`: the bytes written and the value returned. -/
def spec_armor_loop (cap line_width : Nat) : List Nat → List Nat → Nat → Nat → List Nat × Nat
  | [], out, out_len, _ => (out, out_len)
  | [a], out, out_len, track_line =>
    match armor_group cap line_width out out_len track_line
      [encode_bits ((a % 256) >>> 2), encode_bits (((a % 256) &&& 3) <<< 4), 61, 61] with
    | .error r => r
    | .ok (out1, out_len1, _) => (out1, out_len1)
  | [a, b], out, out_len, track_line =>
    match armor_group cap line_width out out_len track_line
      [encode_bits ((a % 256) >>> 2),
       encode_bits ((((a % 256) &&& 3) <<< 4) ||| ((b % 256) >>> 4)),
       encode_bits (((b % 256) &&& 15) <<< 2), 61] with
    | .error r => r
    | .ok (out1, out_len1, _) => (out1, out_len1)
  | a :: b :: c :: src, out, out_len, track_line =>
    match armor_group cap line_width out out_len track_line
      [encode_bits ((a % 256) >>> 2),
       encode_bits ((((a % 256) &&& 3) <<< 4) ||| ((b % 256) >>> 4)),
       encode_bits ((((b % 256) &&& 15) <<< 2) ||| ((c % 256) >>> 6)),
       encode_bits ((c % 256) &&& 63)] with
    | .error r => r
    | .ok (out1, out_len1, track_line1) =>
      spec_armor_loop cap line_width src out1 out_len1 track_line1

/-- Function `spec_armor_line_break(dst, dst_end, src, src_end, line_width)`
with `cap = dst_end - dst` and `src` the bytes of the source: the bytes
written to `dst` and the value returned. -/
def spec_armor_line_break (cap : Nat) (src : List Nat) (line_width : Nat) : List Nat × Nat :=
  spec_armor_loop cap line_width src [] 0 0

/-- Function `spec_armor(dst, dst_end, src, src_end)`. -/
def spec_armor (cap : Nat) (src : List Nat) : List Nat × Nat :=
  spec_armor_line_break cap src 0

/-- The loop of `spec_unarmor`: the bytes written and the `int64_t`
returned. -/
def spec_unarmor_loop (cap : Nat) : List Nat → List Nat → Int → List Nat × Int
  | [], out, out_len => (out, out_len)
  | s0 :: rest, out, out_len =>
    if s0 = 10 then spec_unarmor_loop cap rest out out_len
    else
      match rest with
      | s1 :: s2 :: s3 :: src =>
        let a := decode_bits s0
        let b := decode_bits s1
        let c := decode_bits s2
        let d := decode_bits s3
        if a < 0 ∨ b < 0 ∨ c < 0 ∨ d < 0 then (out, -(EINVAL : Int))
        else
          match set_str_val cap out ((a.toNat <<< 2) ||| (b.toNat >>> 4)) with
          | none => (out, -(ERANGE : Int))
          | some out1 =>
            if s2 = 61 then (out1, out_len + 1)
            else
              match set_str_val cap out1 (((b.toNat &&& 15) <<< 4) ||| (c.toNat >>> 2)) with
              | none => (out1, -(ERANGE : Int))
              | some out2 =>
                if s3 = 61 then (out2, out_len + 2)
                else
                  match set_str_val cap out2 (((c.toNat &&& 3) <<< 6) ||| d.toNat) with
                  | none => (out2, -(ERANGE : Int))
                  | some out3 => spec_unarmor_loop cap src out3 (out_len + 3)
      | _ => (out, -(EINVAL : Int))

/-- Function `spec_unarmor(dst, dst_end, src, src_end)` with
`cap = dst_end - dst` and `src` the bytes of the source. -/
def spec_unarmor (cap : Nat) (src : List Nat) : List Nat × Int :=
  spec_unarmor_loop cap src [] 0

/-! ## `list::encode_base64` and `list::decode_base64` -/

/-- The `len` bytes that a read at the pointer returned by `list::c_str()`
sees: nothing at the null pointer of a list without nodes, and the bytes at
the start of the view of the first node otherwise. -/
def list.c_str_bytes (m : Mem) (L : list) (len : Nat) : Except Err (List Nat) :=
  match L._buffers.head? with
  | none => if len = 0 then .ok [] else .error .undefined
  | some front =>
    match front.toptr.c_str_data m with
    | .error e => .error e
    | .ok d => if d.length < len then .error .undefined else .ok (d.take len)

/-- The bytes `out` stored at `bptr.c_str()`. -/
def ptr.store (m : Mem) (p : ptr) (out : List Nat) : Except Err Mem :=
  match p.m_raw with
  | none => .error .assert_failed
  | some i =>
    match m.raws i with
    | none => .error .undefined
    | some r =>
      if r.m_data.length < p.m_off + out.length then .error .undefined
      else .ok (m.set_raw i (some { r with m_data := write_bytes r.m_data p.m_off out }))

/-- Member `list::encode_base64(waiting_encode_list)`: this list (on which
`c_str()` is called), the argument and the heap after the call.  The local
`bptr` dies at the end. -/
def list.encode_base64 (m : Mem) (L waiting_encode_list : list) :
    Except Err (list × list × Mem) :=
  match ptr.of_len m (add64 (L.length * 4 % U64 / 3) 3) with
  | .error e => .error e
  | .ok (bptr, m1) =>
    match bptr.c_str_addr m1 with
    | .error e => .error e
    | .ok _ =>
      match L.c_str m1 with
      | .error e => .error e
      | .ok (_, L1, m2) =>
        match L1.c_str_bytes m2 L1.length with
        | .error e => .error e
        | .ok src =>
          match bptr.store m2 (spec_armor bptr.length src).1 with
          | .error e => .error e
          | .ok m3 =>
            match bptr.set_length m3 (spec_armor bptr.length src).2 with
            | .error e => .error e
            | .ok bptr1 =>
              match (waiting_encode_list.push_back_move m3 bptr1).2.1.release
                  (waiting_encode_list.push_back_move m3 bptr1).2.2 with
              | .error e => .error e
              | .ok (_, m5) => .ok (L1, (waiting_encode_list.push_back_move m3 bptr1).1, m5)

/-- The loop of `list::operator[]` over the nodes; behind the last node it
reaches `spec_abort()`. -/
def index_loop (m : Mem) : List ptr_node → Nat → Except Err Nat
  | [], _ => .error .assert_failed
  | node :: rest, pos =>
    if pos ≥ node.length then index_loop m rest (sub64 pos node.length)
    else node.toptr.at m pos

/-- Member `list::operator[]`. -/
def list.index (m : Mem) (L : list) (pos : Nat) : Except Err Nat :=
  if pos ≥ L._len then .error .end_of_buffer else index_loop m L._buffers pos

/-- The reads `(*this)[k]` at the offsets given. -/
def list.reads (m : Mem) (L : list) : List Nat → Except Err Unit
  | [] => .ok ()
  | k :: rest =>
    match L.index m k with
    | .error e => .error e
    | .ok _ => L.reads m rest

/-- Member `list::hexdump` as far as the list is concerned: the function is
`const` and reads `(*this)[k]` at offsets below `length()`, every one of them
at least once; the text it writes to the stream is not modelled. -/
def list.hexdump (m : Mem) (L : list) : Except Err Unit :=
  L.reads m (List.range L.length)

/-- Member `list::decode_base64(encoded_list)`: this list, the argument
(on which `c_str()` is called) and the heap after the call.  The exception
destroys the local `bptr`. -/
def list.decode_base64 (m : Mem) (L encoded_list : list) : outcome (list × list × Mem) :=
  match ptr.of_len m (add64 4 (encoded_list.length * 3 % U64 / 4)) with
  | .error e => .aborted e
  | .ok (bptr, m1) =>
    match bptr.c_str_addr m1 with
    | .error e => .aborted e
    | .ok _ =>
      match encoded_list.c_str m1 with
      | .error e => .aborted e
      | .ok (_, E1, m2) =>
        match E1.c_str_bytes m2 E1.length with
        | .error e => .aborted e
        | .ok src =>
          match bptr.store m2 (spec_unarmor bptr.length src).1 with
          | .error e => .aborted e
          | .ok m3 =>
            if (spec_unarmor bptr.length src).2 < 0 then
              match L.hexdump m3 with
              | .error e => .aborted e
              | .ok _ =>
                match bptr.release m3 with
                | .error e => .aborted e
                | .ok (_, m4) => .thrown .malformed_input (L, E1, m4)
            else if (spec_unarmor bptr.length src).2 ≤ (bptr.length : Int) then
              match bptr.set_length m3 (spec_unarmor bptr.length src).2.toNat with
              | .error e => .aborted e
              | .ok bptr1 =>
                match (L.push_back_move m3 bptr1).2.1.release (L.push_back_move m3 bptr1).2.2 with
                | .error e => .aborted e
                | .ok (_, m5) => .returned ((L.push_back_move m3 bptr1).1, E1, m5)
            else .aborted .assert_failed

/-- The base64 text of a byte string: four characters for every three
bytes, and `=` in the place of the characters that a last group of one or
two bytes does not fill. -/
def base64_text : List Nat → List Nat
  | [] => []
  | [a] => [encode_bits (a >>> 2), encode_bits ((a &&& 3) <<< 4), 61, 61]
  | [a, b] =>
    [encode_bits (a >>> 2), encode_bits (((a &&& 3) <<< 4) ||| (b >>> 4)),
     encode_bits ((b &&& 15) <<< 2), 61]
  | a :: b :: c :: rest =>
    [encode_bits (a >>> 2), encode_bits (((a &&& 3) <<< 4) ||| (b >>> 4)),
     encode_bits (((b &&& 15) <<< 2) ||| (c >>> 6)), encode_bits (c &&& 63)]
      ++ base64_text rest

/-- The list holding `s` in one node, in an empty heap. -/
def text_list (s : String) : list × Mem :=
  match push_text Mem.empty list.mk_empty s with
  | .ok v => v
  | .error _ => (list.mk_empty, Mem.empty)

/-- The statement `bl.encode_base64(other)` on the list `text_list s` and a
fresh list `other`. -/
def encoded (s : String) : list × list × Mem :=
  match (text_list s).1.encode_base64 (text_list s).2 list.mk_empty with
  | .ok v => v
  | .error _ => (list.mk_empty, list.mk_empty, Mem.empty)

/-- The lists of the decode test in one heap: `other`, which holds
`ReplicWBCache`, and `malformed`, which holds `UmVwbGljV0JDYWNoZQ`, here in
the two nodes `UmVwbGlj` and `V0JDYWNoZQ`. -/
def decode_test_lists : list × list × Mem :=
  lists_of [str "ReplicWBCache"] [str "UmVwbGlj", str "V0JDYWNoZQ"]

/-- The list `Replic`, `WBCache` of two nodes and a list that holds `old`,
in one heap. -/
def encode_test_lists : list × list × Mem :=
  lists_of [str "Replic", str "WBCache"] [str "old"]

/-! ## Inputs for the checksum cache under ptr writes -/

/-- The list `ABCD` in one node, and a ptr `q` that views the first two
bytes of the same region.  The digest for seed 0 is computed and cached, then
`q.append("ZZ", 2)` writes the bytes `CD` of the region.  The result is the
cache entry of the region before and after the append, the bytes of the
region after it, and the digest the list reports before and after. -/
def crc_after_ptr_append :
    Except Err (Option ((Nat × Nat) × (Nat × Nat)) × Option ((Nat × Nat) × (Nat × Nat)) ×
      Option (List Nat) × Nat × Nat) := do
  let (p, m) ← ptr.of_buf Mem.empty (str "ABCD") 4
  let (L, m) ← list.mk_empty.push_back m p
  let (q, m) ← ptr.slice m p 0 2
  let (d1, m1) ← L.crc32c m 0
  let (_, _, m2) ← q.append m1 (str "ZZ") 2
  let (d2, _) ← L.crc32c m2 0
  pure ((m1.raws 0).map (fun r => (r.last_crc_offset, r.last_crc_val)),
        (m2.raws 0).map (fun r => (r.last_crc_offset, r.last_crc_val)),
        (m2.raws 0).map raw.m_data, d1, d2)

/-- The same statements with `q.append_zeros(2)` in the place of the append. -/
def crc_after_ptr_append_zeros :
    Except Err (Option ((Nat × Nat) × (Nat × Nat)) × Option ((Nat × Nat) × (Nat × Nat)) ×
      Option (List Nat) × Nat × Nat) := do
  let (p, m) ← ptr.of_buf Mem.empty (str "ABCD") 4
  let (L, m) ← list.mk_empty.push_back m p
  let (q, m) ← ptr.slice m p 0 2
  let (d1, m1) ← L.crc32c m 0
  let (_, _, m2) ← q.append_zeros m1 2
  let (d2, _) ← L.crc32c m2 0
  pure ((m1.raws 0).map (fun r => (r.last_crc_offset, r.last_crc_val)),
        (m2.raws 0).map (fun r => (r.last_crc_offset, r.last_crc_val)),
        (m2.raws 0).map raw.m_data, d1, d2)

/-- The ptr `p` over `ABCD`, the ptr `q` that views its first two bytes, and
the heap in which a list holding `p` has computed and cached the digest of
the range `(0, 4)` for seed 0. -/
def abcd_cached : ptr × ptr × Mem :=
  match (do
    let (p, m) ← ptr.of_buf Mem.empty (str "ABCD") 4
    let (L, m) ← list.mk_empty.push_back m p
    let (q, m) ← ptr.slice m p 0 2
    let (_, m1) ← L.crc32c m 0
    pure (p, q, m1) : Except Err (ptr × ptr × Mem)) with
  | .ok v => v
  | .error _ => (ptr.mk_empty, ptr.mk_empty, Mem.empty)

/-! ## Comparison of a list with a buffer -/

/-- The loop of `list::contents_equal(const void* other, uint64_t length)`
over the nodes, with the bytes at `other_buf` and what is left of `length`;
behind the last node the function returns false. -/
def contents_equal_buf_loop (m : Mem) : List ptr_node → List Nat → Nat → Except Err Bool
  | [], _, _ => .ok false
  | bp :: rest, other_buf, length =>
    let round_length := min length bp.length
    match bp.toptr.c_str_data m with
    | .error e => .error e
    | .ok d =>
      match memcmp d other_buf round_length with
      | .error e => .error e
      | .ok c =>
        if c ≠ 0 then .ok false
        else if length - round_length = 0 then .ok true
        else contents_equal_buf_loop m rest (other_buf.drop round_length) (length - round_length)

/-- Member `list::contents_equal(const void* other, uint64_t length)`. -/
def list.contents_equal_buf (m : Mem) (L : list) (other : List Nat) (length : Nat) :
    Except Err Bool :=
  if L.length ≠ length then .ok false else contents_equal_buf_loop m L._buffers other length

/-- The list of one node of length 0 (`reserve(10)` on an empty list). -/
def list_reserved : list × Mem :=
  match list.mk_empty.reserve Mem.empty 10 with
  | .ok v => v
  | .error _ => (list.mk_empty, Mem.empty)

/-! ## Inputs for the rebuild of aligned lists -/

/-- The list `list_full_and_reserved` with its heap: an aligned node of 64
bytes and an aligned empty node. -/
def aligned_pair : list × Mem :=
  match list_full_and_reserved with
  | .ok v => v
  | .error _ => (list.mk_empty, Mem.empty)

/-- The list `list_odd_byte` with its heap: one byte at an odd address. -/
def odd_byte : list × Mem :=
  match list_odd_byte with
  | .ok v => v
  | .error _ => (list.mk_empty, Mem.empty)

/-! ## The operations of an iterator -/

/-- The statement `m_list_it->copy_in(m_r_off, this_copy_len, src, crc_reset)`
with `src += this_copy_len`; `d` holds the heap and what is left of the
source. -/
def copy_emit_in (crc_reset : Bool) (d : Mem × List Nat) (node : ptr_node) (r n : Nat) :
    Except Err (Mem × List Nat) :=
  match node.toptr.copy_in d.1 r n d.2 crc_reset with
  | .error e => .error e
  | .ok m1 => .ok (m1, d.2.drop n)

/-- Member `list::iterator::copy_in(uint64_t len, const char* src, bool
crc_reset)`. -/
def iterator.copy_in (m : Mem) (bl : list) (fuel : Nat) (it : iterator) (len : Nat)
    (src : List Nat) (crc_reset : Bool) : Option (outcome (iterator × Mem × List Nat)) :=
  copy_with (copy_emit_in crc_reset) bl fuel it len (m, src)

/-- The iterator that the outcome of a call leaves behind. -/
def outcome.position {δ : Type} : outcome (iterator × δ) → outcome iterator
  | .returned s => .returned s.1
  | .thrown e s => .thrown e s.1
  | .aborted e => .aborted e

/-- The operations that position an iterator: the constructor
`iterator_impl(blist, off)`, `seek`, `operator+=`, `operator++`, the three
`copy` overloads, `copy_in` and `get_ptr_and_advance`. -/
inductive iter_op where
  | construct (off : Nat)
  | seek (off : Nat)
  | advance (off : Nat)
  | incr
  | copy (len : Nat) (dest : List Nat)
  | copy_string (len : Nat) (dest : List Nat)
  | copy_list (len : Nat) (dest : list)
  | copy_in (len : Nat) (src : List Nat) (crc_reset : Bool)
  | get_ptr_and_advance (max_req_size : Nat) (p : Option cptr)

/-- The `uint64_t` offset that an operation adds to the position. -/
def iter_op.offset : iter_op → Nat
  | .construct off => off
  | .seek off => off
  | .advance off => off
  | _ => 0

/-- Run an operation on the iterator `it` of the list `bl`: the iterator
afterwards (`fuel` bounds the passes of the copy loops). -/
def iter_op.run (m : Mem) (bl : list) (fuel : Nat) (it : iterator) :
    iter_op → Option (outcome iterator)
  | .construct off => some (bl.begin_at off)
  | .seek off => some (it.seek bl off)
  | .advance off => some (it.advance bl off)
  | .incr => some (it.incr bl)
  | .copy len dest => (iterator.copy m bl fuel it len dest).map outcome.position
  | .copy_string len dest => (iterator.copy_string m bl fuel it len dest).map outcome.position
  | .copy_list len dest => (iterator.copy_list m bl fuel it len dest).map outcome.position
  | .copy_in len src crc_reset =>
    (iterator.copy_in m bl fuel it len src crc_reset).map outcome.position
  | .get_ptr_and_advance max_req_size p =>
    match it.get_ptr_and_advance m bl max_req_size p with
    | .returned s => some (.returned s.2.2)
    | .thrown e s => some (.thrown e s.2.2)
    | .aborted e => some (.aborted e)

/-- The list `AB`, an empty node, `CD`: `push_back` of the ptr `AB`,
`reserve(10)`, `push_back` of the ptr `CD`. -/
def ab_empty_cd : list × Mem :=
  match (do
    let (L, m) ← push_text Mem.empty list.mk_empty "AB"
    let (L, m) ← L.reserve m 10
    push_text m L "CD" : Except Err (list × Mem)) with
  | .ok v => v
  | .error _ => (list.mk_empty, Mem.empty)

/-- The list of two empty nodes of the test `iterate_with_empties`. -/
def empties : list × Mem :=
  match two_empty_nodes with
  | .ok v => v
  | .error _ => (list.mk_empty, Mem.empty)

/-! ## The nodes of a substring -/

/-- In the words of the claim: the number of nodes of a chain that overlap
the range `[off, off + len)` in at least one byte; the chain starts at the
offset `pos`, so that its first node holds the bytes
`[pos, pos + length)`. -/
def overlapping_at (pos : Nat) : List ptr_node → Nat → Nat → Nat
  | [], _, _ => 0
  | n :: rest, off, len =>
    (if max pos off < min (pos + n.m_len) (off + len) then 1 else 0) +
      overlapping_at (pos + n.m_len) rest off len

/-- The number of nodes of a list that overlap the range `[off, off + len)`
of its content in at least one byte. -/
def list.overlapping (L : list) (off len : Nat) : Nat := overlapping_at 0 L._buffers off len

/-- The offset `x` is a node boundary inside the chain, that is, a node of
the chain starts at `x`; the chain starts at the offset `pos`. -/
def node_starts_at (pos : Nat) : List ptr_node → Nat → Bool
  | [], _ => false
  | n :: rest, x => pos == x || node_starts_at (pos + n.m_len) rest x

/-- The call `substr_of(S, 3, 3)` on `ABC`, `DEF`, `GHI`, `JKL`: the range
is the node `DEF`. -/
def substr_3_3 : Except Err (list × Mem) := do
  let (L, m) ← list_abc_jkl
  list.mk_empty.substr_of m L 3 3

/-- The call `substr_of(S, 4, 0)` on `ABC`, `DEF`, `GHI`, `JKL`: an empty
range. -/
def substr_4_0 : Except Err (list × Mem) := do
  let (L, m) ← list_abc_jkl
  list.mk_empty.substr_of m L 4 0

/-- The list `ABC`, `DEF`, `GHI`, `JKL` with its heap. -/
def abc_jkl : list × Mem :=
  match list_abc_jkl with
  | .ok v => v
  | .error _ => (list.mk_empty, Mem.empty)

/-! ## The counters of a memory pool (`mempool.h`) and of a region -/

/-- A `mempool::shard_t`: the two `atomic<size_t>` counters. -/
structure shard_t where
  allocated_bytes : Nat
  allocated_items : Nat
deriving DecidableEq, Repr

/-- The constant `num_shard_bits`. -/
def num_shard_bits : Nat := 5

/-- The constant `num_shards`. -/
def num_shards : Nat := 1 <<< num_shard_bits

/-- A `mempool::pool_type`: the array `shard[num_shards]`. -/
structure pool_type where
  shard : List shard_t
deriving DecidableEq, Repr

/-- A pool whose counters are all 0, as the static initialisation leaves
it. -/
def pool_type.mk_empty : pool_type := { shard := List.replicate num_shards ⟨0, 0⟩ }

/-- The conversion of a value to `ssize_t`: reduction modulo `2 ^ 64` into
the range of the signed type. -/
def to_ssize (v : Int) : Int :=
  if v % (U64 : Int) < 2 ^ 63 then v % (U64 : Int) else v % (U64 : Int) - (U64 : Int)

/-- The conversion `(int)x` of a `uint64_t`: reduction modulo `2 ^ 32` into
the range of `int`. -/
def to_int (x : Nat) : Int :=
  if x % 2 ^ 32 < 2 ^ 31 then ((x % 2 ^ 32 : Nat) : Int) else ((x % 2 ^ 32 : Nat) : Int) - 2 ^ 32

/-- The statement `counter += d` on an `atomic<size_t>` with an `ssize_t`
operand: the sum modulo `2 ^ 64`. -/
def size_add (x : Nat) (d : Int) : Nat := (((x : Int) + d) % (U64 : Int)).toNat

/-- Member `pool_type::pick_a_shard`: the index of the shard for the thread
`self` (the value of `pthread_self()`). -/
def pool_type.pick_a_shard (self : Nat) : Nat := ((self % U64) >>> 3) &&& (num_shards - 1)

/-- Member `pool_type::adjust_count(adjust_allocated_items,
adjust_allocated_bytes)` called on the thread `self`. -/
def pool_type.adjust_count (p : pool_type) (self : Nat)
    (adjust_allocated_items adjust_allocated_bytes : Int) : pool_type :=
  match p.shard[pool_type.pick_a_shard self]? with
  | none => p
  | some s =>
    { shard := p.shard.set (pool_type.pick_a_shard self)
        { allocated_bytes := size_add s.allocated_bytes adjust_allocated_bytes,
          allocated_items := size_add s.allocated_items adjust_allocated_items } }

/-- The loop `result += shard[i].counter` over the shards, with `result` an
`ssize_t`. -/
def sum_loop (counter : shard_t → Nat) : List shard_t → Int → Int
  | [], result => result
  | s :: rest, result => sum_loop counter rest (to_ssize (result + (counter s : Int)))

/-- Member `pool_type::allocated_bytes`: a negative sum is reported as 0. -/
def pool_type.allocated_bytes (p : pool_type) : Nat :=
  if sum_loop shard_t.allocated_bytes p.shard 0 < 0 then 0
  else (sum_loop shard_t.allocated_bytes p.shard 0).toNat

/-- Member `pool_type::allocated_items`. -/
def pool_type.allocated_items (p : pool_type) : Nat :=
  if sum_loop shard_t.allocated_items p.shard 0 < 0 then 0
  else (sum_loop shard_t.allocated_items p.shard 0).toNat

/-- The constructor `raw::raw(data, len, mempool)` as far as the pool is
concerned: `adjust_count(1, m_len)` on the thread `self`. -/
def raw.created (p : pool_type) (self m_len : Nat) : pool_type :=
  p.adjust_count self 1 (to_ssize (m_len : Int))

/-- The destructor `raw::~raw` as far as the pool is concerned:
`adjust_count(-1, -(int)m_len)`.  The negation of `INT_MIN` overflows, which
is undefined behaviour. -/
def raw.destroyed (p : pool_type) (self m_len : Nat) : Except Err pool_type :=
  if to_int m_len = -(2 ^ 31) then .error .undefined
  else .ok (p.adjust_count self (-1) (-(to_int m_len)))

/-! ## `list::write_fd(int fd, uint64_t offset)` over an oracle for `pwritev` -/

/-- The error number `EINTR`. -/
def EINTR : Nat := 4

/-- The error number `EBADF`. -/
def EBADF : Nat := 9

/-- The constant `IOV_MAX` of Linux. -/
def IOV_MAX : Nat := 1024

/-- What a call of `pwritev` answers: the number of bytes it has written,
or -1 with the error number left in `errno`. -/
inductive resp where
  | wrote (r : Nat)
  | failed (errno : Nat)
deriving DecidableEq, Repr

/-- The file descriptor as the calls see it: the number of `pwritev` calls
made so far (the oracle is asked by this number), and the writes that have
reached the file, each with its file offset and its bytes, in the order of
the calls. -/
structure io where
  calls : Nat
  log : List (Nat × List Nat)
deriving DecidableEq, Repr

/-- The system call `pwritev(fd, vec, veclen, offset)` over the oracle: a
successful call writes a prefix of the bytes of the vector at `offset` and
returns its length, which is at most what the vector holds. -/
def pwritev (oracle : Nat → resp) (s : io) (vec : List (List Nat)) (offset : Nat) : resp × io :=
  match oracle s.calls with
  | .failed errno => (.failed errno, { s with calls := s.calls + 1 })
  | .wrote r =>
    (.wrote (min r vec.flatten.length),
     { calls := s.calls + 1, log := s.log ++ [(offset, vec.flatten.take r)] })

/-- The loop `while (r > 0)` of `do_writev` that moves `vec` behind the `r`
bytes written; reading `vec[0]` behind the vector is undefined behaviour. -/
def drain : List (List Nat) → Nat → Except Err (List (List Nat))
  | vec, 0 => .ok vec
  | [], _ + 1 => .error .undefined
  | v :: rest, r + 1 =>
    if v.length ≤ r + 1 then drain rest (r + 1 - v.length) else .ok (v.drop (r + 1) :: rest)

/-- Function `do_writev(fd, vec, offset, veclen, bytes)`: the returned
`int` and the file afterwards; `fuel` bounds the number of `pwritev` calls,
and `none` says that the loop is still running when it is used up.  The
condition `if (errno = EINTR)` assigns `EINTR` to `errno` and tests the
value assigned. -/
def do_writev (oracle : Nat → resp) :
    Nat → io → List (List Nat) → Nat → Nat → Option (Except Err (Int × io))
  | 0, s, _, _, bytes => if bytes = 0 then some (.ok (0, s)) else none
  | fuel + 1, s, vec, offset, bytes =>
    if bytes = 0 then some (.ok (0, s)) else
    match pwritev oracle s vec offset with
    | (.failed _, s1) =>
      let errno := EINTR
      if errno ≠ 0 then do_writev oracle fuel s1 vec offset bytes
      else some (.ok (-(errno : Int), s1))
    | (.wrote r, s1) =>
      let bytes1 := sub64 bytes r
      let offset1 := add64 offset r
      if bytes1 = 0 then some (.ok (0, s1)) else
      match drain vec r with
      | .error e => some (.error e)
      | .ok vec1 => do_writev oracle fuel s1 vec1 offset1 bytes1

/-- The loop of `list::write_fd` that fills `iov` from the next `size`
nodes: the vector, the `ssize_t` sum of the lengths, and the nodes left.
Moving `bptr` behind the chain reads the root hook as a node. -/
def fill_iov (m : Mem) : Nat → List ptr_node → List (List Nat) → Int →
    Except Err (List (List Nat) × Int × List ptr_node)
  | 0, bptr, iov, bytes => .ok (iov, bytes, bptr)
  | _ + 1, [], _, _ => .error .undefined
  | size + 1, node :: rest, iov, bytes =>
    match node.toptr.c_str_data m with
    | .error e => .error e
    | .ok d =>
      if d.length < node.length then .error .undefined
      else fill_iov m size rest (iov ++ [d.take node.length])
        (to_ssize (bytes + (node.length : Int)))

/-- The outer loop `while (left_pbrs)` of `list::write_fd`; `steps` bounds
its passes (every pass takes at least one node off `left_pbrs`). -/
def write_fd_loop (m : Mem) (oracle : Nat → resp) (fuel : Nat) :
    Nat → io → List ptr_node → Nat → Nat → Option (Except Err (Int × io))
  | _, s, _, 0, _ => some (.ok (0, s))
  | 0, _, _, _ + 1, _ => none
  | steps + 1, s, bptr, left_pbrs + 1, offset =>
    match fill_iov m (min (left_pbrs + 1) IOV_MAX) bptr [] 0 with
    | .error e => some (.error e)
    | .ok (iov, bytes, bptr1) =>
      match do_writev oracle fuel s iov offset (bytes % (U64 : Int)).toNat with
      | none => none
      | some (.error e) => some (.error e)
      | some (.ok (r, s1)) =>
        if r < 0 then some (.ok (r, s1))
        else write_fd_loop m oracle fuel steps s1 bptr1
          (left_pbrs + 1 - min (left_pbrs + 1) IOV_MAX)
          (((offset : Int) + bytes) % (U64 : Int)).toNat

/-- Member `list::write_fd(int fd, uint64_t offset)`. -/
def list.write_fd (m : Mem) (L : list) (oracle : Nat → resp) (fuel : Nat) (s : io)
    (offset : Nat) : Option (Except Err (Int × io)) :=
  write_fd_loop m oracle fuel L.get_num_buffers s L._buffers L.get_num_buffers offset

/-- In the words of the claim: the writes reach the file in order, each one
at the offset where the one before has ended, the first one at `start`. -/
def contiguous_from : Nat → List (Nat × List Nat) → Bool
  | _, [] => true
  | start, (off, data) :: rest => off == start && contiguous_from (start + data.length) rest

/-- The bytes of a sequence of writes, in order. -/
def written (log : List (Nat × List Nat)) : List Nat := (log.map (fun w => w.2)).flatten

/-- An oracle that answers by the list given, and fails with `EBADF` when
the list is used up. -/
def oracle_of (answers : List resp) (k : Nat) : resp := answers.getD k (.failed EBADF)

/-! ## The node chain `list::buffers_t` at the level of its pointers -/

/-- The store `p->next = v` into the hook at address `p`; the memory of the
hooks is the function that gives `next` for every address. -/
def hook_set (next : Nat → Nat) (p v : Nat) : Nat → Nat := fun x => if x = p then v else next x

/-- A `list::buffers_t`: the address of its member `_root` (whose `next` is
in the memory of the hooks) and the pointer `_tail`. -/
structure buffers_t where
  root : Nat
  _tail : Nat
deriving DecidableEq, Repr

/-- Member `buffers_t::empty`. -/
def buffers_t.empty (c : buffers_t) : Bool := c._tail == c.root

/-- Member `buffers_t::push_back(item)`. -/
def buffers_t.push_back (next : Nat → Nat) (c : buffers_t) (item : Nat) :
    (Nat → Nat) × buffers_t :=
  let n1 := hook_set next item c.root
  let n2 := hook_set n1 c._tail item
  (n2, { c with _tail := item })

/-- Member `buffers_t::push_front(item)`. -/
def buffers_t.push_front (next : Nat → Nat) (c : buffers_t) (item : Nat) :
    (Nat → Nat) × buffers_t :=
  let n1 := hook_set next item (next c.root)
  let n2 := hook_set n1 c.root item
  (n2, { c with _tail := if c._tail = c.root then item else c._tail })

/-- Member `buffers_t::insert_after(it, item)`; `end()` is the address of
the root. -/
def buffers_t.insert_after (next : Nat → Nat) (c : buffers_t) (it item : Nat) :
    (Nat → Nat) × buffers_t :=
  let n1 := hook_set next item (next it)
  let n2 := hook_set n1 it item
  let n3 := hook_set n2 c.root (if it = c.root then item else n2 c.root)
  (n3, { c with _tail := if c._tail = it then item else c._tail })

/-- Member `buffers_t::erase_after(it)`: the memory, the chain and the
returned iterator `it->next`. -/
def buffers_t.erase_after (next : Nat → Nat) (c : buffers_t) (it : Nat) :
    (Nat → Nat) × buffers_t × Nat :=
  let to_erase := next it
  let n1 := hook_set next it (next to_erase)
  let n2 := hook_set n1 c.root (if n1 c.root = to_erase then n1 to_erase else n1 c.root)
  (n2, { c with _tail := if c._tail = to_erase then it else c._tail }, n2 it)

/-- Member `buffers_t::splice_back(other)`: the memory, this chain and the
other one. -/
def buffers_t.splice_back (next : Nat → Nat) (c other : buffers_t) :
    (Nat → Nat) × buffers_t × buffers_t :=
  if other.empty then (next, c, other) else
  let n1 := hook_set next other._tail c.root
  let n2 := hook_set n1 c._tail (n1 other.root)
  let n3 := hook_set n2 other.root other.root
  (n3, { c with _tail := other._tail }, { other with _tail := other.root })

/-- Member `buffers_t::swap(other)`: the memory, this chain and the other
one. -/
def buffers_t.swap (next : Nat → Nat) (c other : buffers_t) :
    (Nat → Nat) × buffers_t × buffers_t :=
  let copy_root_next := next c.root
  let n1 := hook_set next c.root (if next other.root = other.root then c.root else next other.root)
  let n2 := hook_set n1 other.root (if copy_root_next = c.root then other.root else copy_root_next)
  let copy_tail := c._tail
  let tail1 := if other._tail = other.root then c.root else other._tail
  let tail2 := if copy_tail = c.root then other.root else copy_tail
  let n3 := hook_set n2 tail1 c.root
  let n4 := hook_set n3 tail2 other.root
  (n4, { c with _tail := tail1 }, { other with _tail := tail2 })

/-- The loop of `buffers_t::clear_and_dispose`: the nodes handed to the
disposer, in order; `fuel` bounds the passes, and `none` says that the loop
is still running when it is used up. -/
def clear_loop (next : Nat → Nat) (root : Nat) : Nat → Nat → List Nat → Option (List Nat)
  | 0, it, disposed => if it = root then some disposed else none
  | fuel + 1, it, disposed =>
    if it = root then some disposed else clear_loop next root fuel (next it) (disposed ++ [it])

/-- Member `buffers_t::clear_and_dispose` on the pointers: the memory, the
chain and the nodes disposed. -/
def buffers_t.clear_and_dispose (next : Nat → Nat) (c : buffers_t) (fuel : Nat) :
    Option ((Nat → Nat) × buffers_t × List Nat) :=
  match clear_loop next c.root fuel (next c.root) [] with
  | none => none
  | some disposed => some (hook_set next c.root c.root, { c with _tail := c.root }, disposed)

/-- Following `next` from the address `a` visits the addresses `nodes`, in
this order. -/
def links (next : Nat → Nat) : Nat → List Nat → Bool
  | _, [] => true
  | a, n :: rest => next a == n && links next n rest

/-- The last address visited from `a` through `nodes`: `a` itself when
there is no node. -/
def last_of (a : Nat) (nodes : List Nat) : Nat := nodes.getLast?.getD a

/-- In the words of the claim: the chain is well formed and links exactly
`nodes`.  Following `next` from the root visits the nodes, each exactly once
and none of them the root, and returns to the root; `_tail` is the last node
visited, the root itself when the chain is empty. -/
def buffers_t.linked (next : Nat → Nat) (c : buffers_t) (nodes : List Nat) : Prop :=
  links next c.root nodes = true ∧ next (last_of c.root nodes) = c.root ∧
  (c.root :: nodes).Nodup ∧ c._tail = last_of c.root nodes

/-- A memory of hooks for the scenarios: the root at address 100 with the
nodes 1, 2, 3 behind it, and the root at address 200 with the nodes 4, 5. -/
def hooks_123 : Nat → Nat := fun x =>
  if x = 100 then 1 else if x = 1 then 2 else if x = 2 then 3 else if x = 3 then 100
  else if x = 200 then 4 else if x = 4 then 5 else if x = 5 then 200 else 0

/-! ## Inputs for the tail cache across a rebuild -/

/-- The calls `bl.reserve(10); bl.append("abc", 3)` on an empty list: one
node, which is the tail cache, with the three bytes in the reserved region. -/
def reserved_abc : list × Mem :=
  match list.mk_empty.reserve Mem.empty 10 with
  | .error _ => (list.mk_empty, Mem.empty)
  | .ok (L, m) =>
    match L.append m (str "abc") 3 with
    | .error _ => (list.mk_empty, Mem.empty)
    | .ok v => v

/-- The call `bl.rebuild_aligned(8)` on the list `reserved_abc`: the list, the
returned flag and the heap. -/
def realigned_abc : list × Bool × Mem :=
  match reserved_abc.1.rebuild_aligned reserved_abc.2 8 with
  | .error _ => (list.mk_empty, false, Mem.empty)
  | .ok v => v

/-! ## Input for the encoding of a list of empty nodes -/

/-- The calls `bl.reserve(10); bl.reserve(20)` on an empty list: the second
call finds an unused tail of 10 bytes only, so the list has two nodes of
length 0. -/
def reserved_twice : list × Mem :=
  match list.mk_empty.reserve Mem.empty 10 with
  | .error _ => (list.mk_empty, Mem.empty)
  | .ok (L, m) =>
    match L.reserve m 20 with
    | .error _ => (list.mk_empty, Mem.empty)
    | .ok v => v
end buffer

open buffer

/-! # Verification -/

/-! ## The CRC32C algebra and `list::crc32c` -/

theorem crc32c_bit_xor (a b : Nat) : crc32c_bit (a ^^^ b) = crc32c_bit a ^^^ crc32c_bit b := by
  unfold crc32c_bit
  have hd : (a ^^^ b) / 2 = a / 2 ^^^ b / 2 := Nat.xor_div_two
  have hm : (a ^^^ b) % 2 = (a + b) % 2 := Nat.xor_mod_two_eq
  rcases Nat.mod_two_eq_zero_or_one a with ha | ha <;>
  rcases Nat.mod_two_eq_zero_or_one b with hb | hb
  · have : (a ^^^ b) % 2 = 0 := by omega
    simp [ha, hb, this, hd]
  · have : (a ^^^ b) % 2 = 1 := by omega
    simp [ha, hb, this, hd, Nat.xor_assoc]
  · have : (a ^^^ b) % 2 = 1 := by omega
    simp [ha, hb, this, hd, Nat.xor_assoc, Nat.xor_comm (b / 2)]
  · have : (a ^^^ b) % 2 = 0 := by omega
    simp [ha, hb, this, hd]
    rw [Nat.xor_assoc, ← Nat.xor_assoc CRC32C_POLY, Nat.xor_comm CRC32C_POLY (b / 2),
      Nat.xor_assoc (b / 2), Nat.xor_self, Nat.xor_zero]

theorem crc32c_byte_xor (a b x : Nat) :
    crc32c_byte (a ^^^ b) x = crc32c_byte a x ^^^ crc32c_byte b 0 := by
  unfold crc32c_byte
  have h : a ^^^ b ^^^ x = (a ^^^ x) ^^^ (b ^^^ 0) := by
    rw [Nat.xor_zero, Nat.xor_assoc, Nat.xor_comm b x, ← Nat.xor_assoc]
  rw [h]
  simp only [crc32c_bit_xor]

theorem crc32c_bytes_xor (data : List Nat) : ∀ a b : Nat,
    crc32c_bytes (a ^^^ b) data
      = crc32c_bytes a data ^^^ crc32c_bytes b (List.replicate data.length 0) := by
  induction data with
  | nil => intro a b; simp [crc32c_bytes]
  | cons x xs ih =>
    intro a b
    simp only [crc32c_bytes, List.foldl_cons, List.length_cons, List.replicate_succ] at ih ⊢
    rw [crc32c_byte_xor]
    exact ih _ _

theorem crc32c_bytes_append (crc : Nat) (xs ys : List Nat) :
    crc32c_bytes crc (xs ++ ys) = crc32c_bytes (crc32c_bytes crc xs) ys := by
  simp [crc32c_bytes, List.foldl_append]

/-- The seed-change identity: a digest cached for seed `v` becomes the
digest for seed `w` by xor with the digest of as many zero bytes seeded with
`v xor w`. -/
theorem crc32c_adjust (v w : Nat) (buf : List Nat) :
    crc32c_bytes w buf
      = crc32c_bytes v buf ^^^ crc32c_bytes (v ^^^ w) (List.replicate buf.length 0) := by
  have h := crc32c_bytes_xor buf v (v ^^^ w)
  rw [← Nat.xor_assoc, Nat.xor_self, Nat.zero_xor] at h
  exact h

theorem spec_crc32c_none (crc len : Nat) :
    spec_crc32c crc none len = crc32c_bytes crc (List.replicate len 0) := by
  unfold spec_crc32c crc32c_zeros crc32c_func
  split <;> rfl

theorem spec_crc32c_some (crc len : Nat) (d : List Nat) :
    spec_crc32c crc (some d) len = crc32c_bytes crc (d.take len) := by
  unfold spec_crc32c crc32c_func
  simp


theorem ptr_bytes_congr (m m' : Mem)
    (h : ∀ i, (m'.raws i).map raw.m_data = (m.raws i).map raw.m_data) (p : ptr) :
    p.bytes m' = p.bytes m := by
  unfold ptr.bytes
  cases hp : p.m_raw with
  | none => rfl
  | some i =>
    have hi := h i
    cases h1 : m.raws i <;> cases h2 : m'.raws i <;> simp_all

theorem nodes_bytes_congr (m m' : Mem)
    (h : ∀ i, (m'.raws i).map raw.m_data = (m.raws i).map raw.m_data) (nodes : List ptr_node) :
    nodes_bytes m' nodes = nodes_bytes m nodes := by
  induction nodes with
  | nil => rfl
  | cons n rest ih => simp [nodes_bytes, ih, ptr_bytes_congr m m' h]

theorem ptr_bytes_len_zero (m : Mem) (p : ptr) (h : p.m_len = 0) : p.bytes m = [] := by
  unfold ptr.bytes
  cases p.m_raw with
  | none => rfl
  | some i =>
    simp only [h, List.take_zero]
    split <;> rfl

theorem crc_ready_set_crc (m : Mem) (i : Nat) (r : raw) (hr : m.raws i = some r)
    (off len crc : Nat) (hb : off + len ≤ r.m_data.length) (hl : r.m_data.length < U64)
    (n : ptr_node) (hn : crc_ready m n = true) :
    crc_ready (m.set_raw i (some (r.set_crc (off, (off + len) % U64)
      (crc, crc32c_bytes crc ((r.m_data.drop off).take len))))) n = true := by
  unfold crc_ready at hn ⊢
  cases hraw : n.m_raw with
  | none => simpa [hraw] using hn
  | some j =>
    simp only [hraw] at hn ⊢
    by_cases hji : j = i
    · subst hji
      simp only [hr] at hn
      simp only [Mem.set_raw, if_true, raw.set_crc]
      simp only [Bool.and_eq_true, decide_eq_true_eq] at hn
      obtain ⟨⟨⟨h1a, h1b⟩, h1c⟩, _⟩ := hn
      have hmod : (off + len) % U64 = off + len := Nat.mod_eq_of_lt (by omega)
      simp [raw.cache_valid, h1a, h1b, h1c, hmod]
    · simp only [Mem.set_raw, hji, if_false]
      exact hn

theorem crc32c_loop_spec (nodes : List ptr_node) : ∀ (m : Mem) (crc : Nat),
    (∀ n ∈ nodes, crc_ready m n = true) →
    ∃ m', crc32c_loop m nodes crc = .ok (crc32c_bytes crc (nodes_bytes m nodes), m') ∧
      (∀ i, (m'.raws i).map raw.m_data = (m.raws i).map raw.m_data) ∧
      (∀ n : ptr_node, crc_ready m n = true → crc_ready m' n = true) := by
  induction nodes with
  | nil =>
    intro m crc _
    exact ⟨m, by simp [crc32c_loop, nodes_bytes, crc32c_bytes], fun _ => rfl, fun _ h => h⟩
  | cons node rest ih =>
    intro m crc hall
    have hnode := hall node (List.mem_cons_self _ _)
    have hrest : ∀ n ∈ rest, crc_ready m n = true := fun n hn => hall n (List.mem_cons_of_mem _ hn)
    by_cases hlen : node.m_len = 0
    · obtain ⟨m', h1, h2, h3⟩ := ih m crc hrest
      refine ⟨m', ?_, h2, h3⟩
      simp only [crc32c_loop, ptr.length, hlen, if_true, nodes_bytes,
        ptr_bytes_len_zero m node.toptr hlen, List.nil_append]
      exact h1
    · unfold crc_ready at hnode
      cases hraw : node.m_raw with
      | none => exact absurd (by simpa [hraw] using hnode) hlen
      | some i =>
        cases hr : m.raws i with
        | none => simp [hraw, hr] at hnode
        | some r =>
          simp only [hraw, hr, Bool.and_eq_true, decide_eq_true_eq] at hnode
          obtain ⟨⟨⟨hb, hl⟩, h32⟩, hcv⟩ := hnode
          have hmod : (node.m_off + node.m_len) % U64 = node.m_off + node.m_len :=
            Nat.mod_eq_of_lt (by omega)
          have hmod32 : node.m_len % U32 = node.m_len := Nat.mod_eq_of_lt h32
          have hbytes : node.toptr.bytes m = (r.m_data.drop node.m_off).take node.m_len := by
            simp [ptr.bytes, hraw, hr]
          have hblen : (node.toptr.bytes m).length = node.m_len := by
            rw [hbytes]; simp; omega
          simp only [crc32c_loop, ptr.length, ptr.offset, hlen, if_false, hraw, hr, hmod, hmod32,
            nodes_bytes, crc32c_bytes_append]
          cases hg : r.get_crc (node.m_off, node.m_off + node.m_len) with
          | some ccrc =>
            unfold raw.get_crc at hg
            split at hg
            · rename_i hofs
              injection hg with hg
              subst hg
              have hval : r.last_crc_val.2 = crc32c_bytes r.last_crc_val.1 (node.toptr.bytes m) := by
                unfold raw.cache_valid at hcv
                rw [hofs] at hcv
                simp only [Bool.or_eq_true, beq_iff_eq, Prod.mk.injEq] at hcv
                rcases hcv with ⟨ha, hb'⟩ | hv
                · exfalso; omega
                · rw [hbytes]; simpa using hv
              simp only []
              split
              · rename_i hseed
                obtain ⟨m', h1, h2, h3⟩ := ih m r.last_crc_val.2 hrest
                refine ⟨m', ?_, h2, h3⟩
                rw [h1, hval, hseed]
              · obtain ⟨m', h1, h2, h3⟩ := ih m
                  (r.last_crc_val.2 ^^^ spec_crc32c (r.last_crc_val.1 ^^^ crc) none node.m_len) hrest
                refine ⟨m', ?_, h2, h3⟩
                rw [h1, spec_crc32c_none, hval, crc32c_adjust r.last_crc_val.1 crc, hblen]
            · exact absurd hg (by simp)
          | none =>
            simp only [spec_crc32c_some]
            have hpres := crc_ready_set_crc m i r hr node.m_off node.m_len crc hb hl
            rw [hmod] at hpres
            have hdata : ∀ j, ((m.set_raw i (some (r.set_crc (node.m_off, node.m_off + node.m_len)
                (crc, crc32c_bytes crc ((r.m_data.drop node.m_off).take node.m_len))))).raws j).map
                raw.m_data = (m.raws j).map raw.m_data := by
              intro j
              by_cases hji : j = i
              · subst hji; simp [Mem.set_raw, hr, raw.set_crc]
              · simp [Mem.set_raw, hji]
            obtain ⟨m', h1, h2, h3⟩ := ih _
              (crc32c_bytes crc ((r.m_data.drop node.m_off).take node.m_len))
              (fun n hn => hpres n (hrest n hn))
            refine ⟨m', ?_, fun j => (h2 j).trans (hdata j), fun n hn => h3 n (hpres n hn)⟩
            rw [h1, nodes_bytes_congr _ _ hdata, hbytes]


theorem crc_ready_invalidate (m : Mem) (i : Nat) (r : raw) (hr : m.raws i = some r)
    (n : ptr_node) (hn : crc_ready m n = true) :
    crc_ready (m.set_raw i (some r.invalidate_crc)) n = true := by
  unfold crc_ready at hn ⊢
  cases hraw : n.m_raw with
  | none => simpa [hraw] using hn
  | some j =>
    simp only [hraw] at hn ⊢
    by_cases hji : j = i
    · subst hji
      simp only [hr] at hn
      simp only [Mem.set_raw, if_true, raw.invalidate_crc]
      simp only [Bool.and_eq_true, decide_eq_true_eq] at hn
      obtain ⟨⟨⟨h1a, h1b⟩, h1c⟩, _⟩ := hn
      simp [raw.cache_valid, h1a, h1b, h1c]
    · simp only [Mem.set_raw, hji, if_false]
      exact hn

theorem invalidate_crc_nodes_spec (nodes : List ptr_node) : ∀ (m : Mem),
    (∀ n ∈ nodes, crc_ready m n = true) →
    ∃ m0, invalidate_crc_nodes m nodes = .ok m0 ∧
      (∀ i, (m0.raws i).map raw.m_data = (m.raws i).map raw.m_data) ∧
      (∀ n : ptr_node, crc_ready m n = true → crc_ready m0 n = true) := by
  induction nodes with
  | nil => intro m _; exact ⟨m, rfl, fun _ => rfl, fun _ h => h⟩
  | cons node rest ih =>
    intro m hall
    have hnode := hall node (List.mem_cons_self _ _)
    have hrest : ∀ n ∈ rest, crc_ready m n = true := fun n hn => hall n (List.mem_cons_of_mem _ hn)
    cases hraw : node.m_raw with
    | none =>
      obtain ⟨m0, h1, h2, h3⟩ := ih m hrest
      exact ⟨m0, by simp [invalidate_crc_nodes, hraw, h1], h2, h3⟩
    | some i =>
      cases hr : m.raws i with
      | none => simp [crc_ready, hraw, hr] at hnode
      | some r =>
        have hpres := crc_ready_invalidate m i r hr
        have hdata : ∀ j, ((m.set_raw i (some r.invalidate_crc)).raws j).map raw.m_data
            = (m.raws j).map raw.m_data := by
          intro j
          by_cases hji : j = i
          · subst hji; simp [Mem.set_raw, hr, raw.invalidate_crc]
          · simp [Mem.set_raw, hji]
        obtain ⟨m0, h1, h2, h3⟩ := ih _ (fun n hn => hpres n (hrest n hn))
        refine ⟨m0, ?_, fun j => (h2 j).trans (hdata j), fun n hn => h3 n (hpres n hn)⟩
        simp [invalidate_crc_nodes, hraw, Mem.invalidate_crc, hr, h1]

theorem crc32c_bytes_zeros (n : Nat) : crc32c_bytes 0 (List.replicate n 0) = 0 := by
  induction n with
  | zero => rfl
  | succ k ih =>
    rw [List.replicate_succ]
    show crc32c_bytes (crc32c_byte 0 0) (List.replicate k 0) = 0
    have : crc32c_byte 0 0 = 0 := by decide
    rw [this, ih]

theorem take_one_zeros_append (n : Nat) (hn : 0 < n) (ys : List Nat) :
    (List.replicate n 0 ++ ys).take 1 = [0] := by
  cases n with
  | zero => omega
  | succ k => simp [List.replicate_succ]

theorem crc32c_loop_narrowed (n : Nat) (hn : 0 < n) (h32 : (n + 1) % U32 = 1)
    (h64 : (0 + (n + 1)) % U64 ≠ SIZE_MAX) (a k : Nat) :
    ∃ m', crc32c_loop
        (Mem.empty.set_raw 0 (some { m_data := List.replicate n 0 ++ [1], data_addr := a,
                                     nref := k, last_crc_offset := (SIZE_MAX, SIZE_MAX),
                                     last_crc_val := (0, 0) }))
        [{ m_raw := some 0, m_off := 0, m_len := n + 1, node_addr := 0 }] 0 = .ok (0, m') := by
  have hne : ¬ (n + 1 = 0) := by omega
  have hofs : ¬ ((SIZE_MAX, SIZE_MAX) = (0, (0 + (n + 1)) % U64)) := by
    intro h
    exact h64 (congrArg Prod.snd h).symm
  have hz : crc32c_bytes 0 [0] = 0 := by decide
  simp only [crc32c_loop, ptr.length, ptr.offset, hne, if_false, Mem.set_raw, Mem.empty, if_true,
    raw.get_crc, hofs, h32, spec_crc32c_some, List.drop_zero, take_one_zeros_append n hn, hz]
  exact ⟨_, rfl⟩

/-- C1 (amended): for a list whose nodes are each shorter than `2 ^ 32` bytes
and lie in live regions with valid (or empty) checksum caches, `list::crc32c`
with seed `s` returns the CRC32C of the concatenated node bytes seeded with
`s`, whatever path (hit, adjusted, miss) each node takes; clearing all caches
with `invalidate_crc` keeps the bytes and yields the same digest. -/
theorem list_crc32c_eq_crc32c_of_bytes (m : Mem) (L : list) (s : Nat)
    (h : ∀ n ∈ L._buffers, crc_ready m n = true) :
    (∃ m', L.crc32c m s = .ok (crc32c_bytes s (L.bytes m), m')) ∧
    (∃ m0 m1, L.invalidate_crc m = .ok m0 ∧ L.bytes m0 = L.bytes m ∧
      L.crc32c m0 s = .ok (crc32c_bytes s (L.bytes m), m1)) := by
  constructor
  · obtain ⟨m', h1, _, _⟩ := crc32c_loop_spec L._buffers m s h
    exact ⟨m', h1⟩
  · obtain ⟨m0, h1, h2, h3⟩ := invalidate_crc_nodes_spec L._buffers m h
    obtain ⟨m1, h4, _, _⟩ := crc32c_loop_spec L._buffers m0 s (fun n hn => h3 n (h n hn))
    refine ⟨m0, m1, h1, nodes_bytes_congr m m0 h2 _, ?_⟩
    unfold list.crc32c list.bytes
    rw [h4, nodes_bytes_congr m m0 h2]

/-- C1 witness: the list `A` whose region caches the digest for seed 7 is
hashed with seed 0 through the adjusted path. -/
theorem list_crc32c_eq_crc32c_of_bytes_witness :
    (∃ m', crc_wit_list.crc32c crc_wit_mem 0
        = .ok (crc32c_bytes 0 (crc_wit_list.bytes crc_wit_mem), m')) ∧
    (∃ m0 m1, crc_wit_list.invalidate_crc crc_wit_mem = .ok m0 ∧
      crc_wit_list.bytes m0 = crc_wit_list.bytes crc_wit_mem ∧
      crc_wit_list.crc32c m0 0 = .ok (crc32c_bytes 0 (crc_wit_list.bytes crc_wit_mem), m1)) :=
  list_crc32c_eq_crc32c_of_bytes crc_wit_mem crc_wit_list 0 (by decide)

/-- C1 counterexample: one node of `2 ^ 32 + 1` bytes over a region with an
empty checksum cache.  `list::crc32c(0)` hashes only `(2 ^ 32 + 1) mod 2 ^ 32
= 1` byte and returns 0, while the CRC32C of the concatenated bytes is
`0xF26B8303`. -/
theorem list_crc32c_narrows_length :
    (∃ r, crc_cex_mem.raws 0 = some r ∧ r.last_crc_offset = (SIZE_MAX, SIZE_MAX)) ∧
    (∃ m', crc_cex_list.crc32c crc_cex_mem 0 = .ok (0, m')) ∧
    crc32c_bytes 0 (crc_cex_list.bytes crc_cex_mem) = 0xF26B8303 := by
  refine ⟨⟨_, rfl, rfl⟩, ?_, ?_⟩
  · exact crc32c_loop_narrowed (2 ^ 32) (by decide) (by decide) (by decide) 0 1
  · have hb : crc_cex_list.bytes crc_cex_mem = List.replicate (2 ^ 32) 0 ++ [1] := by
      show (List.replicate (2 ^ 32) 0 ++ [1]).take (2 ^ 32 + 1) ++ [] = _
      rw [List.append_nil]
      apply List.take_of_length_le
      rw [List.length_append, List.length_replicate]
      exact Nat.le_refl _
    rw [hb, crc32c_bytes_append, crc32c_bytes_zeros]
    decide

/-! ## The heap: allocation, release and stores -/

theorem ptr_eta_some (a : ptr) (i : Nat) (ha : a.m_raw = some i) :
    ({ m_raw := some i, m_off := a.m_off, m_len := a.m_len } : ptr) = a := by
  cases a; simp_all

theorem release_spec (m : Mem) (a : ptr) (i : Nat) (r : raw)
    (ha : a.m_raw = some i) (hr : m.raws i = some r) :
    a.release m = .ok ({ a with m_raw := none },
      m.set_raw i (if r.nref = 1 then none
        else some { r with nref := if r.nref = 0 then U64 - 1 else r.nref - 1 })) := by
  unfold ptr.release
  simp only [ha, hr]
  split <;> rfl

theorem set_raw_same (m : Mem) (i : Nat) (v : Option raw) : (m.set_raw i v).raws i = v := by
  simp [Mem.set_raw]

theorem set_raw_other (m : Mem) (i j : Nat) (v : Option raw) (h : j ≠ i) :
    (m.set_raw i v).raws j = m.raws j := by
  simp [Mem.set_raw, h]

theorem write_bytes_length (data : List Nat) (pos : Nat) (src : List Nat)
    (h : pos + src.length ≤ data.length) : (write_bytes data pos src).length = data.length := by
  simp [write_bytes]
  omega

theorem inv_congr (m m' : Mem) (p : ptr)
    (h : ∀ j, p.m_raw = some j → (m'.raws j).map raw.get_len = (m.raws j).map raw.get_len) :
    p.inv m' = p.inv m := by
  unfold ptr.inv
  cases hp : p.m_raw with
  | none => rfl
  | some j =>
    have hj := h j hp
    cases h1 : m.raws j <;> cases h2 : m'.raws j <;> simp_all

theorem inv_live (m : Mem) (p : ptr) (j : Nat) (hp : p.m_raw = some j) (h : p.inv m = true) :
    ∃ r, m.raws j = some r ∧ p.m_off + p.m_len ≤ r.get_len := by
  unfold ptr.inv at h
  simp only [hp] at h
  cases hr : m.raws j with
  | none => simp [hr] at h
  | some r => exact ⟨r, rfl, by simpa [hr] using h⟩

theorem posix_memalign_spec (m : Mem) (al sz a : Nat) (m0 : Mem)
    (h : posix_memalign m al sz = some (a, m0)) :
    m0.raws = m.raws ∧ m0.next_raw = m.next_raw ∧ m0.next_node = m.next_node ∧
      a = round_up_to m.brk al := by
  unfold posix_memalign at h
  split at h
  · simp only [Option.some.injEq, Prod.mk.injEq] at h
    obtain ⟨ha, hm⟩ := h
    subst hm
    exact ⟨rfl, rfl, rfl, ha.symm⟩
  · simp at h

theorem new_raw_allocated (m m0 : Mem) (a len : Nat) (h1 : m0.raws = m.raws)
    (h2 : m0.next_raw = m.next_raw) (h3 : m0.next_node = m.next_node) :
    allocated m len (m0.new_raw a (List.replicate len 0)).1
      (m0.new_raw a (List.replicate len 0)).2 := by
  refine ⟨h2, ?_, h3, ?_, ?_⟩
  · simp [Mem.new_raw, h2]
  · intro j hj
    simp [Mem.new_raw, h2, hj, h1]
  · refine ⟨{ m_data := List.replicate len 0, data_addr := a, nref := 0,
               last_crc_offset := (SIZE_MAX, SIZE_MAX), last_crc_val := (0, 0) }, ?_, rfl, rfl, rfl⟩
    simp [Mem.new_raw, h2]

theorem raw_combined_create_spec (m : Mem) (len al i : Nat) (m1 : Mem)
    (h : raw_combined.create m len al = .ok (i, m1)) : allocated m len i m1 := by
  unfold raw_combined.create at h
  simp only at h
  split at h
  · simp at h
  · rename_i a m0 hpm
    obtain ⟨h1, h2, h3, _⟩ := posix_memalign_spec _ _ _ _ _ hpm
    have := new_raw_allocated m m0 a len h1 h2 h3
    simp only [Except.ok.injEq] at h
    rw [h] at this
    exact this

theorem raw_posix_aligned_create_spec (m : Mem) (len al i : Nat) (m1 : Mem)
    (h : raw_posix_aligned.create m len al = .ok (i, m1)) : allocated m len i m1 := by
  unfold raw_posix_aligned.create at h
  split at h
  · split at h
    · simp at h
    · rename_i a m0 hpm
      obtain ⟨h1, h2, h3, _⟩ := posix_memalign_spec _ _ _ _ _ hpm
      have := new_raw_allocated m m0 a len h1 h2 h3
      simp only [Except.ok.injEq] at h
      rw [h] at this
      exact this
  · simp at h

theorem create_aligned_spec (m : Mem) (len al i : Nat) (m1 : Mem)
    (h : create_aligned m len al = .ok (i, m1)) : allocated m len i m1 := by
  unfold create_aligned at h
  split at h
  · exact raw_posix_aligned_create_spec m len al i m1 h
  · exact raw_combined_create_spec m len al i m1 h

/-- A region that is live before an allocation keeps its identity and its
state. -/
theorem allocated_keeps (m : Mem) (len i : Nat) (m1 : Mem) (h : allocated m len i m1)
    (hf : m.fresh) (j : Nat) (r : raw) (hj : m.raws j = some r) : m1.raws j = some r := by
  obtain ⟨_, _, _, hother, _⟩ := h
  have hne : j ≠ m.next_raw := by
    intro he
    have := hf j (by omega)
    rw [hj] at this
    exact absurd this (by simp)
  rw [hother j hne, hj]

theorem allocated_fresh (m : Mem) (len i : Nat) (m1 : Mem) (h : allocated m len i m1)
    (hf : m.fresh) : m1.fresh := by
  obtain ⟨_, hn, _, hother, _⟩ := h
  intro j hj
  rw [hn] at hj
  rw [hother j (by omega)]
  exact hf j (by omega)

/-! ## `list::substr_of` on a range that ends with the source -/

theorem substr_loop_never_returns (nodes : List ptr_node) : ∀ (m : Mem) (D : list) (len : Nat),
    len < U64 → nodes_len nodes ≤ len → ∀ r, substr_loop m D nodes 0 len ≠ .ok r := by
  induction nodes with
  | nil => intro m D len _ _ r h; simp [substr_loop] at h
  | cons node rest ih =>
    intro m D len hlt hle r h
    simp only [nodes_len] at hle
    have hmod : (0 + len) % U64 = len := by rw [Nat.zero_add]; exact Nat.mod_eq_of_lt hlt
    have hnot : ¬ (len < node.m_len) := by omega
    simp only [substr_loop, hmod, ptr.length, hnot, if_false, Nat.sub_zero] at h
    cases hs : ptr_node.create_slice m node.toptr 0 node.m_len with
    | error e => simp [hs] at h
    | ok v =>
      obtain ⟨n, m1⟩ := v
      simp only [hs] at h
      exact ih m1 _ (len - node.m_len) (by omega) (by omega) r h

/-- For every source list whose cached length is the sum of its node lengths,
`substr_of(source, 0, source.length())` does not return a list: the loop
`while (len >= 0)` runs on to `end()`. -/
theorem substr_of_full_never_returns (m : Mem) (D L : list)
    (hlen : L._len = nodes_len L._buffers) (h64 : L._len < U64) :
    ∀ r, D.substr_of m L 0 L.length ≠ .ok r := by
  intro r h
  have hmod : (0 + L._len) % U64 = L._len := by rw [Nat.zero_add]; exact Nat.mod_eq_of_lt h64
  simp only [list.substr_of, list.length, hmod, gt_iff_lt, lt_irrefl, if_false] at h
  cases hc : D.clear m with
  | error e => simp [hc] at h
  | ok v =>
    obtain ⟨D1, m1⟩ := v
    simp only [hc] at h
    have hskip : substr_skip L._buffers 0 = .ok (L._buffers, 0) := by
      cases L._buffers <;> simp [substr_skip]
    simp only [hskip] at h
    split at h
    · exact substr_loop_never_returns L._buffers m1 D1 L._len h64 (by omega) r h
    · simp at h

/-- C3: on the one-node list `ABC`, and on the empty list,
`substr_of(L, 0, L.length())` runs into `end()` instead of building a
list. -/
theorem substr_of_full_range_fails :
    observe substr_full_abc = .error .undefined ∧
    observe substr_full_empty = .error .undefined :=
  ⟨rfl, rfl⟩

/-- C4: on `ABC`, `DEF`, `GHI`, `JKL` the call `substr_of(S, 4, 4)` of the
test builds `EFGH` in two nodes, while `substr_of(S, 4, 8)`, whose range ends
with the source, runs into `end()`. -/
theorem substr_of_to_end_fails :
    observe substr_4_4 = .ok (4, 2, [2, 2], str "EFGH") ∧
    observe substr_4_8 = .error .undefined :=
  ⟨rfl, rfl⟩

/-! ## `list::rebuild_aligned_size_and_memory` and empty nodes -/

/-- C8: `rebuild_aligned(32)` makes the one-byte list of the test aligned
and keeps its length, but on a list whose only node is an empty slice at an
odd address the gathered run is rebuilt into nothing and the front of the
emptied chain is used. -/
theorem rebuild_aligned_empty_run_fails :
    rebuild_aligned_odd_byte = .ok (true, 1, 1) ∧
    observe list_empty_slice = .ok (0, 1, [0], []) ∧
    rebuild_aligned_empty_slice.map (fun r => r.2.1) = .error .undefined :=
  ⟨rfl, rfl, rfl⟩

/-- C9: `rebuild_aligned_size_and_memory(64, 64, 1)` on a list of an
aligned 64-byte node and an empty aligned node keeps both nodes, which is
more than `max_buffers`. -/
theorem rebuild_max_buffers_exceeded :
    observe list_full_and_reserved = .ok (64, 2, [64, 0], List.replicate 64 0) ∧
    rebuild_max_one = .ok (false, 2, 2) :=
  ⟨rfl, rfl⟩

/-! ## Reference counting of a ptr -/

/-- C7 (amended): for a ptr `a` over a region with at least one counted
reference, copy-constructing from `a` raises the count by exactly 1 and
dropping that copy lowers it by exactly 1; a drop deletes the region exactly
when it finds the count at 1; `a = a` leaves count, offset and length
unchanged; copy-assigning `a` to a ptr that does not reference the region
raises the count by exactly 1, and copy-assigning it to a ptr that already
references the region leaves the count unchanged. -/
theorem refcount_copy_drop (m : Mem) (a : ptr) (i : Nat) (r : raw)
    (ha : a.m_raw = some i) (hr : m.raws i = some r) (hn : 1 ≤ r.nref) :
    (∃ m1, ptr.copy_ctor m a = .ok (a, m1) ∧
      m1.raws i = some { r with nref := r.nref + 1 } ∧
      ∃ m2, a.release m1 = .ok ({ a with m_raw := none }, m2) ∧ m2.raws i = some r) ∧
    (∃ m1, a.release m = .ok ({ a with m_raw := none }, m1) ∧
      (m1.raws i = none ↔ r.nref = 1) ∧
      (r.nref ≠ 1 → m1.raws i = some { r with nref := r.nref - 1 })) ∧
    (∃ m1, ptr.assign_self m a = .ok (a, m1) ∧ m1.raws i = some r) ∧
    (∀ b : ptr, b.m_raw ≠ some i → (∀ j, b.m_raw = some j → (m.raws j).isSome = true) →
      ∃ m1, ptr.assign m b a = .ok (a, m1) ∧
        m1.raws i = some { r with nref := r.nref + 1 }) ∧
    (∀ b : ptr, b.m_raw = some i →
      ∃ m1, ptr.assign m b a = .ok (a, m1) ∧ m1.raws i = some r) := by
  have hinc : m.nref_inc i = .ok (m.set_raw i (some { r with nref := r.nref + 1 })) := by
    simp [Mem.nref_inc, hr]
  have hne1 : ¬ (r.nref + 1 = 1) := by omega
  have hne0 : ¬ (r.nref + 1 = 0) := by omega
  have hback : ({ ({ r with nref := r.nref + 1 } : raw) with nref := r.nref + 1 - 1 } : raw) = r := by
    cases r; simp
  have hrel : ∀ b : ptr, b.m_raw = some i →
      b.release (m.set_raw i (some { r with nref := r.nref + 1 }))
        = .ok ({ b with m_raw := none },
               (m.set_raw i (some { r with nref := r.nref + 1 })).set_raw i (some r)) := by
    intro b hb
    rw [release_spec _ b i _ hb (set_raw_same _ _ _)]
    simp only [hne1, hne0, if_false, hback]
  refine ⟨?_, ?_, ?_, ?_, ?_⟩
  · refine ⟨m.set_raw i (some { r with nref := r.nref + 1 }), ?_, set_raw_same _ _ _,
      (m.set_raw i (some { r with nref := r.nref + 1 })).set_raw i (some r), hrel a ha,
      set_raw_same _ _ _⟩
    simp [ptr.copy_ctor, ha, hinc, ptr_eta_some a i ha]
  · refine ⟨_, release_spec m a i r ha hr, ?_, ?_⟩
    · rw [set_raw_same]
      constructor
      · intro h
        by_contra hc
        simp [hc] at h
      · intro h
        simp [h]
    · intro h
      have h0 : ¬ (r.nref = 0) := by omega
      rw [set_raw_same]
      simp [h, h0]
  · refine ⟨(m.set_raw i (some { r with nref := r.nref + 1 })).set_raw i (some r), ?_,
      set_raw_same _ _ _⟩
    simp only [ptr.assign_self, ha, hinc, hrel a ha, ptr_eta_some a i ha]
  · intro b hb hlive
    cases hbr : b.m_raw with
    | none =>
      refine ⟨m.set_raw i (some { r with nref := r.nref + 1 }), ?_, set_raw_same _ _ _⟩
      simp [ptr.assign, ha, hinc, ptr.release, hbr, ptr_eta_some a i ha]
    | some j =>
      have hji : j ≠ i := by
        intro h
        exact hb (by rw [hbr, h])
      obtain ⟨rj, hrj⟩ := Option.isSome_iff_exists.mp (hlive j hbr)
      have hrj' : (m.set_raw i (some { r with nref := r.nref + 1 })).raws j = some rj := by
        rw [set_raw_other _ _ _ _ hji, hrj]
      have heq : ptr.assign m b a = .ok (a,
          (m.set_raw i (some { r with nref := r.nref + 1 })).set_raw j
            (if rj.nref = 1 then none
             else some { rj with nref := if rj.nref = 0 then U64 - 1 else rj.nref - 1 })) := by
        simp only [ptr.assign, ha, hinc]
        rw [release_spec _ b j rj hbr hrj']
        simp only [ptr_eta_some a i ha]
      refine ⟨_, heq, ?_⟩
      rw [set_raw_other _ _ _ _ (Ne.symm hji), set_raw_same]
  · intro b hb
    refine ⟨(m.set_raw i (some { r with nref := r.nref + 1 })).set_raw i (some r), ?_,
      set_raw_same _ _ _⟩
    simp only [ptr.assign, ha, hinc, hrel b hb, ptr_eta_some a i ha]

/-- C7 witness: the ptr over the 10-byte region of `mem_ten`, whose count
is 1. -/
theorem refcount_copy_drop_witness :
    ptr_ten.m_raw = some 0 ∧ mem_ten.raws 0 = some raw_ten ∧ 1 ≤ raw_ten.nref ∧
    (∃ m1, ptr.copy_ctor mem_ten ptr_ten = .ok (ptr_ten, m1) ∧
      m1.raws 0 = some { raw_ten with nref := raw_ten.nref + 1 } ∧
      ∃ m2, ptr_ten.release m1 = .ok ({ ptr_ten with m_raw := none }, m2) ∧
        m2.raws 0 = some raw_ten) :=
  ⟨rfl, rfl, by decide, (refcount_copy_drop mem_ten ptr_ten 0 raw_ten rfl rfl (by decide)).1⟩

/-- C7 counterexample: two ptrs share the 10-byte region of `mem_shared`,
whose count is 2; copy-assigning one to the other (the case of the test
`assignment`) leaves the count at 2 instead of raising it by 1. -/
theorem copy_assign_shared_keeps_count :
    (mem_shared.raws 0).map raw.nref = some 2 ∧
    nref_after (ptr.assign mem_shared ptr_ten { m_raw := some 0, m_off := 5, m_len := 5 }) 0
      = .ok (some 2) :=
  ⟨rfl, rfl⟩

theorem store_spec (m : Mem) (i pos : Nat) (src : List Nat) (b : Bool) (m1 : Mem)
    (h : m.store i pos src b = .ok m1) :
    ∃ r, m.raws i = some r ∧ pos + src.length ≤ r.m_data.length ∧
      m1 = m.set_raw i (some { (if b then r.invalidate_crc else r) with
                               m_data := write_bytes r.m_data pos src }) := by
  unfold Mem.store at h
  cases hr : m.raws i with
  | none => simp [hr] at h
  | some r =>
    simp only [hr] at h
    split at h
    · rename_i hle
      simp only [Except.ok.injEq] at h
      exact ⟨r, rfl, hle, h.symm⟩
    · simp at h

theorem inv_set_raw_len (m : Mem) (i : Nat) (r r1 : raw) (hr : m.raws i = some r)
    (hl : r1.get_len = r.get_len) (p : ptr) :
    p.inv (m.set_raw i (some r1)) = p.inv m := by
  apply inv_congr
  intro j _
  by_cases hji : j = i
  · subst hji; simp [set_raw_same, hr, hl]
  · rw [set_raw_other _ _ _ _ hji]

theorem inv_allocated (m : Mem) (len i : Nat) (m1 : Mem) (h : allocated m len i m1)
    (hf : m.fresh) (p : ptr) (hp : p.inv m = true) : p.inv m1 = true := by
  rw [← hp]
  apply inv_congr
  intro j hj
  obtain ⟨r, hr, _⟩ := inv_live m p j hj hp
  rw [allocated_keeps m len i m1 h hf j r hr, hr]

theorem unused_tail_ok (m : Mem) (p : ptr) (i : Nat) (hp : p.m_raw = some i) (gap : Nat)
    (h : p.unused_tail_length m = .ok gap) : ∃ r, m.raws i = some r := by
  unfold ptr.unused_tail_length at h
  simp only [hp] at h
  cases hr : m.raws i with
  | none => simp [hr] at h
  | some r => exact ⟨r, rfl⟩

/-- The effect of the three appends of a ptr on the invariant: a store of
`n` bytes behind the view that succeeded leaves room for the longer view. -/
theorem inv_after_store (m m1 : Mem) (p : ptr) (i n : Nat) (src : List Nat) (b : Bool)
    (hp : p.m_raw = some i) (hs : src.length = n)
    (h : m.store i (p.m_off + p.m_len) src b = .ok m1) :
    ({ p with m_len := p.m_len + n } : ptr).inv m1 = true := by
  obtain ⟨r, hr, hle, hm1⟩ := store_spec m i _ src b m1 h
  subst hm1
  unfold ptr.inv
  simp only [hp, set_raw_same, raw.get_len, write_bytes_length _ _ _ hle, decide_eq_true_eq]
  omega
theorem refs_counted_live (m : Mem) (ps : List ptr) (h : refs_counted m ps = true)
    (p : ptr) (hp : p ∈ ps) (i : Nat) (hi : p.m_raw = some i) :
    ∃ r, m.raws i = some r ∧ (ps.filter (fun q => q.m_raw == some i)).length ≤ r.nref := by
  unfold refs_counted at h
  rw [List.all_eq_true] at h
  have := h p hp
  simp only [hi] at this
  cases hr : m.raws i with
  | none => simp [hr] at this
  | some r => exact ⟨r, rfl, by simpa [hr] using this⟩


theorem release_keeps_inv (m : Mem) (i : Nat) (r : raw) (hr : m.raws i = some r) (q : ptr)
    (hq : q.inv m = true) (hsafe : q.m_raw = some i → r.nref ≠ 1) :
    q.inv (m.set_raw i (if r.nref = 1 then none
      else some { r with nref := if r.nref = 0 then U64 - 1 else r.nref - 1 })) = true := by
  rw [← hq]
  apply inv_congr
  intro j hj
  by_cases hji : j = i
  · subst hji
    simp [set_raw_same, hsafe hj, hr, raw.get_len]
  · rw [set_raw_other _ _ _ _ hji]

theorem refs_counted_pair (m : Mem) (a b : ptr) (i : Nat) (r : raw)
    (h : refs_counted m [a, b] = true) (ha : a.m_raw = some i) (hb : b.m_raw = some i)
    (hr : m.raws i = some r) : 2 ≤ r.nref := by
  obtain ⟨r', hr', hc⟩ := refs_counted_live m [a, b] h a (List.mem_cons_self _ _) i ha
  rw [hr] at hr'
  injection hr' with hr'
  subst hr'
  simpa [List.filter, ha, hb] using hc

theorem refs_counted_single (m : Mem) (a : ptr) (i : Nat) (r : raw)
    (h : refs_counted m [a] = true) (ha : a.m_raw = some i)
    (hr : m.raws i = some r) : 1 ≤ r.nref := by
  obtain ⟨r', hr', hc⟩ := refs_counted_live m [a] h a (List.mem_cons_self _ _) i ha
  rw [hr] at hr'
  injection hr' with hr'
  subst hr'
  simpa [List.filter, ha] using hc

theorem inv_no_raw (m m' : Mem) (p : ptr) (h : p.m_raw = none) : p.inv m' = p.inv m := by
  apply inv_congr
  intro j hj
  rw [h] at hj
  exact absurd hj (by simp)

/-- C6 (amended): every ptr operation keeps the invariant `offset + length
<= region.len` (and: no region, then offset 0 and length 0) on every ptr it
leaves behind, under the side condition `keeps`: `set_offset` and
`set_length` keep it only when the new sum still fits, which they do not
check; the slicing constructor keeps it when `offset + len` does not wrap;
`ptr(const ptr&, raw)` keeps it when the given region is long enough.  A
default-constructed ptr and a moved-from ptr have no region, offset 0 and
length 0. -/
theorem ptr_ops_keep_inv (m : Mem) (this : ptr) (op : ptr_op) (ps : List ptr) (m1 : Mem)
    (hfresh : m.fresh) (hinv : ∀ p ∈ this :: op.args, p.inv m = true)
    (hrefs : refs_counted m (this :: op.args) = true)
    (hkeeps : op.keeps m this = true)
    (hrun : op.run m this = .ok (ps, m1)) :
    (∀ p ∈ ps, p.inv m1 = true) ∧
    ptr.mk_empty = { m_raw := none, m_off := 0, m_len := 0 } ∧
    (ptr.move_ctor this).2 = { m_raw := none, m_off := 0, m_len := 0 } ∧
    (∀ bptr x y m2, bptr.inv m = true → ptr.move_assign m this bptr = .ok (x, y, m2) →
      y = { m_raw := none, m_off := 0, m_len := 0 }) := by
  have hthis : this.inv m = true := hinv this (List.mem_cons_self _ _)
  refine ⟨?_, rfl, rfl, ?_⟩
  · cases op with
    | default_ctor =>
      simp only [ptr_op.run, Except.ok.injEq, Prod.mk.injEq] at hrun
      obtain ⟨rfl, rfl⟩ := hrun
      intro p hp
      simp only [List.mem_cons, List.mem_singleton, List.not_mem_nil, or_false] at hp
      rcases hp with rfl | rfl
      · exact hthis
      · rfl
    | of_raw i =>
      simp only [ptr_op.run, ptr.of_raw] at hrun
      cases hr : m.raws i with
      | none => simp [hr] at hrun
      | some r =>
        simp only [hr, Except.ok.injEq, Prod.mk.injEq] at hrun
        obtain ⟨rfl, rfl⟩ := hrun
        intro p hp
        simp only [List.mem_cons, List.mem_singleton, List.not_mem_nil, or_false] at hp
        rcases hp with rfl | rfl
        · rw [inv_set_raw_len m i r _ hr (by rfl)]; exact hthis
        · simp [ptr.inv, set_raw_same, raw.get_len]
    | of_len len =>
      simp only [ptr_op.run, ptr.of_len, create] at hrun
      cases hc : create_aligned m len 8 with
      | error e => simp [hc] at hrun
      | ok v =>
        obtain ⟨i, m0⟩ := v
        have hal := create_aligned_spec m len 8 i m0 hc
        obtain ⟨hi, _, _, _, r, hr, hd, _⟩ := hal
        subst hi
        simp only [hc, Mem.nref_store_one, hr, Except.ok.injEq, Prod.mk.injEq] at hrun
        obtain ⟨rfl, rfl⟩ := hrun
        intro p hp
        simp only [List.mem_cons, List.mem_singleton, List.not_mem_nil, or_false] at hp
        rcases hp with rfl | rfl
        · rw [inv_set_raw_len m0 _ r _ hr (by rfl)]
          exact inv_allocated m len _ m0 (create_aligned_spec m len 8 _ m0 hc) hfresh _ hthis
        · simp [ptr.inv, set_raw_same, raw.get_len, hd]
    | of_buf buf len =>
      simp only [ptr_op.run, ptr.of_buf, copy] at hrun
      cases hc : create_aligned m len 8 with
      | error e => simp [hc] at hrun
      | ok v =>
        obtain ⟨i, m0⟩ := v
        have hal := create_aligned_spec m len 8 i m0 hc
        obtain ⟨hi, _, _, _, r, hr, hd, _⟩ := hal
        subst hi
        have hwl : (write_bytes r.m_data 0 (buf.take len)).length = r.m_data.length := by
          apply write_bytes_length
          rw [hd]
          simp
        simp only [hc, hr, Mem.nref_store_one, set_raw_same, Except.ok.injEq,
          Prod.mk.injEq] at hrun
        obtain ⟨rfl, rfl⟩ := hrun
        intro p hp
        simp only [List.mem_cons, List.mem_singleton, List.not_mem_nil, or_false] at hp
        rcases hp with rfl | rfl
        · rw [inv_set_raw_len _ _ _ _ (set_raw_same _ _ _) (by rfl),
            inv_set_raw_len m0 _ r _ hr (by simp [raw.get_len, hwl])]
          exact inv_allocated m len _ m0 (create_aligned_spec m len 8 _ m0 hc) hfresh _ hthis
        · rw [hd] at hwl
          simp [ptr.inv, set_raw_same, raw.get_len, hwl, hd]
    | copy_ctor =>
      simp only [ptr_op.run, ptr.copy_ctor] at hrun
      cases hraw : this.m_raw with
      | none =>
        simp only [hraw, Except.ok.injEq, Prod.mk.injEq] at hrun
        obtain ⟨rfl, rfl⟩ := hrun
        intro p hp
        simp only [List.mem_cons, List.mem_singleton, List.not_mem_nil, or_false] at hp
        rcases hp with rfl | rfl
        · exact hthis
        · simpa [ptr.inv, hraw] using hthis
      | some i =>
        obtain ⟨r, hr, hle⟩ := inv_live m this i hraw hthis
        simp only [hraw, Mem.nref_inc, hr, Except.ok.injEq, Prod.mk.injEq] at hrun
        obtain ⟨rfl, rfl⟩ := hrun
        intro p hp
        simp only [List.mem_cons, List.mem_singleton, List.not_mem_nil, or_false] at hp
        rcases hp with rfl | rfl
        · rw [inv_set_raw_len m i r _ hr (by rfl)]; exact hthis
        · simpa [ptr.inv, set_raw_same, raw.get_len] using hle
    | move_ctor =>
      simp only [ptr_op.run, ptr.move_ctor, Except.ok.injEq, Prod.mk.injEq] at hrun
      obtain ⟨rfl, rfl⟩ := hrun
      intro p hp
      simp only [List.mem_cons, List.mem_singleton, List.not_mem_nil, or_false] at hp
      rcases hp with rfl | rfl
      · rfl
      · exact hthis
    | slice offset len =>
      simp only [ptr_op.keeps, decide_eq_true_eq] at hkeeps
      simp only [ptr_op.run, ptr.slice, Nat.mod_eq_of_lt hkeeps] at hrun
      by_cases hle : offset + len ≤ this.m_len
      · cases hraw : this.m_raw with
        | none => simp [hle, hraw] at hrun
        | some i =>
          obtain ⟨r, hr, hb⟩ := inv_live m this i hraw hthis
          simp only [hle, if_true, hraw, Mem.nref_inc, hr, Except.ok.injEq, Prod.mk.injEq] at hrun
          obtain ⟨rfl, rfl⟩ := hrun
          intro p hp
          simp only [List.mem_cons, List.mem_singleton, List.not_mem_nil, or_false] at hp
          rcases hp with rfl | rfl
          · rw [inv_set_raw_len m i r _ hr (by rfl)]; exact hthis
          · have := Nat.mod_le (this.m_off + offset) U64
            simp only [ptr.inv, set_raw_same, raw.get_len, decide_eq_true_eq]
            simp only [raw.get_len] at hb
            omega
      · simp [hle] at hrun
    | of_ptr_raw i =>
      simp only [ptr_op.run, ptr.of_ptr_raw, Mem.nref_store_one] at hrun
      cases hr : m.raws i with
      | none => simp [hr] at hrun
      | some r =>
        simp only [ptr_op.keeps, hr, decide_eq_true_eq] at hkeeps
        simp only [hr, Except.ok.injEq, Prod.mk.injEq] at hrun
        obtain ⟨rfl, rfl⟩ := hrun
        intro p hp
        simp only [List.mem_cons, List.mem_singleton, List.not_mem_nil, or_false] at hp
        rcases hp with rfl | rfl
        · rw [inv_set_raw_len m i r _ hr (by rfl)]; exact hthis
        · simpa [ptr.inv, set_raw_same, raw.get_len] using hkeeps
    | assign bptr =>
      have hb : bptr.inv m = true := hinv bptr (by simp [ptr_op.args])
      simp only [ptr_op.args] at hrefs
      simp only [ptr_op.run, ptr.assign] at hrun
      cases hbr : bptr.m_raw with
      | none =>
        cases htr : this.m_raw with
        | none =>
          simp only [hbr, ptr.release, htr, Except.ok.injEq, Prod.mk.injEq] at hrun
          obtain ⟨rfl, rfl⟩ := hrun
          intro p hp
          simp only [List.mem_cons, List.mem_singleton, List.not_mem_nil, or_false] at hp
          rcases hp with rfl | rfl
          · simp [ptr.inv, htr]
          · exact hb
        | some j =>
          obtain ⟨rj, hrj, _⟩ := inv_live m this j htr hthis
          simp only [hbr, release_spec m this j rj htr hrj, Except.ok.injEq,
            Prod.mk.injEq] at hrun
          obtain ⟨rfl, rfl⟩ := hrun
          intro p hp
          simp only [List.mem_cons, List.mem_singleton, List.not_mem_nil, or_false] at hp
          rcases hp with rfl | rfl
          · simp [ptr.inv]
          · rw [inv_no_raw m _ p hbr]; exact hb
      | some i =>
        obtain ⟨ri, hri, hbi⟩ := inv_live m bptr i hbr hb
        have hb1 : bptr.inv (m.set_raw i (some { ri with nref := ri.nref + 1 })) = true := by
          rw [inv_set_raw_len m i ri _ hri (by rfl)]; exact hb
        cases htr : this.m_raw with
        | none =>
          simp only [hbr, Mem.nref_inc, hri, ptr.release, htr, Except.ok.injEq,
            Prod.mk.injEq] at hrun
          obtain ⟨rfl, rfl⟩ := hrun
          intro p hp
          simp only [List.mem_cons, List.mem_singleton, List.not_mem_nil, or_false] at hp
          rcases hp with rfl | rfl
          · simpa [ptr.inv, set_raw_same, raw.get_len] using hbi
          · exact hb1
        | some j =>
          have hthis1 : this.inv (m.set_raw i (some { ri with nref := ri.nref + 1 })) = true := by
            rw [inv_set_raw_len m i ri _ hri (by rfl)]; exact hthis
          obtain ⟨rj, hrj, _⟩ := inv_live _ this j htr hthis1
          have hsafe : bptr.m_raw = some j → rj.nref ≠ 1 := by
            intro hbj
            have hji : j = i := by rw [hbr] at hbj; injection hbj with h; exact h.symm
            subst hji
            have h2 := refs_counted_pair m this bptr j ri hrefs htr hbr hri
            rw [set_raw_same] at hrj
            injection hrj with hrj
            subst hrj
            show ri.nref + 1 ≠ 1
            omega
          have hb2 := release_keeps_inv _ j rj hrj bptr hb1 hsafe
          simp only [hbr, Mem.nref_inc, hri, release_spec _ this j rj htr hrj, Except.ok.injEq,
            Prod.mk.injEq] at hrun
          obtain ⟨rfl, rfl⟩ := hrun
          intro p hp
          simp only [List.mem_cons, List.mem_singleton, List.not_mem_nil, or_false] at hp
          rcases hp with rfl | rfl
          · rw [← hb2]
            simp [ptr.inv, hbr]
          · exact hb2
    | assign_self =>
      simp only [ptr_op.args] at hrefs
      simp only [ptr_op.run, ptr.assign_self] at hrun
      cases htr : this.m_raw with
      | none =>
        simp only [htr, ptr.release, Except.ok.injEq, Prod.mk.injEq] at hrun
        obtain ⟨rfl, rfl⟩ := hrun
        intro p hp
        simp only [List.mem_singleton] at hp
        subst hp
        simp [ptr.inv, htr]
      | some i =>
        obtain ⟨ri, hri, hbi⟩ := inv_live m this i htr hthis
        have h1 := refs_counted_single m this i ri hrefs htr hri
        have hthis1 : this.inv (m.set_raw i (some { ri with nref := ri.nref + 1 })) = true := by
          rw [inv_set_raw_len m i ri _ hri (by rfl)]; exact hthis
        have hsafe : this.m_raw = some i → ri.nref + 1 ≠ 1 := by intro _; omega
        have hb2 := release_keeps_inv _ i { ri with nref := ri.nref + 1 } (set_raw_same _ _ _)
          this hthis1 hsafe
        simp only [htr, Mem.nref_inc, hri,
          release_spec _ this i _ htr (set_raw_same _ _ _), Except.ok.injEq,
          Prod.mk.injEq] at hrun
        obtain ⟨rfl, rfl⟩ := hrun
        intro p hp
        simp only [List.mem_singleton] at hp
        subst hp
        rw [← hb2]
        simp [ptr.inv, htr]
    | move_assign bptr =>
      have hb : bptr.inv m = true := hinv bptr (by simp [ptr_op.args])
      simp only [ptr_op.args] at hrefs
      simp only [ptr_op.run, ptr.move_assign] at hrun
      cases htr : this.m_raw with
      | none =>
        cases hbr : bptr.m_raw with
        | none =>
          simp only [ptr.release, htr, hbr, Except.ok.injEq, Prod.mk.injEq] at hrun
          obtain ⟨rfl, rfl⟩ := hrun
          intro p hp
          simp only [List.mem_cons, List.mem_singleton, List.not_mem_nil, or_false] at hp
          rcases hp with rfl | rfl
          · simp [ptr.inv, htr]
          · exact hb
        | some i =>
          simp only [ptr.release, htr, hbr, Except.ok.injEq, Prod.mk.injEq] at hrun
          obtain ⟨rfl, rfl⟩ := hrun
          intro p hp
          simp only [List.mem_cons, List.mem_singleton, List.not_mem_nil, or_false] at hp
          rcases hp with rfl | rfl
          · rw [← hb]
            simp [ptr.inv, hbr]
          · rfl
      | some j =>
        obtain ⟨rj, hrj, _⟩ := inv_live m this j htr hthis
        cases hbr : bptr.m_raw with
        | none =>
          simp only [release_spec m this j rj htr hrj, hbr, Except.ok.injEq,
            Prod.mk.injEq] at hrun
          obtain ⟨rfl, rfl⟩ := hrun
          intro p hp
          simp only [List.mem_cons, List.mem_singleton, List.not_mem_nil, or_false] at hp
          rcases hp with rfl | rfl
          · simp [ptr.inv]
          · rw [inv_no_raw m _ p hbr]; exact hb
        | some i =>
          have hsafe : bptr.m_raw = some j → rj.nref ≠ 1 := by
            intro hbj
            have h2 := refs_counted_pair m this bptr j rj hrefs htr hbj hrj
            omega
          have hb2 := release_keeps_inv m j rj hrj bptr hb hsafe
          simp only [release_spec m this j rj htr hrj, hbr, Except.ok.injEq,
            Prod.mk.injEq] at hrun
          obtain ⟨rfl, rfl⟩ := hrun
          intro p hp
          simp only [List.mem_cons, List.mem_singleton, List.not_mem_nil, or_false] at hp
          rcases hp with rfl | rfl
          · rw [← hb2]
            simp [ptr.inv, hbr]
          · rfl
    | swap other =>
      have hother : other.inv m = true := hinv other (by simp [ptr_op.args])
      simp only [ptr_op.run, ptr.swap, Except.ok.injEq, Prod.mk.injEq] at hrun
      obtain ⟨rfl, rfl⟩ := hrun
      intro p hp
      simp only [List.mem_cons, List.mem_singleton, List.not_mem_nil, or_false] at hp
      rcases hp with rfl | rfl
      · exact hother
      · exact hthis
    | set_offset offset =>
      simp only [ptr_op.run, ptr.set_offset] at hrun
      cases hrl : this.raw_length m with
      | error e => simp [hrl] at hrun
      | ok rl =>
        simp only [ptr_op.keeps, hrl, decide_eq_true_eq] at hkeeps
        by_cases hge : rl ≥ offset
        · simp only [hrl, hge, if_true, Except.ok.injEq, Prod.mk.injEq] at hrun
          obtain ⟨rfl, rfl⟩ := hrun
          intro p hp
          simp only [List.mem_singleton] at hp
          subst hp
          unfold ptr.raw_length at hrl
          cases hraw : this.m_raw with
          | none => simp [hraw] at hrl
          | some i =>
            cases hr : m.raws i with
            | none => simp [hraw, hr] at hrl
            | some r =>
              simp only [hraw, hr, Except.ok.injEq] at hrl
              simp only [ptr.inv, hraw, hr, decide_eq_true_eq]
              omega
        · simp [hrl, hge] at hrun
    | set_length len =>
      simp only [ptr_op.run, ptr.set_length] at hrun
      cases hrl : this.raw_length m with
      | error e => simp [hrl] at hrun
      | ok rl =>
        simp only [ptr_op.keeps, hrl, decide_eq_true_eq] at hkeeps
        by_cases hge : rl ≥ len
        · simp only [hrl, hge, if_true, Except.ok.injEq, Prod.mk.injEq] at hrun
          obtain ⟨rfl, rfl⟩ := hrun
          intro p hp
          simp only [List.mem_singleton] at hp
          subst hp
          unfold ptr.raw_length at hrl
          cases hraw : this.m_raw with
          | none => simp [hraw] at hrl
          | some i =>
            cases hr : m.raws i with
            | none => simp [hraw, hr] at hrl
            | some r =>
              simp only [hraw, hr, Except.ok.injEq] at hrl
              simp only [ptr.inv, hraw, hr, decide_eq_true_eq]
              omega
        · simp [hrl, hge] at hrun
    | append src len =>
      simp only [ptr_op.run, ptr.append] at hrun
      cases htr : this.m_raw with
      | none => simp [htr] at hrun
      | some i =>
        simp only [htr] at hrun
        cases hg : this.unused_tail_length m with
        | error e => simp [hg] at hrun
        | ok gap =>
          simp only [hg] at hrun
          by_cases hle : len ≤ gap
          · by_cases hsl : src.length < len
            · simp [hle, hsl] at hrun
            · simp only [hle, hsl, if_true, if_false] at hrun
              cases hs : m.store i (this.m_off + this.m_len) (src.take len) false with
              | error e => simp [hs] at hrun
              | ok m2 =>
                simp only [hs, Except.ok.injEq, Prod.mk.injEq] at hrun
                obtain ⟨rfl, rfl⟩ := hrun
                intro p hp
                simp only [List.mem_singleton] at hp
                subst hp
                have h := inv_after_store m m2 this i len (src.take len) false htr
                  (by simp; omega) hs
                simp only [htr] at h
                exact h
          · simp [hle] at hrun
    | append_char c =>
      simp only [ptr_op.run, ptr.append_char] at hrun
      cases htr : this.m_raw with
      | none => simp [htr] at hrun
      | some i =>
        simp only [htr] at hrun
        cases hg : this.unused_tail_length m with
        | error e => simp [hg] at hrun
        | ok gap =>
          simp only [hg] at hrun
          by_cases hle : 1 ≤ gap
          · simp only [hle, if_true] at hrun
            cases hs : m.store i (this.m_off + this.m_len) [c] false with
            | error e => simp [hs] at hrun
            | ok m2 =>
              simp only [hs, Except.ok.injEq, Prod.mk.injEq] at hrun
              obtain ⟨rfl, rfl⟩ := hrun
              intro p hp
              simp only [List.mem_singleton] at hp
              subst hp
              have h := inv_after_store m m2 this i 1 [c] false htr rfl hs
              simp only [htr] at h
              exact h
          · simp [hle] at hrun
    | append_zeros len =>
      simp only [ptr_op.run, ptr.append_zeros] at hrun
      cases htr : this.m_raw with
      | none => simp [htr] at hrun
      | some i =>
        simp only [htr] at hrun
        cases hg : this.unused_tail_length m with
        | error e => simp [hg] at hrun
        | ok gap =>
          simp only [hg] at hrun
          by_cases hle : len ≤ gap
          · simp only [hle, if_true] at hrun
            cases hs : m.store i (this.m_off + this.m_len) (List.replicate len 0) false with
            | error e => simp [hs] at hrun
            | ok m2 =>
              simp only [hs, Except.ok.injEq, Prod.mk.injEq] at hrun
              obtain ⟨rfl, rfl⟩ := hrun
              intro p hp
              simp only [List.mem_singleton] at hp
              subst hp
              have h := inv_after_store m m2 this i len (List.replicate len 0) false htr
                (by simp) hs
              simp only [htr] at h
              exact h
          · simp [hle] at hrun
  · intro bptr x y m2 hb hma
    unfold ptr.move_assign at hma
    cases hrel : this.release m with
    | error e => simp [hrel] at hma
    | ok v =>
      obtain ⟨t1, m3⟩ := v
      simp only [hrel] at hma
      cases hbr : bptr.m_raw with
      | none =>
        simp only [hbr, Except.ok.injEq, Prod.mk.injEq] at hma
        obtain ⟨_, rfl, _⟩ := hma
        unfold ptr.inv at hb
        simp only [hbr, Bool.and_eq_true, beq_iff_eq] at hb
        cases bptr
        simp_all
      | some i =>
        simp only [hbr, Except.ok.injEq, Prod.mk.injEq] at hma
        exact hma.2.1.symm

theorem mem_ten_fresh : mem_ten.fresh := by
  intro i hi
  have : i ≠ 0 := by
    intro h
    subst h
    exact absurd hi (by decide)
  simp [mem_ten, this]

/-- C6 witness: `set_offset(5)` on a view of 3 bytes at the start of a
10-byte region; the new sum 8 fits. -/
theorem ptr_ops_keep_inv_witness :
    (ptr_op.set_offset 5).keeps mem_ten { m_raw := some 0, m_off := 0, m_len := 3 } = true ∧
    (ptr_op.set_offset 5).run mem_ten { m_raw := some 0, m_off := 0, m_len := 3 }
      = .ok ([{ m_raw := some 0, m_off := 5, m_len := 3 }], mem_ten) ∧
    ∀ p ∈ [({ m_raw := some 0, m_off := 5, m_len := 3 } : ptr)], p.inv mem_ten = true :=
  ⟨rfl, rfl,
   (ptr_ops_keep_inv mem_ten { m_raw := some 0, m_off := 0, m_len := 3 } (ptr_op.set_offset 5)
      [{ m_raw := some 0, m_off := 5, m_len := 3 }] mem_ten mem_ten_fresh (by decide) rfl rfl
      rfl).1⟩

/-- C6 counterexample: on a ptr over a 10-byte region, `set_offset(5)` on
the view (0, 10) gives the view (5, 10); `set_length(10)` on the view (5, 5)
gives (5, 10); slicing the view (0, 5) with offset `2 ^ 64 - 1` and length 2
passes the assertion and gives offset `2 ^ 64 - 1`; and `ptr(p, raw)` with a
5-byte region gives the view (0, 10) over 5 bytes.  Each result breaks
`offset + length <= region.len`. -/
theorem setters_break_ptr_inv :
    ptr_ten.inv mem_ten = true ∧
    inv_after ((ptr_op.set_offset 5).run mem_ten ptr_ten) = .ok [false] ∧
    inv_after ((ptr_op.set_length 10).run mem_ten { m_raw := some 0, m_off := 5, m_len := 5 })
      = .ok [false] ∧
    inv_after ((ptr_op.slice (2 ^ 64 - 1) 2).run mem_ten { m_raw := some 0, m_off := 0, m_len := 5 })
      = .ok [true, false] ∧
    inv_after ((ptr_op.of_ptr_raw 1).run mem_shared ptr_ten) = .ok [true, false] :=
  ⟨rfl, rfl, rfl, rfl, rfl⟩

theorem U64_val : U64 = 18446744073709551616 := by decide

theorem nodes_len_append (xs ys : List ptr_node) :
    nodes_len (xs ++ ys) = nodes_len xs + nodes_len ys := by
  induction xs with
  | nil => simp [nodes_len]
  | cons x xs ih => simp [nodes_len, ih]; omega

theorem counted_iff_with (L : list) : L.counted ↔ L.counted_with 0 := by
  simp [list.counted, list.counted_with]

theorem find_set_node (bs : List ptr_node) (a : Nat) (c : ptr_node) (p : ptr)
    (h : bs.find? (fun n => n.node_addr == a) = some c) :
    nodes_len (set_node bs a p) + c.m_len = nodes_len bs + p.m_len ∧
    (set_node bs a p).length = bs.length := by
  induction bs with
  | nil => simp at h
  | cons n rest ih =>
    rw [List.find?_cons] at h
    by_cases hn : (n.node_addr == a) = true
    · simp only [hn] at h
      injection h with h
      subst h
      simp only [set_node, hn, if_true, nodes_len, List.length_cons]
      constructor
      · omega
      · trivial
    · have hn' : (n.node_addr == a) = false := by simpa using hn
      simp only [hn'] at h
      obtain ⟨h1, h2⟩ := ih h
      simp only [set_node, hn', nodes_len, List.length_cons, Bool.false_eq_true, if_false]
      exact ⟨by omega, by omega⟩

theorem node_ptr_find (L : list) (a : Nat) (c : ptr) (h : L.node_ptr a = .ok c) :
    ∃ n, L._buffers.find? (fun n => n.node_addr == a) = some n ∧ n.toptr = c := by
  unfold list.node_ptr at h
  cases hf : L._buffers.find? (fun n => n.node_addr == a) with
  | none => simp [hf] at h
  | some n =>
    simp only [hf, Except.ok.injEq] at h
    exact ⟨n, rfl, h⟩

/-- A write of a ptr with `x` more bytes through the node at address `a`
moves `x` pending bytes into the chain. -/
theorem counted_with_set_node (L : list) (a k x : Nat) (c p : ptr)
    (h : L.counted_with k) (hc : L.node_ptr a = .ok c) (hp : p.m_len = c.m_len + x)
    (hx : x ≤ k) :
    ({ L with _buffers := set_node L._buffers a p } : list).counted_with (k - x) := by
  obtain ⟨n, hf, hn⟩ := node_ptr_find L a c hc
  obtain ⟨h1, h2⟩ := find_set_node L._buffers a n p hf
  obtain ⟨hl, hnum⟩ := h
  have : n.m_len = c.m_len := by rw [← hn]
  refine ⟨?_, ?_⟩
  · show L._len = (nodes_len (set_node L._buffers a p) + (k - x)) % U64
    rw [hl]
    congr 1
    omega
  · show L._num = (set_node L._buffers a p).length % U64
    rw [hnum, h2]

theorem ptr_append_len (m : Mem) (c : ptr) (src : List Nat) (len r : Nat) (c1 : ptr) (m1 : Mem)
    (h : c.append m src len = .ok (r, c1, m1)) : c1.m_len = c.m_len + len := by
  unfold ptr.append at h
  cases hr : c.m_raw with
  | none => simp [hr] at h
  | some i =>
    simp only [hr] at h
    cases hg : c.unused_tail_length m with
    | error e => simp [hg] at h
    | ok gap =>
      simp only [hg] at h
      by_cases hle : len ≤ gap
      · by_cases hsl : src.length < len
        · simp [hle, hsl] at h
        · simp only [hle, hsl, if_true, if_false] at h
          cases hs : m.store i (c.m_off + c.m_len) (src.take len) false with
          | error e => simp [hs] at h
          | ok m2 =>
            simp only [hs, Except.ok.injEq, Prod.mk.injEq] at h
            obtain ⟨_, rfl, _⟩ := h
            rfl
      · simp [hle] at h

theorem ptr_append_zeros_len (m : Mem) (c : ptr) (len r : Nat) (c1 : ptr) (m1 : Mem)
    (h : c.append_zeros m len = .ok (r, c1, m1)) : c1.m_len = c.m_len + len := by
  unfold ptr.append_zeros at h
  cases hr : c.m_raw with
  | none => simp [hr] at h
  | some i =>
    simp only [hr] at h
    cases hg : c.unused_tail_length m with
    | error e => simp [hg] at h
    | ok gap =>
      simp only [hg] at h
      by_cases hle : len ≤ gap
      · simp only [hle, if_true] at h
        cases hs : m.store i (c.m_off + c.m_len) (List.replicate len 0) false with
        | error e => simp [hs] at h
        | ok m2 =>
          simp only [hs, Except.ok.injEq, Prod.mk.injEq] at h
          obtain ⟨_, rfl, _⟩ := h
          rfl
      · simp [hle] at h

theorem ptr_set_length_len (m : Mem) (c : ptr) (len : Nat) (c1 : ptr)
    (h : c.set_length m len = .ok c1) : c1.m_len = len ∧ c1.m_raw = c.m_raw ∧ c1.m_off = c.m_off := by
  unfold ptr.set_length at h
  cases hr : c.raw_length m with
  | error e => simp [hr] at h
  | ok rl =>
    simp only [hr] at h
    by_cases hge : rl ≥ len
    · simp only [hge, if_true, Except.ok.injEq] at h
      subst h
      exact ⟨rfl, rfl, rfl⟩
    · simp [hge] at h

theorem node_append_counted (m : Mem) (L : list) (a k len : Nat) (src : List Nat)
    (L1 : list) (m1 : Mem) (h : L.counted_with k) (hk : len ≤ k)
    (hrun : L.node_append m a src len = .ok (L1, m1)) : L1.counted_with (k - len) := by
  unfold list.node_append at hrun
  cases hc : L.node_ptr a with
  | error e => simp [hc] at hrun
  | ok c =>
    simp only [hc] at hrun
    cases hap : c.append m src len with
    | error e => simp [hap] at hrun
    | ok v =>
      obtain ⟨r, c1, m2⟩ := v
      simp only [hap, Except.ok.injEq, Prod.mk.injEq] at hrun
      obtain ⟨rfl, _⟩ := hrun
      exact counted_with_set_node L a k len c c1 h hc (ptr_append_len m c src len r c1 m2 hap) hk

theorem node_append_zeros_counted (m : Mem) (L : list) (a k len : Nat)
    (L1 : list) (m1 : Mem) (h : L.counted_with k) (hk : len ≤ k)
    (hrun : L.node_append_zeros m a len = .ok (L1, m1)) : L1.counted_with (k - len) := by
  unfold list.node_append_zeros at hrun
  cases hc : L.node_ptr a with
  | error e => simp [hc] at hrun
  | ok c =>
    simp only [hc] at hrun
    cases hap : c.append_zeros m len with
    | error e => simp [hap] at hrun
    | ok v =>
      obtain ⟨r, c1, m2⟩ := v
      simp only [hap, Except.ok.injEq, Prod.mk.injEq] at hrun
      obtain ⟨rfl, _⟩ := hrun
      exact counted_with_set_node L a k len c c1 h hc (ptr_append_zeros_len m c len r c1 m2 hap) hk
theorem create_copy_len (m : Mem) (b : ptr) (n : ptr_node) (m1 : Mem)
    (h : ptr_node.create_copy m b = .ok (n, m1)) : n.toptr = b ∧ n.node_addr = m.next_node := by
  unfold ptr_node.create_copy ptr.copy_ctor at h
  cases hb : b.m_raw with
  | none =>
    simp only [hb, Mem.new_node, Except.ok.injEq, Prod.mk.injEq] at h
    obtain ⟨rfl, _⟩ := h
    refine ⟨?_, rfl⟩
    cases b
    simp_all
  | some i =>
    simp only [hb] at h
    cases hi : m.nref_inc i with
    | error e => simp [hi] at h
    | ok m2 =>
      simp only [hi, Mem.new_node, Except.ok.injEq, Prod.mk.injEq] at h
      obtain ⟨rfl, _⟩ := h
      have hn : m2.next_node = m.next_node := by
        unfold Mem.nref_inc at hi
        cases hr : m.raws i with
        | none => simp [hr] at hi
        | some r =>
          simp only [hr, Except.ok.injEq] at hi
          subst hi
          rfl
      refine ⟨?_, hn⟩
      cases b
      simp_all

theorem create_slice_len (m : Mem) (b : ptr) (off len : Nat) (n : ptr_node) (m1 : Mem)
    (h : ptr_node.create_slice m b off len = .ok (n, m1)) :
    n.m_len = len ∧ n.m_raw = b.m_raw ∧ n.m_off = (b.m_off + off) % U64 ∧
      n.node_addr = m.next_node := by
  unfold ptr_node.create_slice ptr.slice at h
  by_cases hle : (off + len) % U64 ≤ b.m_len
  · simp only [hle, if_true] at h
    cases hb : b.m_raw with
    | none => simp [hb] at h
    | some i =>
      simp only [hb] at h
      cases hi : m.nref_inc i with
      | error e => simp [hi] at h
      | ok m2 =>
        simp only [hi, Mem.new_node, Except.ok.injEq, Prod.mk.injEq] at h
        obtain ⟨rfl, _⟩ := h
        have hn : m2.next_node = m.next_node := by
          unfold Mem.nref_inc at hi
          cases hr : m.raws i with
          | none => simp [hr] at hi
          | some r =>
            simp only [hr, Except.ok.injEq] at hi
            subst hi
            rfl
        exact ⟨rfl, rfl, rfl, hn⟩
  · simp [hle] at h

theorem counted_with_snoc (L : list) (k x k1 : Nat) (n : ptr_node) (c : Option Nat)
    (h : L.counted_with k) (hk : k + x = n.m_len + k1) :
    ({ _buffers := L._buffers ++ [n], _tail_pnode_cache := c, _len := add64 L._len x,
       _num := add64 L._num 1 } : list).counted_with k1 := by
  obtain ⟨h1, h2⟩ := h
  constructor
  · show add64 L._len x = (nodes_len (L._buffers ++ [n]) + k1) % U64
    simp only [nodes_len_append, nodes_len, add64, U64_val] at *
    omega
  · show add64 L._num 1 = (L._buffers ++ [n]).length % U64
    simp only [List.length_append, List.length_cons, List.length_nil, add64, U64_val] at *
    omega

theorem counted_with_snoc_same (L : list) (k k1 : Nat) (n : ptr_node) (c : Option Nat)
    (h : L.counted_with k) (hk : k = n.m_len + k1) :
    ({ _buffers := L._buffers ++ [n], _tail_pnode_cache := c, _len := L._len,
       _num := add64 L._num 1 } : list).counted_with k1 := by
  obtain ⟨h1, h2⟩ := h
  constructor
  · show L._len = (nodes_len (L._buffers ++ [n]) + k1) % U64
    simp only [nodes_len_append, nodes_len, add64, U64_val] at *
    omega
  · show add64 L._num 1 = (L._buffers ++ [n]).length % U64
    simp only [List.length_append, List.length_cons, List.length_nil, add64, U64_val] at *
    omega

theorem push_back_counted (m : Mem) (L : list) (b : ptr) (L1 : list) (m1 : Mem)
    (h : L.counted) (hrun : L.push_back m b = .ok (L1, m1)) : L1.counted := by
  rw [counted_iff_with] at *
  unfold list.push_back at hrun
  by_cases h0 : b.length = 0
  · simp only [h0, if_true, Except.ok.injEq, Prod.mk.injEq] at hrun
    obtain ⟨rfl, _⟩ := hrun
    exact h
  · simp only [h0, if_false] at hrun
    cases hc : ptr_node.create_copy m b with
    | error e => simp [hc] at hrun
    | ok v =>
      obtain ⟨n, m2⟩ := v
      simp only [hc, Except.ok.injEq, Prod.mk.injEq] at hrun
      obtain ⟨rfl, _⟩ := hrun
      have hn := (create_copy_len m b n m2 hc).1
      exact counted_with_snoc L 0 b.length 0 n _ h (by rw [← hn]; simp [ptr.length])

theorem push_back_move_counted (m : Mem) (L : list) (b : ptr) (h : L.counted) :
    (L.push_back_move m b).1.counted := by
  rw [counted_iff_with] at *
  unfold list.push_back_move
  by_cases h0 : b.length = 0
  · simp only [h0, if_true]
    exact h
  · simp only [h0, if_false]
    exact counted_with_snoc L 0 b.length 0 _ _ h (by simp [ptr.move_ctor, Mem.new_node, ptr.length])

theorem push_back_node_counted (m : Mem) (L : list) (n : ptr_node) (L1 : list) (m1 : Mem)
    (h : L.counted) (hrun : L.push_back_node m n = .ok (L1, m1)) : L1.counted := by
  rw [counted_iff_with] at *
  unfold list.push_back_node at hrun
  by_cases h0 : n.length = 0
  · simp only [h0, if_true] at hrun
    cases hd : n.dispose m with
    | error e => simp [hd] at hrun
    | ok m2 =>
      simp only [hd, Except.ok.injEq, Prod.mk.injEq] at hrun
      obtain ⟨rfl, _⟩ := hrun
      exact h
  · simp only [h0, if_false, Except.ok.injEq, Prod.mk.injEq] at hrun
    obtain ⟨rfl, _⟩ := hrun
    exact counted_with_snoc L 0 n.length 0 n _ h (by simp [ptr.length])

theorem push_back_raw_counted (m : Mem) (L : list) (i : Nat) (L1 : list) (m1 : Mem)
    (h : L.counted) (hrun : L.push_back_raw m i = .ok (L1, m1)) : L1.counted := by
  rw [counted_iff_with] at *
  unfold list.push_back_raw at hrun
  cases hc : ptr_node.create_raw m i with
  | error e => simp [hc] at hrun
  | ok v =>
    obtain ⟨n, m2⟩ := v
    simp only [hc, Except.ok.injEq, Prod.mk.injEq] at hrun
    obtain ⟨rfl, _⟩ := hrun
    exact counted_with_snoc L 0 n.length 0 n _ h (by simp [ptr.length])

theorem push_empty_tail_counted (m : Mem) (L : list) (i k : Nat) (L1 : list) (m1 : Mem)
    (h : L.counted_with k) (hrun : L.push_empty_tail m i = .ok (L1, m1)) :
    L1.counted_with k := by
  unfold list.push_empty_tail at hrun
  cases hc : ptr_node.create_raw m i with
  | error e => simp [hc] at hrun
  | ok v =>
    obtain ⟨n, m2⟩ := v
    simp only [hc] at hrun
    cases hs : n.toptr.set_length m2 0 with
    | error e => simp [hs] at hrun
    | ok p0 =>
      simp only [hs, Except.ok.injEq, Prod.mk.injEq] at hrun
      obtain ⟨rfl, _⟩ := hrun
      have hl := (ptr_set_length_len m2 n.toptr 0 p0 hs).1
      exact counted_with_snoc_same L k k _ _ h (by simp [hl])

theorem refill_counted (m : Mem) (L : list) (len k : Nat) (L1 : list) (m1 : Mem)
    (h : L.counted_with k) (hrun : L.refill_append_space m len = .ok (L1, m1)) :
    L1.counted_with k := by
  unfold list.refill_append_space at hrun
  simp only at hrun
  split at hrun
  · simp at hrun
  · exact push_empty_tail_counted _ L _ k L1 m1 h hrun

theorem reanchor_counted (m : Mem) (L : list) (k : Nat) (L1 : list) (m1 : Mem)
    (h : L.counted_with k) (hrun : L.reanchor m = .ok (L1, m1)) : L1.counted_with k := by
  unfold list.reanchor at hrun
  cases hc : L.tail_cache_ptr with
  | error e => simp [hc] at hrun
  | ok c =>
    simp only [hc] at hrun
    cases hs : ptr_node.create_slice m c c.length 0 with
    | error e => simp [hs] at hrun
    | ok v =>
      obtain ⟨n, m2⟩ := v
      simp only [hs, Except.ok.injEq, Prod.mk.injEq] at hrun
      obtain ⟨rfl, _⟩ := hrun
      have hl := (create_slice_len m c c.length 0 n m2 hs).1
      exact counted_with_snoc_same L k k _ _ h (by simp [hl])

theorem sync_tail_counted (m : Mem) (L : list) (k : Nat) (L1 : list) (m1 : Mem)
    (h : L.counted_with k) (hrun : L.sync_tail m = .ok (L1, m1)) : L1.counted_with k := by
  unfold list.sync_tail at hrun
  split at hrun
  · simp only [Except.ok.injEq, Prod.mk.injEq] at hrun
    obtain ⟨rfl, _⟩ := hrun
    exact h
  · exact reanchor_counted m L k L1 m1 h hrun
theorem counted_with_len (L : list) (k k1 x : Nat) (h : L.counted_with k) (hk : k + x = k1) :
    ({ L with _len := add64 L._len x } : list).counted_with k1 := by
  obtain ⟨h1, h2⟩ := h
  constructor
  · show add64 L._len x = (nodes_len L._buffers + k1) % U64
    simp only [add64, U64_val] at *
    omega
  · exact h2

theorem cache_append_counted (m : Mem) (L : list) (k len : Nat) (src : List Nat)
    (L1 : list) (m1 : Mem) (h : L.counted_with k) (hk : len ≤ k)
    (hrun : L.cache_append m src len = .ok (L1, m1)) : L1.counted_with (k - len) := by
  unfold list.cache_append at hrun
  cases hc : L._tail_pnode_cache with
  | none => simp [hc] at hrun
  | some a =>
    simp only [hc] at hrun
    exact node_append_counted m L a k len src L1 m1 h hk hrun

theorem append_char_counted (m : Mem) (L : list) (c : Nat) (L1 : list) (m1 : Mem)
    (h : L.counted) (hrun : L.append_char m c = .ok (L1, m1)) : L1.counted := by
  rw [counted_iff_with] at *
  unfold list.append_char at hrun
  cases hg : L.get_append_buffer_unused_tail_length m with
  | error e => simp [hg] at hrun
  | ok gap =>
    simp only [hg] at hrun
    have hstep : ∀ (L2 : list) (m2 : Mem), L2.counted_with 0 →
        (match L2.cache_append m2 [c] 1 with
         | .error e => Except.error e
         | .ok (L3, m3) => .ok ({ L3 with _len := add64 L3._len 1 }, m3)) = .ok (L1, m1) →
        L1.counted_with 0 := by
      intro L2 m2 h2 hr
      cases hcb : L2.cache_append m2 [c] 1 with
      | error e2 => simp [hcb] at hr
      | ok v2 =>
        obtain ⟨L3, m3⟩ := v2
        simp only [hcb, Except.ok.injEq, Prod.mk.injEq] at hr
        obtain ⟨rfl, _⟩ := hr
        unfold list.cache_append at hcb
        cases hcc : L2._tail_pnode_cache with
        | none => simp [hcc] at hcb
        | some a =>
          simp only [hcc] at hcb
          unfold list.node_append at hcb
          cases hnp : L2.node_ptr a with
          | error e => simp [hnp] at hcb
          | ok cp =>
            simp only [hnp] at hcb
            cases hap : cp.append m2 [c] 1 with
            | error e => simp [hap] at hcb
            | ok w =>
              obtain ⟨r, c1, m4⟩ := w
              simp only [hap, Except.ok.injEq, Prod.mk.injEq] at hcb
              obtain ⟨rfl, _⟩ := hcb
              have hl := ptr_append_len m2 cp [c] 1 r c1 m4 hap
              exact counted_with_set_node ({ L2 with _len := add64 L2._len 1 }) a 1 1 cp c1
                (counted_with_len L2 0 1 1 h2 rfl) hnp hl (Nat.le_refl _)
    by_cases hg0 : gap = 0
    · simp only [hg0, if_true] at hrun
      cases hcr : raw_combined.create m SPEC_BUFFER_APPEND_SIZE 0 with
      | error e => simp [hcr] at hrun
      | ok v =>
        obtain ⟨i, m2⟩ := v
        simp only [hcr] at hrun
        cases hpe : L.push_empty_tail m2 i with
        | error e => simp [hpe] at hrun
        | ok w =>
          obtain ⟨L2, m3⟩ := w
          simp only [hpe] at hrun
          exact hstep L2 m3 (push_empty_tail_counted m2 L i 0 L2 m3 h hpe) hrun
    · simp only [hg0, if_false] at hrun
      cases hst : L.sync_tail m with
      | error e => simp [hst] at hrun
      | ok w =>
        obtain ⟨L2, m3⟩ := w
        simp only [hst] at hrun
        exact hstep L2 m3 (sync_tail_counted m L 0 L2 m3 h hst) hrun
theorem counted_with_replace (L : list) (k k1 c l : Nat) (bs : List ptr_node)
    (h : L.counted_with k) (h1 : nodes_len bs + c = nodes_len L._buffers + l)
    (h2 : bs.length = L._buffers.length) (hmod : (c + k) % U64 = (l + k1) % U64) :
    ({ L with _buffers := bs } : list).counted_with k1 := by
  obtain ⟨hl, hn⟩ := h
  constructor
  · show L._len = (nodes_len bs + k1) % U64
    simp only [U64_val] at *
    omega
  · show L._num = bs.length % U64
    rw [hn, h2]

theorem back_ptr_last (L : list) (c : ptr) (h : L.back_ptr = .ok c) :
    ∃ n, L._buffers = L._buffers.dropLast ++ [n] ∧ n.toptr = c ∧ L._buffers.getLast? = some n := by
  unfold list.back_ptr at h
  cases hg : L._buffers.getLast? with
  | none => simp [hg] at h
  | some n =>
    simp only [hg, Except.ok.injEq] at h
    exact ⟨n, (List.dropLast_append_getLast? n hg).symm, h, rfl⟩

theorem set_back_len (bs : List ptr_node) (n : ptr_node) (p : ptr)
    (h : bs.getLast? = some n) :
    nodes_len (set_back bs p) + n.m_len = nodes_len bs + p.m_len ∧
    (set_back bs p).length = bs.length := by
  have hb : bs = bs.dropLast ++ [n] := (List.dropLast_append_getLast? n h).symm
  unfold set_back
  simp only [h]
  constructor
  · conv => rhs; rw [hb]
    simp only [nodes_len_append, nodes_len]
    omega
  · conv => rhs; rw [hb]
    simp

theorem back_append_counted (m : Mem) (L : list) (k len : Nat) (src : List Nat)
    (L1 : list) (m1 : Mem) (h : L.counted_with k) (hk : len ≤ k)
    (hrun : L.back_append m src len = .ok (L1, m1)) : L1.counted_with (k - len) := by
  unfold list.back_append at hrun
  cases hc : L.back_ptr with
  | error e => simp [hc] at hrun
  | ok c =>
    simp only [hc] at hrun
    cases hap : c.append m src len with
    | error e => simp [hap] at hrun
    | ok v =>
      obtain ⟨r, c1, m2⟩ := v
      simp only [hap, Except.ok.injEq, Prod.mk.injEq] at hrun
      obtain ⟨rfl, _⟩ := hrun
      obtain ⟨n, _, hn, hg⟩ := back_ptr_last L c hc
      obtain ⟨h1, h2⟩ := set_back_len L._buffers n c1 hg
      have hl := ptr_append_len m c src len r c1 m2 hap
      have hnc : n.m_len = c.m_len := by rw [← hn]
      refine counted_with_replace L k (k - len) n.m_len c1.m_len _ h h1 h2 ?_
      congr 1
      omega

/-- After `refill_append_space` the chain is the old chain followed by one
empty node. -/
theorem push_empty_tail_shape (m : Mem) (L : list) (i : Nat) (L1 : list) (m1 : Mem)
    (hrun : L.push_empty_tail m i = .ok (L1, m1)) :
    ∃ n0 : ptr_node, L1._buffers = L._buffers ++ [n0] ∧ n0.m_len = 0 ∧ L1._len = L._len ∧
      L1._num = add64 L._num 1 ∧ L1._tail_pnode_cache = some n0.node_addr := by
  unfold list.push_empty_tail at hrun
  cases hc : ptr_node.create_raw m i with
  | error e => simp [hc] at hrun
  | ok v =>
    obtain ⟨n, m2⟩ := v
    simp only [hc] at hrun
    cases hs : n.toptr.set_length m2 0 with
    | error e => simp [hs] at hrun
    | ok p0 =>
      simp only [hs, Except.ok.injEq, Prod.mk.injEq] at hrun
      obtain ⟨rfl, _⟩ := hrun
      exact ⟨_, rfl, (ptr_set_length_len m2 n.toptr 0 p0 hs).1, rfl, rfl, rfl⟩

theorem refill_shape (m : Mem) (L : list) (len : Nat) (L1 : list) (m1 : Mem)
    (hrun : L.refill_append_space m len = .ok (L1, m1)) :
    ∃ n0 : ptr_node, L1._buffers = L._buffers ++ [n0] ∧ n0.m_len = 0 ∧ L1._len = L._len ∧
      L1._num = add64 L._num 1 ∧ L1._tail_pnode_cache = some n0.node_addr := by
  unfold list.refill_append_space at hrun
  simp only at hrun
  split at hrun
  · simp at hrun
  · exact push_empty_tail_shape _ L _ L1 m1 hrun

theorem back_set_length_after_refill (m : Mem) (L : list) (k len : Nat) (n0 : ptr_node)
    (L1 L2 : list) (h : L.counted_with k) (hk : len ≤ k)
    (hs : L1._buffers = L._buffers ++ [n0]) (h0 : n0.m_len = 0) (hl : L1._len = L._len)
    (hn : L1._num = add64 L._num 1)
    (hrun : L1.back_set_length m len = .ok L2) : L2.counted_with (k - len) := by
  have h1c : L1.counted_with k := by
    obtain ⟨a, b⟩ := h
    constructor
    · rw [hl, hs, nodes_len_append, a]
      simp [nodes_len, h0]
    · rw [hn, hs, b]
      simp only [List.length_append, List.length_cons, List.length_nil, add64, U64_val]
      omega
  unfold list.back_set_length at hrun
  cases hc : L1.back_ptr with
  | error e => simp [hc] at hrun
  | ok c =>
    simp only [hc] at hrun
    cases hsl : c.set_length m len with
    | error e => simp [hsl] at hrun
    | ok c1 =>
      simp only [hsl, Except.ok.injEq] at hrun
      subst hrun
      obtain ⟨n, _, hnc, hg⟩ := back_ptr_last L1 c hc
      have hnn : n = n0 := by
        rw [hs, List.getLast?_append] at hg
        simpa using hg.symm
      obtain ⟨e1, e2⟩ := set_back_len L1._buffers n c1 hg
      have hc1 := (ptr_set_length_len m c len c1 hsl).1
      refine counted_with_replace L1 k (k - len) n.m_len c1.m_len _ h1c e1 e2 ?_
      rw [hnn, h0, hc1]
      congr 1
      omega

theorem list_append_counted (m : Mem) (L : list) (data : List Nat) (len : Nat)
    (L1 : list) (m1 : Mem) (h : L.counted) (hrun : L.append m data len = .ok (L1, m1)) :
    L1.counted := by
  rw [counted_iff_with] at *
  unfold list.append at hrun
  simp only at hrun
  have h0 := counted_with_len L 0 len len h (Nat.zero_add _)
  cases hg : ({ L with _len := add64 L._len len } : list).get_append_buffer_unused_tail_length m with
  | error e => simp [hg] at hrun
  | ok gap =>
    simp only [hg] at hrun
    have hfirst : ∀ (L2 : list) (m2 : Mem),
        (if min len gap ≠ 0 then
           match ({ L with _len := add64 L._len len } : list).sync_tail m with
           | .error e => Except.error e
           | .ok (L1, m1) => L1.cache_append m1 data (min len gap)
         else Except.ok ({ L with _len := add64 L._len len }, m)) = .ok (L2, m2) →
        L2.counted_with (len - min len gap) := by
      intro L2 m2 hr
      by_cases hm : min len gap ≠ 0
      · rw [if_pos hm] at hr
        cases hst : ({ L with _len := add64 L._len len } : list).sync_tail m with
        | error e => simp [hst] at hr
        | ok v =>
          obtain ⟨L3, m3⟩ := v
          simp only [hst] at hr
          exact cache_append_counted m3 L3 len (min len gap) data L2 m2
            (sync_tail_counted m _ len L3 m3 h0 hst) (Nat.min_le_left _ _) hr
      · rw [if_neg hm] at hr
        simp only [Except.ok.injEq, Prod.mk.injEq] at hr
        obtain ⟨rfl, _⟩ := hr
        have : min len gap = 0 := Classical.not_not.mp hm
        rw [this]
        exact h0
    split at hrun
    · simp at hrun
    · rename_i L2 m2 hf
      have h2 := hfirst L2 m2 hf
      by_cases hleft : len - min len gap ≠ 0
      · rw [if_pos hleft] at hrun
        cases hre : L2.refill_append_space m2 (len - min len gap) with
        | error e => simp [hre] at hrun
        | ok v =>
          obtain ⟨L3, m3⟩ := v
          simp only [hre] at hrun
          have h3 := refill_counted m2 L2 _ _ L3 m3 h2 hre
          have := back_append_counted m3 L3 _ _ _ L1 m1 h3 (Nat.le_refl _) hrun
          simpa using this
      · rw [if_neg hleft] at hrun
        simp only [Except.ok.injEq, Prod.mk.injEq] at hrun
        obtain ⟨rfl, _⟩ := hrun
        have : len - min len gap = 0 := Classical.not_not.mp hleft
        rw [this] at h2
        exact h2
theorem list_append_zero_counted (m : Mem) (L : list) (len : Nat)
    (L1 : list) (m1 : Mem) (h : L.counted) (hrun : L.append_zero m len = .ok (L1, m1)) :
    L1.counted := by
  rw [counted_iff_with] at *
  unfold list.append_zero at hrun
  simp only at hrun
  have h0 := counted_with_len L 0 len len h (Nat.zero_add _)
  cases hg : ({ L with _len := add64 L._len len } : list).get_append_buffer_unused_tail_length m with
  | error e => simp [hg] at hrun
  | ok gap =>
    simp only [hg] at hrun
    have hfirst : ∀ (L2 : list) (m2 : Mem),
        (if min len gap ≠ 0 then
           match ({ L with _len := add64 L._len len } : list).sync_tail m with
           | .error e => Except.error e
           | .ok (L1, m1) =>
             match L1._tail_pnode_cache with
             | none => .error .assert_failed
             | some a => L1.node_append_zeros m1 a (min len gap)
         else Except.ok ({ L with _len := add64 L._len len }, m)) = .ok (L2, m2) →
        L2.counted_with (len - min len gap) := by
      intro L2 m2 hr
      by_cases hm : min len gap ≠ 0
      · rw [if_pos hm] at hr
        cases hst : ({ L with _len := add64 L._len len } : list).sync_tail m with
        | error e => simp [hst] at hr
        | ok v =>
          obtain ⟨L3, m3⟩ := v
          simp only [hst] at hr
          cases hc : L3._tail_pnode_cache with
          | none => simp [hc] at hr
          | some a =>
            simp only [hc] at hr
            exact node_append_zeros_counted m3 L3 a len (min len gap) L2 m2
              (sync_tail_counted m _ len L3 m3 h0 hst) (Nat.min_le_left _ _) hr
      · rw [if_neg hm] at hr
        simp only [Except.ok.injEq, Prod.mk.injEq] at hr
        obtain ⟨rfl, _⟩ := hr
        have : min len gap = 0 := Classical.not_not.mp hm
        rw [this]
        exact h0
    split at hrun
    · simp at hrun
    · rename_i L2 m2 hf
      have h2 := hfirst L2 m2 hf
      by_cases hleft : len - min len gap ≠ 0
      · rw [if_pos hleft] at hrun
        cases hre : L2.refill_append_space m2 (len - min len gap) with
        | error e => simp [hre] at hrun
        | ok v =>
          obtain ⟨L3, m3⟩ := v
          simp only [hre] at hrun
          obtain ⟨n0, hs, hz, hl, hn, _⟩ := refill_shape m2 L2 _ L3 m3 hre
          cases hbs : L3.back_set_length m3 (len - min len gap) with
          | error e => simp [hbs] at hrun
          | ok L4 =>
            simp only [hbs] at hrun
            have h4 := back_set_length_after_refill m3 L2 _ _ n0 L3 L4 h2 (Nat.le_refl _)
              hs hz hl hn hbs
            cases hbp : L4.back_ptr with
            | error e => simp [hbp] at hrun
            | ok c =>
              simp only [hbp] at hrun
              cases hz : c.zero m3 false with
              | error e => simp [hz] at hrun
              | ok m4 =>
                simp only [hz, Except.ok.injEq, Prod.mk.injEq] at hrun
                obtain ⟨rfl, _⟩ := hrun
                simpa using h4
      · rw [if_neg hleft] at hrun
        simp only [Except.ok.injEq, Prod.mk.injEq] at hrun
        obtain ⟨rfl, _⟩ := hrun
        have : len - min len gap = 0 := Classical.not_not.mp hleft
        rw [this] at h2
        exact h2

theorem list_append_hole_counted (m : Mem) (L : list) (len : Nat)
    (L1 : list) (m1 : Mem) (h : L.counted) (hrun : L.append_hole m len = .ok (L1, m1)) :
    L1.counted := by
  rw [counted_iff_with] at *
  unfold list.append_hole at hrun
  simp only at hrun
  have h0 := counted_with_len L 0 len len h (Nat.zero_add _)
  cases hg : ({ L with _len := add64 L._len len } : list).get_append_buffer_unused_tail_length m with
  | error e => simp [hg] at hrun
  | ok gap =>
    simp only [hg] at hrun
    by_cases hlt : gap < len
    · rw [if_pos hlt] at hrun
      cases hre : ({ L with _len := add64 L._len len } : list).refill_append_space m len with
      | error e => simp [hre] at hrun
      | ok v =>
        obtain ⟨L3, m3⟩ := v
        simp only [hre] at hrun
        obtain ⟨n0, hs, hz, hl, hn, _⟩ := refill_shape m _ _ L3 m3 hre
        cases hbs : L3.back_set_length m3 len with
        | error e => simp [hbs] at hrun
        | ok L4 =>
          simp only [hbs, Except.ok.injEq, Prod.mk.injEq] at hrun
          obtain ⟨rfl, _⟩ := hrun
          have h4 := back_set_length_after_refill m3 _ _ _ n0 L3 L4 h0 (Nat.le_refl _)
            hs hz hl hn hbs
          simpa using h4
    · rw [if_neg hlt] at hrun
      cases hst : ({ L with _len := add64 L._len len } : list).sync_tail m with
      | error e => simp [hst] at hrun
      | ok v =>
        obtain ⟨L3, m3⟩ := v
        simp only [hst] at hrun
        have h3 := sync_tail_counted m _ len L3 m3 h0 hst
        cases hc : L3._tail_pnode_cache with
        | none => simp [hc] at hrun
        | some a =>
          simp only [hc] at hrun
          cases hnp : L3.node_ptr a with
          | error e => simp [hnp] at hrun
          | ok c =>
            simp only [hnp] at hrun
            cases hsl : L3.node_set_length m3 a (add64 c.length len) with
            | error e => simp [hsl] at hrun
            | ok L4 =>
              simp only [hsl, Except.ok.injEq, Prod.mk.injEq] at hrun
              obtain ⟨rfl, _⟩ := hrun
              unfold list.node_set_length at hsl
              simp only [hnp] at hsl
              cases hs2 : c.set_length m3 (add64 c.length len) with
              | error e => simp [hs2] at hsl
              | ok c1 =>
                simp only [hs2, Except.ok.injEq] at hsl
                subst hsl
                obtain ⟨n, hf, hn⟩ := node_ptr_find L3 a c hnp
                obtain ⟨e1, e2⟩ := find_set_node L3._buffers a n c1 hf
                have hc1 := (ptr_set_length_len m3 c _ c1 hs2).1
                have hnc : n.m_len = c.m_len := by rw [← hn]
                refine counted_with_replace L3 len 0 n.m_len c1.m_len _ h3 e1 e2 ?_
                rw [hc1, hnc]
                simp only [add64, ptr.length, U64_val]
                omega

theorem append_ptr_range_counted (m : Mem) (L : list) (b : ptr) (off len : Nat)
    (L1 : list) (m1 : Mem) (h : L.counted)
    (hrun : L.append_ptr_range m b off len = .ok (L1, m1)) : L1.counted := by
  rw [counted_iff_with] at *
  unfold list.append_ptr_range at hrun
  by_cases hle : (len + off) % U64 ≤ b.length
  · rw [if_pos hle] at hrun
    simp only at hrun
    have hpush : (match ptr_node.create_slice m b off len with
        | .error e => Except.error e
        | .ok (n, m1) =>
          .ok ({ L with _buffers := L._buffers ++ [n], _len := add64 L._len len,
                        _num := add64 L._num 1 }, m1)) = .ok (L1, m1) → L1.counted_with 0 := by
      intro hr
      cases hc : ptr_node.create_slice m b off len with
      | error e => simp [hc] at hr
      | ok v =>
        obtain ⟨n, m2⟩ := v
        simp only [hc, Except.ok.injEq, Prod.mk.injEq] at hr
        obtain ⟨rfl, _⟩ := hr
        have hn := (create_slice_len m b off len n m2 hc).1
        exact counted_with_snoc L 0 len 0 n _ h (by omega)
    cases hg : L._buffers.getLast? with
    | none =>
      simp only [hg] at hrun
      exact hpush hrun
    | some t =>
      simp only [hg] at hrun
      split at hrun
      · cases hs : t.toptr.set_length m (add64 t.length len) with
        | error e => simp [hs] at hrun
        | ok t1 =>
          simp only [hs, Except.ok.injEq, Prod.mk.injEq] at hrun
          obtain ⟨rfl, _⟩ := hrun
          have ht1 := (ptr_set_length_len m t.toptr _ t1 hs).1
          have hb : L._buffers = L._buffers.dropLast ++ [t] :=
            (List.dropLast_append_getLast? t hg).symm
          obtain ⟨hl, hn⟩ := h
          constructor
          · show add64 L._len len
              = (nodes_len (L._buffers.dropLast ++ [{ t with toptr := t1 }]) + 0) % U64
            rw [hb, nodes_len_append] at hl
            simp only [nodes_len_append, nodes_len, ht1, add64, ptr.length, U64_val] at *
            omega
          · show L._num = (L._buffers.dropLast ++ [{ t with toptr := t1 }]).length % U64
            rw [hn]
            conv => lhs; rw [hb]
            simp
      · exact hpush hrun
  · rw [if_neg hle] at hrun
    simp at hrun
theorem push_copies_shape (src : List ptr_node) : ∀ (m : Mem) (bs bs1 : List ptr_node) (m1 : Mem),
    push_copies m bs src = .ok (bs1, m1) →
    nodes_len bs1 = nodes_len bs + nodes_len src ∧ bs1.length = bs.length + src.length := by
  induction src with
  | nil =>
    intro m bs bs1 m1 h
    simp only [push_copies, Except.ok.injEq, Prod.mk.injEq] at h
    obtain ⟨rfl, _⟩ := h
    simp [nodes_len]
  | cons node rest ih =>
    intro m bs bs1 m1 h
    simp only [push_copies] at h
    cases hc : ptr_node.create_copy m node.toptr with
    | error e => simp [hc] at h
    | ok v =>
      obtain ⟨n, m2⟩ := v
      simp only [hc] at h
      obtain ⟨h1, h2⟩ := ih m2 _ bs1 m1 h
      have hn := (create_copy_len m node.toptr n m2 hc).1
      have hnl : n.m_len = node.m_len := by rw [hn]
      simp only [nodes_len_append, nodes_len, List.length_append, List.length_cons,
        List.length_nil] at h1 h2 ⊢
      omega

theorem append_list_counted (m : Mem) (L blist : list) (L1 : list) (m1 : Mem)
    (h : L.counted) (hb : blist.counted)
    (hrun : L.append_list m blist = .ok (L1, m1)) : L1.counted := by
  unfold list.append_list at hrun
  cases hp : push_copies m L._buffers blist._buffers with
  | error e => simp [hp] at hrun
  | ok v =>
    obtain ⟨bs, m2⟩ := v
    simp only [hp, Except.ok.injEq, Prod.mk.injEq] at hrun
    obtain ⟨rfl, _⟩ := hrun
    obtain ⟨h1, h2⟩ := push_copies_shape _ m _ bs m2 hp
    obtain ⟨a1, a2⟩ := h
    obtain ⟨b1, b2⟩ := hb
    constructor
    · show add64 L._len blist._len = nodes_len bs % U64
      simp only [add64, U64_val] at *
      omega
    · show add64 L._num blist._num = bs.length % U64
      simp only [add64, U64_val] at *
      omega

theorem clear_counted (m : Mem) (L : list) (L1 : list) (m1 : Mem)
    (hrun : L.clear m = .ok (L1, m1)) : L1.counted ∧ L1._buffers = [] := by
  unfold list.clear at hrun
  cases hc : clear_and_dispose m L._buffers with
  | error e => simp [hc] at hrun
  | ok m2 =>
    simp only [hc, Except.ok.injEq, Prod.mk.injEq] at hrun
    obtain ⟨rfl, _⟩ := hrun
    exact ⟨⟨rfl, rfl⟩, rfl⟩

theorem share_counted (m : Mem) (L blist : list) (L1 : list) (m1 : Mem)
    (hb : blist.counted) (hrun : L.share m blist = .ok (L1, m1)) : L1.counted := by
  unfold list.share at hrun
  cases hc : L.clear m with
  | error e => simp [hc] at hrun
  | ok v =>
    obtain ⟨L2, m2⟩ := v
    simp only [hc] at hrun
    obtain ⟨_, he⟩ := clear_counted m L L2 m2 hc
    cases hp : push_copies m2 L2._buffers blist._buffers with
    | error e => simp [hp] at hrun
    | ok w =>
      obtain ⟨bs, m3⟩ := w
      simp only [hp, Except.ok.injEq, Prod.mk.injEq] at hrun
      obtain ⟨rfl, _⟩ := hrun
      obtain ⟨h1, h2⟩ := push_copies_shape _ m2 _ bs m3 hp
      obtain ⟨b1, b2⟩ := hb
      rw [he] at h1 h2
      constructor
      · show blist._len = nodes_len bs % U64
        rw [b1, h1]
        simp [nodes_len]
      · show blist._num = bs.length % U64
        rw [b2, h2]
        simp

theorem prepend_zero_counted (m : Mem) (L : list) (len : Nat) (L1 : list) (m1 : Mem)
    (h : L.counted) (hrun : L.prepend_zero m len = .ok (L1, m1)) : L1.counted := by
  unfold list.prepend_zero at hrun
  cases hc : ptr_node.create_len m len with
  | error e => simp [hc] at hrun
  | ok v =>
    obtain ⟨n, m2⟩ := v
    simp only [hc] at hrun
    cases hz : n.toptr.zero m2 false with
    | error e => simp [hz] at hrun
    | ok m3 =>
      simp only [hz, Except.ok.injEq, Prod.mk.injEq] at hrun
      obtain ⟨rfl, _⟩ := hrun
      have hn : n.m_len = len := by
        unfold ptr_node.create_len create at hc
        cases hca : create_aligned m len 8 with
        | error e => simp [hca] at hc
        | ok w =>
          obtain ⟨i, m4⟩ := w
          obtain ⟨hi, _, _, _, r, hr, hd, _⟩ := create_aligned_spec m len 8 i m4 hca
          subst hi
          simp only [hca, ptr_node.create_raw, ptr.of_raw, hr, Mem.new_node, Except.ok.injEq,
            Prod.mk.injEq] at hc
          obtain ⟨rfl, _⟩ := hc
          simp [raw.get_len, hd]
      obtain ⟨a1, a2⟩ := h
      constructor
      · show add64 L._len len = nodes_len (n :: L._buffers) % U64
        simp only [nodes_len, add64, hn, U64_val] at *
        omega
      · show add64 L._num 1 = (n :: L._buffers).length % U64
        simp only [List.length_cons, add64, U64_val] at *
        omega

theorem reserve_counted (m : Mem) (L : list) (n : Nat) (L1 : list) (m1 : Mem)
    (h : L.counted) (hrun : L.reserve m n = .ok (L1, m1)) : L1.counted := by
  rw [counted_iff_with] at *
  unfold list.reserve at hrun
  cases hg : L.get_append_buffer_unused_tail_length m with
  | error e => simp [hg] at hrun
  | ok gap =>
    simp only [hg] at hrun
    split at hrun
    · cases hc : create_page_aligned m n with
      | error e => simp [hc] at hrun
      | ok v =>
        obtain ⟨i, m2⟩ := v
        simp only [hc] at hrun
        exact push_empty_tail_counted m2 L i 0 L1 m1 h hrun
    · simp only [Except.ok.injEq, Prod.mk.injEq] at hrun
      obtain ⟨rfl, _⟩ := hrun
      exact h

theorem claim_append_counted (m : Mem) (L other : list) (L1 o1 : list) (m1 : Mem)
    (h : L.counted) (ho : other.counted)
    (hrun : L.claim_append m other = .ok (L1, o1, m1)) : L1.counted ∧ o1.counted := by
  unfold list.claim_append at hrun
  simp only at hrun
  cases hc : ({ other with _buffers := [] } : list).clear m with
  | error e => simp [hc] at hrun
  | ok v =>
    obtain ⟨o2, m2⟩ := v
    simp only [hc, Except.ok.injEq, Prod.mk.injEq] at hrun
    obtain ⟨rfl, rfl, _⟩ := hrun
    refine ⟨?_, (clear_counted m _ o2 m2 hc).1⟩
    obtain ⟨a1, a2⟩ := h
    obtain ⟨b1, b2⟩ := ho
    constructor
    · show add64 L._len other._len = nodes_len (L._buffers ++ other._buffers) % U64
      simp only [nodes_len_append, add64, U64_val] at *
      omega
    · show add64 L._num other._num = (L._buffers ++ other._buffers).length % U64
      simp only [List.length_append, add64, U64_val] at *
      omega

theorem append_nodes_counted (src : List ptr_node) : ∀ (m : Mem) (L L1 : list) (m1 : Mem),
    L.counted → append_nodes m L src = .ok (L1, m1) → L1.counted := by
  induction src with
  | nil =>
    intro m L L1 m1 h hr
    simp only [append_nodes, Except.ok.injEq, Prod.mk.injEq] at hr
    obtain ⟨rfl, _⟩ := hr
    exact h
  | cons node rest ih =>
    intro m L L1 m1 h hr
    simp only [append_nodes] at hr
    cases ha : L.append_ptr_range m node.toptr 0 node.length with
    | error e => simp [ha] at hr
    | ok v =>
      obtain ⟨L2, m2⟩ := v
      simp only [ha] at hr
      exact ih m2 L2 L1 m1 (append_ptr_range_counted m L _ 0 _ L2 m2 h ha) hr

theorem claim_append_piecewise_counted (m : Mem) (L other : list) (L1 o1 : list) (m1 : Mem)
    (h : L.counted)
    (hrun : L.claim_append_piecewise m other = .ok (L1, o1, m1)) : L1.counted ∧ o1.counted := by
  unfold list.claim_append_piecewise at hrun
  cases ha : append_nodes m L other._buffers with
  | error e => simp [ha] at hrun
  | ok v =>
    obtain ⟨L2, m2⟩ := v
    simp only [ha] at hrun
    cases hc : other.clear m2 with
    | error e => simp [hc] at hrun
    | ok w =>
      obtain ⟨o2, m3⟩ := w
      simp only [hc, Except.ok.injEq, Prod.mk.injEq] at hrun
      obtain ⟨rfl, rfl, _⟩ := hrun
      exact ⟨append_nodes_counted _ m L L2 m2 h ha, (clear_counted m2 other o2 m3 hc).1⟩
theorem substr_loop_counted (cur : List ptr_node) : ∀ (m : Mem) (L : list) (off len : Nat)
    (L1 : list) (m1 : Mem),
    L.counted → substr_loop m L cur off len = .ok (L1, m1) → L1.counted := by
  induction cur with
  | nil => intro m L off len L1 m1 _ h; simp [substr_loop] at h
  | cons curbuf rest ih =>
    intro m L off len L1 m1 hc h
    simp only [substr_loop] at h
    split at h
    · cases hs : ptr_node.create_slice m curbuf.toptr off len with
      | error e => simp [hs] at h
      | ok v =>
        obtain ⟨n, m2⟩ := v
        simp only [hs, Except.ok.injEq, Prod.mk.injEq] at h
        obtain ⟨rfl, _⟩ := h
        have hn := (create_slice_len m _ off len n m2 hs).1
        rw [counted_iff_with] at *
        exact counted_with_snoc L 0 len 0 n _ hc (by omega)
    · cases hs : ptr_node.create_slice m curbuf.toptr off (curbuf.length - off) with
      | error e => simp [hs] at h
      | ok v =>
        obtain ⟨n, m2⟩ := v
        simp only [hs] at h
        have hn := (create_slice_len m _ off _ n m2 hs).1
        refine ih m2 _ 0 _ L1 m1 ?_ h
        rw [counted_iff_with] at *
        exact counted_with_snoc L 0 (curbuf.length - off) 0 n _ hc (by omega)

theorem substr_of_counted (m : Mem) (L other : list) (off len : Nat) (L1 : list) (m1 : Mem)
    (hrun : L.substr_of m other off len = .ok (L1, m1)) : L1.counted := by
  unfold list.substr_of at hrun
  split at hrun
  · simp at hrun
  · cases hc : L.clear m with
    | error e => simp [hc] at hrun
    | ok v =>
      obtain ⟨L2, m2⟩ := v
      simp only [hc] at hrun
      cases hs : substr_skip other._buffers off with
      | error e => simp [hs] at hrun
      | ok w =>
        obtain ⟨cur, off1⟩ := w
        simp only [hs] at hrun
        split at hrun
        · exact substr_loop_counted cur m2 L2 off1 len L1 m1 (clear_counted m L L2 m2 hc).1 hrun
        · simp at hrun

theorem claim_append_range_counted (m : Mem) (claim : Option list) (p : ptr) (off len : Nat)
    (claim1 : Option list) (m1 : Mem) (h : ∀ C, claim = some C → C.counted)
    (hrun : claim_append_range m claim p off len = .ok (claim1, m1)) :
    ∀ C, claim1 = some C → C.counted := by
  unfold claim_append_range at hrun
  cases hc : claim with
  | none =>
    simp only [hc, Except.ok.injEq, Prod.mk.injEq] at hrun
    obtain ⟨rfl, _⟩ := hrun
    intro C hC
    simp at hC
  | some C0 =>
    simp only [hc] at hrun
    cases ha : C0.append_ptr_range m p off len with
    | error e => simp [ha] at hrun
    | ok v =>
      obtain ⟨C1, m2⟩ := v
      simp only [ha, Except.ok.injEq, Prod.mk.injEq] at hrun
      obtain ⟨rfl, _⟩ := hrun
      intro C hC
      injection hC with hC
      subst hC
      exact append_ptr_range_counted m C0 p off len C1 m2 (h C0 hc) ha

theorem sub64_lt (a b : Nat) : sub64 a b < U64 := by
  unfold sub64
  exact Nat.mod_lt _ (by decide)

theorem add64_lt (a b : Nat) : add64 a b < U64 := by
  unfold add64
  exact Nat.mod_lt _ (by decide)

theorem splice_loop_counted (cur : List ptr_node) : ∀ (m : Mem) (claim : Option list)
    (off len ln nm : Nat) (cur1 : List ptr_node) (ln1 nm1 : Nat) (claim1 : Option list) (m1 : Mem),
    splice_loop m claim cur off len ln nm = .ok (cur1, ln1, nm1, claim1, m1) →
    ln < U64 → nm < U64 → (∀ C, claim = some C → C.counted) →
    ln1 < U64 ∧ nm1 < U64 ∧
    (ln1 + nodes_len cur) % U64 = (ln + nodes_len cur1) % U64 ∧
    (nm1 + cur.length) % U64 = (nm + cur1.length) % U64 ∧
    (∀ C, claim1 = some C → C.counted) := by
  induction cur with
  | nil =>
    intro m claim off len ln nm cur1 ln1 nm1 claim1 m1 h hl hn hc
    simp only [splice_loop] at h
    split at h
    · simp only [Except.ok.injEq, Prod.mk.injEq] at h
      obtain ⟨rfl, rfl, rfl, rfl, _⟩ := h
      exact ⟨hl, hn, rfl, rfl, hc⟩
    · simp at h
  | cons curbuf rest ih =>
    intro m claim off len ln nm cur1 ln1 nm1 claim1 m1 h hl hn hc
    simp only [splice_loop] at h
    by_cases h0 : len = 0
    · rw [if_pos h0] at h
      simp only [Except.ok.injEq, Prod.mk.injEq] at h
      obtain ⟨rfl, rfl, rfl, rfl, _⟩ := h
      exact ⟨hl, hn, rfl, rfl, hc⟩
    · rw [if_neg h0] at h
      by_cases hp : (off + len) % U64 < curbuf.length
      · rw [if_pos hp] at h
        cases hca : claim_append_range m claim curbuf.toptr off len with
        | error e => simp [hca] at h
        | ok v =>
          obtain ⟨claim2, m2⟩ := v
          simp only [hca] at h
          cases hso : curbuf.toptr.set_offset m2 (((off + len) % U64 + curbuf.offset) % U64) with
          | error e => simp only [hso] at h; cases h
          | ok p1 =>
            simp only [hso] at h
            cases hsl : p1.set_length m2 (p1.length - (len + off) % U64) with
            | error e => simp [hsl] at h
            | ok p2 =>
              simp only [hsl, Except.ok.injEq, Prod.mk.injEq] at h
              obtain ⟨rfl, rfl, rfl, rfl, _⟩ := h
              have hp2 := (ptr_set_length_len m2 p1 _ p2 hsl).1
              have hp1 : p1.m_len = curbuf.m_len := by
                unfold ptr.set_offset at hso
                cases hr : curbuf.toptr.raw_length m2 with
                | error e => simp [hr] at hso
                | ok rl =>
                  simp only [hr] at hso
                  split at hso
                  · simp only [Except.ok.injEq] at hso
                    subst hso
                    rfl
                  · simp at hso
              refine ⟨sub64_lt _ _, hn, ?_, rfl,
                claim_append_range_counted m claim _ off len claim2 m2 hc hca⟩
              have hcomm : (len + off) % U64 = (off + len) % U64 := by rw [Nat.add_comm]
              simp only [nodes_len, hp2, ptr.length, hp1, hcomm, sub64, U64_val] at *
              omega
      · rw [if_neg hp] at h
        cases hca : claim_append_range m claim curbuf.toptr off (curbuf.length - off) with
        | error e => simp [hca] at h
        | ok v =>
          obtain ⟨claim2, m2⟩ := v
          simp only [hca] at h
          cases hd : curbuf.dispose m2 with
          | error e => simp [hd] at h
          | ok m3 =>
            simp only [hd] at h
            obtain ⟨a1, a2, a3, a4, a5⟩ := ih m3 claim2 0 _ _ _ cur1 ln1 nm1 claim1 m1 h
              (sub64_lt _ _) (sub64_lt _ _)
              (claim_append_range_counted m claim _ off _ claim2 m2 hc hca)
            refine ⟨a1, a2, ?_, ?_, a5⟩
            · simp only [nodes_len, ptr.length, sub64, U64_val] at *
              omega
            · simp only [List.length_cons, sub64, U64_val] at *
              omega

theorem splice_skip_shape (cur : List ptr_node) : ∀ (pre : List ptr_node) (off : Nat)
    (pre1 cur1 : List ptr_node) (off1 : Nat),
    splice_skip pre cur off = .ok (pre1, cur1, off1) → pre1 ++ cur1 = pre ++ cur := by
  induction cur with
  | nil =>
    intro pre off pre1 cur1 off1 h
    simp only [splice_skip] at h
    split at h
    · simp at h
    · simp only [Except.ok.injEq, Prod.mk.injEq] at h
      obtain ⟨rfl, rfl, _⟩ := h
      rfl
  | cons c rest ih =>
    intro pre off pre1 cur1 off1 h
    simp only [splice_skip] at h
    split at h
    · have := ih _ _ pre1 cur1 off1 h
      rw [this]
      simp
    · simp only [Except.ok.injEq, Prod.mk.injEq] at h
      obtain ⟨rfl, rfl, _⟩ := h
      rfl
theorem create_raw_len (m : Mem) (len i : Nat) (m1 : Mem) (nb : ptr_node) (m2 : Mem)
    (ha : allocated m len i m1) (hc : ptr_node.create_raw m1 i = .ok (nb, m2)) :
    nb.m_len = len := by
  obtain ⟨hi, _, _, _, r, hr, hd, _, _⟩ := ha
  subst hi
  unfold ptr_node.create_raw ptr.of_raw at hc
  simp only [hr, Mem.new_node, Except.ok.injEq, Prod.mk.injEq] at hc
  obtain ⟨rfl, _⟩ := hc
  simp [raw.get_len, hd]

theorem rebuild_into_shape (m : Mem) (L : list) (nb : ptr_node) (L1 : list) (m1 : Mem)
    (hrun : L.rebuild_into m nb = .ok (L1, m1)) :
    L1._len = L._len ∧
    ((nb.length ≠ 0 ∧ L1._buffers = [nb] ∧ L1._num = 1) ∨
     (nb.length = 0 ∧ L1._buffers = [] ∧ L1._num = 0)) := by
  unfold list.rebuild_into at hrun
  cases h1 : rebuild_copy m nb.toptr L._buffers 0 with
  | error e => simp [h1] at hrun
  | ok m2 =>
    simp only [h1] at hrun
    cases h2 : clear_and_dispose m2 L._buffers with
    | error e => simp [h2] at hrun
    | ok m3 =>
      simp only [h2] at hrun
      by_cases hz : nb.length ≠ 0
      · rw [if_pos hz] at hrun
        split at hrun
        · simp at hrun
        · simp only [Except.ok.injEq, Prod.mk.injEq] at hrun
          obtain ⟨rfl, _⟩ := hrun
          exact ⟨rfl, Or.inl ⟨hz, rfl, rfl⟩⟩
      · rw [if_neg hz] at hrun
        split at hrun
        · simp at hrun
        · split at hrun
          · simp at hrun
          · simp only [Except.ok.injEq, Prod.mk.injEq] at hrun
            obtain ⟨rfl, _⟩ := hrun
            exact ⟨rfl, Or.inr ⟨Classical.not_not.mp hz, rfl, rfl⟩⟩

theorem rebuild_counted (m : Mem) (L L1 : list) (m1 : Mem) (h : L.counted)
    (hrun : L.rebuild m = .ok (L1, m1)) : L1.counted := by
  unfold list.rebuild at hrun
  by_cases hz : L._len = 0
  · rw [if_pos hz] at hrun
    split at hrun
    · simp at hrun
    · simp only [Except.ok.injEq, Prod.mk.injEq] at hrun
      obtain ⟨rfl, _⟩ := hrun
      exact ⟨by simp [nodes_len, hz], by simp⟩
  · rw [if_neg hz] at hrun
    cases ha : (if L._len % SPEC_PAGE_SIZE = 0 then create_page_aligned m L._len
           else create m L._len) with
    | error e => simp only [ha] at hrun; cases hrun
    | ok v =>
      obtain ⟨i, m2⟩ := v
      simp only [ha] at hrun
      have hall : allocated m L._len i m2 := by
        split at ha
        · exact create_aligned_spec m _ _ i m2 ha
        · exact create_aligned_spec m _ _ i m2 ha
      cases hc : ptr_node.create_raw m2 i with
      | error e => simp [hc] at hrun
      | ok w =>
        obtain ⟨nb, m3⟩ := w
        simp only [hc] at hrun
        have hnb := create_raw_len m _ i m2 nb m3 hall hc
        obtain ⟨e1, e2⟩ := rebuild_into_shape m3 L nb L1 m1 hrun
        have hlt : L._len < U64 := by
          rw [h.1]
          exact Nat.mod_lt _ (by decide)
        rcases e2 with ⟨_, e3, e4⟩ | ⟨e0, e3, e4⟩
        · refine ⟨?_, ?_⟩
          · rw [e1, e3]
            simp only [nodes_len, ptr.length, hnb, Nat.add_zero]
            exact (Nat.mod_eq_of_lt hlt).symm
          · rw [e4, e3]
            rfl
        · exfalso
          apply hz
          rw [← hnb]
          exact e0

theorem swap_counted (L other : list) (h : L.counted) (ho : other.counted) :
    (L.swap other).1.counted ∧ (L.swap other).2.counted := ⟨ho, h⟩

theorem splice_counted (m : Mem) (L : list) (off len : Nat) (claim : Option list)
    (L1 : list) (claim1 : Option list) (m1 : Mem) (h : L.counted)
    (hc : ∀ C, claim = some C → C.counted)
    (hrun : L.splice m off len claim = .ok (L1, claim1, m1)) :
    L1.counted ∧ ∀ C, claim1 = some C → C.counted := by
  unfold list.splice at hrun
  by_cases h0 : len = 0
  · rw [if_pos h0] at hrun
    simp only [Except.ok.injEq, Prod.mk.injEq] at hrun
    obtain ⟨rfl, rfl, _⟩ := hrun
    exact ⟨h, hc⟩
  · rw [if_neg h0] at hrun
    split at hrun
    · simp at hrun
    · cases hs : splice_skip [] L._buffers off with
      | error e => simp [hs] at hrun
      | ok v =>
        obtain ⟨pre, cur, off1⟩ := v
        simp only [hs] at hrun
        have hsh := splice_skip_shape L._buffers [] off pre cur off1 hs
        simp only [List.nil_append] at hsh
        obtain ⟨hl, hn⟩ := h
        rw [← hsh] at hl hn
        have key : ∀ (pre1 : List ptr_node) (len1 num1 : Nat) (m2 : Mem) (cur1 : List ptr_node)
            (len2 num2 : Nat) (claim2 : Option list) (m3 : Mem),
            len1 = (nodes_len pre1 + nodes_len cur) % U64 →
            num1 = (pre1.length + cur.length) % U64 →
            splice_loop m2 claim cur off1 len len1 num1 = .ok (cur1, len2, num2, claim2, m3) →
            list.counted
              { _buffers := pre1 ++ cur1, _tail_pnode_cache := none, _len := len2, _num := num2 } ∧
            ∀ C, claim2 = some C → C.counted := by
          intro pre1 len1 num1 m2 cur1 len2 num2 claim2 m3 e1 e2 hlp
          have hlt1 : len1 < U64 := by rw [e1]; exact Nat.mod_lt _ (by decide)
          have hlt2 : num1 < U64 := by rw [e2]; exact Nat.mod_lt _ (by decide)
          obtain ⟨a1, a2, a3, a4, a5⟩ := splice_loop_counted cur m2 claim off1 len len1 num1
            cur1 len2 num2 claim2 m3 hlp hlt1 hlt2 hc
          refine ⟨⟨?_, ?_⟩, a5⟩
          · show len2 = nodes_len (pre1 ++ cur1) % U64
            rw [nodes_len_append]
            simp only [U64_val] at *
            omega
          · show num2 = (pre1 ++ cur1).length % U64
            rw [List.length_append]
            simp only [U64_val] at *
            omega
        by_cases ho : off1 ≠ 0
        · rw [if_pos ho] at hrun
          cases cur with
          | nil => simp at hrun
          | cons curbuf rest =>
            simp only at hrun
            cases hcs : ptr_node.create_slice m curbuf.toptr 0 off1 with
            | error e => simp [hcs] at hrun
            | ok w =>
              obtain ⟨n, m2⟩ := w
              simp only [hcs] at hrun
              have hnl := (create_slice_len m _ 0 off1 n m2 hcs).1
              cases hlp : splice_loop m2 claim (curbuf :: rest) off1 len (add64 L._len off1)
                  (add64 L._num 1) with
              | error e => simp [hlp] at hrun
              | ok u =>
                obtain ⟨cur1, len2, num2, claim2, m3⟩ := u
                simp only [hlp, Except.ok.injEq, Prod.mk.injEq] at hrun
                obtain ⟨rfl, rfl, _⟩ := hrun
                refine key (pre ++ [n]) _ _ m2 cur1 len2 num2 claim2 m3 ?_ ?_ hlp
                · rw [hl, nodes_len_append, nodes_len_append]
                  simp only [nodes_len, ptr.length, hnl, add64, U64_val] at *
                  omega
                · rw [hn]
                  simp only [List.length_append, List.length_cons, List.length_nil, add64,
                    U64_val] at *
                  omega
        · rw [if_neg ho] at hrun
          simp only at hrun
          cases hlp : splice_loop m claim cur off1 len L._len L._num with
          | error e => simp [hlp] at hrun
          | ok u =>
            obtain ⟨cur1, len2, num2, claim2, m3⟩ := u
            simp only [hlp, Except.ok.injEq, Prod.mk.injEq] at hrun
            obtain ⟨rfl, rfl, _⟩ := hrun
            refine key pre _ _ m cur1 len2 num2 claim2 m3 ?_ ?_ hlp
            · rw [hl, nodes_len_append]
            · rw [hn, List.length_append]
theorem consolidate_len (m : Mem) (ul : list) (am : Nat) (n : ptr_node) (rebuilt : Bool)
    (m1 : Mem) (hc : ul.counted) (hb : ul._buffers.length < U64)
    (hrun : consolidate m ul am = .ok (n, rebuilt, m1)) :
    n.m_len % U64 = nodes_len ul._buffers % U64 := by
  have finish : ∀ (ul1 : list) (b : Bool) (m2 : Mem) (x : Nat),
      (∀ front rest, ul1._buffers = front :: rest → front.m_len % U64 = x) →
      (match ul1._buffers with
        | [] => Except.error Err.undefined
        | front :: _ =>
          match ptr_node.create_copy m2 front.toptr with
          | .error e => .error e
          | .ok (n, m3) =>
            match clear_and_dispose m3 ul1._buffers with
            | .error e => .error e
            | .ok m4 => Except.ok (n, b, m4)) = Except.ok (n, rebuilt, m1) →
      n.m_len % U64 = x := by
    intro ul1 b m2 x hx hr
    cases hbs : ul1._buffers with
    | nil => simp [hbs] at hr
    | cons front rest =>
      simp only [hbs] at hr
      cases hcc : ptr_node.create_copy m2 front.toptr with
      | error e => simp [hcc] at hr
      | ok v =>
        obtain ⟨n1, m3⟩ := v
        simp only [hcc] at hr
        split at hr
        · simp at hr
        · simp only [Except.ok.injEq, Prod.mk.injEq] at hr
          obtain ⟨rfl, _⟩ := hr
          rw [(create_copy_len m2 front.toptr n1 m3 hcc).1]
          exact hx front rest hbs
  have rebuild_it : (match create_aligned m ul._len am with
      | .error e => .error e
      | .ok (i, m1) =>
        match ptr_node.create_raw m1 i with
        | .error e => .error e
        | .ok (nb, m2) =>
          match ul.rebuild_into m2 nb with
          | .error e => .error e
          | .ok (ul1, m3) =>
            match ul1._buffers with
            | [] => Except.error Err.undefined
            | front :: _ =>
              match ptr_node.create_copy m3 front.toptr with
              | .error e => .error e
              | .ok (n, m4) =>
                match clear_and_dispose m4 ul1._buffers with
                | .error e => .error e
                | .ok m5 => Except.ok (n, true, m5)) = Except.ok (n, rebuilt, m1) →
      n.m_len % U64 = nodes_len ul._buffers % U64 := by
    intro hr
    cases ha : create_aligned m ul._len am with
    | error e => simp [ha] at hr
    | ok v =>
      obtain ⟨i, m2⟩ := v
      simp only [ha] at hr
      cases hcr : ptr_node.create_raw m2 i with
      | error e => simp [hcr] at hr
      | ok w =>
        obtain ⟨nb, m3⟩ := w
        simp only [hcr] at hr
        cases hri : ul.rebuild_into m3 nb with
        | error e => simp [hri] at hr
        | ok u =>
          obtain ⟨ul1, m4⟩ := u
          simp only [hri] at hr
          have hnb := create_raw_len m _ i m2 nb m3 (create_aligned_spec m _ _ i m2 ha) hcr
          obtain ⟨_, e2⟩ := rebuild_into_shape m3 ul nb ul1 m4 hri
          refine finish ul1 true m4 _ ?_ hr
          intro front rest hfr
          rcases e2 with ⟨_, e3, _⟩ | ⟨_, e3, _⟩
          · rw [e3] at hfr
            injection hfr with hfr _
            rw [← hfr, hnb, hc.1, Nat.mod_mod]
          · rw [e3] at hfr
            cases hfr
  unfold consolidate at hrun
  simp only at hrun
  by_cases hcont : ul.is_contiguous = true
  · rw [if_pos hcont] at hrun
    cases hbs : ul._buffers with
    | nil => simp [hbs] at hrun
    | cons front rest =>
      simp only [hbs] at hrun
      cases hal : front.toptr.is_aligned m am with
      | error e => simp [hal] at hrun
      | ok b =>
        cases b with
        | true =>
          simp only [hal] at hrun
          have hone : rest = [] := by
            have hnum := hc.2
            simp only [list.is_contiguous, decide_eq_true_eq] at hcont
            rw [hbs] at hb hnum
            rw [Nat.mod_eq_of_lt hb] at hnum
            rw [hnum] at hcont
            simp only [List.length_cons] at hcont
            exact List.length_eq_zero.mp (by omega)
          have := finish ul false m (front.m_len % U64) (by
            intro f r hfr
            rw [hbs] at hfr
            injection hfr with hfr _
            rw [hfr]) (by rw [hbs]; exact hrun)
          rw [this, hone]
          simp [nodes_len, ptr.length]
        | false =>
          simp only [hal] at hrun
          rw [← hbs]
          exact rebuild_it hrun
  · rw [if_neg hcont] at hrun
    exact rebuild_it hrun
theorem rebuild_aligned_loop_counted (as am : Nat) (rem : List ptr_node) :
    ∀ (m : Mem) (kept : List ptr_node) (run : Option list) (num : Nat) (must : Bool)
      (bs : List ptr_node) (num1 : Nat) (must1 : Bool) (m1 : Mem),
    rebuild_aligned_loop as am m kept run num must rem = .ok (bs, num1, must1, m1) →
    num = (kept.length + rem.length) % U64 →
    (∀ ul, run = some ul → ul.counted) →
    (run.elim [] (fun ul => ul._buffers)).length + rem.length < U64 →
    num1 = bs.length % U64 ∧
    nodes_len bs % U64 =
      (nodes_len kept + nodes_len (run.elim [] (fun ul => ul._buffers)) + nodes_len rem) % U64 := by
  induction rem with
  | nil =>
    intro m kept run num must bs num1 must1 m1 h hn hc hb
    cases run with
    | none =>
      simp only [rebuild_aligned_loop, Except.ok.injEq, Prod.mk.injEq] at h
      obtain ⟨rfl, rfl, _⟩ := h
      simp only [List.length_nil, Nat.add_zero] at hn
      exact ⟨hn, by simp [nodes_len]⟩
    | some ul =>
      simp only [rebuild_aligned_loop] at h
      cases hco : consolidate m ul am with
      | error e => simp [hco] at h
      | ok v =>
        obtain ⟨n, rebuilt, m2⟩ := v
        simp only [hco, Except.ok.injEq, Prod.mk.injEq] at h
        obtain ⟨rfl, rfl, _⟩ := h
        simp only [Option.elim, List.length_nil, Nat.add_zero] at hb hn ⊢
        have hl := consolidate_len m ul am n rebuilt m2 (hc ul rfl) hb hco
        refine ⟨?_, ?_⟩
        · simp only [List.length_append, List.length_cons, List.length_nil, add64, U64_val] at *
          omega
        · rw [nodes_len_append]
          simp only [nodes_len, ptr.length, U64_val] at *
          omega
  | cons it rest ih =>
    intro m kept run num must bs num1 must1 m1 h hn hc hb
    have hgather : ∀ ul : list, ul.counted →
        list.counted { ul with _buffers := ul._buffers ++ [it], _len := add64 ul._len it.length,
                               _num := add64 ul._num 1 } := by
      intro ul hu
      rw [counted_iff_with] at *
      exact counted_with_snoc ul 0 it.length 0 it _ hu (by simp [ptr.length])
    have hempty : list.mk_empty.counted := by decide
    cases run with
    | none =>
      simp only [rebuild_aligned_loop] at h
      simp only [Option.elim, List.length_nil, List.length_cons, Nat.zero_add] at hb hn
      cases hk : node_keep m it as am with
      | error e => simp [hk] at h
      | ok b =>
        cases b with
        | true =>
          simp only [hk] at h
          obtain ⟨a1, a2⟩ := ih m (kept ++ [it]) none num must bs num1 must1 m1 h
            (by simp only [Option.elim, list.mk_empty, List.nil_append, nodes_len_append, nodes_len,
                    ptr.length, List.length_append, List.length_cons, List.length_nil, add64,
                    sub64, U64_val] at *; omega)
            (by intro ul hu; cases hu)
            (by simp only [Option.elim, list.mk_empty, List.nil_append, nodes_len_append, nodes_len,
                    ptr.length, List.length_append, List.length_cons, List.length_nil, add64,
                    sub64, U64_val] at *; omega)
          refine ⟨a1, ?_⟩
          rw [a2]
          simp only [Option.elim, list.mk_empty, List.nil_append, nodes_len_append, nodes_len,
                    ptr.length, List.length_append, List.length_cons, List.length_nil, add64,
                    sub64, U64_val] at *
          omega
        | false =>
          simp only [hk] at h
          obtain ⟨a1, a2⟩ := ih m kept _ _ must bs num1 must1 m1 h
            (by simp only [Option.elim, list.mk_empty, List.nil_append, nodes_len_append, nodes_len,
                    ptr.length, List.length_append, List.length_cons, List.length_nil, add64,
                    sub64, U64_val] at *; omega)
            (by intro ul hu; injection hu with hu; subst hu; exact hgather _ hempty)
            (by simp only [Option.elim, list.mk_empty, List.nil_append, nodes_len_append, nodes_len,
                    ptr.length, List.length_append, List.length_cons, List.length_nil, add64,
                    sub64, U64_val] at *; omega)
          refine ⟨a1, ?_⟩
          rw [a2]
          simp only [Option.elim, list.mk_empty, List.nil_append, nodes_len_append, nodes_len,
                    ptr.length, List.length_append, List.length_cons, List.length_nil, add64,
                    sub64, U64_val] at *
          omega
    | some ul =>
      simp only [rebuild_aligned_loop] at h
      simp only [Option.elim, List.length_cons] at hb hn
      have hul := hc ul rfl
      cases hg : node_gather m it as am ul._len with
      | error e => simp [hg] at h
      | ok b =>
        cases b with
        | true =>
          simp only [hg] at h
          obtain ⟨a1, a2⟩ := ih m kept _ _ must bs num1 must1 m1 h
            (by simp only [Option.elim, list.mk_empty, List.nil_append, nodes_len_append, nodes_len,
                    ptr.length, List.length_append, List.length_cons, List.length_nil, add64,
                    sub64, U64_val] at *; omega)
            (by intro u hu; injection hu with hu; subst hu; exact hgather _ hul)
            (by simp only [Option.elim, list.mk_empty, List.nil_append, nodes_len_append, nodes_len,
                    ptr.length, List.length_append, List.length_cons, List.length_nil, add64,
                    sub64, U64_val] at *; omega)
          refine ⟨a1, ?_⟩
          rw [a2]
          simp only [Option.elim, list.mk_empty, List.nil_append, nodes_len_append, nodes_len,
                    ptr.length, List.length_append, List.length_cons, List.length_nil, add64,
                    sub64, U64_val] at *
          omega
        | false =>
          simp only [hg] at h
          cases hco : consolidate m ul am with
          | error e => simp [hco] at h
          | ok v =>
            obtain ⟨n, rebuilt, m2⟩ := v
            simp only [hco] at h
            have hl := consolidate_len m ul am n rebuilt m2 hul (by omega) hco
            cases hk : node_keep m2 it as am with
            | error e => simp [hk] at h
            | ok b =>
              cases b with
              | true =>
                simp only [hk] at h
                obtain ⟨a1, a2⟩ := ih m2 (kept ++ [n, it]) none _ _ bs num1 must1 m1 h
                  (by simp only [Option.elim, list.mk_empty, List.nil_append, nodes_len_append, nodes_len,
                    ptr.length, List.length_append, List.length_cons, List.length_nil, add64,
                    sub64, U64_val] at *; omega)
                  (by intro u hu; cases hu)
                  (by simp only [Option.elim, list.mk_empty, List.nil_append, nodes_len_append, nodes_len,
                    ptr.length, List.length_append, List.length_cons, List.length_nil, add64,
                    sub64, U64_val] at *; omega)
                refine ⟨a1, ?_⟩
                rw [a2]
                simp only [Option.elim, list.mk_empty, List.nil_append, nodes_len_append, nodes_len,
                    ptr.length, List.length_append, List.length_cons, List.length_nil, add64,
                    sub64, U64_val] at *
                omega
              | false =>
                simp only [hk] at h
                obtain ⟨a1, a2⟩ := ih m2 (kept ++ [n]) _ _ _ bs num1 must1 m1 h
                  (by simp only [Option.elim, list.mk_empty, List.nil_append, nodes_len_append, nodes_len,
                    ptr.length, List.length_append, List.length_cons, List.length_nil, add64,
                    sub64, U64_val] at *; omega)
                  (by intro u hu; injection hu with hu; subst hu; exact hgather _ hempty)
                  (by simp only [Option.elim, list.mk_empty, List.nil_append, nodes_len_append, nodes_len,
                    ptr.length, List.length_append, List.length_cons, List.length_nil, add64,
                    sub64, U64_val] at *; omega)
                refine ⟨a1, ?_⟩
                rw [a2]
                simp only [Option.elim, list.mk_empty, List.nil_append, nodes_len_append, nodes_len,
                    ptr.length, List.length_append, List.length_cons, List.length_nil, add64,
                    sub64, U64_val] at *
                omega

theorem rebuild_aligned_size_and_memory_counted (m : Mem) (L : list) (as am mb : Nat)
    (L1 : list) (b : Bool) (m1 : Mem) (h : L.counted) (hb : L._buffers.length < U64)
    (hrun : L.rebuild_aligned_size_and_memory m as am mb = .ok (L1, b, m1)) : L1.counted := by
  unfold list.rebuild_aligned_size_and_memory at hrun
  simp only at hrun
  split at hrun
  · simp at hrun
  · rename_i bs num must m2 hlp
    simp only [Except.ok.injEq, Prod.mk.injEq] at hrun
    obtain ⟨rfl, _⟩ := hrun
    obtain ⟨a1, a2⟩ := rebuild_aligned_loop_counted _ am L._buffers m [] none L._num false
      bs num must m2 hlp (by rw [h.2]; simp) (by intro u hu; cases hu)
      (by simpa [Option.elim] using hb)
    refine ⟨?_, a1⟩
    show L._len = nodes_len bs % U64
    rw [a2, h.1]
    simp [Option.elim, nodes_len]
/-- C5: every mutator of a list keeps the counters in step with the chain.
If `_len` is the sum of the node lengths and `_num` the number of linked
nodes before the call (as `uint64_t` values, on `this` and on every list the
operation takes), and the chain has fewer than `2 ^ 64` nodes, then the same
holds after the call for `this` and for every other list the operation
changes. -/
theorem mutators_keep_counters (m : Mem) (this : list) (op : list_op) (Ls : List list) (m1 : Mem)
    (h : this.counted) (hargs : ∀ A ∈ op.args, A.counted) (hb : this._buffers.length < U64)
    (hrun : op.run m this = .ok (Ls, m1)) : ∀ L ∈ Ls, L.counted := by
  have one : ∀ (r : Except Err (list × Mem)),
      (∀ L1 m2, r = .ok (L1, m2) → L1.counted) →
      (match r with
        | .error e => Except.error e
        | .ok (L, m1) => Except.ok ([L], m1)) = Except.ok (Ls, m1) → ∀ L ∈ Ls, L.counted := by
    intro r hr hm
    cases r with
    | error e => simp at hm
    | ok v =>
      obtain ⟨L1, m2⟩ := v
      simp only [Except.ok.injEq, Prod.mk.injEq] at hm
      obtain ⟨rfl, _⟩ := hm
      intro L hL
      simp only [List.mem_singleton] at hL
      rw [hL]
      exact hr L1 m2 rfl
  have two : ∀ (L1 o1 : list), L1.counted → o1.counted → ∀ L ∈ [L1, o1], L.counted := by
    intro L1 o1 a b L hL
    simp only [List.mem_cons, List.mem_singleton, List.not_mem_nil, or_false] at hL
    rcases hL with rfl | rfl
    · exact a
    · exact b
  cases op with
  | push_back bptr =>
    exact one _ (fun L1 m2 e => push_back_counted m this bptr L1 m2 h e) hrun
  | push_back_move bptr =>
    simp only [list_op.run, Except.ok.injEq, Prod.mk.injEq] at hrun
    obtain ⟨rfl, _⟩ := hrun
    intro L hL
    simp only [List.mem_singleton] at hL
    subst hL
    exact push_back_move_counted m this bptr h
  | push_back_node n =>
    exact one _ (fun L1 m2 e => push_back_node_counted m this n L1 m2 h e) hrun
  | push_back_raw i =>
    exact one _ (fun L1 m2 e => push_back_raw_counted m this i L1 m2 h e) hrun
  | append_char c =>
    exact one _ (fun L1 m2 e => append_char_counted m this c L1 m2 h e) hrun
  | append data len =>
    exact one _ (fun L1 m2 e => list_append_counted m this data len L1 m2 h e) hrun
  | append_ptr bptr =>
    exact one _ (fun L1 m2 e => push_back_counted m this bptr L1 m2 h e) hrun
  | append_ptr_range bptr off len =>
    exact one _ (fun L1 m2 e => append_ptr_range_counted m this bptr off len L1 m2 h e) hrun
  | append_list blist =>
    have hbl : blist.counted := hargs blist (by simp [list_op.args])
    exact one _ (fun L1 m2 e => append_list_counted m this blist L1 m2 h hbl e) hrun
  | append_zero len =>
    exact one _ (fun L1 m2 e => list_append_zero_counted m this len L1 m2 h e) hrun
  | append_hole len =>
    exact one _ (fun L1 m2 e => list_append_hole_counted m this len L1 m2 h e) hrun
  | prepend_zero len =>
    exact one _ (fun L1 m2 e => prepend_zero_counted m this len L1 m2 h e) hrun
  | reserve n =>
    exact one _ (fun L1 m2 e => reserve_counted m this n L1 m2 h e) hrun
  | claim_append other =>
    have ho : other.counted := hargs other (by simp [list_op.args])
    simp only [list_op.run] at hrun
    cases hc : this.claim_append m other with
    | error e => simp [hc] at hrun
    | ok v =>
      obtain ⟨L1, o1, m2⟩ := v
      simp only [hc, Except.ok.injEq, Prod.mk.injEq] at hrun
      obtain ⟨rfl, _⟩ := hrun
      obtain ⟨a, b⟩ := claim_append_counted m this other L1 o1 m2 h ho hc
      exact two L1 o1 a b
  | claim_append_piecewise other =>
    simp only [list_op.run] at hrun
    cases hc : this.claim_append_piecewise m other with
    | error e => simp [hc] at hrun
    | ok v =>
      obtain ⟨L1, o1, m2⟩ := v
      simp only [hc, Except.ok.injEq, Prod.mk.injEq] at hrun
      obtain ⟨rfl, _⟩ := hrun
      obtain ⟨a, b⟩ := claim_append_piecewise_counted m this other L1 o1 m2 h hc
      exact two L1 o1 a b
  | splice off len claim_by =>
    have hcl : ∀ C, claim_by = some C → C.counted := by
      intro C hC
      subst hC
      exact hargs C (by simp [list_op.args])
    simp only [list_op.run] at hrun
    cases hc : this.splice m off len claim_by with
    | error e => simp [hc] at hrun
    | ok v =>
      obtain ⟨L1, c1, m2⟩ := v
      obtain ⟨a, b⟩ := splice_counted m this off len claim_by L1 c1 m2 h hcl hc
      cases c1 with
      | none =>
        simp only [hc, Except.ok.injEq, Prod.mk.injEq] at hrun
        obtain ⟨rfl, _⟩ := hrun
        intro L hL
        simp only [List.mem_singleton] at hL
        subst hL
        exact a
      | some C1 =>
        simp only [hc, Except.ok.injEq, Prod.mk.injEq] at hrun
        obtain ⟨rfl, _⟩ := hrun
        exact two L1 C1 a (b C1 rfl)
  | substr_of other off len =>
    have ho : other.counted := hargs other (by simp [list_op.args])
    simp only [list_op.run] at hrun
    cases hc : this.substr_of m other off len with
    | error e => simp [hc] at hrun
    | ok v =>
      obtain ⟨L1, m2⟩ := v
      simp only [hc, Except.ok.injEq, Prod.mk.injEq] at hrun
      obtain ⟨rfl, _⟩ := hrun
      exact two L1 other (substr_of_counted m this other off len L1 m2 hc) ho
  | share blist =>
    have ho : blist.counted := hargs blist (by simp [list_op.args])
    simp only [list_op.run] at hrun
    cases hc : this.share m blist with
    | error e => simp [hc] at hrun
    | ok v =>
      obtain ⟨L1, m2⟩ := v
      simp only [hc, Except.ok.injEq, Prod.mk.injEq] at hrun
      obtain ⟨rfl, _⟩ := hrun
      exact two L1 blist (share_counted m this blist L1 m2 ho hc) ho
  | swap other =>
    have ho : other.counted := hargs other (by simp [list_op.args])
    simp only [list_op.run, list.swap, Except.ok.injEq, Prod.mk.injEq] at hrun
    obtain ⟨rfl, _⟩ := hrun
    exact two other this ho h
  | clear =>
    exact one _ (fun L1 m2 e => (clear_counted m this L1 m2 e).1) hrun
  | rebuild =>
    exact one _ (fun L1 m2 e => rebuild_counted m this L1 m2 h e) hrun
  | rebuild_aligned_size_and_memory as am mb =>
    simp only [list_op.run] at hrun
    cases hc : this.rebuild_aligned_size_and_memory m as am mb with
    | error e => simp [hc] at hrun
    | ok v =>
      obtain ⟨L1, b, m2⟩ := v
      simp only [hc, Except.ok.injEq, Prod.mk.injEq] at hrun
      obtain ⟨rfl, _⟩ := hrun
      intro L hL
      simp only [List.mem_singleton] at hL
      subst hL
      exact rebuild_aligned_size_and_memory_counted m this as am mb L b m2 h hb hc

/-- C5 witness: `splice(4, 4, &C)` on the list `ABC`, `DEF`, `GHI`, `JKL`
with `C` holding `X`; both lists are counted before and after. -/
theorem mutators_keep_counters_witness :
    abc_jkl_and_x.1.counted ∧ abc_jkl_and_x.2.1.counted ∧
    abc_jkl_and_x.1._buffers.length < U64 ∧
    (list_op.splice 4 4 (some abc_jkl_and_x.2.1)).run abc_jkl_and_x.2.2 abc_jkl_and_x.1
      = .ok splice_4_4_out ∧
    splice_4_4_out.1.map (fun L => (L._len, L._num)) = [(8, 4), (5, 3)] ∧
    ∀ L ∈ splice_4_4_out.1, L.counted :=
  ⟨⟨rfl, rfl⟩, ⟨rfl, rfl⟩, by decide, rfl, rfl,
   mutators_keep_counters abc_jkl_and_x.2.2 abc_jkl_and_x.1
     (list_op.splice 4 4 (some abc_jkl_and_x.2.1)) splice_4_4_out.1 splice_4_4_out.2
     ⟨rfl, rfl⟩
     (fun A hA => by
        simp only [list_op.args, List.mem_singleton] at hA
        subst hA
        exact ⟨rfl, rfl⟩)
     (by decide) rfl⟩
theorem chain_ok_covered (m : Mem) (ns : List ptr_node) (h : chain_ok m ns = true) :
    covered m ns := by
  unfold chain_ok at h
  rw [List.all_eq_true] at h
  have key : ∀ n ∈ ns, ∃ i r, n.m_raw = some i ∧ m.raws i = some r ∧
      n.m_off + n.m_len ≤ r.m_data.length ∧ r.m_data.length < U64 ∧ refs ns i ≤ r.nref := by
    intro n hn
    have hk := h n hn
    unfold node_ok at hk
    cases hr : n.m_raw with
    | none => simp [hr] at hk
    | some i =>
      simp only [hr] at hk
      cases hm : m.raws i with
      | none => simp [hm] at hk
      | some r =>
        simp only [hm, Bool.and_eq_true, decide_eq_true_eq] at hk
        exact ⟨i, r, rfl, hm, hk.1.1, hk.1.2, hk.2⟩
  refine ⟨?_, ?_⟩
  · intro n hn
    obtain ⟨i, r, a, b, c, d, _⟩ := key n hn
    exact ⟨i, r, a, b, c, d⟩
  · intro i r hr
    by_cases hz : refs ns i = 0
    · omega
    · have hpos : 0 < refs ns i := Nat.pos_of_ne_zero hz
      unfold refs at hpos
      rw [List.countP_pos_iff] at hpos
      obtain ⟨n, hn, hni⟩ := hpos
      simp only [decide_eq_true_eq] at hni
      obtain ⟨j, r1, a, b, _, _, e⟩ := key n hn
      rw [hni] at a
      injection a with a
      subst a
      rw [hr] at b
      injection b with b
      subst b
      exact e

theorem ptr_bytes_length (m : Mem) (p : ptr) (h : node_in m p) : (p.bytes m).length = p.m_len := by
  obtain ⟨i, r, a, b, c, _⟩ := h
  unfold ptr.bytes
  simp only [a, b, List.length_take, List.length_drop]
  omega

theorem nodes_bytes_length (m : Mem) (ns : List ptr_node) (h : ∀ n ∈ ns, node_in m n.toptr) :
    (nodes_bytes m ns).length = nodes_len ns := by
  induction ns with
  | nil => rfl
  | cons n rest ih =>
    simp only [nodes_bytes, nodes_len, List.length_append]
    rw [ptr_bytes_length m _ (h n (List.mem_cons_self _ _)),
      ih (fun x hx => h x (List.mem_cons_of_mem _ hx))]

theorem ptr_bytes_data_from (m m1 : Mem) (p : ptr) (hd : data_from m m1) (h : node_in m1 p) :
    p.bytes m1 = p.bytes m := by
  obtain ⟨i, r1, a, b, _, _⟩ := h
  obtain ⟨r, c, d⟩ := hd i r1 b
  unfold ptr.bytes
  simp only [a, b, c, d]

theorem nodes_bytes_data_from (m m1 : Mem) (ns : List ptr_node) (hd : data_from m m1)
    (h : ∀ n ∈ ns, node_in m1 n.toptr) : nodes_bytes m1 ns = nodes_bytes m ns := by
  induction ns with
  | nil => rfl
  | cons n rest ih =>
    simp only [nodes_bytes]
    rw [ptr_bytes_data_from m m1 _ hd (h n (List.mem_cons_self _ _)),
      ih (fun x hx => h x (List.mem_cons_of_mem _ hx))]

theorem nodes_bytes_append (m : Mem) (a b : List ptr_node) :
    nodes_bytes m (a ++ b) = nodes_bytes m a ++ nodes_bytes m b := by
  induction a with
  | nil => rfl
  | cons n rest ih =>
    show n.toptr.bytes m ++ nodes_bytes m (rest ++ b) = _
    rw [ih]
    simp only [nodes_bytes, List.append_assoc]

theorem data_from_refl (m : Mem) : data_from m m := fun _ r h => ⟨r, h, rfl⟩

theorem data_from_trans (m m1 m2 : Mem) (h1 : data_from m m1) (h2 : data_from m1 m2) :
    data_from m m2 := by
  intro i r2 hr
  obtain ⟨r1, a, b⟩ := h2 i r2 hr
  obtain ⟨r, c, d⟩ := h1 i r1 a
  exact ⟨r, c, b.trans d⟩

theorem refs_append (a b : List ptr_node) (i : Nat) : refs (a ++ b) i = refs a i + refs b i := by
  unfold refs
  exact List.countP_append _ _ _

theorem refs_cons (n : ptr_node) (a : List ptr_node) (i : Nat) :
    refs (n :: a) i = refs a i + (if n.m_raw = some i then 1 else 0) := by
  unfold refs
  rw [List.countP_cons]
  simp

theorem refs_nil (i : Nat) : refs [] i = 0 := rfl
theorem node_in_keep (m m1 : Mem) (q : ptr)
    (h : ∀ i r, q.m_raw = some i → m.raws i = some r →
      ∃ r1, m1.raws i = some r1 ∧ r1.m_data = r.m_data)
    (hq : node_in m q) : node_in m1 q := by
  obtain ⟨i, r, a, b, c, d⟩ := hq
  obtain ⟨r1, e, f⟩ := h i r a b
  exact ⟨i, r1, a, e, by rw [f]; exact c, by rw [f]; exact d⟩

theorem refs_pos_of_mem (ns : List ptr_node) (n : ptr_node) (i : Nat) (hn : n ∈ ns)
    (hi : n.m_raw = some i) : 0 < refs ns i := by
  unfold refs
  rw [List.countP_pos_iff]
  exact ⟨n, hn, by simpa using hi⟩

theorem slice_bytes (m : Mem) (p q : ptr) (off len : Nat) (hle : off + len ≤ p.m_len)
    (hq : q = { m_raw := p.m_raw, m_off := p.m_off + off, m_len := len }) :
    q.bytes m = ((p.bytes m).drop off).take len := by
  subst hq
  unfold ptr.bytes
  cases hr : p.m_raw with
  | none => simp
  | some i =>
    simp only
    cases hm : m.raws i with
    | none => simp
    | some r =>
      simp only [List.drop_take, List.drop_drop, List.take_take]
      rw [Nat.min_eq_left (by omega)]

theorem create_slice_covered (m : Mem) (A B : List ptr_node) (p : ptr) (off len : Nat)
    (hc : covered m (A ++ B)) (hp : node_in m p) (hle : off + len ≤ p.m_len) :
    ∃ n m1, ptr_node.create_slice m p off len = .ok (n, m1) ∧
      n.toptr = { m_raw := p.m_raw, m_off := p.m_off + off, m_len := len } ∧
      data_from m m1 ∧ covered m1 (A ++ n :: B) := by
  obtain ⟨i, r, a, b, c, d⟩ := hp
  have h1 : (off + len) % U64 = off + len := Nat.mod_eq_of_lt (by omega)
  have h2 : (p.m_off + off) % U64 = p.m_off + off := Nat.mod_eq_of_lt (by omega)
  refine ⟨{ toptr := { m_raw := some i, m_off := p.m_off + off, m_len := len },
            node_addr := m.next_node },
          { (m.set_raw i (some { r with nref := r.nref + 1 })) with
            next_node := m.next_node + 1 }, ?_, ?_, ?_, ?_⟩
  · unfold ptr_node.create_slice ptr.slice Mem.nref_inc
    simp only [h1, hle, if_true, a, b, h2, Mem.new_node]
    rfl
  · simp only [a]
  · intro j r1 hj
    simp only [Mem.set_raw] at hj
    by_cases hji : j = i
    · subst hji
      simp only [if_true, Option.some.injEq] at hj
      subst hj
      exact ⟨r, b, rfl⟩
    · simp only [hji, if_false] at hj
      exact ⟨r1, hj, rfl⟩
  · have keep : ∀ q, node_in m q → node_in
        { (m.set_raw i (some { r with nref := r.nref + 1 })) with
          next_node := m.next_node + 1 } q := by
      intro q hq
      refine node_in_keep m _ q ?_ hq
      intro j rj _ hj
      simp only [Mem.set_raw]
      by_cases hji : j = i
      · subst hji
        rw [b] at hj
        injection hj with hj
        subst hj
        exact ⟨{ r with nref := r.nref + 1 }, by simp, rfl⟩
      · exact ⟨rj, by simp [hji, hj], rfl⟩
    refine ⟨?_, ?_⟩
    · intro n hn
      simp only [List.mem_append, List.mem_cons] at hn
      rcases hn with hn | rfl | hn
      · exact keep _ (hc.1 n (List.mem_append_left _ hn))
      · exact keep _ ⟨i, r, rfl, b, by simp only; omega, d⟩
      · exact keep _ (hc.1 n (List.mem_append_right _ hn))
    · intro j rj hj
      have hcj := hc.2 j
      simp only [refs_append, refs_cons] at hcj ⊢
      simp only [Mem.set_raw] at hj
      by_cases hji : j = i
      · subst hji
        simp only [if_true, Option.some.injEq] at hj
        subst hj
        have := hcj r b
        simp only [if_true]
        omega
      · simp only [hji, if_false] at hj
        have := hcj rj hj
        have hne : ¬ (some i = some j) := by
          intro h
          injection h with h
          exact hji h.symm
        simp only [hne, if_false]
        omega

theorem dispose_covered (m : Mem) (A B : List ptr_node) (c : ptr_node)
    (hc : covered m (A ++ c :: B)) :
    ∃ m1, c.dispose m = .ok m1 ∧ data_from m m1 ∧ covered m1 (A ++ B) := by
  obtain ⟨i, r, a, b, _, _⟩ := hc.1 c (by simp)
  have hci := hc.2 i r b
  simp only [refs_append, refs_cons, a, if_true] at hci
  have hmem : ∀ n ∈ A ++ B, n ∈ A ++ c :: B := by
    intro n hn
    simp only [List.mem_append, List.mem_cons] at hn ⊢
    tauto
  have hrefs : ∀ j, refs (A ++ B) j ≤ refs (A ++ c :: B) j := by
    intro j
    simp only [refs_append, refs_cons]
    omega
  by_cases h1 : r.nref = 1
  · refine ⟨m.set_raw i none, ?_, ?_, ?_, ?_⟩
    · unfold ptr_node.dispose ptr.release
      simp only [a, b, h1, if_true]
    · intro j r1 hj
      simp only [Mem.set_raw] at hj
      by_cases hji : j = i
      · simp [hji] at hj
      · simp only [hji, if_false] at hj
        exact ⟨r1, hj, rfl⟩
    · intro n hn
      refine node_in_keep m _ n.toptr ?_ (hc.1 n (hmem n hn))
      intro j rj hnj hj
      have hji : j ≠ i := by
        intro h
        subst h
        have := refs_pos_of_mem (A ++ B) n j hn hnj
        simp only [refs_append] at this
        omega
      exact ⟨rj, by simp [Mem.set_raw, hji, hj], rfl⟩
    · intro j rj hj
      simp only [Mem.set_raw] at hj
      by_cases hji : j = i
      · simp [hji] at hj
      · simp only [hji, if_false] at hj
        exact Nat.le_trans (hrefs j) (hc.2 j rj hj)
  · refine ⟨m.set_raw i (some { r with nref := if r.nref = 0 then U64 - 1 else r.nref - 1 }),
      ?_, ?_, ?_, ?_⟩
    · unfold ptr_node.dispose ptr.release
      simp only [a, b, h1, if_false]
    · intro j r1 hj
      simp only [Mem.set_raw] at hj
      by_cases hji : j = i
      · subst hji
        simp only [if_true, Option.some.injEq] at hj
        subst hj
        exact ⟨r, b, rfl⟩
      · simp only [hji, if_false] at hj
        exact ⟨r1, hj, rfl⟩
    · intro n hn
      refine node_in_keep m _ n.toptr ?_ (hc.1 n (hmem n hn))
      intro j rj _ hj
      simp only [Mem.set_raw]
      by_cases hji : j = i
      · subst hji
        rw [b] at hj
        injection hj with hj
        subst hj
        exact ⟨{ r with nref := if r.nref = 0 then U64 - 1 else r.nref - 1 }, by simp, rfl⟩
      · exact ⟨rj, by simp [hji, hj], rfl⟩
    · intro j rj hj
      simp only [Mem.set_raw] at hj
      by_cases hji : j = i
      · subst hji
        simp only [if_true, Option.some.injEq] at hj
        subst hj
        have h0 : r.nref ≠ 0 := by omega
        simp only [h0, if_false, refs_append]
        omega
      · simp only [hji, if_false] at hj
        exact Nat.le_trans (hrefs j) (hc.2 j rj hj)

theorem modify_covered (m : Mem) (A B : List ptr_node) (c c1 : ptr_node)
    (hc : covered m (A ++ c :: B)) (hr : c1.m_raw = c.m_raw) (hn : node_in m c1.toptr) :
    covered m (A ++ c1 :: B) := by
  refine ⟨?_, ?_⟩
  · intro n hmem
    simp only [List.mem_append, List.mem_cons] at hmem
    rcases hmem with h | rfl | h
    · exact hc.1 n (by simp [h])
    · exact hn
    · exact hc.1 n (by simp [h])
  · intro j rj hj
    have := hc.2 j rj hj
    simp only [refs_append, refs_cons, hr] at this ⊢
    exact this
theorem append_ptr_range_covered (m : Mem) (G : List ptr_node) (C : list) (c : ptr_node)
    (off len : Nat) (hc : covered m (G ++ C._buffers)) (hm : c ∈ G)
    (hle : off + len ≤ c.m_len) :
    ∃ C1 m1, C.append_ptr_range m c.toptr off len = .ok (C1, m1) ∧ data_from m m1 ∧
      covered m1 (G ++ C1._buffers) ∧
      nodes_bytes m1 C1._buffers =
        nodes_bytes m C._buffers ++ ((c.toptr.bytes m).drop off).take len := by
  have hcin : node_in m c.toptr := hc.1 c (List.mem_append_left _ hm)
  obtain ⟨i, r, a, b, hb, hu⟩ := hcin
  have h1 : (len + off) % U64 = len + off := Nat.mod_eq_of_lt (by omega)
  have hguard : (len + off) % U64 ≤ c.toptr.length := by
    rw [h1]
    show len + off ≤ c.m_len
    omega
  obtain ⟨n, m1, e1, e2, e3, e4⟩ := create_slice_covered m (G ++ C._buffers) [] c.toptr off len
    (by simpa using hc) ⟨i, r, a, b, hb, hu⟩ hle
  have hpush1 : covered m1 (G ++ (C._buffers ++ [n])) := by
    simpa [List.append_assoc] using e4
  have hpush2 : nodes_bytes m1 (C._buffers ++ [n]) =
      nodes_bytes m C._buffers ++ ((c.toptr.bytes m).drop off).take len := by
    have hall : ∀ x ∈ C._buffers ++ [n], node_in m1 x.toptr := by
      intro x hx
      apply e4.1 x
      simp only [List.mem_append, List.mem_cons, List.mem_singleton, List.not_mem_nil,
        or_false] at hx ⊢
      tauto
    rw [nodes_bytes_data_from m m1 _ e3 hall, nodes_bytes_append]
    simp only [nodes_bytes, List.append_nil]
    rw [slice_bytes m c.toptr n.toptr off len hle e2]
  unfold list.append_ptr_range
  rw [if_pos hguard]
  simp only
  cases hl : C._buffers.getLast? with
  | none =>
    simp only [e1]
    exact ⟨_, m1, rfl, e3, hpush1, hpush2⟩
  | some t =>
    simp only
    by_cases hmerge : t.m_raw = c.m_raw ∧ t.toptr.end_ = (c.toptr.start + off) % U64
    · rw [if_pos hmerge]
      have hsplit : C._buffers = C._buffers.dropLast ++ [t] :=
        (List.dropLast_append_getLast? t hl).symm
      have htin : node_in m t.toptr := by
        apply hc.1 t
        rw [hsplit]
        simp
      obtain ⟨j, rt, ta, tb, tc, td⟩ := htin
      have hji : j = i := by
        have := hmerge.1
        rw [ta, a] at this
        injection this
      subst hji
      rw [b] at tb
      injection tb with tb
      subst tb
      have hend : t.m_off + t.m_len = c.m_off + off := by
        have := hmerge.2
        simp only [ptr.end_, ptr.start] at this
        rw [Nat.mod_eq_of_lt (by omega), Nat.mod_eq_of_lt (by omega)] at this
        exact this
      have hadd : add64 t.toptr.length len = t.m_len + len := by
        simp only [add64, ptr.length]
        exact Nat.mod_eq_of_lt (by omega)
      have hset : t.toptr.set_length m (add64 t.toptr.length len)
          = .ok { t.toptr with m_len := t.m_len + len } := by
        unfold ptr.set_length ptr.raw_length
        simp only [ta, b, raw.get_len, hadd]
        rw [if_pos (by omega)]
      rw [hset]
      refine ⟨_, m, rfl, data_from_refl m, ?_, ?_⟩
      · show covered m (G ++ (C._buffers.dropLast ++
            [{ t with toptr := { t.toptr with m_len := t.m_len + len } }]))
        have hc1 : covered m ((G ++ C._buffers.dropLast) ++ t :: []) := by
          rw [List.append_assoc, ← hsplit]
          exact hc
        have := modify_covered m (G ++ C._buffers.dropLast) [] t
          { t with toptr := { t.toptr with m_len := t.m_len + len } } hc1 rfl
          ⟨j, r, ta, b, by simp only; omega, hu⟩
        simpa [List.append_assoc] using this
      · show nodes_bytes m (C._buffers.dropLast ++
            [{ t with toptr := { t.toptr with m_len := t.m_len + len } }]) = _
        rw [nodes_bytes_append]
        conv => rhs; rw [hsplit, nodes_bytes_append]
        simp only [nodes_bytes, List.append_nil, List.append_assoc]
        congr 1
        simp only [ptr.bytes, ta, a, b, List.drop_take, List.drop_drop, List.take_take]
        rw [Nat.min_eq_left (by omega), ← hend, List.take_add]
        rw [List.drop_drop]
    · rw [if_neg hmerge]
      simp only [e1]
      exact ⟨_, m1, rfl, e3, hpush1, hpush2⟩
theorem drop_take_in_left (a b : List Nat) (off len : Nat) (h : off + len ≤ a.length) :
    ((a ++ b).drop off).take len = (a.drop off).take len := by
  rw [List.drop_append_of_le_length (by omega), List.take_append_of_le_length]
  rw [List.length_drop]
  omega

theorem drop_take_over_left (a b : List Nat) (off len : Nat) (h1 : off ≤ a.length)
    (h2 : a.length ≤ off + len) :
    ((a ++ b).drop off).take len = a.drop off ++ b.take (len - (a.length - off)) := by
  rw [List.drop_append_of_le_length h1, List.take_append_eq_append_take, List.length_drop,
    List.take_of_length_le]
  rw [List.length_drop]
  omega

theorem drop_over_left (a b : List Nat) (k : Nat) (h : a.length ≤ k) :
    (a ++ b).drop k = b.drop (k - a.length) := by
  have : k = a.length + (k - a.length) := by omega
  rw [this, List.drop_append]
  congr 1
  omega

theorem covered_cur_in (m : Mem) (F cur Cb : List ptr_node) (h : covered m (F ++ cur ++ Cb)) :
    (∀ n ∈ F, node_in m n.toptr) ∧ (∀ n ∈ cur, node_in m n.toptr) ∧
    (∀ n ∈ Cb, node_in m n.toptr) := by
  refine ⟨?_, ?_, ?_⟩ <;> intro n hn <;> apply h.1 n <;> simp [hn]

theorem splice_loop_spec (cur : List ptr_node) : ∀ (m : Mem) (C : list) (off len ln nm : Nat)
    (F : List ptr_node),
    covered m (F ++ cur ++ C._buffers) →
    off + len ≤ nodes_len cur → nodes_len cur < U64 →
    (∀ c rest, cur = c :: rest → off ≤ c.m_len) → (len = 0 → off = 0) →
    ∃ cur1 ln1 nm1 C1 m1,
      splice_loop m (some C) cur off len ln nm = .ok (cur1, ln1, nm1, some C1, m1) ∧
      data_from m m1 ∧ covered m1 (F ++ cur1 ++ C1._buffers) ∧
      nodes_bytes m1 cur1 = (nodes_bytes m cur).drop (off + len) ∧
      nodes_bytes m1 C1._buffers =
        nodes_bytes m C._buffers ++ ((nodes_bytes m cur).drop off).take len := by
  induction cur with
  | nil =>
    intro m C off len ln nm F hc hle _ _ hz
    simp only [nodes_len] at hle
    have hl : len = 0 := by omega
    subst hl
    refine ⟨[], ln, nm, C, m, ?_, data_from_refl m, hc, ?_, ?_⟩
    · simp [splice_loop]
    · simp [nodes_bytes]
    · simp [nodes_bytes]
  | cons c rest ih =>
    intro m C off len ln nm F hc hle hU hoff hz
    have hoc : off ≤ c.m_len := hoff c rest rfl
    simp only [nodes_len] at hle hU
    simp only [splice_loop]
    by_cases h0 : len = 0
    · have ho := hz h0
      subst h0
      subst ho
      rw [if_pos rfl]
      exact ⟨_, ln, nm, C, m, rfl, data_from_refl m, hc, by simp, by simp⟩
    · rw [if_neg h0]
      have hcm : c ∈ F ++ c :: rest := by simp
      obtain ⟨_, hcur, _⟩ := covered_cur_in m F (c :: rest) C._buffers hc
      have hcl := ptr_bytes_length m c.toptr (hcur c (List.mem_cons_self _ _))
      have hmod : (off + len) % U64 = off + len := Nat.mod_eq_of_lt (by omega)
      by_cases hp : (off + len) % U64 < c.toptr.length
      · rw [if_pos hp]
        rw [hmod] at hp
        simp only [ptr.length] at hp
        obtain ⟨C1, m1, e1, e2, e3, e4⟩ := append_ptr_range_covered m (F ++ c :: rest) C c off len
          hc hcm (by omega)
        simp only [claim_append_range, e1]
        obtain ⟨hF1, hcur1, hC1⟩ := covered_cur_in m1 F (c :: rest) C1._buffers e3
        obtain ⟨i, r, a, b, hb, hu⟩ := hcur1 c (List.mem_cons_self _ _)
        have hso : c.toptr.set_offset m1 (((off + len) % U64 + c.toptr.offset) % U64)
            = .ok (⟨c.m_raw, off + len + c.m_off, c.m_len⟩ : ptr) := by
          unfold ptr.set_offset ptr.raw_length
          simp only [a, b, raw.get_len, hmod, ptr.offset]
          rw [Nat.mod_eq_of_lt (by omega), if_pos (by omega)]
        rw [hso]
        simp only
        have hsl : ptr.set_length m1 (⟨c.m_raw, off + len + c.m_off, c.m_len⟩ : ptr)
            (ptr.length (⟨c.m_raw, off + len + c.m_off, c.m_len⟩ : ptr) - (len + off) % U64)
            = .ok (⟨c.m_raw, off + len + c.m_off, c.m_len - (len + off)⟩ : ptr) := by
          unfold ptr.set_length ptr.raw_length
          simp only [a, b, raw.get_len, ptr.length]
          rw [Nat.mod_eq_of_lt (by omega), if_pos (by omega)]
        rw [hsl]
        simp only
        have hcov : covered m1 (F ++
            (⟨⟨c.m_raw, off + len + c.m_off, c.m_len - (len + off)⟩, c.node_addr⟩ : ptr_node) ::
              (rest ++ C1._buffers)) := by
          refine modify_covered m1 F (rest ++ C1._buffers) c _ ?_ rfl ?_
          · simpa [List.append_assoc] using e3
          · exact ⟨i, r, a, b, by simp only; omega, hu⟩
        refine ⟨_, _, _, C1, m1, rfl, e2, ?_, ?_, ?_⟩
        · simpa [List.append_assoc] using hcov
        · have hrest : nodes_bytes m1 rest = nodes_bytes m rest :=
            nodes_bytes_data_from m m1 rest e2 (fun x hx => hcur1 x (List.mem_cons_of_mem _ hx))
          simp only [nodes_bytes, hrest]
          rw [List.drop_append_of_le_length (by omega)]
          congr 1
          rw [← ptr_bytes_data_from m m1 c.toptr e2 ⟨i, r, a, b, hb, hu⟩]
          simp only [ptr.bytes, a, b, List.drop_take, List.drop_drop]
          congr 2 <;> omega
        · rw [e4]
          simp only [nodes_bytes]
          rw [drop_take_in_left _ _ off len (by omega)]
      · rw [if_neg hp]
        rw [hmod] at hp
        simp only [ptr.length] at hp
        obtain ⟨C1, m1, e1, e2, e3, e4⟩ := append_ptr_range_covered m (F ++ c :: rest) C c off
          (c.m_len - off) hc hcm (by omega)
        simp only [claim_append_range, ptr.length, e1]
        obtain ⟨m2, d1, d2, d3⟩ := dispose_covered m1 F (rest ++ C1._buffers) c
          (by simpa [List.append_assoc] using e3)
        rw [d1]
        simp only
        have d3a : covered m2 (F ++ rest ++ C1._buffers) := by
          simpa [List.append_assoc] using d3
        obtain ⟨cur1, ln1, nm1, C2, mf, f1, f2, f3, f4, f5⟩ := ih m2 C1 0 (len - (c.m_len - off))
          (sub64 ln c.m_len) (sub64 nm 1) F d3a (by omega) (by omega)
          (fun _ _ _ => Nat.zero_le _) (fun _ => rfl)
        obtain ⟨_, hrest2, hC12⟩ := covered_cur_in m2 F rest C1._buffers d3a
        have hrest : nodes_bytes m2 rest = nodes_bytes m rest :=
          nodes_bytes_data_from m m2 rest (data_from_trans m m1 m2 e2 d2) hrest2
        have hC1 : nodes_bytes m2 C1._buffers = nodes_bytes m1 C1._buffers :=
          nodes_bytes_data_from m1 m2 _ d2 hC12
        refine ⟨cur1, ln1, nm1, C2, mf, f1,
          data_from_trans m m2 mf (data_from_trans m m1 m2 e2 d2) f2, f3, ?_, ?_⟩
        · rw [f4, hrest]
          simp only [nodes_bytes]
          rw [drop_over_left _ _ _ (by omega)]
          congr 1
          omega
        · rw [f5, hC1, e4, hrest]
          simp only [nodes_bytes, List.drop_zero, List.append_assoc]
          rw [drop_take_over_left _ _ off len (by omega) (by omega)]
          rw [List.take_of_length_le (by rw [List.length_drop]; omega), hcl]
theorem splice_skip_spec (cur : List ptr_node) : ∀ (pre : List ptr_node) (off : Nat),
    off ≤ nodes_len cur →
    ∃ pre1 cur1 off1, splice_skip pre cur off = .ok (pre1, cur1, off1) ∧
      pre1 ++ cur1 = pre ++ cur ∧ nodes_len pre1 + off1 = nodes_len pre + off ∧
      (∀ c rest, cur1 = c :: rest → off1 ≤ c.m_len) ∧
      (off1 ≠ 0 → ∃ c rest, cur1 = c :: rest ∧ off1 < c.m_len) := by
  induction cur with
  | nil =>
    intro pre off h
    simp only [nodes_len] at h
    have : off = 0 := by omega
    subst this
    refine ⟨pre, [], 0, by simp [splice_skip], rfl, rfl, ?_, ?_⟩
    · intro c rest h
      cases h
    · intro h
      exact absurd rfl h
  | cons c rest ih =>
    intro pre off h
    simp only [nodes_len] at h
    simp only [splice_skip]
    by_cases hs : off > 0 ∧ off ≥ c.toptr.length
    · rw [if_pos hs]
      simp only [ptr.length] at hs
      have hsum : nodes_len (pre ++ [c]) + (off - c.m_len) = nodes_len pre + off := by
        rw [nodes_len_append]
        simp only [nodes_len]
        omega
      obtain ⟨pre1, cur1, off1, a, b, c1, d, e⟩ := ih (pre ++ [c]) (off - c.m_len) (by omega)
      refine ⟨pre1, cur1, off1, a, ?_, c1.trans hsum, d, e⟩
      rw [b]
      simp
    · rw [if_neg hs]
      simp only [ptr.length] at hs
      refine ⟨pre, c :: rest, off, rfl, rfl, rfl, ?_, ?_⟩
      · intro c2 rest2 h2
        injection h2 with h2 _
        subst h2
        omega
      · intro h0
        exact ⟨c, rest, rfl, by omega⟩

theorem splice_length (m m1 : Mem) (L L1 : list) (o n : Nat) (hL : L.counted)
    (hU : nodes_len L._buffers < U64) (h1c : L1.counted)
    (hin : ∀ x ∈ L._buffers, node_in m x.toptr) (hin1 : ∀ x ∈ L1._buffers, node_in m1 x.toptr)
    (hon : o + n ≤ L.length)
    (hb : L1.bytes m1 = (L.bytes m).take o ++ (L.bytes m).drop (o + n)) :
    L1.length + n = L.length := by
  have e0 : L._len = nodes_len L._buffers := by
    rw [hL.1]
    exact Nat.mod_eq_of_lt hU
  have e1 := nodes_bytes_length m L._buffers hin
  have e2 := nodes_bytes_length m1 L1._buffers hin1
  have e3 := congrArg List.length hb
  simp only [list.bytes, List.length_append, List.length_take, List.length_drop] at e3
  have e4 := h1c.1
  simp only [list.length, U64_val] at *
  omega
/-- C2: splice conserves the bytes.  For well-formed lists `L` and `C`, with
`C` a list other than `L` (the counters of both are in step with their
chains, the total length of `L` fits a `uint64_t`, every node views a part
of a live region, and every region counts at least as many references as
there are nodes of the two lists that reference it), and
`o + n <= L.length()`, the call `L.splice(o, n, &C)` returns; afterwards the bytes of `C` are its prior bytes followed by the
prior bytes `[o, o + n)` of `L`, the bytes of `L` are its prior bytes
`[0, o)` followed by its prior bytes from `o + n` on, and `L.length()` has
decreased by `n`. -/
theorem splice_conserves (m : Mem) (L C : list) (o n : Nat)
    (hL : L.counted) (hU : nodes_len L._buffers < U64) (hC : C.counted)
    (hok : chain_ok m (L._buffers ++ C._buffers) = true) (hon : o + n ≤ L.length) :
    ∃ L1 C1 m1, L.splice m o n (some C) = .ok (L1, some C1, m1) ∧
      C1.bytes m1 = C.bytes m ++ ((L.bytes m).drop o).take n ∧
      L1.bytes m1 = (L.bytes m).take o ++ (L.bytes m).drop (o + n) ∧
      L1.length + n = L.length := by
  have hcov := chain_ok_covered m _ hok
  have e0 : L._len = nodes_len L._buffers := by
    rw [hL.1]
    exact Nat.mod_eq_of_lt hU
  have hinL : ∀ x ∈ L._buffers, node_in m x.toptr :=
    fun x hx => hcov.1 x (List.mem_append_left _ hx)
  by_cases h0 : n = 0
  · subst h0
    refine ⟨L, C, m, ?_, ?_, ?_, rfl⟩
    · unfold list.splice
      rw [if_pos rfl]
    · simp
    · simp
  · simp only [list.length] at hon
    obtain ⟨pre, cur, off1, s1, s2, s3, s4, s5⟩ := splice_skip_spec L._buffers [] o (by omega)
    simp only [List.nil_append, nodes_len, Nat.zero_add] at s2 s3
    have hlen : nodes_len pre + nodes_len cur = nodes_len L._buffers := by
      rw [← s2, nodes_len_append]
    rw [← s2] at hcov
    obtain ⟨hpre, hcur, hCb⟩ := covered_cur_in m pre cur C._buffers hcov
    have hPB := nodes_bytes_length m pre hpre
    have hLB : L.bytes m = nodes_bytes m pre ++ nodes_bytes m cur := by
      simp only [list.bytes]
      rw [← s2, nodes_bytes_append]
    have key : ∀ (F : List ptr_node) (m0 : Mem) (ln nm : Nat),
        data_from m m0 → covered m0 (F ++ cur ++ C._buffers) →
        nodes_bytes m0 F = nodes_bytes m pre ++ (nodes_bytes m cur).take off1 →
        ∃ cur1 ln1 nm1 C1 m1,
          splice_loop m0 (some C) cur off1 n ln nm = .ok (cur1, ln1, nm1, some C1, m1) ∧
          (∀ x ∈ F ++ cur1, node_in m1 x.toptr) ∧
          C1.bytes m1 = C.bytes m ++ ((L.bytes m).drop o).take n ∧
          nodes_bytes m1 (F ++ cur1) = (L.bytes m).take o ++ (L.bytes m).drop (o + n) := by
      intro F m0 ln nm hd hc0 hF
      obtain ⟨cur1, ln1, nm1, C1, m1, f1, f2, f3, f4, f5⟩ := splice_loop_spec cur m0 C off1 n
        ln nm F hc0 (by omega) (by omega) s4 (fun h => absurd h h0)
      obtain ⟨hF0, hcur0, hCb0⟩ := covered_cur_in m0 F cur C._buffers hc0
      obtain ⟨hF1, hcur1, _⟩ := covered_cur_in m1 F cur1 C1._buffers f3
      have hcb : nodes_bytes m0 cur = nodes_bytes m cur := nodes_bytes_data_from m m0 _ hd hcur0
      have hCC : nodes_bytes m0 C._buffers = nodes_bytes m C._buffers :=
        nodes_bytes_data_from m m0 _ hd hCb0
      have hFF : nodes_bytes m1 F = nodes_bytes m0 F := nodes_bytes_data_from m0 m1 _ f2 hF1
      have ho : o = (nodes_bytes m pre).length + off1 := by omega
      refine ⟨cur1, ln1, nm1, C1, m1, f1, ?_, ?_, ?_⟩
      · intro x hx
        simp only [List.mem_append] at hx
        rcases hx with hx | hx
        · exact hF1 x hx
        · exact hcur1 x hx
      · show nodes_bytes m1 C1._buffers = nodes_bytes m C._buffers ++ _
        rw [f5, hCC, hcb, hLB, ho, List.drop_append]
      · rw [nodes_bytes_append, hFF, hF, f4, hcb, hLB]
        have e1 : List.take o (nodes_bytes m pre ++ nodes_bytes m cur)
            = nodes_bytes m pre ++ (nodes_bytes m cur).take off1 := by
          rw [ho, List.take_append]
        have e2 : List.drop (o + n) (nodes_bytes m pre ++ nodes_bytes m cur)
            = (nodes_bytes m cur).drop (off1 + n) := by
          have : o + n = (nodes_bytes m pre).length + (off1 + n) := by omega
          rw [this, List.drop_append]
        rw [e1, e2]
    have fin : ∀ (L1 C1 : list) (m1 : Mem),
        L.splice m o n (some C) = .ok (L1, some C1, m1) →
        (∀ x ∈ L1._buffers, node_in m1 x.toptr) →
        C1.bytes m1 = C.bytes m ++ ((L.bytes m).drop o).take n →
        L1.bytes m1 = (L.bytes m).take o ++ (L.bytes m).drop (o + n) →
        ∃ L1 C1 m1, L.splice m o n (some C) = .ok (L1, some C1, m1) ∧
          C1.bytes m1 = C.bytes m ++ ((L.bytes m).drop o).take n ∧
          L1.bytes m1 = (L.bytes m).take o ++ (L.bytes m).drop (o + n) ∧
          L1.length + n = L.length := by
      intro L1 C1 m1 hrun hin1 b1 b2
      have hc1 := (splice_counted m L o n (some C) L1 (some C1) m1 hL
        (fun X hX => by injection hX with hX; rw [← hX]; exact hC) hrun).1
      exact ⟨L1, C1, m1, hrun, b1, b2,
        splice_length m m1 L L1 o n hL hU hc1 hinL hin1 hon b2⟩
    have hge : ¬ (o ≥ L.length) := by
      simp only [list.length]
      omega
    by_cases ho1 : off1 ≠ 0
    · obtain ⟨c, rest, hcr, hlt⟩ := s5 ho1
      have hcin : node_in m c.toptr := hcur c (by rw [hcr]; exact List.mem_cons_self _ _)
      obtain ⟨n0, m0, g1, g2, g3, g4⟩ := create_slice_covered m pre (cur ++ C._buffers) c.toptr
        0 off1 (by simpa [List.append_assoc] using hcov) hcin (by omega)
      have g4a : covered m0 ((pre ++ [n0]) ++ cur ++ C._buffers) := by
        simpa [List.append_assoc] using g4
      obtain ⟨hF0, _, _⟩ := covered_cur_in m0 (pre ++ [n0]) cur C._buffers g4a
      have hFb : nodes_bytes m0 (pre ++ [n0])
          = nodes_bytes m pre ++ (nodes_bytes m cur).take off1 := by
        rw [nodes_bytes_data_from m m0 _ g3 hF0, nodes_bytes_append]
        simp only [nodes_bytes, List.append_nil]
        rw [slice_bytes m c.toptr n0.toptr 0 off1 (by omega) g2, hcr]
        simp only [nodes_bytes, List.drop_zero]
        rw [List.take_append_of_le_length]
        rw [ptr_bytes_length m c.toptr hcin]
        omega
      obtain ⟨cur1, ln1, nm1, C1, m1, k1, k2, k3, k4⟩ := key (pre ++ [n0]) m0
        (add64 L._len off1) (add64 L._num 1) g3 g4a hFb
      refine fin (⟨pre ++ [n0] ++ cur1, none, ln1, nm1⟩ : list) C1 m1 ?_ k2 k3 k4
      unfold list.splice
      rw [if_neg h0, if_neg hge]
      simp only [s1]
      rw [if_pos ho1]
      subst hcr
      simp only [g1, k1]
    · have hz : off1 = 0 := Classical.not_not.mp ho1
      have hFb : nodes_bytes m pre = nodes_bytes m pre ++ (nodes_bytes m cur).take off1 := by
        rw [hz]
        simp
      obtain ⟨cur1, ln1, nm1, C1, m1, k1, k2, k3, k4⟩ := key pre m L._len L._num
        (data_from_refl m) hcov hFb
      refine fin (⟨pre ++ cur1, none, ln1, nm1⟩ : list) C1 m1 ?_ k2 k3 k4
      unfold list.splice
      rw [if_neg h0, if_neg hge]
      simp only [s1]
      rw [if_neg ho1]
      simp only [k1]
/-- C2 witness: `splice(4, 4, &C)` on the list `ABC`, `DEF`, `GHI`, `JKL`
with `C` holding `X`. -/
theorem splice_conserves_witness :
    abc_jkl_and_x.1.bytes abc_jkl_and_x.2.2 = str "ABCDEFGHIJKL" ∧
    abc_jkl_and_x.2.1.bytes abc_jkl_and_x.2.2 = str "X" ∧
    abc_jkl_and_x.1.counted ∧ nodes_len abc_jkl_and_x.1._buffers < U64 ∧
    abc_jkl_and_x.2.1.counted ∧
    chain_ok abc_jkl_and_x.2.2 (abc_jkl_and_x.1._buffers ++ abc_jkl_and_x.2.1._buffers) = true ∧
    4 + 4 ≤ abc_jkl_and_x.1.length ∧
    ∃ L1 C1 m1, abc_jkl_and_x.1.splice abc_jkl_and_x.2.2 4 4 (some abc_jkl_and_x.2.1)
        = .ok (L1, some C1, m1) ∧
      C1.bytes m1 = abc_jkl_and_x.2.1.bytes abc_jkl_and_x.2.2 ++
        ((abc_jkl_and_x.1.bytes abc_jkl_and_x.2.2).drop 4).take 4 ∧
      L1.bytes m1 = (abc_jkl_and_x.1.bytes abc_jkl_and_x.2.2).take 4 ++
        (abc_jkl_and_x.1.bytes abc_jkl_and_x.2.2).drop (4 + 4) ∧
      L1.length + 4 = abc_jkl_and_x.1.length :=
  ⟨rfl, rfl, ⟨rfl, rfl⟩, by decide, ⟨rfl, rfl⟩, rfl, by decide,
   splice_conserves abc_jkl_and_x.2.2 abc_jkl_and_x.1 abc_jkl_and_x.2.1 4 4 ⟨rfl, rfl⟩
     (by decide) ⟨rfl, rfl⟩ rfl (by decide)⟩
theorem round_up_to_ge (n d : Nat) (hd : 0 < d) : n ≤ round_up_to n d := by
  unfold round_up_to
  split
  · exact Nat.le_refl _
  · have := Nat.mod_lt n hd
    omega

theorem round_up_to_le (n d : Nat) (hd : 0 < d) : round_up_to n d ≤ n + d := by
  unfold round_up_to
  split <;> omega

theorem write_bytes_before (data src : List Nat) (pos off l : Nat) (h : off + l ≤ pos)
    (hp : pos ≤ data.length) :
    ((write_bytes data pos src).drop off).take l = (data.drop off).take l := by
  unfold write_bytes
  rw [List.append_assoc, drop_take_in_left _ _ off l (by rw [List.length_take]; omega)]
  rw [List.drop_take, List.take_take, Nat.min_eq_left (by omega)]

theorem write_bytes_at (data src : List Nat) (pos : Nat) (hp : pos ≤ data.length) :
    ((write_bytes data pos src).drop pos).take src.length = src := by
  unfold write_bytes
  rw [List.append_assoc]
  have hl : (data.take pos).length = pos := by rw [List.length_take]; omega
  rw [List.drop_left' hl, List.take_left' rfl]

theorem raw_combined_create_ok (m : Mem) (len : Nat) :
    ∃ i m1, raw_combined.create m len 0 = .ok (i, m1) ∧ allocated m len i m1 := by
  have h : ∃ v, raw_combined.create m len 0 = .ok v := by
    unfold raw_combined.create posix_memalign
    simp only [if_true]
    rw [if_pos (by decide)]
    exact ⟨_, rfl⟩
  obtain ⟨⟨i, m1⟩, hv⟩ := h
  exact ⟨i, m1, hv, raw_combined_create_spec m len 0 i m1 hv⟩
theorem ptr_append_eq (m : Mem) (c : ptr) (i : Nat) (r : raw) (src : List Nat) (k : Nat)
    (hc : c.m_raw = some i) (hr : m.raws i = some r)
    (hb : c.m_off + c.m_len + k ≤ r.m_data.length) (hu : r.m_data.length < U64)
    (hs : k ≤ src.length) :
    ∃ e m1, c.append m src k = .ok (e, ⟨some i, c.m_off, c.m_len + k⟩, m1) ∧
      m1.raws i = some { r with m_data := write_bytes r.m_data (c.m_off + c.m_len) (src.take k) } ∧
      (∀ j, j ≠ i → m1.raws j = m.raws j) ∧ m1.next_raw = m.next_raw ∧
      m1.next_node = m.next_node := by
  have hgap : k ≤ (r.get_len + U64 - (c.m_off + c.m_len) % U64) % U64 := by
    simp only [raw.get_len, U64_val] at *
    omega
  have hlen : (src.take k).length = k := by
    rw [List.length_take]
    omega
  unfold ptr.append ptr.unused_tail_length Mem.store
  simp only [hc, hr]
  rw [if_pos hgap, if_neg (by omega), hlen, if_pos (by omega)]
  refine ⟨_, _, rfl, ?_, ?_, rfl, rfl⟩
  · simp [Mem.set_raw]
  · intro j hj
    simp [Mem.set_raw, hj]

theorem unused_tail_eq (m : Mem) (c : ptr) (i : Nat) (r : raw) (hc : c.m_raw = some i)
    (hr : m.raws i = some r) (hb : c.m_off + c.m_len ≤ r.m_data.length)
    (hu : r.m_data.length < U64) :
    c.unused_tail_length m = .ok (r.m_data.length - (c.m_off + c.m_len)) := by
  unfold ptr.unused_tail_length
  simp only [hc, hr, raw.get_len]
  congr 1
  simp only [U64_val] at *
  omega

theorem push_empty_tail_eq (m : Mem) (L : list) (i : Nat) (r : raw) (h : m.raws i = some r) :
    ∃ m1, L.push_empty_tail m i = .ok
        (⟨L._buffers ++ [⟨⟨some i, 0, 0⟩, m.next_node⟩], some m.next_node, L._len,
          add64 L._num 1⟩, m1) ∧
      m1.raws i = some { r with nref := 1 } ∧ (∀ j, j ≠ i → m1.raws j = m.raws j) ∧
      m1.next_raw = m.next_raw ∧ m1.next_node = m.next_node + 1 := by
  unfold list.push_empty_tail ptr_node.create_raw ptr.of_raw
  simp only [h, Mem.new_node, Mem.set_raw]
  unfold ptr.set_length ptr.raw_length
  simp only [if_true, ge_iff_le, Nat.zero_le]
  refine ⟨_, rfl, ?_, ?_, rfl, rfl⟩
  · simp
  · intro j hj
    simp [hj]

theorem nodes_bytes_frame (m m1 : Mem) (ns : List ptr_node)
    (h : ∀ x ∈ ns, x.toptr.bytes m1 = x.toptr.bytes m) : nodes_bytes m1 ns = nodes_bytes m ns := by
  induction ns with
  | nil => rfl
  | cons x rest ih =>
    simp only [nodes_bytes]
    rw [h x (List.mem_cons_self _ _), ih (fun y hy => h y (List.mem_cons_of_mem _ hy))]

theorem ptr_bytes_other (m m1 : Mem) (x : ptr) (h : ∀ j, x.m_raw = some j → m1.raws j = m.raws j) :
    x.bytes m1 = x.bytes m := by
  unfold ptr.bytes
  cases hx : x.m_raw with
  | none => rfl
  | some j => simp only [h j hx]

theorem second_round_spec (m : Mem) (L : list) (src : List Nat) (left : Nat)
    (hid : ∀ x ∈ L._buffers, ∀ i, x.m_raw = some i → i < m.next_raw)
    (hsrc : left ≤ src.length) (hbig : left + 2 * SPEC_BUFFER_ALLOC_UNIT ≤ U64) :
    ∃ L1 m1 L2 m2, L.refill_append_space m left = .ok (L1, m1) ∧
      L1.back_append m1 src left = .ok (L2, m2) ∧
      L2._buffers = L._buffers ++ [⟨⟨some m.next_raw, 0, left⟩, m.next_node⟩] ∧
      L2._len = L._len ∧
      nodes_bytes m2 L2._buffers = nodes_bytes m L._buffers ++ src.take left ∧
      m2.next_raw = m.next_raw + 1 ∧ (∀ j, j ≠ m.next_raw → m2.raws j = m.raws j) := by
  have ha1 := round_up_to_ge left 8 (by decide)
  have ha2 := round_up_to_le left 8 (by decide)
  have ha3 := round_up_to_ge (round_up_to left 8 + sizeof_raw_combined) SPEC_BUFFER_ALLOC_UNIT
    (by decide)
  have ha4 := round_up_to_le (round_up_to left 8 + sizeof_raw_combined) SPEC_BUFFER_ALLOC_UNIT
    (by decide)
  obtain ⟨i, m0, hcr, hi, hnr, hnn, hother, r, hr, hdata, _, _⟩ := raw_combined_create_ok m
    (round_up_to (round_up_to left 8 + sizeof_raw_combined) SPEC_BUFFER_ALLOC_UNIT
      - sizeof_raw_combined)
  subst hi
  have hrl : r.m_data.length = round_up_to (round_up_to left 8 + sizeof_raw_combined)
      SPEC_BUFFER_ALLOC_UNIT - sizeof_raw_combined := by
    rw [hdata, List.length_replicate]
  have hfit : left ≤ r.m_data.length := by
    rw [hrl]
    omega
  have hlt : r.m_data.length < U64 := by
    rw [hrl]
    simp only [SPEC_BUFFER_ALLOC_UNIT, sizeof_raw_combined, U64_val] at *
    omega
  obtain ⟨m1, p1, p2, p3, p4, p5⟩ := push_empty_tail_eq m0 L m.next_raw r hr
  have h1 : L.refill_append_space m left = .ok
      (⟨L._buffers ++ [⟨⟨some m.next_raw, 0, 0⟩, m0.next_node⟩], some m0.next_node, L._len,
        add64 L._num 1⟩, m1) := by
    unfold list.refill_append_space
    simp only [hcr]
    exact p1
  obtain ⟨e, m2, q1, q2, q3, q4, q5⟩ := ptr_append_eq m1 ⟨some m.next_raw, 0, 0⟩ m.next_raw
    { r with nref := 1 } src left rfl p2 (by simpa using hfit) hlt hsrc
  refine ⟨_, m1, ⟨L._buffers ++ [⟨⟨some m.next_raw, 0, left⟩, m.next_node⟩], some m0.next_node,
    L._len, add64 L._num 1⟩, m2, h1, ?_, rfl, rfl, ?_, ?_, ?_⟩
  · unfold list.back_append list.back_ptr
    simp only [List.getLast?_concat, q1, set_back, List.dropLast_concat, hnn, Nat.zero_add]
  · simp only [nodes_bytes_append, nodes_bytes, List.append_nil]
    congr 1
    · apply nodes_bytes_frame
      intro x hx
      apply ptr_bytes_other
      intro j hj
      have hlt := hid x hx j hj
      have hne : j ≠ m.next_raw := by omega
      rw [q3 j hne, p3 j hne, hother j hne]
    · simp only [ptr.bytes, q2, List.drop_zero, Nat.add_zero]
      have := write_bytes_at r.m_data (src.take left) 0 (Nat.zero_le _)
      simp only [List.drop_zero, List.length_take, Nat.min_eq_left hsrc] at this
      exact this
  · rw [q4, p4, hnr]
  · intro j hj
    rw [q3 j hj, p3 j hj, hother j hj]
theorem find_set_last (init : List ptr_node) (n : ptr_node) (a : Nat) (p : ptr)
    (h : ∀ x ∈ init, x.node_addr ≠ a) (hn : n.node_addr = a) :
    (init ++ [n]).find? (fun x => x.node_addr == a) = some n ∧
    set_node (init ++ [n]) a p = init ++ [⟨p, n.node_addr⟩] := by
  induction init with
  | nil =>
    simp [List.find?, set_node, hn]
  | cons x rest ih =>
    have hx : x.node_addr ≠ a := h x (List.mem_cons_self _ _)
    obtain ⟨a1, a2⟩ := ih (fun y hy => h y (List.mem_cons_of_mem _ hy))
    constructor
    · show List.find? _ (x :: (rest ++ [n])) = some n
      rw [List.find?_cons_of_neg _ (by simpa using hx)]
      exact a1
    · show set_node (x :: (rest ++ [n])) a p = x :: (rest ++ [⟨p, n.node_addr⟩])
      simp only [set_node, beq_iff_eq, hx, if_false]
      rw [a2]

theorem bytes_after_store (m m1 : Mem) (i : Nat) (r r1 : raw) (pos : Nat) (src : List Nat)
    (ns : List ptr_node) (hr : m.raws i = some r) (hr1 : m1.raws i = some r1)
    (hd : r1.m_data = write_bytes r.m_data pos src) (ho : ∀ j, j ≠ i → m1.raws j = m.raws j)
    (hp : pos ≤ r.m_data.length)
    (hv : ∀ x ∈ ns, x.m_raw = some i → x.m_off + x.m_len ≤ pos) :
    nodes_bytes m1 ns = nodes_bytes m ns := by
  apply nodes_bytes_frame
  intro x hx
  cases hxr : x.m_raw with
  | none => simp [ptr.bytes, hxr]
  | some j =>
    by_cases hj : j = i
    · subst hj
      simp only [ptr.bytes, hxr, hr, hr1, hd]
      exact write_bytes_before _ _ _ _ _ (hv x hx hxr) hp
    · apply ptr_bytes_other
      intro j2 hj2
      rw [hxr] at hj2
      injection hj2 with hj2
      subst hj2
      exact ho j hj

theorem first_round_spec (m : Mem) (L : list) (data : List Nat) (k a : Nat) (nc : ptr_node)
    (i : Nat) (r : raw) (hcache : L._tail_pnode_cache = some a)
    (hfind : L._buffers.find? (fun n => n.node_addr == a) = some nc)
    (hraw : nc.m_raw = some i) (hr : m.raws i = some r)
    (hfit : nc.m_off + nc.m_len + k ≤ r.m_data.length) (hu : r.m_data.length < U64)
    (haddr : (L._buffers.map (fun n => n.node_addr)).Nodup)
    (hnext : ∀ x ∈ L._buffers, x.node_addr < m.next_node)
    (hun : ∀ x ∈ L._buffers, x.m_raw = some i → x.m_off + x.m_len ≤ nc.m_off + nc.m_len)
    (hk : k ≤ data.length) :
    ∃ L1 m1 L2 m2, L.sync_tail m = .ok (L1, m1) ∧ L1.cache_append m1 data k = .ok (L2, m2) ∧
      L2._len = L._len ∧
      nodes_bytes m2 L2._buffers = nodes_bytes m L._buffers ++ data.take k ∧
      m2.next_raw = m.next_raw ∧
      (∃ r2, m2.raws i = some r2 ∧
        r2.m_data = write_bytes r.m_data (nc.m_off + nc.m_len) (data.take k)) ∧
      (∀ j, j ≠ i → m2.raws j = m.raws j) ∧
      (∀ x ∈ L2._buffers, ∀ j, x.m_raw = some j → (x ∈ L._buffers ∨ j = i)) ∧
      L2._buffers.length ≤ L._buffers.length + 1 ∧
      (L.cache_is_back = true → L2._buffers.length ≤ L._buffers.length) := by
  have hlen : (data.take k).length = k := by
    rw [List.length_take]
    omega
  by_cases hback : L.cache_is_back = true
  · -- the cache is the back node
    unfold list.cache_is_back at hback
    rw [hcache] at hback
    cases hl : L._buffers.getLast? with
    | none => simp [hl] at hback
    | some nl =>
      simp only [hl, beq_iff_eq] at hback
      have hsplit : L._buffers = L._buffers.dropLast ++ [nl] :=
        (List.dropLast_append_getLast? nl hl).symm
      have hdis : ∀ x ∈ L._buffers.dropLast, x.node_addr ≠ a := by
        intro x hx hxa
        rw [hsplit, List.map_append, List.nodup_append] at haddr
        apply haddr.2.2 (List.mem_map_of_mem _ hx)
        rw [hxa, hback]
        simp
      obtain ⟨f1, f2⟩ := find_set_last L._buffers.dropLast nl a
        ⟨some i, nc.m_off, nc.m_len + k⟩ hdis hback.symm
      rw [← hsplit, hfind] at f1
      injection f1 with f1
      subst f1
      obtain ⟨e, m2, q1, q2, q3, q4, q5⟩ := ptr_append_eq m nc.toptr i r data k hraw hr hfit hu hk
      refine ⟨L, m, ⟨L._buffers.dropLast ++ [⟨⟨some i, nc.m_off, nc.m_len + k⟩, nc.node_addr⟩],
        L._tail_pnode_cache, L._len, L._num⟩, m2, ?_, ?_, rfl, ?_, q4, ⟨_, q2, rfl⟩, q3, ?_, ?_, ?_⟩
      · unfold list.sync_tail list.cache_is_back
        simp [hcache, hl, hback]
      · unfold list.cache_append list.node_append list.node_ptr
        simp only [hcache, hfind, q1]
        rw [← f2, ← hsplit]
      · show nodes_bytes m2 (L._buffers.dropLast ++ _) = _
        conv => rhs; rw [hsplit]
        simp only [nodes_bytes_append, nodes_bytes, List.append_nil, List.append_assoc]
        congr 1
        · refine bytes_after_store m m2 i r _ _ _ _ hr q2 rfl q3 (by omega) ?_
          intro x hx
          exact hun x (by rw [hsplit]; exact List.mem_append_left _ hx)
        · simp only [ptr.bytes, q2, hraw, hr, List.take_add, List.drop_drop]
          congr 1
          · exact write_bytes_before _ _ _ _ _ (Nat.le_refl _) (by omega)
          · have := write_bytes_at r.m_data (data.take k) (nc.m_off + nc.m_len) (by omega)
            rw [hlen] at this
            exact this
      · intro x hx j hj
        simp only [List.mem_append, List.mem_singleton] at hx
        rcases hx with hx | rfl
        · left
          rw [hsplit]
          exact List.mem_append_left _ hx
        · right
          simp only at hj
          injection hj with hj
          exact hj.symm
      · simp
      · intro _
        show (L._buffers.dropLast ++ [_]).length ≤ L._buffers.length
        conv => rhs; rw [hsplit]
        simp
  · -- the cache is not the back node: a new node on the region takes over
    have hmod0 : (nc.m_len + 0) % U64 = nc.m_len := by
      simp only [Nat.add_zero]
      exact Nat.mod_eq_of_lt (by omega)
    have hmod1 : (nc.m_off + nc.m_len) % U64 = nc.m_off + nc.m_len :=
      Nat.mod_eq_of_lt (by omega)
    have hdis : ∀ x ∈ L._buffers, x.node_addr ≠ m.next_node := by
      intro x hx
      have := hnext x hx
      omega
    obtain ⟨f1, f2⟩ := find_set_last L._buffers ⟨⟨some i, nc.m_off + nc.m_len, 0⟩, m.next_node⟩
      m.next_node ⟨some i, nc.m_off + nc.m_len, 0 + k⟩ hdis rfl
    obtain ⟨e, m2, q1, q2, q3, q4, q5⟩ := ptr_append_eq
      ⟨fun j => if j = i then some { r with nref := r.nref + 1 } else m.raws j, m.next_raw, m.brk,
        m.next_node + 1⟩
      ⟨some i, nc.m_off + nc.m_len, 0⟩ i { r with nref := r.nref + 1 } data k rfl (by simp)
      (by simpa using hfit) hu hk
    have hs : L.sync_tail m = .ok
        (⟨L._buffers ++ [⟨⟨some i, nc.m_off + nc.m_len, 0⟩, m.next_node⟩], some m.next_node,
          L._len, add64 L._num 1⟩,
         ⟨fun j => if j = i then some { r with nref := r.nref + 1 } else m.raws j, m.next_raw,
          m.brk, m.next_node + 1⟩) := by
      unfold list.sync_tail
      rw [if_neg hback]
      unfold list.reanchor list.tail_cache_ptr ptr_node.create_slice ptr.slice Mem.nref_inc
      simp only [hcache, hfind, ptr.length, hmod0, Nat.le_refl, if_true, hraw, hr, hmod1,
        Mem.new_node, Mem.set_raw]
    refine ⟨_, _, ⟨L._buffers ++ [⟨⟨some i, nc.m_off + nc.m_len, 0 + k⟩, m.next_node⟩],
      some m.next_node, L._len, add64 L._num 1⟩, m2, hs, ?_, rfl, ?_, q4, ⟨_, q2, ?_⟩, ?_, ?_, ?_,
      fun h => absurd h hback⟩
    · unfold list.cache_append list.node_append list.node_ptr
      simp only [f1, q1, f2]
    · show nodes_bytes m2 (L._buffers ++ _) = _
      simp only [nodes_bytes_append, nodes_bytes, List.append_nil]
      congr 1
      · refine bytes_after_store m m2 i r _ _ _ _ hr q2 rfl ?_
          (by show nc.m_off + nc.m_len + 0 ≤ r.m_data.length; omega) ?_
        · intro j hj
          rw [q3 j hj]
          simp [hj]
        · intro x hx hxi
          simpa using hun x hx hxi
      · simp only [ptr.bytes, q2, Nat.zero_add, Nat.add_zero]
        have := write_bytes_at r.m_data (data.take k) (nc.m_off + nc.m_len) (by omega)
        rw [hlen] at this
        exact this
    · simp
    · intro j hj
      rw [q3 j hj]
      simp [hj]
    · intro x hx j hj
      simp only [List.mem_append, List.mem_singleton] at hx
      rcases hx with hx | rfl
      · exact Or.inl hx
      · right
        simp only at hj
        injection hj with hj
        exact hj.symm
    · simp
theorem views_live_spec (m : Mem) (ns : List ptr_node) (h : views_live m ns = true) :
    ∀ x ∈ ns, ∃ i r, x.m_raw = some i ∧ m.raws i = some r ∧
      x.m_off + x.m_len ≤ r.m_data.length ∧ r.m_data.length < U64 ∧ i < m.next_raw := by
  unfold views_live at h
  rw [List.all_eq_true] at h
  intro x hx
  have hk := h x hx
  cases hr : x.m_raw with
  | none => simp [hr] at hk
  | some i =>
    simp only [hr] at hk
    cases hm : m.raws i with
    | none => simp [hm] at hk
    | some r =>
      simp only [hm, Bool.and_eq_true, decide_eq_true_eq] at hk
      exact ⟨i, r, rfl, hm, hk.1.1, hk.1.2, hk.2⟩

theorem tail_unshared_spec (c : ptr) (ns : List ptr_node) (h : tail_unshared c ns = true) :
    ∀ x ∈ ns, x.m_raw = c.m_raw → x.m_off + x.m_len ≤ c.m_off + c.m_len := by
  unfold tail_unshared at h
  rw [List.all_eq_true] at h
  intro x hx hxc
  have hk := h x hx
  simp only [Bool.or_eq_true, bne_iff_ne, ne_eq, decide_eq_true_eq] at hk
  rcases hk with hk | hk
  · exact absurd hxc hk
  · exact hk
theorem list_append_eq (m : Mem) (L : list) (data : List Nat) (len gap : Nat) (L2 : list)
    (m2 : Mem)
    (hg : (⟨L._buffers, L._tail_pnode_cache, add64 L._len len, L._num⟩ :
      list).get_append_buffer_unused_tail_length m = .ok gap)
    (h1 : min len gap ≠ 0 → ∃ L1 m1,
      (⟨L._buffers, L._tail_pnode_cache, add64 L._len len, L._num⟩ : list).sync_tail m
        = .ok (L1, m1) ∧ L1.cache_append m1 data (min len gap) = .ok (L2, m2))
    (h2 : min len gap = 0 →
      L2 = ⟨L._buffers, L._tail_pnode_cache, add64 L._len len, L._num⟩ ∧ m2 = m) :
    L.append m data len =
      (if len - min len gap ≠ 0 then
        match L2.refill_append_space m2 (len - min len gap) with
        | .error e => .error e
        | .ok (L3, m3) => L3.back_append m3 (data.drop (min len gap)) (len - min len gap)
      else .ok (L2, m2)) := by
  unfold list.append
  simp only [hg]
  by_cases hm : min len gap ≠ 0
  · obtain ⟨L1, m1, s1, s2⟩ := h1 hm
    rw [if_pos hm]
    simp only [s1, s2]
  · obtain ⟨rfl, rfl⟩ := h2 (Classical.not_not.mp hm)
    rw [if_neg hm]

/-- C10, amended: `append(data, len)` on a well-formed list whose append
buffer is not shared.  Let `c` be the ptr behind the tail cache and `gap` its
unused tail.  If every node views a part of a live region, the node addresses
are distinct and older than the next node, no node views bytes of the region
of `c` behind the end of `c`, `data` holds `len` bytes and the lengths fit a
`uint64_t`, then the call returns; the bytes of the list are its previous
bytes followed by the `len` bytes of `data`; `length()` has grown by `len`;
the first `min(len, gap)` bytes stand in the region of `c` behind its former
end; no region is allocated when `len <= gap`; and otherwise exactly one
region is allocated, viewed by the new back node, which holds the remaining
`len - gap` bytes.  At most two nodes are added, and at most one when the
tail cache is the back node. -/
theorem append_extends (m : Mem) (L : list) (data : List Nat) (len : Nat) (c : ptr) (gap : Nat)
    (hlive : views_live m L._buffers = true)
    (haddr : (L._buffers.map (fun n => n.node_addr)).Nodup)
    (hnext : ∀ x ∈ L._buffers, x.node_addr < m.next_node)
    (hc : L.tail_cache_ptr = .ok c) (hgap : c.unused_tail_length m = .ok gap)
    (hun : tail_unshared c L._buffers = true)
    (hdata : len ≤ data.length) (hlen : L._len + len < U64)
    (hbig : len + 2 * SPEC_BUFFER_ALLOC_UNIT ≤ U64) :
    ∃ L1 m1, L.append m data len = .ok (L1, m1) ∧
      L1.bytes m1 = L.bytes m ++ data.take len ∧ L1.length = L.length + len ∧
      (∀ i, c.m_raw = some i → min len gap ≠ 0 → ∃ r1, m1.raws i = some r1 ∧
        (r1.m_data.drop (c.m_off + c.m_len)).take (min len gap) = data.take (min len gap)) ∧
      (len ≤ gap → m1.next_raw = m.next_raw) ∧
      (gap < len → m1.next_raw = m.next_raw + 1 ∧
        ∃ n, L1._buffers.getLast? = some n ∧ n.toptr = ⟨some m.next_raw, 0, len - gap⟩) ∧
      L1._buffers.length ≤ L._buffers.length + 2 ∧
      (L.cache_is_back = true → L1._buffers.length ≤ L._buffers.length + 1) := by
  have hl := views_live_spec m L._buffers hlive
  have hu := tail_unshared_spec c L._buffers hun
  have hadd : add64 L._len len = L._len + len := by
    unfold add64
    exact Nat.mod_eq_of_lt hlen
  have hg0 : (⟨L._buffers, L._tail_pnode_cache, add64 L._len len, L._num⟩ :
      list).get_append_buffer_unused_tail_length m = .ok gap := by
    unfold list.get_append_buffer_unused_tail_length
    have : (⟨L._buffers, L._tail_pnode_cache, add64 L._len len, L._num⟩ : list).tail_cache_ptr
        = .ok c := hc
    rw [this]
    exact hgap
  -- the state after the first round
  have hfirst : ∃ L2 m2,
      (min len gap ≠ 0 → ∃ L1 m1,
        (⟨L._buffers, L._tail_pnode_cache, add64 L._len len, L._num⟩ : list).sync_tail m
          = .ok (L1, m1) ∧ L1.cache_append m1 data (min len gap) = .ok (L2, m2)) ∧
      (min len gap = 0 →
        L2 = ⟨L._buffers, L._tail_pnode_cache, add64 L._len len, L._num⟩ ∧ m2 = m) ∧
      L2._len = L._len + len ∧
      nodes_bytes m2 L2._buffers = nodes_bytes m L._buffers ++ data.take (min len gap) ∧
      m2.next_raw = m.next_raw ∧
      (∀ x ∈ L2._buffers, ∀ j, x.m_raw = some j → j < m2.next_raw) ∧
      (∀ i, c.m_raw = some i → min len gap ≠ 0 → ∃ r1, m2.raws i = some r1 ∧
        (r1.m_data.drop (c.m_off + c.m_len)).take (min len gap) = data.take (min len gap)) ∧
      L2._buffers.length ≤ L._buffers.length + 1 ∧
      (L.cache_is_back = true → L2._buffers.length ≤ L._buffers.length) := by
    by_cases hm : min len gap ≠ 0
    · unfold list.tail_cache_ptr at hc
      cases hca : L._tail_pnode_cache with
      | none =>
        simp only [hca, Except.ok.injEq] at hc
        subst hc
        simp only [ptr.unused_tail_length, ptr.mk_empty, Except.ok.injEq] at hgap
        subst hgap
        simp at hm
      | some a =>
        simp only [hca] at hc
        cases hf : L._buffers.find? (fun n => n.node_addr == a) with
        | none => simp [hf] at hc
        | some nc =>
          simp only [hf, Except.ok.injEq] at hc
          subst hc
          have hmem : nc ∈ L._buffers := List.mem_of_find?_eq_some hf
          obtain ⟨i, r, a1, a2, a3, a4, a5⟩ := hl nc hmem
          rw [unused_tail_eq m nc.toptr i r a1 a2 a3 a4] at hgap
          injection hgap with hgap
          have hmin : min len gap ≤ gap := Nat.min_le_right _ _
          have hminl : min len gap ≤ len := Nat.min_le_left _ _
          obtain ⟨L1, m1, L2, m2, s1, s2, s3, s4, s5, ⟨r2, s6, s7⟩, s8, s9, s10, s11⟩ :=
            first_round_spec m ⟨L._buffers, L._tail_pnode_cache, add64 L._len len, L._num⟩
              data (min len gap) a nc i r hca hf a1 a2 (by omega) a4 haddr hnext
              (fun x hx hxi => hu x hx (by rw [hxi, a1])) (by omega)
          refine ⟨L2, m2, fun _ => ⟨L1, m1, by rw [← hca]; exact s1, s2⟩, fun h => absurd h hm, ?_, s4,
            s5, ?_, ?_, s10,
            ?_⟩
          · rw [s3]
            exact hadd
          · intro x hx j hj
            rcases s9 x hx j hj with h1 | h1
            · obtain ⟨j2, _, b1, _, _, _, b5⟩ := hl x h1
              rw [hj] at b1
              injection b1 with b1
              subst b1
              omega
            · subst h1
              omega
          · intro i2 hi2 _
            rw [a1] at hi2
            injection hi2 with hi2
            subst hi2
            refine ⟨r2, s6, ?_⟩
            rw [s7]
            have := write_bytes_at r.m_data (data.take (min len gap)) (nc.m_off + nc.m_len) a3
            rw [List.length_take, Nat.min_eq_left (by omega)] at this
            exact this
          · intro hb
            exact s11 hb
    · have hz : min len gap = 0 := Classical.not_not.mp hm
      refine ⟨_, m, fun h => absurd h hm, fun _ => ⟨rfl, rfl⟩, hadd, ?_, rfl, ?_, ?_, by simp,
        by simp⟩
      · simp [hz]
      · intro x hx j hj
        obtain ⟨j2, _, b1, _, _, _, b5⟩ := hl x hx
        rw [hj] at b1
        injection b1 with b1
        subst b1
        exact b5
      · intro i _ h
        exact absurd hz h
  obtain ⟨L2, m2, f0, f1, f2, f3, f4, f5, f6, f7, f8⟩ := hfirst
  rw [list_append_eq m L data len gap L2 m2 hg0 f0 f1]
  by_cases hleft : len - min len gap ≠ 0
  · rw [if_pos hleft]
    obtain ⟨L3, m3, L4, m4, t1, t2, t3, t4, t5, t6, t7⟩ := second_round_spec m2 L2
      (data.drop (min len gap)) (len - min len gap) f5
      (by rw [List.length_drop]; omega) (by omega)
    simp only [t1, t2]
    have hlt : gap < len := by omega
    have hmg : min len gap = gap := Nat.min_eq_right (by omega)
    refine ⟨L4, m4, rfl, ?_, ?_, ?_, ?_, ?_, ?_, ?_⟩
    · show nodes_bytes m4 L4._buffers = nodes_bytes m L._buffers ++ _
      rw [t5, f3, List.append_assoc]
      congr 1
      have : len = min len gap + (len - min len gap) := by omega
      conv => rhs; rw [this, List.take_add]
    · show L4._len = L._len + len
      rw [t4, f2]
    · intro i hi hne
      obtain ⟨r1, b1, b2⟩ := f6 i hi hne
      have hlti : i ≠ m2.next_raw := by
        rw [f4]
        unfold list.tail_cache_ptr at hc
        cases hca : L._tail_pnode_cache with
        | none =>
          simp only [hca, Except.ok.injEq] at hc
          subst hc
          simp [ptr.mk_empty] at hi
        | some a =>
          simp only [hca] at hc
          cases hf : L._buffers.find? (fun n => n.node_addr == a) with
          | none => simp [hf] at hc
          | some nc =>
            simp only [hf, Except.ok.injEq] at hc
            subst hc
            obtain ⟨j2, _, c1, _, _, _, c5⟩ := hl nc (List.mem_of_find?_eq_some hf)
            rw [hi] at c1
            injection c1 with c1
            subst c1
            omega
      exact ⟨r1, by rw [t7 i hlti]; exact b1, b2⟩
    · intro hle
      omega
    · intro _
      refine ⟨by rw [t6, f4], ⟨_, by rw [t3, List.getLast?_concat], ?_⟩⟩
      simp only [f4, hmg]
    · rw [t3, List.length_append, List.length_singleton]
      omega
    · intro hb
      have := f8 hb
      rw [t3, List.length_append, List.length_singleton]
      omega
  · rw [if_neg hleft]
    have hz : len - min len gap = 0 := Classical.not_not.mp hleft
    have hle : len ≤ gap := by omega
    have hmg : min len gap = len := Nat.min_eq_left hle
    refine ⟨L2, m2, rfl, ?_, f2, f6, fun _ => f4, ?_, by omega, ?_⟩
    · show nodes_bytes m2 L2._buffers = nodes_bytes m L._buffers ++ _
      rw [f3, hmg]
    · intro h
      omega
    · intro hb
      have := f8 hb
      omega
/-- C10 witness: `append("abcde", 5)` on a list with an append buffer of two
bytes; two bytes go into the buffer and three into one new node. -/
theorem append_extends_witness :
    views_live list_reserved_two.2 list_reserved_two.1._buffers = true ∧
    list_reserved_two.1.tail_cache_ptr = .ok ⟨some 0, 0, 0⟩ ∧
    ptr.unused_tail_length list_reserved_two.2 ⟨some 0, 0, 0⟩ = .ok 2 ∧
    tail_unshared ⟨some 0, 0, 0⟩ list_reserved_two.1._buffers = true ∧
    ∃ L1 m1, list_reserved_two.1.append list_reserved_two.2 (str "abcde") 5 = .ok (L1, m1) ∧
      L1.bytes m1 = list_reserved_two.1.bytes list_reserved_two.2 ++ (str "abcde").take 5 ∧
      L1.length = list_reserved_two.1.length + 5 ∧
      (∀ i, (⟨some 0, 0, 0⟩ : ptr).m_raw = some i → min 5 2 ≠ 0 → ∃ r1, m1.raws i = some r1 ∧
        (r1.m_data.drop (0 + 0)).take (min 5 2) = (str "abcde").take (min 5 2)) ∧
      (5 ≤ 2 → m1.next_raw = list_reserved_two.2.next_raw) ∧
      (2 < 5 → m1.next_raw = list_reserved_two.2.next_raw + 1 ∧
        ∃ n, L1._buffers.getLast? = some n ∧
          n.toptr = ⟨some list_reserved_two.2.next_raw, 0, 5 - 2⟩) ∧
      L1._buffers.length ≤ list_reserved_two.1._buffers.length + 2 ∧
      (list_reserved_two.1.cache_is_back = true →
        L1._buffers.length ≤ list_reserved_two.1._buffers.length + 1) :=
  ⟨rfl, rfl, rfl, rfl,
   append_extends list_reserved_two.2 list_reserved_two.1 (str "abcde") 5 ⟨some 0, 0, 0⟩ 2
     rfl (by decide) (by decide) rfl rfl rfl (by decide) (by decide) (by decide)⟩

/-- C10 counterexample: the list `abc`, `abcY` whose second node views the
region of the append buffer one byte behind the end of the first node (the
tail cache is still the first node, with five unused bytes).
`append("Z", 1)` writes `Z` into that byte: the bytes of the list become
`abcabcZZ`, not the previous bytes `abcabcY` followed by `Z`. -/
theorem append_overwrites_shared_tail :
    observe list_shared_tail = .ok (7, 2, [3, 4], str "abcabcY") ∧
    observe append_shared_tail = .ok (8, 3, [3, 4, 1], str "abcabcZZ") ∧
    str "abcabcZZ" ≠ str "abcabcY" ++ str "Z" :=
  ⟨rfl, rfl, by decide⟩
/-- C11, amended: `append(p, off, len)` on a non-empty list, for a ptr `p`
that has a region.  With `off + len <= p.length()`, the views of `p` and of
the nodes inside live regions, and the new length fitting a `uint64_t`, the
call returns; the bytes of the list become the previous bytes followed by
the bytes `[off, off + len)` of `p`, and `length()` grows by `len`.  If `p`
shares the region of the tail node and `p.start() + off` is the end of the
tail node, the tail node grows by `len` and no node is added; otherwise
exactly one node is added, which views `[off, off + len)` of `p`. -/
theorem append_range_merges_or_links (m : Mem) (L : list) (p : ptr) (off len : Nat)
    (tail : ptr_node) (htail : L._buffers.getLast? = some tail)
    (hp : node_in m p) (hL : ∀ x ∈ L._buffers, node_in m x.toptr)
    (hle : off + len ≤ p.m_len) (hlen : L._len + len < U64) :
    ∃ L1 m1, L.append_ptr_range m p off len = .ok (L1, m1) ∧
      L1.bytes m1 = L.bytes m ++ ((p.bytes m).drop off).take len ∧
      L1.length = L.length + len ∧
      (tail.m_raw = p.m_raw ∧ tail.m_off + tail.m_len = p.m_off + off →
        L1._buffers = L._buffers.dropLast ++
          [⟨⟨tail.m_raw, tail.m_off, tail.m_len + len⟩, tail.node_addr⟩] ∧
        L1._num = L._num) ∧
      (¬ (tail.m_raw = p.m_raw ∧ tail.m_off + tail.m_len = p.m_off + off) →
        (∃ n, L1._buffers = L._buffers ++ [n] ∧ n.toptr = ⟨p.m_raw, p.m_off + off, len⟩) ∧
        L1._num = add64 L._num 1) := by
  obtain ⟨i, r, a, b, hb, hu⟩ := hp
  have hsplit : L._buffers = L._buffers.dropLast ++ [tail] :=
    (List.dropLast_append_getLast? tail htail).symm
  obtain ⟨j, rt, ta, tb, tc, td⟩ := hL tail (by rw [hsplit]; simp)
  have h1 : (len + off) % U64 = len + off := Nat.mod_eq_of_lt (by omega)
  have h1a : (off + len) % U64 = off + len := Nat.mod_eq_of_lt (by omega)
  have h2 : (p.m_off + off) % U64 = p.m_off + off := Nat.mod_eq_of_lt (by omega)
  have h3 : (tail.m_off + tail.m_len) % U64 = tail.m_off + tail.m_len :=
    Nat.mod_eq_of_lt (by omega)
  have hadd : add64 L._len len = L._len + len := Nat.mod_eq_of_lt hlen
  have hguard : (len + off) % U64 ≤ p.length := by
    rw [h1]
    show len + off ≤ p.m_len
    omega
  unfold list.append_ptr_range
  rw [if_pos hguard]
  simp only [htail]
  by_cases hmerge : tail.m_raw = p.m_raw ∧ tail.m_off + tail.m_len = p.m_off + off
  · have hcond : tail.m_raw = p.m_raw ∧ tail.toptr.end_ = (p.start + off) % U64 := by
      refine ⟨hmerge.1, ?_⟩
      simp only [ptr.end_, ptr.start, h3, h2]
      exact hmerge.2
    rw [if_pos hcond]
    have hji : j = i := by
      have := hmerge.1
      rw [ta, a] at this
      injection this
    subst hji
    rw [b] at tb
    injection tb with tb
    subst tb
    have hadd2 : add64 tail.toptr.length len = tail.m_len + len := by
      simp only [add64, ptr.length]
      exact Nat.mod_eq_of_lt (by omega)
    have hset : tail.toptr.set_length m (add64 tail.toptr.length len)
        = .ok ⟨tail.m_raw, tail.m_off, tail.m_len + len⟩ := by
      unfold ptr.set_length ptr.raw_length
      simp only [ta, b, raw.get_len, hadd2]
      rw [if_pos (by omega)]
    rw [hset]
    refine ⟨_, m, rfl, ?_, hadd, fun _ => ⟨rfl, rfl⟩, fun h => absurd hmerge h⟩
    show nodes_bytes m (L._buffers.dropLast ++ _) = nodes_bytes m L._buffers ++ _
    rw [nodes_bytes_append]
    conv => rhs; rw [hsplit, nodes_bytes_append]
    simp only [nodes_bytes, List.append_nil, List.append_assoc]
    congr 1
    simp only [ptr.bytes, ta, a, b, List.drop_take, List.drop_drop, List.take_take]
    rw [Nat.min_eq_left (by omega), ← hmerge.2, List.take_add]
    rw [List.drop_drop]
  · have hcond : ¬ (tail.m_raw = p.m_raw ∧ tail.toptr.end_ = (p.start + off) % U64) := by
      intro h
      apply hmerge
      refine ⟨h.1, ?_⟩
      have := h.2
      simp only [ptr.end_, ptr.start, h3, h2] at this
      exact this
    rw [if_neg hcond]
    have hcs : ptr_node.create_slice m p off len = .ok
        (⟨⟨some i, p.m_off + off, len⟩, m.next_node⟩,
         ⟨(m.set_raw i (some { r with nref := r.nref + 1 })).raws, m.next_raw, m.brk,
          m.next_node + 1⟩) := by
      unfold ptr_node.create_slice ptr.slice Mem.nref_inc
      simp only [h1a, hle, if_true, a, b, h2, Mem.new_node]
      rfl
    simp only [hcs]
    refine ⟨_, _, rfl, ?_, hadd, fun h => absurd h hmerge, fun _ => ⟨⟨_, rfl, ?_⟩, rfl⟩⟩
    · show nodes_bytes _ (L._buffers ++ _) = nodes_bytes m L._buffers ++ _
      have hfr : ∀ x : ptr, x.bytes
          ⟨(m.set_raw i (some { r with nref := r.nref + 1 })).raws, m.next_raw, m.brk,
            m.next_node + 1⟩ = x.bytes m := by
        intro x
        unfold ptr.bytes
        cases hx : x.m_raw with
        | none => rfl
        | some k =>
          simp only [Mem.set_raw]
          by_cases hk : k = i
          · subst hk
            simp [b]
          · simp [hk]
      rw [nodes_bytes_append, nodes_bytes_frame m _ _ (fun x _ => hfr x.toptr)]
      simp only [nodes_bytes, List.append_nil, hfr]
      rw [slice_bytes m p ⟨some i, p.m_off + off, len⟩ off len hle (by rw [a])]
    · simp only [a]

/-- C11 witness: the merge of the append test on the list `A`; the byte
`B` behind the tail node in the same region is taken over by the tail node,
which then holds `AB`. -/
theorem append_range_merges_or_links_witness :
    observe append_range_merge = .ok (2, 1, [2], str "AB") ∧
    crc_wit_list._buffers.getLast? = some ⟨⟨some 0, 0, 1⟩, 0⟩ ∧
    1 + 2 ≤ (⟨some 0, 0, 3⟩ : ptr).m_len ∧ crc_wit_list._len + 2 < U64 ∧
    ∃ L1 m1, crc_wit_list.append_ptr_range crc_wit_mem ⟨some 0, 0, 3⟩ 1 2 = .ok (L1, m1) ∧
      L1.bytes m1 = crc_wit_list.bytes crc_wit_mem ++
        (((⟨some 0, 0, 3⟩ : ptr).bytes crc_wit_mem).drop 1).take 2 ∧
      L1.length = crc_wit_list.length + 2 ∧
      L1._buffers = [⟨⟨some 0, 0, 3⟩, 0⟩] ∧ L1._num = 1 := by
  refine ⟨rfl, rfl, by decide, by decide, ?_⟩
  obtain ⟨L1, m1, h1, h2, h3, h4, _⟩ :=
    append_range_merges_or_links crc_wit_mem crc_wit_list ⟨some 0, 0, 3⟩ 1 2
      ⟨⟨some 0, 0, 1⟩, 0⟩ rfl ⟨0, _, rfl, rfl, by decide, by decide⟩
      (by
        intro x hx
        simp only [crc_wit_list, List.mem_singleton] at hx
        subst hx
        exact ⟨0, _, rfl, rfl, by decide, by decide⟩)
      (by decide) (by decide)
  exact ⟨L1, m1, h1, h2, h3, h4 ⟨rfl, rfl⟩⟩

/-- C11 counterexample: a default-constructed ptr has length 0, so
`off = len = 0` meets `off + len <= p.length()`; on the list `A` the call
`append(p, 0, 0)` fails the assertion `m_raw` of the slicing constructor
instead of adding a node. -/
theorem append_range_without_region_asserts :
    (0 : Nat) + 0 ≤ ptr.mk_empty.length ∧
    (observe (list_of_texts ["A"])) = .ok (1, 1, [1], str "A") ∧
    observe append_range_no_region = .error .assert_failed :=
  ⟨by decide, rfl, rfl⟩
/-- The two embeddings of `list::splice` agree: the outcome is a return
exactly when `splice` yields a state, and otherwise carries its error. -/
theorem splice_outcome_agrees (m : Mem) (L : list) (off len : Nat) (claim_by : Option list) :
    (∀ s, L.splice_outcome m off len claim_by = .returned s ↔
      L.splice m off len claim_by = .ok s) ∧
    (∀ e s, L.splice_outcome m off len claim_by = .thrown e s →
      L.splice m off len claim_by = .error e) ∧
    (∀ e, L.splice_outcome m off len claim_by = .aborted e →
      L.splice m off len claim_by = .error e) := by
  unfold list.splice_outcome list.splice
  by_cases h0 : len = 0
  · simp [h0]
  · by_cases h1 : off ≥ L.length
    · simp [h0, h1]
    · simp only [h0, h1, if_false]
      split <;> simp_all

/-- C12, amended: for every list and every length other than 0,
`splice(off, len)` with `off >= length()` throws `end_of_buffer`, and the
list, the claim target and the heap are as before the call. -/
theorem splice_past_end_throws (m : Mem) (L : list) (off len : Nat) (claim_by : Option list)
    (hlen : len ≠ 0) (hoff : off ≥ L.length) :
    L.splice_outcome m off len claim_by = .thrown .end_of_buffer (L, claim_by, m) ∧
    L.splice m off len claim_by = .error .end_of_buffer := by
  unfold list.splice_outcome list.splice
  simp [hlen, hoff]

/-- C12 witness: `splice(1, 1)` on the empty list, the call of the test. -/
theorem splice_past_end_throws_witness :
    (1 : Nat) ≠ 0 ∧ 1 ≥ list.mk_empty.length ∧
    list.mk_empty.splice_outcome Mem.empty 1 1 none
      = .thrown .end_of_buffer (list.mk_empty, none, Mem.empty) ∧
    list.mk_empty.splice Mem.empty 1 1 none = .error .end_of_buffer :=
  ⟨by decide, by decide,
   splice_past_end_throws Mem.empty list.mk_empty 1 1 none (by decide) (by decide)⟩

/-- C12 counterexample: with length 0 the call returns before the offset
is looked at: `splice(7, 0)` on every list, also with `7 >= length()`,
returns and changes nothing. -/
theorem splice_zero_length_returns :
    (7 : Nat) ≥ list.mk_empty.length ∧
    list.mk_empty.splice_outcome Mem.empty 7 0 none
      = .returned (list.mk_empty, none, Mem.empty) ∧
    list.mk_empty.splice Mem.empty 7 0 none = .ok (list.mk_empty, none, Mem.empty) :=
  ⟨by decide, rfl, rfl⟩

theorem nref_inc_error (m : Mem) (i : Nat) (e : Err) (h : m.nref_inc i = .error e) :
    e = .undefined := by
  unfold Mem.nref_inc at h
  split at h
  · injection h with h
    exact h.symm
  · cases h

theorem create_slice_error (m : Mem) (p : ptr) (off len : Nat) (e : Err)
    (h : ptr_node.create_slice m p off len = .error e) : e ≠ .end_of_buffer := by
  unfold ptr_node.create_slice ptr.slice at h
  by_cases hg : (off + len) % U64 ≤ p.m_len
  · rw [if_pos hg] at h
    cases hr : p.m_raw with
    | none =>
      simp only [hr] at h
      injection h with h
      rw [← h]
      intro hc
      cases hc
    | some i =>
      simp only [hr] at h
      cases hn : m.nref_inc i with
      | error e1 =>
        simp only [hn] at h
        injection h with h
        rw [← h, nref_inc_error m i e1 hn]
        intro hc
        cases hc
      | ok m1 =>
        simp only [hn] at h
        cases h
  · rw [if_neg hg] at h
    injection h with h
    rw [← h]
    intro hc
    cases hc

theorem dispose_error (m : Mem) (n : ptr_node) (e : Err) (h : n.dispose m = .error e) :
    e ≠ .end_of_buffer := by
  unfold ptr_node.dispose ptr.release at h
  cases hr : n.m_raw with
  | none =>
    simp only [hr] at h
    cases h
  | some i =>
    simp only [hr] at h
    cases hm : m.raws i with
    | none =>
      simp only [hm] at h
      injection h with h
      rw [← h]
      intro hc
      cases hc
    | some r =>
      simp only [hm] at h
      by_cases h1 : r.nref = 1
      · simp only [h1, if_true] at h
        cases h
      · simp only [h1, if_false] at h
        cases h

theorem clear_and_dispose_error (ns : List ptr_node) : ∀ (m : Mem) (e : Err),
    clear_and_dispose m ns = .error e → e ≠ .end_of_buffer := by
  induction ns with
  | nil => intro m e h; cases h
  | cons n rest ih =>
    intro m e h
    simp only [clear_and_dispose] at h
    cases hd : n.dispose m with
    | error e1 =>
      simp only [hd] at h
      injection h with h
      rw [← h]
      exact dispose_error m n e1 hd
    | ok m1 =>
      simp only [hd] at h
      exact ih m1 e h

theorem substr_skip_error (ns : List ptr_node) : ∀ (off : Nat) (e : Err),
    substr_skip ns off = .error e → e ≠ .end_of_buffer := by
  induction ns with
  | nil =>
    intro off e h
    simp only [substr_skip] at h
    split at h
    · injection h with h
      rw [← h]
      intro hc
      cases hc
    · cases h
  | cons n rest ih =>
    intro off e h
    simp only [substr_skip] at h
    split at h
    · exact ih _ e h
    · cases h

theorem substr_loop_error (ns : List ptr_node) : ∀ (m : Mem) (L : list) (off len : Nat) (e : Err),
    substr_loop m L ns off len = .error e → e ≠ .end_of_buffer := by
  induction ns with
  | nil =>
    intro m L off len e h
    simp only [substr_loop] at h
    injection h with h
    rw [← h]
    intro hc
    cases hc
  | cons n rest ih =>
    intro m L off len e h
    simp only [substr_loop] at h
    split at h
    · cases hs : ptr_node.create_slice m n.toptr off len with
      | error e1 =>
        simp only [hs] at h
        injection h with h
        rw [← h]
        exact create_slice_error m _ off len e1 hs
      | ok v => simp [hs] at h
    · cases hs : ptr_node.create_slice m n.toptr off (n.toptr.length - off) with
      | error e1 =>
        simp only [hs] at h
        injection h with h
        rw [← h]
        exact create_slice_error m _ off _ e1 hs
      | ok v =>
        obtain ⟨n1, m1⟩ := v
        simp only [hs] at h
        exact ih m1 _ 0 _ e h

/-- C13, amended: for `off + len` that fits a `uint64_t`,
`substr_of(S, off, len)` throws `end_of_buffer` exactly when
`off + len > S.length()`: in that case the destination and the heap are as
before the call, and in the other case the call does not end by
`end_of_buffer`. -/
theorem substr_of_throws_iff (m : Mem) (L other : list) (off len : Nat)
    (hw : off + len < U64) :
    (off + len > other.length →
      L.substr_of_outcome m other off len = .thrown .end_of_buffer (L, m) ∧
      L.substr_of m other off len = .error .end_of_buffer) ∧
    (off + len ≤ other.length →
      (∀ e s, L.substr_of_outcome m other off len ≠ .thrown e s) ∧
      L.substr_of_outcome m other off len ≠ .aborted .end_of_buffer ∧
      L.substr_of m other off len ≠ .error .end_of_buffer) := by
  have hmod : (off + len) % U64 = off + len := Nat.mod_eq_of_lt hw
  constructor
  · intro h
    unfold list.substr_of_outcome list.substr_of
    rw [hmod]
    simp [h]
  · intro h
    have hg : ¬ (off + len > other.length) := by omega
    have key : L.substr_of m other off len ≠ .error .end_of_buffer := by
      intro hc
      unfold list.substr_of at hc
      rw [hmod, if_neg hg] at hc
      cases h1 : L.clear m with
      | error e1 =>
        simp only [h1] at hc
        unfold list.clear at h1
        cases h2 : clear_and_dispose m L._buffers with
        | error e2 =>
          simp only [h2] at h1
          injection h1 with h1
          injection hc with hc
          exact clear_and_dispose_error _ m e2 h2 (by rw [h1, hc])
        | ok m2 => simp [h2] at h1
      | ok v =>
        obtain ⟨L1, m1⟩ := v
        simp only [h1] at hc
        cases h2 : substr_skip other._buffers off with
        | error e2 =>
          simp only [h2] at hc
          injection hc with hc
          exact substr_skip_error _ off e2 h2 hc
        | ok w =>
          obtain ⟨cur, off1⟩ := w
          simp only [h2] at hc
          split at hc
          · exact substr_loop_error cur m1 L1 off1 len _ hc rfl
          · cases hc
    unfold list.substr_of_outcome
    rw [hmod, if_neg hg]
    refine ⟨?_, ?_, key⟩
    · intro e s
      split <;> intro hc <;> cases hc
    · cases hr : L.substr_of m other off len with
      | ok v => simp
      | error e =>
        simp only
        intro hc
        injection hc with hc
        rw [hc] at hr
        exact key hr

/-- C13 witness: `substr_of(S, 1, 200)` with `S` the list `ABC` and a
destination that holds `X`; the call throws and the destination still holds
`X` in one node. -/
theorem substr_of_throws_iff_witness :
    (1 : Nat) + 200 < U64 ∧ 1 + 200 > abc_and_x.1.length ∧
    (abc_and_x.2.1.substr_of_outcome abc_and_x.2.2 abc_and_x.1 1 200
        = .thrown .end_of_buffer (abc_and_x.2.1, abc_and_x.2.2) ∧
      abc_and_x.2.1.substr_of abc_and_x.2.2 abc_and_x.1 1 200 = .error .end_of_buffer) ∧
    observe_outcome (abc_and_x.2.1.substr_of_outcome abc_and_x.2.2 abc_and_x.1 1 200)
      = (some .end_of_buffer, some (1, 1, [1], str "X")) :=
  ⟨by decide, by decide,
   (substr_of_throws_iff abc_and_x.2.2 abc_and_x.2.1 abc_and_x.1 1 200 (by decide)).1
     (by decide), rfl⟩

/-- C13 counterexample: `substr_of(S, 2 ^ 64 - 1, 2)` on the list `ABC`.
The sum `off + len` wraps to 1, the range check passes although the range
exceeds the 3 bytes of `S`, and the walk that skips `off` bytes runs off the
chain: the call ends in undefined behaviour, not in `end_of_buffer`. -/
theorem substr_of_wrapped_range_not_thrown :
    abc_and_x.1.length = 3 ∧ 2 ^ 64 - 1 + 2 > abc_and_x.1.length ∧
    observe_outcome (abc_and_x.2.1.substr_of_outcome abc_and_x.2.2 abc_and_x.1 (2 ^ 64 - 1) 2)
      = (some .undefined, none) :=
  ⟨rfl, by decide, rfl⟩

/-- C15: for every list whose content is the single byte `A` (its nodes
inside live regions, with valid checksum caches), `crc32c(0)` returns
`0xB3109EBF`, a repeated `crc32c(0)` returns the same value, and
`crc32c(0xB3109EBF)`, before or after the repeated call, returns
`0x5FA5C0CC`. -/
theorem crc32c_of_single_a (m : Mem) (L : list)
    (h : ∀ n ∈ L._buffers, crc_ready m n = true) (hb : L.bytes m = [65]) :
    ∃ m1 m2 m3 m4, L.crc32c m 0 = .ok (0xB3109EBF, m1) ∧
      L.crc32c m1 0 = .ok (0xB3109EBF, m2) ∧
      L.crc32c m1 0xB3109EBF = .ok (0x5FA5C0CC, m3) ∧
      L.crc32c m2 0xB3109EBF = .ok (0x5FA5C0CC, m4) := by
  have v1 : crc32c_bytes 0 [65] = 0xB3109EBF := by decide
  have v2 : crc32c_bytes 0xB3109EBF [65] = 0x5FA5C0CC := by decide
  unfold list.bytes at hb
  obtain ⟨m1, a1, a2, a3⟩ := crc32c_loop_spec L._buffers m 0 h
  have h1 : ∀ n ∈ L._buffers, crc_ready m1 n = true := fun n hn => a3 n (h n hn)
  have hb1 : nodes_bytes m1 L._buffers = [65] := by
    rw [nodes_bytes_congr m m1 a2, hb]
  obtain ⟨m2, b1, b2, b3⟩ := crc32c_loop_spec L._buffers m1 0 h1
  have h2 : ∀ n ∈ L._buffers, crc_ready m2 n = true := fun n hn => b3 n (h1 n hn)
  have hb2 : nodes_bytes m2 L._buffers = [65] := by
    rw [nodes_bytes_congr m1 m2 b2, hb1]
  obtain ⟨m3, c1, _, _⟩ := crc32c_loop_spec L._buffers m1 0xB3109EBF h1
  obtain ⟨m4, d1, _, _⟩ := crc32c_loop_spec L._buffers m2 0xB3109EBF h2
  refine ⟨m1, m2, m3, m4, ?_, ?_, ?_, ?_⟩
  · unfold list.crc32c
    rw [a1, hb, v1]
  · unfold list.crc32c
    rw [b1, hb1, v1]
  · unfold list.crc32c
    rw [c1, hb1, v2]
  · unfold list.crc32c
    rw [d1, hb2, v2]

/-- C15 witness: the list `A` built by `push_back` over a region of one
byte.  The first call caches the pair (0, `0xB3109EBF`) for the range
`[0, 1)`, so the calls that follow hit the cache. -/
theorem crc32c_of_single_a_witness :
    (∀ n ∈ list_a.1._buffers, crc_ready list_a.2 n = true) ∧ list_a.1.bytes list_a.2 = [65] ∧
    crc_cache (list_a.1.crc32c list_a.2 0) 0 = some ((0, 1), (0, 0xB3109EBF)) ∧
    ∃ m1 m2 m3 m4, list_a.1.crc32c list_a.2 0 = .ok (0xB3109EBF, m1) ∧
      list_a.1.crc32c m1 0 = .ok (0xB3109EBF, m2) ∧
      list_a.1.crc32c m1 0xB3109EBF = .ok (0x5FA5C0CC, m3) ∧
      list_a.1.crc32c m2 0xB3109EBF = .ok (0x5FA5C0CC, m4) :=
  ⟨by decide, rfl, rfl, crc32c_of_single_a list_a.2 list_a.1 (by decide) rfl⟩


/-! ## Checksum invalidation (C14) -/

theorem crc32c_bit_lt (c : Nat) (h : c < 2 ^ 32) : crc32c_bit c < 2 ^ 32 := by
  unfold crc32c_bit
  split
  · exact Nat.xor_lt_two_pow (by omega) (by decide)
  · omega

theorem xor_poly_ne (x y : Nat) (hx : x < 2 ^ 31) (hy : y < 2 ^ 31) : x ^^^ CRC32C_POLY ≠ y := by
  intro h
  have h1 : (x ^^^ CRC32C_POLY).testBit 31 = true := by
    rw [Nat.testBit_xor, Nat.testBit_lt_two_pow hx]
    decide
  rw [h, Nat.testBit_lt_two_pow hy] at h1
  cases h1

theorem crc32c_bit_inj (a b : Nat) (ha : a < 2 ^ 32) (hb : b < 2 ^ 32)
    (h : crc32c_bit a = crc32c_bit b) : a = b := by
  unfold crc32c_bit at h
  by_cases pa : a % 2 = 1
  · by_cases pb : b % 2 = 1
    · rw [if_pos pa, if_pos pb] at h
      have := congrArg (fun t => t ^^^ CRC32C_POLY) h
      simp only [Nat.xor_cancel_right] at this
      omega
    · rw [if_pos pa, if_neg pb] at h
      exact absurd h (xor_poly_ne _ _ (by omega) (by omega))
  · by_cases pb : b % 2 = 1
    · rw [if_neg pa, if_pos pb] at h
      exact absurd h.symm (xor_poly_ne _ _ (by omega) (by omega))
    · rw [if_neg pa, if_neg pb] at h
      omega

theorem crc32c_byte_lt (c b : Nat) (hc : c < 2 ^ 32) (hb : b < 2 ^ 32) :
    crc32c_byte c b < 2 ^ 32 := by
  unfold crc32c_byte
  have h0 : c ^^^ b < 2 ^ 32 := Nat.xor_lt_two_pow hc hb
  exact crc32c_bit_lt _ (crc32c_bit_lt _ (crc32c_bit_lt _ (crc32c_bit_lt _
    (crc32c_bit_lt _ (crc32c_bit_lt _ (crc32c_bit_lt _ (crc32c_bit_lt _ h0)))))))

theorem crc32c_byte_inj (c1 b1 c2 b2 : Nat) (hc1 : c1 < 2 ^ 32) (hb1 : b1 < 2 ^ 32)
    (hc2 : c2 < 2 ^ 32) (hb2 : b2 < 2 ^ 32) (h : crc32c_byte c1 b1 = crc32c_byte c2 b2) :
    c1 ^^^ b1 = c2 ^^^ b2 := by
  unfold crc32c_byte at h
  have x0 : c1 ^^^ b1 < 2 ^ 32 := Nat.xor_lt_two_pow hc1 hb1
  have y0 : c2 ^^^ b2 < 2 ^ 32 := Nat.xor_lt_two_pow hc2 hb2
  have x1 := crc32c_bit_lt _ x0
  have y1 := crc32c_bit_lt _ y0
  have x2 := crc32c_bit_lt _ x1
  have y2 := crc32c_bit_lt _ y1
  have x3 := crc32c_bit_lt _ x2
  have y3 := crc32c_bit_lt _ y2
  have x4 := crc32c_bit_lt _ x3
  have y4 := crc32c_bit_lt _ y3
  have x5 := crc32c_bit_lt _ x4
  have y5 := crc32c_bit_lt _ y4
  have x6 := crc32c_bit_lt _ x5
  have y6 := crc32c_bit_lt _ y5
  have x7 := crc32c_bit_lt _ x6
  have y7 := crc32c_bit_lt _ y6
  have e7 := crc32c_bit_inj _ _ x7 y7 h
  have e6 := crc32c_bit_inj _ _ x6 y6 e7
  have e5 := crc32c_bit_inj _ _ x5 y5 e6
  have e4 := crc32c_bit_inj _ _ x4 y4 e5
  have e3 := crc32c_bit_inj _ _ x3 y3 e4
  have e2 := crc32c_bit_inj _ _ x2 y2 e3
  have e1 := crc32c_bit_inj _ _ x1 y1 e2
  exact crc32c_bit_inj _ _ x0 y0 e1

theorem crc32c_bytes_lt (data : List Nat) : ∀ (c : Nat), c < 2 ^ 32 →
    (∀ b ∈ data, b < 2 ^ 32) → crc32c_bytes c data < 2 ^ 32 := by
  induction data with
  | nil => intro c hc _; exact hc
  | cons b rest ih =>
    intro c hc hb
    show crc32c_bytes (crc32c_byte c b) rest < 2 ^ 32
    exact ih _ (crc32c_byte_lt c b hc (hb b (List.mem_cons_self _ _)))
      (fun x hx => hb x (List.mem_cons_of_mem _ hx))

theorem crc32c_bytes_inj (data : List Nat) : ∀ (c1 c2 : Nat), c1 < 2 ^ 32 → c2 < 2 ^ 32 →
    (∀ b ∈ data, b < 2 ^ 32) → crc32c_bytes c1 data = crc32c_bytes c2 data → c1 = c2 := by
  induction data with
  | nil => intro c1 c2 _ _ _ h; exact h
  | cons b rest ih =>
    intro c1 c2 h1 h2 hb h
    have hbb := hb b (List.mem_cons_self _ _)
    have := ih _ _ (crc32c_byte_lt c1 b h1 hbb) (crc32c_byte_lt c2 b h2 hbb)
      (fun x hx => hb x (List.mem_cons_of_mem _ hx)) h
    have hx := crc32c_byte_inj c1 b c2 b h1 hbb h2 hbb this
    have := congrArg (fun t => t ^^^ b) hx
    simpa only [Nat.xor_cancel_right] using this

/-- A change of one byte changes the CRC32C, whatever the seed. -/
theorem crc32c_bytes_one_byte (s : Nat) (A C : List Nat) (x y : Nat) (hs : s < 2 ^ 32)
    (hA : ∀ b ∈ A, b < 2 ^ 32) (hC : ∀ b ∈ C, b < 2 ^ 32) (hx : x < 2 ^ 32) (hy : y < 2 ^ 32)
    (hxy : x ≠ y) : crc32c_bytes s (A ++ x :: C) ≠ crc32c_bytes s (A ++ y :: C) := by
  intro h
  rw [crc32c_bytes_append, crc32c_bytes_append] at h
  have hc := crc32c_bytes_lt A s hs hA
  have h1 : crc32c_byte (crc32c_bytes s A) x = crc32c_byte (crc32c_bytes s A) y :=
    crc32c_bytes_inj C _ _ (crc32c_byte_lt _ x hc hx) (crc32c_byte_lt _ y hc hy) hC h
  have h2 := crc32c_byte_inj _ x _ y hc hx hc hy h1
  apply hxy
  have := congrArg (fun t => crc32c_bytes s A ^^^ t) h2
  simpa only [← Nat.xor_assoc, Nat.xor_self, Nat.zero_xor] using this

theorem crc_ready_after_copy_in (m m2 : Mem) (p : ptr) (off len : Nat) (src : List Nat)
    (h2 : p.copy_in m off len src true = .ok m2) (n : ptr_node) (hn : crc_ready m n = true) :
    crc_ready m2 n = true := by
  unfold ptr.copy_in at h2
  cases hp : p.m_raw with
  | none => simp [hp] at h2
  | some i =>
    simp only [hp] at h2
    split at h2
    · split at h2
      · cases h2
      · obtain ⟨r, hr, hle, rfl⟩ := store_spec m i _ _ true m2 h2
        unfold crc_ready at hn ⊢
        cases hnr : n.m_raw with
        | none =>
          simp only [hnr] at hn ⊢
          exact hn
        | some j =>
          simp only [hnr] at hn ⊢
          by_cases hj : j = i
          · subst hj
            simp only [hr, Bool.and_eq_true, decide_eq_true_eq] at hn
            simp only [Mem.set_raw, if_true, if_true, raw.invalidate_crc,
              write_bytes_length _ _ _ hle, Bool.and_eq_true, decide_eq_true_eq]
            refine ⟨⟨⟨hn.1.1.1, hn.1.1.2⟩, hn.1.2⟩, ?_⟩
            simp [raw.cache_valid]
          · simp only [Mem.set_raw, hj, if_false]
            exact hn
    · cases h2

/-- C14, amended: the digest for seed `s` has been computed (and cached),
and a `copy_in` with `crc_reset = true` through a ptr on one of the regions
changes the content of the list in exactly one byte.  Then the next
`crc32c(s)` returns a value other than the first one. -/
theorem digest_changes_on_one_byte (m : Mem) (L : list) (s : Nat) (p : ptr) (off len : Nat)
    (src : List Nat) (d1 : Nat) (m1 m2 : Mem) (A C : List Nat) (x y : Nat)
    (hs : s < U32) (h : ∀ n ∈ L._buffers, crc_ready m n = true)
    (h1 : L.crc32c m s = .ok (d1, m1))
    (h2 : p.copy_in m1 off len src true = .ok m2)
    (hb1 : L.bytes m1 = A ++ x :: C) (hb2 : L.bytes m2 = A ++ y :: C) (hxy : x ≠ y)
    (hbytes : ∀ b ∈ A ++ x :: y :: C, b < 256) :
    ∃ d2 m3, L.crc32c m2 s = .ok (d2, m3) ∧ d2 ≠ d1 := by
  unfold list.bytes at hb1 hb2
  obtain ⟨m1x, a1, a2, a3⟩ := crc32c_loop_spec L._buffers m s h
  unfold list.crc32c at h1
  rw [a1] at h1
  simp only [Except.ok.injEq, Prod.mk.injEq] at h1
  obtain ⟨hd1, rfl⟩ := h1
  have hr1 : ∀ n ∈ L._buffers, crc_ready m1x n = true := fun n hn => a3 n (h n hn)
  have hr2 : ∀ n ∈ L._buffers, crc_ready m2 n = true :=
    fun n hn => crc_ready_after_copy_in m1x m2 p off len src h2 n (hr1 n hn)
  obtain ⟨m3, b1, _, _⟩ := crc32c_loop_spec L._buffers m2 s hr2
  refine ⟨_, m3, b1, ?_⟩
  rw [← hd1, ← nodes_bytes_congr m m1x a2, hb1, hb2]
  have hlt : ∀ b ∈ A ++ x :: y :: C, b < 2 ^ 32 := by
    intro b hb
    have := hbytes b hb
    omega
  exact (crc32c_bytes_one_byte s A C x y hs
    (fun b hb => hlt b (by simp [hb])) (fun b hb => hlt b (by simp [hb]))
    (hlt x (by simp)) (hlt y (by simp)) hxy).symm

/-- C14 witness: the list `AB`, seed 0; `copy_in(1, 1, "Z")` through the
ptr of its node turns the content into `AZ`. -/
theorem digest_changes_on_one_byte_witness :
    ∃ d1 m1 m2, list_ab.1.crc32c list_ab.2 0 = .ok (d1, m1) ∧
      ptr.copy_in m1 ⟨some 0, 0, 2⟩ 1 1 (str "Z") true = .ok m2 ∧
      list_ab.1.bytes m1 = [65] ++ 66 :: [] ∧ list_ab.1.bytes m2 = [65] ++ 90 :: [] ∧
      ∃ d2 m3, list_ab.1.crc32c m2 0 = .ok (d2, m3) ∧ d2 ≠ d1 :=
  ⟨_, _, _, rfl, rfl, rfl, rfl,
   digest_changes_on_one_byte list_ab.2 list_ab.1 0 ⟨some 0, 0, 2⟩ 1 1 (str "Z") _ _ _
     [65] [] 66 90 (by decide) (by decide) rfl rfl rfl rfl (by decide) (by decide)⟩

/-- C14 counterexample: the list `A` is a slice of a ptr over the region
`ABC`.  After the digest for seed 0 has been cached, `copy_in(2, 1, "Z")` with
`crc_reset = true` turns the region into `ABZ`; the byte lies outside the
view of the list, and `crc32c(0)` returns the same value as before. -/
theorem digest_same_after_hidden_write :
    crc_after_hidden_write
      = .ok (0xB3109EBF, 0xB3109EBF, some (str "ABC"), some (str "ABZ")) := by
  rfl

/-! ## Contiguous pointer (C19) -/

/-- C19, failing input: a list of two zero-length nodes has at least one
node, so `c_str()` passes the emptiness test and, finding a second node,
calls `rebuild()`; with `length() == 0` the rebuild disposes of every node
and leaves an empty chain, and `_buffers.front().c_str()` then reads the
front of an empty chain. -/
theorem c_str_of_empty_nodes_fails :
    observe two_empty_nodes = .ok (0, 2, [0, 0], []) ∧
    observe rebuild_two_empty_nodes = .ok (0, 0, [], []) ∧
    c_str_two_empty_nodes = .error .undefined ∧
    c_str_ab_c = .ok (some 240, 3, 1, str "ABC", str "ABC") :=
  ⟨rfl, rfl, rfl, rfl⟩

/-! ## Zeroing a range (C20) -/

theorem zero_window_append (off len : Nat) (a b : List Nat) : ∀ pos,
    zero_window off len pos (a ++ b)
      = zero_window off len pos a ++ zero_window off len (pos + a.length) b := by
  induction a with
  | nil => intro pos; simp [zero_window]
  | cons x a ih =>
    intro pos
    show (if off ≤ pos ∧ pos < off + len then 0 else x) :: zero_window off len (pos + 1) (a ++ b)
      = (if off ≤ pos ∧ pos < off + len then 0 else x) :: zero_window off len (pos + 1) a
        ++ zero_window off len (pos + (a.length + 1)) b
    rw [ih (pos + 1), show pos + 1 + a.length = pos + (a.length + 1) by omega]
    rfl

theorem zero_window_closed (off len : Nat) (bs : List Nat) : ∀ pos o l,
    o = off - pos → l = min (off + len) (pos + bs.length) - max off pos →
    zero_window off len pos bs = bs.take o ++ List.replicate l 0 ++ bs.drop (o + l) := by
  induction bs with
  | nil => intro pos o l ho hl; simp at hl; subst hl; simp [zero_window]
  | cons b bs ih =>
    intro pos o l ho hl
    simp only [List.length_cons] at hl
    unfold zero_window
    by_cases h1 : pos < off
    · have e := ih (pos + 1) (o - 1) l (by omega) (by omega)
      rw [e, if_neg (by omega)]
      obtain ⟨o1, rfl⟩ : ∃ o1, o = o1 + 1 := ⟨o - 1, by omega⟩
      simp only [List.take_succ_cons, Nat.add_sub_cancel, List.cons_append]
      rw [show o1 + 1 + l = (o1 + l) + 1 by omega, List.drop_succ_cons]
    · by_cases h2 : pos < off + len
      · have e := ih (pos + 1) 0 (l - 1) (by omega) (by omega)
        rw [e, if_pos ⟨by omega, h2⟩]
        have ho0 : o = 0 := by omega
        subst ho0
        obtain ⟨l1, rfl⟩ : ∃ l1, l = l1 + 1 := ⟨l - 1, by omega⟩
        simp only [List.take_zero, List.nil_append, Nat.add_sub_cancel, Nat.zero_add,
          List.replicate_succ, List.cons_append, List.drop_succ_cons]
      · have e := ih (pos + 1) 0 0 (by omega) (by omega)
        rw [e, if_neg (by omega)]
        have ho0 : o = 0 := by omega
        have hl0 : l = 0 := by omega
        subst ho0 hl0
        simp

theorem zero_window_outside (off len pos : Nat) (bs : List Nat)
    (h : off + len ≤ pos ∨ pos + bs.length ≤ off) : zero_window off len pos bs = bs := by
  rw [zero_window_closed off len bs pos (off - pos) 0 rfl (by omega)]
  rcases h with h | h
  · rw [show off - pos = 0 by omega]
    simp
  · rw [List.take_of_length_le (by omega), List.drop_of_length_le (by omega)]
    simp

theorem apart_symm (a b : ptr) (h : apart a b) : apart b a := by
  unfold apart at *
  rcases h with h | h | h | h | h
  · exact Or.inr (Or.inl h)
  · exact Or.inl h
  · exact Or.inr (Or.inr (Or.inl (Ne.symm h)))
  · exact Or.inr (Or.inr (Or.inr (Or.inr h)))
  · exact Or.inr (Or.inr (Or.inr (Or.inl h)))

theorem write_bytes_getElem (data src : List Nat) (pos j : Nat)
    (h : pos + src.length ≤ data.length) :
    (write_bytes data pos src)[j]? =
      if pos ≤ j ∧ j < pos + src.length then src[j - pos]? else data[j]? := by
  unfold write_bytes
  by_cases h1 : j < pos
  · rw [if_neg (by omega), List.append_assoc, List.getElem?_append_left (by simp; omega),
      List.getElem?_take_of_lt h1]
  · by_cases h2 : j < pos + src.length
    · rw [if_pos ⟨by omega, h2⟩, List.append_assoc,
        List.getElem?_append_right (by simp; omega),
        List.getElem?_append_left (by simp; omega)]
      simp [Nat.min_eq_left (show pos ≤ data.length by omega)]
    · rw [if_neg (by omega), List.getElem?_append_right (by simp; omega)]
      simp only [List.length_append, List.length_take, List.getElem?_drop,
        Nat.min_eq_left (show pos ≤ data.length by omega)]
      congr 1
      omega

theorem view_getElem (d : List Nat) (off len j : Nat) :
    ((d.drop off).take len)[j]? = if j < len then d[off + j]? else none := by
  by_cases h : j < len
  · rw [if_pos h, List.getElem?_take_of_lt h, List.getElem?_drop]
  · rw [if_neg h, List.getElem?_eq_none]
    simp only [List.length_take, List.length_drop]
    omega

theorem zero_store_spec (m : Mem) (p : ptr) (o l i : Nat) (r : raw) (hi : p.m_raw = some i)
    (hr : m.raws i = some r) (hin : p.m_off + p.m_len ≤ r.m_data.length)
    (h : o + l ≤ p.m_len) :
    ∃ m1, m.store i (p.m_off + o) (List.replicate l 0) true = .ok m1 ∧
      p.bytes m1 = (p.bytes m).take o ++ List.replicate l 0 ++ (p.bytes m).drop (o + l) ∧
      (∀ q, apart p q → q.bytes m1 = q.bytes m) ∧
      (∀ q, node_in m q → node_in m1 q) := by
  have hle : p.m_off + o + (List.replicate l (0 : Nat)).length ≤ r.m_data.length := by
    simp only [List.length_replicate]
    omega
  refine ⟨m.set_raw i (some { r.invalidate_crc with
      m_data := write_bytes r.m_data (p.m_off + o) (List.replicate l 0) }), ?_, ?_, ?_, ?_⟩
  · unfold Mem.store
    simp only [hr]
    rw [if_pos hle]
    rfl
  · unfold ptr.bytes
    simp only [hi, hr, Mem.set_raw, if_true]
    apply List.ext_getElem?
    intro j
    rw [view_getElem, write_bytes_getElem _ _ _ _ hle]
    simp only [List.length_replicate]
    by_cases h1 : j < o
    · have a1 : j < p.m_len := by omega
      have a2 : ¬ (p.m_off + o ≤ p.m_off + j ∧ p.m_off + j < p.m_off + o + l) := by omega
      rw [List.append_assoc, List.getElem?_append_left (by
        simp only [List.length_take, List.length_drop]
        omega), List.getElem?_take_of_lt h1, view_getElem, if_pos a1, if_neg a2, if_pos a1]
    · by_cases h2 : j < o + l
      · have a1 : j < p.m_len := by omega
        have a2 : p.m_off + o ≤ p.m_off + j ∧ p.m_off + j < p.m_off + o + l := by omega
        rw [List.append_assoc, List.getElem?_append_right (by
          simp only [List.length_take, List.length_drop]
          omega), List.getElem?_append_left (by
          simp only [List.length_take, List.length_drop, List.length_replicate]
          omega), if_pos a1, if_pos a2]
        simp only [List.length_take, List.length_drop, List.getElem?_replicate]
        rw [if_pos (by omega), if_pos (by omega)]
      · have a2 : ¬ (p.m_off + o ≤ p.m_off + j ∧ p.m_off + j < p.m_off + o + l) := by omega
        rw [List.getElem?_append_right (by
          simp only [List.length_append, List.length_take, List.length_drop,
            List.length_replicate]
          omega), List.getElem?_drop, view_getElem, if_neg a2]
        simp only [List.length_append, List.length_take, List.length_drop,
          List.length_replicate]
        have e : o + l + (j - (min o (min p.m_len (r.m_data.length - p.m_off)) + l)) = j := by
          omega
        rw [e]
  · intro q hq
    unfold ptr.bytes
    cases hqr : q.m_raw with
    | none => rfl
    | some k =>
      simp only []
      by_cases hk : k = i
      · subst hk
        simp only [hr, Mem.set_raw, if_true]
        apply List.ext_getElem?
        intro j
        rw [view_getElem, view_getElem, write_bytes_getElem _ _ _ _ hle]
        simp only [List.length_replicate]
        by_cases h3 : j < q.m_len
        · have a2 : ¬ (p.m_off + o ≤ q.m_off + j ∧ q.m_off + j < p.m_off + o + l) := by
            unfold apart at hq
            rcases hq with hq | hq | hq | hq | hq
            · omega
            · omega
            · rw [hi, hqr] at hq
              exact absurd rfl hq
            · omega
            · omega
          rw [if_pos h3, if_neg a2, if_pos h3]
        · rw [if_neg h3, if_neg h3]
      · simp only [Mem.set_raw, hk, if_false]
  · intro q hq
    obtain ⟨k, rk, a, b, c, d⟩ := hq
    by_cases hk : k = i
    · subst hk
      rw [hr] at b
      cases b
      refine ⟨k, { r.invalidate_crc with
        m_data := write_bytes r.m_data (p.m_off + o) (List.replicate l 0) }, a,
        by simp only [Mem.set_raw, if_true], ?_, ?_⟩
      · show q.m_off + q.m_len ≤ (write_bytes r.m_data (p.m_off + o) (List.replicate l 0)).length
        rw [write_bytes_length _ _ _ hle]
        exact c
      · show (write_bytes r.m_data (p.m_off + o) (List.replicate l 0)).length < U64
        rw [write_bytes_length _ _ _ hle]
        exact d
    · exact ⟨k, rk, a, by simp only [Mem.set_raw, hk, if_false]; exact b, c, d⟩

theorem add64_small (a b : Nat) (h : a + b < U64) : add64 a b = a + b := by
  unfold add64
  exact Nat.mod_eq_of_lt h

theorem sub64_small (a b : Nat) (h : b ≤ a) (ha : a < U64) : sub64 a b = a - b := by
  unfold sub64
  simp only [U64_val] at *
  omega

theorem zero_loop_spec (off len : Nat) (hw : off + len < U64) (nodes : List ptr_node) :
    ∀ (m : Mem) (pos : Nat), (∀ n ∈ nodes, node_in m n.toptr) → views_apart nodes →
      pos + nodes_len nodes < U64 →
      ∃ m1, zero_loop m off len nodes pos = .ok m1 ∧
        nodes_bytes m1 nodes = zero_window off len pos (nodes_bytes m nodes) ∧
        (∀ q, (∀ n ∈ nodes, apart n.toptr q) → q.bytes m1 = q.bytes m) ∧
        (∀ q, node_in m q → node_in m1 q) := by
  induction nodes with
  | nil =>
    intro m pos _ _ _
    exact ⟨m, rfl, rfl, fun _ _ => rfl, fun _ h => h⟩
  | cons n rest ih =>
    intro m pos hin hap hb
    simp only [nodes_len] at hb
    have hnin : node_in m n.toptr := hin n (List.mem_cons_self _ _)
    have hrin : ∀ x ∈ rest, node_in m x.toptr := fun x hx => hin x (List.mem_cons_of_mem _ hx)
    unfold views_apart at hap
    rw [List.pairwise_cons] at hap
    obtain ⟨hapn, haprest⟩ := hap
    have hlenb : (n.toptr.bytes m).length = n.m_len := ptr_bytes_length m n.toptr hnin
    unfold zero_loop
    simp only [ptr.length]
    rw [add64_small off len hw, add64_small pos n.m_len (by omega)]
    by_cases h1 : off + len ≤ pos
    · rw [if_pos h1]
      refine ⟨m, rfl, ?_, fun _ _ => rfl, fun _ h => h⟩
      rw [zero_window_outside off len pos _ (Or.inl h1)]
    · rw [if_neg h1]
      by_cases h2 : n.m_len = 0 ∨ pos + n.m_len ≤ off
      · rw [if_pos h2]
        obtain ⟨m1, e1, e2, e3, e4⟩ := ih m (pos + n.m_len) hrin haprest (by omega)
        have hn1 : n.toptr.bytes m1 = n.toptr.bytes m :=
          e3 n.toptr (fun x hx => apart_symm _ _ (hapn x hx))
        refine ⟨m1, e1, ?_, ?_, e4⟩
        · simp only [nodes_bytes]
          have hsame : zero_window off len pos (n.toptr.bytes m) = n.toptr.bytes m := by
            rcases h2 with h2 | h2
            · have hnil : n.toptr.bytes m = [] := List.length_eq_zero.mp (by rw [hlenb]; exact h2)
              rw [hnil]
              rfl
            · exact zero_window_outside off len pos _ (Or.inr (by omega))
          rw [zero_window_append, hlenb, e2, hn1, hsame]
        · intro q hq
          exact e3 q (fun x hx => hq x (List.mem_cons_of_mem _ hx))
      · rw [if_neg h2]
        obtain ⟨i, r, hi, hr, hle, _⟩ := hnin
        have step : ∃ m', (if pos ≥ off ∧ pos + n.m_len < off + len then n.toptr.zero m true
              else if pos ≥ off then n.toptr.zero_range m 0 (sub64 (off + len) pos) true
              else if pos + n.m_len ≤ off + len then
                n.toptr.zero_range m (sub64 off pos) (sub64 n.m_len (sub64 off pos)) true
              else n.toptr.zero_range m (sub64 off pos) len true) = .ok m' ∧
            n.toptr.bytes m' = zero_window off len pos (n.toptr.bytes m) ∧
            (∀ q, apart n.toptr q → q.bytes m' = q.bytes m) ∧
            (∀ q, node_in m q → node_in m' q) := by
          by_cases c1 : pos ≥ off ∧ pos + n.m_len < off + len
          · rw [if_pos c1]
            obtain ⟨m', s1, s2, s3, s4⟩ := zero_store_spec m n.toptr 0 n.m_len i r hi hr hle
              (by omega)
            refine ⟨m', ?_, ?_, s3, s4⟩
            · unfold ptr.zero
              simp only [hi]
              exact s1
            · rw [s2, zero_window_closed off len _ pos 0 n.m_len (by omega) (by omega)]
          · rw [if_neg c1]
            by_cases c2 : pos ≥ off
            · rw [if_pos c2, sub64_small _ _ (by omega) hw]
              obtain ⟨m', s1, s2, s3, s4⟩ := zero_store_spec m n.toptr 0 (off + len - pos) i r
                hi hr hle (by omega)
              refine ⟨m', ?_, ?_, s3, s4⟩
              · unfold ptr.zero_range
                rw [if_pos (by rw [Nat.mod_eq_of_lt (by omega)]; omega)]
                simp only [hi]
                exact s1
              · rw [s2, zero_window_closed off len _ pos 0 (off + len - pos) (by omega)
                  (by omega)]
            · rw [if_neg c2, sub64_small off pos (by omega) (by omega)]
              by_cases c3 : pos + n.m_len ≤ off + len
              · rw [if_pos c3, sub64_small _ _ (by omega) (by omega)]
                obtain ⟨m', s1, s2, s3, s4⟩ := zero_store_spec m n.toptr (off - pos)
                  (n.m_len - (off - pos)) i r hi hr hle (by omega)
                refine ⟨m', ?_, ?_, s3, s4⟩
                · unfold ptr.zero_range
                  rw [if_pos (by rw [Nat.mod_eq_of_lt (by omega)]; omega)]
                  simp only [hi]
                  exact s1
                · rw [s2, zero_window_closed off len _ pos (off - pos) (n.m_len - (off - pos))
                    rfl (by omega)]
              · rw [if_neg c3]
                obtain ⟨m', s1, s2, s3, s4⟩ := zero_store_spec m n.toptr (off - pos) len i r
                  hi hr hle (by omega)
                refine ⟨m', ?_, ?_, s3, s4⟩
                · unfold ptr.zero_range
                  rw [if_pos (by rw [Nat.mod_eq_of_lt (by omega)]; omega)]
                  simp only [hi]
                  exact s1
                · rw [s2, zero_window_closed off len _ pos (off - pos) len rfl (by omega)]
        obtain ⟨m', s1, s2, s3, s4⟩ := step
        obtain ⟨m1, e1, e2, e3, e4⟩ := ih m' (pos + n.m_len) (fun x hx => s4 _ (hrin x hx))
          haprest (by omega)
        have hn1 : n.toptr.bytes m1 = n.toptr.bytes m' :=
          e3 n.toptr (fun x hx => apart_symm _ _ (hapn x hx))
        have hrest : nodes_bytes m' rest = nodes_bytes m rest :=
          nodes_bytes_frame m m' rest (fun x hx => s3 x.toptr (hapn x hx))
        refine ⟨m1, ?_, ?_, ?_, fun q hq => e4 q (s4 q hq)⟩
        · simp only [s1]
          exact e1
        · simp only [nodes_bytes]
          rw [zero_window_append, hlenb, e2, hn1, s2, hrest]
        · intro q hq
          rw [e3 q (fun x hx => hq x (List.mem_cons_of_mem _ hx)),
            s3 q (hq n (List.mem_cons_self _ _))]

/-- C20, amended: `zero(off, len)` on a list whose nodes view parts of live
regions, no byte being viewed by two nodes, with `length()` the sum of the
node lengths.  For `off + len <= length()` the call returns with the list
object as it was (same nodes, same `length()`), and the content is the
previous content with exactly the bytes `[off, off + len)` set to 0.  For
`off + len > length()`, with `off + len` fitting a `uint64_t`, the call
fails its assertion. -/
theorem zero_range_clears_window (m : Mem) (L : list) (off len : Nat)
    (hlive : views_live m L._buffers = true) (hap : views_apart L._buffers)
    (hlen : L._len = nodes_len L._buffers) (hU : L._len < U64) :
    (off + len ≤ L.length →
      ∃ m1, L.zero_range m off len = .ok (L, m1) ∧
        L.bytes m1 = (L.bytes m).take off ++ List.replicate len 0
          ++ (L.bytes m).drop (off + len) ∧
        (L.bytes m1).length = L.length) ∧
    (L.length < off + len → off + len < U64 →
      L.zero_range m off len = .error .assert_failed) := by
  have hin : ∀ n ∈ L._buffers, node_in m n.toptr := by
    intro n hn
    obtain ⟨i, r, a, b, c, d, _⟩ := views_live_spec m L._buffers hlive n hn
    exact ⟨i, r, a, b, c, d⟩
  have hbl : (nodes_bytes m L._buffers).length = L._len := by
    rw [nodes_bytes_length m L._buffers hin, hlen]
  unfold list.length
  constructor
  · intro h
    have hw : off + len < U64 := by omega
    obtain ⟨m1, e1, e2, _, e4⟩ := zero_loop_spec off len hw L._buffers m 0 hin hap (by omega)
    refine ⟨m1, ?_, ?_, ?_⟩
    · unfold list.zero_range
      rw [add64_small off len hw, if_pos h]
      simp only [e1]
    · unfold list.bytes
      rw [e2, zero_window_closed off len _ 0 off len rfl (by omega)]
    · unfold list.bytes
      rw [nodes_bytes_length m1 L._buffers (fun n hn => e4 _ (hin n hn)), hlen]
  · intro h hw
    unfold list.zero_range
    rw [add64_small off len hw, if_neg (by omega)]

/-- C20 witness: `zero(2, 5)` on the list `ABC`, `DEF`, `GHI`, `KLM` of
the test gives `AB\0\0\0\0\0HIKLM`, and `zero(0, 2000)` fails its assertion. -/
theorem zero_range_clears_window_witness :
    views_live abc_klm.2 abc_klm.1._buffers = true ∧ views_apart abc_klm.1._buffers ∧
    abc_klm.1._len = nodes_len abc_klm.1._buffers ∧ abc_klm.1._len < U64 ∧
    2 + 5 ≤ abc_klm.1.length ∧
    abc_klm.1.bytes abc_klm.2 = str "ABCDEFGHIKLM" ∧
    ∃ m1, abc_klm.1.zero_range abc_klm.2 2 5 = .ok (abc_klm.1, m1) ∧
      abc_klm.1.bytes m1 = [65, 66, 0, 0, 0, 0, 0, 72, 73, 75, 76, 77] ∧
      (abc_klm.1.bytes m1).length = abc_klm.1.length ∧
      abc_klm.1.zero_range abc_klm.2 0 2000 = .error .assert_failed := by
  refine ⟨rfl, by decide, rfl, by decide, by decide, rfl, ?_⟩
  obtain ⟨m1, h1, h2, h3⟩ :=
    (zero_range_clears_window abc_klm.2 abc_klm.1 2 5 rfl (by decide) rfl (by decide)).1
      (by decide)
  exact ⟨m1, h1, by rw [h2]; rfl, h3,
    (zero_range_clears_window abc_klm.2 abc_klm.1 0 2000 rfl (by decide) rfl (by decide)).2
      (by decide) (by decide)⟩

/-- C20 counterexample: the ptr `ABC` linked twice gives the content
`ABCABC` in two nodes on the same three bytes; `zero(0, 3)` clears the
region through the first node, and the content becomes six zero bytes: the
bytes `[3, 6)` lie outside the range and have changed.  And `off + len` is
computed in a `uint64_t`: `zero(2^64 - 1, 2)` on a list of 12 bytes passes
the assertion and returns without clearing a byte. -/
theorem zero_range_hits_shared_bytes :
    observe list_abc_twice = .ok (6, 2, [3, 3], str "ABCABC") ∧
    observe zero_abc_twice = .ok (6, 2, [3, 3], [0, 0, 0, 0, 0, 0]) ∧
    observe list_abc_klm = .ok (12, 4, [3, 3, 3, 3], str "ABCDEFGHIKLM") ∧
    observe zero_wrapped = .ok (12, 4, [3, 3, 3, 3], str "ABCDEFGHIKLM") :=
  ⟨rfl, rfl, rfl, rfl⟩

/-! ## The list iterator (C16, C17, C18) -/

theorem advance_skip_spec (nodes : List ptr_node) : ∀ r : Nat,
    (advance_skip nodes r).1 ≤ nodes.length ∧
    nodes_len (nodes.take (advance_skip nodes r).1) + (advance_skip nodes r).2 = r ∧
    (∀ node, nodes[(advance_skip nodes r).1]? = some node →
      (advance_skip nodes r).2 < node.m_len) ∧
    (nodes[(advance_skip nodes r).1]? = none → (advance_skip nodes r).1 = nodes.length) := by
  induction nodes with
  | nil =>
    intro r
    simp [advance_skip, nodes_len]
  | cons n rest ih =>
    intro r
    unfold advance_skip
    by_cases h : r ≥ n.toptr.length
    · rw [if_pos h]
      obtain ⟨a, b, c, d⟩ := ih (r - n.toptr.length)
      simp only [ptr.length] at h a b c d ⊢
      refine ⟨by simp only [List.length_cons]; omega, ?_, ?_, ?_⟩
      · simp only [List.take_succ_cons, nodes_len]
        omega
      · intro node hn
        rw [List.getElem?_cons_succ] at hn
        exact c node hn
      · intro hn
        rw [List.getElem?_cons_succ] at hn
        simp only [List.length_cons]
        rw [d hn]
    · rw [if_neg h]
      simp only [ptr.length] at h
      refine ⟨by simp, by simp [nodes_len], ?_, ?_⟩
      · intro node hn
        simp only [List.getElem?_cons_zero, Option.some.injEq] at hn
        subst hn
        omega
      · intro hn
        simp at hn

theorem nodes_len_take_add (nodes : List ptr_node) (i k : Nat) :
    nodes_len (nodes.take (i + k)) = nodes_len (nodes.take i) + nodes_len ((nodes.drop i).take k) := by
  rw [List.take_add, nodes_len_append]

theorem nodes_len_take_le (nodes : List ptr_node) (i : Nat) :
    nodes_len (nodes.take i) ≤ nodes_len nodes := by
  conv => rhs; rw [← List.take_append_drop i nodes, nodes_len_append]
  omega

theorem nodes_len_take_all (nodes : List ptr_node) (i : Nat) (h : nodes.length ≤ i) :
    nodes_len (nodes.take i) = nodes_len nodes := by
  rw [List.take_of_length_le h]

/-- The position that `operator+=` reaches from a state whose offsets are
consistent. -/
theorem advance_spec (bl : list) (it : iterator) (k : Nat)
    (hA : it.m_a_off = nodes_len (bl._buffers.take it.m_list_it) + it.m_r_off)
    (hk : it.m_a_off + k < U64) :
    (it.m_a_off + k ≤ nodes_len bl._buffers →
      ∃ it1, it.advance bl k = .returned it1 ∧ it1.m_a_off = it.m_a_off + k ∧
        it1.m_a_off = nodes_len (bl._buffers.take it1.m_list_it) + it1.m_r_off ∧
        it.m_list_it ≤ it1.m_list_it ∧
        (∀ node, bl._buffers[it1.m_list_it]? = some node → it1.m_r_off < node.m_len) ∧
        (bl._buffers[it1.m_list_it]? = none →
          it1.m_list_it = max it.m_list_it bl._buffers.length ∧ it1.m_r_off = 0)) ∧
    (nodes_len bl._buffers < it.m_a_off + k →
      ∃ it1, it.advance bl k = .thrown .end_of_buffer it1 ∧ it1.m_a_off = it.m_a_off ∧
        it1.end_ bl = true) := by
  have hr : add64 it.m_r_off k = it.m_r_off + k := add64_small _ _ (by omega)
  have ha : add64 it.m_a_off k = it.m_a_off + k := add64_small _ _ hk
  obtain ⟨s1, s2, s3, s4⟩ := advance_skip_spec (bl._buffers.drop it.m_list_it) (it.m_r_off + k)
  have hidx : ∀ j, (bl._buffers.drop it.m_list_it)[j]? = bl._buffers[it.m_list_it + j]? := by
    intro j
    rw [List.getElem?_drop]
  have habs := nodes_len_take_add bl._buffers it.m_list_it
    (advance_skip (bl._buffers.drop it.m_list_it) (it.m_r_off + k)).1
  unfold iterator.advance iterator.end_
  simp only [hr, ha, decide_eq_true_eq]
  constructor
  · intro hle
    refine ⟨_, if_neg ?_, rfl, ?_, by simp, ?_, ?_⟩
    · intro ⟨h1, h2⟩
      apply h2
      have := nodes_len_take_all bl._buffers _ h1
      simp only [] at this
      omega
    · simp only []
      omega
    · intro node hn
      exact s3 node (by rw [hidx]; exact hn)
    · intro hn
      simp only [] at hn ⊢
      have hl := s4 (by rw [hidx]; exact hn)
      simp only [List.length_drop] at hl
      have h5 : bl._buffers.length ≤ it.m_list_it +
          (advance_skip (bl._buffers.drop it.m_list_it) (it.m_r_off + k)).1 := by
        by_contra hc
        have := List.getElem?_eq_getElem (Nat.lt_of_not_le hc)
        rw [this] at hn
        cases hn
      have := nodes_len_take_all bl._buffers _ h5
      constructor
      · omega
      · omega
  · intro hgt
    have hend : bl._buffers.length ≤ it.m_list_it +
        (advance_skip (bl._buffers.drop it.m_list_it) (it.m_r_off + k)).1 := by
      by_contra hc
      obtain ⟨node, hn⟩ : ∃ node, bl._buffers[it.m_list_it +
          (advance_skip (bl._buffers.drop it.m_list_it) (it.m_r_off + k)).1]? = some node :=
        ⟨_, List.getElem?_eq_getElem (Nat.lt_of_not_le hc)⟩
      have h6 := s3 node (by rw [hidx]; exact hn)
      have h7 : nodes_len (bl._buffers.take (it.m_list_it +
          (advance_skip (bl._buffers.drop it.m_list_it) (it.m_r_off + k)).1 + 1))
          ≤ nodes_len bl._buffers := nodes_len_take_le _ _
      rw [nodes_len_take_add bl._buffers _ 1] at h7
      have h8 : (bl._buffers.drop (it.m_list_it +
          (advance_skip (bl._buffers.drop it.m_list_it) (it.m_r_off + k)).1)).take 1 = [node] := by
        rw [List.drop_eq_getElem_cons (Nat.lt_of_not_le hc)]
        rw [List.getElem?_eq_getElem (Nat.lt_of_not_le hc)] at hn
        cases hn
        rfl
      rw [h8] at h7
      simp only [nodes_len] at h7
      omega
    have hne : (advance_skip (bl._buffers.drop it.m_list_it) (it.m_r_off + k)).2 ≠ 0 := by
      have := nodes_len_take_le bl._buffers (it.m_list_it +
          (advance_skip (bl._buffers.drop it.m_list_it) (it.m_r_off + k)).1)
      omega
    exact ⟨_, if_pos ⟨hend, hne⟩, rfl, hend⟩

theorem nodes_split (nodes : List ptr_node) (idx : Nat) (node : ptr_node)
    (hn : nodes[idx]? = some node) :
    nodes = nodes.take idx ++ node :: nodes.drop (idx + 1) := by
  have hlt : idx < nodes.length := by
    by_contra hc
    rw [List.getElem?_eq_none (Nat.le_of_not_lt hc)] at hn
    cases hn
  rw [List.getElem?_eq_getElem hlt] at hn
  cases hn
  rw [← List.drop_eq_getElem_cons hlt, List.take_append_drop]

theorem mem_of_getElem (nodes : List ptr_node) (idx : Nat) (node : ptr_node)
    (hn : nodes[idx]? = some node) : node ∈ nodes := by
  rw [nodes_split nodes idx node hn]
  simp

theorem nodes_len_take_succ (nodes : List ptr_node) (idx : Nat) (node : ptr_node)
    (hn : nodes[idx]? = some node) :
    nodes_len (nodes.take (idx + 1)) = nodes_len (nodes.take idx) + node.m_len := by
  have hlt : idx < nodes.length := by
    by_contra hc
    rw [List.getElem?_eq_none (Nat.le_of_not_lt hc)] at hn
    cases hn
  rw [nodes_len_take_add, List.drop_eq_getElem_cons hlt]
  rw [List.getElem?_eq_getElem hlt] at hn
  cases hn
  simp [nodes_len]

theorem nodes_bytes_slice_at (m : Mem) (A R : List ptr_node) (node : ptr_node) (r t : Nat)
    (hA : (nodes_bytes m A).length = nodes_len A)
    (hN : (node.toptr.bytes m).length = node.m_len) (hrt : r + t ≤ node.m_len) :
    ((nodes_bytes m (A ++ node :: R)).drop (nodes_len A + r)).take t
      = ((node.toptr.bytes m).drop r).take t := by
  rw [nodes_bytes_append]
  simp only [nodes_bytes]
  rw [← hA, List.drop_append, List.drop_append_of_le_length (by omega),
    List.take_append_of_le_length (by simp only [List.length_drop]; omega)]

/-- The bytes of a list from a position inside a node on, as far as the
node reaches. -/
theorem nodes_bytes_slice (m : Mem) (nodes : List ptr_node) (idx : Nat) (node : ptr_node)
    (r t : Nat) (hin : ∀ n ∈ nodes, node_in m n.toptr) (hn : nodes[idx]? = some node)
    (hrt : r + t ≤ node.m_len) :
    ((nodes_bytes m nodes).drop (nodes_len (nodes.take idx) + r)).take t
      = ((node.toptr.bytes m).drop r).take t := by
  have hsp := nodes_split nodes idx node hn
  have hA : (nodes_bytes m (nodes.take idx)).length = nodes_len (nodes.take idx) :=
    nodes_bytes_length m _ (fun n h => hin n (List.mem_of_mem_take h))
  have hN : (node.toptr.bytes m).length = node.m_len :=
    ptr_bytes_length m _ (hin node (mem_of_getElem nodes idx node hn))
  have key := nodes_bytes_slice_at m (nodes.take idx) (nodes.drop (idx + 1)) node r t hA hN hrt
  rw [← hsp] at key
  exact key

theorem deref_spec (m : Mem) (bl : list) (it : iterator) (node : ptr_node)
    (hin : ∀ n ∈ bl._buffers, node_in m n.toptr)
    (hn : bl._buffers[it.m_list_it]? = some node) (hr : it.m_r_off < node.m_len)
    (hA : it.m_a_off = nodes_len (bl._buffers.take it.m_list_it) + it.m_r_off) :
    ∃ b, (bl.bytes m)[it.m_a_off]? = some b ∧ it.deref m bl = .ok b := by
  have hs := nodes_bytes_slice m bl._buffers it.m_list_it node it.m_r_off 1 hin hn (by omega)
  obtain ⟨i, r, a, b, c, d⟩ := hin node (mem_of_getElem _ _ _ hn)
  have hb : ∃ x, r.m_data[node.m_off + it.m_r_off]? = some x :=
    ⟨_, List.getElem?_eq_getElem (by omega)⟩
  obtain ⟨x, hx⟩ := hb
  refine ⟨x, ?_, ?_⟩
  · have h0 : (((nodes_bytes m bl._buffers).drop it.m_a_off).take 1)[0]? = some x := by
      rw [hA, hs, view_getElem]
      simp only [ptr.bytes, a, b]
      rw [if_pos (by omega), view_getElem, if_pos (by omega)]
      exact hx
    rw [view_getElem, if_pos (by omega)] at h0
    exact h0
  · unfold iterator.deref ptr.at
    simp only [hn, a, b, hx]
    rw [if_pos hr]

theorem views_live_in (m : Mem) (ns : List ptr_node) (h : views_live m ns = true) :
    ∀ n ∈ ns, node_in m n.toptr := by
  intro n hn
  obtain ⟨i, r, a, b, c, d, _⟩ := views_live_spec m ns h n hn
  exact ⟨i, r, a, b, c, d⟩

/-- C16, amended: on a list whose nodes view live regions and whose
`length()` is the sum of the node lengths, `begin(a)` and `seek(a)` with
`a <= length()` return the same iterator, with `get_off() == a`.  For `k`
with `a + k` fitting a `uint64_t`, `it += k` on that iterator returns exactly
when `a + k <= length()`: then `get_off() == a + k`, and for
`a + k < length()` the dereference returns byte `a + k` of the content;
otherwise it throws `end_of_buffer` with `get_off()` still `a`, and the
dereference of the iterator it leaves throws `end_of_buffer`. -/
theorem advance_from_fresh (m : Mem) (bl : list) (it0 : iterator) (a k : Nat)
    (hlive : views_live m bl._buffers = true) (hlen : bl._len = nodes_len bl._buffers)
    (ha : a ≤ bl.length) (hk : a + k < U64) :
    ∃ it, bl.begin_at a = .returned it ∧ it0.seek bl a = .returned it ∧ it.get_off = a ∧
      (a + k ≤ bl.length →
        ∃ it1, it.advance bl k = .returned it1 ∧ it1.get_off = a + k ∧
          (a + k < bl.length →
            ∃ b, (bl.bytes m)[a + k]? = some b ∧ it1.deref m bl = .ok b)) ∧
      (bl.length < a + k →
        ∃ it1, it.advance bl k = .thrown .end_of_buffer it1 ∧ it1.get_off = a ∧
          it1.deref m bl = .error .end_of_buffer) := by
  have hin := views_live_in m bl._buffers hlive
  simp only [list.length, hlen] at ha ⊢
  obtain ⟨it, e1, e2, e3, _, _, _⟩ :=
    (advance_spec bl ⟨0, 0, 0⟩ a (by simp [nodes_len]) (by simp only []; omega)).1
      (by simp only []; omega)
  simp only [Nat.zero_add] at e2
  refine ⟨it, e1, e1, e2, ?_, ?_⟩
  · intro hle
    obtain ⟨it1, f1, f2, f3, _, f5, f6⟩ :=
      (advance_spec bl it k e3 (by omega)).1 (by omega)
    refine ⟨it1, f1, by simp only [iterator.get_off]; omega, ?_⟩
    intro hlt
    cases hn : bl._buffers[it1.m_list_it]? with
    | none =>
      obtain ⟨g1, g2⟩ := f6 hn
      have := nodes_len_take_all bl._buffers it1.m_list_it (by omega)
      omega
    | some node =>
      obtain ⟨b, h1, h2⟩ := deref_spec m bl it1 node hin hn (f5 node hn) f3
      exact ⟨b, by rw [← e2, ← f2]; exact h1, h2⟩
  · intro hgt
    obtain ⟨it1, f1, f2, f3⟩ := (advance_spec bl it k e3 (by omega)).2 (by omega)
    refine ⟨it1, f1, by simp only [iterator.get_off]; omega, ?_⟩
    unfold iterator.end_ at f3
    simp only [decide_eq_true_eq] at f3
    unfold iterator.deref
    rw [List.getElem?_eq_none f3]

/-- C16 witness: the advance test on `ABC`, `DEF`.  From `begin(1)`, where
`*it` is `B`, `it += 3` reaches offset 4 and `*it` is `E`; and `it += 200`
from `begin(0)` throws, after which `*it` throws. -/
theorem advance_from_fresh_witness :
    views_live abc_def.2 abc_def.1._buffers = true ∧
    abc_def.1._len = nodes_len abc_def.1._buffers ∧ 1 ≤ abc_def.1.length ∧ 1 + 3 < U64 ∧
    abc_def.1.bytes abc_def.2 = str "ABCDEF" ∧
    (∃ it, abc_def.1.begin_at 1 = .returned it ∧ it.get_off = 1 ∧
      it.deref abc_def.2 abc_def.1 = .ok 66 ∧
      ∃ it1, it.advance abc_def.1 3 = .returned it1 ∧ it1.get_off = 4 ∧
        it1.deref abc_def.2 abc_def.1 = .ok 69) ∧
    (∃ it, abc_def.1.begin_at 0 = .returned it ∧
      ∃ it1, it.advance abc_def.1 200 = .thrown .end_of_buffer it1 ∧ it1.get_off = 0 ∧
        it1.deref abc_def.2 abc_def.1 = .error .end_of_buffer) := by
  refine ⟨rfl, rfl, by decide, by decide, rfl, ?_, ?_⟩
  · obtain ⟨it, h1, _, h3, h4, _⟩ :=
      advance_from_fresh abc_def.2 abc_def.1 ⟨0, 0, 0⟩ 1 3 rfl rfl (by decide) (by decide)
    obtain ⟨it1, g1, g2, g3⟩ := h4 (by decide)
    obtain ⟨b, g4, g5⟩ := g3 (by decide)
    have hb : b = 69 := by
      have : (abc_def.1.bytes abc_def.2)[1 + 3]? = some 69 := rfl
      rw [this] at g4
      exact (Option.some.inj g4).symm
    subst hb
    have hit : it = ⟨0, 1, 1⟩ := by
      have : abc_def.1.begin_at 1 = .returned ⟨0, 1, 1⟩ := rfl
      rw [this] at h1
      cases h1
      rfl
    subst hit
    exact ⟨_, h1, h3, rfl, it1, g1, g2, g5⟩
  · obtain ⟨it, h1, _, _, _, h5⟩ :=
      advance_from_fresh abc_def.2 abc_def.1 ⟨0, 0, 0⟩ 0 200 rfl rfl (by decide) (by decide)
    obtain ⟨it1, g1, g2, g3⟩ := h5 (by decide)
    exact ⟨it, h1, it1, g1, g2, g3⟩

/-- C16 counterexample: the offsets are added in a `uint64_t`.  On the list
`ABC`, `begin(1)` followed by `it += 2^64 - 1` returns, although
`1 + (2^64 - 1) > length()`: both offsets wrap to 0 and `*it` is `A`. -/
theorem advance_wraps_around :
    abc.1.length = 3 ∧ abc.1.bytes abc.2 = str "ABC" ∧
    abc.1.begin_at 1 = .returned ⟨0, 1, 1⟩ ∧
    abc.1.length < 1 + (2 ^ 64 - 1) ∧
    (⟨0, 1, 1⟩ : iterator).advance abc.1 (2 ^ 64 - 1) = .returned ⟨0, 0, 0⟩ ∧
    (⟨0, 0, 0⟩ : iterator).get_off = 0 ∧
    (⟨0, 0, 0⟩ : iterator).deref abc.2 abc.1 = .ok 65 :=
  ⟨rfl, rfl, rfl, by decide, rfl, rfl, rfl⟩

theorem valid_spec (bl : list) (it : iterator) (h : it.valid bl = true) :
    it.m_a_off = nodes_len (bl._buffers.take it.m_list_it) + it.m_r_off ∧
    (∀ node, bl._buffers[it.m_list_it]? = some node → it.m_r_off ≤ node.m_len) ∧
    (bl._buffers[it.m_list_it]? = none →
      it.m_list_it = bl._buffers.length ∧ it.m_r_off = 0) := by
  unfold iterator.valid at h
  simp only [Bool.and_eq_true, beq_iff_eq] at h
  refine ⟨h.1, ?_, ?_⟩
  · intro node hn
    have h2 := h.2
    simp only [hn, decide_eq_true_eq, ptr.length] at h2
    exact h2
  · intro hn
    have h2 := h.2
    simp only [hn, Bool.and_eq_true, beq_iff_eq] at h2
    exact h2

theorem valid_of (bl : list) (it : iterator)
    (hA : it.m_a_off = nodes_len (bl._buffers.take it.m_list_it) + it.m_r_off)
    (h1 : ∀ node, bl._buffers[it.m_list_it]? = some node → it.m_r_off ≤ node.m_len)
    (h2 : bl._buffers[it.m_list_it]? = none →
      it.m_list_it = bl._buffers.length ∧ it.m_r_off = 0) : it.valid bl = true := by
  unfold iterator.valid
  simp only [Bool.and_eq_true, beq_iff_eq]
  refine ⟨hA, ?_⟩
  cases hn : bl._buffers[it.m_list_it]? with
  | none =>
    simp only [Bool.and_eq_true, beq_iff_eq]
    exact h2 hn
  | some node =>
    simp only [decide_eq_true_eq, ptr.length]
    exact h1 node hn

theorem get_ptr_step_spec (m : Mem) (bl : list) (it : iterator) (node : ptr_node) (max : Nat)
    (hin : ∀ n ∈ bl._buffers, node_in m n.toptr) (hU : nodes_len bl._buffers < U64)
    (hv : it.valid bl = true) (hn : bl._buffers[it.m_list_it]? = some node) :
    ∃ p it1, get_ptr_step m it node max
        = .returned (min (node.m_len - it.m_r_off) max, some p, it1) ∧
      p.read m (min (node.m_len - it.m_r_off) max)
        = .ok (((nodes_bytes m bl._buffers).drop it.m_a_off).take
            (min (node.m_len - it.m_r_off) max)) ∧
      it1.m_a_off = it.m_a_off + min (node.m_len - it.m_r_off) max ∧
      it1.valid bl = true := by
  obtain ⟨hA, h1, _⟩ := valid_spec bl it hv
  have hr := h1 node hn
  obtain ⟨i, r, a, b, c, d⟩ := hin node (mem_of_getElem _ _ _ hn)
  have hsucc := nodes_len_take_succ bl._buffers it.m_list_it node hn
  have hle := nodes_len_take_le bl._buffers (it.m_list_it + 1)
  have hs : sub64 node.m_len it.m_r_off = node.m_len - it.m_r_off :=
    sub64_small _ _ hr (by omega)
  have hmin : min (node.m_len - it.m_r_off) max ≤ node.m_len - it.m_r_off := Nat.min_le_left _ _
  have hr1 : add64 it.m_r_off (min (node.m_len - it.m_r_off) max)
      = it.m_r_off + min (node.m_len - it.m_r_off) max := add64_small _ _ (by omega)
  have ha1 : add64 it.m_a_off (min (node.m_len - it.m_r_off) max)
      = it.m_a_off + min (node.m_len - it.m_r_off) max := add64_small _ _ (by omega)
  unfold get_ptr_step
  simp only [ptr.length, a, b, hs, hr1, ha1]
  refine ⟨_, _, rfl, ?_, ?_, ?_⟩
  · unfold cptr.read
    simp only [b]
    rw [if_neg (by simp only [List.length_drop]; omega), hA,
      nodes_bytes_slice m bl._buffers it.m_list_it node it.m_r_off _ hin hn (by omega)]
    simp only [ptr.bytes, a, b]
    apply congrArg
    apply List.ext_getElem?
    intro j
    rw [view_getElem, view_getElem, view_getElem]
    by_cases hj : j < min (node.m_len - it.m_r_off) max
    · rw [if_pos hj, if_pos hj, if_pos (by omega), Nat.add_assoc]
    · rw [if_neg hj, if_neg hj]
  · split <;> rfl
  · by_cases he : it.m_r_off + min (node.m_len - it.m_r_off) max = node.m_len
    · rw [if_pos he]
      apply valid_of
      · simp only []
        omega
      · intro node1 _
        exact Nat.zero_le _
      · intro hnone
        simp only [] at hnone ⊢
        have hlt : it.m_list_it < bl._buffers.length := by
          by_contra hc
          rw [List.getElem?_eq_none (Nat.le_of_not_lt hc)] at hn
          cases hn
        have hge : bl._buffers.length ≤ it.m_list_it + 1 := by
          by_contra hc
          rw [List.getElem?_eq_getElem (Nat.lt_of_not_le hc)] at hnone
          cases hnone
        exact ⟨by omega, trivial⟩
    · rw [if_neg he]
      apply valid_of
      · simp only []
        omega
      · intro node1 hn1
        simp only [] at hn1 ⊢
        rw [hn] at hn1
        cases hn1
        omega
      · intro hnone
        simp only [] at hnone
        rw [hn] at hnone
        cases hnone

/-- C18: `get_ptr_and_advance(max, &p)` on a consistent iterator of a
list whose nodes view live regions and whose `length()` is the sum of the
node lengths.  With the iterator on a node that has `r` bytes behind the
position, the call returns `min(r, max)`, `p` addresses that many bytes of
the content of the list from the old `get_off()` on, and `get_off()` has
grown by the returned count.  With the iterator at the end of the list the
call returns 0, and `p` and `get_off()` are as before.  In both cases the
iterator stays consistent. -/
theorem get_ptr_and_advance_spec (m : Mem) (bl : list) (it : iterator) (max : Nat)
    (p0 : Option cptr) (hlive : views_live m bl._buffers = true)
    (hlen : bl._len = nodes_len bl._buffers) (hU : bl._len < U64)
    (hv : it.valid bl = true) :
    (∀ node, bl._buffers[it.m_list_it]? = some node →
      ∃ p it1, it.get_ptr_and_advance m bl max p0
          = .returned (min (node.length - it.m_r_off) max, some p, it1) ∧
        p.read m (min (node.length - it.m_r_off) max)
          = .ok (((bl.bytes m).drop it.get_off).take (min (node.length - it.m_r_off) max)) ∧
        it1.get_off = it.get_off + min (node.length - it.m_r_off) max ∧
        it1.valid bl = true) ∧
    (it.end_ bl = true →
      ∃ it1, it.get_ptr_and_advance m bl max p0 = .returned (0, p0, it1) ∧
        it1.get_off = it.get_off ∧ it.get_off = bl.length ∧ it1.valid bl = true) := by
  have hin := views_live_in m bl._buffers hlive
  constructor
  · intro node hn
    obtain ⟨p, it1, e1, e2, e3, e4⟩ :=
      get_ptr_step_spec m bl it node max hin (by omega) hv hn
    refine ⟨p, it1, ?_, e2, e3, e4⟩
    unfold iterator.get_ptr_and_advance
    simp only [hn]
    exact e1
  · intro he
    unfold iterator.end_ at he
    simp only [decide_eq_true_eq] at he
    have hnone : bl._buffers[it.m_list_it]? = none := List.getElem?_eq_none he
    obtain ⟨hA, _, h2⟩ := valid_spec bl it hv
    obtain ⟨h3, h4⟩ := h2 hnone
    have htot : it.m_a_off = nodes_len bl._buffers := by
      rw [hA, h4, nodes_len_take_all _ _ he]
      rfl
    obtain ⟨it1, f1, f2, f3, _, f5, f6⟩ :=
      (advance_spec bl ⟨0, 0, 0⟩ it.m_a_off (by simp [nodes_len]) (by simp only []; omega)).1
        (by simp only []; omega)
    simp only [Nat.zero_add] at f2
    have hnone1 : bl._buffers[it1.m_list_it]? = none := by
      cases hn : bl._buffers[it1.m_list_it]? with
      | none => rfl
      | some node =>
        have h5 := f5 node hn
        have h6 := nodes_len_take_succ bl._buffers it1.m_list_it node hn
        have h7 := nodes_len_take_le bl._buffers (it1.m_list_it + 1)
        omega
    refine ⟨it1, ?_, f2, by simp only [iterator.get_off, list.length]; omega, ?_⟩
    · unfold iterator.get_ptr_and_advance iterator.seek
      simp only [hnone, f1, hnone1]
    · apply valid_of bl it1 f3
      · intro node hn
        rw [hnone1] at hn
        cases hn
      · intro _
        obtain ⟨g1, g2⟩ := f6 hnone1
        simp only [] at g1
        exact ⟨by omega, g2⟩

/-- C18 witness: the test on the nodes `one`, `two`, `three`.  The first
call, with request 11, returns 3 and addresses `one`; the requests 11, 2, 4
and 5 return 3, 2, 1 and 5 with the bytes `one`, `tw`, `o` and `three`, and
a further call at the end of the list returns 0. -/
theorem get_ptr_and_advance_spec_witness :
    views_live one_two_three.2 one_two_three.1._buffers = true ∧
    one_two_three.1._len = nodes_len one_two_three.1._buffers ∧
    one_two_three.1._len < U64 ∧ (⟨0, 0, 0⟩ : iterator).valid one_two_three.1 = true ∧
    (∃ p it1, (⟨0, 0, 0⟩ : iterator).get_ptr_and_advance one_two_three.2 one_two_three.1 11 none
        = .returned (3, some p, it1) ∧
      p.read one_two_three.2 3 = .ok (str "one") ∧ it1.get_off = 3 ∧
      it1.valid one_two_three.1 = true) ∧
    get_ptr_run one_two_three.2 one_two_three.1 ⟨0, 0, 0⟩ [11, 2, 4, 5]
      = some ([(3, str "one"), (2, str "tw"), (1, str "o"), (5, str "three")], ⟨3, 0, 11⟩) ∧
    (⟨3, 0, 11⟩ : iterator).get_remaining one_two_three.1 = 0 ∧
    ∃ it1, (⟨3, 0, 11⟩ : iterator).get_ptr_and_advance one_two_three.2 one_two_three.1 7 none
      = .returned (0, none, it1) :=
  ⟨rfl, rfl, by decide, rfl,
   (get_ptr_and_advance_spec one_two_three.2 one_two_three.1 ⟨0, 0, 0⟩ 11 none rfl rfl
      (by decide) rfl).1 ⟨⟨some 0, 0, 3⟩, 0⟩ rfl,
   rfl, rfl,
   by
    obtain ⟨it1, h, _⟩ :=
      (get_ptr_and_advance_spec one_two_three.2 one_two_three.1 ⟨3, 0, 11⟩ 7 none rfl rfl
        (by decide) rfl).2 rfl
    exact ⟨it1, h⟩⟩

theorem valid_le (bl : list) (it : iterator) (hv : it.valid bl = true) :
    it.m_a_off ≤ nodes_len bl._buffers := by
  obtain ⟨hA, h1, h2⟩ := valid_spec bl it hv
  cases hn : bl._buffers[it.m_list_it]? with
  | none =>
    obtain ⟨a, b⟩ := h2 hn
    have := nodes_len_take_le bl._buffers it.m_list_it
    omega
  | some node =>
    have h3 := h1 node hn
    have h4 := nodes_len_take_succ bl._buffers it.m_list_it node hn
    have h5 := nodes_len_take_le bl._buffers (it.m_list_it + 1)
    omega

theorem take_drop_step (B : List Nat) (a t len : Nat) (h : t ≤ len) :
    (B.drop a).take t ++ (B.drop (a + t)).take (len - t) = (B.drop a).take len := by
  have e : len = t + (len - t) := by omega
  conv => rhs; rw [e, List.take_add, List.drop_drop]

/-- The copy loop on a consistent iterator: with `fuel` beyond the number
of nodes from the position on, `len` bytes inside the list are handed to the
destination piece by piece; a `len` that reaches beyond the list ends in
`end_of_buffer`. -/
theorem copy_loop_spec {δ : Type} (emit : δ → ptr_node → Nat → Nat → Except Err δ)
    (bl : list) (m0 : Mem) (I : δ → Prop) (out : δ → List Nat)
    (hin : ∀ n ∈ bl._buffers, node_in m0 n.toptr) (hU : nodes_len bl._buffers < U64)
    (hE : ∀ d node r t, I d → node ∈ bl._buffers → r + t ≤ node.m_len →
      ∃ d1, emit d node r t = .ok d1 ∧ I d1 ∧
        out d1 = out d ++ ((node.toptr.bytes m0).drop r).take t) :
    ∀ (fuel : Nat) (it : iterator) (len : Nat) (d : δ), it.valid bl = true → I d →
      (len = 0 ∨ bl._buffers.length < fuel + it.m_list_it) →
      (it.m_a_off + len ≤ nodes_len bl._buffers →
        ∃ it1 d1, copy_loop emit bl fuel it len d = some (.returned (it1, d1)) ∧
          it1.valid bl = true ∧ it1.m_a_off = it.m_a_off + len ∧ I d1 ∧
          out d1 = out d ++ ((nodes_bytes m0 bl._buffers).drop it.m_a_off).take len) ∧
      (nodes_len bl._buffers < it.m_a_off + len →
        ∃ s, copy_loop emit bl fuel it len d = some (.thrown .end_of_buffer s)) := by
  intro fuel
  induction fuel with
  | zero =>
    intro it len d hv hI hf
    have hle := valid_le bl it hv
    obtain ⟨_, _, h2⟩ := valid_spec bl it hv
    have hlen0 : len = 0 := by
      rcases hf with hf | hf
      · exact hf
      · exfalso
        have : bl._buffers[it.m_list_it]? = none := List.getElem?_eq_none (by omega)
        have := (h2 this).1
        omega
    subst hlen0
    unfold copy_loop
    simp only [if_true]
    exact ⟨fun _ => ⟨it, d, rfl, hv, rfl, hI, by simp⟩, fun h => by omega⟩
  | succ fuel ih =>
    intro it len d hv hI hf
    have hle := valid_le bl it hv
    obtain ⟨hA, h1, h2⟩ := valid_spec bl it hv
    unfold copy_loop
    by_cases hlen0 : len = 0
    · subst hlen0
      simp only [if_true]
      exact ⟨fun _ => ⟨it, d, rfl, hv, rfl, hI, by simp⟩, fun h => by omega⟩
    · rw [if_neg hlen0]
      cases hn : bl._buffers[it.m_list_it]? with
      | none =>
        obtain ⟨a, b⟩ := h2 hn
        have htot : it.m_a_off = nodes_len bl._buffers := by
          rw [hA, b, a, List.take_length]
          rfl
        simp only []
        exact ⟨fun h => by omega, fun _ => ⟨_, rfl⟩⟩
      | some node =>
        simp only []
        have hr := h1 node hn
        have hmem := mem_of_getElem _ _ _ hn
        obtain ⟨i, rr, _, _, c1, c2⟩ := hin node hmem
        have hsucc := nodes_len_take_succ bl._buffers it.m_list_it node hn
        have htl := nodes_len_take_le bl._buffers (it.m_list_it + 1)
        have hs : sub64 node.toptr.length it.m_r_off = node.m_len - it.m_r_off :=
          sub64_small _ _ hr (by simp only [ptr.length]; omega)
        rw [hs]
        obtain ⟨t, ht⟩ : ∃ t, t = (if len < node.m_len - it.m_r_off then len
            else node.m_len - it.m_r_off) := ⟨_, rfl⟩
        rw [← ht]
        have ht1 : t ≤ len := by
          rw [ht]
          split <;> omega
        have ht2 : t ≤ node.m_len - it.m_r_off := by
          rw [ht]
          split <;> omega
        have ht3 : t < len → t = node.m_len - it.m_r_off := by
          rw [ht]
          split <;> omega
        obtain ⟨d1, e1, e2, e3⟩ := hE d node it.m_r_off t hI hmem (by omega)
        simp only [e1]
        obtain ⟨it1, f1, f2, f3, f4, f5, f6⟩ :=
          (advance_spec bl it t hA (by omega)).1 (by omega)
        simp only [f1]
        have hv1 : it1.valid bl = true := by
          apply valid_of bl it1 f3
          · intro node1 hn1
            exact Nat.le_of_lt (f5 node1 hn1)
          · intro hnone
            obtain ⟨g1, g2⟩ := f6 hnone
            have hlt : it.m_list_it < bl._buffers.length := by
              by_contra hc
              rw [List.getElem?_eq_none (Nat.le_of_not_lt hc)] at hn
              cases hn
            exact ⟨by omega, g2⟩
        have hfuel : len - t = 0 ∨ bl._buffers.length < fuel + it1.m_list_it := by
          by_cases hz : len - t = 0
          · exact Or.inl hz
          · right
            have htt := ht3 (by omega)
            have hidx : it.m_list_it < it1.m_list_it := by
              by_contra hc
              have heq : it1.m_list_it = it.m_list_it := by omega
              have h5 := f5 node (by rw [heq]; exact hn)
              rw [heq] at f3
              omega
            rcases hf with hf | hf
            · exact absurd hf hlen0
            · omega
        have hh1 : it.m_a_off + len ≤ nodes_len bl._buffers →
            it1.m_a_off + (len - t) ≤ nodes_len bl._buffers := by
          intro h
          omega
        have hh2 : nodes_len bl._buffers < it.m_a_off + len →
            nodes_len bl._buffers < it1.m_a_off + (len - t) := by
          intro h
          omega
        have hh3 : it1.m_a_off + (len - t) = it.m_a_off + len := by omega
        have hsl := nodes_bytes_slice m0 bl._buffers it.m_list_it node it.m_r_off t hin hn
          (by omega)
        obtain ⟨k1, k2⟩ := ih it1 (len - t) d1 hv1 e2 hfuel
        constructor
        · intro h
          obtain ⟨it2, d2, g1, g2, g3, g4, g5⟩ := k1 (hh1 h)
          refine ⟨it2, d2, g1, g2, by rw [g3, hh3], g4, ?_⟩
          rw [g5, e3, ← hsl, ← hA, f2, List.append_assoc, take_drop_step _ _ _ _ ht1]
        · intro h
          exact k2 (hh2 h)

theorem copy_with_spec {δ : Type} (emit : δ → ptr_node → Nat → Nat → Except Err δ)
    (bl : list) (m0 : Mem) (I : δ → Prop) (out : δ → List Nat)
    (hin : ∀ n ∈ bl._buffers, node_in m0 n.toptr) (hU : nodes_len bl._buffers < U64)
    (hE : ∀ d node r t, I d → node ∈ bl._buffers → r + t ≤ node.m_len →
      ∃ d1, emit d node r t = .ok d1 ∧ I d1 ∧
        out d1 = out d ++ ((node.toptr.bytes m0).drop r).take t)
    (fuel : Nat) (it : iterator) (len : Nat) (d : δ) (hf : bl._buffers.length < fuel)
    (hpos : it.end_ bl = true ∨ it.valid bl = true) (ha : it.m_a_off < U64) (hI : I d) :
    (it.m_a_off + len ≤ nodes_len bl._buffers →
      ∃ it1 d1, copy_with emit bl fuel it len d = some (.returned (it1, d1)) ∧
        it1.valid bl = true ∧ it1.m_a_off = it.m_a_off + len ∧ I d1 ∧
        out d1 = out d ++ ((nodes_bytes m0 bl._buffers).drop it.m_a_off).take len) ∧
    (nodes_len bl._buffers < it.m_a_off + len →
      ∃ s, copy_with emit bl fuel it len d = some (.thrown .end_of_buffer s)) := by
  unfold copy_with
  by_cases he : it.end_ bl = true
  · rw [if_pos he]
    unfold iterator.seek
    by_cases hle : it.m_a_off ≤ nodes_len bl._buffers
    · obtain ⟨it1, f1, f2, f3, _, f5, f6⟩ :=
        (advance_spec bl ⟨0, 0, 0⟩ it.m_a_off (by simp [nodes_len])
          (by simp only []; omega)).1 (by simp only []; omega)
      simp only [Nat.zero_add] at f2
      simp only [f1]
      have hv1 : it1.valid bl = true := by
        apply valid_of bl it1 f3
        · intro node1 hn1
          exact Nat.le_of_lt (f5 node1 hn1)
        · intro hnone
          obtain ⟨g1, g2⟩ := f6 hnone
          simp only [] at g1
          exact ⟨by omega, g2⟩
      have key := copy_loop_spec emit bl m0 I out hin hU hE fuel it1 len d hv1 hI
        (Or.inr (by omega))
      rw [f2] at key
      exact key
    · obtain ⟨it1, f1, _, _⟩ :=
        (advance_spec bl ⟨0, 0, 0⟩ it.m_a_off (by simp [nodes_len])
          (by simp only []; omega)).2 (by simp only []; omega)
      simp only [f1]
      exact ⟨fun h => absurd (by omega) hle, fun _ => ⟨_, rfl⟩⟩
  · rw [if_neg he]
    have hv : it.valid bl = true := by
      rcases hpos with h | h
      · exact absurd h he
      · exact h
    exact copy_loop_spec emit bl m0 I out hin hU hE fuel it len d hv hI (Or.inr (by omega))

theorem view_drop_take (data : List Nat) (off len r t : Nat) (h : r + t ≤ len) :
    (((data.drop off).take len).drop r).take t = (data.drop (off + r)).take t := by
  apply List.ext_getElem?
  intro j
  rw [view_getElem, view_getElem, view_getElem]
  by_cases hj : j < t
  · rw [if_pos hj, if_pos hj, if_pos (by omega), Nat.add_assoc]
  · rw [if_neg hj, if_neg hj]

theorem copy_out_spec (m : Mem) (node : ptr) (r t : Nat) (hn : node_in m node)
    (h : r + t ≤ node.m_len) :
    node.copy_out m r t = .ok (((node.bytes m).drop r).take t) := by
  obtain ⟨i, rr, a, b, c, d⟩ := hn
  unfold ptr.copy_out ptr.bytes
  simp only [a, b]
  rw [if_neg (by rw [Nat.mod_eq_of_lt (by omega)]; omega),
    if_neg (by simp only [List.length_drop]; omega), view_drop_take _ _ _ _ _ h]

theorem c_str_read_spec (m : Mem) (node : ptr) (r t : Nat) (hn : node_in m node)
    (h : r + t ≤ node.m_len) :
    ∃ src, node.c_str_data m = .ok src ∧ ¬ (src.drop r).length < t ∧
      (src.drop r).take t = ((node.bytes m).drop r).take t := by
  obtain ⟨i, rr, a, b, c, d⟩ := hn
  refine ⟨rr.m_data.drop node.m_off, ?_, ?_, ?_⟩
  · unfold ptr.c_str_data
    simp only [a, b]
  · simp only [List.length_drop]
    omega
  · unfold ptr.bytes
    simp only [a, b]
    rw [view_drop_take _ _ _ _ _ h, List.drop_drop, Nat.add_comm]

/-- C17: the three `copy` overloads on a list `bl` whose nodes view live
regions and whose `length()` is the sum of the node lengths, for an iterator
that is consistent or has been left at `end()` by a failed advance, with
`get_off() == a`, and for fuel beyond the number of nodes.  If
`a + len <= length()`, each overload returns: the character buffer and the
string have received exactly the bytes `[a, a + len)` of the content behind
what they held, the destination list has them behind its previous content,
the content of `bl` is unchanged, and `get_off() == a + len`.  If
`a + len > length()`, each overload throws `end_of_buffer`. -/
theorem copy_from_offset (m : Mem) (bl dest : list) (it : iterator) (fuel len : Nat)
    (buf s : List Nat) (hok : chain_ok m (bl._buffers ++ dest._buffers) = true)
    (hlen : bl._len = nodes_len bl._buffers) (hU : bl._len < U64)
    (hpos : it.end_ bl = true ∨ it.valid bl = true) (ha : it.get_off < U64)
    (hf : bl._buffers.length < fuel) :
    (it.get_off + len ≤ bl.length →
      (∃ it1, it.copy m bl fuel len buf
          = some (.returned (it1, buf ++ ((bl.bytes m).drop it.get_off).take len)) ∧
        it1.get_off = it.get_off + len) ∧
      (∃ it1, it.copy_string m bl fuel len s
          = some (.returned (it1, s ++ ((bl.bytes m).drop it.get_off).take len)) ∧
        it1.get_off = it.get_off + len) ∧
      (∃ it1 dest1 m1, it.copy_list m bl fuel len dest = some (.returned (it1, dest1, m1)) ∧
        dest1.bytes m1 = dest.bytes m ++ ((bl.bytes m).drop it.get_off).take len ∧
        it1.get_off = it.get_off + len ∧ bl.bytes m1 = bl.bytes m)) ∧
    (bl.length < it.get_off + len →
      (∃ st, it.copy m bl fuel len buf = some (.thrown .end_of_buffer st)) ∧
      (∃ st, it.copy_string m bl fuel len s = some (.thrown .end_of_buffer st)) ∧
      (∃ st, it.copy_list m bl fuel len dest = some (.thrown .end_of_buffer st))) := by
  have hcov := chain_ok_covered m _ hok
  have hin : ∀ n ∈ bl._buffers, node_in m n.toptr :=
    fun n hn => hcov.1 n (List.mem_append_left _ hn)
  have hU1 : nodes_len bl._buffers < U64 := by omega
  simp only [iterator.get_off, list.length, hlen] at ha ⊢
  have k1 := copy_with_spec (copy_emit_buf m) bl m (fun _ => True) id hin hU1
    (by
      intro d node r t _ hmem hrt
      refine ⟨d ++ ((node.toptr.bytes m).drop r).take t, ?_, trivial, rfl⟩
      unfold copy_emit_buf
      simp only [copy_out_spec m node.toptr r t (hin node hmem) hrt])
    fuel it len buf hf hpos ha trivial
  have k2 := copy_with_spec (copy_emit_string m) bl m (fun _ => True) id hin hU1
    (by
      intro d node r t _ hmem hrt
      obtain ⟨src, c1, c2, c3⟩ := c_str_read_spec m node.toptr r t (hin node hmem) hrt
      refine ⟨d ++ ((node.toptr.bytes m).drop r).take t, ?_, trivial, rfl⟩
      unfold copy_emit_string
      simp only [c1]
      rw [if_neg c2, c3])
    fuel it len s hf hpos ha trivial
  have k3 := copy_with_spec copy_emit_list bl m
    (fun d => covered d.2 (bl._buffers ++ d.1._buffers) ∧ data_from m d.2)
    (fun d => d.1.bytes d.2) hin hU1
    (by
      intro d node r t hI hmem hrt
      obtain ⟨C1, m1, c1, c2, c3, c4⟩ :=
        append_ptr_range_covered d.2 bl._buffers d.1 node r t hI.1 hmem hrt
      refine ⟨(C1, m1), c1, ⟨c3, data_from_trans m d.2 m1 hI.2 c2⟩, ?_⟩
      show nodes_bytes m1 C1._buffers = _
      rw [c4, ptr_bytes_data_from m d.2 node.toptr hI.2 (hI.1.1 node (List.mem_append_left _ hmem))]
      rfl)
    fuel it len (dest, m) hf hpos ha ⟨hcov, data_from_refl m⟩
  constructor
  · intro h
    obtain ⟨a1, b1, e1, _, e3, _, e5⟩ := k1.1 h
    obtain ⟨a2, b2, f1, _, f3, _, f5⟩ := k2.1 h
    obtain ⟨a3, b3, g1, _, g3, g4, g5⟩ := k3.1 h
    refine ⟨⟨a1, ?_, e3⟩, ⟨a2, ?_, f3⟩, ⟨a3, b3.1, b3.2, g1, g5, g3, ?_⟩⟩
    · unfold iterator.copy
      rw [e1]
      simp only [id] at e5
      rw [e5]
      rfl
    · unfold iterator.copy_string
      rw [f1]
      simp only [id] at f5
      rw [f5]
      rfl
    · exact nodes_bytes_data_from m b3.2 bl._buffers g4.2
        (fun n hn => g4.1.1 n (List.mem_append_left _ hn))
  · intro h
    exact ⟨k1.2 h, k2.2 h, k3.2 h⟩

/-- C17 witness: the copy test on the list `ABC`.  The iterator that
`it += 200` from `begin()` has left at `end()` with `get_off() == 0` copies
the two bytes `AB` to each destination, and `get_off()` becomes 2. -/
theorem copy_from_offset_witness :
    chain_ok abc.2 (abc.1._buffers ++ list.mk_empty._buffers) = true ∧
    abc.1._len = nodes_len abc.1._buffers ∧ abc.1._len < U64 ∧
    (⟨0, 0, 0⟩ : iterator).advance abc.1 200 = .thrown .end_of_buffer ⟨1, 197, 0⟩ ∧
    ((⟨1, 197, 0⟩ : iterator).end_ abc.1 = true ∨ (⟨1, 197, 0⟩ : iterator).valid abc.1 = true) ∧
    abc.1._buffers.length < 2 ∧ (⟨1, 197, 0⟩ : iterator).get_off + 2 ≤ abc.1.length ∧
    (∃ it1, (⟨1, 197, 0⟩ : iterator).copy abc.2 abc.1 2 2 [] = some (.returned (it1, str "AB")) ∧
      it1.get_off = 2) ∧
    (∃ it1, (⟨1, 197, 0⟩ : iterator).copy_string abc.2 abc.1 2 2 []
        = some (.returned (it1, str "AB")) ∧ it1.get_off = 2) ∧
    (∃ it1 dest1 m1, (⟨1, 197, 0⟩ : iterator).copy_list abc.2 abc.1 2 2 list.mk_empty
        = some (.returned (it1, dest1, m1)) ∧
      dest1.bytes m1 = str "AB" ∧ it1.get_off = 2 ∧ abc.1.bytes m1 = str "ABC") :=
  ⟨rfl, rfl, by decide, rfl, Or.inl rfl, by decide, by decide,
   (copy_from_offset abc.2 abc.1 list.mk_empty ⟨1, 197, 0⟩ 2 2 [] [] rfl rfl (by decide)
      (Or.inl rfl) (by decide) (by decide)).1 (by decide)⟩

/-! ## `rebuild()` and `c_str()` on well-formed lists (C19) -/

theorem set_raw_twice (m : Mem) (i : Nat) (a b : Option raw) :
    (m.set_raw i a).set_raw i b = m.set_raw i b := by
  unfold Mem.set_raw
  simp only [Mem.mk.injEq, and_true]
  funext j
  by_cases h : j = i
  · simp [h]
  · simp [h]

theorem write_bytes_take (data src : List Nat) (pos : Nat) (h : pos ≤ data.length) :
    (write_bytes data pos src).take pos = data.take pos := by
  unfold write_bytes
  rw [List.append_assoc, List.take_append_of_le_length (by simp [h]),
    List.take_take, Nat.min_self]

/-- The copy loop of `rebuild(nb)` fills the region of `nb` from `pos` on
with the bytes of the nodes and changes nothing else. -/
theorem rebuild_copy_spec (i T : Nat) (hT : T < U64) (nodes : List ptr_node) :
    ∀ (m : Mem) (pos : Nat) (r : raw), m.raws i = some r → r.m_data.length = T →
      (∀ n ∈ nodes, node_in m n.toptr ∧ n.m_raw ≠ some i) → pos + nodes_len nodes ≤ T →
      ∃ D, rebuild_copy m ⟨some i, 0, T⟩ nodes pos
          = .ok (m.set_raw i (some { r with m_data := D })) ∧
        D.length = T ∧ D.take pos = r.m_data.take pos ∧
        (D.drop pos).take (nodes_len nodes) = nodes_bytes m nodes := by
  induction nodes with
  | nil =>
    intro m pos r hr hl _ _
    refine ⟨r.m_data, ?_, hl, rfl, by simp [nodes_len, nodes_bytes]⟩
    unfold rebuild_copy
    congr 1
    unfold Mem.set_raw
    cases m
    simp only [Mem.mk.injEq, and_true]
    funext j
    by_cases h : j = i
    · subst h
      simp only [if_true]
      exact hr
    · simp only [h, if_false]
  | cons n rest ih =>
    intro m pos r hr hl hn hb
    simp only [nodes_len] at hb
    obtain ⟨⟨k, rk, a, b, c, d⟩, hne⟩ := hn n (List.mem_cons_self _ _)
    have hki : k ≠ i := by
      intro h
      apply hne
      rw [a, h]
    have hsrc : (rk.m_data.drop n.m_off).take n.m_len = n.toptr.bytes m := by
      unfold ptr.bytes
      simp only [a, b]
    have hsl : ((rk.m_data.drop n.m_off).take n.m_len).length = n.m_len := by
      simp only [List.length_take, List.length_drop]
      omega
    have hle : pos + ((rk.m_data.drop n.m_off).take n.m_len).length ≤ r.m_data.length := by
      rw [hsl]
      omega
    obtain ⟨D1, hD1⟩ : ∃ D1, D1 = write_bytes r.m_data pos
        ((rk.m_data.drop n.m_off).take n.m_len) := ⟨_, rfl⟩
    have hD1l : D1.length = T := by
      rw [hD1, write_bytes_length _ _ _ hle, hl]
    have hstep : ptr.copy_in m ⟨some i, 0, T⟩ pos n.m_len (rk.m_data.drop n.m_off) false
        = .ok (m.set_raw i (some { r with m_data := D1 })) := by
      unfold ptr.copy_in Mem.store
      simp only [hr]
      rw [if_pos ⟨by omega, by rw [Nat.mod_eq_of_lt (by omega)]; omega⟩,
        if_neg (by simp only [List.length_drop]; omega)]
      simp only [Nat.zero_add]
      rw [if_pos hle, hD1]
      rfl
    have hrest : ∀ x ∈ rest, node_in (m.set_raw i (some { r with m_data := D1 })) x.toptr ∧
        x.m_raw ≠ some i := by
      intro x hx
      obtain ⟨⟨kx, rx, ax, bx, cx, dx⟩, hnx⟩ := hn x (List.mem_cons_of_mem _ hx)
      have hkx : kx ≠ i := by
        intro h
        apply hnx
        rw [ax, h]
      exact ⟨⟨kx, rx, ax, by rw [set_raw_other _ _ _ _ hkx]; exact bx, cx, dx⟩, hnx⟩
    obtain ⟨D, e1, e2, e3, e4⟩ := ih (m.set_raw i (some { r with m_data := D1 }))
      (pos + n.m_len) { r with m_data := D1 } (set_raw_same _ _ _) hD1l hrest (by omega)
    have hbytes : nodes_bytes (m.set_raw i (some { r with m_data := D1 })) rest
        = nodes_bytes m rest := by
      apply nodes_bytes_frame
      intro x hx
      apply ptr_bytes_other
      intro j hj
      have hnx := (hn x (List.mem_cons_of_mem _ hx)).2
      have hji : j ≠ i := by
        intro h
        apply hnx
        rw [hj, h]
      exact set_raw_other _ _ _ _ hji
    refine ⟨D, ?_, e2, ?_, ?_⟩
    · unfold rebuild_copy ptr.c_str_data
      simp only [ptr.length, a, b, hstep, add64]
      rw [Nat.mod_eq_of_lt (by omega), e1, set_raw_twice]
    · have h1 : (D.take (pos + n.m_len)).take pos = (D1.take (pos + n.m_len)).take pos := by
        rw [e3]
      rw [List.take_take, List.take_take, Nat.min_eq_left (by omega)] at h1
      rw [h1, hD1, write_bytes_take _ _ _ (by omega)]
    · simp only [nodes_len, nodes_bytes]
      rw [← take_drop_step D pos n.m_len (n.m_len + nodes_len rest) (by omega),
        Nat.add_sub_cancel_left, e4, hbytes, ← hsrc]
      congr 1
      have h2 : (D.take (pos + n.m_len)).drop pos = (D1.take (pos + n.m_len)).drop pos := by
        rw [e3]
      rw [List.drop_take, List.drop_take, Nat.add_sub_cancel_left] at h2
      rw [h2, hD1]
      have h3 := write_bytes_at r.m_data ((rk.m_data.drop n.m_off).take n.m_len) pos (by omega)
      rw [hsl] at h3
      exact h3

theorem clear_and_dispose_covered (A : List ptr_node) (nodes : List ptr_node) :
    ∀ m : Mem, covered m (A ++ nodes) →
      ∃ m1, clear_and_dispose m nodes = .ok m1 ∧ data_from m m1 ∧ covered m1 A := by
  induction nodes with
  | nil =>
    intro m hc
    exact ⟨m, rfl, data_from_refl m, by simpa using hc⟩
  | cons c rest ih =>
    intro m hc
    obtain ⟨m1, e1, e2, e3⟩ := dispose_covered m A rest c hc
    obtain ⟨m2, f1, f2, f3⟩ := ih m1 e3
    refine ⟨m2, ?_, data_from_trans m m1 m2 e2 f2, f3⟩
    unfold clear_and_dispose
    simp only [e1]
    exact f1

theorem create_ok (m : Mem) (len : Nat) :
    (∃ i m1, create m len = .ok (i, m1) ∧ allocated m len i m1) ∧
    (∃ i m1, create_page_aligned m len = .ok (i, m1) ∧ allocated m len i m1) := by
  have h1 : ∃ v, create m len = .ok v := by
    unfold create create_aligned raw_posix_aligned.create raw_combined.create posix_memalign
    split
    · rw [if_pos (by decide), if_pos (by decide)]
      exact ⟨_, rfl⟩
    · simp only [if_false]
      rw [if_pos (by decide)]
      exact ⟨_, rfl⟩
  have h2 : ∃ v, create_page_aligned m len = .ok v := by
    unfold create_page_aligned create_aligned raw_posix_aligned.create posix_memalign
    rw [if_pos (Or.inl (by decide)), if_pos (by decide), if_pos (by decide)]
    exact ⟨_, rfl⟩
  obtain ⟨⟨i, m1⟩, e1⟩ := h1
  obtain ⟨⟨j, m2⟩, e2⟩ := h2
  exact ⟨⟨i, m1, e1, create_aligned_spec m len 8 i m1 e1⟩,
    ⟨j, m2, e2, create_aligned_spec m len SPEC_PAGE_SIZE j m2 e2⟩⟩

theorem refs_zero_of_not_mem (nodes : List ptr_node) (i : Nat)
    (h : ∀ n ∈ nodes, n.m_raw ≠ some i) : refs nodes i = 0 := by
  unfold refs
  rw [List.countP_eq_zero]
  intro n hn
  simpa using h n hn

/-- Member `list::rebuild()` on a well-formed list returns; the content and
`length()` are as before, in one node on a new region when `length() > 0`
and with no node when `length() == 0`. -/
theorem rebuild_keeps_content (m : Mem) (L : list) (hok : chain_ok m L._buffers = true)
    (hlive : views_live m L._buffers = true) (hlen : L._len = nodes_len L._buffers)
    (hU : L._len < U64) :
    ∃ L1 m1, L.rebuild m = .ok (L1, m1) ∧ L1.bytes m1 = L.bytes m ∧ L1.length = L.length ∧
      (0 < L.length → ∃ nb, L1._buffers = [nb] ∧ L1._num = 1 ∧ nb.m_off = 0 ∧
        nb.m_len = L.length ∧ node_in m1 nb.toptr) ∧
      (L.length = 0 → L1._buffers = [] ∧ L1._num = 0) := by
  have hcov := chain_ok_covered m _ hok
  have hin := hcov.1
  have hbl : (nodes_bytes m L._buffers).length = L._len := by
    rw [nodes_bytes_length m _ hin, hlen]
  unfold list.rebuild
  by_cases h0 : L._len = 0
  · rw [if_pos h0]
    obtain ⟨m1, e1, _, _⟩ := clear_and_dispose_covered [] L._buffers m (by simpa using hcov)
    simp only [e1]
    refine ⟨_, m1, rfl, ?_, rfl, fun h => absurd h0 (by simp only [list.length] at h; omega),
      fun _ => ⟨rfl, rfl⟩⟩
    show nodes_bytes m1 [] = nodes_bytes m L._buffers
    have hnil : nodes_bytes m L._buffers = [] := List.length_eq_zero.mp (by rw [hbl]; exact h0)
    rw [hnil]
    rfl
  · rw [if_neg h0]
    obtain ⟨i, m1, ha1, ha2⟩ : ∃ i m1,
        (if L._len % SPEC_PAGE_SIZE = 0 then create_page_aligned m L._len
          else create m L._len) = .ok (i, m1) ∧ allocated m L._len i m1 := by
      split
      · exact (create_ok m L._len).2
      · exact (create_ok m L._len).1
    simp only [ha1]
    obtain ⟨hi, hnr, hnn, hoth, r0, hr0, hd0, hn0, _⟩ := ha2
    subst hi
    have hnode : ∀ n ∈ L._buffers, n.m_raw ≠ some m.next_raw := by
      intro n hn h
      obtain ⟨k, _, a, _, _, _, e⟩ := views_live_spec m L._buffers hlive n hn
      rw [a] at h
      cases h
      omega
    have hT : r0.m_data.length = L._len := by rw [hd0, List.length_replicate]
    have hcr : ptr_node.create_raw m1 m.next_raw = .ok
        (⟨⟨some m.next_raw, 0, L._len⟩, m1.next_node⟩,
         ⟨(m1.set_raw m.next_raw (some { r0 with nref := 1 })).raws, m1.next_raw, m1.brk,
          m1.next_node + 1⟩) := by
      unfold ptr_node.create_raw ptr.of_raw Mem.new_node
      simp only [hr0, raw.get_len, hT]
      rfl
    simp only [hcr]
    obtain ⟨m2, hm2⟩ : ∃ m2 : Mem, m2 =
        ⟨(m1.set_raw m.next_raw (some { r0 with nref := 1 })).raws, m1.next_raw, m1.brk,
          m1.next_node + 1⟩ := ⟨_, rfl⟩
    rw [← hm2]
    have hm2i : m2.raws m.next_raw = some { r0 with nref := 1 } := by
      rw [hm2]
      simp [Mem.set_raw]
    have hm2o : ∀ j, j ≠ m.next_raw → m2.raws j = m.raws j := by
      intro j hj
      rw [hm2]
      simp only [Mem.set_raw, hj, if_false]
      exact hoth j hj
    have hin2 : ∀ n ∈ L._buffers, node_in m2 n.toptr ∧ n.m_raw ≠ some m.next_raw := by
      intro n hn
      obtain ⟨k, rk, a, b, c, d⟩ := hin n hn
      have hk : k ≠ m.next_raw := by
        intro h
        apply hnode n hn
        rw [a, h]
      exact ⟨⟨k, rk, a, by rw [hm2o k hk]; exact b, c, d⟩, hnode n hn⟩
    obtain ⟨D, e1, e2, _, e4⟩ := rebuild_copy_spec m.next_raw L._len hU L._buffers m2 0
      { r0 with nref := 1 } hm2i hT hin2 (by omega)
    have hb2 : nodes_bytes m2 L._buffers = nodes_bytes m L._buffers := by
      apply nodes_bytes_frame
      intro x hx
      apply ptr_bytes_other
      intro j hj
      have hji : j ≠ m.next_raw := by
        intro h
        apply hnode x hx
        rw [hj, h]
      exact hm2o j hji
    obtain ⟨m3, hm3⟩ : ∃ m3 : Mem, m3 =
        m2.set_raw m.next_raw (some { { r0 with nref := 1 } with m_data := D }) := ⟨_, rfl⟩
    rw [← hm3] at e1
    have hcov3 : covered m3 ([⟨⟨some m.next_raw, 0, L._len⟩, m1.next_node⟩] ++ L._buffers) := by
      constructor
      · intro n hn
        rcases List.mem_append.mp hn with h | h
        · simp only [List.mem_singleton] at h
          subst h
          exact ⟨m.next_raw, _, rfl, by rw [hm3]; exact set_raw_same _ _ _,
            by simp only [e2]; omega, by simp only [e2]; exact hU⟩
        · obtain ⟨k, rk, a, b, c, d⟩ := (hin2 n h).1
          have hk : k ≠ m.next_raw := by
            intro h'
            apply hnode n h
            rw [a, h']
          exact ⟨k, rk, a, by rw [hm3, set_raw_other _ _ _ _ hk]; exact b, c, d⟩
      · intro j r hj
        rw [refs_append, refs_cons, refs_nil]
        by_cases hji : j = m.next_raw
        · subst hji
          rw [hm3, set_raw_same] at hj
          cases hj
          rw [refs_zero_of_not_mem L._buffers _ hnode]
          simp
        · rw [hm3, set_raw_other _ _ _ _ hji, hm2o j hji] at hj
          have := hcov.2 j r hj
          have hne : ¬ (some m.next_raw = some j) := by
            intro h
            cases h
            exact hji rfl
          simp only [hne, if_false]
          omega
    obtain ⟨m4, f1, f2, f3⟩ := clear_and_dispose_covered
      [⟨⟨some m.next_raw, 0, L._len⟩, m1.next_node⟩] L._buffers m3 hcov3
    obtain ⟨k, r4, g1, g2, g3, g4⟩ := f3.1 _ (List.mem_singleton.mpr rfl)
    simp only [Option.some.injEq] at g1
    subst g1
    obtain ⟨r3, g5, g6⟩ := f2 _ r4 g2
    rw [hm3, set_raw_same] at g5
    cases g5
    simp only [] at g6
    unfold list.rebuild_into
    simp only [e1, f1, ptr.length]
    rw [if_pos h0]
    have hinv : list.invalidate_crc m4
        { L with _buffers := [⟨⟨some m.next_raw, 0, L._len⟩, m1.next_node⟩],
                 _tail_pnode_cache := some m1.next_node, _num := 1 }
        = .ok (m4.set_raw m.next_raw (some r4.invalidate_crc)) := by
      unfold list.invalidate_crc invalidate_crc_nodes Mem.invalidate_crc
      simp only [g2]
      rfl
    simp only [hinv]
    refine ⟨_, _, rfl, ?_, rfl, fun _ => ⟨_, rfl, rfl, rfl, rfl, ?_⟩,
      fun h => absurd h (by simp only [list.length]; exact h0)⟩
    · show nodes_bytes _ [_] = nodes_bytes m L._buffers
      simp only [nodes_bytes, List.append_nil, ptr.bytes, set_raw_same, raw.invalidate_crc,
        List.drop_zero, g6]
      rw [← hb2, ← e4, List.drop_zero, hlen]
    · exact ⟨m.next_raw, _, rfl, set_raw_same _ _ _,
        by simp only [raw.invalidate_crc, g6, e2]; omega,
        by simp only [raw.invalidate_crc, g6, e2]; exact hU⟩

/-- Member `list::c_str()` on a well-formed list (with `get_num_buffers()`
the number of nodes) that has one node, or
several nodes and `length() > 0`: the call returns the start of the view of
the only node the list has afterwards, that view holds exactly the previous
content, and `length()` is unchanged.  On a list without nodes it returns
the null pointer. -/
theorem c_str_contiguous (m : Mem) (L : list) (hok : chain_ok m L._buffers = true)
    (hlive : views_live m L._buffers = true) (hlen : L._len = nodes_len L._buffers)
    (hnum : L._num = L._buffers.length) (hU : L._len < U64) :
    (L._buffers = [] → L.c_str m = .ok (none, L, m)) ∧
    (L._buffers.length = 1 ∨ (L._buffers ≠ [] ∧ 0 < L.length) →
      ∃ a L1 m1 front, L.c_str m = .ok (some a, L1, m1) ∧ L1._buffers = [front] ∧
        front.toptr.c_str_addr m1 = .ok a ∧ front.toptr.bytes m1 = L.bytes m ∧
        L1.bytes m1 = L.bytes m ∧ L1.length = L.length ∧ L1.is_contiguous = true) := by
  have hin := views_live_in m L._buffers hlive
  constructor
  · intro h
    unfold list.c_str
    simp only [h, List.isEmpty_nil, if_true]
  · intro h
    by_cases h1 : L._buffers.length = 1
    · obtain ⟨front, hf⟩ := List.length_eq_one.mp h1
      obtain ⟨i, r, a, b, c, d⟩ := hin front (by rw [hf]; simp)
      refine ⟨r.data_addr + front.m_off, L, m, front, ?_, hf, ?_, ?_, rfl, rfl, ?_⟩
      · unfold list.c_str ptr.c_str_addr
        simp only [hf, List.isEmpty_cons, List.length_singleton, Nat.lt_irrefl, if_false,
          List.head?_cons, a, b]
        rfl
      · unfold ptr.c_str_addr
        simp only [a, b]
      · unfold list.bytes
        rw [hf]
        simp [nodes_bytes]
      · unfold list.is_contiguous
        rw [hnum, h1]
        rfl
    · have h2 : L._buffers ≠ [] ∧ 0 < L.length := by
        rcases h with h | h
        · exact absurd h h1
        · exact h
      obtain ⟨L1, m1, e1, e2, e3, e4, _⟩ := rebuild_keeps_content m L hok hlive hlen hU
      obtain ⟨nb, f1, f2, f3, f4, i, r, a, b, c, d⟩ := e4 h2.2
      have hlt : 1 < L._buffers.length := by
        have : L._buffers.length ≠ 0 := fun h0 => h2.1 (List.length_eq_zero.mp h0)
        omega
      refine ⟨r.data_addr + nb.m_off, L1, m1, nb, ?_, f1, ?_, ?_, e2, e3, ?_⟩
      · unfold list.c_str ptr.c_str_addr
        have hemp : L._buffers.isEmpty = false := by
          cases hb : L._buffers with
          | nil => exact absurd hb h2.1
          | cons x xs => rfl
        simp only [hemp, hlt, if_true, e1, f1, List.head?_cons, a, b]
        rfl
      · unfold ptr.c_str_addr
        simp only [a, b]
      · rw [← e2]
        unfold list.bytes
        rw [f1]
        simp [nodes_bytes]
      · unfold list.is_contiguous
        rw [f2]
        rfl

/-- The call `c_str()` on the list `AB`, `C`: an instance of
`c_str_contiguous` with several nodes. -/
theorem c_str_contiguous_on_ab_c :
    chain_ok ab_c.2 ab_c.1._buffers = true ∧ views_live ab_c.2 ab_c.1._buffers = true ∧
    ab_c.1._len = nodes_len ab_c.1._buffers ∧ ab_c.1._num = ab_c.1._buffers.length ∧
    ab_c.1._len < U64 ∧ ab_c.1._buffers ≠ [] ∧ 0 < ab_c.1.length ∧
    ab_c.1.bytes ab_c.2 = str "ABC" ∧
    ∃ a L1 m1 front, ab_c.1.c_str ab_c.2 = .ok (some a, L1, m1) ∧ L1._buffers = [front] ∧
      front.toptr.c_str_addr m1 = .ok a ∧ front.toptr.bytes m1 = str "ABC" ∧
      L1.bytes m1 = str "ABC" ∧ L1.length = 3 ∧ L1.is_contiguous = true :=
  ⟨rfl, rfl, rfl, rfl, by decide, by decide, by decide, rfl,
   (c_str_contiguous ab_c.2 ab_c.1 rfl rfl rfl rfl (by decide)).2
     (Or.inr ⟨by decide, by decide⟩)⟩
/-- C30: for every byte string `buf`, every length `len` up to its size
(the `unsigned length` handed to `spec_crc32c`) and all seeds `v` and `w`,
the CRC of the first `len` bytes seeded with `w` is the CRC seeded with `v`
XOR the CRC of `len` zero bytes (the call with a null data pointer) seeded
with `v XOR w`. -/
theorem spec_crc32c_seed_change (v w : Nat) (buf : List Nat) (len : Nat)
    (h : len ≤ buf.length) :
    spec_crc32c w (some buf) len
      = spec_crc32c v (some buf) len ^^^ spec_crc32c (v ^^^ w) none len ∧
    spec_crc32c (v ^^^ w) none len = crc32c_bytes (v ^^^ w) (List.replicate len 0) := by
  rw [spec_crc32c_some, spec_crc32c_some, spec_crc32c_none]
  have hl : (buf.take len).length = len := by
    rw [List.length_take]
    omega
  have key := crc32c_adjust v w (buf.take len)
  rw [hl] at key
  exact ⟨key, rfl⟩

/-- C30 witness: the byte `A` with the seeds 0 and 0xB3109EBF: the digest
0x5FA5C0CC of the chained call is the digest 0xB3109EBF of the call with
seed 0, XOR the CRC of one zero byte seeded with 0xB3109EBF. -/
theorem spec_crc32c_seed_change_witness :
    1 ≤ (str "A").length ∧
    spec_crc32c 0 (some (str "A")) 1 = 0xB3109EBF ∧
    spec_crc32c 0xB3109EBF (some (str "A")) 1 = 0x5FA5C0CC ∧
    spec_crc32c 0xB3109EBF (some (str "A")) 1
      = spec_crc32c 0 (some (str "A")) 1 ^^^ spec_crc32c (0 ^^^ 0xB3109EBF) none 1 :=
  ⟨by decide, by decide, by decide,
   (spec_crc32c_seed_change 0 0xB3109EBF (str "A") 1 (by decide)).1⟩

/-! ## The slicing constructor (C25) -/

/-- C25, amended: the slicing constructor `ptr(parent, offset, length)`
with `offset + length` fitting a `uint64_t`.  It fails its assertion when
`offset + length > parent.length()`, and it fails an assertion when the
parent has no region.  For a parent whose view lies inside a live region and
`offset + length <= parent.length()`, it returns a ptr on the region of the
parent with offset `parent.offset() + offset` and the given length, the
reference count of the region has grown by exactly 1, and nothing else in
the heap has changed. -/
theorem slice_accepts_iff (m : Mem) (bptr : ptr) (offset len : Nat)
    (hw : offset + len < U64) :
    (bptr.m_len < offset + len → bptr.slice m offset len = .error .assert_failed) ∧
    (bptr.m_raw = none → bptr.slice m offset len = .error .assert_failed) ∧
    (node_in m bptr → offset + len ≤ bptr.m_len →
      ∃ i r, bptr.m_raw = some i ∧ m.raws i = some r ∧
        bptr.slice m offset len
          = .ok (⟨some i, bptr.offset + offset, len⟩,
                 m.set_raw i (some { r with nref := r.nref + 1 }))) := by
  have h1 : (offset + len) % U64 = offset + len := Nat.mod_eq_of_lt hw
  refine ⟨?_, ?_, ?_⟩
  · intro h
    unfold ptr.slice
    rw [h1, if_neg (by omega)]
  · intro h
    unfold ptr.slice
    simp only [h]
    split <;> rfl
  · intro ⟨i, r, a, b, c, d⟩ hle
    refine ⟨i, r, a, b, ?_⟩
    unfold ptr.slice Mem.nref_inc
    rw [h1, if_pos hle]
    simp only [a, b, ptr.offset]
    rw [Nat.mod_eq_of_lt (by omega)]

/-- C25 witness: the slice `ptr(p, 1, 1)` of the ptr `AB` views `B`, and the
region counts 2 references; `ptr(p, 0, 3)` and a slice of a ptr without
region fail their assertions. -/
theorem slice_accepts_iff_witness :
    (1 : Nat) + 1 < U64 ∧ node_in ptr_ab.2 ptr_ab.1 ∧ 1 + 1 ≤ ptr_ab.1.m_len ∧
    observe_ptr ptr_ab.2 ptr_ab.1 = (0, 2, str "AB", some (str "AB", 1, (SIZE_MAX, SIZE_MAX))) ∧
    (∃ i r, ptr_ab.1.m_raw = some i ∧ ptr_ab.2.raws i = some r ∧
      ptr_ab.1.slice ptr_ab.2 1 1
        = .ok (⟨some i, ptr_ab.1.offset + 1, 1⟩,
               ptr_ab.2.set_raw i (some { r with nref := r.nref + 1 }))) ∧
    (ptr_ab.1.slice ptr_ab.2 1 1).map (fun x => observe_ptr x.2 x.1)
      = .ok (1, 1, str "B", some (str "AB", 2, (SIZE_MAX, SIZE_MAX))) ∧
    ptr_ab.1.slice ptr_ab.2 0 3 = .error .assert_failed ∧
    ptr.mk_empty.slice ptr_ab.2 0 0 = .error .assert_failed :=
  ⟨by decide, ⟨0, _, rfl, rfl, by decide, by decide⟩, by decide, rfl,
   (slice_accepts_iff ptr_ab.2 ptr_ab.1 1 1 (by decide)).2.2
     ⟨0, _, rfl, rfl, by decide, by decide⟩ (by decide),
   rfl, rfl, rfl⟩

/-- C25 counterexample: `offset + length` is computed in a `uint64_t`.  The
slice `ptr(p, 2^64 - 1, 1)` of the ptr `AB` has `offset + length > 2`, yet the
sum wraps to 0 and the constructor returns: a ptr of length 1 at offset
`2^64 - 1`, with the reference count raised to 2. -/
theorem slice_wraps_offset :
    ptr_ab.1.length = 2 ∧ ptr_ab.1.length < 2 ^ 64 - 1 + 1 ∧
    (ptr_ab.1.slice ptr_ab.2 (2 ^ 64 - 1) 1).map
        (fun x => (x.1, (x.2.raws 0).map (fun r => r.nref)))
      = .ok (⟨some 0, 2 ^ 64 - 1, 1⟩, some 2) :=
  ⟨rfl, by decide, rfl⟩
theorem view_after_write (d s : List Nat) (P N o : Nat) (h : o + s.length ≤ N)
    (hP : P + N ≤ d.length) :
    ((write_bytes d (P + o) s).drop P).take N
      = ((d.drop P).take N).take o ++ s ++ ((d.drop P).take N).drop (o + s.length) := by
  have hle : P + o + s.length ≤ d.length := by omega
  apply List.ext_getElem?
  intro j
  rw [view_getElem, write_bytes_getElem _ _ _ _ hle]
  by_cases h1 : j < o
  · have a1 : j < N := by omega
    have a2 : ¬ (P + o ≤ P + j ∧ P + j < P + o + s.length) := by omega
    rw [List.append_assoc, List.getElem?_append_left (by
      simp only [List.length_take, List.length_drop]
      omega), List.getElem?_take_of_lt h1, view_getElem, if_pos a1, if_neg a2, if_pos a1]
  · by_cases h2 : j < o + s.length
    · have a1 : j < N := by omega
      have a2 : P + o ≤ P + j ∧ P + j < P + o + s.length := by omega
      rw [List.append_assoc, List.getElem?_append_right (by
        simp only [List.length_take, List.length_drop]
        omega), List.getElem?_append_left (by
        simp only [List.length_take, List.length_drop]
        omega), if_pos a1, if_pos a2]
      simp only [List.length_take, List.length_drop]
      congr 1
      omega
    · have a2 : ¬ (P + o ≤ P + j ∧ P + j < P + o + s.length) := by omega
      rw [List.getElem?_append_right (by
        simp only [List.length_append, List.length_take, List.length_drop]
        omega), List.getElem?_drop, view_getElem, if_neg a2]
      simp only [List.length_append, List.length_take, List.length_drop]
      have e : o + s.length + (j - (min o (min N (d.length - P)) + s.length)) = j := by
        omega
      rw [e]

theorem view_after_append (d s : List Nat) (P N : Nat) (hP : P + N + s.length ≤ d.length) :
    ((write_bytes d (P + N) s).drop P).take (N + s.length) = (d.drop P).take N ++ s := by
  have key := view_after_write d s P (N + s.length) N (by omega) (by omega)
  rw [key, List.take_take, Nat.min_eq_left (by omega), List.drop_take, Nat.sub_self]
  simp

/-! ## `ptr::append` (C26) -/

/-- C26, amended: `ptr::append(src, n)` and `ptr::append(c)`.  Without a
region both fail their assertion.  For a ptr whose view lies inside its live
region, they fail their assertion when `n` (respectively 1) exceeds
`region.len - (offset + length)`; otherwise they return the new end offset
`offset + length + n`, the view has grown by `n`, the bytes are written into
the region at `offset + length` and nothing else in the heap has changed, so
the view holds its previous bytes followed by the new ones. -/
theorem ptr_append_contract (m : Mem) (p : ptr) (src : List Nat) (n c : Nat) :
    (p.m_raw = none →
      p.append m src n = .error .assert_failed ∧ p.append_char m c = .error .assert_failed) ∧
    (∀ i r, p.m_raw = some i → m.raws i = some r → p.offset + p.length ≤ r.get_len →
      r.get_len < U64 →
      (r.get_len - (p.offset + p.length) < n → p.append m src n = .error .assert_failed) ∧
      (r.get_len - (p.offset + p.length) < 1 → p.append_char m c = .error .assert_failed) ∧
      (n ≤ r.get_len - (p.offset + p.length) → n ≤ src.length →
        p.append m src n
          = .ok (p.offset + p.length + n, ⟨some i, p.offset, p.length + n⟩,
              m.set_raw i (some { r with
                m_data := write_bytes r.m_data (p.offset + p.length) (src.take n) })) ∧
        (⟨some i, p.offset, p.length + n⟩ : ptr).bytes
            (m.set_raw i (some { r with
              m_data := write_bytes r.m_data (p.offset + p.length) (src.take n) }))
          = p.bytes m ++ src.take n) ∧
      (1 ≤ r.get_len - (p.offset + p.length) →
        p.append_char m c
          = .ok (p.offset + p.length + 1, ⟨some i, p.offset, p.length + 1⟩,
              m.set_raw i (some { r with
                m_data := write_bytes r.m_data (p.offset + p.length) [c] })) ∧
        (⟨some i, p.offset, p.length + 1⟩ : ptr).bytes
            (m.set_raw i (some { r with
              m_data := write_bytes r.m_data (p.offset + p.length) [c] }))
          = p.bytes m ++ [c])) := by
  constructor
  · intro h
    unfold ptr.append ptr.append_char
    simp only [h]
    exact ⟨trivial, trivial⟩
  · intro i r hi hr hin hU
    simp only [ptr.offset, ptr.length, raw.get_len] at hin hU ⊢
    have hgap : (r.m_data.length + U64 - (p.m_off + p.m_len) % U64) % U64
        = r.m_data.length - (p.m_off + p.m_len) := by
      simp only [U64_val] at *
      omega
    refine ⟨?_, ?_, ?_, ?_⟩
    · intro h
      unfold ptr.append ptr.unused_tail_length
      simp only [hi, hr, raw.get_len, hgap]
      rw [if_neg (by omega)]
    · intro h
      unfold ptr.append_char ptr.unused_tail_length
      simp only [hi, hr, raw.get_len, hgap]
      rw [if_neg (by omega)]
    · intro h hs
      have hl : (src.take n).length = n := by
        rw [List.length_take]
        omega
      constructor
      · unfold ptr.append ptr.unused_tail_length Mem.store
        simp only [hi, hr, raw.get_len, hgap]
        rw [if_pos h, if_neg (by omega), if_pos (by rw [hl]; omega)]
        simp only [Bool.false_eq_true, if_false]
        rw [Nat.mod_eq_of_lt (by omega), Nat.add_assoc]
      · unfold ptr.bytes
        simp only [hi, hr, set_raw_same]
        have key := view_after_append r.m_data (src.take n) p.m_off p.m_len (by rw [hl]; omega)
        rw [hl] at key
        exact key
    · intro h
      constructor
      · unfold ptr.append_char ptr.unused_tail_length Mem.store
        simp only [hi, hr, raw.get_len, hgap]
        rw [if_pos h, if_pos (by simp only [List.length_singleton]; omega)]
        simp only [Bool.false_eq_true, if_false]
        rw [Nat.mod_eq_of_lt (by omega), Nat.add_assoc]
      · unfold ptr.bytes
        simp only [hi, hr, set_raw_same]
        exact view_after_append r.m_data [c] p.m_off p.m_len
          (by simp only [List.length_singleton]; omega)

/-- C26 witness: the append test.  On `buffer_ptr p(2)` after
`set_length(0)`, `append('A')` returns 1 and the view holds `A`; on the full
ptr `AB` both appends fail their assertion, and so they do on a ptr without
region. -/
theorem ptr_append_contract_witness :
    ptr_two_unused.1 = ⟨some 0, 0, 0⟩ ∧
    (∃ r, ptr_two_unused.2.raws 0 = some r ∧ r.get_len = 2 ∧
      ptr_two_unused.1.append_char ptr_two_unused.2 65
        = .ok (0 + 0 + 1, ⟨some 0, 0, 0 + 1⟩,
            ptr_two_unused.2.set_raw 0 (some { r with
              m_data := write_bytes r.m_data (0 + 0) [65] })) ∧
      (⟨some 0, 0, 0 + 1⟩ : ptr).bytes
          (ptr_two_unused.2.set_raw 0 (some { r with
            m_data := write_bytes r.m_data (0 + 0) [65] }))
        = ptr_two_unused.1.bytes ptr_two_unused.2 ++ [65]) ∧
    ptr_ab.1.append ptr_ab.2 (str "B") 1 = .error .assert_failed ∧
    ptr_ab.1.append_char ptr_ab.2 65 = .error .assert_failed ∧
    ptr.mk_empty.append Mem.empty (str "B") 1 = .error .assert_failed ∧
    ptr.mk_empty.append_char Mem.empty 65 = .error .assert_failed := by
  obtain ⟨r, hr⟩ : ∃ r, ptr_two_unused.2.raws 0 = some r := ⟨_, rfl⟩
  have hlen : r.get_len = 2 := by
    have : (ptr_two_unused.2.raws 0).map raw.get_len = some 2 := rfl
    rw [hr] at this
    exact Option.some.inj this
  have h := (ptr_append_contract ptr_two_unused.2 ptr_two_unused.1 [] 0 65).2 0 r rfl hr
    (by rw [hlen]; decide) (by rw [hlen]; decide)
  have h0 := (ptr_append_contract Mem.empty ptr.mk_empty (str "B") 1 65).1 rfl
  exact ⟨rfl, ⟨r, hr, hlen, h.2.2.2 (by rw [hlen]; decide)⟩, rfl, rfl, h0.1, h0.2⟩

/-- C26 counterexample: after `buffer_ptr p(2); p.set_offset(2);` the view
`[2, 4)` lies behind the region of 2 bytes, so 1 exceeds
`region.len - (offset + length)`; the `uint64_t` difference wraps, both
appends pass their assertion and write behind the region. -/
theorem ptr_append_behind_region :
    ptr_off_region.map (fun x => observe_ptr x.2 x.1)
      = .ok (2, 2, [], some ([0, 0], 1, (SIZE_MAX, SIZE_MAX))) ∧
    (do let (p, m) ← ptr_off_region; p.unused_tail_length m) = .ok (2 ^ 64 - 2) ∧
    (do let (p, m) ← ptr_off_region
        let (e, _, _) ← p.append_char m 65
        pure e) = .error .undefined ∧
    (do let (p, m) ← ptr_off_region
        let (e, _, _) ← p.append m (str "B") 1
        pure e) = .error .undefined :=
  ⟨rfl, rfl, rfl, rfl⟩
/-! ## `ptr::copy_in` (C27) -/

/-- C27, amended: `copy_in(offset, len, src, crc_reset)` on a ptr whose view
lies inside its live region, with `offset + len` fitting a `uint64_t`.  The
call fails its assertion when `offset + len > length()`.  Otherwise it
returns; the region holds `src` at the bytes `[offset, offset + len)` of the
view and its previous bytes everywhere else, the view holds its previous
bytes with exactly that range replaced, no other region has changed, and
the cached checksum range of the region is cleared when `crc_reset` is true
and is as before when it is false. -/
theorem copy_in_contract (m : Mem) (p : ptr) (offset len : Nat) (src : List Nat)
    (crc_reset : Bool) (i : Nat) (r : raw) (hi : p.m_raw = some i) (hr : m.raws i = some r)
    (hin : p.offset + p.length ≤ r.get_len) (hw : offset + len < U64) :
    (p.length < offset + len →
      p.copy_in m offset len src crc_reset = .error .assert_failed) ∧
    (offset + len ≤ p.length → len ≤ src.length →
      ∃ r1, p.copy_in m offset len src crc_reset = .ok (m.set_raw i (some r1)) ∧
        r1.m_data = r.m_data.take (p.offset + offset) ++ src.take len
          ++ r.m_data.drop (p.offset + offset + len) ∧
        p.bytes (m.set_raw i (some r1))
          = (p.bytes m).take offset ++ src.take len ++ (p.bytes m).drop (offset + len) ∧
        r1.nref = r.nref ∧ r1.last_crc_val = r.last_crc_val ∧
        (crc_reset = true → r1.last_crc_offset = (SIZE_MAX, SIZE_MAX)) ∧
        (crc_reset = false → r1.last_crc_offset = r.last_crc_offset)) := by
  simp only [ptr.offset, ptr.length, raw.get_len] at hin ⊢
  have h1 : (offset + len) % U64 = offset + len := Nat.mod_eq_of_lt hw
  constructor
  · intro h
    unfold ptr.copy_in
    simp only [hi, h1]
    rw [if_neg (by omega)]
  · intro h hs
    have hl : (src.take len).length = len := by
      rw [List.length_take]
      omega
    refine ⟨{ (if crc_reset then r.invalidate_crc else r) with
        m_data := write_bytes r.m_data (p.m_off + offset) (src.take len) }, ?_, ?_, ?_, ?_, ?_,
        ?_, ?_⟩
    · unfold ptr.copy_in Mem.store
      simp only [hi, hr, h1]
      rw [if_pos ⟨by omega, h⟩, if_neg (by omega), if_pos (by rw [hl]; omega)]
    · show write_bytes r.m_data (p.m_off + offset) (src.take len) = _
      unfold write_bytes
      rw [hl]
    · unfold ptr.bytes
      simp only [hi, hr, set_raw_same]
      have key := view_after_write r.m_data (src.take len) p.m_off p.m_len offset
        (by rw [hl]; exact h) hin
      rw [hl] at key
      exact key
    · cases crc_reset <;> rfl
    · cases crc_reset <;> rfl
    · intro hc
      subst hc
      rfl
    · intro hc
      subst hc
      rfl

/-- C27 witness: `copy_in(0, 2, "XY")` on the ptr `AB`, with and without
`crc_reset`, and the two rejected calls of the test. -/
theorem copy_in_contract_witness :
    (0 : Nat) + 2 < U64 ∧ 0 + 2 ≤ ptr_ab.1.length ∧
    (∃ r, ptr_ab.2.raws 0 = some r ∧
      ∃ r1, ptr_ab.1.copy_in ptr_ab.2 0 2 (str "XY") false = .ok (ptr_ab.2.set_raw 0 (some r1)) ∧
        r1.m_data = r.m_data.take (ptr_ab.1.offset + 0) ++ (str "XY").take 2
          ++ r.m_data.drop (ptr_ab.1.offset + 0 + 2) ∧
        ptr_ab.1.bytes (ptr_ab.2.set_raw 0 (some r1)) = str "XY" ∧
        r1.last_crc_offset = r.last_crc_offset) ∧
    (ptr_ab.1.copy_in ptr_ab.2 0 2 (str "XY") true).map (fun m => observe_ptr m ptr_ab.1)
      = .ok (0, 2, str "XY", some (str "XY", 1, (SIZE_MAX, SIZE_MAX))) ∧
    ptr_ab.1.copy_in ptr_ab.2 0 5 [] true = .error .assert_failed ∧
    ptr_ab.1.copy_in ptr_ab.2 5 0 [] true = .error .assert_failed := by
  obtain ⟨r, hr⟩ : ∃ r, ptr_ab.2.raws 0 = some r := ⟨_, rfl⟩
  have hlen : r.get_len = 2 := by
    have : (ptr_ab.2.raws 0).map raw.get_len = some 2 := rfl
    rw [hr] at this
    exact Option.some.inj this
  have hb : ptr_ab.1.bytes ptr_ab.2 = str "AB" := rfl
  obtain ⟨r1, a1, a2, a3, _, _, _, a7⟩ :=
    (copy_in_contract ptr_ab.2 ptr_ab.1 0 2 (str "XY") false 0 r rfl hr
      (by rw [hlen]; decide) (by decide)).2 (by decide) (by decide)
  have h5 := (copy_in_contract ptr_ab.2 ptr_ab.1 0 5 [] true 0 r rfl hr
      (by rw [hlen]; decide) (by decide)).1 (by decide)
  have h6 := (copy_in_contract ptr_ab.2 ptr_ab.1 5 0 [] true 0 r rfl hr
      (by rw [hlen]; decide) (by decide)).1 (by decide)
  refine ⟨by decide, by decide, ⟨r, hr, r1, a1, a2, ?_, a7 rfl⟩, rfl, h5, h6⟩
  rw [a3, hb]
  rfl

/-- C27 counterexample: `offset + len` is computed in a `uint64_t`.  On the
ptr `AB`, `copy_in(1, 2^64 - 1, src)` has `offset + len > length()`, yet the
sum wraps to 0, both assertions pass and the copy of `2^64 - 1` bytes runs
out of the source and of the region. -/
theorem copy_in_wraps_range :
    ptr_ab.1.length = 2 ∧ ptr_ab.1.length < 1 + (2 ^ 64 - 1) ∧
    ptr_ab.1.copy_in ptr_ab.2 1 (2 ^ 64 - 1) (str "X") true = .error .undefined :=
  ⟨rfl, by decide, rfl⟩
/-! ## `ptr::cmp` (C23) -/

theorem memcmp_spec (n : Nat) : ∀ (a b : List Nat), n ≤ a.length → n ≤ b.length →
    ∃ v, memcmp a b n = .ok v ∧
      (v < 0 ↔ lex_lt (a.take n) (b.take n) = true) ∧
      (v = 0 ↔ a.take n = b.take n) ∧
      (0 < v ↔ lex_lt (b.take n) (a.take n) = true) := by
  induction n with
  | zero =>
    intro a b _ _
    refine ⟨0, ?_, ?_, ?_, ?_⟩
    · cases a <;> cases b <;> rfl
    · simp [lex_lt]
    · simp
    · simp [lex_lt]
  | succ k ih =>
    intro a b ha hb
    cases a with
    | nil => simp at ha
    | cons x a =>
      cases b with
      | nil => simp at hb
      | cons y b =>
        simp only [List.length_cons] at ha hb
        unfold memcmp
        by_cases hxy : x = y
        · subst hxy
          obtain ⟨v, e1, e2, e3, e4⟩ := ih a b (by omega) (by omega)
          refine ⟨v, ?_, ?_, ?_, ?_⟩
          · simp only [ne_eq, not_true_eq_false, if_false]
            exact e1
          · simp only [List.take_succ_cons, lex_lt, Nat.lt_irrefl, decide_False, beq_self_eq_true,
              Bool.true_and, Bool.false_or]
            exact e2
          · simp only [List.take_succ_cons, List.cons.injEq, true_and]
            exact e3
          · simp only [List.take_succ_cons, lex_lt, Nat.lt_irrefl, decide_False, beq_self_eq_true,
              Bool.true_and, Bool.false_or]
            exact e4
        · refine ⟨(x : Int) - (y : Int), ?_, ?_, ?_, ?_⟩
          · simp only [ne_eq, hxy, not_false_eq_true, if_true]
          · have hb1 : (x == y) = false := by simpa using hxy
            simp only [List.take_succ_cons, lex_lt, hb1, Bool.false_and, Bool.or_false,
              decide_eq_true_eq]
            omega
          · simp only [List.take_succ_cons, List.cons.injEq, hxy, false_and, iff_false]
            omega
          · have hb1 : (y == x) = false := by simpa using (Ne.symm hxy)
            simp only [List.take_succ_cons, lex_lt, hb1, Bool.false_and, Bool.or_false,
              decide_eq_true_eq]
            omega

theorem lex_lt_irrefl (A : List Nat) : lex_lt A A = false := by
  induction A with
  | nil => rfl
  | cons x A ih => simp [lex_lt, ih]

/-- The order of two byte strings is decided by their common length, and by
the lengths when they agree there. -/
theorem lex_lt_split (A : List Nat) : ∀ (B : List Nat) (n : Nat), n = min A.length B.length →
    (lex_lt A B = true ↔
      lex_lt (A.take n) (B.take n) = true ∨ (A.take n = B.take n ∧ A.length < B.length)) ∧
    (A = B ↔ A.take n = B.take n ∧ A.length = B.length) := by
  induction A with
  | nil =>
    intro B n hn
    simp only [List.length_nil, Nat.zero_min] at hn
    subst hn
    cases B with
    | nil => simp [lex_lt]
    | cons y B => simp [lex_lt]
  | cons x A ih =>
    intro B n hn
    cases B with
    | nil =>
      simp only [List.length_nil, Nat.min_zero] at hn
      subst hn
      simp [lex_lt]
    | cons y B =>
      simp only [List.length_cons] at hn
      obtain ⟨k, hk⟩ : ∃ k, n = k + 1 := ⟨min A.length B.length, by omega⟩
      subst hk
      obtain ⟨i1, i2⟩ := ih B k (by omega)
      simp only [List.take_succ_cons, lex_lt, List.length_cons, List.cons.injEq,
        Bool.or_eq_true, decide_eq_true_eq, Bool.and_eq_true, beq_iff_eq]
      constructor
      · constructor
        · rintro (h | ⟨h1, h2⟩)
          · exact Or.inl (Or.inl h)
          · rcases i1.mp h2 with h3 | ⟨h3, h4⟩
            · exact Or.inl (Or.inr ⟨h1, h3⟩)
            · exact Or.inr ⟨⟨h1, h3⟩, by omega⟩
        · rintro ((h | ⟨h1, h2⟩) | ⟨⟨h1, h2⟩, h3⟩)
          · exact Or.inl h
          · exact Or.inr ⟨h1, i1.mpr (Or.inl h2)⟩
          · exact Or.inr ⟨h1, i1.mpr (Or.inr ⟨h2, by omega⟩)⟩
      · constructor
        · rintro ⟨h1, h2⟩
          obtain ⟨h3, h4⟩ := i2.mp h2
          exact ⟨⟨h1, h3⟩, by omega⟩
        · rintro ⟨⟨h1, h2⟩, h3⟩
          exact ⟨h1, i2.mpr ⟨h2, by omega⟩⟩

theorem tiebreak_sign (x y : Nat) :
    ((if x < y then (-1 : Int) else if x > y then 1 else 0) < 0 ↔ x < y) ∧
    ((if x < y then (-1 : Int) else if x > y then 1 else 0) = 0 ↔ x = y) ∧
    (0 < (if x < y then (-1 : Int) else if x > y then 1 else 0) ↔ y < x) := by
  rcases Nat.lt_trichotomy x y with h | h | h
  · have h2 : ¬ y < x := by omega
    have h3 : ¬ x = y := by omega
    rw [if_pos h]
    exact ⟨⟨fun _ => h, fun _ => by decide⟩, ⟨fun e => absurd e (by decide), fun e => absurd e h3⟩,
      ⟨fun e => absurd e (by decide), fun e => absurd e h2⟩⟩
  · subst h
    rw [if_neg (Nat.lt_irrefl x), if_neg (Nat.lt_irrefl x)]
    exact ⟨⟨fun e => absurd e (by decide), fun e => absurd e (Nat.lt_irrefl x)⟩,
      ⟨fun _ => rfl, fun _ => rfl⟩,
      ⟨fun e => absurd e (by decide), fun e => absurd e (Nat.lt_irrefl x)⟩⟩
  · have h1 : ¬ x < y := by omega
    have h3 : ¬ x = y := by omega
    rw [if_neg h1, if_pos h]
    exact ⟨⟨fun e => absurd e (by decide), fun e => absurd e h1⟩,
      ⟨fun e => absurd e (by decide), fun e => absurd e h3⟩,
      ⟨fun _ => h, fun _ => by decide⟩⟩

theorem view_data (m : Mem) (p : ptr) (hp : p.inv m = true) :
    (p.bytes m).length = p.m_len ∧
    (p.m_len ≠ 0 → ∃ d, p.c_str_data m = .ok d ∧ p.m_len ≤ d.length ∧
      p.bytes m = d.take p.m_len) := by
  unfold ptr.inv at hp
  unfold ptr.bytes ptr.c_str_data
  cases hr : p.m_raw with
  | none =>
    simp only [hr, Bool.and_eq_true, beq_iff_eq] at hp
    exact ⟨by simp [hp.2], fun h => absurd hp.2 h⟩
  | some i =>
    simp only [hr] at hp
    cases hm : m.raws i with
    | none => simp [hm] at hp
    | some r =>
      simp only [hm, decide_eq_true_eq, raw.get_len] at hp
      simp only [hm]
      refine ⟨by simp only [List.length_take, List.length_drop]; omega, fun _ =>
        ⟨r.m_data.drop p.m_off, rfl, by simp only [List.length_drop]; omega, rfl⟩⟩

/-- The result of `cmp` in terms of the bytes of the two views. -/
theorem ptr_cmp_spec (m : Mem) (a b : ptr) (ha : a.inv m = true) (hb : b.inv m = true) :
    ∃ v, a.cmp m b = .ok v ∧
      (v < 0 ↔ lex_lt (a.bytes m) (b.bytes m) = true) ∧
      (v = 0 ↔ a.bytes m = b.bytes m) ∧
      (0 < v ↔ lex_lt (b.bytes m) (a.bytes m) = true) := by
  obtain ⟨la, da⟩ := view_data m a ha
  obtain ⟨lb, db⟩ := view_data m b hb
  obtain ⟨n, hn⟩ : ∃ n, n = (if a.m_len < b.m_len then a.m_len else b.m_len) := ⟨_, rfl⟩
  have hmin : n = min (a.bytes m).length (b.bytes m).length := by
    rw [la, lb, hn]
    split <;> omega
  obtain ⟨s1, s2⟩ := lex_lt_split (a.bytes m) (b.bytes m) n hmin
  obtain ⟨t1, _⟩ := lex_lt_split (b.bytes m) (a.bytes m) n (by rw [hmin, Nat.min_comm])
  rw [la, lb] at s1 s2 t1
  obtain ⟨k1, k2, k3⟩ := tiebreak_sign a.m_len b.m_len
  unfold ptr.cmp
  simp only []
  rw [← hn]
  by_cases h0 : n = 0
  · rw [if_neg (by simpa using h0)]
    subst h0
    simp only [List.take_zero, lex_lt, Bool.false_eq_true, false_or, true_and] at s1 s2 t1
    exact ⟨_, rfl, k1.trans s1.symm, k2.trans s2.symm, k3.trans t1.symm⟩
  · rw [if_pos (by simpa using h0)]
    have hna : a.m_len ≠ 0 := by
      rw [hn] at h0
      split at h0 <;> omega
    have hnb : b.m_len ≠ 0 := by
      rw [hn] at h0
      split at h0 <;> omega
    obtain ⟨d1, c1, c2, c3⟩ := da hna
    obtain ⟨d2, e1, e2, e3⟩ := db hnb
    have hn1 : n ≤ a.m_len := by rw [hn]; split <;> omega
    have hn2 : n ≤ b.m_len := by rw [hn]; split <;> omega
    obtain ⟨v, f1, f2, f3, f4⟩ := memcmp_spec n d1 d2 (by omega) (by omega)
    have ta : (a.bytes m).take n = d1.take n := by
      rw [c3, List.take_take, Nat.min_eq_left hn1]
    have tb : (b.bytes m).take n = d2.take n := by
      rw [e3, List.take_take, Nat.min_eq_left hn2]
    rw [ta, tb] at s1 s2 t1
    simp only [c1, e1, f1]
    by_cases hv : v = 0
    · rw [if_neg (by simpa using hv)]
      have g3 := f3.mp hv
      have g2 : ¬ lex_lt (d1.take n) (d2.take n) = true := fun h => by
        have := f2.mpr h
        omega
      have g4 : ¬ lex_lt (d2.take n) (d1.take n) = true := fun h => by
        have := f4.mpr h
        omega
      refine ⟨_, rfl, k1.trans ?_, k2.trans ?_, k3.trans ?_⟩
      · rw [s1]
        exact ⟨fun h => Or.inr ⟨g3, h⟩, fun h => h.elim (fun h => absurd h g2) (fun h => h.2)⟩
      · rw [s2]
        exact ⟨fun h => ⟨g3, h⟩, fun h => h.2⟩
      · rw [t1]
        exact ⟨fun h => Or.inr ⟨g3.symm, h⟩,
          fun h => h.elim (fun h => absurd h g4) (fun h => h.2)⟩
    · rw [if_pos (by simpa using hv)]
      have g3 : ¬ d1.take n = d2.take n := fun h => hv (f3.mpr h)
      refine ⟨v, rfl, f2.trans ?_, ?_, f4.trans ?_⟩
      · rw [s1]
        exact ⟨fun h => Or.inl h, fun h => h.elim id (fun h => absurd h.1 g3)⟩
      · rw [s2]
        exact ⟨fun h => absurd h hv, fun h => absurd h.1 g3⟩
      · rw [t1]
        exact ⟨fun h => Or.inl h, fun h => h.elim id (fun h => absurd h.1.symm g3)⟩

/-- C23: for ptrs `a` and `b` whose views lie inside their regions,
`a.cmp(b)` returns a value that is negative exactly when the bytes of `a`
come before the bytes of `b` in the lexicographic order on unsigned bytes
(a proper prefix first), zero exactly when the bytes are equal and
positive exactly when the bytes of `b` come before those of `a`; the sign
of `b.cmp(a)` is the opposite one, and `a.cmp(a)` is 0. -/
theorem ptr_cmp_lexicographic (m : Mem) (a b : ptr)
    (ha : a.inv m = true) (hb : b.inv m = true) :
    ∃ v w, a.cmp m b = .ok v ∧ b.cmp m a = .ok w ∧
      (v < 0 ↔ lex_lt (a.bytes m) (b.bytes m) = true) ∧
      (v = 0 ↔ a.bytes m = b.bytes m) ∧
      (0 < v ↔ lex_lt (b.bytes m) (a.bytes m) = true) ∧
      (v < 0 ↔ 0 < w) ∧ (v = 0 ↔ w = 0) ∧ (0 < v ↔ w < 0) ∧
      a.cmp m a = .ok 0 := by
  obtain ⟨v, h1, h2, h3, h4⟩ := ptr_cmp_spec m a b ha hb
  obtain ⟨w, g1, g2, g3, g4⟩ := ptr_cmp_spec m b a hb ha
  obtain ⟨u, e1, _, e3, _⟩ := ptr_cmp_spec m a a ha ha
  have hu : u = 0 := e3.mpr rfl
  subst hu
  exact ⟨v, w, h1, g1, h2, h3, h4, h2.trans g4.symm,
    h3.trans ⟨fun h => g3.mpr h.symm, fun h => (g3.mp h).symm⟩, h4.trans g2.symm, e1⟩

/-- C23 witness: the ptrs `AB` and `AF` of the cmp test: `ab.cmp(af)` is
negative, `af.cmp(ab)` positive and `ab.cmp(ab)` is 0. -/
theorem ptr_cmp_lexicographic_witness :
    cmp_ptrs.2.1.inv cmp_ptrs.2.2.2.2 = true ∧ cmp_ptrs.2.2.1.inv cmp_ptrs.2.2.2.2 = true ∧
    cmp_ptrs.2.1.bytes cmp_ptrs.2.2.2.2 = str "AB" ∧
    cmp_ptrs.2.2.1.bytes cmp_ptrs.2.2.2.2 = str "AF" ∧
    cmp_ptrs.2.1.cmp cmp_ptrs.2.2.2.2 cmp_ptrs.2.2.1 = .ok (-4) ∧
    ∃ v w, cmp_ptrs.2.1.cmp cmp_ptrs.2.2.2.2 cmp_ptrs.2.2.1 = .ok v ∧
      cmp_ptrs.2.2.1.cmp cmp_ptrs.2.2.2.2 cmp_ptrs.2.1 = .ok w ∧
      (v < 0 ↔ lex_lt (cmp_ptrs.2.1.bytes cmp_ptrs.2.2.2.2)
        (cmp_ptrs.2.2.1.bytes cmp_ptrs.2.2.2.2) = true) ∧
      (v = 0 ↔ cmp_ptrs.2.1.bytes cmp_ptrs.2.2.2.2 = cmp_ptrs.2.2.1.bytes cmp_ptrs.2.2.2.2) ∧
      (0 < v ↔ lex_lt (cmp_ptrs.2.2.1.bytes cmp_ptrs.2.2.2.2)
        (cmp_ptrs.2.1.bytes cmp_ptrs.2.2.2.2) = true) ∧
      (v < 0 ↔ 0 < w) ∧ (v = 0 ↔ w = 0) ∧ (0 < v ↔ w < 0) ∧
      cmp_ptrs.2.1.cmp cmp_ptrs.2.2.2.2 cmp_ptrs.2.1 = .ok 0 :=
  ⟨rfl, rfl, rfl, rfl, rfl, ptr_cmp_lexicographic cmp_ptrs.2.2.2.2 cmp_ptrs.2.1 cmp_ptrs.2.2.1 rfl rfl⟩

/-- The values of the cmp test: the empty ptr against `A`, `A` against
`AB`, `AB` against `AF`, and `ACC` against `AF`, both ways round. -/
theorem ptr_cmp_test :
    ptr.mk_empty.cmp cmp_ptrs.2.2.2.2 cmp_ptrs.1 = .ok (-1) ∧
    cmp_ptrs.1.cmp cmp_ptrs.2.2.2.2 ptr.mk_empty = .ok 1 ∧
    cmp_ptrs.1.cmp cmp_ptrs.2.2.2.2 cmp_ptrs.2.1 = .ok (-1) ∧
    cmp_ptrs.2.1.cmp cmp_ptrs.2.2.2.2 cmp_ptrs.1 = .ok 1 ∧
    cmp_ptrs.2.1.cmp cmp_ptrs.2.2.2.2 cmp_ptrs.2.1 = .ok 0 ∧
    cmp_ptrs.2.2.2.1.cmp cmp_ptrs.2.2.2.2 cmp_ptrs.2.2.1 = .ok (-3) ∧
    cmp_ptrs.2.2.1.cmp cmp_ptrs.2.2.2.2 cmp_ptrs.2.2.2.1 = .ok 3 :=
  ⟨rfl, rfl, rfl, rfl, rfl, rfl, rfl⟩
/-! ## `mem_is_zero` (C24) -/

theorem is_zero_bytes_append (a b : List Nat) :
    is_zero_bytes (a ++ b) = (is_zero_bytes a && is_zero_bytes b) := by
  induction a with
  | nil => simp [is_zero_bytes]
  | cons x a ih => simp [is_zero_bytes, ih, Bool.and_assoc]

theorem is_zero_bytes_iff (l : List Nat) : is_zero_bytes l = true ↔ ∀ b ∈ l, b = 0 := by
  induction l with
  | nil => simp [is_zero_bytes]
  | cons x a ih => simp [is_zero_bytes, ih]

theorem load_le_spec (k : Nat) : ∀ data : List Nat, k ≤ data.length →
    ∃ v, load_le k data = .ok v ∧ (v = 0 ↔ is_zero_bytes (data.take k) = true) := by
  induction k with
  | zero =>
    intro data _
    exact ⟨0, rfl, by simp [is_zero_bytes]⟩
  | succ k ih =>
    intro data h
    cases data with
    | nil => simp at h
    | cons b rest =>
      obtain ⟨v, h1, h2⟩ := ih rest (by simpa using h)
      refine ⟨b + 256 * v, by simp only [load_le, h1], ?_⟩
      simp only [List.take_succ_cons, is_zero_bytes, Bool.and_eq_true, beq_iff_eq, ← h2]
      omega

theorem words_zero_spec (w : Nat) (n : Nat) : ∀ data : List Nat, n * w ≤ data.length →
    words_zero w n data
      = .ok (if is_zero_bytes (data.take (n * w)) = true then some (data.drop (n * w))
             else none) := by
  induction n with
  | zero =>
    intro data _
    simp [words_zero, is_zero_bytes]
  | succ n ih =>
    intro data h
    have e : (n + 1) * w = w + n * w := by ring
    rw [e] at h ⊢
    obtain ⟨v, h1, h2⟩ := load_le_spec w data (by omega)
    simp only [words_zero, h1]
    rw [List.take_add, is_zero_bytes_append, ← List.drop_drop]
    by_cases hv : v = 0
    · have hz := h2.mp hv
      rw [if_neg (by simpa using hv), ih (data.drop w) (by rw [List.length_drop]; omega), hz]
      simp
    · have hz : ¬ is_zero_bytes (data.take w) = true := fun c => hv (h2.mpr c)
      rw [if_pos (by simpa using hv)]
      simp [hz]

theorem mem_is_zero_tail_spec (data : List Nat) (len : Nat) (h : len ≤ data.length) :
    mem_is_zero_tail data len = .ok (is_zero_bytes (data.take len)) := by
  have h4 : len / 4 * 4 ≤ len := Nat.div_mul_le_self len 4
  unfold mem_is_zero_tail
  rw [words_zero_spec 4 (len / 4) data (by omega)]
  have e : len = len / 4 * 4 + (len - len / 4 * 4) := by omega
  conv => rhs; rw [e, List.take_add, is_zero_bytes_append]
  by_cases hz : is_zero_bytes (data.take (len / 4 * 4)) = true
  · simp only [hz, if_true, Bool.true_and]
    rw [words_zero_spec 1 _ _ (by rw [List.length_drop]; omega), Nat.mul_one]
    by_cases hy : is_zero_bytes ((data.drop (len / 4 * 4)).take (len - len / 4 * 4)) = true
    · simp only [hy, if_true]
    · simp only [hy, if_false]
      simp at hy
      simp [hy]
  · simp only [hz, if_false]
    simp at hz
    simp [hz]

theorem mem_is_zero_portable_spec (data : List Nat) (len : Nat) (h : len ≤ data.length) :
    mem_is_zero_portable data len = .ok (is_zero_bytes (data.take len)) := by
  have h4 : len / 8 * 8 ≤ len := Nat.div_mul_le_self len 8
  unfold mem_is_zero_portable
  rw [words_zero_spec 8 (len / 8) data (by omega)]
  have e : len = len / 8 * 8 + (len - len / 8 * 8) := by omega
  conv => rhs; rw [e, List.take_add, is_zero_bytes_append]
  by_cases hz : is_zero_bytes (data.take (len / 8 * 8)) = true
  · simp only [hz, if_true, Bool.true_and]
    rw [words_zero_spec 1 _ _ (by rw [List.length_drop]; omega), Nat.mul_one]
    by_cases hy : is_zero_bytes ((data.drop (len / 8 * 8)).take (len - len / 8 * 8)) = true
    · simp only [hy, if_true]
    · simp only [hy, if_false]
      simp at hy
      simp [hy]
  · simp only [hz, if_false]
    simp at hz
    simp [hz]

theorem and_fifteen (a : Nat) : a &&& 15 = a % 16 := Nat.and_pow_two_sub_one_eq_mod a 4

/-- The alignment loop: with `k` the distance of the address to the next
multiple of 16, it tests the first `k` bytes and leaves `len - k`. -/
theorem align_scan_spec : ∀ (data : List Nat) (addr len : Nat),
    (16 - addr % 16) % 16 ≤ data.length → (16 - addr % 16) % 16 ≤ len → len < U64 →
    align_scan addr data len
      = .ok (if is_zero_bytes (data.take ((16 - addr % 16) % 16)) = true
             then some (data.drop ((16 - addr % 16) % 16), len - (16 - addr % 16) % 16)
             else none) := by
  intro data
  induction data with
  | nil =>
    intro addr len h1 _ _
    have hk : (16 - addr % 16) % 16 = 0 := by simpa using h1
    have ha : addr % 16 = 0 := by omega
    simp [align_scan, and_fifteen, ha, is_zero_bytes]
  | cons b rest ih =>
    intro addr len h1 h2 h3
    by_cases ha : addr % 16 = 0
    · have hk : (16 - addr % 16) % 16 = 0 := by omega
      simp [align_scan, and_fifteen, ha, is_zero_bytes]
    · have hk : (16 - addr % 16) % 16 = (16 - (addr + 1) % 16) % 16 + 1 := by omega
      have hl : (len + U64 - 1) % U64 = len - 1 := by
        have : len + U64 - 1 = (len - 1) + U64 := by omega
        rw [this, Nat.add_mod_right, Nat.mod_eq_of_lt (by omega)]
      simp only [align_scan, and_fifteen]
      rw [if_pos (by simpa using ha), hl, hk, List.take_succ_cons, List.drop_succ_cons]
      simp only [is_zero_bytes]
      by_cases hb : b = 0
      · rw [if_neg (by simpa using hb)]
        simp only [List.length_cons] at h1
        rw [ih (addr + 1) (len - 1) (by omega) (by omega) (by omega)]
        simp only [hb, beq_self_eq_true, Bool.true_and]
        have : len - 1 - (16 - (addr + 1) % 16) % 16
            = len - ((16 - (addr + 1) % 16) % 16 + 1) := by omega
        rw [this]
      · rw [if_pos (by simpa using hb)]
        simp [hb]

theorem mem_is_zero_spec (addr : Nat) (data : List Nat) (len : Nat)
    (h : len ≤ data.length) (hw : len < U64) :
    mem_is_zero addr data len = .ok (is_zero_bytes (data.take len)) := by
  unfold mem_is_zero
  by_cases h16 : len / 16 > 0
  · rw [if_pos h16]
    have hlen : 16 ≤ len := by omega
    obtain ⟨k, hk⟩ : ∃ k, k = (16 - addr % 16) % 16 := ⟨_, rfl⟩
    have hk16 : k < 16 := by omega
    rw [align_scan_spec data addr len (by omega) (by omega) hw, ← hk]
    have e : len = k + (len - k) := by omega
    conv => rhs; rw [e, List.take_add, is_zero_bytes_append]
    by_cases hz : is_zero_bytes (data.take k) = true
    · simp only [hz, if_true, Bool.true_and]
      have g1 : (len - k) / 16 * 16 ≤ len - k := Nat.div_mul_le_self _ 16
      rw [words_zero_spec 16 _ _ (by rw [List.length_drop]; omega)]
      have hl : (len - k + U64 - (len - k) / 16 * 16) % U64 = len - k - (len - k) / 16 * 16 := by
        have : len - k + U64 - (len - k) / 16 * 16
            = (len - k - (len - k) / 16 * 16) + U64 := by omega
        rw [this, Nat.add_mod_right, Nat.mod_eq_of_lt (by omega)]
      have e2 : len - k = (len - k) / 16 * 16 + (len - k - (len - k) / 16 * 16) := by omega
      conv => rhs; rw [e2, List.take_add, is_zero_bytes_append]
      by_cases hy : is_zero_bytes ((data.drop k).take ((len - k) / 16 * 16)) = true
      · simp only [hy, if_true, Bool.true_and]
        rw [hl, mem_is_zero_tail_spec _ _ (by
          simp only [List.length_drop]
          omega)]
      · simp only [hy, if_false]
        simp at hy
        simp [hy]
    · simp only [hz, if_false]
      simp at hz
      simp [hz]
  · rw [if_neg h16]
    exact mem_is_zero_tail_spec data len h

/-- C24: for every ptr whose view lies inside a live region, whatever its
length and the address of its first byte, `is_zero()` returns, and it
returns true exactly when all `length()` bytes of the view are 0: the scan
of `mem_is_zero` by bytes up to a 16-byte boundary, by 128-bit words, by
32-bit words and by bytes (and the scan by 64-bit words and bytes of the
version for other compilers) agrees with the byte-by-byte definition on
every address, byte string and length. -/
theorem is_zero_bytewise (m : Mem) (p : ptr) (h : node_in m p) :
    p.is_zero m = .ok (is_zero_bytes (p.bytes m)) ∧
    (p.is_zero m = .ok true ↔ ∀ b ∈ p.bytes m, b = 0) ∧
    (∀ addr data len, len ≤ data.length → len < U64 →
      mem_is_zero addr data len = .ok (is_zero_bytes (data.take len)) ∧
      mem_is_zero_portable data len = .ok (is_zero_bytes (data.take len))) := by
  obtain ⟨i, r, h1, h2, h3, h4⟩ := h
  have key : p.is_zero m = .ok (is_zero_bytes (p.bytes m)) := by
    unfold ptr.is_zero ptr.c_str_addr ptr.c_str_data ptr.bytes
    simp only [h1, h2]
    exact mem_is_zero_spec _ _ _ (by rw [List.length_drop]; omega) (by omega)
  refine ⟨key, ?_, fun addr data len hl hw =>
    ⟨mem_is_zero_spec addr data len hl hw, mem_is_zero_portable_spec data len hl⟩⟩
  rw [key, ← is_zero_bytes_iff]
  constructor
  · intro e
    exact Except.ok.inj e
  · intro e
    rw [e]

/-- C24 witness: 17 bytes at the address 4099, 16 zero bytes and a byte 1:
one byte is tested in the 32-bit loop after 13 bytes up to the boundary,
and `is_zero()` is false. -/
theorem is_zero_bytewise_witness :
    node_in (ptr_unaligned 17).2 (ptr_unaligned 17).1 ∧
    (ptr_unaligned 17).1.c_str_addr (ptr_unaligned 17).2 = .ok 4099 ∧
    (ptr_unaligned 17).1.bytes (ptr_unaligned 17).2 = List.replicate 16 0 ++ [1] ∧
    (ptr_unaligned 17).1.is_zero (ptr_unaligned 17).2 = .ok false ∧
    (ptr_unaligned 17).1.is_zero (ptr_unaligned 17).2
      = .ok (is_zero_bytes ((ptr_unaligned 17).1.bytes (ptr_unaligned 17).2)) :=
  ⟨⟨0, _, rfl, rfl, by decide, by decide⟩, rfl, rfl, rfl,
   (is_zero_bytewise (ptr_unaligned 17).2 (ptr_unaligned 17).1
     ⟨0, _, rfl, rfl, by decide, by decide⟩).1⟩

/-- The is_zero test: over `char str[2] = { 0, 'X' }` the ptr of 2 bytes
is not zero and the ptr of 1 byte is; and a ptr of 16 zero bytes at an
address that is not a multiple of 16 is zero. -/
theorem is_zero_test :
    (ptr_static 7 2).1.is_zero (ptr_static 7 2).2 = .ok false ∧
    (ptr_static 7 1).1.is_zero (ptr_static 7 1).2 = .ok true ∧
    (ptr_unaligned 16).1.is_zero (ptr_unaligned 16).2 = .ok true ∧
    mem_is_zero 3 (List.replicate 33 0 ++ [4] ++ List.replicate 6 0) 40 = .ok false ∧
    mem_is_zero 3 (List.replicate 40 0) 40 = .ok true :=
  ⟨rfl, rfl, rfl, rfl, rfl⟩
/-! ## `list::contents_equal` (C21) -/

/-- The pass of the loop that does not move: `bl1` stands in its node `BB`
at offset 1, `bl2` at the end of its node `AB`, and 0 bytes are compared. -/
theorem contents_equal_stuck : ∀ fuel,
    contents_equal_loop (two_lists "B").2.2 (two_lists "B").1 (two_lists "B").2.1
      fuel 1 1 0 2 = none := by
  intro fuel
  induction fuel with
  | zero => rfl
  | succ n ih => exact ih

theorem contents_equal_stuck_other : ∀ fuel,
    contents_equal_loop (two_lists "C").2.2 (two_lists "C").1 (two_lists "C").2.1
      fuel 1 1 0 2 = none := by
  intro fuel
  induction fuel with
  | zero => rfl
  | succ n ih => exact ih

/-- C21: the lists `A`, `BB` and `AB`, `B` have the same length and the same
bytes `ABB`, and `contents_equal` does not return on them: `other_buffers_it`
is moved on only when `other_buffers_off > other_buffers_it->length()`, which
never holds, so once the node `AB` is used up every pass compares 0 bytes
and changes nothing, for every bound on the number of passes.  The same
happens with the lists `A`, `BB` and `AB`, `C` of different bytes.  On lists
held in one node each, as the appends of the test leave them, the call
returns true for equal and false for different bytes or lengths. -/
theorem contents_equal_never_returns :
    (two_lists "B").1.length = (two_lists "B").2.1.length ∧
    (two_lists "B").1.bytes (two_lists "B").2.2 = str "ABB" ∧
    (two_lists "B").2.1.bytes (two_lists "B").2.2 = str "ABB" ∧
    (two_lists "B").1._buffers.map (fun n => n.toptr.bytes (two_lists "B").2.2)
      = [str "A", str "BB"] ∧
    (two_lists "B").2.1._buffers.map (fun n => n.toptr.bytes (two_lists "B").2.2)
      = [str "AB", str "B"] ∧
    (∀ fuel, (two_lists "B").1.contents_equal (two_lists "B").2.2 (two_lists "B").2.1 fuel
      = none) ∧
    (two_lists "C").2.1.bytes (two_lists "C").2.2 = str "ABC" ∧
    (∀ fuel, (two_lists "C").1.contents_equal (two_lists "C").2.2 (two_lists "C").2.1 fuel
      = none) ∧
    joined_lists.1.contents_equal joined_lists.2.2.2 joined_lists.2.1 3 = some (.ok true) ∧
    joined_lists.1.contents_equal joined_lists.2.2.2 joined_lists.2.2.1 3 = some (.ok false) ∧
    joined_lists.1.contents_equal joined_lists.2.2.2 list.mk_empty 3 = some (.ok false) := by
  refine ⟨rfl, rfl, rfl, rfl, rfl, ?_, rfl, ?_, rfl, rfl, rfl⟩
  · intro fuel
    match fuel with
    | 0 => rfl
    | 1 => rfl
    | 2 => rfl
    | n + 3 => exact contents_equal_stuck (n + 1)
  · intro fuel
    match fuel with
    | 0 => rfl
    | 1 => rfl
    | 2 => rfl
    | n + 3 => exact contents_equal_stuck_other (n + 1)
/-! ## The comparison operators of lists (C22) -/

theorem placed_begin (bl : list) :
    ∃ it, bl.begin_at 0 = .returned it ∧ it.placed bl ∧ it.m_a_off = 0 := by
  have key := (advance_spec bl ⟨0, 0, 0⟩ 0 (by simp [nodes_len]) (by simp [U64_val])).1
    (by simp)
  obtain ⟨it1, h1, h2, h3, _, h5, h6⟩ := key
  refine ⟨it1, h1, ⟨h3, h5, ?_⟩, by simpa using h2⟩
  intro hn
  obtain ⟨a, b⟩ := h6 hn
  exact ⟨by simpa using a, b⟩

theorem placed_le (bl : list) (it : iterator) (h : it.placed bl) :
    it.m_a_off ≤ nodes_len bl._buffers ∧
    (it.m_a_off < nodes_len bl._buffers → ∃ node, bl._buffers[it.m_list_it]? = some node) := by
  obtain ⟨hA, h1, h2⟩ := h
  cases hn : bl._buffers[it.m_list_it]? with
  | none =>
    obtain ⟨a, b⟩ := h2 hn
    have h3 := nodes_len_take_all bl._buffers it.m_list_it (by omega)
    exact ⟨by omega, fun c => by omega⟩
  | some node =>
    have h3 := h1 node hn
    have h4 := nodes_len_take_succ bl._buffers it.m_list_it node hn
    have h5 := nodes_len_take_le bl._buffers (it.m_list_it + 1)
    exact ⟨by omega, fun _ => ⟨node, rfl⟩⟩

/-- Inside the list a placed iterator reads the byte at its offset, and `++`
places it at the next offset. -/
theorem placed_step (m : Mem) (bl : list) (it : iterator)
    (hin : ∀ n ∈ bl._buffers, node_in m n.toptr) (hU : nodes_len bl._buffers < U64)
    (h : it.placed bl) (hlt : it.m_a_off < nodes_len bl._buffers) :
    ∃ b it1, (bl.bytes m)[it.m_a_off]? = some b ∧ it.deref m bl = .ok b ∧
      it.incr bl = .returned it1 ∧ it1.placed bl ∧ it1.m_a_off = it.m_a_off + 1 := by
  obtain ⟨node, hn⟩ := (placed_le bl it h).2 hlt
  obtain ⟨hA, h1, h2⟩ := h
  obtain ⟨b, hb1, hb2⟩ := deref_spec m bl it node hin hn (h1 node hn) hA
  have hidx : it.m_list_it < bl._buffers.length := by
    by_contra hc
    rw [List.getElem?_eq_none (Nat.le_of_not_lt hc)] at hn
    cases hn
  obtain ⟨it1, g1, g2, g3, _, g5, g6⟩ := (advance_spec bl it 1 hA (by omega)).1 (by omega)
  refine ⟨b, it1, hb1, hb2, ?_, ⟨g3, g5, ?_⟩, g2⟩
  · unfold iterator.incr iterator.end_
    rw [if_neg (by simpa using hidx)]
    exact g1
  · intro hnone
    obtain ⟨a, c⟩ := g6 hnone
    exact ⟨by omega, c⟩

theorem op_eq_end (bl : list) (it : iterator) : it.op_eq bl.end_ = decide (it.m_a_off = bl._len) := by
  unfold iterator.op_eq list.end_ iterator.get_off
  by_cases h : it.m_a_off = bl._len
  · simp [h]
  · simp [h]

theorem char_lt_nil_left (l : List Nat) : char_lt [] l = !l.isEmpty := by
  cases l <;> rfl

theorem char_lt_nil_right (l : List Nat) : char_lt l [] = false := by
  cases l <;> rfl

/-- The loop of `operator<` and `operator<=` from two placed iterators: it
ends, and the value behind it is the comparison of the bytes from the two
offsets on. -/
theorem compare_loop_spec (m : Mem) (lhs rhs : list)
    (hinl : ∀ n ∈ lhs._buffers, node_in m n.toptr) (hinr : ∀ n ∈ rhs._buffers, node_in m n.toptr)
    (hll : lhs._len = nodes_len lhs._buffers) (hlr : rhs._len = nodes_len rhs._buffers)
    (hUl : lhs._len < U64) (hUr : rhs._len < U64) :
    ∀ (fuel : Nat) (li ri : iterator), li.placed lhs → ri.placed rhs →
      lhs._len - li.m_a_off < fuel →
      ∃ s, compare_loop m lhs rhs fuel li ri = some (.ok s) ∧
        (∀ b, s = .decided b →
          b = char_lt ((lhs.bytes m).drop li.m_a_off) ((rhs.bytes m).drop ri.m_a_off) ∧
          ((lhs.bytes m).drop li.m_a_off).map char_of
            ≠ ((rhs.bytes m).drop ri.m_a_off).map char_of) ∧
        (∀ l r, s = .finished l r →
          (l.op_eq lhs.end_ && !r.op_eq rhs.end_)
            = char_lt ((lhs.bytes m).drop li.m_a_off) ((rhs.bytes m).drop ri.m_a_off) ∧
          l.op_eq lhs.end_
            = (char_lt ((lhs.bytes m).drop li.m_a_off) ((rhs.bytes m).drop ri.m_a_off) ||
               decide (((lhs.bytes m).drop li.m_a_off).map char_of
                 = ((rhs.bytes m).drop ri.m_a_off).map char_of))) := by
  have hA : (lhs.bytes m).length = lhs._len := by
    rw [hll]
    exact nodes_bytes_length m _ hinl
  have hB : (rhs.bytes m).length = rhs._len := by
    rw [hlr]
    exact nodes_bytes_length m _ hinr
  intro fuel
  induction fuel with
  | zero =>
    intro li ri _ _ hf
    omega
  | succ fuel ih =>
    intro li ri hl hr hf
    have hle1 := (placed_le lhs li hl).1
    have hle2 := (placed_le rhs ri hr).1
    unfold compare_loop
    rw [op_eq_end, op_eq_end]
    by_cases hin : li.m_a_off ≠ lhs._len ∧ ri.m_a_off ≠ rhs._len
    · rw [if_pos (by simpa using hin)]
      obtain ⟨x, li1, a1, a2, a3, a4, a5⟩ :=
        placed_step m lhs li hinl (by omega) hl (by omega)
      obtain ⟨y, ri1, b1, b2, b3, b4, b5⟩ :=
        placed_step m rhs ri hinr (by omega) hr (by omega)
      have hx : li.m_a_off < (lhs.bytes m).length := by omega
      have hy : ri.m_a_off < (rhs.bytes m).length := by omega
      have ex : (lhs.bytes m)[li.m_a_off] = x := by
        rw [List.getElem?_eq_getElem hx] at a1
        exact Option.some.inj a1
      have ey : (rhs.bytes m)[ri.m_a_off] = y := by
        rw [List.getElem?_eq_getElem hy] at b1
        exact Option.some.inj b1
      rw [List.drop_eq_getElem_cons hx, List.drop_eq_getElem_cons hy, ex, ey]
      simp only [a2, b2]
      by_cases c1 : char_of x < char_of y
      · rw [if_pos c1]
        refine ⟨_, rfl, ?_, ?_⟩
        · intro b hb
          cases hb
          refine ⟨by simp [char_lt, c1], ?_⟩
          intro hc
          simp only [List.map_cons, List.cons.injEq] at hc
          omega
        · intro l r hb
          cases hb
      · rw [if_neg c1]
        by_cases c2 : char_of x > char_of y
        · rw [if_pos c2]
          refine ⟨_, rfl, ?_, ?_⟩
          · intro b hb
            cases hb
            have c3 : ¬ char_of x = char_of y := by omega
            refine ⟨by simp [char_lt, c1, c3], ?_⟩
            intro hc
            simp only [List.map_cons, List.cons.injEq] at hc
            omega
          · intro l r hb
            cases hb
        · rw [if_neg c2]
          have c3 : char_of x = char_of y := by omega
          simp only [a3, b3]
          obtain ⟨s, k1, k2, k3⟩ := ih li1 ri1 a4 b4 (by omega)
          rw [a5, b5] at k2 k3
          refine ⟨s, k1, ?_, ?_⟩
          · intro b hb
            obtain ⟨e1, e2⟩ := k2 b hb
            refine ⟨by simp [char_lt, c1, c3, e1], ?_⟩
            intro hc
            simp only [List.map_cons, List.cons.injEq] at hc
            exact e2 hc.2
          · intro l r hb
            obtain ⟨e1, e2⟩ := k3 l r hb
            refine ⟨by simp [char_lt, c1, c3, e1], ?_⟩
            rw [e2]
            simp [char_lt, c1, c3]
    · rw [if_neg (by simpa using hin)]
      refine ⟨_, rfl, ?_, ?_⟩
      · intro b hb
        cases hb
      · intro l r hb
        cases hb
        rw [op_eq_end, op_eq_end]
        by_cases e1 : li.m_a_off = lhs._len
        · have d1 : (lhs.bytes m).drop li.m_a_off = [] := List.drop_of_length_le (by omega)
          rw [d1, char_lt_nil_left]
          by_cases e2 : ri.m_a_off = rhs._len
          · have d2 : (rhs.bytes m).drop ri.m_a_off = [] := List.drop_of_length_le (by omega)
            rw [d2]
            simp [e1, e2]
          · have d2 : (rhs.bytes m).drop ri.m_a_off ≠ [] := by
              intro hc
              have := congrArg List.length hc
              simp only [List.length_drop, List.length_nil] at this
              omega
            cases hd : (rhs.bytes m).drop ri.m_a_off with
            | nil => exact absurd hd d2
            | cons z zs => simp [e1, e2]
        · have e2 : ri.m_a_off = rhs._len := by
            by_contra hc
            exact hin ⟨e1, hc⟩
          have d2 : (rhs.bytes m).drop ri.m_a_off = [] := List.drop_of_length_le (by omega)
          rw [d2, char_lt_nil_right]
          have d1 : (lhs.bytes m).drop li.m_a_off ≠ [] := by
            intro hc
            have := congrArg List.length hc
            simp only [List.length_drop, List.length_nil] at this
            omega
          cases hd : (lhs.bytes m).drop li.m_a_off with
          | nil => exact absurd hd d1
          | cons z zs => simp [e1]

/-- The loop of `std::equal` from two placed iterators with the same number
of bytes behind them: it ends, and it returns whether those bytes are
equal. -/
theorem equal_loop_spec (m : Mem) (lhs rhs : list)
    (hinl : ∀ n ∈ lhs._buffers, node_in m n.toptr) (hinr : ∀ n ∈ rhs._buffers, node_in m n.toptr)
    (hll : lhs._len = nodes_len lhs._buffers) (hlr : rhs._len = nodes_len rhs._buffers)
    (hUl : lhs._len < U64) (hUr : rhs._len < U64) :
    ∀ (fuel : Nat) (li ri : iterator), li.placed lhs → ri.placed rhs →
      lhs._len - li.m_a_off < fuel → lhs._len - li.m_a_off = rhs._len - ri.m_a_off →
      equal_loop m lhs rhs fuel li ri
        = some (.ok (decide ((lhs.bytes m).drop li.m_a_off = (rhs.bytes m).drop ri.m_a_off))) := by
  have hA : (lhs.bytes m).length = lhs._len := by
    rw [hll]
    exact nodes_bytes_length m _ hinl
  have hB : (rhs.bytes m).length = rhs._len := by
    rw [hlr]
    exact nodes_bytes_length m _ hinr
  intro fuel
  induction fuel with
  | zero =>
    intro li ri _ _ hf
    omega
  | succ fuel ih =>
    intro li ri hl hr hf hsame
    have hle1 := (placed_le lhs li hl).1
    have hle2 := (placed_le rhs ri hr).1
    unfold equal_loop
    rw [op_eq_end]
    by_cases e1 : li.m_a_off = lhs._len
    · rw [if_pos (by simpa using e1)]
      have d1 : (lhs.bytes m).drop li.m_a_off = [] := List.drop_of_length_le (by omega)
      have d2 : (rhs.bytes m).drop ri.m_a_off = [] := List.drop_of_length_le (by omega)
      rw [d1, d2]
      simp
    · rw [if_neg (by simpa using e1)]
      obtain ⟨x, li1, a1, a2, a3, a4, a5⟩ :=
        placed_step m lhs li hinl (by omega) hl (by omega)
      obtain ⟨y, ri1, b1, b2, b3, b4, b5⟩ :=
        placed_step m rhs ri hinr (by omega) hr (by omega)
      have hx : li.m_a_off < (lhs.bytes m).length := by omega
      have hy : ri.m_a_off < (rhs.bytes m).length := by omega
      have ex : (lhs.bytes m)[li.m_a_off] = x := by
        rw [List.getElem?_eq_getElem hx] at a1
        exact Option.some.inj a1
      have ey : (rhs.bytes m)[ri.m_a_off] = y := by
        rw [List.getElem?_eq_getElem hy] at b1
        exact Option.some.inj b1
      rw [List.drop_eq_getElem_cons hx, List.drop_eq_getElem_cons hy, ex, ey]
      simp only [a2, b2]
      by_cases c : x = y
      · rw [if_neg (by simpa using c)]
        simp only [a3, b3]
        rw [ih li1 ri1 a4 b4 (by omega) (by omega), a5, b5]
        simp [c]
      · rw [if_pos c]
        simp [c]

theorem char_of_inj (x y : Nat) (hx : x < 256) (hy : y < 256) (h : char_of x = char_of y) :
    x = y := by
  unfold char_of at h
  split at h <;> split at h <;> omega

theorem map_char_of_inj : ∀ (a b : List Nat), (∀ x ∈ a, x < 256) → (∀ x ∈ b, x < 256) →
    a.map char_of = b.map char_of → a = b := by
  intro a
  induction a with
  | nil =>
    intro b _ _ h
    cases b with
    | nil => rfl
    | cons y ys => simp at h
  | cons x xs ih =>
    intro b ha hb h
    cases b with
    | nil => simp at h
    | cons y ys =>
      simp only [List.map_cons, List.cons.injEq] at h
      rw [char_of_inj x y (ha x (List.mem_cons_self _ _)) (hb y (List.mem_cons_self _ _)) h.1,
        ih ys (fun z hz => ha z (List.mem_cons_of_mem _ hz))
          (fun z hz => hb z (List.mem_cons_of_mem _ hz)) h.2]

theorem char_lt_small : ∀ (a b : List Nat), (∀ x ∈ a, x < 128) → (∀ x ∈ b, x < 128) →
    char_lt a b = lex_lt a b := by
  intro a
  induction a with
  | nil =>
    intro b _ _
    cases b <;> rfl
  | cons x xs ih =>
    intro b ha hb
    cases b with
    | nil => rfl
    | cons y ys =>
      have hx := ha x (List.mem_cons_self _ _)
      have hy := hb y (List.mem_cons_self _ _)
      have e1 : char_of x = (x : Int) := by
        unfold char_of
        rw [if_pos hx]
      have e2 : char_of y = (y : Int) := by
        unfold char_of
        rw [if_pos hy]
      simp only [char_lt, lex_lt, e1, e2,
        ih ys (fun z hz => ha z (List.mem_cons_of_mem _ hz))
          (fun z hz => hb z (List.mem_cons_of_mem _ hz))]
      congr 1
      · simp
      · congr 1
        by_cases c : x = y
        · simp [c]
        · have : ¬ (x : Int) = (y : Int) := by omega
          simp [c, this]

theorem compare_with_spec (m : Mem) (lhs rhs : list) (fuel : Nat)
    (hinl : ∀ n ∈ lhs._buffers, node_in m n.toptr) (hinr : ∀ n ∈ rhs._buffers, node_in m n.toptr)
    (hll : lhs._len = nodes_len lhs._buffers) (hlr : rhs._len = nodes_len rhs._buffers)
    (hUl : lhs._len < U64) (hUr : rhs._len < U64) (hf : lhs._len < fuel) :
    lhs.op_lt m rhs fuel = some (.ok (char_lt (lhs.bytes m) (rhs.bytes m))) ∧
    lhs.op_le m rhs fuel = some (.ok (char_lt (lhs.bytes m) (rhs.bytes m) ||
      decide ((lhs.bytes m).map char_of = (rhs.bytes m).map char_of))) := by
  obtain ⟨li, a1, a2, a3⟩ := placed_begin lhs
  obtain ⟨ri, b1, b2, b3⟩ := placed_begin rhs
  obtain ⟨s, k1, k2, k3⟩ := compare_loop_spec m lhs rhs hinl hinr hll hlr hUl hUr fuel li ri a2 b2
    (by omega)
  rw [a3, b3, List.drop_zero, List.drop_zero] at k2 k3
  unfold list.op_lt list.op_le compare_with
  simp only [a1, b1, k1]
  cases s with
  | decided b =>
    obtain ⟨e1, e2⟩ := k2 b rfl
    refine ⟨by rw [e1], ?_⟩
    simp only [e1, e2, decide_False, Bool.or_false]
  | finished l r =>
    obtain ⟨e1, e2⟩ := k3 l r rfl
    exact ⟨by rw [← e1], by rw [← e2]⟩

/-- C22, amended: for lists whose nodes view live regions holding bytes and
whose `length()` is the sum of the node lengths, the six comparison
operators return, for every bound on the passes beyond the two lengths, and
independently of the node boundaries: `a < b` exactly when the bytes of `a`
come before the bytes of `b` in the lexicographic order in which bytes are
compared as `char` values (a proper prefix first), `a <= b` exactly when
`a < b` or the contents are equal, `a == b` exactly when the contents (and
so the lengths) are equal, `a != b` is the negation, and `a > b`, `a >= b`
are `b < a`, `b <= a`.  When all bytes are below 128 the order is the
lexicographic order on unsigned bytes. -/
theorem list_compare_char_order (m : Mem) (lhs rhs : list) (fuel : Nat)
    (hlive_l : views_live m lhs._buffers = true) (hlive_r : views_live m rhs._buffers = true)
    (hll : lhs._len = nodes_len lhs._buffers) (hlr : rhs._len = nodes_len rhs._buffers)
    (hUl : lhs._len < U64) (hUr : rhs._len < U64)
    (hbl : (lhs.bytes m).all (fun b => decide (b < 256)) = true)
    (hbr : (rhs.bytes m).all (fun b => decide (b < 256)) = true)
    (hfl : lhs.length < fuel) (hfr : rhs.length < fuel) :
    lhs.op_lt m rhs fuel = some (.ok (char_lt (lhs.bytes m) (rhs.bytes m))) ∧
    lhs.op_le m rhs fuel
      = some (.ok (char_lt (lhs.bytes m) (rhs.bytes m) || decide (lhs.bytes m = rhs.bytes m))) ∧
    lhs.op_eq m rhs fuel = some (.ok (decide (lhs.bytes m = rhs.bytes m))) ∧
    lhs.op_ne m rhs fuel = some (.ok (!decide (lhs.bytes m = rhs.bytes m))) ∧
    lhs.op_gt m rhs fuel = some (.ok (char_lt (rhs.bytes m) (lhs.bytes m))) ∧
    lhs.op_ge m rhs fuel
      = some (.ok (char_lt (rhs.bytes m) (lhs.bytes m) || decide (lhs.bytes m = rhs.bytes m))) ∧
    ((lhs.bytes m).all (fun b => decide (b < 128)) = true →
      (rhs.bytes m).all (fun b => decide (b < 128)) = true →
      char_lt (lhs.bytes m) (rhs.bytes m) = lex_lt (lhs.bytes m) (rhs.bytes m) ∧
      char_lt (rhs.bytes m) (lhs.bytes m) = lex_lt (rhs.bytes m) (lhs.bytes m)) := by
  have hinl := views_live_in m _ hlive_l
  have hinr := views_live_in m _ hlive_r
  have hbl1 : ∀ x ∈ lhs.bytes m, x < 256 := by
    intro x hx
    have := List.all_eq_true.mp hbl x hx
    simpa using this
  have hbr1 : ∀ x ∈ rhs.bytes m, x < 256 := by
    intro x hx
    have := List.all_eq_true.mp hbr x hx
    simpa using this
  have hA : (lhs.bytes m).length = lhs._len := by
    rw [hll]
    exact nodes_bytes_length m _ hinl
  have hB : (rhs.bytes m).length = rhs._len := by
    rw [hlr]
    exact nodes_bytes_length m _ hinr
  have hmap : decide ((lhs.bytes m).map char_of = (rhs.bytes m).map char_of)
      = decide (lhs.bytes m = rhs.bytes m) := by
    by_cases c : lhs.bytes m = rhs.bytes m
    · simp [c]
    · have : ¬ (lhs.bytes m).map char_of = (rhs.bytes m).map char_of :=
        fun h => c (map_char_of_inj _ _ hbl1 hbr1 h)
      simp [c, this]
  have hmap2 : decide ((rhs.bytes m).map char_of = (lhs.bytes m).map char_of)
      = decide (lhs.bytes m = rhs.bytes m) := by
    rw [← hmap]
    by_cases c : (lhs.bytes m).map char_of = (rhs.bytes m).map char_of
    · simp [c]
    · have : ¬ (rhs.bytes m).map char_of = (lhs.bytes m).map char_of := fun h => c h.symm
      simp [c, this]
  obtain ⟨p1, p2⟩ := compare_with_spec m lhs rhs fuel hinl hinr hll hlr hUl hUr hfl
  obtain ⟨q1, q2⟩ := compare_with_spec m rhs lhs fuel hinr hinl hlr hll hUr hUl hfr
  rw [hmap] at p2
  rw [hmap2] at q2
  have heq : lhs.op_eq m rhs fuel = some (.ok (decide (lhs.bytes m = rhs.bytes m))) := by
    unfold list.op_eq list.length
    by_cases hl : lhs._len = rhs._len
    · rw [if_neg (by simpa using hl)]
      obtain ⟨li, a1, a2, a3⟩ := placed_begin lhs
      obtain ⟨ri, b1, b2, b3⟩ := placed_begin rhs
      simp only [a1, b1]
      rw [equal_loop_spec m lhs rhs hinl hinr hll hlr hUl hUr fuel li ri a2 b2
        (by simp only [list.length] at hfl; omega) (by omega), a3, b3, List.drop_zero,
        List.drop_zero]
    · rw [if_pos hl]
      have : ¬ lhs.bytes m = rhs.bytes m := by
        intro hc
        have := congrArg List.length hc
        omega
      simp [this]
  refine ⟨p1, p2, heq, ?_, q1, q2, ?_⟩
  · unfold list.op_ne
    rw [heq]
  · intro s1 s2
    have t1 : ∀ x ∈ lhs.bytes m, x < 128 := by
      intro x hx
      have := List.all_eq_true.mp s1 x hx
      simpa using this
    have t2 : ∀ x ∈ rhs.bytes m, x < 128 := by
      intro x hx
      have := List.all_eq_true.mp s2 x hx
      simpa using this
    exact ⟨char_lt_small _ _ t1 t2, char_lt_small _ _ t2 t1⟩

/-- C22 witness: the lists `A` and `A`, `B` of the compare test. -/
theorem list_compare_char_order_witness :
    (lists_of [[65]] [[65], [66]]).1.bytes (lists_of [[65]] [[65], [66]]).2.2 = str "A" ∧
    (lists_of [[65]] [[65], [66]]).2.1.bytes (lists_of [[65]] [[65], [66]]).2.2 = str "AB" ∧
    (lists_of [[65]] [[65], [66]]).2.1._buffers.length = 2 ∧
    (lists_of [[65]] [[65], [66]]).1.op_lt (lists_of [[65]] [[65], [66]]).2.2
      (lists_of [[65]] [[65], [66]]).2.1 3 = some (.ok true) ∧
    (lists_of [[65]] [[65], [66]]).1.op_lt (lists_of [[65]] [[65], [66]]).2.2
      (lists_of [[65]] [[65], [66]]).2.1 3
      = some (.ok (char_lt ((lists_of [[65]] [[65], [66]]).1.bytes (lists_of [[65]] [[65], [66]]).2.2)
          ((lists_of [[65]] [[65], [66]]).2.1.bytes (lists_of [[65]] [[65], [66]]).2.2))) :=
  ⟨rfl, rfl, rfl, rfl,
   (list_compare_char_order (lists_of [[65]] [[65], [66]]).2.2 (lists_of [[65]] [[65], [66]]).1
      (lists_of [[65]] [[65], [66]]).2.1 3 rfl rfl rfl rfl (by decide) (by decide) rfl rfl
      (by decide) (by decide)).1⟩

/-- C22 counterexample: the one-byte lists `0x80` and `0x7F`.  In the order
on unsigned bytes `0x7F` comes first, yet `operator<` says that `0x80` is
less: the bytes are compared as `char`, and `char(0x80)` is -128.  `ptr::cmp`
on the same bytes says that `0x80` is greater. -/
theorem list_less_reads_signed_char :
    (lists_of [[128]] [[127]]).1.bytes (lists_of [[128]] [[127]]).2.2 = [128] ∧
    (lists_of [[128]] [[127]]).2.1.bytes (lists_of [[128]] [[127]]).2.2 = [127] ∧
    lex_lt [128] [127] = false ∧ lex_lt [127] [128] = true ∧
    (lists_of [[128]] [[127]]).1.op_lt (lists_of [[128]] [[127]]).2.2
      (lists_of [[128]] [[127]]).2.1 2 = some (.ok true) ∧
    (lists_of [[128]] [[127]]).1.op_le (lists_of [[128]] [[127]]).2.2
      (lists_of [[128]] [[127]]).2.1 2 = some (.ok true) ∧
    (lists_of [[128]] [[127]]).1.op_gt (lists_of [[128]] [[127]]).2.2
      (lists_of [[128]] [[127]]).2.1 2 = some (.ok false) ∧
    (lists_of [[128]] [[127]]).1.op_ge (lists_of [[128]] [[127]]).2.2
      (lists_of [[128]] [[127]]).2.1 2 = some (.ok false) ∧
    ((lists_of [[128]] [[127]]).1._buffers.map (fun a =>
      (lists_of [[128]] [[127]]).2.1._buffers.map (fun b =>
        a.toptr.cmp (lists_of [[128]] [[127]]).2.2 b.toptr))) = [[.ok 1]] :=
  ⟨rfl, rfl, rfl, rfl, rfl, rfl, rfl, rfl, rfl⟩

/-- The compare test: `a` is `A`, `ab` is `A`, `B` in two nodes, `ac` is
`AC`. -/
theorem list_compare_test :
    -- a against ab: >, >=, <, <=, ==
    (lists_of [[65]] [[65], [66]]).1.op_gt (lists_of [[65]] [[65], [66]]).2.2
      (lists_of [[65]] [[65], [66]]).2.1 3 = some (.ok false) ∧
    (lists_of [[65]] [[65], [66]]).1.op_ge (lists_of [[65]] [[65], [66]]).2.2
      (lists_of [[65]] [[65], [66]]).2.1 3 = some (.ok false) ∧
    (lists_of [[65]] [[65], [66]]).1.op_le (lists_of [[65]] [[65], [66]]).2.2
      (lists_of [[65]] [[65], [66]]).2.1 3 = some (.ok true) ∧
    (lists_of [[65]] [[65], [66]]).1.op_eq (lists_of [[65]] [[65], [66]]).2.2
      (lists_of [[65]] [[65], [66]]).2.1 3 = some (.ok false) ∧
    -- ab against a
    (lists_of [[65]] [[65], [66]]).2.1.op_gt (lists_of [[65]] [[65], [66]]).2.2
      (lists_of [[65]] [[65], [66]]).1 3 = some (.ok true) ∧
    (lists_of [[65]] [[65], [66]]).2.1.op_lt (lists_of [[65]] [[65], [66]]).2.2
      (lists_of [[65]] [[65], [66]]).1 3 = some (.ok false) ∧
    -- ac against ab
    (lists_of [[65, 67]] [[65], [66]]).1.op_gt (lists_of [[65, 67]] [[65], [66]]).2.2
      (lists_of [[65, 67]] [[65], [66]]).2.1 3 = some (.ok true) ∧
    (lists_of [[65, 67]] [[65], [66]]).1.op_le (lists_of [[65, 67]] [[65], [66]]).2.2
      (lists_of [[65, 67]] [[65], [66]]).2.1 3 = some (.ok false) ∧
    (lists_of [[65, 67]] [[65], [66]]).1.op_eq (lists_of [[65, 67]] [[65], [66]]).2.2
      (lists_of [[65, 67]] [[65], [66]]).2.1 3 = some (.ok false) ∧
    -- ab against ab
    (lists_of [[65]] [[65], [66]]).2.1.op_gt (lists_of [[65]] [[65], [66]]).2.2
      (lists_of [[65]] [[65], [66]]).2.1 3 = some (.ok false) ∧
    (lists_of [[65]] [[65], [66]]).2.1.op_ge (lists_of [[65]] [[65], [66]]).2.2
      (lists_of [[65]] [[65], [66]]).2.1 3 = some (.ok true) ∧
    (lists_of [[65]] [[65], [66]]).2.1.op_eq (lists_of [[65]] [[65], [66]]).2.2
      (lists_of [[65]] [[65], [66]]).2.1 3 = some (.ok true) :=
  ⟨rfl, rfl, rfl, rfl, rfl, rfl, rfl, rfl, rfl, rfl, rfl, rfl⟩
/-! ## Base64: the round trip (C28) -/

set_option maxRecDepth 100000 in
theorem encode_bits_spec : ∀ v, v < 64 →
    (encode_bits v ≠ 10 ∧ encode_bits v ≠ 61 ∧ decode_bits (encode_bits v) = (v : Int) ∧
      encode_bits v < 256) := by
  decide

theorem shl_or (x y k : Nat) (h : y < 2 ^ k) : (x <<< k) ||| y = x * 2 ^ k + y := by
  rw [Nat.shiftLeft_eq, Nat.mul_comm, ← Nat.mul_add_lt_is_or h]

theorem and_three (a : Nat) : a &&& 3 = a % 4 := Nat.and_pow_two_sub_one_eq_mod a 2

theorem and_sixty_three (a : Nat) : a &&& 63 = a % 64 := Nat.and_pow_two_sub_one_eq_mod a 6

theorem and_fifteen_mod (a : Nat) : a &&& 15 = a % 16 := Nat.and_pow_two_sub_one_eq_mod a 4

/-- The four 6-bit values of a group of three bytes, in arithmetic. -/
theorem group_values (a b c : Nat) (hb : b < 256) (hc : c < 256) :
    a >>> 2 = a / 4 ∧
    ((a &&& 3) <<< 4) ||| (b >>> 4) = a % 4 * 16 + b / 16 ∧
    ((b &&& 15) <<< 2) ||| (c >>> 6) = b % 16 * 4 + c / 64 ∧
    c &&& 63 = c % 64 ∧
    (a &&& 3) <<< 4 = a % 4 * 16 ∧
    (b &&& 15) <<< 2 = b % 16 * 4 := by
  have e1 : a >>> 2 = a / 4 := Nat.shiftRight_eq_div_pow a 2
  have e2 : b >>> 4 = b / 16 := Nat.shiftRight_eq_div_pow b 4
  have e3 : c >>> 6 = c / 64 := Nat.shiftRight_eq_div_pow c 6
  refine ⟨e1, ?_, ?_, and_sixty_three c, ?_, ?_⟩
  · rw [and_three, e2, shl_or _ _ 4 (by norm_num; omega)]
    norm_num
  · rw [and_fifteen_mod, e3, shl_or _ _ 2 (by norm_num; omega)]
    norm_num
  · rw [and_three, Nat.shiftLeft_eq]
  · rw [and_fifteen_mod, Nat.shiftLeft_eq]

/-- The three bytes that `spec_unarmor` puts together from four 6-bit
values. -/
theorem bytes_of_values (v0 v1 v2 v3 : Nat) (h1 : v1 < 64) (h2 : v2 < 64) (h3 : v3 < 64) :
    (v0 <<< 2) ||| (v1 >>> 4) = v0 * 4 + v1 / 16 ∧
    ((v1 &&& 15) <<< 4) ||| (v2 >>> 2) = v1 % 16 * 16 + v2 / 4 ∧
    ((v2 &&& 3) <<< 6) ||| v3 = v2 % 4 * 64 + v3 := by
  have e1 : v1 >>> 4 = v1 / 16 := Nat.shiftRight_eq_div_pow v1 4
  have e2 : v2 >>> 2 = v2 / 4 := Nat.shiftRight_eq_div_pow v2 2
  refine ⟨?_, ?_, ?_⟩
  · rw [e1, shl_or _ _ 2 (by norm_num; omega)]
    norm_num
  · rw [and_fifteen_mod, e2, shl_or _ _ 4 (by norm_num; omega)]
    norm_num
  · rw [and_three, shl_or _ _ 6 (by norm_num; omega)]
    norm_num

theorem set_dst_fits (cap : Nat) : ∀ (cs out : List Nat), out.length + cs.length ≤ cap →
    (∀ c ∈ cs, c < 256) → set_dst cap out cs = .ok (out ++ cs) := by
  intro cs
  induction cs with
  | nil =>
    intro out _ _
    simp [set_dst]
  | cons c cs ih =>
    intro out h hc
    simp only [List.length_cons] at h
    have h1 : c % 256 = c := Nat.mod_eq_of_lt (hc c (List.mem_cons_self _ _))
    simp only [set_dst, set_str_val]
    rw [if_pos (by omega), h1]
    simp only []
    rw [ih (out ++ [c]) (by simp only [List.length_append, List.length_singleton]; omega)
      (fun x hx => hc x (List.mem_cons_of_mem _ hx))]
    simp

theorem armor_group_fits (cap : Nat) (out chars : List Nat) (out_len track_line : Nat)
    (h : out.length + chars.length ≤ cap) (hc : ∀ c ∈ chars, c < 256) :
    armor_group cap 0 out out_len track_line chars
      = .ok (out ++ chars, add64 out_len 4, add64 track_line 4) := by
  unfold armor_group
  rw [set_dst_fits cap chars out h hc]
  simp

theorem base64_text_length : ∀ x : List Nat, (base64_text x).length = 4 * ((x.length + 2) / 3) := by
  intro x
  induction x using base64_text.induct with
  | case1 => rfl
  | case2 a => simp [base64_text]
  | case3 a b => simp [base64_text]
  | case4 a b c rest ih =>
    simp only [base64_text, List.length_append, List.length_cons, List.length_nil, ih]
    omega

/-- With room for the text, `spec_armor` writes the base64 text of the
source behind what the destination holds and counts its characters. -/
theorem armor_loop_spec (cap : Nat) : ∀ (x : List Nat), (∀ b ∈ x, b < 256) →
    ∀ (out : List Nat) (out_len track_line : Nat),
      out.length + (base64_text x).length ≤ cap → out_len + (base64_text x).length < U64 →
      spec_armor_loop cap 0 x out out_len track_line
        = (out ++ base64_text x, out_len + (base64_text x).length) := by
  intro x
  induction x using base64_text.induct with
  | case1 =>
    intro _ out out_len track_line _ _
    simp [spec_armor_loop, base64_text]
  | case2 a =>
    intro hx out out_len track_line h1 h2
    have ha : a % 256 = a := Nat.mod_eq_of_lt (hx a (by simp))
    obtain ⟨g1, _, _, _, g5, _⟩ := group_values a 0 0 (by decide) (by decide)
    have b1 := (encode_bits_spec (a >>> 2) (by rw [g1]; omega)).2.2.2
    have b2 := (encode_bits_spec ((a &&& 3) <<< 4) (by rw [g5]; omega)).2.2.2
    simp only [base64_text, List.length_cons, List.length_nil] at h1 h2 ⊢
    simp only [spec_armor_loop, ha]
    rw [armor_group_fits cap out _ out_len track_line (by simpa using h1) (by
      intro c hc
      simp only [List.mem_cons, List.mem_singleton, List.not_mem_nil, or_false] at hc
      rcases hc with h | h | h | h <;> omega)]
    simp only []
    rw [add64_small _ _ (by omega)]
  | case3 a b =>
    intro hx out out_len track_line h1 h2
    have ha : a % 256 = a := Nat.mod_eq_of_lt (hx a (by simp))
    have hb : b % 256 = b := Nat.mod_eq_of_lt (hx b (by simp))
    have hb1 : b < 256 := hx b (by simp)
    obtain ⟨g1, g2, _, _, _, g6⟩ := group_values a b 0 hb1 (by decide)
    have b1 := (encode_bits_spec (a >>> 2) (by rw [g1]; omega)).2.2.2
    have b2 := (encode_bits_spec (((a &&& 3) <<< 4) ||| (b >>> 4)) (by rw [g2]; omega)).2.2.2
    have b3 := (encode_bits_spec ((b &&& 15) <<< 2) (by rw [g6]; omega)).2.2.2
    simp only [base64_text, List.length_cons, List.length_nil] at h1 h2 ⊢
    simp only [spec_armor_loop, ha, hb]
    rw [armor_group_fits cap out _ out_len track_line (by simpa using h1) (by
      intro c hc
      simp only [List.mem_cons, List.mem_singleton, List.not_mem_nil, or_false] at hc
      rcases hc with h | h | h | h <;> omega)]
    simp only []
    rw [add64_small _ _ (by omega)]
  | case4 a b c rest ih =>
    intro hx out out_len track_line h1 h2
    have ha : a % 256 = a := Nat.mod_eq_of_lt (hx a (by simp))
    have hb : b % 256 = b := Nat.mod_eq_of_lt (hx b (by simp))
    have hc : c % 256 = c := Nat.mod_eq_of_lt (hx c (by simp))
    have hb1 : b < 256 := hx b (by simp)
    have hc1 : c < 256 := hx c (by simp)
    obtain ⟨g1, g2, g3, g4, _, _⟩ := group_values a b c hb1 hc1
    have b1 := (encode_bits_spec (a >>> 2) (by rw [g1]; omega)).2.2.2
    have b2 := (encode_bits_spec (((a &&& 3) <<< 4) ||| (b >>> 4)) (by rw [g2]; omega)).2.2.2
    have b3 := (encode_bits_spec (((b &&& 15) <<< 2) ||| (c >>> 6)) (by rw [g3]; omega)).2.2.2
    have b4 := (encode_bits_spec (c &&& 63) (by rw [g4]; omega)).2.2.2
    simp only [base64_text, List.length_append, List.length_cons, List.length_nil] at h1 h2 ⊢
    simp only [spec_armor_loop, ha, hb, hc]
    rw [armor_group_fits cap out _ out_len track_line (by
      simp only [List.length_cons, List.length_nil]
      omega) (by
      intro c hc
      simp only [List.mem_cons, List.mem_singleton, List.not_mem_nil, or_false] at hc
      rcases hc with h | h | h | h <;> omega)]
    simp only []
    rw [add64_small _ _ (by omega),
      ih (fun x h => hx x (by simp [h])) _ _ _ (by
        simp only [List.length_append, List.length_cons, List.length_nil]
        omega) (by omega)]
    simp only [List.append_assoc, Prod.mk.injEq]
    exact ⟨trivial, by omega⟩

theorem set_str_val_fits (cap : Nat) (out : List Nat) (c : Nat) (h : out.length < cap)
    (hc : c < 256) : set_str_val cap out c = some (out ++ [c]) := by
  unfold set_str_val
  rw [if_pos h, Nat.mod_eq_of_lt hc]

theorem unarmor_group_full (cap v0 v1 v2 v3 : Nat) (src out : List Nat) (out_len : Int)
    (h0 : v0 < 64) (h1 : v1 < 64) (h2 : v2 < 64) (h3 : v3 < 64) (hc : out.length + 3 ≤ cap) :
    spec_unarmor_loop cap
        (encode_bits v0 :: encode_bits v1 :: encode_bits v2 :: encode_bits v3 :: src) out out_len
      = spec_unarmor_loop cap src
          (out ++ [v0 * 4 + v1 / 16, v1 % 16 * 16 + v2 / 4, v2 % 4 * 64 + v3]) (out_len + 3) := by
  obtain ⟨p1, p2, p3, _⟩ := encode_bits_spec v0 h0
  obtain ⟨q1, q2, q3, _⟩ := encode_bits_spec v1 h1
  obtain ⟨r1, r2, r3, _⟩ := encode_bits_spec v2 h2
  obtain ⟨s1, s2, s3, _⟩ := encode_bits_spec v3 h3
  obtain ⟨k1, k2, k3⟩ := bytes_of_values v0 v1 v2 v3 h1 h2 h3
  simp only [spec_unarmor_loop]
  rw [if_neg p1]
  simp only [p3, q3, r3, s3, Int.toNat_ofNat]
  rw [if_neg (by omega), k1, k2, k3, set_str_val_fits cap out _ (by omega) (by omega)]
  simp only []
  rw [if_neg r2, set_str_val_fits cap _ _ (by
    simp only [List.length_append, List.length_singleton]
    omega) (by omega)]
  simp only []
  rw [if_neg s2, set_str_val_fits cap _ _ (by
    simp only [List.length_append, List.length_singleton]
    omega) (by omega)]
  simp only [List.append_assoc, List.singleton_append, List.cons_append, List.nil_append]

theorem unarmor_group_two (cap v0 v1 v2 : Nat) (out : List Nat) (out_len : Int)
    (h0 : v0 < 64) (h1 : v1 < 64) (h2 : v2 < 64) (hc : out.length + 2 ≤ cap) :
    spec_unarmor_loop cap [encode_bits v0, encode_bits v1, encode_bits v2, 61] out out_len
      = (out ++ [v0 * 4 + v1 / 16, v1 % 16 * 16 + v2 / 4], out_len + 2) := by
  obtain ⟨p1, p2, p3, _⟩ := encode_bits_spec v0 h0
  obtain ⟨q1, q2, q3, _⟩ := encode_bits_spec v1 h1
  obtain ⟨r1, r2, r3, _⟩ := encode_bits_spec v2 h2
  obtain ⟨k1, k2, _⟩ := bytes_of_values v0 v1 v2 0 h1 h2 (by decide)
  have d61 : decode_bits 61 = 0 := by decide
  simp only [spec_unarmor_loop]
  rw [if_neg p1]
  simp only [p3, q3, r3, d61, Int.toNat_ofNat]
  rw [if_neg (by omega), k1, k2, set_str_val_fits cap out _ (by omega) (by omega)]
  simp only []
  rw [if_neg r2, set_str_val_fits cap _ _ (by
    simp only [List.length_append, List.length_singleton]
    omega) (by omega)]
  simp only [if_true, List.append_assoc, List.singleton_append]

theorem unarmor_group_one (cap v0 v1 : Nat) (out : List Nat) (out_len : Int)
    (h0 : v0 < 64) (h1 : v1 < 64) (hc : out.length + 1 ≤ cap) :
    spec_unarmor_loop cap [encode_bits v0, encode_bits v1, 61, 61] out out_len
      = (out ++ [v0 * 4 + v1 / 16], out_len + 1) := by
  obtain ⟨p1, p2, p3, _⟩ := encode_bits_spec v0 h0
  obtain ⟨q1, q2, q3, _⟩ := encode_bits_spec v1 h1
  obtain ⟨k1, _, _⟩ := bytes_of_values v0 v1 0 0 h1 (by decide) (by decide)
  have d61 : decode_bits 61 = 0 := by decide
  simp only [spec_unarmor_loop]
  rw [if_neg p1]
  simp only [p3, q3, d61, Int.toNat_ofNat]
  rw [if_neg (by omega), k1, set_str_val_fits cap out _ (by omega) (by omega)]
  simp only [if_true]

/-- With room for the bytes, `spec_unarmor` on the base64 text of a byte
string writes the byte string behind what the destination holds and counts
its bytes. -/
theorem unarmor_loop_spec (cap : Nat) : ∀ (x : List Nat), (∀ b ∈ x, b < 256) →
    ∀ (out : List Nat) (out_len : Int), out.length + x.length ≤ cap →
      spec_unarmor_loop cap (base64_text x) out out_len = (out ++ x, out_len + x.length) := by
  intro x
  induction x using base64_text.induct with
  | case1 =>
    intro _ out out_len _
    simp [spec_unarmor_loop, base64_text]
  | case2 a =>
    intro hx out out_len h1
    have ha1 : a < 256 := hx a (by simp)
    obtain ⟨g1, _, _, _, g5, _⟩ := group_values a 0 0 (by decide) (by decide)
    simp only [List.length_cons, List.length_nil] at h1
    simp only [base64_text]
    rw [unarmor_group_one cap _ _ out out_len (by rw [g1]; omega) (by rw [g5]; omega)
      (by omega), g1, g5]
    have e : a / 4 * 4 + a % 4 * 16 / 16 = a := by omega
    rw [e]
    simp
  | case3 a b =>
    intro hx out out_len h1
    have ha1 : a < 256 := hx a (by simp)
    have hb1 : b < 256 := hx b (by simp)
    obtain ⟨g1, g2, _, _, _, g6⟩ := group_values a b 0 hb1 (by decide)
    simp only [List.length_cons, List.length_nil] at h1
    simp only [base64_text]
    rw [unarmor_group_two cap _ _ _ out out_len (by rw [g1]; omega) (by rw [g2]; omega)
      (by rw [g6]; omega) (by omega), g1, g2, g6]
    have e1 : a / 4 * 4 + (a % 4 * 16 + b / 16) / 16 = a := by omega
    have e2 : (a % 4 * 16 + b / 16) % 16 * 16 + b % 16 * 4 / 4 = b := by omega
    rw [e1, e2]
    simp
  | case4 a b c rest ih =>
    intro hx out out_len h1
    have ha1 : a < 256 := hx a (by simp)
    have hb1 : b < 256 := hx b (by simp)
    have hc1 : c < 256 := hx c (by simp)
    obtain ⟨g1, g2, g3, g4, _, _⟩ := group_values a b c hb1 hc1
    simp only [List.length_cons] at h1
    simp only [base64_text, List.cons_append, List.nil_append]
    rw [unarmor_group_full cap _ _ _ _ _ out out_len (by rw [g1]; omega) (by rw [g2]; omega)
      (by rw [g3]; omega) (by rw [g4]; omega) (by omega), g1, g2, g3, g4]
    have e1 : a / 4 * 4 + (a % 4 * 16 + b / 16) / 16 = a := by omega
    have e2 : (a % 4 * 16 + b / 16) % 16 * 16 + (b % 16 * 4 + c / 64) / 4 = b := by omega
    have e3 : (b % 16 * 4 + c / 64) % 4 * 64 + c % 64 = c := by omega
    rw [e1, e2, e3, ih (fun x h => hx x (by simp [h])) _ _ (by
      simp only [List.length_append, List.length_cons, List.length_nil]
      omega)]
    simp only [List.append_assoc, List.cons_append, List.nil_append, List.length_cons,
      Prod.mk.injEq, true_and]
    push_cast
    omega
/-! ## `list::encode_base64` and `list::decode_base64` on lists -/

/-- The constructor `ptr(len)`: a ptr over the whole of a new region of
`len` zero bytes with one reference; no other region changes. -/
theorem of_len_spec (m : Mem) (len : Nat) :
    ∃ m1 r, ptr.of_len m len = .ok (⟨some m.next_raw, 0, len⟩, m1) ∧
      m1.raws m.next_raw = some r ∧ r.m_data = List.replicate len 0 ∧ r.nref = 1 ∧
      (∀ j, j ≠ m.next_raw → m1.raws j = m.raws j) ∧ m1.next_raw = m.next_raw + 1 := by
  obtain ⟨i, m1, e1, hi, hnr, _, hoth, r, hr, hd, _, _⟩ := (create_ok m len).1
  subst hi
  refine ⟨m1.set_raw m.next_raw (some { r with nref := 1 }), { r with nref := 1 }, ?_,
    set_raw_same _ _ _, hd, rfl, ?_, ?_⟩
  · unfold ptr.of_len Mem.nref_store_one
    simp only [e1, hr]
  · intro j hj
    rw [set_raw_other _ _ _ _ hj]
    exact hoth j hj
  · exact hnr

theorem nodes_bytes_other (m m1 : Mem) (ns : List ptr_node)
    (h : ∀ n ∈ ns, ∀ j, n.m_raw = some j → m1.raws j = m.raws j) :
    nodes_bytes m1 ns = nodes_bytes m ns :=
  nodes_bytes_frame m m1 ns (fun x hx => ptr_bytes_other m m1 x.toptr (h x hx))

theorem index_loop_ok (m : Mem) : ∀ (ns : List ptr_node) (pos : Nat),
    (∀ n ∈ ns, node_in m n.toptr) → pos < nodes_len ns → pos < U64 →
    ∃ b, index_loop m ns pos = .ok b := by
  intro ns
  induction ns with
  | nil =>
    intro pos _ h _
    simp [nodes_len] at h
  | cons n rest ih =>
    intro pos hin h hU
    simp only [nodes_len] at h
    unfold index_loop
    by_cases c : pos ≥ n.toptr.length
    · rw [if_pos c]
      simp only [ptr.length] at c ⊢
      rw [sub64_small _ _ c hU]
      exact ih _ (fun x hx => hin x (List.mem_cons_of_mem _ hx)) (by omega) (by omega)
    · rw [if_neg c]
      simp only [ptr.length] at c
      obtain ⟨i, r, a, b, c1, d⟩ := hin n (List.mem_cons_self _ _)
      have hb : ∃ x, r.m_data[n.m_off + pos]? = some x :=
        ⟨_, List.getElem?_eq_getElem (by omega)⟩
      obtain ⟨x, hx⟩ := hb
      refine ⟨x, ?_⟩
      unfold ptr.at
      simp only [a, b, hx]
      rw [if_pos (by omega)]

/-- The reads of `hexdump` succeed on a list whose nodes view live regions
and whose `length()` is the sum of the node lengths. -/
theorem hexdump_ok (m : Mem) (L : list) (hin : ∀ n ∈ L._buffers, node_in m n.toptr)
    (hlen : L._len = nodes_len L._buffers) (hU : L._len < U64) : L.hexdump m = .ok () := by
  have key : ∀ ks : List Nat, (∀ k ∈ ks, k < L._len) → L.reads m ks = .ok () := by
    intro ks
    induction ks with
    | nil =>
      intro _
      rfl
    | cons k rest ih =>
      intro h
      have hk := h k (List.mem_cons_self _ _)
      obtain ⟨b, hb⟩ := index_loop_ok m L._buffers k hin (by omega) (by omega)
      unfold list.reads list.index
      rw [if_neg (by omega)]
      simp only [hb]
      exact ih (fun x hx => h x (List.mem_cons_of_mem _ hx))
  unfold list.hexdump list.length
  exact key _ (fun k hk => List.mem_range.mp hk)

theorem set_str_val_some (cap : Nat) (out : List Nat) (c : Nat) (out1 : List Nat)
    (h : set_str_val cap out c = some out1) : out1.length ≤ cap ∧ out1.length = out.length + 1 := by
  unfold set_str_val at h
  by_cases c1 : out.length < cap
  · rw [if_pos c1] at h
    cases h
    simp only [List.length_append, List.length_singleton]
    exact ⟨c1, trivial⟩
  · rw [if_neg c1] at h
    cases h

theorem unarmor_newline (cap : Nat) (rest out : List Nat) (out_len : Int) :
    spec_unarmor_loop cap (10 :: rest) out out_len = spec_unarmor_loop cap rest out out_len := by
  rw [spec_unarmor_loop.eq_def]
  simp only [if_true]

theorem unarmor_short (cap s0 : Nat) (rest out : List Nat) (out_len : Int) (h : s0 ≠ 10)
    (hl : rest.length < 3) :
    spec_unarmor_loop cap (s0 :: rest) out out_len = (out, -(EINVAL : Int)) := by
  rcases rest with _ | ⟨s1, _ | ⟨s2, _ | ⟨s3, src⟩⟩⟩
  · simp [spec_unarmor_loop, h]
  · simp [spec_unarmor_loop, h]
  · simp [spec_unarmor_loop, h]
  · simp only [List.length_cons] at hl
    omega

/-- A pass of the loop of `spec_unarmor` over four characters that do not
start with a line break: it returns a negative value, or it returns at a
`=` in the third or fourth place, or it goes on behind the four characters
with three more bytes written. -/
theorem unarmor_group_cases (cap s0 s1 s2 s3 : Nat) (src out : List Nat) (out_len : Int)
    (h : s0 ≠ 10) (hc : out.length ≤ cap) :
    (decode_bits s0 < 0 ∨ decode_bits s1 < 0 ∨ decode_bits s2 < 0 ∨ decode_bits s3 < 0 →
      spec_unarmor_loop cap (s0 :: s1 :: s2 :: s3 :: src) out out_len = (out, -(EINVAL : Int))) ∧
    ((spec_unarmor_loop cap (s0 :: s1 :: s2 :: s3 :: src) out out_len).2 < 0 ∧
        (spec_unarmor_loop cap (s0 :: s1 :: s2 :: s3 :: src) out out_len).1.length ≤ cap ∨
      ((s2 = 61 ∨ s3 = 61) ∧
        (spec_unarmor_loop cap (s0 :: s1 :: s2 :: s3 :: src) out out_len).1.length ≤ cap) ∨
      ∃ out3, out3.length ≤ cap ∧
        spec_unarmor_loop cap (s0 :: s1 :: s2 :: s3 :: src) out out_len
          = spec_unarmor_loop cap src out3 (out_len + 3)) := by
  have e22 : -(EINVAL : Int) < 0 := by decide
  have e34 : -(ERANGE : Int) < 0 := by decide
  constructor
  · intro hneg
    simp only [spec_unarmor_loop, if_neg h]
    rw [if_pos hneg]
  · simp only [spec_unarmor_loop, if_neg h]
    split
    · exact Or.inl ⟨e22, hc⟩
    · split
      · exact Or.inl ⟨e34, hc⟩
      · rename_i out1 h1
        have b1 := (set_str_val_some _ _ _ _ h1).1
        split
        · rename_i h2
          exact Or.inr (Or.inl ⟨Or.inl h2, b1⟩)
        · split
          · exact Or.inl ⟨e34, b1⟩
          · rename_i out2 h2
            have b2 := (set_str_val_some _ _ _ _ h2).1
            split
            · rename_i h3
              exact Or.inr (Or.inl ⟨Or.inr h3, b2⟩)
            · split
              · exact Or.inl ⟨e34, b2⟩
              · rename_i out3 h3
                exact Or.inr (Or.inr ⟨out3, (set_str_val_some _ _ _ _ h3).1, rfl⟩)

theorem unarmor_out_le (cap : Nat) : ∀ (n : Nat) (src out : List Nat) (out_len : Int),
    src.length ≤ n → out.length ≤ cap →
    (spec_unarmor_loop cap src out out_len).1.length ≤ cap := by
  intro n
  induction n with
  | zero =>
    intro src out out_len hn hc
    have : src = [] := List.length_eq_zero.mp (by omega)
    subst this
    simpa [spec_unarmor_loop] using hc
  | succ n ih =>
    intro src out out_len hn hc
    cases src with
    | nil => simpa [spec_unarmor_loop] using hc
    | cons s0 rest =>
      simp only [List.length_cons] at hn
      by_cases h : s0 = 10
      · subst h
        rw [unarmor_newline]
        exact ih rest out out_len (by omega) hc
      · by_cases hl : rest.length < 3
        · rw [unarmor_short cap s0 rest out out_len h hl]
          exact hc
        · rcases rest with _ | ⟨s1, _ | ⟨s2, _ | ⟨s3, src⟩⟩⟩
          · exact absurd (by simp) hl
          · exact absurd (by simp) hl
          · exact absurd (by simp) hl
          · rcases (unarmor_group_cases cap s0 s1 s2 s3 src out out_len h hc).2 with
              c | c | ⟨out3, c1, c2⟩
            · exact c.2
            · exact c.2
            · rw [c2]
              simp only [List.length_cons] at hn
              exact ih src out3 _ (by omega) c1

/-- An input without line break and without `=` whose length is not a
multiple of 4 makes `spec_unarmor` return a negative value. -/
theorem unarmor_rejects_length (cap : Nat) : ∀ (n : Nat) (src out : List Nat) (out_len : Int),
    src.length ≤ n → (∀ b ∈ src, b ≠ 10 ∧ b ≠ 61) → src.length % 4 ≠ 0 → out.length ≤ cap →
    (spec_unarmor_loop cap src out out_len).2 < 0 := by
  have e22 : -(EINVAL : Int) < 0 := by decide
  intro n
  induction n with
  | zero =>
    intro src out out_len hn _ hm _
    have : src = [] := List.length_eq_zero.mp (by omega)
    subst this
    simp at hm
  | succ n ih =>
    intro src out out_len hn hs hm hc
    cases src with
    | nil => simp at hm
    | cons s0 rest =>
      have h : s0 ≠ 10 := (hs s0 (List.mem_cons_self _ _)).1
      by_cases hl : rest.length < 3
      · rw [unarmor_short cap s0 rest out out_len h hl]
        exact e22
      · rcases rest with _ | ⟨s1, _ | ⟨s2, _ | ⟨s3, src⟩⟩⟩
        · exact absurd (by simp) hl
        · exact absurd (by simp) hl
        · exact absurd (by simp) hl
        · have h2 : s2 ≠ 61 := (hs s2 (by simp)).2
          have h3 : s3 ≠ 61 := (hs s3 (by simp)).2
          simp only [List.length_cons] at hn hm
          rcases (unarmor_group_cases cap s0 s1 s2 s3 src out out_len h hc).2 with
            c | c | ⟨out3, c1, c2⟩
          · exact c.1
          · rcases c.1 with c | c
            · exact absurd c h2
            · exact absurd c h3
          · rw [c2]
            exact ih src out3 _ (by omega)
              (fun b hb => hs b (by simp [hb])) (by omega) c1

/-- A character that `decode_bits` rejects, other than the line break,
behind characters that are neither a line break nor `=`, makes
`spec_unarmor` return a negative value. -/
theorem unarmor_rejects_char (cap : Nat) : ∀ (n : Nat) (pre : List Nat), pre.length ≤ n →
    (∀ b ∈ pre, b ≠ 10 ∧ b ≠ 61) → ∀ (c : Nat) (post out : List Nat) (out_len : Int),
    decode_bits c < 0 → c ≠ 10 → out.length ≤ cap →
    (spec_unarmor_loop cap (pre ++ c :: post) out out_len).2 < 0 := by
  have e22 : -(EINVAL : Int) < 0 := by decide
  intro n
  induction n with
  | zero =>
    intro pre hn _ c post out out_len hd hc10 hc
    have : pre = [] := List.length_eq_zero.mp (by omega)
    subst this
    simp only [List.nil_append]
    by_cases hl : post.length < 3
    · rw [unarmor_short cap c post out out_len hc10 hl]
      exact e22
    · rcases post with _ | ⟨s1, _ | ⟨s2, _ | ⟨s3, src⟩⟩⟩
      · exact absurd (by simp) hl
      · exact absurd (by simp) hl
      · exact absurd (by simp) hl
      · rw [(unarmor_group_cases cap c s1 s2 s3 src out out_len hc10 hc).1 (Or.inl hd)]
        exact e22
  | succ n ih =>
    intro pre hn hs c post out out_len hd hc10 hc
    rcases pre with _ | ⟨a, _ | ⟨b, _ | ⟨d, _ | ⟨e, pre1⟩⟩⟩⟩
    · exact ih [] (by simp) (by simp) c post out out_len hd hc10 hc
    · have ha : a ≠ 10 := (hs a (by simp)).1
      simp only [List.cons_append, List.nil_append]
      by_cases hl : (c :: post).length < 3
      · rw [unarmor_short cap a (c :: post) out out_len ha hl]
        exact e22
      · rcases post with _ | ⟨s2, _ | ⟨s3, src⟩⟩
        · exact absurd (by simp) hl
        · exact absurd (by simp) hl
        · rw [(unarmor_group_cases cap a c s2 s3 src out out_len ha hc).1 (Or.inr (Or.inl hd))]
          exact e22
    · have ha : a ≠ 10 := (hs a (by simp)).1
      simp only [List.cons_append, List.nil_append]
      rcases post with _ | ⟨s3, src⟩
      · rw [unarmor_short cap a [b, c] out out_len ha (by simp)]
        exact e22
      · rw [(unarmor_group_cases cap a b c s3 src out out_len ha hc).1
          (Or.inr (Or.inr (Or.inl hd)))]
        exact e22
    · have ha : a ≠ 10 := (hs a (by simp)).1
      simp only [List.cons_append, List.nil_append]
      rw [(unarmor_group_cases cap a b d c post out out_len ha hc).1
        (Or.inr (Or.inr (Or.inr hd)))]
      exact e22
    · have ha : a ≠ 10 := (hs a (by simp)).1
      have h2 : d ≠ 61 := (hs d (by simp)).2
      have h3 : e ≠ 61 := (hs e (by simp)).2
      simp only [List.cons_append, List.length_cons] at hn ⊢
      rcases (unarmor_group_cases cap a b d e (pre1 ++ c :: post) out out_len ha hc).2 with
        k | k | ⟨out3, k1, k2⟩
      · exact k.1
      · rcases k.1 with k | k
        · exact absurd k h2
        · exact absurd k h3
      · rw [k2]
        exact ih pre1 (by omega) (fun x hx => hs x (by simp [hx])) c post out3 _ hd hc10 k1

/-- A heap that agrees with `m` on the regions `m` has handed out shows the
same bytes of a list whose nodes view live regions of `m`. -/
theorem frame_bytes (m m1 : Mem) (L : list) (hL : views_live m L._buffers = true)
    (h : ∀ j, j < m.next_raw → m1.raws j = m.raws j) :
    L.bytes m1 = L.bytes m ∧ ∀ n ∈ L._buffers, node_in m1 n.toptr := by
  have hs := views_live_spec m _ hL
  constructor
  · unfold list.bytes
    apply nodes_bytes_other
    intro n hn j hj
    obtain ⟨i, r, a, _, _, _, e⟩ := hs n hn
    rw [hj] at a
    cases a
    exact h j e
  · intro n hn
    obtain ⟨i, r, a, b, c, d, e⟩ := hs n hn
    exact ⟨i, r, a, by rw [h i e]; exact b, c, d⟩

/-- On a list with at most one node `c_str()` changes nothing, and a read
of `length()` bytes at the pointer it returns sees the content. -/
theorem c_str_one_node (m : Mem) (E : list) (hone : E._buffers.length ≤ 1)
    (hin : ∀ n ∈ E._buffers, node_in m n.toptr) (hlen : E._len = nodes_len E._buffers) :
    ∃ a, E.c_str m = .ok (a, E, m) ∧ E.c_str_bytes m E.length = .ok (E.bytes m) := by
  rcases hb : E._buffers with _ | ⟨front, _ | ⟨n2, rest⟩⟩
  · refine ⟨none, ?_, ?_⟩
    · unfold list.c_str
      simp [hb]
    · unfold list.c_str_bytes list.length list.bytes
      rw [hlen, hb]
      simp [nodes_len, nodes_bytes]
  · obtain ⟨i, r, a, b, c, d⟩ := hin front (by rw [hb]; simp)
    refine ⟨some (r.data_addr + front.m_off), ?_, ?_⟩
    · unfold list.c_str ptr.c_str_addr
      simp [hb, a, b]
    · unfold list.c_str_bytes list.length list.bytes ptr.c_str_data
      rw [hlen, hb]
      simp only [List.head?_cons, a, b, nodes_len, nodes_bytes, ptr.bytes, Nat.add_zero,
        List.append_nil]
      rw [if_neg (by simp only [List.length_drop]; omega)]
  · rw [hb] at hone
    simp at hone

/-- Member `list::decode_base64` on a well-formed destination and an
encoded list in at most one node: with `r` the result of `spec_unarmor` on
the content of the encoded list and a destination of
`4 + length() * 3 / 4` bytes, a negative value ends in `malformed_input`
with the destination as it was, and a result `(x, |x|)` appends `x` to the
destination. -/
theorem decode_base64_spec (m : Mem) (D E : list)
    (hD : views_live m D._buffers = true) (hDl : D._len = nodes_len D._buffers)
    (hDU : D._len < U64)
    (hE : views_live m E._buffers = true) (hEl : E._len = nodes_len E._buffers)
    (hone : E._buffers.length ≤ 1) (hEU : E._len * 3 < U64) :
    ((spec_unarmor (4 + E._len * 3 / 4) (E.bytes m)).2 < 0 →
      ∃ m1, D.decode_base64 m E = .thrown .malformed_input (D, E, m1) ∧
        D.bytes m1 = D.bytes m ∧ E.bytes m1 = E.bytes m) ∧
    (∀ x : List Nat, spec_unarmor (4 + E._len * 3 / 4) (E.bytes m) = (x, (x.length : Int)) →
      ∃ D1 m1, D.decode_base64 m E = .returned (D1, E, m1) ∧
        D1.bytes m1 = D.bytes m ++ x ∧ E.bytes m1 = E.bytes m) := by
  obtain ⟨cap, hcap⟩ : ∃ cap, cap = 4 + E._len * 3 / 4 := ⟨_, rfl⟩
  rw [← hcap]
  have hc1 : add64 4 (E.length * 3 % U64 / 4) = cap := by
    unfold list.length
    rw [Nat.mod_eq_of_lt hEU, add64_small _ _ (by simp only [U64_val] at *; omega), hcap]
  obtain ⟨m1, r0, a1, a2, a3, a4, a5, a6⟩ := of_len_spec m cap
  have hfr1 : ∀ j, j < m.next_raw → m1.raws j = m.raws j := fun j hj => a5 j (by omega)
  obtain ⟨eb1, ein1⟩ := frame_bytes m m1 E hE hfr1
  obtain ⟨pa, ce1, ce2⟩ := c_str_one_node m1 E hone ein1 hEl
  obtain ⟨out, hout⟩ : ∃ out, out = (spec_unarmor cap (E.bytes m)).1 := ⟨_, rfl⟩
  have hol : out.length ≤ cap := by
    rw [hout]
    exact unarmor_out_le cap _ _ [] 0 (Nat.le_refl _) (by simp)
  have hr0 : r0.m_data.length = cap := by rw [a3, List.length_replicate]
  obtain ⟨m3, hm3⟩ : ∃ m3, m3 = m1.set_raw m.next_raw
      (some { r0 with m_data := write_bytes r0.m_data 0 out }) := ⟨_, rfl⟩
  have hstore : (⟨some m.next_raw, 0, cap⟩ : ptr).store m1 out = .ok m3 := by
    unfold ptr.store
    simp only [a2]
    rw [if_neg (by omega), hm3]
  have hfr3 : ∀ j, j < m.next_raw → m3.raws j = m.raws j := by
    intro j hj
    rw [hm3, set_raw_other _ _ _ _ (by omega)]
    exact hfr1 j hj
  have hm3i : m3.raws m.next_raw = some { r0 with m_data := write_bytes r0.m_data 0 out } := by
    rw [hm3, set_raw_same]
  have hunf : D.decode_base64 m E =
      (if (spec_unarmor cap (E.bytes m)).2 < 0 then
        match D.hexdump m3 with
        | .error e => .aborted e
        | .ok _ =>
          match (⟨some m.next_raw, 0, cap⟩ : ptr).release m3 with
          | .error e => .aborted e
          | .ok (_, m4) => .thrown .malformed_input (D, E, m4)
      else if (spec_unarmor cap (E.bytes m)).2 ≤ (cap : Int) then
        match (⟨some m.next_raw, 0, cap⟩ : ptr).set_length m3
            (spec_unarmor cap (E.bytes m)).2.toNat with
        | .error e => .aborted e
        | .ok bptr1 =>
          match (D.push_back_move m3 bptr1).2.1.release (D.push_back_move m3 bptr1).2.2 with
          | .error e => .aborted e
          | .ok (_, m5) => .returned ((D.push_back_move m3 bptr1).1, E, m5)
      else .aborted .assert_failed) := by
    unfold list.decode_base64
    rw [hc1]
    simp only [a1, ptr.c_str_addr, a2, ce1, ce2, eb1, ptr.length, ← hout, hstore]
  rw [hunf]
  have hrel : (⟨some m.next_raw, 0, cap⟩ : ptr).release m3
      = .ok (⟨none, 0, cap⟩, m3.set_raw m.next_raw none) := by
    unfold ptr.release
    simp only [hm3i, a4, if_true]
  have hfr4 : ∀ j, j < m.next_raw → (m3.set_raw m.next_raw none).raws j = m.raws j := by
    intro j hj
    rw [set_raw_other _ _ _ _ (by omega)]
    exact hfr3 j hj
  constructor
  · intro hneg
    rw [if_pos hneg]
    obtain ⟨db3, din3⟩ := frame_bytes m m3 D hD hfr3
    rw [hexdump_ok m3 D din3 hDl hDU]
    simp only [hrel]
    exact ⟨_, rfl, (frame_bytes m _ D hD hfr4).1, (frame_bytes m _ E hE hfr4).1⟩
  · intro x hx
    have hx1 : out = x := by rw [hout, hx]
    rw [hx]
    simp only [Int.toNat_ofNat]
    rw [if_neg (by omega), if_pos (by subst hx1; exact_mod_cast hol)]
    subst hx1
    have hsl : (⟨some m.next_raw, 0, cap⟩ : ptr).set_length m3 out.length
        = .ok ⟨some m.next_raw, 0, out.length⟩ := by
      unfold ptr.set_length ptr.raw_length
      simp only [hm3i, raw.get_len]
      rw [write_bytes_length _ _ _ (by omega), if_pos (by omega)]
    simp only [hsl]
    by_cases h0 : out.length = 0
    · have hnil : out = [] := List.length_eq_zero.mp h0
      have hpm : D.push_back_move m3 ⟨some m.next_raw, 0, out.length⟩
          = (D, ⟨some m.next_raw, 0, out.length⟩, m3) := by
        unfold list.push_back_move
        rw [if_pos (by simpa [ptr.length] using h0)]
      rw [hpm]
      have hrel2 : (⟨some m.next_raw, 0, out.length⟩ : ptr).release m3
          = .ok (⟨none, 0, out.length⟩, m3.set_raw m.next_raw none) := by
        unfold ptr.release
        simp only [hm3i, a4, if_true]
      simp only [hrel2]
      refine ⟨_, _, rfl, ?_, (frame_bytes m _ E hE hfr4).1⟩
      rw [(frame_bytes m _ D hD hfr4).1, hnil, List.append_nil]
    · unfold list.push_back_move
      rw [if_neg (by simpa [ptr.length] using h0)]
      simp only [ptr.move_ctor, Mem.new_node, ptr.length]
      have hrel2 : ∀ mm : Mem, (⟨none, 0, 0⟩ : ptr).release mm = .ok (⟨none, 0, 0⟩, mm) :=
        fun _ => rfl
      simp only [hrel2]
      refine ⟨_, _, rfl, ?_,
        (frame_bytes m (Mem.mk m3.raws m3.next_raw m3.brk (m3.next_node + 1)) E hE
          (fun j hj => hfr3 j hj)).1⟩
      unfold list.bytes
      simp only []
      rw [nodes_bytes_append]
      have hb := (frame_bytes m _ D hD hfr3).1
      unfold list.bytes at hb
      have hb2 : ∀ ns, nodes_bytes (Mem.mk m3.raws m3.next_raw m3.brk (m3.next_node + 1)) ns
          = nodes_bytes m3 ns := fun ns => nodes_bytes_other _ _ ns (fun _ _ _ _ => rfl)
      rw [hb2, hb2, hb]
      congr 1
      simp only [nodes_bytes, List.append_nil, ptr.bytes, hm3i]
      exact write_bytes_at r0.m_data out 0 (Nat.zero_le _)

theorem views_live_intro (m : Mem) (ns : List ptr_node)
    (h : ∀ x ∈ ns, ∃ i r, x.m_raw = some i ∧ m.raws i = some r ∧
      x.m_off + x.m_len ≤ r.m_data.length ∧ r.m_data.length < U64 ∧ i < m.next_raw) :
    views_live m ns = true := by
  unfold views_live
  rw [List.all_eq_true]
  intro x hx
  obtain ⟨i, r, a, b, c, d, e⟩ := h x hx
  simp only [a, b, Bool.and_eq_true, decide_eq_true_eq]
  exact ⟨⟨c, d⟩, e⟩

theorem views_live_frame (m m1 : Mem) (ns : List ptr_node) (h : views_live m ns = true)
    (hfr : ∀ j, j < m.next_raw → m1.raws j = m.raws j) (hn : m.next_raw ≤ m1.next_raw) :
    views_live m1 ns = true := by
  apply views_live_intro
  intro x hx
  obtain ⟨i, r, a, b, c, d, e⟩ := views_live_spec m ns h x hx
  exact ⟨i, r, a, by rw [hfr i e]; exact b, c, d, by omega⟩
/-! ## `list::rebuild` and `list::c_str` next to other lists -/

theorem release_next_raw (m : Mem) (p : ptr) (q : ptr) (m1 : Mem)
    (h : p.release m = .ok (q, m1)) : m1.next_raw = m.next_raw := by
  unfold ptr.release at h
  cases hr : p.m_raw with
  | none =>
    simp only [hr] at h
    cases h
    rfl
  | some i =>
    simp only [hr] at h
    cases hm : m.raws i with
    | none =>
      simp only [hm] at h
      cases h
    | some r =>
      simp only [hm] at h
      split at h
      · cases h
        rfl
      · cases h
        rfl

theorem clear_and_dispose_next_raw : ∀ (ns : List ptr_node) (m m1 : Mem),
    clear_and_dispose m ns = .ok m1 → m1.next_raw = m.next_raw := by
  intro ns
  induction ns with
  | nil =>
    intro m m1 h
    unfold clear_and_dispose at h
    cases h
    rfl
  | cons n rest ih =>
    intro m m1 h
    unfold clear_and_dispose ptr_node.dispose at h
    cases hr : n.toptr.release m with
    | error e =>
      simp only [hr] at h
      cases h
    | ok v =>
      obtain ⟨q, m2⟩ := v
      simp only [hr] at h
      rw [ih m2 m1 h, release_next_raw m _ q m2 hr]

/-- Member `list::rebuild()` next to nodes `P` of other lists (and ptrs):
when the reference counts cover the nodes of the list and `P` together, the
call returns with the content in at most one node, on the region that the
heap hands out next, and the nodes `P` view live regions with the bytes
they had. -/
theorem rebuild_frame (m : Mem) (L : list) (P : List ptr_node)
    (hcov : covered m (P ++ L._buffers)) (hlive : views_live m L._buffers = true)
    (hPlt : ∀ n ∈ P, ∀ j, n.m_raw = some j → j < m.next_raw)
    (hlen : L._len = nodes_len L._buffers) (hU : L._len < U64) :
    ∃ L1 m1, L.rebuild m = .ok (L1, m1) ∧ L1.bytes m1 = L.bytes m ∧ L1._len = L._len ∧
      (0 < L._len → ∃ nb, L1._buffers = [nb] ∧ nb.toptr = ⟨some m.next_raw, 0, L._len⟩ ∧
        node_in m1 nb.toptr ∧ m1.next_raw = m.next_raw + 1) ∧
      (L._len = 0 → L1._buffers = []) ∧
      (∀ n ∈ P, node_in m1 n.toptr ∧ n.toptr.bytes m1 = n.toptr.bytes m) ∧
      m.next_raw ≤ m1.next_raw := by
  have hin : ∀ n ∈ L._buffers, node_in m n.toptr :=
    fun n hn => hcov.1 n (List.mem_append_right _ hn)
  have hinP : ∀ n ∈ P, node_in m n.toptr :=
    fun n hn => hcov.1 n (List.mem_append_left _ hn)
  have hbl : (nodes_bytes m L._buffers).length = L._len := by
    rw [nodes_bytes_length m _ hin, hlen]
  unfold list.rebuild
  by_cases h0 : L._len = 0
  · rw [if_pos h0]
    obtain ⟨m1, e1, e2, e3⟩ := clear_and_dispose_covered P L._buffers m hcov
    have hnr := clear_and_dispose_next_raw _ _ _ e1
    simp only [e1]
    have e3' : ∀ n ∈ P, node_in m1 n.toptr := fun n hn => e3.1 n hn
    refine ⟨_, m1, rfl, ?_, rfl, fun h => absurd h0 (by omega), fun _ => rfl,
      fun n hn => ⟨e3' n hn, ptr_bytes_data_from m m1 _ e2 (e3' n hn)⟩, by omega⟩
    show nodes_bytes m1 [] = nodes_bytes m L._buffers
    have hnil : nodes_bytes m L._buffers = [] := List.length_eq_zero.mp (by rw [hbl]; exact h0)
    rw [hnil]
    rfl
  · rw [if_neg h0]
    obtain ⟨i, m1, ha1, ha2⟩ : ∃ i m1,
        (if L._len % SPEC_PAGE_SIZE = 0 then create_page_aligned m L._len
          else create m L._len) = .ok (i, m1) ∧ allocated m L._len i m1 := by
      split
      · exact (create_ok m L._len).2
      · exact (create_ok m L._len).1
    simp only [ha1]
    obtain ⟨hi, hnr, hnn, hoth, r0, hr0, hd0, hn0, _⟩ := ha2
    subst hi
    have hnode : ∀ n ∈ L._buffers, n.m_raw ≠ some m.next_raw := by
      intro n hn h
      obtain ⟨k, _, a, _, _, _, e⟩ := views_live_spec m L._buffers hlive n hn
      rw [a] at h
      cases h
      omega
    have hnodeP : ∀ n ∈ P, n.m_raw ≠ some m.next_raw := by
      intro n hn h
      have := hPlt n hn _ h
      omega
    have hT : r0.m_data.length = L._len := by rw [hd0, List.length_replicate]
    have hcr : ptr_node.create_raw m1 m.next_raw = .ok
        (⟨⟨some m.next_raw, 0, L._len⟩, m1.next_node⟩,
         ⟨(m1.set_raw m.next_raw (some { r0 with nref := 1 })).raws, m1.next_raw, m1.brk,
          m1.next_node + 1⟩) := by
      unfold ptr_node.create_raw ptr.of_raw Mem.new_node
      simp only [hr0, raw.get_len, hT]
      rfl
    simp only [hcr]
    obtain ⟨m2, hm2⟩ : ∃ m2 : Mem, m2 =
        ⟨(m1.set_raw m.next_raw (some { r0 with nref := 1 })).raws, m1.next_raw, m1.brk,
          m1.next_node + 1⟩ := ⟨_, rfl⟩
    rw [← hm2]
    have hm2n : m2.next_raw = m.next_raw + 1 := by
      rw [hm2]
      exact hnr
    have hm2i : m2.raws m.next_raw = some { r0 with nref := 1 } := by
      rw [hm2]
      simp [Mem.set_raw]
    have hm2o : ∀ j, j ≠ m.next_raw → m2.raws j = m.raws j := by
      intro j hj
      rw [hm2]
      simp only [Mem.set_raw, hj, if_false]
      exact hoth j hj
    have hin2 : ∀ n ∈ L._buffers, node_in m2 n.toptr ∧ n.m_raw ≠ some m.next_raw := by
      intro n hn
      obtain ⟨k, rk, a, b, c, d⟩ := hin n hn
      have hk : k ≠ m.next_raw := by
        intro h
        apply hnode n hn
        rw [a, h]
      exact ⟨⟨k, rk, a, by rw [hm2o k hk]; exact b, c, d⟩, hnode n hn⟩
    obtain ⟨D, e1, e2, _, e4⟩ := rebuild_copy_spec m.next_raw L._len hU L._buffers m2 0
      { r0 with nref := 1 } hm2i hT hin2 (by omega)
    have hb2 : nodes_bytes m2 L._buffers = nodes_bytes m L._buffers := by
      apply nodes_bytes_frame
      intro x hx
      apply ptr_bytes_other
      intro j hj
      have hji : j ≠ m.next_raw := by
        intro h
        apply hnode x hx
        rw [hj, h]
      exact hm2o j hji
    obtain ⟨m3, hm3⟩ : ∃ m3 : Mem, m3 =
        m2.set_raw m.next_raw (some { { r0 with nref := 1 } with m_data := D }) := ⟨_, rfl⟩
    rw [← hm3] at e1
    have hm3n : m3.next_raw = m.next_raw + 1 := by
      rw [hm3]
      exact hm2n
    have hm3o : ∀ j, j ≠ m.next_raw → m3.raws j = m.raws j := by
      intro j hj
      rw [hm3, set_raw_other _ _ _ _ hj]
      exact hm2o j hj
    have hcov3 : covered m3
        ((P ++ [⟨⟨some m.next_raw, 0, L._len⟩, m1.next_node⟩]) ++ L._buffers) := by
      constructor
      · intro n hn
        rcases List.mem_append.mp hn with h | h
        · rcases List.mem_append.mp h with h | h
          · obtain ⟨k, rk, a, b, c, d⟩ := hinP n h
            have hk : k ≠ m.next_raw := by
              intro h'
              apply hnodeP n h
              rw [a, h']
            exact ⟨k, rk, a, by rw [hm3o k hk]; exact b, c, d⟩
          · simp only [List.mem_singleton] at h
            subst h
            exact ⟨m.next_raw, _, rfl, by rw [hm3]; exact set_raw_same _ _ _,
              by simp only [e2]; omega, by simp only [e2]; exact hU⟩
        · obtain ⟨k, rk, a, b, c, d⟩ := (hin2 n h).1
          have hk : k ≠ m.next_raw := by
            intro h'
            apply hnode n h
            rw [a, h']
          exact ⟨k, rk, a, by rw [hm3, set_raw_other _ _ _ _ hk]; exact b, c, d⟩
      · intro j r hj
        rw [refs_append, refs_append, refs_cons, refs_nil]
        by_cases hji : j = m.next_raw
        · subst hji
          rw [hm3, set_raw_same] at hj
          cases hj
          rw [refs_zero_of_not_mem L._buffers _ hnode, refs_zero_of_not_mem P _ hnodeP]
          simp
        · rw [hm3o j hji] at hj
          have := hcov.2 j r hj
          rw [refs_append] at this
          have hne : ¬ (some m.next_raw = some j) := by
            intro h
            cases h
            exact hji rfl
          simp only [hne, if_false]
          omega
    obtain ⟨m4, f1, f2, f3⟩ := clear_and_dispose_covered
      (P ++ [⟨⟨some m.next_raw, 0, L._len⟩, m1.next_node⟩]) L._buffers m3 hcov3
    have hm4n := clear_and_dispose_next_raw _ _ _ f1
    obtain ⟨k, r4, g1, g2, g3, g4⟩ := f3.1 ⟨⟨some m.next_raw, 0, L._len⟩, m1.next_node⟩
      (List.mem_append_right _ (List.mem_singleton.mpr rfl))
    simp only [Option.some.injEq] at g1
    subst g1
    obtain ⟨r3, g5, g6⟩ := f2 _ r4 g2
    rw [hm3, set_raw_same] at g5
    cases g5
    simp only [] at g6
    unfold list.rebuild_into
    simp only [e1, f1, ptr.length]
    rw [if_pos h0]
    have hinv : list.invalidate_crc m4
        { L with _buffers := [⟨⟨some m.next_raw, 0, L._len⟩, m1.next_node⟩],
                 _tail_pnode_cache := some m1.next_node, _num := 1 }
        = .ok (m4.set_raw m.next_raw (some r4.invalidate_crc)) := by
      unfold list.invalidate_crc invalidate_crc_nodes Mem.invalidate_crc
      simp only [g2]
      rfl
    simp only [hinv]
    have hP4 : ∀ n ∈ P, node_in m4 n.toptr := fun n hn => f3.1 n (List.mem_append_left _ hn)
    have hP5 : ∀ n ∈ P, node_in (m4.set_raw m.next_raw (some r4.invalidate_crc)) n.toptr := by
      intro n hn
      obtain ⟨k, rk, a, b, c, d⟩ := hP4 n hn
      have hk : k ≠ m.next_raw := by
        intro h'
        apply hnodeP n hn
        rw [a, h']
      exact ⟨k, rk, a, by rw [set_raw_other _ _ _ _ hk]; exact b, c, d⟩
    have hbP : ∀ n ∈ P, n.toptr.bytes (m4.set_raw m.next_raw (some r4.invalidate_crc))
        = n.toptr.bytes m := by
      intro n hn
      have hji : ∀ j, n.m_raw = some j → j ≠ m.next_raw := by
        intro j hj h
        apply hnodeP n hn
        rw [hj, h]
      have s1 : n.toptr.bytes (m4.set_raw m.next_raw (some r4.invalidate_crc))
          = n.toptr.bytes m4 :=
        ptr_bytes_other _ _ _ (fun j hj => set_raw_other _ _ _ _ (hji j hj))
      have s2 : n.toptr.bytes m4 = n.toptr.bytes m3 :=
        ptr_bytes_data_from m3 m4 _ f2 (hP4 n hn)
      have s3 : n.toptr.bytes m3 = n.toptr.bytes m :=
        ptr_bytes_other _ _ _ (fun j hj => hm3o j (hji j hj))
      rw [s1, s2, s3]
    refine ⟨_, _, rfl, ?_, rfl, fun _ => ⟨_, rfl, rfl, ?_, ?_⟩,
      fun h => absurd h h0, fun n hn => ⟨hP5 n hn, hbP n hn⟩, ?_⟩
    · show nodes_bytes _ [_] = nodes_bytes m L._buffers
      simp only [nodes_bytes, List.append_nil, ptr.bytes, set_raw_same, raw.invalidate_crc,
        List.drop_zero, g6]
      rw [← hb2, ← e4, List.drop_zero, hlen]
    · exact ⟨m.next_raw, _, rfl, set_raw_same _ _ _,
        by simp only [raw.invalidate_crc, g6, e2]; omega,
        by simp only [raw.invalidate_crc, g6, e2]; exact hU⟩
    · show m4.next_raw = m.next_raw + 1
      omega
    · show m.next_raw ≤ m4.next_raw
      omega

/-- Member `list::c_str()` next to nodes `P` of other lists (and ptrs), on
a list that has at most one node or `length() > 0`: the call returns, a
read of `length()` bytes at the pointer sees the content, the list holds
its content in at most one node, whose region is one of the list before or
the region handed out next, and the nodes `P` view live regions with the
bytes they had. -/
theorem c_str_frame (m : Mem) (L : list) (P : List ptr_node)
    (hcov : covered m (P ++ L._buffers)) (hlive : views_live m L._buffers = true)
    (hPlt : ∀ n ∈ P, ∀ j, n.m_raw = some j → j < m.next_raw)
    (hlen : L._len = nodes_len L._buffers) (hU : L._len < U64)
    (hok : L._buffers.length ≤ 1 ∨ 0 < L._len) :
    ∃ a L1 m1, L.c_str m = .ok (a, L1, m1) ∧
      L1.c_str_bytes m1 L1.length = .ok (L.bytes m) ∧ L1.bytes m1 = L.bytes m ∧
      L1._len = L._len ∧ L1._buffers.length ≤ 1 ∧ L1._len = nodes_len L1._buffers ∧
      (∀ n ∈ L1._buffers, node_in m1 n.toptr ∧
        ∀ j, n.m_raw = some j → j < m1.next_raw ∧
          ((∃ n0 ∈ L._buffers, n0.m_raw = some j) ∨ j = m.next_raw)) ∧
      (∀ n ∈ P, node_in m1 n.toptr ∧ n.toptr.bytes m1 = n.toptr.bytes m) ∧
      m.next_raw ≤ m1.next_raw := by
  have hin : ∀ n ∈ L._buffers, node_in m n.toptr :=
    fun n hn => hcov.1 n (List.mem_append_right _ hn)
  have hinP : ∀ n ∈ P, node_in m n.toptr :=
    fun n hn => hcov.1 n (List.mem_append_left _ hn)
  by_cases h1 : L._buffers.length ≤ 1
  · obtain ⟨a, c1, c2⟩ := c_str_one_node m L h1 hin hlen
    refine ⟨a, L, m, c1, c2, rfl, rfl, h1, hlen, ?_, fun n hn => ⟨hinP n hn, rfl⟩,
      Nat.le_refl _⟩
    intro n hn
    refine ⟨hin n hn, fun j hj => ⟨?_, Or.inl ⟨n, hn, hj⟩⟩⟩
    obtain ⟨k, _, a1, _, _, _, e⟩ := views_live_spec m L._buffers hlive n hn
    rw [a1] at hj
    cases hj
    exact e
  · have hpos : 0 < L._len := by
      rcases hok with h | h
      · exact absurd h h1
      · exact h
    obtain ⟨L1, m1, e1, e2, e3, e4, _, e6, e7⟩ := rebuild_frame m L P hcov hlive hPlt hlen hU
    obtain ⟨nb, f1, f2, f3, f4⟩ := e4 hpos
    have hone : L1._buffers.length ≤ 1 := by rw [f1]; simp
    have hlen1 : L1._len = nodes_len L1._buffers := by
      rw [f1, e3]
      simp only [nodes_len]
      have : nb.m_len = L._len := by
        have := congrArg ptr.m_len f2
        exact this
      omega
    have hin1 : ∀ n ∈ L1._buffers, node_in m1 n.toptr := by
      intro n hn
      rw [f1] at hn
      simp only [List.mem_singleton] at hn
      subst hn
      exact f3
    obtain ⟨a, c1, c2⟩ := c_str_one_node m1 L1 hone hin1 hlen1
    have hne : L._buffers.isEmpty = false := by
      cases hb : L._buffers with
      | nil =>
        rw [hb] at h1
        simp at h1
      | cons x xs => rfl
    refine ⟨a, L1, m1, ?_, by rw [c2, e2], e2, e3, hone, hlen1, ?_, e6, e7⟩
    · unfold list.c_str
      rw [hne]
      simp only [Bool.false_eq_true, if_false]
      rw [if_pos (by omega)]
      simp only [e1]
      unfold list.c_str at c1
      have hne1 : L1._buffers.isEmpty = false := by rw [f1]; rfl
      rw [hne1] at c1
      simp only [Bool.false_eq_true, if_false] at c1
      rw [if_neg (by omega)] at c1
      exact c1
    · intro n hn
      refine ⟨hin1 n hn, ?_⟩
      intro j hj
      rw [f1] at hn
      simp only [List.mem_singleton] at hn
      subst hn
      have : n.toptr.m_raw = some m.next_raw := by rw [f2]
      rw [this] at hj
      cases hj
      exact ⟨by omega, Or.inr rfl⟩

/-- A new region with one reference, viewed by one more node, keeps the
reference counts covering the nodes. -/
theorem covered_with_buffer (m m1 : Mem) (A B : List ptr_node) (r0 : raw) (cap : Nat)
    (hcov : covered m (A ++ B))
    (hlt : ∀ n ∈ A ++ B, ∀ j, n.m_raw = some j → j < m.next_raw)
    (a2 : m1.raws m.next_raw = some r0) (hl : r0.m_data.length = cap) (hcU : cap < U64)
    (a4 : r0.nref = 1) (a5 : ∀ j, j ≠ m.next_raw → m1.raws j = m.raws j) :
    covered m1 ((A ++ [⟨⟨some m.next_raw, 0, cap⟩, 0⟩]) ++ B) := by
  have hne : ∀ n ∈ A ++ B, n.m_raw ≠ some m.next_raw := by
    intro n hn h
    have := hlt n hn _ h
    omega
  have hold : ∀ n ∈ A ++ B, node_in m1 n.toptr := by
    intro n hn
    obtain ⟨k, rk, a, b, c, d⟩ := hcov.1 n hn
    have hk : k ≠ m.next_raw := by
      intro h'
      apply hne n hn
      rw [a, h']
    exact ⟨k, rk, a, by rw [a5 k hk]; exact b, c, d⟩
  constructor
  · intro n hn
    rcases List.mem_append.mp hn with h | h
    · rcases List.mem_append.mp h with h | h
      · exact hold n (List.mem_append_left _ h)
      · simp only [List.mem_singleton] at h
        subst h
        exact ⟨m.next_raw, r0, rfl, a2, by simp only []; omega, by omega⟩
    · exact hold n (List.mem_append_right _ h)
  · intro j r hj
    rw [refs_append, refs_append, refs_cons, refs_nil]
    by_cases hji : j = m.next_raw
    · subst hji
      rw [a2] at hj
      cases hj
      rw [refs_zero_of_not_mem A _ (fun n hn => hne n (List.mem_append_left _ hn)),
        refs_zero_of_not_mem B _ (fun n hn => hne n (List.mem_append_right _ hn))]
      simp [a4]
    · rw [a5 j hji] at hj
      have := hcov.2 j r hj
      rw [refs_append] at this
      have hne2 : ¬ (some m.next_raw = some j) := by
        intro h
        cases h
        exact hji rfl
      simp only [hne2, if_false]
      omega

/-- The first statements of `encode_base64` and `decode_base64`: the
buffer `bptr(cap)` is allocated and `c_str()` is called on the list `B`,
next to the nodes `A` of another list.  Afterwards the buffer is live, `B`
holds its content in at most one node, and in every heap that differs from
the one reached in the region of the buffer only, the nodes `A` and the
list `B` show the bytes they had. -/
theorem base64_setup (m : Mem) (A : List ptr_node) (B : list) (cap : Nat)
    (hok : chain_ok m (A ++ B._buffers) = true)
    (hlive : views_live m (A ++ B._buffers) = true)
    (hBl : B._len = nodes_len B._buffers) (hBU : B._len < U64)
    (hBok : B._buffers.length ≤ 1 ∨ 0 < B._len) (hcU : cap < U64) :
    ∃ m1 a B1 m2 rb,
      ptr.of_len m cap = .ok (⟨some m.next_raw, 0, cap⟩, m1) ∧
      (∃ ad, (⟨some m.next_raw, 0, cap⟩ : ptr).c_str_addr m1 = .ok ad) ∧
      B.c_str m1 = .ok (a, B1, m2) ∧ B1.c_str_bytes m2 B1.length = .ok (B.bytes m) ∧
      m2.raws m.next_raw = some rb ∧ cap ≤ rb.m_data.length ∧ rb.m_data.length < U64 ∧
      m.next_raw < m2.next_raw ∧ B1._buffers.length ≤ 1 ∧
      B1._len = nodes_len B1._buffers ∧ B1._len = B._len ∧
      ∀ m3 : Mem, (∀ j, j ≠ m.next_raw → m3.raws j = m2.raws j) →
        (∀ n ∈ A, node_in m3 n.toptr ∧ n.toptr.bytes m3 = n.toptr.bytes m ∧
          ∀ j, n.m_raw = some j → j < m.next_raw) ∧
        (∀ n ∈ B1._buffers, node_in m3 n.toptr ∧
          ∀ j, n.m_raw = some j → j < m2.next_raw ∧ j ≠ m.next_raw) ∧
        nodes_bytes m3 B1._buffers = B.bytes m := by
  have hcov := chain_ok_covered m _ hok
  have hsp := views_live_spec m _ hlive
  have hlt : ∀ n ∈ A ++ B._buffers, ∀ j, n.m_raw = some j → j < m.next_raw := by
    intro n hn j hj
    obtain ⟨k, _, a1, _, _, _, e⟩ := hsp n hn
    rw [a1] at hj
    cases hj
    exact e
  have hliveB : views_live m B._buffers = true :=
    views_live_intro m _ (fun x hx => hsp x (List.mem_append_right _ hx))
  obtain ⟨m1, r0, a1, a2, a3, a4, a5, a6⟩ := of_len_spec m cap
  have hr0 : r0.m_data.length = cap := by rw [a3, List.length_replicate]
  have hfr1 : ∀ j, j < m.next_raw → m1.raws j = m.raws j := fun j hj => a5 j (by omega)
  have hcov1 := covered_with_buffer m m1 A B._buffers r0 cap hcov hlt a2 hr0 hcU a4 a5
  have hliveB1 := views_live_frame m m1 _ hliveB hfr1 (by omega)
  have hPlt : ∀ n ∈ A ++ [(⟨⟨some m.next_raw, 0, cap⟩, 0⟩ : ptr_node)],
      ∀ j, n.m_raw = some j → j < m1.next_raw := by
    intro n hn j hj
    rcases List.mem_append.mp hn with h | h
    · have := hlt n (List.mem_append_left _ h) j hj
      omega
    · simp only [List.mem_singleton] at h
      subst h
      simp only [Option.some.injEq] at hj
      omega
  obtain ⟨a, B1, m2, c1, c2, c3, c4, c5, c6, c7, c8, c9⟩ :=
    c_str_frame m1 B _ hcov1 hliveB1 hPlt hBl hBU hBok
  obtain ⟨eb1, _⟩ := frame_bytes m m1 B hliveB hfr1
  rw [eb1] at c2 c3
  obtain ⟨⟨k, rb, g1, g2, g3, g4⟩, _⟩ := c8 ⟨⟨some m.next_raw, 0, cap⟩, 0⟩
    (List.mem_append_right _ (List.mem_singleton.mpr rfl))
  simp only [Option.some.injEq] at g1
  subst g1
  simp only [Nat.zero_add] at g3
  have hcs : (⟨some m.next_raw, 0, cap⟩ : ptr).c_str_addr m1 = .ok (r0.data_addr + 0) := by
    simp only [ptr.c_str_addr, a2]
  refine ⟨m1, a, B1, m2, rb, a1, ⟨_, hcs⟩, c1, c2, g2, g3, g4,
    by omega, c5, c6, c4, ?_⟩
  intro m3 hm3
  have hB1 : ∀ n ∈ B1._buffers, node_in m3 n.toptr ∧
      ∀ j, n.m_raw = some j → j < m2.next_raw ∧ j ≠ m.next_raw := by
    intro n hn
    obtain ⟨d1, d2⟩ := c7 n hn
    have hj : ∀ j, n.m_raw = some j → j < m2.next_raw ∧ j ≠ m.next_raw := by
      intro j hj
      obtain ⟨d3, d4⟩ := d2 j hj
      refine ⟨d3, ?_⟩
      rcases d4 with ⟨n0, hn0, hj0⟩ | d4
      · have := hlt n0 (List.mem_append_right _ hn0) j hj0
        omega
      · omega
    obtain ⟨k, rk, e1, e2, e3, e4⟩ := d1
    exact ⟨⟨k, rk, e1, by rw [hm3 k (hj k e1).2]; exact e2, e3, e4⟩, hj⟩
  refine ⟨?_, hB1, ?_⟩
  · intro n hn
    obtain ⟨d1, d2⟩ := c8 n (List.mem_append_left _ hn)
    have hj : ∀ j, n.m_raw = some j → j < m.next_raw :=
      fun j hj => hlt n (List.mem_append_left _ hn) j hj
    obtain ⟨k, rk, e1, e2, e3, e4⟩ := d1
    have hk : k ≠ m.next_raw := by
      have := hj k e1
      omega
    refine ⟨⟨k, rk, e1, by rw [hm3 k hk]; exact e2, e3, e4⟩, ?_, hj⟩
    rw [ptr_bytes_other m2 m3 _ (fun j hj' => hm3 j (by have := hj j hj'; omega)), d2]
    exact ptr_bytes_other m m1 _ (fun j hj' => hfr1 j (hj j hj'))
  · have : nodes_bytes m3 B1._buffers = nodes_bytes m2 B1._buffers :=
      nodes_bytes_other m2 m3 _ (fun n hn j hj => hm3 j ((hB1 n hn).2 j hj).2)
    rw [this]
    exact c3

theorem release_at (m : Mem) (i o l : Nat) (r : raw) (h : m.raws i = some r) :
    ∃ q v, (⟨some i, o, l⟩ : ptr).release m = .ok (q, m.set_raw i v) := by
  unfold ptr.release
  simp only [h]
  split
  · exact ⟨_, _, rfl⟩
  · exact ⟨_, _, rfl⟩

/-- Member `list::decode_base64` on a well-formed destination `D` and a
well-formed encoded list `E` that has at most one node or is not empty, the
reference counts covering the nodes of both: with `r` the result of
`spec_unarmor` on the content of `E` and a destination of
`4 + length() * 3 / 4` bytes, a negative value ends in `malformed_input`
with the destination as it was, and a result `(x, |x|)` appends `x` to the
destination; the encoded list keeps its content. -/
theorem decode_base64_general (m : Mem) (D E : list)
    (hok : chain_ok m (D._buffers ++ E._buffers) = true)
    (hlive : views_live m (D._buffers ++ E._buffers) = true)
    (hDl : D._len = nodes_len D._buffers) (hDU : D._len < U64)
    (hEl : E._len = nodes_len E._buffers) (hEok : E._buffers.length ≤ 1 ∨ 0 < E._len)
    (hEU : E._len * 3 < U64) :
    ((spec_unarmor (4 + E._len * 3 / 4) (E.bytes m)).2 < 0 →
      ∃ E1 m1, D.decode_base64 m E = .thrown .malformed_input (D, E1, m1) ∧
        D.bytes m1 = D.bytes m ∧ E1.bytes m1 = E.bytes m) ∧
    (∀ x : List Nat, spec_unarmor (4 + E._len * 3 / 4) (E.bytes m) = (x, (x.length : Int)) →
      ∃ D1 E1 m1, D.decode_base64 m E = .returned (D1, E1, m1) ∧
        D1.bytes m1 = D.bytes m ++ x ∧ E1.bytes m1 = E.bytes m) := by
  obtain ⟨cap, hcap⟩ : ∃ cap, cap = 4 + E._len * 3 / 4 := ⟨_, rfl⟩
  rw [← hcap]
  have hcU : cap < U64 := by simp only [U64_val] at *; omega
  have hc1 : add64 4 (E.length * 3 % U64 / 4) = cap := by
    unfold list.length
    rw [Nat.mod_eq_of_lt hEU, add64_small _ _ (by simp only [U64_val] at *; omega), hcap]
  obtain ⟨m1, a, E1, m2, rb, s1, ⟨ad, s2⟩, s3, s4, s5, s6, s7, s8, s9, s10, s11, sfr⟩ :=
    base64_setup m D._buffers E cap hok hlive hEl (by omega) hEok hcU
  obtain ⟨out, hout⟩ : ∃ out, out = (spec_unarmor cap (E.bytes m)).1 := ⟨_, rfl⟩
  have hol : out.length ≤ cap := by
    rw [hout]
    exact unarmor_out_le cap _ _ [] 0 (Nat.le_refl _) (by simp)
  obtain ⟨m3, hm3⟩ : ∃ m3, m3 = m2.set_raw m.next_raw
      (some { rb with m_data := write_bytes rb.m_data 0 out }) := ⟨_, rfl⟩
  have hstore : (⟨some m.next_raw, 0, cap⟩ : ptr).store m2 out = .ok m3 := by
    unfold ptr.store
    simp only [s5]
    rw [if_neg (by omega), hm3]
  have hm3o : ∀ j, j ≠ m.next_raw → m3.raws j = m2.raws j := by
    intro j hj
    rw [hm3, set_raw_other _ _ _ _ hj]
  have hm3i : m3.raws m.next_raw = some { rb with m_data := write_bytes rb.m_data 0 out } := by
    rw [hm3, set_raw_same]
  have hunf : D.decode_base64 m E =
      (if (spec_unarmor cap (E.bytes m)).2 < 0 then
        match D.hexdump m3 with
        | .error e => .aborted e
        | .ok _ =>
          match (⟨some m.next_raw, 0, cap⟩ : ptr).release m3 with
          | .error e => .aborted e
          | .ok (_, m4) => .thrown .malformed_input (D, E1, m4)
      else if (spec_unarmor cap (E.bytes m)).2 ≤ (cap : Int) then
        match (⟨some m.next_raw, 0, cap⟩ : ptr).set_length m3
            (spec_unarmor cap (E.bytes m)).2.toNat with
        | .error e => .aborted e
        | .ok bptr1 =>
          match (D.push_back_move m3 bptr1).2.1.release (D.push_back_move m3 bptr1).2.2 with
          | .error e => .aborted e
          | .ok (_, m5) => .returned ((D.push_back_move m3 bptr1).1, E1, m5)
      else .aborted .assert_failed) := by
    unfold list.decode_base64
    rw [hc1]
    simp only [s1, s2, s3, s4, ptr.length, ← hout, hstore]
  rw [hunf]
  obtain ⟨q, v, hrel⟩ := release_at m3 m.next_raw 0 cap _ hm3i
  have hfr4 : ∀ j, j ≠ m.next_raw → (m3.set_raw m.next_raw v).raws j = m2.raws j := by
    intro j hj
    rw [set_raw_other _ _ _ _ hj]
    exact hm3o j hj
  have hDb : ∀ m5 : Mem, (∀ j, j ≠ m.next_raw → m5.raws j = m2.raws j) →
      nodes_bytes m5 D._buffers = D.bytes m := by
    intro m5 h5
    exact nodes_bytes_frame m m5 _ (fun n hn => ((sfr m5 h5).1 n hn).2.1)
  constructor
  · intro hneg
    rw [if_pos hneg]
    have din3 : ∀ n ∈ D._buffers, node_in m3 n.toptr := fun n hn => ((sfr m3 hm3o).1 n hn).1
    rw [hexdump_ok m3 D din3 hDl hDU]
    simp only [hrel]
    exact ⟨E1, _, rfl, hDb _ hfr4, (sfr _ hfr4).2.2⟩
  · intro x hx
    have hx1 : out = x := by rw [hout, hx]
    rw [hx]
    simp only [Int.toNat_ofNat]
    rw [if_neg (by omega), if_pos (by subst hx1; exact_mod_cast hol)]
    subst hx1
    have hsl : (⟨some m.next_raw, 0, cap⟩ : ptr).set_length m3 out.length
        = .ok ⟨some m.next_raw, 0, out.length⟩ := by
      unfold ptr.set_length ptr.raw_length
      simp only [hm3i, raw.get_len]
      rw [write_bytes_length _ _ _ (by omega), if_pos (by omega)]
    simp only [hsl]
    by_cases h0 : out.length = 0
    · have hnil : out = [] := List.length_eq_zero.mp h0
      have hpm : D.push_back_move m3 ⟨some m.next_raw, 0, out.length⟩
          = (D, ⟨some m.next_raw, 0, out.length⟩, m3) := by
        unfold list.push_back_move
        rw [if_pos (by simpa [ptr.length] using h0)]
      rw [hpm]
      obtain ⟨q2, v2, hrel2⟩ := release_at m3 m.next_raw 0 out.length _ hm3i
      simp only [hrel2]
      have hfr5 : ∀ j, j ≠ m.next_raw → (m3.set_raw m.next_raw v2).raws j = m2.raws j := by
        intro j hj
        rw [set_raw_other _ _ _ _ hj]
        exact hm3o j hj
      refine ⟨_, E1, _, rfl, ?_, (sfr _ hfr5).2.2⟩
      show nodes_bytes _ D._buffers = _
      rw [hDb _ hfr5, hnil, List.append_nil]
    · unfold list.push_back_move
      rw [if_neg (by simpa [ptr.length] using h0)]
      simp only [ptr.move_ctor, Mem.new_node, ptr.length]
      have hrel2 : ∀ mm : Mem, (⟨none, 0, 0⟩ : ptr).release mm = .ok (⟨none, 0, 0⟩, mm) :=
        fun _ => rfl
      simp only [hrel2]
      have hfr5 : ∀ j, j ≠ m.next_raw →
          (Mem.mk m3.raws m3.next_raw m3.brk (m3.next_node + 1)).raws j = m2.raws j := hm3o
      refine ⟨_, E1, _, rfl, ?_, (sfr _ hfr5).2.2⟩
      unfold list.bytes
      simp only []
      rw [nodes_bytes_append, hDb _ hfr5]
      congr 1
      simp only [nodes_bytes, List.append_nil, ptr.bytes, hm3i]
      exact write_bytes_at rb.m_data out 0 (Nat.zero_le _)

/-- Member `list::encode_base64` with a fresh list as the argument, on a
well-formed list `L` of bytes that has at most one node or is not empty,
next to the nodes `A` of another list, the reference counts covering the
nodes of both: the call returns, the list keeps its content, the argument
holds the base64 text of the content in at most one node, and the nodes `A`
view live regions with the bytes they had. -/
theorem encode_base64_general (m : Mem) (L : list) (A : List ptr_node)
    (hok : chain_ok m (A ++ L._buffers) = true)
    (hlive : views_live m (A ++ L._buffers) = true)
    (hLl : L._len = nodes_len L._buffers) (hLok : L._buffers.length ≤ 1 ∨ 0 < L._len)
    (hLU : L._len * 4 + 8 < U64) (hbytes : ∀ b ∈ L.bytes m, b < 256) :
    ∃ L1 W m1, L.encode_base64 m list.mk_empty = .ok (L1, W, m1) ∧
      W.bytes m1 = base64_text (L.bytes m) ∧ L1.bytes m1 = L.bytes m ∧
      views_live m1 W._buffers = true ∧ W._len = nodes_len W._buffers ∧
      W._buffers.length ≤ 1 ∧ W._len = (base64_text (L.bytes m)).length ∧
      views_live m1 A = true ∧ nodes_bytes m1 A = nodes_bytes m A := by
  obtain ⟨cap, hcap⟩ : ∃ cap, cap = L._len * 4 / 3 + 3 := ⟨_, rfl⟩
  have hcU : cap < U64 := by simp only [U64_val] at *; omega
  have hc1 : add64 (L.length * 4 % U64 / 3) 3 = cap := by
    unfold list.length
    rw [Nat.mod_eq_of_lt (by omega), add64_small _ _ (by simp only [U64_val] at *; omega), hcap]
  obtain ⟨m1, a, L1, m2, rb, s1, ⟨ad, s2⟩, s3, s4, s5, s6, s7, s8, s9, s10, s11, sfr⟩ :=
    base64_setup m A L cap hok hlive hLl (by omega) hLok hcU
  have hinL : ∀ n ∈ L._buffers, node_in m n.toptr :=
    fun n hn => (chain_ok_covered m _ hok).1 n (List.mem_append_right _ hn)
  obtain ⟨T, hT⟩ : ∃ T, T = base64_text (L.bytes m) := ⟨_, rfl⟩
  have hxl : (L.bytes m).length = L._len := by
    rw [hLl]
    exact nodes_bytes_length m _ hinL
  have hTl : T.length = 4 * ((L._len + 2) / 3) := by rw [hT, base64_text_length, hxl]
  have hTc : T.length ≤ cap := by omega
  have hTU : T.length < U64 := by omega
  have harm : spec_armor cap (L.bytes m) = (T, T.length) := by
    unfold spec_armor spec_armor_line_break
    rw [armor_loop_spec cap (L.bytes m) hbytes [] 0 0 (by rw [← hT]; simpa using hTc)
      (by rw [← hT]; simp only [U64_val] at *; omega), ← hT]
    simp
  obtain ⟨m3, hm3⟩ : ∃ m3, m3 = m2.set_raw m.next_raw
      (some { rb with m_data := write_bytes rb.m_data 0 T }) := ⟨_, rfl⟩
  have hstore : (⟨some m.next_raw, 0, cap⟩ : ptr).store m2 T = .ok m3 := by
    unfold ptr.store
    simp only [s5]
    rw [if_neg (by omega), hm3]
  have hm3o : ∀ j, j ≠ m.next_raw → m3.raws j = m2.raws j := by
    intro j hj
    rw [hm3, set_raw_other _ _ _ _ hj]
  have hm3i : m3.raws m.next_raw = some { rb with m_data := write_bytes rb.m_data 0 T } := by
    rw [hm3, set_raw_same]
  have hm3n : m3.next_raw = m2.next_raw := by rw [hm3]; rfl
  have hsl : (⟨some m.next_raw, 0, cap⟩ : ptr).set_length m3 T.length
      = .ok ⟨some m.next_raw, 0, T.length⟩ := by
    unfold ptr.set_length ptr.raw_length
    simp only [hm3i, raw.get_len]
    rw [write_bytes_length _ _ _ (by omega), if_pos (by omega)]
  have hunf : L.encode_base64 m list.mk_empty =
      (match (list.mk_empty.push_back_move m3 ⟨some m.next_raw, 0, T.length⟩).2.1.release
          (list.mk_empty.push_back_move m3 ⟨some m.next_raw, 0, T.length⟩).2.2 with
        | .error e => .error e
        | .ok (_, m5) =>
          .ok (L1, (list.mk_empty.push_back_move m3 ⟨some m.next_raw, 0, T.length⟩).1, m5)) := by
    unfold list.encode_base64
    rw [hc1]
    simp only [s1, s2, s3, s4, ptr.length, harm, hstore, hsl]
  rw [hunf, ← hT]
  have hA : ∀ m5 : Mem, (∀ j, j ≠ m.next_raw → m5.raws j = m2.raws j) →
      m2.next_raw ≤ m5.next_raw →
      views_live m5 A = true ∧ nodes_bytes m5 A = nodes_bytes m A := by
    intro m5 h5 hn5
    constructor
    · apply views_live_intro
      intro n hn
      obtain ⟨⟨k, rk, e1, e2, e3, e4⟩, _, e6⟩ := (sfr m5 h5).1 n hn
      exact ⟨k, rk, e1, e2, e3, e4, by have := e6 k e1; omega⟩
    · exact nodes_bytes_frame m m5 _ (fun n hn => ((sfr m5 h5).1 n hn).2.1)
  by_cases h0 : T.length = 0
  · have hnil : T = [] := List.length_eq_zero.mp h0
    have hpm : list.mk_empty.push_back_move m3 ⟨some m.next_raw, 0, T.length⟩
        = (list.mk_empty, ⟨some m.next_raw, 0, T.length⟩, m3) := by
      unfold list.push_back_move
      rw [if_pos (by simpa [ptr.length] using h0)]
    rw [hpm]
    obtain ⟨q2, v2, hrel2⟩ := release_at m3 m.next_raw 0 T.length _ hm3i
    simp only [hrel2]
    have hfr5 : ∀ j, j ≠ m.next_raw → (m3.set_raw m.next_raw v2).raws j = m2.raws j := by
      intro j hj
      rw [set_raw_other _ _ _ _ hj]
      exact hm3o j hj
    obtain ⟨hA1, hA2⟩ := hA _ hfr5 (by show m2.next_raw ≤ m3.next_raw; omega)
    refine ⟨L1, _, _, rfl, ?_, (sfr _ hfr5).2.2, rfl, rfl, by simp [list.mk_empty], ?_,
      hA1, hA2⟩
    · rw [hnil]
      rfl
    · rw [hnil]
      rfl
  · unfold list.push_back_move
    rw [if_neg (by simpa [ptr.length] using h0)]
    simp only [ptr.move_ctor, Mem.new_node, ptr.length]
    have hrel2 : ∀ mm : Mem, (⟨none, 0, 0⟩ : ptr).release mm = .ok (⟨none, 0, 0⟩, mm) :=
      fun _ => rfl
    simp only [hrel2]
    have hfr5 : ∀ j, j ≠ m.next_raw →
        (Mem.mk m3.raws m3.next_raw m3.brk (m3.next_node + 1)).raws j = m2.raws j := hm3o
    obtain ⟨hA1, hA2⟩ := hA (Mem.mk m3.raws m3.next_raw m3.brk (m3.next_node + 1)) hfr5
      (by show m2.next_raw ≤ m3.next_raw; omega)
    refine ⟨L1, _, _, rfl, ?_, (sfr _ hfr5).2.2, ?_, ?_, by simp [list.mk_empty], ?_,
      hA1, hA2⟩
    · unfold list.bytes
      simp only [list.mk_empty, List.nil_append, nodes_bytes, List.append_nil, ptr.bytes, hm3i]
      exact write_bytes_at rb.m_data T 0 (Nat.zero_le _)
    · apply views_live_intro
      intro x hx
      simp only [list.mk_empty, List.nil_append, List.mem_singleton] at hx
      subst hx
      refine ⟨m.next_raw, _, rfl, hm3i, ?_, ?_, ?_⟩
      · simp only []
        rw [write_bytes_length _ _ _ (by omega)]
        omega
      · simp only []
        rw [write_bytes_length _ _ _ (by omega)]
        exact s7
      · show m.next_raw < m3.next_raw
        omega
    · simp only [list.mk_empty, List.nil_append, nodes_len]
      rw [add64_small _ _ (by omega)]
      omega
    · simp only [list.mk_empty]
      rw [add64_small _ _ (by omega)]
      omega

/-- Member `list::encode_base64` on a list of two or more nodes that are
all empty: `c_str()` calls `rebuild()`, which disposes of every node since
`length() == 0`, and then takes `_buffers.front()` of the empty chain. -/
theorem encode_base64_of_empty_nodes (m : Mem) (L : list) (A : List ptr_node) (W : list)
    (hok : chain_ok m (A ++ L._buffers) = true)
    (hlive : views_live m (A ++ L._buffers) = true)
    (h0 : L._len = 0) (h2 : 2 ≤ L._buffers.length) :
    L.encode_base64 m W = .error .undefined := by
  have hcov := chain_ok_covered m _ hok
  have hsp := views_live_spec m _ hlive
  have hlt : ∀ n ∈ A ++ L._buffers, ∀ j, n.m_raw = some j → j < m.next_raw := by
    intro n hn j hj
    obtain ⟨k, _, a1, _, _, _, e⟩ := hsp n hn
    rw [a1] at hj
    cases hj
    exact e
  have hc1 : add64 (L.length * 4 % U64 / 3) 3 = 3 := by
    unfold list.length
    rw [h0]
    decide
  obtain ⟨m1, r0, a1, a2, a3, a4, a5, a6⟩ := of_len_spec m 3
  have hr0 : r0.m_data.length = 3 := by rw [a3, List.length_replicate]
  have hcov1 := covered_with_buffer m m1 A L._buffers r0 3 hcov hlt a2 hr0 (by decide) a4 a5
  obtain ⟨m2, e1, _, _⟩ := clear_and_dispose_covered _ L._buffers m1 hcov1
  have hcs : (⟨some m.next_raw, 0, 3⟩ : ptr).c_str_addr m1 = .ok (r0.data_addr + 0) := by
    simp only [ptr.c_str_addr, a2]
  have hne : L._buffers.isEmpty = false := by
    cases hb : L._buffers with
    | nil =>
      rw [hb] at h2
      simp at h2
    | cons n rest => rfl
  have hstr : L.c_str m1 = .error .undefined := by
    unfold list.c_str
    rw [hne]
    simp only [Bool.false_eq_true, if_false]
    rw [if_pos (by omega)]
    unfold list.rebuild
    rw [if_pos h0]
    simp only [e1, List.head?_nil]
  unfold list.encode_base64
  rw [hc1]
  simp only [a1, hcs, hstr]

/-- C28: for every byte string `x` (with `4 * |x| + 8` fitting a
`uint64_t`), `spec_armor` with room for the text writes the base64 text of
`x` and returns its length, and `spec_unarmor` with room for `x` applied to
that text writes exactly `x` and returns `|x|`; the buffers that
`encode_base64` and `decode_base64` allocate have that room.  For
well-formed lists `L` and `D` in one heap, `L` holding `x`: unless `L` holds
the empty string in two or more nodes, `L.encode_base64(W)` with a fresh
list `W` returns with `W` holding the base64 text and `L` still holding `x`,
and `D.decode_base64(W)` then returns with `x` appended to the content of
`D`; when `L` holds the empty string in two or more nodes,
`L.encode_base64(W)` is undefined, since its call of `c_str()` takes the
front of the chain that `rebuild()` has emptied. -/
theorem base64_round_trip (x : List Nat) (hx : ∀ b ∈ x, b < 256)
    (hU : x.length * 4 + 8 < U64) :
    (∀ cap, 4 * ((x.length + 2) / 3) ≤ cap →
      spec_armor cap x = (base64_text x, (base64_text x).length)) ∧
    (∀ cap, x.length ≤ cap → spec_unarmor cap (base64_text x) = (x, (x.length : Int))) ∧
    4 * ((x.length + 2) / 3) ≤ x.length * 4 / 3 + 3 ∧
    x.length ≤ 4 + (base64_text x).length * 3 / 4 ∧
    ∀ (m : Mem) (L D : list), chain_ok m (D._buffers ++ L._buffers) = true →
      views_live m (D._buffers ++ L._buffers) = true →
      L._len = nodes_len L._buffers → L.bytes m = x →
      D._len = nodes_len D._buffers → D._len < U64 →
      (¬ (x = [] ∧ 2 ≤ L._buffers.length) →
        ∃ L1 W m1, L.encode_base64 m list.mk_empty = .ok (L1, W, m1) ∧
          W.bytes m1 = base64_text x ∧ L1.bytes m1 = x ∧
          ∃ D1 m2, D.decode_base64 m1 W = .returned (D1, W, m2) ∧
            D1.bytes m2 = D.bytes m ++ x) ∧
      (x = [] → 2 ≤ L._buffers.length →
        L.encode_base64 m list.mk_empty = .error .undefined) := by
  have hTl := base64_text_length x
  have harm : ∀ cap, 4 * ((x.length + 2) / 3) ≤ cap →
      spec_armor cap x = (base64_text x, (base64_text x).length) := by
    intro cap hc
    unfold spec_armor spec_armor_line_break
    rw [armor_loop_spec cap x hx [] 0 0 (by simpa [hTl] using hc)
      (by rw [hTl]; simp only [U64_val] at *; omega)]
    simp
  have hun : ∀ cap, x.length ≤ cap →
      spec_unarmor cap (base64_text x) = (x, (x.length : Int)) := by
    intro cap hc
    unfold spec_unarmor
    rw [unarmor_loop_spec cap x hx [] 0 (by simpa using hc)]
    simp
  refine ⟨harm, hun, by omega, by omega, ?_⟩
  intro m L D hok hlive hLl hLx hDl hDU
  have hinL : ∀ n ∈ L._buffers, node_in m n.toptr :=
    fun n hn => (chain_ok_covered m _ hok).1 n (List.mem_append_right _ hn)
  have hxl : x.length = L._len := by
    rw [← hLx, hLl]
    exact nodes_bytes_length m _ hinL
  constructor
  · intro hone
    have hLok : L._buffers.length ≤ 1 ∨ 0 < L._len := by
      by_cases h0 : x = []
      · left
        have : ¬ 2 ≤ L._buffers.length := fun h => hone ⟨h0, h⟩
        omega
      · right
        have : x.length ≠ 0 := fun h => h0 (List.length_eq_zero.mp h)
        omega
    obtain ⟨L1, W, m1, e1, e2, e3, e4, e5, e6, e7, e8, e9⟩ :=
      encode_base64_general m L D._buffers hok hlive hLl hLok (by omega)
        (by rw [hLx]; exact hx)
    rw [hLx] at e2 e3 e7
    have hWU : W._len * 3 < U64 := by
      rw [e7, hTl]
      simp only [U64_val] at *
      omega
    obtain ⟨_, k⟩ := decode_base64_spec m1 D W e8 hDl hDU e4 e5 e6 hWU
    rw [e2] at k
    obtain ⟨D1, m2, f1, f2, _⟩ := k x (hun _ (by rw [e7]; omega))
    refine ⟨L1, W, m1, e1, e2, e3, D1, m2, f1, ?_⟩
    rw [f2]
    unfold list.bytes
    rw [e9]
  · intro h0 h2
    have hl0 : L._len = 0 := by
      rw [← hxl, h0]
      rfl
    exact encode_base64_of_empty_nodes m L D._buffers list.mk_empty hok hlive hl0 h2

/-- C28 witness: `ReplicWBCache` and `UmVwbGljV0JDYWNoZQ==` as byte
strings, and as lists: the source holds the text in the two nodes `Replic`
and `WBCache`, and the destination holds `old`.  The list of
`bl.reserve(10); bl.reserve(20)` holds the empty string in two nodes, and
its `encode_base64` is undefined. -/
theorem base64_round_trip_witness :
    (str "ReplicWBCache").length = 13 ∧
    base64_text (str "ReplicWBCache") = str "UmVwbGljV0JDYWNoZQ==" ∧
    spec_armor (13 * 4 / 3 + 3) (str "ReplicWBCache") = (str "UmVwbGljV0JDYWNoZQ==", 20) ∧
    spec_unarmor (4 + 20 * 3 / 4) (str "UmVwbGljV0JDYWNoZQ==") = (str "ReplicWBCache", 13) ∧
    encode_test_lists.1._buffers.length = 2 ∧
    encode_test_lists.1.bytes encode_test_lists.2.2 = str "ReplicWBCache" ∧
    encode_test_lists.2.1.bytes encode_test_lists.2.2 = str "old" ∧
    (encoded "ReplicWBCache").2.1.bytes (encoded "ReplicWBCache").2.2
      = str "UmVwbGljV0JDYWNoZQ==" ∧
    (∃ L1 W m1, encode_test_lists.1.encode_base64 encode_test_lists.2.2 list.mk_empty
        = .ok (L1, W, m1) ∧
      W.bytes m1 = base64_text (str "ReplicWBCache") ∧ L1.bytes m1 = str "ReplicWBCache" ∧
      ∃ D1 m2, encode_test_lists.2.1.decode_base64 m1 W = .returned (D1, W, m2) ∧
        D1.bytes m2
          = encode_test_lists.2.1.bytes encode_test_lists.2.2 ++ str "ReplicWBCache") ∧
    reserved_twice.1._buffers.map (fun n => n.m_len) = [0, 0] ∧
    reserved_twice.1.length = 0 ∧
    reserved_twice.1.bytes reserved_twice.2 = [] ∧
    reserved_twice.1.encode_base64 reserved_twice.2 list.mk_empty = .error .undefined :=
  ⟨by decide, by decide, by decide, by decide, rfl, rfl, rfl, rfl,
   ((base64_round_trip (str "ReplicWBCache") (by decide) (by decide)).2.2.2.2
     encode_test_lists.2.2 encode_test_lists.1 encode_test_lists.2.1
     rfl rfl rfl rfl rfl (by decide)).1 (fun h => absurd h.1 (by decide)),
   rfl, rfl, rfl,
   ((base64_round_trip [] (by simp) (by decide)).2.2.2.2
     reserved_twice.2 reserved_twice.1 list.mk_empty
     rfl rfl rfl rfl rfl (by decide)).2 rfl (by decide)⟩

/-- C29, amended: `decode_base64` on well-formed lists `D` (this) and `E`
(the encoded list) in one heap.  If the encoded content holds neither a
line break nor `=` and its length is not a multiple of 4, or if it holds a
character that `decode_bits` rejects (one that is not a letter, a digit,
`+`, `-`, `/`, `_` or `=`) other than the line break with neither a line
break nor `=` in front of it, then `spec_unarmor` returns a negative value
whatever the size of its destination, and the call throws
`malformed_input` with the destination list and its content as they were;
the encoded list keeps its content. -/
theorem decode_base64_rejects (m : Mem) (D E : list)
    (hok : chain_ok m (D._buffers ++ E._buffers) = true)
    (hlive : views_live m (D._buffers ++ E._buffers) = true)
    (hDl : D._len = nodes_len D._buffers) (hDU : D._len < U64)
    (hEl : E._len = nodes_len E._buffers) (hEU : E._len * 3 < U64)
    (hbad : ((∀ b ∈ E.bytes m, b ≠ 10 ∧ b ≠ 61) ∧ E.length % 4 ≠ 0) ∨
      ∃ pre c post, E.bytes m = pre ++ c :: post ∧ (∀ b ∈ pre, b ≠ 10 ∧ b ≠ 61) ∧
        decode_bits c < 0 ∧ c ≠ 10) :
    (∀ cap, (spec_unarmor cap (E.bytes m)).2 < 0) ∧
    ∃ E1 m1, D.decode_base64 m E = .thrown .malformed_input (D, E1, m1) ∧
      D.bytes m1 = D.bytes m ∧ E1.bytes m1 = E.bytes m := by
  have hinE : ∀ n ∈ E._buffers, node_in m n.toptr :=
    fun n hn => (chain_ok_covered m _ hok).1 n (List.mem_append_right _ hn)
  have hl : (E.bytes m).length = E._len := by
    rw [hEl]
    exact nodes_bytes_length m _ hinE
  have hneg : ∀ cap, (spec_unarmor cap (E.bytes m)).2 < 0 := by
    intro cap
    unfold spec_unarmor
    rcases hbad with ⟨h1, h2⟩ | ⟨pre, c, post, h1, h2, h3, h4⟩
    · exact unarmor_rejects_length cap _ _ [] 0 (Nat.le_refl _) h1
        (by rw [hl]; exact h2) (by simp)
    · rw [h1]
      exact unarmor_rejects_char cap _ pre (Nat.le_refl _) h2 c post [] 0 h3 h4 (by simp)
  have hpos : 0 < E._len := by
    rcases hbad with ⟨_, h2⟩ | ⟨pre, c, post, h1, _, _, _⟩
    · simp only [list.length] at h2
      omega
    · rw [← hl, h1]
      simp
  exact ⟨hneg, (decode_base64_general m D E hok hlive hDl hDU hEl (Or.inr hpos) hEU).1
    (hneg _)⟩

/-- C29 witness: the call `other.decode_base64(malformed)` of the test,
with `ReplicWBCache` in `other` and the 18 characters `UmVwbGljV0JDYWNoZQ`
in `malformed`, in two nodes. -/
theorem decode_base64_rejects_witness :
    decode_test_lists.1.bytes decode_test_lists.2.2 = str "ReplicWBCache" ∧
    decode_test_lists.2.1.bytes decode_test_lists.2.2 = str "UmVwbGljV0JDYWNoZQ" ∧
    decode_test_lists.2.1._buffers.length = 2 ∧
    decode_test_lists.2.1.length % 4 = 2 ∧
    ∃ E1 m1, decode_test_lists.1.decode_base64 decode_test_lists.2.2 decode_test_lists.2.1
        = .thrown .malformed_input (decode_test_lists.1, E1, m1) ∧
      decode_test_lists.1.bytes m1 = decode_test_lists.1.bytes decode_test_lists.2.2 ∧
      E1.bytes m1 = decode_test_lists.2.1.bytes decode_test_lists.2.2 := by
  have hb : decode_test_lists.2.1.bytes decode_test_lists.2.2 = str "UmVwbGljV0JDYWNoZQ" := rfl
  exact ⟨rfl, rfl, rfl, rfl,
    (decode_base64_rejects decode_test_lists.2.2 decode_test_lists.1 decode_test_lists.2.1
      rfl rfl rfl (by decide) rfl (by decide)
      (Or.inl ⟨by rw [hb]; decide, by decide⟩)).2⟩

/-- C29 counterexample: the input `QQ==X` has no line break and 5
characters, and `QQ==!` holds a character outside the base64 alphabet; yet
`decode_base64` returns on both with `A` appended to the destination:
`spec_unarmor` returns at the `=` and reads nothing behind it.  The input
`-_-_` of characters outside the standard alphabet is decoded like `+/+/`,
and a line break in front of a group is skipped. -/
theorem decode_base64_accepts_behind_padding :
    (text_list "QQ==X").1.bytes (text_list "QQ==X").2 = str "QQ==X" ∧
    (text_list "QQ==X").1.length = 5 ∧
    (match list.mk_empty.decode_base64 (text_list "QQ==X").2 (text_list "QQ==X").1 with
      | .returned (d, _, m) => some (d.bytes m)
      | _ => none) = some (str "A") ∧
    (match list.mk_empty.decode_base64 (text_list "QQ==!").2 (text_list "QQ==!").1 with
      | .returned (d, _, m) => some (d.bytes m)
      | _ => none) = some (str "A") ∧
    decode_bits 33 = -22 ∧
    (match list.mk_empty.decode_base64 (text_list "-_-_").2 (text_list "-_-_").1 with
      | .returned (d, _, m) => some (d.bytes m)
      | _ => none) = some [251, 255, 191] ∧
    spec_unarmor 7 (str "+/+/") = ([251, 255, 191], 3) ∧
    spec_unarmor 7 (10 :: str "QUJD") = (str "ABC", 3) :=
  ⟨rfl, rfl, rfl, rfl, by decide, rfl, by decide, by decide⟩

/-! ## The checksum cache under the writes of a ptr (C31) -/

/-- The effect of a store on the checksum cache of the region written: the
entry is emptied when `crc_reset` is set and kept otherwise. -/
theorem store_cache (m m1 : Mem) (i pos : Nat) (src : List Nat) (crc_reset : Bool) (r : raw)
    (hr : m.raws i = some r) (h : m.store i pos src crc_reset = .ok m1) :
    ∃ r1, m1.raws i = some r1 ∧ r1.m_data = write_bytes r.m_data pos src ∧
      (crc_reset = true → r1.last_crc_offset = (SIZE_MAX, SIZE_MAX)) ∧
      (crc_reset = false →
        r1.last_crc_offset = r.last_crc_offset ∧ r1.last_crc_val = r.last_crc_val) := by
  unfold Mem.store at h
  rw [hr] at h
  simp only [] at h
  split at h
  · injection h with h
    subst h
    refine ⟨{ (if crc_reset = true then r.invalidate_crc else r) with
      m_data := write_bytes r.m_data pos src }, ?_, rfl, ?_, ?_⟩
    · simp [Mem.set_raw]
    · intro hc
      subst hc
      rfl
    · intro hc
      subst hc
      exact ⟨rfl, rfl⟩
  · cases h

/-- C31, amended: on a ptr with a live region, a successful `copy_in`,
`zero()` or `zero(offset, len)` with `crc_reset = true` leaves the checksum
cache of the region empty (no range is found in it any more), and with
`crc_reset = false` leaves the cached range and digest as they were; a
successful `append(src, len)`, `append(c)` or `append_zeros(len)` writes into
the region and always leaves the cached range and digest as they were. -/
theorem ptr_writes_and_crc_cache (m : Mem) (p : ptr) (i : Nat) (r : raw)
    (hp : p.m_raw = some i) (hr : m.raws i = some r) :
    (∀ offset len src m1, p.copy_in m offset len src true = .ok m1 →
      ∃ r1, m1.raws i = some r1 ∧ r1.last_crc_offset = (SIZE_MAX, SIZE_MAX) ∧
        ∀ fromto, fromto ≠ (SIZE_MAX, SIZE_MAX) → r1.get_crc fromto = none) ∧
    (∀ m1, p.zero m true = .ok m1 →
      ∃ r1, m1.raws i = some r1 ∧ r1.last_crc_offset = (SIZE_MAX, SIZE_MAX) ∧
        ∀ fromto, fromto ≠ (SIZE_MAX, SIZE_MAX) → r1.get_crc fromto = none) ∧
    (∀ offset len m1, p.zero_range m offset len true = .ok m1 →
      ∃ r1, m1.raws i = some r1 ∧ r1.last_crc_offset = (SIZE_MAX, SIZE_MAX) ∧
        ∀ fromto, fromto ≠ (SIZE_MAX, SIZE_MAX) → r1.get_crc fromto = none) ∧
    (∀ offset len src m1, p.copy_in m offset len src false = .ok m1 →
      ∃ r1, m1.raws i = some r1 ∧ r1.last_crc_offset = r.last_crc_offset ∧
        r1.last_crc_val = r.last_crc_val) ∧
    (∀ m1, p.zero m false = .ok m1 →
      ∃ r1, m1.raws i = some r1 ∧ r1.last_crc_offset = r.last_crc_offset ∧
        r1.last_crc_val = r.last_crc_val) ∧
    (∀ offset len m1, p.zero_range m offset len false = .ok m1 →
      ∃ r1, m1.raws i = some r1 ∧ r1.last_crc_offset = r.last_crc_offset ∧
        r1.last_crc_val = r.last_crc_val) ∧
    (∀ src len ret p1 m1, p.append m src len = .ok (ret, p1, m1) →
      ∃ r1, m1.raws i = some r1 ∧
        r1.m_data = write_bytes r.m_data (p.m_off + p.m_len) (src.take len) ∧
        r1.last_crc_offset = r.last_crc_offset ∧ r1.last_crc_val = r.last_crc_val) ∧
    (∀ c ret p1 m1, p.append_char m c = .ok (ret, p1, m1) →
      ∃ r1, m1.raws i = some r1 ∧
        r1.m_data = write_bytes r.m_data (p.m_off + p.m_len) [c] ∧
        r1.last_crc_offset = r.last_crc_offset ∧ r1.last_crc_val = r.last_crc_val) ∧
    (∀ len ret p1 m1, p.append_zeros m len = .ok (ret, p1, m1) →
      ∃ r1, m1.raws i = some r1 ∧
        r1.m_data = write_bytes r.m_data (p.m_off + p.m_len) (List.replicate len 0) ∧
        r1.last_crc_offset = r.last_crc_offset ∧ r1.last_crc_val = r.last_crc_val) := by
  have reset : ∀ pos src m1, m.store i pos src true = .ok m1 →
      ∃ r1, m1.raws i = some r1 ∧ r1.last_crc_offset = (SIZE_MAX, SIZE_MAX) ∧
        ∀ fromto, fromto ≠ (SIZE_MAX, SIZE_MAX) → r1.get_crc fromto = none := by
    intro pos src m1 h
    obtain ⟨r1, a, _, c, _⟩ := store_cache m m1 i pos src true r hr h
    refine ⟨r1, a, c rfl, ?_⟩
    intro fromto hne
    unfold raw.get_crc
    rw [c rfl, if_neg (fun e => hne e.symm)]
  have keep : ∀ pos src m1, m.store i pos src false = .ok m1 →
      ∃ r1, m1.raws i = some r1 ∧ r1.m_data = write_bytes r.m_data pos src ∧
        r1.last_crc_offset = r.last_crc_offset ∧ r1.last_crc_val = r.last_crc_val := by
    intro pos src m1 h
    obtain ⟨r1, a, b, _, d⟩ := store_cache m m1 i pos src false r hr h
    exact ⟨r1, a, b, (d rfl).1, (d rfl).2⟩
  have keep2 : ∀ pos src m1, m.store i pos src false = .ok m1 →
      ∃ r1, m1.raws i = some r1 ∧
        r1.last_crc_offset = r.last_crc_offset ∧ r1.last_crc_val = r.last_crc_val := by
    intro pos src m1 h
    obtain ⟨r1, a, _, c, d⟩ := keep pos src m1 h
    exact ⟨r1, a, c, d⟩
  refine ⟨?_, ?_, ?_, ?_, ?_, ?_, ?_, ?_, ?_⟩
  · intro offset len src m1 h
    unfold ptr.copy_in at h
    rw [hp] at h
    simp only [] at h
    split at h
    · split at h
      · cases h
      · exact reset _ _ _ h
    · cases h
  · intro m1 h
    unfold ptr.zero at h
    rw [hp] at h
    exact reset _ _ _ h
  · intro offset len m1 h
    unfold ptr.zero_range at h
    rw [hp] at h
    split at h
    · exact reset _ _ _ h
    · cases h
  · intro offset len src m1 h
    unfold ptr.copy_in at h
    rw [hp] at h
    simp only [] at h
    split at h
    · split at h
      · cases h
      · exact keep2 _ _ _ h
    · cases h
  · intro m1 h
    unfold ptr.zero at h
    rw [hp] at h
    exact keep2 _ _ _ h
  · intro offset len m1 h
    unfold ptr.zero_range at h
    rw [hp] at h
    split at h
    · exact keep2 _ _ _ h
    · cases h
  · intro src len ret p1 m1 h
    unfold ptr.append at h
    rw [hp] at h
    simp only [] at h
    cases hg : p.unused_tail_length m with
    | error e => rw [hg] at h; cases h
    | ok gap =>
      rw [hg] at h
      simp only [] at h
      split at h
      · split at h
        · cases h
        · cases hs : m.store i (p.m_off + p.m_len) (src.take len) false with
          | error e => rw [hs] at h; cases h
          | ok m2 =>
            rw [hs] at h
            simp only [Except.ok.injEq, Prod.mk.injEq] at h
            obtain ⟨_, _, h3⟩ := h
            subst h3
            exact keep _ _ _ hs
      · cases h
  · intro c ret p1 m1 h
    unfold ptr.append_char at h
    rw [hp] at h
    simp only [] at h
    cases hg : p.unused_tail_length m with
    | error e => rw [hg] at h; cases h
    | ok gap =>
      rw [hg] at h
      simp only [] at h
      split at h
      · cases hs : m.store i (p.m_off + p.m_len) [c] false with
        | error e => rw [hs] at h; cases h
        | ok m2 =>
          rw [hs] at h
          simp only [Except.ok.injEq, Prod.mk.injEq] at h
          obtain ⟨_, _, h3⟩ := h
          subst h3
          exact keep _ _ _ hs
      · cases h
  · intro len ret p1 m1 h
    unfold ptr.append_zeros at h
    rw [hp] at h
    simp only [] at h
    cases hg : p.unused_tail_length m with
    | error e => rw [hg] at h; cases h
    | ok gap =>
      rw [hg] at h
      simp only [] at h
      split at h
      · cases hs : m.store i (p.m_off + p.m_len) (List.replicate len 0) false with
        | error e => rw [hs] at h; cases h
        | ok m2 =>
          rw [hs] at h
          simp only [Except.ok.injEq, Prod.mk.injEq] at h
          obtain ⟨_, _, h3⟩ := h
          subst h3
          exact keep _ _ _ hs
      · cases h
/-- C31 witness: the region `ABCD` with the digest of the range `(0, 4)`
cached.  `copy_in(2, 1, "Z")` and the two `zero` calls empty the cache, the
same calls with `crc_reset = false` keep the entry, and `append("ZZ", 2)`,
`append('Z')` and `append_zeros(2)` through the ptr on the first two bytes
write into the cached range and keep the entry. -/
theorem ptr_writes_and_crc_cache_witness :
    ∃ r, abcd_cached.2.2.raws 0 = some r ∧ r.last_crc_offset = (0, 4) ∧
      (∃ m1 r1, abcd_cached.1.copy_in abcd_cached.2.2 2 1 (str "Z") true = .ok m1 ∧
        m1.raws 0 = some r1 ∧ r1.last_crc_offset = (SIZE_MAX, SIZE_MAX) ∧
        r1.get_crc (0, 4) = none) ∧
      (∃ m1 r1, abcd_cached.1.zero abcd_cached.2.2 true = .ok m1 ∧
        m1.raws 0 = some r1 ∧ r1.get_crc (0, 4) = none) ∧
      (∃ m1 r1, abcd_cached.1.zero_range abcd_cached.2.2 1 2 true = .ok m1 ∧
        m1.raws 0 = some r1 ∧ r1.get_crc (0, 4) = none) ∧
      (∃ m1 r1, abcd_cached.1.copy_in abcd_cached.2.2 2 1 (str "Z") false = .ok m1 ∧
        m1.raws 0 = some r1 ∧ r1.last_crc_offset = (0, 4)) ∧
      (∃ v r1, abcd_cached.2.1.append abcd_cached.2.2 (str "ZZ") 2 = .ok v ∧
        v.2.2.raws 0 = some r1 ∧ r1.m_data = str "ABZZ" ∧ r1.last_crc_offset = (0, 4) ∧
        r1.last_crc_val = r.last_crc_val) ∧
      (∃ v r1, abcd_cached.2.1.append_char abcd_cached.2.2 90 = .ok v ∧
        v.2.2.raws 0 = some r1 ∧ r1.m_data = str "ABZD" ∧ r1.last_crc_offset = (0, 4)) ∧
      (∃ v r1, abcd_cached.2.1.append_zeros abcd_cached.2.2 2 = .ok v ∧
        v.2.2.raws 0 = some r1 ∧ r1.m_data = [65, 66, 0, 0] ∧ r1.last_crc_offset = (0, 4)) := by
  obtain ⟨r, hr⟩ : ∃ r, abcd_cached.2.2.raws 0 = some r := ⟨_, rfl⟩
  have hc : r.last_crc_offset = (0, 4) := by
    have : (abcd_cached.2.2.raws 0).map raw.last_crc_offset = some (0, 4) := rfl
    rw [hr] at this
    exact Option.some.inj this
  have hd : r.m_data = str "ABCD" := by
    have : (abcd_cached.2.2.raws 0).map raw.m_data = some (str "ABCD") := rfl
    rw [hr] at this
    exact Option.some.inj this
  have P := ptr_writes_and_crc_cache abcd_cached.2.2 abcd_cached.1 0 r rfl hr
  have Q := ptr_writes_and_crc_cache abcd_cached.2.2 abcd_cached.2.1 0 r rfl hr
  obtain ⟨p1, p2, p3, p4, _, _, _, _, _⟩ := P
  obtain ⟨_, _, _, _, _, _, q7, q8, q9⟩ := Q
  refine ⟨r, hr, hc, ?_, ?_, ?_, ?_, ?_, ?_, ?_⟩
  · obtain ⟨m1, h⟩ : ∃ m1, abcd_cached.1.copy_in abcd_cached.2.2 2 1 (str "Z") true = .ok m1 :=
      ⟨_, rfl⟩
    obtain ⟨r1, a, b, c⟩ := p1 2 1 (str "Z") m1 h
    exact ⟨m1, r1, h, a, b, c (0, 4) (by decide)⟩
  · obtain ⟨m1, h⟩ : ∃ m1, abcd_cached.1.zero abcd_cached.2.2 true = .ok m1 := ⟨_, rfl⟩
    obtain ⟨r1, a, _, c⟩ := p2 m1 h
    exact ⟨m1, r1, h, a, c (0, 4) (by decide)⟩
  · obtain ⟨m1, h⟩ : ∃ m1, abcd_cached.1.zero_range abcd_cached.2.2 1 2 true = .ok m1 :=
      ⟨_, rfl⟩
    obtain ⟨r1, a, _, c⟩ := p3 1 2 m1 h
    exact ⟨m1, r1, h, a, c (0, 4) (by decide)⟩
  · obtain ⟨m1, h⟩ : ∃ m1, abcd_cached.1.copy_in abcd_cached.2.2 2 1 (str "Z") false = .ok m1 :=
      ⟨_, rfl⟩
    obtain ⟨r1, a, b, _⟩ := p4 2 1 (str "Z") m1 h
    exact ⟨m1, r1, h, a, b.trans hc⟩
  · obtain ⟨v, h⟩ : ∃ v, abcd_cached.2.1.append abcd_cached.2.2 (str "ZZ") 2 = .ok v := ⟨_, rfl⟩
    obtain ⟨r1, a, b, c, d⟩ := q7 (str "ZZ") 2 v.1 v.2.1 v.2.2 h
    refine ⟨v, r1, h, a, ?_, c.trans hc, d⟩
    rw [b, hd]
    rfl
  · obtain ⟨v, h⟩ : ∃ v, abcd_cached.2.1.append_char abcd_cached.2.2 90 = .ok v := ⟨_, rfl⟩
    obtain ⟨r1, a, b, c, _⟩ := q8 90 v.1 v.2.1 v.2.2 h
    refine ⟨v, r1, h, a, ?_, c.trans hc⟩
    rw [b, hd]
    rfl
  · obtain ⟨v, h⟩ : ∃ v, abcd_cached.2.1.append_zeros abcd_cached.2.2 2 = .ok v := ⟨_, rfl⟩
    obtain ⟨r1, a, b, c, _⟩ := q9 2 v.1 v.2.1 v.2.2 h
    refine ⟨v, r1, h, a, ?_, c.trans hc⟩
    rw [b, hd]
    rfl

/-- C31 counterexample: `append` and `append_zeros` take no `crc_reset` and
never clear the cache.  The list `ABCD` has cached the digest of the range
`(0, 4)`; `q.append("ZZ", 2)` through a ptr on the first two bytes of the
region makes the bytes `ABZZ`, the entry `(0, 4)` survives the write, and the
list goes on reporting the digest of `ABCD`, which is not the digest of its
bytes.  The same holds for `q.append_zeros(2)`. -/
theorem ptr_append_keeps_stale_crc :
    crc_after_ptr_append = .ok (some ((0, 4), (0, 3019424693)), some ((0, 4), (0, 3019424693)),
      some (str "ABZZ"), 3019424693, 3019424693) ∧
    crc32c_bytes 0 (str "ABZZ") = 3199013299 ∧
    crc_after_ptr_append_zeros = .ok (some ((0, 4), (0, 3019424693)),
      some ((0, 4), (0, 3019424693)), some [65, 66, 0, 0], 3019424693, 3019424693) ∧
    crc32c_bytes 0 [65, 66, 0, 0] = 4276692875 :=
  ⟨rfl, by decide, rfl, by decide⟩

/-! ## `list::contents_equal(const void*, uint64_t)` (C38) -/

theorem c_str_data_in (m : Mem) (p : ptr) (h : node_in m p) :
    ∃ d, p.c_str_data m = .ok d ∧ p.m_len ≤ d.length ∧ d.take p.m_len = p.bytes m := by
  obtain ⟨i, r, a, b, c, _⟩ := h
  refine ⟨r.m_data.drop p.m_off, ?_, ?_, ?_⟩
  · unfold ptr.c_str_data
    rw [a]
    simp only [b]
  · rw [List.length_drop]
    omega
  · unfold ptr.bytes
    rw [a]
    simp only [b]

theorem contents_equal_buf_loop_spec (m : Mem) : ∀ (nodes : List ptr_node) (buf : List Nat)
    (length : Nat), (∀ n ∈ nodes, node_in m n.toptr) → length = nodes_len nodes →
    length ≤ buf.length →
    contents_equal_buf_loop m nodes buf length
      = .ok (decide (nodes ≠ [] ∧ nodes_bytes m nodes = buf.take length)) := by
  intro nodes
  induction nodes with
  | nil =>
    intro buf length _ _ _
    simp [contents_equal_buf_loop]
  | cons bp rest ih =>
    intro buf length hin hlen hbuf
    have hin1 := hin bp (List.mem_cons_self _ _)
    have hin2 : ∀ n ∈ rest, node_in m n.toptr := fun x hx => hin x (List.mem_cons_of_mem _ hx)
    obtain ⟨d, hd1, hd2, hd3⟩ := c_str_data_in m bp.toptr hin1
    simp only [nodes_len] at hlen
    have hmin : min length bp.toptr.length = bp.m_len := by
      unfold ptr.length
      omega
    obtain ⟨v, hv1, _, hv3, _⟩ := memcmp_spec bp.m_len d buf hd2 (by omega)
    have hbl := ptr_bytes_length m bp.toptr hin1
    have hrl := nodes_bytes_length m rest hin2
    have hsplit : buf.take length = buf.take bp.m_len ++ (buf.drop bp.m_len).take (nodes_len rest) := by
      rw [hlen, List.take_add]
    unfold contents_equal_buf_loop
    simp only [hd1, hmin, hv1]
    by_cases hv : v = 0
    · have heq : bp.toptr.bytes m = buf.take bp.m_len := by
        rw [← hd3]
        exact hv3.1 hv
      rw [if_neg (by simpa using hv)]
      by_cases h0 : length - bp.m_len = 0
      · rw [if_pos h0]
        have hr0 : nodes_len rest = 0 := by omega
        have hnil : nodes_bytes m rest = [] := by
          apply List.eq_nil_of_length_eq_zero
          rw [hrl, hr0]
        simp only [nodes_bytes, hnil, List.append_nil, hsplit, hr0, List.take_zero, heq]
        simp
      · rw [if_neg h0]
        have hl2 : length - bp.m_len = nodes_len rest := by omega
        rw [ih (buf.drop bp.m_len) (length - bp.m_len) hin2 hl2 (by rw [List.length_drop]; omega)]
        have hne : rest ≠ [] := by
          intro e
          subst e
          simp [nodes_len] at hl2
          omega
        simp only [nodes_bytes, hsplit, heq, hl2]
        congr 1
        simp [hne]
    · rw [if_pos (by simpa using hv)]
      have hne : ¬ (nodes_bytes m (bp :: rest) = buf.take length) := by
        intro e
        apply hv
        apply hv3.2
        rw [hd3]
        have e2 := congrArg (List.take bp.m_len) e
        simp only [nodes_bytes] at e2
        rw [List.take_append_of_le_length (by omega), List.take_of_length_le (by omega),
          List.take_take] at e2
        rw [e2]
        congr 1
        omega
      simp [hne]

/-- C38: on a list whose nodes view live regions and whose `length()` is the
sum of the node lengths, and a buffer that holds at least `n` bytes,
`contents_equal(buffer, n)` returns true exactly when the list has at least
one node, `length() == n` and the bytes of the list are the first `n` bytes
of the buffer.  On the list without nodes it returns false, also for
`n == 0`. -/
theorem contents_equal_buf_spec (m : Mem) (L : list) (buf : List Nat) (n : Nat)
    (hin : ∀ node ∈ L._buffers, node_in m node.toptr)
    (hlen : L._len = nodes_len L._buffers) (hbuf : n ≤ buf.length) :
    L.contents_equal_buf m buf n
      = .ok (decide (L._buffers ≠ [] ∧ L.length = n ∧ L.bytes m = buf.take n)) := by
  unfold list.contents_equal_buf list.length list.bytes
  by_cases h : L._len = n
  · rw [if_neg (by simpa using h)]
    rw [contents_equal_buf_loop_spec m L._buffers buf n hin (by omega) hbuf]
    congr 1
    simp [h]
  · rw [if_pos h]
    simp [h]

/-- C38 witness: the list without nodes against an empty buffer with
`n == 0` has `length() == n` and equal bytes, and `contents_equal` returns
false; the list of one empty node (`reserve(10)`) returns true for the same
arguments; the list `ABC` equals the buffer `ABC` and differs from `ABD`. -/
theorem contents_equal_buf_spec_witness :
    list.mk_empty.length = 0 ∧ list.mk_empty.bytes Mem.empty = ([] : List Nat).take 0 ∧
    list.mk_empty.contents_equal_buf Mem.empty [] 0 = .ok false ∧
    list_reserved.1.length = 0 ∧ list_reserved.1._buffers.length = 1 ∧
    list_reserved.1.contents_equal_buf list_reserved.2 [] 0 = .ok true ∧
    abc.1.contents_equal_buf abc.2 (str "ABC") 3 = .ok true ∧
    abc.1.contents_equal_buf abc.2 (str "ABD") 3 = .ok false :=
  ⟨rfl, rfl,
   (contents_equal_buf_spec Mem.empty list.mk_empty [] 0 (by simp [list.mk_empty]) rfl
      (by simp)).trans rfl,
   rfl, rfl, rfl, rfl, rfl⟩

/-! ## The destination sizes of the base64 adapters (C40) -/

theorem node_keep_iff (m : Mem) (it : ptr_node) (as am : Nat) :
    node_keep m it as am = .ok true ↔
      it.toptr.is_aligned m am = .ok true ∧ it.toptr.is_n_align_sized as = .ok true := by
  unfold node_keep
  cases h : it.toptr.is_aligned m am with
  | error e => simp
  | ok b =>
    cases b with
    | false => simp
    | true => simp

/-- Nodes that pass the test of the loop are kept, one after the other, and
nothing else happens. -/
theorem rebuild_aligned_loop_keeps (as am : Nat) (m : Mem) : ∀ (rest kept : List ptr_node)
    (num : Nat) (b : Bool), (∀ n ∈ rest, node_keep m n as am = .ok true) →
    rebuild_aligned_loop as am m kept none num b rest = .ok (kept ++ rest, num, b, m) := by
  intro rest
  induction rest with
  | nil =>
    intro kept num b _
    simp [rebuild_aligned_loop]
  | cons it rest ih =>
    intro kept num b h
    unfold rebuild_aligned_loop
    simp only [h it (List.mem_cons_self _ _)]
    rw [ih (kept ++ [it]) num b (fun n hn => h n (List.mem_cons_of_mem _ hn))]
    simp

theorem store_next_raw (m m1 : Mem) (i pos : Nat) (src : List Nat) (b : Bool)
    (h : m.store i pos src b = .ok m1) : m1.next_raw = m.next_raw := by
  unfold Mem.store at h
  split at h
  · cases h
  · split at h
    · cases h
      rfl
    · cases h

theorem copy_in_next_raw (m m1 : Mem) (p : ptr) (off len : Nat) (src : List Nat) (b : Bool)
    (h : p.copy_in m off len src b = .ok m1) : m1.next_raw = m.next_raw := by
  unfold ptr.copy_in at h
  split at h
  · cases h
  · split at h
    · split at h
      · cases h
      · exact store_next_raw _ _ _ _ _ _ h
    · cases h

theorem rebuild_copy_next_raw (nb : ptr) : ∀ (ns : List ptr_node) (m m1 : Mem) (pos : Nat),
    rebuild_copy m nb ns pos = .ok m1 → m1.next_raw = m.next_raw := by
  intro ns
  induction ns with
  | nil =>
    intro m m1 pos h
    unfold rebuild_copy at h
    cases h
    rfl
  | cons n rest ih =>
    intro m m1 pos h
    unfold rebuild_copy at h
    cases hs : n.toptr.c_str_data m with
    | error e => simp only [hs] at h; cases h
    | ok src =>
      simp only [hs] at h
      cases hc : nb.copy_in m pos n.toptr.length src false with
      | error e => simp only [hc] at h; cases h
      | ok m2 =>
        simp only [hc] at h
        rw [ih m2 m1 _ h, copy_in_next_raw m m2 nb _ _ _ _ hc]

theorem invalidate_crc_nodes_next_raw : ∀ (ns : List ptr_node) (m m1 : Mem),
    invalidate_crc_nodes m ns = .ok m1 → m1.next_raw = m.next_raw := by
  intro ns
  induction ns with
  | nil =>
    intro m m1 h
    unfold invalidate_crc_nodes at h
    cases h
    rfl
  | cons n rest ih =>
    intro m m1 h
    unfold invalidate_crc_nodes at h
    cases hr : n.m_raw with
    | none =>
      simp only [hr] at h
      exact ih m m1 h
    | some i =>
      simp only [hr] at h
      cases hi : m.invalidate_crc i with
      | error e => simp only [hi] at h; cases h
      | ok m2 =>
        simp only [hi] at h
        rw [ih m2 m1 h]
        unfold Mem.invalidate_crc at hi
        split at hi
        · cases hi
        · cases hi
          rfl

theorem rebuild_into_next_raw (m m1 : Mem) (L L1 : list) (nb : ptr_node)
    (h : L.rebuild_into m nb = .ok (L1, m1)) : m1.next_raw = m.next_raw := by
  unfold list.rebuild_into at h
  cases h1 : rebuild_copy m nb.toptr L._buffers 0 with
  | error e => simp only [h1] at h; cases h
  | ok m2 =>
    simp only [h1] at h
    have e1 := rebuild_copy_next_raw nb.toptr _ _ _ _ h1
    cases h2 : clear_and_dispose m2 L._buffers with
    | error e => simp only [h2] at h; cases h
    | ok m3 =>
      simp only [h2] at h
      have e2 := clear_and_dispose_next_raw _ _ _ h2
      split at h
      · unfold list.invalidate_crc at h
        simp only [] at h
        split at h
        · cases h
        · rename_i m4 h4
          cases h
          rw [invalidate_crc_nodes_next_raw _ _ _ h4, e2, e1]
      · unfold list.invalidate_crc at h
        simp only [] at h
        split at h
        · cases h
        · rename_i m4 h4
          have e4 := invalidate_crc_nodes_next_raw _ _ _ h4
          split at h
          · cases h
          · rename_i m5 h5
            cases h
            unfold ptr_node.dispose at h5
            split at h5
            · cases h5
            · rename_i q m6 h6
              cases h5
              rw [release_next_raw _ _ _ _ h6, e4, e2, e1]

theorem create_copy_next_raw (m m1 : Mem) (b : ptr) (n : ptr_node)
    (h : ptr_node.create_copy m b = .ok (n, m1)) : m1.next_raw = m.next_raw := by
  unfold ptr_node.create_copy ptr.copy_ctor at h
  cases hb : b.m_raw with
  | none =>
    simp only [hb, Mem.new_node, Except.ok.injEq, Prod.mk.injEq] at h
    obtain ⟨_, rfl⟩ := h
    rfl
  | some i =>
    simp only [hb] at h
    unfold Mem.nref_inc at h
    cases hr : m.raws i with
    | none => simp only [hr] at h; cases h
    | some r =>
      simp only [hr, Mem.new_node, Except.ok.injEq, Prod.mk.injEq] at h
      obtain ⟨_, rfl⟩ := h
      rfl

theorem create_raw_next_raw (m m1 : Mem) (i : Nat) (n : ptr_node)
    (h : ptr_node.create_raw m i = .ok (n, m1)) :
    m1.next_raw = m.next_raw ∧ n.m_raw = some i := by
  unfold ptr_node.create_raw ptr.of_raw at h
  cases hr : m.raws i with
  | none => simp only [hr] at h; cases h
  | some r =>
    simp only [hr, Mem.new_node, Except.ok.injEq, Prod.mk.injEq] at h
    obtain ⟨rfl, rfl⟩ := h
    exact ⟨rfl, rfl⟩

/-- The gathered run is linked again as one node: when it had to be rebuilt,
that node views the region that the heap has handed out for it. -/
theorem consolidate_fresh (m : Mem) (ul : list) (am : Nat) (n : ptr_node) (rebuilt : Bool)
    (m1 : Mem) (h : consolidate m ul am = .ok (n, rebuilt, m1)) :
    m.next_raw ≤ m1.next_raw ∧
    (rebuilt = true → n.m_raw = some m.next_raw ∧ m.next_raw < m1.next_raw) := by
  have finish : ∀ (ul1 : list) (b : Bool) (m2 : Mem),
      (match ul1._buffers with
        | [] => Except.error Err.undefined
        | front :: _ =>
          match ptr_node.create_copy m2 front.toptr with
          | .error e => .error e
          | .ok (n, m3) =>
            match clear_and_dispose m3 ul1._buffers with
            | .error e => .error e
            | .ok m4 => Except.ok (n, b, m4)) = Except.ok (n, rebuilt, m1) →
      m1.next_raw = m2.next_raw ∧ b = rebuilt ∧
        ∃ front rest, ul1._buffers = front :: rest ∧ n.toptr = front.toptr := by
    intro ul1 b m2 hr
    cases hbs : ul1._buffers with
    | nil => simp [hbs] at hr
    | cons front rest =>
      simp only [hbs] at hr
      cases hcc : ptr_node.create_copy m2 front.toptr with
      | error e => simp [hcc] at hr
      | ok v =>
        obtain ⟨n1, m3⟩ := v
        simp only [hcc] at hr
        cases hcd : clear_and_dispose m3 (front :: rest) with
        | error e => simp [hcd] at hr
        | ok m4 =>
          simp only [hcd, Except.ok.injEq, Prod.mk.injEq] at hr
          obtain ⟨rfl, rfl, rfl⟩ := hr
          refine ⟨?_, rfl, front, rest, rfl, (create_copy_len m2 _ _ _ hcc).1⟩
          rw [clear_and_dispose_next_raw _ _ _ hcd, create_copy_next_raw _ _ _ _ hcc]
  have rebuild_it :
      (match create_aligned m ul._len am with
        | .error e => Except.error e
        | .ok (i, m1) =>
          match ptr_node.create_raw m1 i with
          | .error e => .error e
          | .ok (nb, m2) =>
            match ul.rebuild_into m2 nb with
            | .error e => .error e
            | .ok (ul, m3) =>
              match ul._buffers with
              | [] => Except.error Err.undefined
              | front :: _ =>
                match ptr_node.create_copy m3 front.toptr with
                | .error e => .error e
                | .ok (n, m2) =>
                  match clear_and_dispose m2 ul._buffers with
                  | .error e => .error e
                  | .ok m3 => Except.ok (n, true, m3)) = Except.ok (n, rebuilt, m1) →
      m.next_raw ≤ m1.next_raw ∧
      (rebuilt = true → n.m_raw = some m.next_raw ∧ m.next_raw < m1.next_raw) := by
    intro hr
    cases hca : create_aligned m ul._len am with
    | error e => simp [hca] at hr
    | ok v =>
      obtain ⟨i, ma⟩ := v
      simp only [hca] at hr
      obtain ⟨hi, hnr, _⟩ := create_aligned_spec m _ _ _ _ hca
      cases hcr : ptr_node.create_raw ma i with
      | error e => simp [hcr] at hr
      | ok v =>
        obtain ⟨nb, mb⟩ := v
        simp only [hcr] at hr
        obtain ⟨f1, f2⟩ := create_raw_next_raw _ _ _ _ hcr
        cases hri : ul.rebuild_into mb nb with
        | error e => simp [hri] at hr
        | ok v =>
          obtain ⟨ul1, mc⟩ := v
          simp only [hri] at hr
          have f3 := rebuild_into_next_raw _ _ _ _ _ hri
          obtain ⟨g1, _, front, rest, g3, g4⟩ := finish ul1 true mc hr
          have hshape := (rebuild_into_shape mb ul nb ul1 mc hri).2
          have hfront : front = nb := by
            rcases hshape with ⟨_, e, _⟩ | ⟨_, e, _⟩
            · rw [g3] at e
              injection e
            · rw [g3] at e
              cases e
          have hraw : n.m_raw = some m.next_raw := by
            have : n.toptr.m_raw = nb.toptr.m_raw := by rw [g4, hfront]
            rw [this, f2, hi]
          exact ⟨by omega, fun _ => ⟨hraw, by omega⟩⟩
  unfold consolidate at h
  simp only [] at h
  split at h
  · cases hbs : ul._buffers with
    | nil => simp [hbs] at h
    | cons front rest =>
      simp only [hbs] at h
      cases hal : front.toptr.is_aligned m am with
      | error e => simp [hal] at h
      | ok b =>
        cases b with
        | true =>
          simp only [hal] at h
          obtain ⟨g1, g2, _⟩ := finish ul false m (by rw [hbs]; exact h)
          exact ⟨by omega, fun hb => by rw [← g2] at hb; cases hb⟩
        | false =>
          simp only [hal] at h
          exact rebuild_it h
  · exact rebuild_it h

/-- The flag of the loop of `rebuild_aligned_size_and_memory` is set only
together with a node on a region that the heap has handed out since the
loop started (`base` is the first identity that was unused then). -/
theorem rebuild_aligned_loop_fresh (as am base : Nat) : ∀ (rest : List ptr_node) (m : Mem)
    (kept : List ptr_node) (run : Option list) (num : Nat) (b : Bool) (bs : List ptr_node)
    (num1 : Nat) (b1 : Bool) (m1 : Mem),
    base ≤ m.next_raw →
    (b = true → ∃ n ∈ kept, ∃ i, n.m_raw = some i ∧ base ≤ i ∧ i < m.next_raw) →
    rebuild_aligned_loop as am m kept run num b rest = .ok (bs, num1, b1, m1) →
    m.next_raw ≤ m1.next_raw ∧
    (b1 = true → ∃ n ∈ bs, ∃ i, n.m_raw = some i ∧ base ≤ i ∧ i < m1.next_raw) := by
  have ext : ∀ (kept kept1 : List ptr_node) (b rebuilt : Bool) (m m1 : Mem) (n : ptr_node),
      (∀ x ∈ kept, x ∈ kept1) → n ∈ kept1 → m.next_raw ≤ m1.next_raw →
      (rebuilt = true → n.m_raw = some m.next_raw ∧ m.next_raw < m1.next_raw) →
      base ≤ m.next_raw →
      (b = true → ∃ n ∈ kept, ∃ i, n.m_raw = some i ∧ base ≤ i ∧ i < m.next_raw) →
      ((b || rebuilt) = true → ∃ n ∈ kept1, ∃ i, n.m_raw = some i ∧ base ≤ i ∧
        i < m1.next_raw) := by
    intro kept kept1 b rebuilt m m1 n hsub hn hle hre hbase hP hb
    cases b with
    | true =>
      obtain ⟨x, hx, i, e1, e2, e3⟩ := hP rfl
      exact ⟨x, hsub x hx, i, e1, e2, by omega⟩
    | false =>
      simp only [Bool.false_or] at hb
      obtain ⟨e1, e2⟩ := hre hb
      exact ⟨n, hn, m.next_raw, e1, hbase, e2⟩
  have weaken : ∀ (kept kept1 : List ptr_node) (b : Bool) (m : Mem),
      (∀ x ∈ kept, x ∈ kept1) →
      (b = true → ∃ n ∈ kept, ∃ i, n.m_raw = some i ∧ base ≤ i ∧ i < m.next_raw) →
      (b = true → ∃ n ∈ kept1, ∃ i, n.m_raw = some i ∧ base ≤ i ∧ i < m.next_raw) := by
    intro kept kept1 b m hsub hP hb
    obtain ⟨x, hx, r⟩ := hP hb
    exact ⟨x, hsub x hx, r⟩
  intro rest
  induction rest with
  | nil =>
    intro m kept run num b bs num1 b1 m1 hbase hP h
    unfold rebuild_aligned_loop at h
    cases run with
    | none =>
      simp only [Except.ok.injEq, Prod.mk.injEq] at h
      obtain ⟨rfl, _, rfl, rfl⟩ := h
      exact ⟨Nat.le_refl _, hP⟩
    | some ul =>
      simp only [] at h
      cases hc : consolidate m ul am with
      | error e => simp [hc] at h
      | ok v =>
        obtain ⟨n, rebuilt, m2⟩ := v
        simp only [hc, Except.ok.injEq, Prod.mk.injEq] at h
        obtain ⟨rfl, _, rfl, rfl⟩ := h
        obtain ⟨c1, c2⟩ := consolidate_fresh m ul am n rebuilt m2 hc
        exact ⟨c1, ext kept _ b rebuilt m m2 n (fun x hx => List.mem_append_left _ hx)
          (by simp) c1 c2 hbase hP⟩
  | cons it rest ih =>
    intro m kept run num b bs num1 b1 m1 hbase hP h
    unfold rebuild_aligned_loop at h
    cases run with
    | none =>
      simp only [] at h
      cases hk : node_keep m it as am with
      | error e => simp [hk] at h
      | ok k =>
        cases k with
        | true =>
          simp only [hk] at h
          exact ih m _ _ _ _ _ _ _ _ hbase
            (weaken kept _ b m (fun x hx => List.mem_append_left _ hx) hP) h
        | false =>
          simp only [hk] at h
          exact ih m _ _ _ _ _ _ _ _ hbase hP h
    | some ul =>
      simp only [] at h
      cases hg : node_gather m it as am ul._len with
      | error e => simp [hg] at h
      | ok g =>
        cases g with
        | true =>
          simp only [hg] at h
          exact ih m _ _ _ _ _ _ _ _ hbase hP h
        | false =>
          simp only [hg] at h
          cases hc : consolidate m ul am with
          | error e => simp [hc] at h
          | ok v =>
            obtain ⟨n, rebuilt, m2⟩ := v
            simp only [hc] at h
            obtain ⟨c1, c2⟩ := consolidate_fresh m ul am n rebuilt m2 hc
            cases hk : node_keep m2 it as am with
            | error e => simp [hk] at h
            | ok k =>
              cases k with
              | true =>
                simp only [hk] at h
                obtain ⟨r1, r2⟩ := ih m2 _ _ _ _ _ _ _ _ (by omega)
                  (ext kept (kept ++ [n, it]) b rebuilt m m2 n
                    (fun x hx => List.mem_append_left _ hx) (by simp) c1 c2 hbase hP) h
                exact ⟨by omega, r2⟩
              | false =>
                simp only [hk] at h
                obtain ⟨r1, r2⟩ := ih m2 _ _ _ _ _ _ _ _ (by omega)
                  (ext kept (kept ++ [n]) b rebuilt m m2 n
                    (fun x hx => List.mem_append_left _ hx) (by simp) c1 c2 hbase hP) h
                exact ⟨by omega, r2⟩

/-- C34: when every node of the list passes `is_aligned(align_memory)` and
`is_n_align_sized(align_size)`, the call
`rebuild_aligned_size_and_memory(align_size, align_memory)` returns false and
leaves the list and the heap as they were; and whenever the call (with any
`max_buffers`) returns true, a region has been allocated during the call and
a node of the list views it. -/
theorem rebuild_aligned_keeps_aligned (m : Mem) (L : list) (align_size align_memory : Nat) :
    ((∀ n ∈ L._buffers, n.toptr.is_aligned m align_memory = .ok true ∧
        n.toptr.is_n_align_sized align_size = .ok true) →
      L.rebuild_aligned_size_and_memory m align_size align_memory 0 = .ok (L, false, m)) ∧
    (∀ max_buffers L1 m1,
      L.rebuild_aligned_size_and_memory m align_size align_memory max_buffers
        = .ok (L1, true, m1) →
      m.next_raw < m1.next_raw ∧
      ∃ n ∈ L1._buffers, ∃ i, n.m_raw = some i ∧ m.next_raw ≤ i ∧ i < m1.next_raw) := by
  constructor
  · intro h
    unfold list.rebuild_aligned_size_and_memory
    simp only [ne_eq, not_true_eq_false, false_and, if_false]
    rw [rebuild_aligned_loop_keeps align_size align_memory m L._buffers [] L._num false
      (fun n hn => (node_keep_iff m n align_size align_memory).2 (h n hn))]
    simp
  · intro max_buffers L1 m1 h
    unfold list.rebuild_aligned_size_and_memory at h
    simp only [] at h
    split at h
    · cases h
    · rename_i bs num mr m2 hl
      simp only [Except.ok.injEq, Prod.mk.injEq] at h
      obtain ⟨rfl, rfl, rfl⟩ := h
      obtain ⟨_, r2⟩ := rebuild_aligned_loop_fresh _ align_memory m.next_raw L._buffers m []
        none L._num false bs num true m2 (Nat.le_refl _) (fun hb => by cases hb) hl
      obtain ⟨n, hn, i, e1, e2, e3⟩ := r2 rfl
      exact ⟨by omega, n, hn, i, e1, e2, e3⟩

/-- C34 witness: the list of an aligned node of 64 bytes and an aligned
empty node is returned as it is, with the flag false and the heap
untouched; the list of one byte at an odd address is rebuilt, the flag is
true, and its node views the region with identity 1, which the call has
allocated. -/
theorem rebuild_aligned_keeps_aligned_witness :
    aligned_pair.1._buffers.map (fun n => n.m_len) = [64, 0] ∧
    aligned_pair.1.rebuild_aligned_size_and_memory aligned_pair.2 64 64 0
      = .ok (aligned_pair.1, false, aligned_pair.2) ∧
    odd_byte.2.next_raw = 1 ∧
    ∃ L1 m1, odd_byte.1.rebuild_aligned_size_and_memory odd_byte.2 32 32 0 = .ok (L1, true, m1) ∧
      L1._buffers.map (fun n => n.m_raw) = [some 1] ∧
      odd_byte.2.next_raw < m1.next_raw ∧
      ∃ n ∈ L1._buffers, ∃ i, n.m_raw = some i ∧ odd_byte.2.next_raw ≤ i ∧ i < m1.next_raw := by
  have hb : aligned_pair.1._buffers
      = [{ toptr := ⟨some 0, 0, 64⟩, node_addr := 0 }, { toptr := ⟨some 1, 0, 0⟩, node_addr := 1 }] :=
    rfl
  have h1 := (rebuild_aligned_keeps_aligned aligned_pair.2 aligned_pair.1 64 64).1 (by
    intro n hn
    rw [hb] at hn
    simp only [List.mem_cons, List.mem_singleton, List.not_mem_nil, or_false] at hn
    rcases hn with rfl | rfl
    · exact ⟨rfl, rfl⟩
    · exact ⟨rfl, rfl⟩)
  obtain ⟨v, hv⟩ : ∃ v, odd_byte.1.rebuild_aligned_size_and_memory odd_byte.2 32 32 0 = .ok v :=
    ⟨_, rfl⟩
  have hflag : v.2.1 = true := by
    have : (odd_byte.1.rebuild_aligned_size_and_memory odd_byte.2 32 32 0).map (fun r => r.2.1)
        = .ok true := rfl
    rw [hv] at this
    injection this
  have hraws : v.1._buffers.map (fun n => n.m_raw) = [some 1] := by
    have : (odd_byte.1.rebuild_aligned_size_and_memory odd_byte.2 32 32 0).map
        (fun r => r.1._buffers.map (fun n => n.m_raw)) = .ok [some 1] := rfl
    rw [hv] at this
    injection this
  obtain ⟨L1, b, m1⟩ := v
  simp only [] at hflag hraws
  subst hflag
  obtain ⟨h2, h3⟩ := (rebuild_aligned_keeps_aligned odd_byte.2 odd_byte.1 32 32).2 0 L1 m1 hv
  exact ⟨rfl, h1, rfl, L1, m1, hv, hraws, h2, h3⟩

/-! ## The position of an iterator after its operations (C33) -/

theorem placed_index (bl : list) (it : iterator) (h : it.placed bl) :
    it.m_list_it ≤ bl._buffers.length := by
  obtain ⟨_, _, h2⟩ := h
  cases hn : bl._buffers[it.m_list_it]? with
  | none => exact Nat.le_of_eq (h2 hn).1
  | some node =>
    by_contra hc
    rw [List.getElem?_eq_none (by omega)] at hn
    cases hn

/-- A successful `operator+=` from a position whose offsets are consistent
leaves the iterator inside a node or at the end with `m_r_off == 0`, with
consistent offsets, also when the additions wrap around. -/
theorem advance_placed (bl : list) (it : iterator) (k : Nat) (it1 : iterator)
    (hU : nodes_len bl._buffers < U64)
    (hA : it.m_a_off = nodes_len (bl._buffers.take it.m_list_it) + it.m_r_off)
    (hidx : it.m_list_it ≤ bl._buffers.length)
    (h : it.advance bl k = .returned it1) : it1.placed bl := by
  obtain ⟨s1, s2, s3, s4⟩ :=
    advance_skip_spec (bl._buffers.drop it.m_list_it) (add64 it.m_r_off k)
  have hix : ∀ j, (bl._buffers.drop it.m_list_it)[j]? = bl._buffers[it.m_list_it + j]? := by
    intro j
    rw [List.getElem?_drop]
  have habs := nodes_len_take_add bl._buffers it.m_list_it
    (advance_skip (bl._buffers.drop it.m_list_it) (add64 it.m_r_off k)).1
  unfold iterator.advance iterator.end_ at h
  simp only [decide_eq_true_eq] at h
  split at h
  · cases h
  · rename_i hret
    simp only [outcome.returned.injEq] at h
    subst h
    simp only [hix] at s3 s4
    rw [List.length_drop] at s4 s1
    have hpos : nodes_len (bl._buffers.take (it.m_list_it +
        (advance_skip (bl._buffers.drop it.m_list_it) (add64 it.m_r_off k)).1)) +
        (advance_skip (bl._buffers.drop it.m_list_it) (add64 it.m_r_off k)).2
          ≤ nodes_len bl._buffers := by
      cases hn : bl._buffers[it.m_list_it +
          (advance_skip (bl._buffers.drop it.m_list_it) (add64 it.m_r_off k)).1]? with
      | none =>
        have e1 := s4 hn
        have e2 : (advance_skip (bl._buffers.drop it.m_list_it) (add64 it.m_r_off k)).2 = 0 := by
          by_contra hc
          exact hret ⟨by omega, hc⟩
        have := nodes_len_take_le bl._buffers (it.m_list_it +
          (advance_skip (bl._buffers.drop it.m_list_it) (add64 it.m_r_off k)).1)
        omega
      | some node =>
        have e1 := s3 node hn
        have e2 := nodes_len_take_succ bl._buffers _ node hn
        have e3 := nodes_len_take_le bl._buffers (it.m_list_it +
          (advance_skip (bl._buffers.drop it.m_list_it) (add64 it.m_r_off k)).1 + 1)
        omega
    refine ⟨?_, ?_, ?_⟩
    · simp only []
      rw [habs]
      rw [habs] at hpos
      generalize nodes_len (List.take (advance_skip (bl._buffers.drop it.m_list_it)
        (add64 it.m_r_off k)).1 (List.drop it.m_list_it bl._buffers)) = q at *
      generalize (advance_skip (bl._buffers.drop it.m_list_it) (add64 it.m_r_off k)).2 = t at *
      generalize nodes_len (List.take it.m_list_it bl._buffers) = p at *
      unfold add64 at s2 ⊢
      simp only [U64_val] at *
      omega
    · intro node hn
      exact s3 node hn
    · intro hn
      dsimp only at hn ⊢
      have e1 := s4 hn
      refine ⟨by omega, ?_⟩
      by_contra hc
      exact hret ⟨by omega, hc⟩

/-- An iterator at the end of the chain stays there under `operator+=`. -/
theorem advance_exhausted (bl : list) (it : iterator) (k : Nat) (it1 : iterator)
    (he : it.end_ bl = true) (h : it.advance bl k = .returned it1) : it1.end_ bl = true := by
  unfold iterator.advance at h
  simp only [] at h
  split at h
  · cases h
  · simp only [outcome.returned.injEq] at h
    subst h
    unfold iterator.end_ at he ⊢
    simp only [decide_eq_true_eq] at he ⊢
    omega

theorem placed_off (bl : list) (it : iterator) (hU : nodes_len bl._buffers < U64)
    (h : it.placed bl) : it.m_a_off < U64 := by
  have := (placed_le bl it h).1
  omega

/-- The position after a successful `operator+=`. -/
theorem advance_sound (bl : list) (it : iterator) (k : Nat) (it1 : iterator)
    (hU : nodes_len bl._buffers < U64) (hit : it.end_ bl = true ∨ it.placed bl)
    (h : it.advance bl k = .returned it1) :
    (it1.end_ bl = true ∨ it1.placed bl) ∧ (it.placed bl → it1.placed bl) := by
  have hp : it.placed bl → it1.placed bl := fun hp =>
    advance_placed bl it k it1 hU hp.1 (placed_index bl it hp) h
  rcases hit with he | hp1
  · exact ⟨Or.inl (advance_exhausted bl it k it1 he h), hp⟩
  · exact ⟨Or.inr (hp hp1), hp⟩

theorem begin_at_placed (bl : list) (off : Nat) (it1 : iterator)
    (hU : nodes_len bl._buffers < U64)
    (h : bl.begin_at off = .returned it1) : it1.placed bl := by
  unfold list.begin_at at h
  exact advance_placed bl ⟨0, 0, 0⟩ off it1 hU (by simp [nodes_len]) (Nat.zero_le _) h

theorem not_end_of_node (bl : list) (it : iterator) (node : ptr_node)
    (h : bl._buffers[it.m_list_it]? = some node) : ¬ (it.end_ bl = true) := by
  unfold iterator.end_
  simp only [decide_eq_true_eq]
  intro hc
  rw [List.getElem?_eq_none hc] at h
  cases h

theorem end_of_none (bl : list) (it : iterator) (h : bl._buffers[it.m_list_it]? = none) :
    it.end_ bl = true := by
  unfold iterator.end_
  simp only [decide_eq_true_eq]
  by_contra hc
  rw [List.getElem?_eq_getElem (by omega)] at h
  cases h

/-- The copy loop returns with the iterator at the end or placed, whatever
the statement that hands the bytes to the destination. -/
theorem copy_loop_sound {δ : Type} (emit : δ → ptr_node → Nat → Nat → Except Err δ)
    (bl : list) (hU : nodes_len bl._buffers < U64) :
    ∀ (fuel : Nat) (it : iterator) (len : Nat) (d : δ) (it1 : iterator) (d1 : δ),
      (it.end_ bl = true ∨ it.placed bl) →
      copy_loop emit bl fuel it len d = some (.returned (it1, d1)) →
      (it1.end_ bl = true ∨ it1.placed bl) := by
  intro fuel
  induction fuel with
  | zero =>
    intro it len d it1 d1 hit h
    unfold copy_loop at h
    split at h
    · simp only [Option.some.injEq, outcome.returned.injEq, Prod.mk.injEq] at h
      obtain ⟨rfl, _⟩ := h
      exact hit
    · cases h
  | succ fuel ih =>
    intro it len d it1 d1 hit h
    unfold copy_loop at h
    split at h
    · simp only [Option.some.injEq, outcome.returned.injEq, Prod.mk.injEq] at h
      obtain ⟨rfl, _⟩ := h
      exact hit
    · cases hn : bl._buffers[it.m_list_it]? with
      | none =>
        simp only [hn] at h
        cases h
      | some node =>
        simp only [hn] at h
        have hpl : it.placed bl := by
          rcases hit with he | hp
          · exact absurd he (not_end_of_node bl it node hn)
          · exact hp
        generalize (if len < sub64 node.toptr.length it.m_r_off then len
          else sub64 node.toptr.length it.m_r_off) = L at h
        cases he : emit d node it.m_r_off L with
        | error e =>
          simp only [he] at h
          cases e <;> cases h
        | ok d2 =>
          simp only [he] at h
          cases hadv : it.advance bl L with
          | thrown e s =>
            simp only [hadv] at h
            cases h
          | aborted e =>
            simp only [hadv] at h
            cases h
          | returned it2 =>
            simp only [hadv] at h
            have hs := (advance_sound bl it L it2 hU (Or.inr hpl) hadv).2 hpl
            exact ih it2 _ d2 it1 d1 (Or.inr hs) h

theorem copy_with_sound {δ : Type} (emit : δ → ptr_node → Nat → Nat → Except Err δ)
    (bl : list) (hU : nodes_len bl._buffers < U64) (fuel : Nat) (it : iterator) (len : Nat)
    (d : δ) (it1 : iterator) (d1 : δ) (hit : it.end_ bl = true ∨ it.placed bl)
    (h : copy_with emit bl fuel it len d = some (.returned (it1, d1))) :
    it1.end_ bl = true ∨ it1.placed bl := by
  unfold copy_with at h
  by_cases he : it.end_ bl = true
  · rw [if_pos he] at h
    cases hs : it.seek bl it.m_a_off with
    | thrown e s => simp only [hs] at h; cases h
    | aborted e => simp only [hs] at h; cases h
    | returned it2 =>
      simp only [hs] at h
      have hp2 : it2.placed bl := begin_at_placed bl it.m_a_off it2 hU hs
      exact copy_loop_sound emit bl hU fuel it2 len d it1 d1 (Or.inr hp2) h
  · rw [if_neg he] at h
    simp only [] at h
    exact copy_loop_sound emit bl hU fuel it len d it1 d1 hit h

theorem position_returned {δ : Type} (o : Option (outcome (iterator × δ))) (it1 : iterator)
    (h : o.map outcome.position = some (.returned it1)) :
    ∃ d1, o = some (.returned (it1, d1)) := by
  cases o with
  | none => cases h
  | some v =>
    cases v with
    | returned s =>
      simp only [Option.map_some', outcome.position, Option.some.injEq,
        outcome.returned.injEq] at h
      subst h
      exact ⟨s.2, rfl⟩
    | thrown e s =>
      simp only [Option.map_some', outcome.position, Option.some.injEq] at h
      cases h
    | aborted e =>
      simp only [Option.map_some', outcome.position, Option.some.injEq] at h
      cases h

/-- The statements of `get_ptr_and_advance` on a placed iterator: the
iterator moves inside the node, or to the start of the next node, which it
does not skip when it is empty. -/
theorem get_ptr_step_sound (m : Mem) (bl : list) (it : iterator) (node : ptr_node) (max : Nat)
    (s : Nat × Option cptr × iterator) (hU : nodes_len bl._buffers < U64) (hp : it.placed bl)
    (hn : bl._buffers[it.m_list_it]? = some node)
    (h : get_ptr_step m it node max = .returned s) :
    s.2.2.valid bl = true ∧ ((∀ n ∈ bl._buffers, n.m_len ≠ 0) → s.2.2.placed bl) := by
  obtain ⟨hA, h1, _⟩ := hp
  have hr := h1 node hn
  have hsucc := nodes_len_take_succ bl._buffers it.m_list_it node hn
  have hle := nodes_len_take_le bl._buffers (it.m_list_it + 1)
  have hs : sub64 node.m_len it.m_r_off = node.m_len - it.m_r_off :=
    sub64_small _ _ (by omega) (by omega)
  have hmin : min (node.m_len - it.m_r_off) max ≤ node.m_len - it.m_r_off := Nat.min_le_left _ _
  have hr1 : add64 it.m_r_off (min (node.m_len - it.m_r_off) max)
      = it.m_r_off + min (node.m_len - it.m_r_off) max := add64_small _ _ (by omega)
  have ha1 : add64 it.m_a_off (min (node.m_len - it.m_r_off) max)
      = it.m_a_off + min (node.m_len - it.m_r_off) max := add64_small _ _ (by omega)
  have hlt : it.m_list_it < bl._buffers.length := by
    by_contra hc
    rw [List.getElem?_eq_none (Nat.le_of_not_lt hc)] at hn
    cases hn
  unfold get_ptr_step at h
  cases hraw : node.m_raw with
  | none => simp only [hraw] at h; cases h
  | some i =>
    simp only [hraw] at h
    cases hm : m.raws i with
    | none => simp only [hm] at h; cases h
    | some r =>
      simp only [hm, ptr.length, hs, hr1, ha1, outcome.returned.injEq] at h
      subst h
      simp only []
      by_cases he : it.m_r_off + min (node.m_len - it.m_r_off) max = node.m_len
      · rw [if_pos he]
        have hge : bl._buffers[it.m_list_it + 1]? = none → bl._buffers.length ≤ it.m_list_it + 1 := by
          intro hnone
          by_contra hc
          rw [List.getElem?_eq_getElem (Nat.lt_of_not_le hc)] at hnone
          cases hnone
        constructor
        · apply valid_of
          · simp only []
            omega
          · intro node1 _
            exact Nat.zero_le _
          · intro hnone
            simp only [] at hnone ⊢
            have := hge hnone
            exact ⟨by omega, trivial⟩
        · intro hne
          refine ⟨by simp only []; omega, ?_, ?_⟩
          · intro node1 hn1
            simp only [] at hn1 ⊢
            have := hne node1 (mem_of_getElem _ _ _ hn1)
            omega
          · intro hnone
            simp only [] at hnone ⊢
            have := hge hnone
            exact ⟨by omega, trivial⟩
      · rw [if_neg he]
        constructor
        · apply valid_of
          · simp only []
            omega
          · intro node1 hn1
            simp only [] at hn1 ⊢
            rw [hn] at hn1
            cases hn1
            omega
          · intro hnone
            simp only [] at hnone
            rw [hn] at hnone
            cases hnone
        · intro _
          refine ⟨by simp only []; omega, ?_, ?_⟩
          · intro node1 hn1
            simp only [] at hn1 ⊢
            rw [hn] at hn1
            cases hn1
            omega
          · intro hnone
            simp only [] at hnone
            rw [hn] at hnone
            cases hnone

theorem placed_valid (bl : list) (it : iterator) (h : it.placed bl) : it.valid bl = true := by
  obtain ⟨hA, h1, h2⟩ := h
  exact valid_of bl it hA (fun node hn => Nat.le_of_lt (h1 node hn)) h2

theorem get_ptr_and_advance_sound (m : Mem) (bl : list) (it : iterator) (max : Nat)
    (p : Option cptr) (s : Nat × Option cptr × iterator) (hU : nodes_len bl._buffers < U64)
    (hit : it.end_ bl = true ∨ it.placed bl)
    (h : it.get_ptr_and_advance m bl max p = .returned s) :
    s.2.2.valid bl = true ∧ ((∀ n ∈ bl._buffers, n.m_len ≠ 0) → s.2.2.placed bl) := by
  unfold iterator.get_ptr_and_advance at h
  cases hn : bl._buffers[it.m_list_it]? with
  | some node =>
    simp only [hn] at h
    have hpl : it.placed bl := by
      rcases hit with he | hp
      · exact absurd he (not_end_of_node bl it node hn)
      · exact hp
    exact get_ptr_step_sound m bl it node max s hU hpl hn h
  | none =>
    simp only [hn] at h
    cases hs : it.seek bl it.m_a_off with
    | thrown e s1 => simp only [hs] at h; cases h
    | aborted e => simp only [hs] at h; cases h
    | returned it2 =>
      simp only [hs] at h
      have hp2 : it2.placed bl := begin_at_placed bl it.m_a_off it2 hU hs
      cases hn2 : bl._buffers[it2.m_list_it]? with
      | none =>
        simp only [hn2, outcome.returned.injEq] at h
        subst h
        exact ⟨placed_valid bl it2 hp2, fun _ => hp2⟩
      | some node =>
        simp only [hn2] at h
        exact get_ptr_step_sound m bl it2 node max s hU hp2 hn2 h

/-- C33, amended: on a list whose node lengths add up to less than `2^64`,
let an operation (construction, `seek`, `+=`, `++`, one of the `copy`
overloads, `copy_in`, `get_ptr_and_advance`) return on an iterator that was
exhausted or placed.  For every operation but `get_ptr_and_advance`, and for
`get_ptr_and_advance` on a list without empty node, the iterator is then
exhausted or placed: on a node with `m_r_off` strictly smaller than the
length of the node, or at the end with `m_r_off == 0`, and `get_off()` is
the offset of that position.  After `get_ptr_and_advance` on any list the
iterator is consistent, with `m_r_off` at most the length of its node.  A
placed iterator that is not exhausted dereferences to the byte of the list
at `get_off()`. -/
theorem iterator_ops_place (m : Mem) (bl : list) (hU : nodes_len bl._buffers < U64)
    (it : iterator) (hit : it.end_ bl = true ∨ it.placed bl) (op : iter_op) (fuel : Nat)
    (it1 : iterator) (h : op.run m bl fuel it = some (.returned it1)) :
    (((∀ max p, op ≠ .get_ptr_and_advance max p) ∨ ∀ n ∈ bl._buffers, n.m_len ≠ 0) →
      it1.end_ bl = true ∨ it1.placed bl) ∧
    ((∃ max p, op = .get_ptr_and_advance max p) → it1.valid bl = true) ∧
    (∀ m1, (∀ n ∈ bl._buffers, node_in m1 n.toptr) → it1.placed bl → it1.end_ bl = false →
      ∃ b, (bl.bytes m1)[it1.get_off]? = some b ∧ it1.deref m1 bl = .ok b) := by
  have hderef : ∀ m1, (∀ n ∈ bl._buffers, node_in m1 n.toptr) → it1.placed bl →
      it1.end_ bl = false →
      ∃ b, (bl.bytes m1)[it1.get_off]? = some b ∧ it1.deref m1 bl = .ok b := by
    intro m1 hin hp he
    cases hn : bl._buffers[it1.m_list_it]? with
    | none =>
      rw [end_of_none bl it1 hn] at he
      cases he
    | some node =>
      exact deref_spec m1 bl it1 node hin hn (hp.2.1 node hn) hp.1
  have plain : (it1.end_ bl = true ∨ it1.placed bl) →
      (((∀ max p, op ≠ .get_ptr_and_advance max p) ∨ ∀ n ∈ bl._buffers, n.m_len ≠ 0) →
        it1.end_ bl = true ∨ it1.placed bl) ∧
      ((∃ max p, op = .get_ptr_and_advance max p) → it1.valid bl = true) ∧
      (∀ m1, (∀ n ∈ bl._buffers, node_in m1 n.toptr) → it1.placed bl → it1.end_ bl = false →
        ∃ b, (bl.bytes m1)[it1.get_off]? = some b ∧ it1.deref m1 bl = .ok b) := by
    intro hs
    refine ⟨fun _ => hs, ?_, hderef⟩
    rintro ⟨max, p, rfl⟩
    unfold iter_op.run at h
    obtain ⟨h1, _⟩ : it1.valid bl = true ∧ True := by
      cases hg : it.get_ptr_and_advance m bl max p with
      | returned s =>
        simp only [hg, Option.some.injEq, outcome.returned.injEq] at h
        subst h
        exact ⟨(get_ptr_and_advance_sound m bl it max p s hU hit hg).1, trivial⟩
      | thrown e s => simp only [hg] at h; cases h
      | aborted e => simp only [hg] at h; cases h
    exact h1
  cases op with
  | construct off =>
    simp only [iter_op.run, Option.some.injEq] at h
    exact plain (Or.inr (begin_at_placed bl off it1 hU h))
  | seek off =>
    simp only [iter_op.run, Option.some.injEq] at h
    exact plain (Or.inr (begin_at_placed bl off it1 hU h))
  | advance off =>
    simp only [iter_op.run, Option.some.injEq] at h
    exact plain (advance_sound bl it off it1 hU hit h).1
  | incr =>
    simp only [iter_op.run, Option.some.injEq] at h
    unfold iterator.incr at h
    split at h
    · cases h
    · exact plain (advance_sound bl it 1 it1 hU hit h).1
  | copy len dest =>
    simp only [iter_op.run] at h
    obtain ⟨d1, hd⟩ := position_returned _ it1 h
    exact plain (copy_with_sound _ bl hU fuel it len dest it1 d1 hit hd)
  | copy_string len dest =>
    simp only [iter_op.run] at h
    obtain ⟨d1, hd⟩ := position_returned _ it1 h
    exact plain (copy_with_sound _ bl hU fuel it len dest it1 d1 hit hd)
  | copy_list len dest =>
    simp only [iter_op.run] at h
    obtain ⟨d1, hd⟩ := position_returned _ it1 h
    exact plain (copy_with_sound _ bl hU fuel it len (dest, m) it1 d1 hit hd)
  | copy_in len src crc_reset =>
    simp only [iter_op.run] at h
    obtain ⟨d1, hd⟩ := position_returned _ it1 h
    exact plain (copy_with_sound _ bl hU fuel it len (m, src) it1 d1 hit hd)
  | get_ptr_and_advance max p =>
    unfold iter_op.run at h
    cases hg : it.get_ptr_and_advance m bl max p with
    | returned s =>
      simp only [hg, Option.some.injEq, outcome.returned.injEq] at h
      subst h
      obtain ⟨g1, g2⟩ := get_ptr_and_advance_sound m bl it max p s hU hit hg
      refine ⟨?_, fun _ => g1, hderef⟩
      rintro (hne | hne)
      · exact absurd rfl (hne max p)
      · exact Or.inr (g2 hne)
    | thrown e s => simp only [hg] at h; cases h
    | aborted e => simp only [hg] at h; cases h

/-- C33 witness: on the list `ABC`, `DEF` the iterator `begin()` advanced
by 4 stands on the second node with in-node offset 1 and dereferences to
`E`, the byte at `get_off() == 4`; `copy_in(3, "xyz")` from the start and
`get_ptr_and_advance(3)` leave it at the start of the second node; on the
list of two empty nodes the constructor skips both and leaves the iterator
exhausted. -/
theorem iterator_ops_place_witness :
    (iter_op.advance 4).run abc_def.2 abc_def.1 0 ⟨0, 0, 0⟩ = some (.returned ⟨1, 1, 4⟩) ∧
    (⟨1, 1, 4⟩ : iterator).placed abc_def.1 ∧
    (⟨1, 1, 4⟩ : iterator).deref abc_def.2 abc_def.1 = .ok 69 ∧
    (abc_def.1.bytes abc_def.2)[4]? = some 69 ∧
    (iter_op.copy_in 3 (str "xyz") true).run abc_def.2 abc_def.1 3 ⟨0, 0, 0⟩
      = some (.returned ⟨1, 0, 3⟩) ∧
    (iter_op.get_ptr_and_advance 3 none).run abc_def.2 abc_def.1 0 ⟨0, 0, 0⟩
      = some (.returned ⟨1, 0, 3⟩) ∧
    (⟨1, 0, 3⟩ : iterator).placed abc_def.1 ∧
    empties.1._buffers.map (fun n => n.m_len) = [0, 0] ∧
    (iter_op.construct 0).run empties.2 empties.1 0 ⟨0, 0, 0⟩ = some (.returned ⟨2, 0, 0⟩) ∧
    (⟨2, 0, 0⟩ : iterator).end_ empties.1 = true := by
  have hb : abc_def.1._buffers
      = [{ toptr := ⟨some 0, 0, 3⟩, node_addr := 0 }, { toptr := ⟨some 1, 0, 3⟩, node_addr := 1 }] :=
    rfl
  have hU : nodes_len abc_def.1._buffers < U64 := by decide
  have h0 : (⟨0, 0, 0⟩ : iterator).placed abc_def.1 := by
    refine ⟨rfl, ?_, ?_⟩
    · intro node hn
      rw [hb] at hn
      cases hn
      decide
    · intro hn
      rw [hb] at hn
      cases hn
  have hne : ∀ n ∈ abc_def.1._buffers, n.m_len ≠ 0 := by
    intro n hn
    rw [hb] at hn
    simp only [List.mem_cons, List.mem_singleton, List.not_mem_nil, or_false] at hn
    rcases hn with rfl | rfl <;> decide
  have hin := views_live_in abc_def.2 abc_def.1._buffers rfl
  have r1 : (iter_op.advance 4).run abc_def.2 abc_def.1 0 ⟨0, 0, 0⟩
      = some (.returned ⟨1, 1, 4⟩) := rfl
  have r2 : (iter_op.copy_in 3 (str "xyz") true).run abc_def.2 abc_def.1 3 ⟨0, 0, 0⟩
      = some (.returned ⟨1, 0, 3⟩) := rfl
  have r3 : (iter_op.get_ptr_and_advance 3 none).run abc_def.2 abc_def.1 0 ⟨0, 0, 0⟩
      = some (.returned ⟨1, 0, 3⟩) := rfl
  obtain ⟨a1, _, a3⟩ := iterator_ops_place abc_def.2 abc_def.1 hU ⟨0, 0, 0⟩ (Or.inr h0)
    (iter_op.advance 4) 0 ⟨1, 1, 4⟩ r1
  have p1 : (⟨1, 1, 4⟩ : iterator).placed abc_def.1 := by
    rcases a1 (Or.inl (fun _ _ hc => by cases hc)) with e | p
    · exact absurd e (by decide)
    · exact p
  obtain ⟨b, hb1, hb2⟩ := a3 abc_def.2 hin p1 (by decide)
  have hbv : b = 69 := by
    have e : (abc_def.1.bytes abc_def.2)[4]? = some 69 := by decide
    simp only [iterator.get_off] at hb1
    rw [e] at hb1
    exact (Option.some.inj hb1).symm
  subst hbv
  obtain ⟨c1, _, _⟩ := iterator_ops_place abc_def.2 abc_def.1 hU ⟨0, 0, 0⟩ (Or.inr h0)
    (iter_op.get_ptr_and_advance 3 none) 0 ⟨1, 0, 3⟩ r3
  have p3 : (⟨1, 0, 3⟩ : iterator).placed abc_def.1 := by
    rcases c1 (Or.inr hne) with e | p
    · exact absurd e (by decide)
    · exact p
  exact ⟨r1, p1, hb2, hb1, r2, r3, p3, rfl, rfl, rfl⟩

/-- C33 counterexample: `get_ptr_and_advance` moves to the start of the
next node without skipping it when it is empty.  On the list `AB`, empty
node, `CD`, the call with `max_req_size == 2` from the start returns with the
iterator not exhausted, on the empty node with in-node offset 0, which is not
smaller than the length 0 of that node; the byte of the list at
`get_off() == 2` is `C`, and dereferencing the iterator fails the assertion
of `ptr::operator[]`. -/
theorem get_ptr_and_advance_stops_on_empty_node :
    ab_empty_cd.1._buffers.map (fun n => n.m_len) = [2, 0, 2] ∧
    ab_empty_cd.1.bytes ab_empty_cd.2 = str "ABCD" ∧
    (iter_op.get_ptr_and_advance 2 none).run ab_empty_cd.2 ab_empty_cd.1 0 ⟨0, 0, 0⟩
      = some (.returned ⟨1, 0, 2⟩) ∧
    (⟨1, 0, 2⟩ : iterator).end_ ab_empty_cd.1 = false ∧
    ab_empty_cd.1._buffers[1]?.map (fun n => n.m_len) = some 0 ∧
    ¬ (⟨1, 0, 2⟩ : iterator).placed ab_empty_cd.1 ∧
    (ab_empty_cd.1.bytes ab_empty_cd.2)[(⟨1, 0, 2⟩ : iterator).get_off]? = some 67 ∧
    (⟨1, 0, 2⟩ : iterator).deref ab_empty_cd.2 ab_empty_cd.1 = .error .assert_failed := by
  refine ⟨rfl, rfl, rfl, rfl, rfl, ?_, rfl, rfl⟩
  intro hp
  have := hp.2.1 { toptr := ⟨some 1, 0, 0⟩, node_addr := 1 } rfl
  exact absurd this (by decide)

/-! ## The number of nodes that `list::substr_of` builds (C39) -/

theorem overlapping_cons (pos : Nat) (n : ptr_node) (rest : List ptr_node) (off len : Nat) :
    overlapping_at pos (n :: rest) off len
      = (if max pos off < min (pos + n.m_len) (off + len) then 1 else 0) +
        overlapping_at (pos + n.m_len) rest off len := rfl

theorem starts_cons (pos : Nat) (n : ptr_node) (rest : List ptr_node) (x : Nat) :
    node_starts_at pos (n :: rest) x = (pos == x || node_starts_at (pos + n.m_len) rest x) := rfl

theorem overlapping_before : ∀ (nodes : List ptr_node) (pos off len : Nat),
    off + len ≤ pos → overlapping_at pos nodes off len = 0 := by
  intro nodes
  induction nodes with
  | nil => intro pos off len _; rfl
  | cons n rest ih =>
    intro pos off len h
    simp only [overlapping_cons]
    rw [ih (pos + n.m_len) off len (by omega), if_neg (by omega)]

theorem overlapping_shift (c : Nat) : ∀ (nodes : List ptr_node) (pos off len : Nat),
    overlapping_at (pos + c) nodes (off + c) len = overlapping_at pos nodes off len := by
  intro nodes
  induction nodes with
  | nil => intro pos off len; rfl
  | cons n rest ih =>
    intro pos off len
    simp only [overlapping_cons]
    have e : pos + c + n.m_len = pos + n.m_len + c := by omega
    rw [e, ih (pos + n.m_len) off len]
    congr 1
    by_cases h : max pos off < min (pos + n.m_len) (off + len)
    · rw [if_pos h, if_pos (by omega)]
    · rw [if_neg h, if_neg (by omega)]

theorem overlapping_clip : ∀ (nodes : List ptr_node) (pos off len : Nat), off ≤ pos →
    overlapping_at pos nodes off len = overlapping_at pos nodes pos (off + len - pos) := by
  intro nodes
  induction nodes with
  | nil => intro pos off len _; rfl
  | cons n rest ih =>
    intro pos off len h
    simp only [overlapping_cons]
    have e1 := ih (pos + n.m_len) off len (by omega)
    have e2 := ih (pos + n.m_len) pos (off + len - pos) (by omega)
    have e3 : pos + (off + len - pos) - (pos + n.m_len) = off + len - (pos + n.m_len) := by omega
    rw [e1, e2, e3]
    congr 1
    by_cases h1 : max pos off < min (pos + n.m_len) (off + len)
    · rw [if_pos h1, if_pos (by omega)]
    · rw [if_neg h1, if_neg (by omega)]

theorem starts_before : ∀ (nodes : List ptr_node) (pos x : Nat), x < pos →
    node_starts_at pos nodes x = false := by
  intro nodes
  induction nodes with
  | nil => intro pos x _; rfl
  | cons n rest ih =>
    intro pos x h
    simp only [starts_cons]
    rw [ih (pos + n.m_len) x (by omega)]
    simp only [Bool.or_false, beq_eq_false_iff_ne, ne_eq]
    omega

theorem starts_shift (c : Nat) : ∀ (nodes : List ptr_node) (pos x : Nat),
    node_starts_at (pos + c) nodes (x + c) = node_starts_at pos nodes x := by
  intro nodes
  induction nodes with
  | nil => intro pos x; rfl
  | cons n rest ih =>
    intro pos x
    simp only [starts_cons]
    have e : pos + c + n.m_len = pos + n.m_len + c := by omega
    rw [e, ih (pos + n.m_len) x]
    congr 1
    by_cases h : pos = x
    · subst h
      simp
    · have h2 : ¬ (pos + c = x + c) := by omega
      simp [h, h2]

/-- The first loop of `substr_of` skips nodes that lie before the range. -/
theorem substr_skip_nodes (len : Nat) : ∀ (S : List ptr_node) (off : Nat) (cur : List ptr_node)
    (off1 : Nat), (∀ n ∈ S, n.m_len ≠ 0) → substr_skip S off = .ok (cur, off1) →
    overlapping_at 0 S off len = overlapping_at 0 cur off1 len ∧
    node_starts_at 0 S (off + len) = node_starts_at 0 cur (off1 + len) ∧
    (∀ n ∈ cur, n.m_len ≠ 0) ∧ (∀ n rest, cur = n :: rest → off1 < n.m_len) ∧ off1 ≤ off := by
  intro S
  induction S with
  | nil =>
    intro off cur off1 _ h
    unfold substr_skip at h
    split at h
    · cases h
    · simp only [Except.ok.injEq, Prod.mk.injEq] at h
      obtain ⟨rfl, rfl⟩ := h
      refine ⟨rfl, rfl, ?_, ?_, Nat.le_refl _⟩
      · intro x hx
        cases hx
      · intro x r hc
        cases hc
  | cons n rest ih =>
    intro off cur off1 hnz h
    have hn0 := hnz n (List.mem_cons_self _ _)
    unfold substr_skip at h
    simp only [ptr.length] at h
    split at h
    · rename_i hc
      obtain ⟨a, b, c, d, e⟩ := ih (off - n.m_len) cur off1
        (fun x hx => hnz x (List.mem_cons_of_mem _ hx)) h
      refine ⟨?_, ?_, c, d, by omega⟩
      · rw [← a]
        simp only [overlapping_cons]
        rw [if_neg (by omega), Nat.zero_add, Nat.zero_add]
        have := overlapping_shift n.m_len rest 0 (off - n.m_len) len
        rw [Nat.zero_add, Nat.sub_add_cancel hc.2] at this
        exact this
      · rw [← b]
        simp only [starts_cons]
        have h0 : ((0 : Nat) == off + len) = false := by
          simp only [beq_eq_false_iff_ne, ne_eq]
          omega
        rw [h0, Bool.false_or, Nat.zero_add]
        have := starts_shift n.m_len rest 0 (off - n.m_len + len)
        rw [Nat.zero_add] at this
        rw [← this]
        congr 1
        omega
    · rename_i hc
      simp only [Except.ok.injEq, Prod.mk.injEq] at h
      obtain ⟨rfl, rfl⟩ := h
      refine ⟨rfl, rfl, hnz, ?_, Nat.le_refl _⟩
      intro n1 rest1 e
      injection e with e1 _
      subst e1
      omega

/-- The second loop of `substr_of`, when it is left: one node for every
node that overlaps the range, and a last, empty node when the range is empty
or ends where a node starts. -/
theorem substr_loop_nodes : ∀ (cur : List ptr_node) (m : Mem) (L : list) (off len : Nat)
    (L1 : list) (m1 : Mem), (∀ n ∈ cur, n.m_len ≠ 0) →
    (∀ n rest, cur = n :: rest → off < n.m_len) → off + len < U64 →
    substr_loop m L cur off len = .ok (L1, m1) →
    L1._buffers.length = L._buffers.length + overlapping_at 0 cur off len +
      (if len = 0 ∨ node_starts_at 0 cur (off + len) = true then 1 else 0) ∧
    ((len = 0 ∨ node_starts_at 0 cur (off + len) = true) →
      ∃ n, L1._buffers.getLast? = some n ∧ n.m_len = 0) ∧
    (¬ (len = 0 ∨ node_starts_at 0 cur (off + len) = true) →
      (∀ n ∈ L._buffers, n.m_len ≠ 0) → ∀ n ∈ L1._buffers, n.m_len ≠ 0) := by
  intro cur
  induction cur with
  | nil => intro m L off len L1 m1 _ _ _ h; simp [substr_loop] at h
  | cons curbuf rest ih =>
    intro m L off len L1 m1 hnz hoff hU h
    have ho := hoff curbuf rest rfl
    have hmod : (off + len) % U64 = off + len := Nat.mod_eq_of_lt hU
    simp only [substr_loop, hmod, ptr.length] at h
    by_cases hp : off + len < curbuf.m_len
    · rw [if_pos hp] at h
      cases hs : ptr_node.create_slice m curbuf.toptr off len with
      | error e => simp [hs] at h
      | ok v =>
        obtain ⟨n, m2⟩ := v
        simp only [hs, Except.ok.injEq, Prod.mk.injEq] at h
        obtain ⟨rfl, _⟩ := h
        have hn := (create_slice_len m _ off len n m2 hs).1
        have hst : node_starts_at 0 (curbuf :: rest) (off + len) = decide (len = 0 ∧ off = 0) := by
          simp only [starts_cons]
          rw [starts_before rest _ _ (by omega), Bool.or_false]
          by_cases hz : len = 0 ∧ off = 0
          · simp [hz]
          · rw [decide_eq_false hz]
            simp only [beq_eq_false_iff_ne, ne_eq]
            omega
        have hov : overlapping_at 0 (curbuf :: rest) off len = if 0 < len then 1 else 0 := by
          simp only [overlapping_cons]
          rw [overlapping_before rest _ _ _ (by omega), Nat.add_zero]
          by_cases hl : 0 < len
          · rw [if_pos hl, if_pos (by omega)]
          · rw [if_neg hl, if_neg (by omega)]
        have hcond : (len = 0 ∨ node_starts_at 0 (curbuf :: rest) (off + len) = true) ↔ len = 0 := by
          rw [hst]
          simp only [decide_eq_true_eq]
          constructor
          · rintro (h1 | h1)
            · exact h1
            · exact h1.1
          · intro h1
            exact Or.inl h1
        simp only [hcond, hov, List.length_append, List.length_singleton]
        refine ⟨?_, ?_, ?_⟩
        · by_cases hl : len = 0
          · rw [if_neg (by omega), if_pos hl]
          · rw [if_pos (by omega), if_neg hl]
        · intro hl
          exact ⟨n, by simp, by omega⟩
        · intro hl hL x hx
          rw [List.mem_append, List.mem_singleton] at hx
          rcases hx with hx | rfl
          · exact hL x hx
          · omega
    · rw [if_neg hp] at h
      cases hs : ptr_node.create_slice m curbuf.toptr off (curbuf.m_len - off) with
      | error e => simp [hs] at h
      | ok v =>
        obtain ⟨n, m2⟩ := v
        simp only [hs] at h
        have hn := (create_slice_len m _ off _ n m2 hs).1
        have hlen : 0 < len := by omega
        have hro : ∀ x r, rest = x :: r → 0 < x.m_len := by
          intro x r e
          have := hnz x (List.mem_cons_of_mem _ (by rw [e]; exact List.mem_cons_self _ _))
          omega
        have hU2 : 0 + (len - (curbuf.m_len - off)) < U64 := by omega
        have hst : node_starts_at 0 (curbuf :: rest) (off + len)
            = node_starts_at 0 rest (0 + (len - (curbuf.m_len - off))) := by
          simp only [starts_cons]
          have h0 : ((0 : Nat) == off + len) = false := by
            simp only [beq_eq_false_iff_ne, ne_eq]
            omega
          rw [h0, Bool.false_or, Nat.zero_add]
          have := starts_shift curbuf.m_len rest 0 (0 + (len - (curbuf.m_len - off)))
          rw [Nat.zero_add] at this
          rw [← this]
          congr 1
          omega
        have hov : overlapping_at 0 (curbuf :: rest) off len
            = 1 + overlapping_at 0 rest 0 (len - (curbuf.m_len - off)) := by
          simp only [overlapping_cons]
          rw [if_pos (by omega), Nat.zero_add]
          congr 1
          rw [overlapping_clip rest curbuf.m_len off len (by omega)]
          have := overlapping_shift curbuf.m_len rest 0 0 (off + len - curbuf.m_len)
          rw [Nat.zero_add] at this
          rw [this]
          congr 1
          omega
        obtain ⟨i1, i2, i3⟩ := ih m2 _ 0 (len - (curbuf.m_len - off)) L1 m1
          (fun x hx => hnz x (List.mem_cons_of_mem _ hx)) hro hU2 h
        have hrest : rest ≠ [] := by
          intro e
          subst e
          simp [substr_loop] at h
        have hz : (len - (curbuf.m_len - off) = 0 ∨
            node_starts_at 0 rest (0 + (len - (curbuf.m_len - off))) = true) ↔
            (len = 0 ∨ node_starts_at 0 (curbuf :: rest) (off + len) = true) := by
          rw [hst]
          constructor
          · rintro (h1 | h1)
            · right
              rw [h1]
              cases rest with
              | nil => exact absurd rfl hrest
              | cons r rs => simp [node_starts_at]
            · exact Or.inr h1
          · rintro (h1 | h1)
            · omega
            · exact Or.inr h1
        simp only [List.length_append, List.length_singleton] at i1
        refine ⟨?_, ?_, ?_⟩
        · rw [i1, hov]
          by_cases hc : len = 0 ∨ node_starts_at 0 (curbuf :: rest) (off + len) = true
          · rw [if_pos hc, if_pos (hz.2 hc)]
            omega
          · rw [if_neg hc, if_neg (fun x => hc (hz.1 x))]
            omega
        · intro hc
          exact i2 (hz.2 hc)
        · intro hc hL
          apply i3 (fun x => hc (hz.1 x))
          intro x hx
          rw [List.mem_append, List.mem_singleton] at hx
          rcases hx with hx | rfl
          · exact hL x hx
          · omega

theorem substr_skip_returns : ∀ (S : List ptr_node) (off : Nat), off < nodes_len S →
    ∃ cur off1, substr_skip S off = .ok (cur, off1) ∧ (∀ n ∈ cur, n ∈ S) ∧
      nodes_len cur + off = nodes_len S + off1 ∧ off1 ≤ off ∧
      (∀ n rest, cur = n :: rest → off1 ≤ n.m_len) := by
  intro S
  induction S with
  | nil =>
    intro off h
    simp only [nodes_len] at h
    omega
  | cons n rest ih =>
    intro off h
    simp only [nodes_len] at h
    unfold substr_skip
    simp only [ptr.length]
    by_cases hc : off > 0 ∧ off ≥ n.m_len
    · rw [if_pos hc]
      obtain ⟨cur, off1, a, b, c, c2, d⟩ := ih (off - n.m_len) (by omega)
      refine ⟨cur, off1, a, fun x hx => List.mem_cons_of_mem _ (b x hx), ?_, by omega, d⟩
      simp only [nodes_len]
      omega
    · rw [if_neg hc]
      refine ⟨n :: rest, off, rfl, fun x hx => hx, rfl, Nat.le_refl _, ?_⟩
      intro n1 rest1 e
      injection e with e1 _
      subst e1
      omega

theorem nref_inc_live (m m1 : Mem) (i : Nat) (h : m.nref_inc i = .ok m1) (j : Nat) (r : raw)
    (hj : m.raws j = some r) : ∃ r1, m1.raws j = some r1 := by
  unfold Mem.nref_inc at h
  cases hi : m.raws i with
  | none => simp only [hi] at h; cases h
  | some ri =>
    simp only [hi, Except.ok.injEq] at h
    subst h
    unfold Mem.set_raw
    simp only []
    by_cases e : j = i
    · rw [if_pos e]
      exact ⟨_, rfl⟩
    · rw [if_neg e]
      exact ⟨r, hj⟩

theorem create_slice_returns (m : Mem) (p : ptr) (off len : Nat) (i : Nat) (r : raw)
    (hp : p.m_raw = some i) (hr : m.raws i = some r) (hle : off + len ≤ p.m_len)
    (hU : off + len < U64) :
    ∃ n m1, ptr_node.create_slice m p off len = .ok (n, m1) ∧
      ∀ j rj, m.raws j = some rj → ∃ r1, m1.raws j = some r1 := by
  unfold ptr_node.create_slice ptr.slice
  rw [Nat.mod_eq_of_lt hU, if_pos hle]
  simp only [hp]
  cases hi : m.nref_inc i with
  | error e =>
    unfold Mem.nref_inc at hi
    simp only [hr] at hi
    cases hi
  | ok m1 =>
    refine ⟨_, _, rfl, ?_⟩
    intro j rj hj
    exact nref_inc_live m m1 i hi j rj hj

/-- The second loop of `substr_of` is left when the range ends before the
end of the chain. -/
theorem substr_loop_returns : ∀ (cur : List ptr_node) (m : Mem) (L : list) (off len : Nat),
    (∀ n ∈ cur, ∃ i r, n.m_raw = some i ∧ m.raws i = some r) →
    (∀ n rest, cur = n :: rest → off ≤ n.m_len) → off + len < nodes_len cur →
    nodes_len cur < U64 → ∃ v, substr_loop m L cur off len = .ok v := by
  intro cur
  induction cur with
  | nil =>
    intro m L off len _ _ h _
    simp only [nodes_len] at h
    omega
  | cons curbuf rest ih =>
    intro m L off len hlive hoff hlt hU
    simp only [nodes_len] at hlt hU
    have ho := hoff curbuf rest rfl
    obtain ⟨i, r, hi, hr⟩ := hlive curbuf (List.mem_cons_self _ _)
    have hmod : (off + len) % U64 = off + len := Nat.mod_eq_of_lt (by omega)
    simp only [substr_loop, hmod, ptr.length]
    by_cases hp : off + len < curbuf.m_len
    · rw [if_pos hp]
      obtain ⟨n, m1, e, _⟩ := create_slice_returns m curbuf.toptr off len i r hi hr
        (by omega) (by omega)
      rw [e]
      exact ⟨_, rfl⟩
    · rw [if_neg hp]
      obtain ⟨n, m1, e, hl⟩ := create_slice_returns m curbuf.toptr off (curbuf.m_len - off) i r
        hi hr (by omega) (by omega)
      rw [e]
      simp only []
      apply ih m1 _ 0 (len - (curbuf.m_len - off))
      · intro x hx
        obtain ⟨j, rj, a, b⟩ := hlive x (List.mem_cons_of_mem _ hx)
        obtain ⟨r1, c⟩ := hl j rj b
        exact ⟨j, r1, a, c⟩
      · intro x r1 _
        exact Nat.zero_le _
      · omega
      · omega

/-- C39: `substr_of(S, off, len)` on a source without empty node whose
`length()` is the sum of the node lengths, for an in-range `(off, len)`.
When the range ends before the end of the source (and the nodes of the
source view live regions, the destination being a list without nodes) the
call returns.  Whenever it returns, the list it has built has one node for
every node of the source that overlaps `[off, off + len)` in at least one
byte, and one more node when the range is empty or ends where a node of the
source starts: in that case the last node of the result is empty, and
otherwise no node of the result is empty. -/
theorem substr_of_node_count (m : Mem) (D S : list) (off len : Nat)
    (hnz : ∀ n ∈ S._buffers, n.m_len ≠ 0) (hlen : S._len = nodes_len S._buffers)
    (hU : S._len < U64) (hin : off + len ≤ S.length) :
    (D._buffers = [] → (∀ n ∈ S._buffers, ∃ i r, n.m_raw = some i ∧ m.raws i = some r) →
      off + len < S.length → ∃ L1 m1, D.substr_of m S off len = .ok (L1, m1)) ∧
    (∀ L1 m1, D.substr_of m S off len = .ok (L1, m1) →
      L1._buffers.length = S.overlapping off len +
        (if len = 0 ∨ node_starts_at 0 S._buffers (off + len) = true then 1 else 0) ∧
      ((len = 0 ∨ node_starts_at 0 S._buffers (off + len) = true) →
        ∃ n, L1._buffers.getLast? = some n ∧ n.m_len = 0) ∧
      (¬ (len = 0 ∨ node_starts_at 0 S._buffers (off + len) = true) →
        ∀ n ∈ L1._buffers, n.m_len ≠ 0)) := by
  unfold list.length at hin
  have hmod : (off + len) % U64 = off + len := Nat.mod_eq_of_lt (by omega)
  constructor
  · intro hD hlive hlt
    unfold list.length at hlt
    unfold list.substr_of
    simp only [hmod, list.length]
    rw [if_neg (by omega)]
    unfold list.clear
    simp only [hD, clear_and_dispose]
    obtain ⟨cur, off1, a, b, c, c2, d⟩ := substr_skip_returns S._buffers off (by omega)
    simp only [a]
    have hcur : cur ≠ [] := by
      intro e
      subst e
      simp only [nodes_len] at c
      omega
    rw [if_pos (Or.inr hcur)]
    obtain ⟨v, hv⟩ := substr_loop_returns cur m
      { _buffers := [], _tail_pnode_cache := none, _len := 0, _num := 0 } off1 len
      (fun x hx => hlive x (b x hx)) d (by omega) (by omega)
    exact ⟨v.1, v.2, hv⟩
  · intro L1 m1 h
    unfold list.substr_of at h
    simp only [hmod, list.length] at h
    rw [if_neg (by omega)] at h
    cases hc : D.clear m with
    | error e => simp [hc] at h
    | ok v =>
      obtain ⟨D1, m2⟩ := v
      simp only [hc] at h
      have hD1 := (clear_counted m D D1 m2 hc).2
      cases hs : substr_skip S._buffers off with
      | error e => simp [hs] at h
      | ok w =>
        obtain ⟨cur, off1⟩ := w
        simp only [hs] at h
        obtain ⟨a, b, c, d, e⟩ := substr_skip_nodes len S._buffers off cur off1 hnz hs
        split at h
        · obtain ⟨i1, i2, i3⟩ := substr_loop_nodes cur m2 D1 off1 len L1 m1 c d (by omega) h
          unfold list.overlapping
          rw [a, b]
          rw [hD1] at i1 i3
          simp only [List.length_nil, Nat.zero_add] at i1
          exact ⟨i1, i2, fun hc => i3 hc (fun x hx => by cases hx)⟩
        · cases h

/-- C39 witness: on `ABC`, `DEF`, `GHI`, `JKL` the range `[3, 6)` is the
node `DEF`, the only node it overlaps, and it ends where `GHI` starts:
`substr_of(S, 3, 3)` builds two nodes, `DEF` and an empty one.  The empty
range `(4, 0)` overlaps no node and gives one empty node.  The range
`[4, 8)` of the test overlaps two nodes and ends inside `GHI`: two nodes,
none of them empty. -/
theorem substr_of_node_count_witness :
    abc_jkl.1._buffers.map (fun n => n.m_len) = [3, 3, 3, 3] ∧
    abc_jkl.1.overlapping 3 3 = 1 ∧ node_starts_at 0 abc_jkl.1._buffers (3 + 3) = true ∧
    (∃ L1 m1, list.mk_empty.substr_of abc_jkl.2 abc_jkl.1 3 3 = .ok (L1, m1) ∧
      L1._buffers.length = 1 + 1 ∧ ∃ n, L1._buffers.getLast? = some n ∧ n.m_len = 0) ∧
    observe substr_3_3 = .ok (3, 2, [3, 0], str "DEF") ∧
    abc_jkl.1.overlapping 4 0 = 0 ∧ observe substr_4_0 = .ok (0, 1, [0], []) ∧
    abc_jkl.1.overlapping 4 4 = 2 ∧ node_starts_at 0 abc_jkl.1._buffers (4 + 4) = false ∧
    observe substr_4_4 = .ok (4, 2, [2, 2], str "EFGH") := by
  have hb : abc_jkl.1._buffers
      = [{ toptr := ⟨some 0, 0, 3⟩, node_addr := 0 }, { toptr := ⟨some 1, 0, 3⟩, node_addr := 1 },
         { toptr := ⟨some 2, 0, 3⟩, node_addr := 2 }, { toptr := ⟨some 3, 0, 3⟩, node_addr := 3 }] :=
    rfl
  have hnz : ∀ n ∈ abc_jkl.1._buffers, n.m_len ≠ 0 := by
    intro n hn
    rw [hb] at hn
    simp only [List.mem_cons, List.mem_singleton, List.not_mem_nil, or_false] at hn
    rcases hn with rfl | rfl | rfl | rfl <;> decide
  have hlive : ∀ n ∈ abc_jkl.1._buffers, ∃ i r, n.m_raw = some i ∧ abc_jkl.2.raws i = some r := by
    intro n hn
    rw [hb] at hn
    simp only [List.mem_cons, List.mem_singleton, List.not_mem_nil, or_false] at hn
    rcases hn with rfl | rfl | rfl | rfl
    · exact ⟨0, _, rfl, rfl⟩
    · exact ⟨1, _, rfl, rfl⟩
    · exact ⟨2, _, rfl, rfl⟩
    · exact ⟨3, _, rfl, rfl⟩
  have e1 : abc_jkl.1.overlapping 3 3 = 1 := by decide
  have e2 : node_starts_at 0 abc_jkl.1._buffers (3 + 3) = true := by decide
  obtain ⟨p1, p2⟩ := substr_of_node_count abc_jkl.2 list.mk_empty abc_jkl.1 3 3 hnz rfl
    (by decide) (by decide)
  obtain ⟨L1, m1, hr⟩ := p1 rfl hlive (by decide)
  obtain ⟨q1, q2, _⟩ := p2 L1 m1 hr
  rw [e1, if_pos (Or.inr e2)] at q1
  exact ⟨rfl, e1, e2, ⟨L1, m1, hr, q1, q2 (Or.inr e2)⟩, rfl, by decide, rfl, by decide,
    by decide, rfl⟩

/-! ## The pool counters over the life of a region (C35) -/

theorem to_ssize_idem (r x : Int) : to_ssize (to_ssize r + x) = to_ssize (r + x) := by
  unfold to_ssize
  simp only [U64_val]
  push_cast
  split <;> split <;> split <;> omega

theorem to_ssize_zero : to_ssize 0 = 0 := by decide

theorem to_ssize_congr (a b : Int) (h : a % (U64 : Int) = b % (U64 : Int)) :
    to_ssize a = to_ssize b := by
  unfold to_ssize
  rw [h]

/-- The loop over the shards computes the sum of the counters as an
`ssize_t`. -/
theorem sum_loop_spec (f : shard_t → Nat) : ∀ (l : List shard_t) (r : Int),
    sum_loop f l (to_ssize r) = to_ssize (r + ((l.map f).sum : Nat)) := by
  intro l
  induction l with
  | nil =>
    intro r
    simp [sum_loop]
  | cons s rest ih =>
    intro r
    simp only [sum_loop, List.map_cons, List.sum_cons]
    rw [to_ssize_idem, ih]
    congr 1
    push_cast
    ring

theorem sum_loop_total (f : shard_t → Nat) (l : List shard_t) :
    sum_loop f l 0 = to_ssize (((l.map f).sum : Nat) : Int) := by
  have := sum_loop_spec f l 0
  rw [to_ssize_zero, Int.zero_add] at this
  exact this

theorem sum_set (f : shard_t → Nat) : ∀ (l : List shard_t) (i : Nat) (s v : shard_t),
    l[i]? = some s → ((l.set i v).map f).sum + f s = (l.map f).sum + f v := by
  intro l
  induction l with
  | nil =>
    intro i s v h
    simp at h
  | cons a rest ih =>
    intro i s v h
    cases i with
    | zero =>
      simp only [List.getElem?_cons_zero, Option.some.injEq] at h
      subst h
      simp only [List.set_cons_zero, List.map_cons, List.sum_cons]
      omega
    | succ j =>
      simp only [List.getElem?_cons_succ] at h
      have := ih j s v h
      simp only [List.set_cons_succ, List.map_cons, List.sum_cons]
      omega

theorem size_add_cast (x : Nat) (d : Int) :
    ((size_add x d : Nat) : Int) = ((x : Int) + d) % (U64 : Int) := by
  unfold size_add
  rw [Int.toNat_of_nonneg]
  apply Int.emod_nonneg
  simp [U64_val]

theorem pick_a_shard_lt (self : Nat) : pool_type.pick_a_shard self < num_shards := by
  unfold pool_type.pick_a_shard
  have : num_shards - 1 < 2 ^ 5 := by decide
  have h := Nat.and_lt_two_pow ((self % U64) >>> 3) this
  have e : num_shards = 2 ^ 5 := by decide
  rw [e]
  exact h

/-- The effect of `adjust_count` on the sums of the counters over the
shards, modulo `2 ^ 64`. -/
theorem adjust_count_sums (p : pool_type) (self : Nat) (items bytes : Int)
    (hp : p.shard.length = num_shards) :
    (p.adjust_count self items bytes).shard.length = num_shards ∧
    ((((p.adjust_count self items bytes).shard.map shard_t.allocated_bytes).sum : Nat) : Int)
        % (U64 : Int)
      = ((((p.shard.map shard_t.allocated_bytes).sum : Nat) : Int) + bytes) % (U64 : Int) ∧
    ((((p.adjust_count self items bytes).shard.map shard_t.allocated_items).sum : Nat) : Int)
        % (U64 : Int)
      = ((((p.shard.map shard_t.allocated_items).sum : Nat) : Int) + items) % (U64 : Int) := by
  have hlt := pick_a_shard_lt self
  obtain ⟨s, hs⟩ : ∃ s, p.shard[pool_type.pick_a_shard self]? = some s :=
    ⟨_, List.getElem?_eq_getElem (by omega)⟩
  unfold pool_type.adjust_count
  simp only [hs]
  refine ⟨by simp [hp], ?_, ?_⟩
  · have h1 := sum_set shard_t.allocated_bytes p.shard (pool_type.pick_a_shard self) s
      { allocated_bytes := size_add s.allocated_bytes bytes,
        allocated_items := size_add s.allocated_items items } hs
    have h2 := size_add_cast s.allocated_bytes bytes
    simp only [] at h1
    generalize size_add s.allocated_bytes bytes = v at h1 h2
    generalize (List.map shard_t.allocated_bytes (p.shard.set (pool_type.pick_a_shard self)
      { allocated_bytes := v, allocated_items := size_add s.allocated_items items })).sum = A at h1 ⊢
    generalize (List.map shard_t.allocated_bytes p.shard).sum = B at h1 ⊢
    simp only [U64_val] at *
    omega
  · have h1 := sum_set shard_t.allocated_items p.shard (pool_type.pick_a_shard self) s
      { allocated_bytes := size_add s.allocated_bytes bytes,
        allocated_items := size_add s.allocated_items items } hs
    have h2 := size_add_cast s.allocated_items items
    simp only [] at h1
    generalize size_add s.allocated_items items = v at h1 h2
    generalize (List.map shard_t.allocated_items (p.shard.set (pool_type.pick_a_shard self)
      { allocated_bytes := size_add s.allocated_bytes bytes, allocated_items := v })).sum = A at h1 ⊢
    generalize (List.map shard_t.allocated_items p.shard).sum = B at h1 ⊢
    simp only [U64_val] at *
    omega

theorem allocated_bytes_congr (p q : pool_type)
    (h : (((q.shard.map shard_t.allocated_bytes).sum : Nat) : Int) % (U64 : Int)
      = (((p.shard.map shard_t.allocated_bytes).sum : Nat) : Int) % (U64 : Int)) :
    q.allocated_bytes = p.allocated_bytes := by
  unfold pool_type.allocated_bytes
  rw [sum_loop_total, sum_loop_total, to_ssize_congr _ _ h]

theorem allocated_items_congr (p q : pool_type)
    (h : (((q.shard.map shard_t.allocated_items).sum : Nat) : Int) % (U64 : Int)
      = (((p.shard.map shard_t.allocated_items).sum : Nat) : Int) % (U64 : Int)) :
    q.allocated_items = p.allocated_items := by
  unfold pool_type.allocated_items
  rw [sum_loop_total, sum_loop_total, to_ssize_congr _ _ h]

theorem to_int_min (x : Nat) : to_int x = -(2 ^ 31) ↔ x % 2 ^ 32 = 2 ^ 31 := by
  unfold to_int
  split <;> omega

theorem to_int_small (x : Nat) (h : x < 2 ^ 31) : to_int x = (x : Int) := by
  unfold to_int
  have e : x % 2 ^ 32 = x := Nat.mod_eq_of_lt (by omega)
  rw [e, if_pos h]

/-- C35: the counters of a pool with `num_shards` shards over the life of a
region of `len` bytes, created on one thread and destroyed on any thread.  The constructor adds 1 item and `len` bytes to the sums of the
shards (modulo `2^64`).  The destructor evaluates `-(int)m_len`: for
`len mod 2^32 == 2^31` the negation overflows (undefined behaviour);
otherwise it returns, `allocated_items()` is what it was before the region
was created, and the sum of the byte counters has moved by `len - (int)len`
modulo `2^64`, so that `allocated_bytes()` is what it was before for every
`len < 2^31`. -/
theorem raw_lifetime_counters (p : pool_type) (t1 t2 len : Nat)
    (hp : p.shard.length = num_shards) :
    ((((raw.created p t1 len).shard.map shard_t.allocated_items).sum : Nat) : Int) % (U64 : Int)
      = ((((p.shard.map shard_t.allocated_items).sum : Nat) : Int) + 1) % (U64 : Int) ∧
    ((((raw.created p t1 len).shard.map shard_t.allocated_bytes).sum : Nat) : Int) % (U64 : Int)
      = ((((p.shard.map shard_t.allocated_bytes).sum : Nat) : Int) + (len : Int)) % (U64 : Int) ∧
    (len % 2 ^ 32 = 2 ^ 31 →
      raw.destroyed (raw.created p t1 len) t2 len = .error .undefined) ∧
    (len % 2 ^ 32 ≠ 2 ^ 31 →
      ∃ p2, raw.destroyed (raw.created p t1 len) t2 len = .ok p2 ∧
        p2.allocated_items = p.allocated_items ∧
        (((p2.shard.map shard_t.allocated_bytes).sum : Nat) : Int) % (U64 : Int)
          = ((((p.shard.map shard_t.allocated_bytes).sum : Nat) : Int) + (len : Int)
              - to_int len) % (U64 : Int) ∧
        (len < 2 ^ 31 → p2.allocated_bytes = p.allocated_bytes)) := by
  obtain ⟨c1, c2, c3⟩ := adjust_count_sums p t1 1 (to_ssize (len : Int)) hp
  obtain ⟨_, d2, d3⟩ := adjust_count_sums (p.adjust_count t1 1 (to_ssize (len : Int))) t2 (-1)
    (-(to_int len)) c1
  have hs : to_ssize (len : Int) % (U64 : Int) = (len : Int) % (U64 : Int) := by
    unfold to_ssize
    simp only [U64_val] at *
    split <;> omega
  have hbytes : ((((p.adjust_count t1 1 (to_ssize (len : Int))).shard.map
      shard_t.allocated_bytes).sum : Nat) : Int) % (U64 : Int)
      = ((((p.shard.map shard_t.allocated_bytes).sum : Nat) : Int) + (len : Int))
        % (U64 : Int) := by
    rw [c2, Int.add_emod, hs, ← Int.add_emod]
  have hfin : ((((p.adjust_count t1 1 (to_ssize (len : Int))).adjust_count t2 (-1)
      (-(to_int len))).shard.map shard_t.allocated_bytes).sum : Nat) % (U64 : Int)
      = ((((p.shard.map shard_t.allocated_bytes).sum : Nat) : Int) + (len : Int)
          - to_int len) % (U64 : Int) := by
    rw [d2, Int.add_emod, hbytes, ← Int.add_emod]
    rfl
  have hitems : ((((p.adjust_count t1 1 (to_ssize (len : Int))).adjust_count t2 (-1)
      (-(to_int len))).shard.map shard_t.allocated_items).sum : Nat) % (U64 : Int)
      = (((p.shard.map shard_t.allocated_items).sum : Nat) : Int) % (U64 : Int) := by
    rw [d3]
    generalize (((List.map shard_t.allocated_items
      (p.adjust_count t1 1 (to_ssize (len : Int))).shard).sum : Nat) : Int) = A at c3 ⊢
    generalize (((List.map shard_t.allocated_items p.shard).sum : Nat) : Int) = B at c3 ⊢
    simp only [U64_val] at *
    omega
  refine ⟨c3, hbytes, ?_, ?_⟩
  · intro h
    unfold raw.destroyed
    rw [if_pos ((to_int_min len).2 h)]
  · intro h
    unfold raw.destroyed raw.created
    rw [if_neg (fun e => h ((to_int_min len).1 e))]
    refine ⟨_, rfl, allocated_items_congr _ _ hitems, hfin, ?_⟩
    intro hsm
    apply allocated_bytes_congr
    rw [hfin, to_int_small len hsm, Int.add_sub_cancel]

set_option maxRecDepth 100000 in
theorem pool_counts_test :
    pool_type.mk_empty.allocated_items = 0 ∧ pool_type.mk_empty.allocated_bytes = 0 ∧
    (raw.created pool_type.mk_empty 0 10).allocated_items = 1 ∧
    (raw.created pool_type.mk_empty 0 10).allocated_bytes = 10 ∧
    (raw.created pool_type.mk_empty 0 (2 ^ 32)).allocated_bytes = 2 ^ 32 ∧
    (∃ p2, raw.destroyed (raw.created pool_type.mk_empty 0 (2 ^ 32)) 0 (2 ^ 32) = .ok p2 ∧
      p2.allocated_items = 0 ∧ p2.allocated_bytes = 2 ^ 32) :=
  ⟨by decide, by decide, by decide, by decide, by decide, ⟨_, rfl, by decide, by decide⟩⟩

/-- C35 witness: on a pool with all counters 0, a region of 10 bytes
created on the thread 0 and destroyed on the thread 8 (another shard) leaves
both accessors at 0; a region of `2^32` bytes adds `2^32` bytes when it is
created and takes `(int)2^32 == 0` bytes back when it is destroyed, so
`allocated_bytes()` stays at `2^32`; a region of `2^31` bytes cannot be
destroyed without overflow. -/
theorem raw_lifetime_counters_witness :
    pool_type.mk_empty.allocated_items = 0 ∧ pool_type.mk_empty.allocated_bytes = 0 ∧
    (raw.created pool_type.mk_empty 0 10).allocated_items = 1 ∧
    (raw.created pool_type.mk_empty 0 10).allocated_bytes = 10 ∧
    (∃ p2, raw.destroyed (raw.created pool_type.mk_empty 0 10) 8 10 = .ok p2 ∧
      p2.allocated_items = 0 ∧ p2.allocated_bytes = 0) ∧
    (raw.created pool_type.mk_empty 0 (2 ^ 32)).allocated_bytes = 2 ^ 32 ∧
    (∃ p2, raw.destroyed (raw.created pool_type.mk_empty 0 (2 ^ 32)) 0 (2 ^ 32) = .ok p2 ∧
      p2.allocated_items = 0 ∧ p2.allocated_bytes = 2 ^ 32) ∧
    raw.destroyed (raw.created pool_type.mk_empty 0 (2 ^ 31)) 0 (2 ^ 31) = .error .undefined := by
  obtain ⟨_, _, _, a4⟩ := raw_lifetime_counters pool_type.mk_empty 0 8 10 rfl
  obtain ⟨p2, b1, b2, _, b4⟩ := a4 (by decide)
  obtain ⟨_, _, c3, _⟩ := raw_lifetime_counters pool_type.mk_empty 0 0 (2 ^ 31) rfl
  obtain ⟨e0, e1, e2, e3, e4, e5⟩ := pool_counts_test
  exact ⟨e0, e1, e2, e3, ⟨p2, b1, b2.trans e0, (b4 (by norm_num)).trans e1⟩, e4, e5,
    c3 (by decide)⟩

/-! ## `list::write_fd(int, uint64_t)` (C36) -/

theorem drain_spec : ∀ (vec : List (List Nat)) (r : Nat), r ≤ vec.flatten.length →
    ∃ vec1, drain vec r = .ok vec1 ∧ vec1.flatten = vec.flatten.drop r := by
  intro vec
  induction vec with
  | nil =>
    intro r h
    simp only [List.flatten_nil, List.length_nil, Nat.le_zero] at h
    subst h
    exact ⟨[], rfl, rfl⟩
  | cons v rest ih =>
    intro r h
    cases r with
    | zero => exact ⟨v :: rest, rfl, rfl⟩
    | succ r =>
      simp only [List.flatten_cons, List.length_append] at h
      simp only [drain]
      by_cases hv : v.length ≤ r + 1
      · rw [if_pos hv]
        obtain ⟨vec1, a, b⟩ := ih (r + 1 - v.length) (by omega)
        refine ⟨vec1, a, ?_⟩
        rw [b, List.flatten_cons, List.drop_append_eq_append_drop,
          List.drop_of_length_le hv, List.nil_append]
      · rw [if_neg hv]
        refine ⟨_, rfl, ?_⟩
        rw [List.flatten_cons, List.flatten_cons, List.drop_append_eq_append_drop]
        have : r + 1 - v.length = 0 := by omega
        rw [this, List.drop_zero]

/-- Every return of `do_writev` returns 0: a failed `pwritev` is never
reported. -/
theorem do_writev_returns_zero (oracle : Nat → resp) : ∀ (fuel : Nat) (s : io)
    (vec : List (List Nat)) (offset bytes : Nat) (v : Int) (s1 : io),
    do_writev oracle fuel s vec offset bytes = some (.ok (v, s1)) → v = 0 := by
  intro fuel
  induction fuel with
  | zero =>
    intro s vec offset bytes v s1 h
    simp only [do_writev] at h
    split at h
    · simp only [Option.some.injEq, Except.ok.injEq, Prod.mk.injEq] at h
      exact h.1.symm
    · cases h
  | succ fuel ih =>
    intro s vec offset bytes v s1 h
    simp only [do_writev] at h
    split at h
    · simp only [Option.some.injEq, Except.ok.injEq, Prod.mk.injEq] at h
      exact h.1.symm
    · split at h
      · rw [if_pos (by decide)] at h
        exact ih _ _ _ _ _ _ h
      · split at h
        · simp only [Option.some.injEq, Except.ok.injEq, Prod.mk.injEq] at h
          exact h.1.symm
        · split at h
          · cases h
          · exact ih _ _ _ _ _ _ h

/-- With a `pwritev` that fails on every call, whatever the error number,
`do_writev` with bytes to write does not return. -/
theorem do_writev_never_returns (oracle : Nat → resp) (hf : ∀ k, ∃ e, oracle k = .failed e) :
    ∀ (fuel : Nat) (s : io) (vec : List (List Nat)) (offset bytes : Nat), bytes ≠ 0 →
    do_writev oracle fuel s vec offset bytes = none := by
  intro fuel
  induction fuel with
  | zero =>
    intro s vec offset bytes hb
    simp only [do_writev, if_neg hb]
  | succ fuel ih =>
    intro s vec offset bytes hb
    obtain ⟨e, he⟩ := hf s.calls
    simp only [do_writev, if_neg hb, pwritev, he]
    rw [if_pos (by decide)]
    exact ih _ _ _ _ hb

theorem written_append (a b : List (Nat × List Nat)) : written (a ++ b) = written a ++ written b := by
  unfold written
  rw [List.map_append, List.flatten_append]

theorem contiguous_append : ∀ (a b : List (Nat × List Nat)) (start : Nat),
    contiguous_from start (a ++ b)
      = (contiguous_from start a && contiguous_from (start + (written a).length) b) := by
  intro a
  induction a with
  | nil =>
    intro b start
    simp [contiguous_from, written]
  | cons w rest ih =>
    intro b start
    obtain ⟨off, data⟩ := w
    have e : written ((off, data) :: rest) = data ++ written rest := by
      simp [written]
    rw [List.cons_append, e, List.length_append]
    show (off == start && contiguous_from (start + data.length) (rest ++ b))
      = ((off == start && contiguous_from (start + data.length) rest) &&
          contiguous_from (start + (data.length + (written rest).length)) b)
    rw [ih, Bool.and_assoc, Nat.add_assoc]

/-- When `do_writev` returns, the bytes of the vector have reached the
file once, in order, in writes that follow one another from `offset` on. -/
theorem do_writev_log (oracle : Nat → resp) : ∀ (fuel : Nat) (s : io) (vec : List (List Nat))
    (offset bytes : Nat) (v : Int) (s1 : io),
    bytes = vec.flatten.length → offset + bytes < U64 →
    do_writev oracle fuel s vec offset bytes = some (.ok (v, s1)) →
    ∃ chunks, s1.log = s.log ++ chunks ∧ written chunks = vec.flatten ∧
      contiguous_from offset chunks = true := by
  intro fuel
  induction fuel with
  | zero =>
    intro s vec offset bytes v s1 hb hU h
    simp only [do_writev] at h
    split at h
    · rename_i h0
      simp only [Option.some.injEq, Except.ok.injEq, Prod.mk.injEq] at h
      obtain ⟨_, rfl⟩ := h
      refine ⟨[], by simp, ?_, rfl⟩
      have : vec.flatten = [] := List.eq_nil_of_length_eq_zero (by omega)
      rw [this]
      rfl
    · cases h
  | succ fuel ih =>
    intro s vec offset bytes v s1 hb hU h
    simp only [do_writev] at h
    split at h
    · rename_i h0
      simp only [Option.some.injEq, Except.ok.injEq, Prod.mk.injEq] at h
      obtain ⟨_, rfl⟩ := h
      refine ⟨[], by simp, ?_, rfl⟩
      have : vec.flatten = [] := List.eq_nil_of_length_eq_zero (by omega)
      rw [this]
      rfl
    · rename_i h0
      cases ho : oracle s.calls with
      | failed e =>
        simp only [pwritev, ho] at h
        rw [if_pos (by decide)] at h
        obtain ⟨chunks, a, b, c⟩ := ih _ vec offset bytes v s1 hb hU h
        exact ⟨chunks, a, b, c⟩
      | wrote r =>
        simp only [pwritev, ho] at h
        have hmin : min r vec.flatten.length ≤ bytes := by
          rw [hb]
          exact Nat.min_le_right _ _
        have hsub : sub64 bytes (min r vec.flatten.length) = bytes - min r vec.flatten.length :=
          sub64_small _ _ hmin (by omega)
        have hadd : add64 offset (min r vec.flatten.length) = offset + min r vec.flatten.length :=
          add64_small _ _ (by omega)
        have htake : (vec.flatten.take r).length = min r vec.flatten.length := List.length_take _ _
        rw [hsub, hadd] at h
        split at h
        · rename_i hz
          simp only [Option.some.injEq, Except.ok.injEq, Prod.mk.injEq] at h
          obtain ⟨_, rfl⟩ := h
          refine ⟨[(offset, vec.flatten.take r)], rfl, ?_, by simp [contiguous_from]⟩
          simp only [written, List.map_cons, List.map_nil, List.flatten_cons, List.flatten_nil,
            List.append_nil]
          apply List.take_of_length_le
          omega
        · rename_i hz
          obtain ⟨vec1, d1, d2⟩ := drain_spec vec (min r vec.flatten.length) (Nat.min_le_right _ _)
          rw [d1] at h
          simp only [] at h
          obtain ⟨chunks, a, b, c⟩ := ih _ vec1 _ _ v s1
            (by rw [d2, List.length_drop]; omega) (by omega) h
          refine ⟨(offset, vec.flatten.take r) :: chunks, ?_, ?_, ?_⟩
          · rw [a]
            simp
          · have e : written ((offset, vec.flatten.take r) :: chunks)
                = vec.flatten.take r ++ written chunks := by simp [written]
            rw [e, b, d2]
            have ht : vec.flatten.take r = vec.flatten.take (min r vec.flatten.length) := by
              rw [List.take_eq_take]
              omega
            rw [ht, List.take_append_drop]
          · simp only [contiguous_from, beq_self_eq_true, Bool.true_and, htake]
            exact c

theorem to_ssize_small (v : Nat) (h : v < 2 ^ 63) : to_ssize (v : Int) = (v : Int) := by
  unfold to_ssize
  simp only [U64_val]
  split <;> omega

/-- The loop that fills `iov`: one entry per node with the bytes of its
view, and the sum of the lengths. -/
theorem fill_iov_spec (m : Mem) : ∀ (size : Nat) (bptr : List ptr_node) (iov : List (List Nat))
    (b : Int), size ≤ bptr.length → (∀ n ∈ bptr, node_in m n.toptr) →
    ∃ iov1, fill_iov m size bptr iov (to_ssize b)
        = .ok (iov1, to_ssize (b + (nodes_len (bptr.take size) : Int)), bptr.drop size) ∧
      iov1.flatten = iov.flatten ++ nodes_bytes m (bptr.take size) := by
  intro size
  induction size with
  | zero =>
    intro bptr iov b _ _
    refine ⟨iov, ?_, by simp [nodes_bytes]⟩
    simp [fill_iov, nodes_len]
  | succ size ih =>
    intro bptr iov b hs hin
    cases bptr with
    | nil =>
      simp only [List.length_nil] at hs
      omega
    | cons node rest =>
      simp only [List.length_cons] at hs
      obtain ⟨d, hd1, hd2, hd3⟩ := c_str_data_in m node.toptr (hin node (List.mem_cons_self _ _))
      obtain ⟨iov1, a1, a2⟩ := ih rest (iov ++ [d.take node.toptr.length])
        (b + (node.toptr.length : Int)) (by omega)
        (fun x hx => hin x (List.mem_cons_of_mem _ hx))
      refine ⟨iov1, ?_, ?_⟩
      · simp only [fill_iov, hd1]
        rw [if_neg (by simp only [ptr.length]; omega), to_ssize_idem, a1]
        simp only [List.take_succ_cons, List.drop_succ_cons, nodes_len, ptr.length]
        push_cast
        rw [Int.add_assoc]
      · rw [a2]
        simp only [List.flatten_append, List.flatten_cons, List.flatten_nil, List.append_nil,
          List.take_succ_cons, nodes_bytes, ptr.length, hd3, List.append_assoc]

theorem nodes_len_take_drop (bptr : List ptr_node) (k : Nat) :
    nodes_len (bptr.take k) + nodes_len (bptr.drop k) = nodes_len bptr := by
  have := nodes_len_append (bptr.take k) (bptr.drop k)
  rw [List.take_append_drop] at this
  omega

/-- Every return of the outer loop returns 0. -/
theorem write_fd_loop_returns_zero (m : Mem) (oracle : Nat → resp) (fuel : Nat) :
    ∀ (steps : Nat) (s : io) (bptr : List ptr_node) (left_pbrs offset : Nat) (v : Int) (s1 : io),
    write_fd_loop m oracle fuel steps s bptr left_pbrs offset = some (.ok (v, s1)) → v = 0 := by
  intro steps
  induction steps with
  | zero =>
    intro s bptr left offset v s1 h
    cases left with
    | zero =>
      simp only [write_fd_loop, Option.some.injEq, Except.ok.injEq, Prod.mk.injEq] at h
      exact h.1.symm
    | succ l =>
      simp only [write_fd_loop] at h
      cases h
  | succ steps ih =>
    intro s bptr left offset v s1 h
    cases left with
    | zero =>
      simp only [write_fd_loop, Option.some.injEq, Except.ok.injEq, Prod.mk.injEq] at h
      exact h.1.symm
    | succ l =>
      simp only [write_fd_loop] at h
      split at h
      · cases h
      · split at h
        · cases h
        · cases h
        · rename_i r s2 hd
          have hr := do_writev_returns_zero oracle _ _ _ _ _ _ _ hd
          subst hr
          rw [if_neg (by decide)] at h
          exact ih _ _ _ _ _ _ h

/-- When the outer loop returns, the bytes of the nodes have reached the
file once, in order, from `offset` on. -/
theorem write_fd_loop_log (m : Mem) (oracle : Nat → resp) (fuel : Nat) :
    ∀ (steps : Nat) (s : io) (bptr : List ptr_node) (left_pbrs offset : Nat) (v : Int) (s1 : io),
    left_pbrs = bptr.length → (∀ n ∈ bptr, node_in m n.toptr) → nodes_len bptr < 2 ^ 63 →
    offset + nodes_len bptr < U64 →
    write_fd_loop m oracle fuel steps s bptr left_pbrs offset = some (.ok (v, s1)) →
    ∃ chunks, s1.log = s.log ++ chunks ∧ written chunks = nodes_bytes m bptr ∧
      contiguous_from offset chunks = true := by
  intro steps
  have base : ∀ (s : io) (bptr : List ptr_node) (offset : Nat) (v : Int) (s1 : io),
      0 = bptr.length → some (Except.ok ((0 : Int), s) : Except Err (Int × io)) = some (.ok (v, s1)) →
      ∃ chunks, s1.log = s.log ++ chunks ∧ written chunks = nodes_bytes m bptr ∧
        contiguous_from offset chunks = true := by
    intro s bptr offset v s1 hl h
    simp only [Option.some.injEq, Except.ok.injEq, Prod.mk.injEq] at h
    obtain ⟨_, rfl⟩ := h
    have : bptr = [] := List.eq_nil_of_length_eq_zero hl.symm
    subst this
    exact ⟨[], by simp, rfl, rfl⟩
  induction steps with
  | zero =>
    intro s bptr left offset v s1 hl hin h63 hU h
    cases left with
    | zero => exact base s bptr offset v s1 hl (by simpa [write_fd_loop] using h)
    | succ l =>
      simp only [write_fd_loop] at h
      cases h
  | succ steps ih =>
    intro s bptr left offset v s1 hl hin h63 hU h
    cases left with
    | zero => exact base s bptr offset v s1 hl (by simpa [write_fd_loop] using h)
    | succ l =>
      have hsz : min (l + 1) IOV_MAX ≤ bptr.length := by
        rw [← hl]
        exact Nat.min_le_left _ _
      have hpos : 0 < min (l + 1) IOV_MAX := by
        have : 0 < IOV_MAX := by decide
        omega
      obtain ⟨iov, f1, f2⟩ := fill_iov_spec m (min (l + 1) IOV_MAX) bptr [] 0 hsz hin
      rw [to_ssize_zero, Int.zero_add] at f1
      have htd := nodes_len_take_drop bptr (min (l + 1) IOV_MAX)
      have hb : to_ssize (nodes_len (bptr.take (min (l + 1) IOV_MAX)) : Int)
          = (nodes_len (bptr.take (min (l + 1) IOV_MAX)) : Int) :=
        to_ssize_small _ (by omega)
      rw [hb] at f1
      simp only [List.flatten_nil, List.nil_append] at f2
      have hlenT := nodes_bytes_length m (bptr.take (min (l + 1) IOV_MAX))
        (fun x hx => hin x (List.mem_of_mem_take hx))
      have hbytes : ((nodes_len (bptr.take (min (l + 1) IOV_MAX)) : Int) % (U64 : Int)).toNat
          = nodes_len (bptr.take (min (l + 1) IOV_MAX)) := by
        simp only [U64_val] at *
        omega
      have hoff : (((offset : Int) + (nodes_len (bptr.take (min (l + 1) IOV_MAX)) : Int))
          % (U64 : Int)).toNat = offset + nodes_len (bptr.take (min (l + 1) IOV_MAX)) := by
        simp only [U64_val] at *
        omega
      simp only [write_fd_loop, f1, hbytes, hoff] at h
      split at h
      · cases h
      · cases h
      · rename_i r s2 hd
        have hr := do_writev_returns_zero oracle _ _ _ _ _ _ _ hd
        subst hr
        rw [if_neg (by decide)] at h
        obtain ⟨c1, a1, a2, a3⟩ := do_writev_log oracle fuel s iov offset _ 0 s2
          (by rw [f2, hlenT]) (by omega) hd
        obtain ⟨c2, b1, b2, b3⟩ := ih s2 (bptr.drop (min (l + 1) IOV_MAX)) _ _ v s1
          (by rw [List.length_drop]; omega)
          (fun x hx => hin x (List.mem_of_mem_drop hx)) (by omega) (by omega) h
        refine ⟨c1 ++ c2, ?_, ?_, ?_⟩
        · rw [b1, a1, List.append_assoc]
        · rw [written_append, a2, b2, f2, ← nodes_bytes_append, List.take_append_drop]
        · rw [contiguous_append, a3, a2, f2, hlenT, b3]
          rfl

/-- With a `pwritev` that fails on every call the outer loop does not
return when the nodes hold at least one byte. -/
theorem write_fd_loop_never_returns (m : Mem) (oracle : Nat → resp)
    (hf : ∀ k, ∃ e, oracle k = .failed e) (fuel : Nat) :
    ∀ (steps : Nat) (s : io) (bptr : List ptr_node) (left_pbrs offset : Nat),
    left_pbrs = bptr.length → (∀ n ∈ bptr, node_in m n.toptr) → nodes_len bptr < 2 ^ 63 →
    0 < nodes_len bptr →
    write_fd_loop m oracle fuel steps s bptr left_pbrs offset = none := by
  intro steps
  induction steps with
  | zero =>
    intro s bptr left offset hl hin h63 hpos
    cases left with
    | zero =>
      have : bptr = [] := List.eq_nil_of_length_eq_zero hl.symm
      subst this
      simp only [nodes_len] at hpos
      omega
    | succ l => simp only [write_fd_loop]
  | succ steps ih =>
    intro s bptr left offset hl hin h63 hpos
    cases left with
    | zero =>
      have : bptr = [] := List.eq_nil_of_length_eq_zero hl.symm
      subst this
      simp only [nodes_len] at hpos
      omega
    | succ l =>
      have hsz : min (l + 1) IOV_MAX ≤ bptr.length := by
        rw [← hl]
        exact Nat.min_le_left _ _
      obtain ⟨iov, f1, f2⟩ := fill_iov_spec m (min (l + 1) IOV_MAX) bptr [] 0 hsz hin
      rw [to_ssize_zero, Int.zero_add] at f1
      have htd := nodes_len_take_drop bptr (min (l + 1) IOV_MAX)
      have hb : to_ssize (nodes_len (bptr.take (min (l + 1) IOV_MAX)) : Int)
          = (nodes_len (bptr.take (min (l + 1) IOV_MAX)) : Int) :=
        to_ssize_small _ (by omega)
      rw [hb] at f1
      have hbytes : ((nodes_len (bptr.take (min (l + 1) IOV_MAX)) : Int) % (U64 : Int)).toNat
          = nodes_len (bptr.take (min (l + 1) IOV_MAX)) := by
        simp only [U64_val] at *
        omega
      simp only [write_fd_loop, f1, hbytes]
      by_cases hz : nodes_len (bptr.take (min (l + 1) IOV_MAX)) = 0
      · have hd : do_writev oracle fuel s iov offset
            (nodes_len (bptr.take (min (l + 1) IOV_MAX))) = some (.ok (0, s)) := by
          rw [hz]
          cases fuel <;> simp [do_writev]
        rw [hd]
        simp only []
        rw [if_neg (by decide)]
        have hpos1 : 0 < min (l + 1) IOV_MAX := by
          have : 0 < IOV_MAX := by decide
          omega
        exact ih s _ _ _ (by rw [List.length_drop]; omega)
          (fun x hx => hin x (List.mem_of_mem_drop hx)) (by omega) (by omega)
      · rw [do_writev_never_returns oracle hf fuel s iov offset _ hz]

/-- C36: `write_fd(fd, offset)` over an oracle for `pwritev`.  Whatever the
oracle answers, a call that returns returns 0, never a negated error code:
the test `if (errno = EINTR)` is an assignment, so every failed write is
retried.  With an oracle that fails on every call, with any error number,
the call on a list that holds at least one byte does not return, whatever
the bound on the number of `pwritev` calls.  And when the call returns, the
writes that have reached the file are the bytes of the list, each once, in
order, every write at the offset where the one before has ended, the first
one at `offset`. -/
theorem write_fd_retries_every_failure (m : Mem) (L : list) (oracle : Nat → resp) (fuel : Nat)
    (s : io) (offset : Nat) :
    (∀ r s1, L.write_fd m oracle fuel s offset = some (.ok (r, s1)) → r = 0) ∧
    ((∀ k, ∃ e, oracle k = .failed e) → (∀ n ∈ L._buffers, node_in m n.toptr) →
      L._num = L._buffers.length → nodes_len L._buffers < 2 ^ 63 → 0 < nodes_len L._buffers →
      L.write_fd m oracle fuel s offset = none) ∧
    ((∀ n ∈ L._buffers, node_in m n.toptr) → L._num = L._buffers.length →
      nodes_len L._buffers < 2 ^ 63 → offset + nodes_len L._buffers < U64 →
      ∀ r s1, L.write_fd m oracle fuel s offset = some (.ok (r, s1)) →
        ∃ chunks, s1.log = s.log ++ chunks ∧ written chunks = L.bytes m ∧
          contiguous_from offset chunks = true) := by
  unfold list.write_fd list.get_num_buffers list.bytes
  refine ⟨?_, ?_, ?_⟩
  · intro r s1 h
    exact write_fd_loop_returns_zero m oracle fuel _ _ _ _ _ _ _ h
  · intro hf hin hnum h63 hpos
    exact write_fd_loop_never_returns m oracle hf fuel _ s _ _ offset hnum hin h63 hpos
  · intro hin hnum h63 hU r s1 h
    exact write_fd_loop_log m oracle fuel _ s _ _ offset r s1 hnum hin h63 hU h

/-- C36 witness: the list `ABC`, `DEF` written at offset 200.  The oracle
answers `EINTR`, 2 bytes, 1 byte, the error number 5 (`EIO`), and then
accepts everything: the call retries also behind `EIO`, resubmits the
unwritten rest each time and returns 0 with `AB`, `C`, `DEF` written at
200, 202, 203.  With an oracle that always fails with `EBADF` the call does
not return `-EBADF`: it is still running after any number of calls. -/
theorem write_fd_retries_every_failure_witness :
    abc_def.1.write_fd abc_def.2
        (oracle_of [.failed EINTR, .wrote 2, .wrote 1, .failed 5, .wrote 100]) 10 ⟨0, []⟩ 200
      = some (.ok (0, ⟨5, [(200, str "AB"), (202, str "C"), (203, str "DEF")]⟩)) ∧
    written [(200, str "AB"), (202, str "C"), (203, str "DEF")] = abc_def.1.bytes abc_def.2 ∧
    contiguous_from 200 [(200, str "AB"), (202, str "C"), (203, str "DEF")] = true ∧
    (∀ k, oracle_of [] k = .failed EBADF) ∧
    ∀ fuel, abc_def.1.write_fd abc_def.2 (oracle_of []) fuel ⟨0, []⟩ 200 = none := by
  have hin := views_live_in abc_def.2 abc_def.1._buffers rfl
  have hf : ∀ k, oracle_of [] k = .failed EBADF := fun k => rfl
  refine ⟨rfl, by decide, by decide, hf, ?_⟩
  intro fuel
  exact (write_fd_retries_every_failure abc_def.2 abc_def.1 (oracle_of []) fuel ⟨0, []⟩ 200).2.1
    (fun k => ⟨EBADF, hf k⟩) hin rfl (by decide) (by decide)

/-! ## The operations of `buffers_t` keep the chain well formed (C37) -/

theorem hook_set_same (next : Nat → Nat) (p v : Nat) : hook_set next p v p = v := by
  simp [hook_set]

theorem hook_set_other (next : Nat → Nat) (p v x : Nat) (h : x ≠ p) :
    hook_set next p v x = next x := by
  simp [hook_set, h]

theorem last_of_nil (a : Nat) : last_of a [] = a := rfl

theorem last_of_cons (a n : Nat) (rest : List Nat) : last_of a (n :: rest) = last_of n rest := by
  unfold last_of
  cases rest with
  | nil => rfl
  | cons m r =>
    rw [List.getLast?_cons_cons]
    cases e : (m :: r).getLast? with
    | none => simp at e
    | some v => rfl

theorem last_of_append (a : Nat) (xs ys : List Nat) :
    last_of a (xs ++ ys) = last_of (last_of a xs) ys := by
  induction xs generalizing a with
  | nil => rfl
  | cons x rest ih =>
    rw [List.cons_append, last_of_cons, last_of_cons, ih]

theorem last_of_mem (a : Nat) (nodes : List Nat) : last_of a nodes ∈ a :: nodes := by
  induction nodes generalizing a with
  | nil => simp [last_of]
  | cons n rest ih =>
    rw [last_of_cons]
    exact List.mem_cons_of_mem _ (ih n)

theorem last_of_mem_nodes (a : Nat) (nodes : List Nat) (h : nodes ≠ []) :
    last_of a nodes ∈ nodes := by
  cases nodes with
  | nil => exact absurd rfl h
  | cons n rest =>
    rw [last_of_cons]
    exact last_of_mem n rest

theorem last_of_start (a b : Nat) (nodes : List Nat) (h : nodes ≠ []) :
    last_of a nodes = last_of b nodes := by
  cases nodes with
  | nil => exact absurd rfl h
  | cons n rest => rw [last_of_cons, last_of_cons]

theorem last_not_mem_dropLast : ∀ (nodes : List Nat) (a : Nat), (a :: nodes).Nodup →
    last_of a nodes ∉ (a :: nodes).dropLast := by
  intro nodes
  induction nodes with
  | nil =>
    intro a _
    simp
  | cons n rest ih =>
    intro a hnd
    rw [last_of_cons, List.dropLast_cons₂, List.mem_cons, not_or]
    have hnd1 := List.nodup_cons.mp hnd
    refine ⟨?_, ih n hnd1.2⟩
    intro e
    exact hnd1.1 (e ▸ last_of_mem n rest)

theorem links_append (next : Nat → Nat) : ∀ (xs ys : List Nat) (a : Nat),
    links next a (xs ++ ys) = (links next a xs && links next (last_of a xs) ys) := by
  intro xs
  induction xs with
  | nil =>
    intro ys a
    simp [links, last_of]
  | cons x rest ih =>
    intro ys a
    rw [List.cons_append, last_of_cons]
    simp only [links, ih, Bool.and_assoc]

/-- The links of a chain are read at its start and at every node but the
last one: two memories that agree there give the same answer, also from two
starts with the same `next`. -/
theorem links_restart (h h1 : Nat → Nat) : ∀ (L : List Nat) (a b : Nat),
    (L ≠ [] → h1 b = h a) → (∀ x ∈ L.dropLast, h1 x = h x) → links h1 b L = links h a L := by
  intro L
  induction L with
  | nil =>
    intro a b _ _
    rfl
  | cons q qs ih =>
    intro a b hb hd
    simp only [links]
    rw [hb (List.cons_ne_nil _ _)]
    congr 1
    cases qs with
    | nil => rfl
    | cons r rs =>
      apply ih
      · intro _
        exact hd q (by simp)
      · intro x hx
        exact hd x (by rw [List.dropLast_cons₂]; exact List.mem_cons_of_mem _ hx)

theorem links_congr (h h1 : Nat → Nat) (L : List Nat) (a : Nat)
    (hd : ∀ x ∈ (a :: L).dropLast, h1 x = h x) : links h1 a L = links h a L := by
  cases L with
  | nil => rfl
  | cons q qs =>
    apply links_restart
    · intro _
      exact hd a (by simp)
    · intro x hx
      exact hd x (by rw [List.dropLast_cons₂]; exact List.mem_cons_of_mem _ hx)

theorem links_head (h : Nat → Nat) (a : Nat) (L : List Nat) (hl : links h a L = true) :
    h a = (L.head?).getD (h a) := by
  cases L with
  | nil => rfl
  | cons q qs =>
    simp only [links, Bool.and_eq_true, beq_iff_eq] at hl
    simp [hl.1]

theorem insert_after_hooks (h : Nat → Nat) (c : buffers_t) (it item : Nat) :
    (c.insert_after h it item).1 = hook_set (hook_set h item (h it)) it item := by
  funext x
  unfold buffers_t.insert_after
  simp only [hook_set]
  by_cases hx : x = c.root
  · by_cases hi : it = c.root
    · simp [hx, hi]
    · simp [hx, hi]
  · simp [hx]

/-- Member `insert_after` behind the position that ends the nodes `pre`. -/
theorem insert_after_linked (h : Nat → Nat) (c : buffers_t) (pre post : List Nat) (item : Nat)
    (hc : c.linked h (pre ++ post)) (hitem : item ∉ c.root :: (pre ++ post)) :
    (c.insert_after h (last_of c.root pre) item).2.linked
      (c.insert_after h (last_of c.root pre) item).1 (pre ++ item :: post) := by
  obtain ⟨hl, hlast, hnd, ht⟩ := hc
  rw [insert_after_hooks]
  rw [links_append, Bool.and_eq_true] at hl
  rw [last_of_append] at hlast ht
  have hnd0 : ((c.root :: pre) ++ post).Nodup := hnd
  have hnd1 := List.nodup_append.mp hnd0
  have hit := last_of_mem c.root pre
  have hitd := last_not_mem_dropLast pre c.root hnd1.1
  have hitp : ∀ x ∈ post, x ≠ last_of c.root pre := by
    intro x hx e
    exact hnd1.2.2 hit (e ▸ hx)
  have hi1 : item ≠ last_of c.root pre := by
    intro e
    apply hitem
    rw [e, ← List.cons_append]
    exact List.mem_append_left _ hit
  have hi2 : ∀ x ∈ c.root :: (pre ++ post), x ≠ item := by
    intro x hx e
    exact hitem (e ▸ hx)
  show links _ c.root _ = true ∧ _ = c.root ∧ (c.root :: _).Nodup ∧
    (if c._tail = last_of c.root pre then item else c._tail) = last_of c.root _
  refine ⟨?_, ?_, ?_, ?_⟩
  · rw [links_append, Bool.and_eq_true]
    constructor
    · rw [← hl.1]
      apply links_congr
      intro x hx
      have hx1 : x ∈ c.root :: (pre ++ post) := by
        rw [← List.cons_append]
        exact List.mem_append_left _ (List.dropLast_subset _ hx)
      have hx2 : x ≠ last_of c.root pre := by
        intro e
        rw [e] at hx
        exact hitd hx
      rw [hook_set_other _ _ _ _ hx2, hook_set_other _ _ _ _ (hi2 x hx1)]
    · simp only [links, Bool.and_eq_true, beq_iff_eq]
      refine ⟨hook_set_same _ _ _, ?_⟩
      rw [← hl.2]
      apply links_restart
      · intro _
        rw [hook_set_other _ _ _ _ hi1, hook_set_same]
      · intro x hx
        have hx0 : x ∈ post := List.dropLast_subset _ hx
        have hx1 : x ∈ c.root :: (pre ++ post) :=
          List.mem_cons_of_mem _ (List.mem_append_right _ hx0)
        rw [hook_set_other _ _ _ _ (hitp x hx0), hook_set_other _ _ _ _ (hi2 x hx1)]
  · rw [last_of_append, last_of_cons]
    cases post with
    | nil =>
      rw [last_of_nil] at hlast ⊢
      rw [hook_set_other _ _ _ _ hi1, hook_set_same]
      exact hlast
    | cons q qs =>
      rw [last_of_start item (last_of c.root pre) (q :: qs) (List.cons_ne_nil _ _)]
      have hm := last_of_mem_nodes (last_of c.root pre) (q :: qs) (List.cons_ne_nil _ _)
      rw [hook_set_other _ _ _ _ (hitp _ hm), hook_set_other _ _ _ _
        (hi2 _ (List.mem_cons_of_mem _ (List.mem_append_right _ hm)))]
      exact hlast
  · have : (c.root :: (pre ++ item :: post)) = (c.root :: pre) ++ item :: post := rfl
    rw [this, List.nodup_middle, List.nodup_cons]
    exact ⟨hitem, hnd⟩
  · rw [last_of_append, last_of_cons]
    cases post with
    | nil =>
      rw [last_of_nil] at ht ⊢
      rw [if_pos ht]
    | cons q qs =>
      have hm := last_of_mem_nodes (last_of c.root pre) (q :: qs) (List.cons_ne_nil _ _)
      rw [if_neg (by rw [ht]; exact hitp _ hm), ht]
      exact last_of_start _ _ _ (List.cons_ne_nil _ _)

theorem push_front_linked (h : Nat → Nat) (c : buffers_t) (nodes : List Nat) (item : Nat)
    (hc : c.linked h nodes) (hitem : item ∉ c.root :: nodes) :
    (c.push_front h item).2.linked (c.push_front h item).1 (item :: nodes) := by
  have e1 : (c.push_front h item).1 = (c.insert_after h (last_of c.root []) item).1 := by
    rw [insert_after_hooks]
    rfl
  have e2 : (c.push_front h item).2 = (c.insert_after h (last_of c.root []) item).2 := rfl
  rw [e1, e2]
  exact insert_after_linked h c [] nodes item hc hitem

theorem push_back_linked (h : Nat → Nat) (c : buffers_t) (nodes : List Nat) (item : Nat)
    (hc : c.linked h nodes) (hitem : item ∉ c.root :: nodes) :
    (c.push_back h item).2.linked (c.push_back h item).1 (nodes ++ [item]) := by
  have e1 : (c.push_back h item).1 = (c.insert_after h (last_of c.root nodes) item).1 := by
    rw [insert_after_hooks]
    show hook_set (hook_set h item c.root) c._tail item = _
    rw [hc.2.2.2, hc.2.1]
  have e2 : (c.push_back h item).2 = (c.insert_after h (last_of c.root nodes) item).2 := by
    show ({ c with _tail := item } : buffers_t)
      = { c with _tail := if c._tail = last_of c.root nodes then item else c._tail }
    rw [if_pos hc.2.2.2]
  rw [e1, e2]
  have hc1 : c.linked h (nodes ++ []) := by
    rw [List.append_nil]
    exact hc
  have hitem1 : item ∉ c.root :: (nodes ++ []) := by
    rw [List.append_nil]
    exact hitem
  exact insert_after_linked h c nodes [] item hc1 hitem1

theorem erase_after_hooks (h : Nat → Nat) (c : buffers_t) (pre post : List Nat) (e : Nat)
    (hc : c.linked h (pre ++ e :: post)) :
    h (last_of c.root pre) = e ∧
    (c.erase_after h (last_of c.root pre)).1 = hook_set h (last_of c.root pre) (h e) := by
  obtain ⟨hl, hlast, hnd, ht⟩ := hc
  rw [links_append, Bool.and_eq_true] at hl
  have hl2 := hl.2
  simp only [links, Bool.and_eq_true, beq_iff_eq] at hl2
  refine ⟨hl2.1, ?_⟩
  have hnd0 : ((c.root :: pre) ++ e :: post).Nodup := hnd
  have hnd1 := List.nodup_append.mp hnd0
  have hnd2 := List.nodup_cons.mp hnd1.2.1
  have hepre : e ∉ c.root :: pre := fun hm => hnd1.2.2 hm (List.mem_cons_self _ _)
  -- the hook behind the erased node is not the erased node
  have hee : h e ≠ e := by
    cases post with
    | nil =>
      rw [last_of_append, last_of_cons, last_of_nil] at hlast
      rw [hlast]
      intro x
      exact hepre (x ▸ List.mem_cons_self _ _)
    | cons q qs =>
      simp only [links, Bool.and_eq_true, beq_iff_eq] at hl2
      rw [hl2.2.1]
      intro x
      exact hnd2.1 (x ▸ List.mem_cons_self _ _)
  have hroot : hook_set h (last_of c.root pre) (h e) c.root ≠ e := by
    by_cases hr : c.root = last_of c.root pre
    · rw [← hr, hook_set_same]
      exact hee
    · rw [hook_set_other _ _ _ _ hr]
      cases pre with
      | nil => exact absurd rfl hr
      | cons p ps =>
        have hl1 := hl.1
        simp only [links, Bool.and_eq_true, beq_iff_eq] at hl1
        rw [hl1.1]
        intro x
        exact hepre (x ▸ List.mem_cons_of_mem _ (List.mem_cons_self _ _))
  funext x
  unfold buffers_t.erase_after
  simp only [hl2.1]
  by_cases hx : x = c.root
  · rw [hx, hook_set_same, if_neg hroot]
  · rw [hook_set_other _ _ _ _ hx]

/-- Member `erase_after` behind the position that ends the nodes `pre`, with a
node `e` behind it. -/
theorem erase_after_linked (h : Nat → Nat) (c : buffers_t) (pre post : List Nat) (e : Nat)
    (hc : c.linked h (pre ++ e :: post)) :
    (c.erase_after h (last_of c.root pre)).2.1.linked
      (c.erase_after h (last_of c.root pre)).1 (pre ++ post) ∧
    (c.erase_after h (last_of c.root pre)).2.2 = (post.head?).getD c.root := by
  obtain ⟨he, hh⟩ := erase_after_hooks h c pre post e hc
  have hret : (c.erase_after h (last_of c.root pre)).2.2
      = (c.erase_after h (last_of c.root pre)).1 (last_of c.root pre) := rfl
  have htl : (c.erase_after h (last_of c.root pre)).2.1
      = { c with _tail := if c._tail = h (last_of c.root pre) then last_of c.root pre
                          else c._tail } := rfl
  rw [hret, htl, hh, he, hook_set_same]
  obtain ⟨hl, hlast, hnd, ht⟩ := hc
  rw [links_append, Bool.and_eq_true] at hl
  have hl2 := hl.2
  simp only [links, Bool.and_eq_true, beq_iff_eq] at hl2
  rw [last_of_append, last_of_cons] at hlast ht
  have hnd0 : ((c.root :: pre) ++ e :: post).Nodup := hnd
  have hnd1 := List.nodup_append.mp hnd0
  have hnd2 := List.nodup_cons.mp hnd1.2.1
  have hit := last_of_mem c.root pre
  have hitd := last_not_mem_dropLast pre c.root hnd1.1
  have hitp : ∀ x ∈ post, x ≠ last_of c.root pre := by
    intro x hx e1
    exact hnd1.2.2 hit (e1 ▸ List.mem_cons_of_mem _ hx)
  have hep : ∀ x ∈ post, x ≠ e := by
    intro x hx e1
    exact hnd2.1 (e1 ▸ hx)
  refine ⟨?_, ?_⟩
  · show links _ c.root _ = true ∧ _ = c.root ∧ (c.root :: _).Nodup ∧
      (if c._tail = e then last_of c.root pre else c._tail) = last_of c.root _
    refine ⟨?_, ?_, ?_, ?_⟩
    · rw [links_append, Bool.and_eq_true]
      constructor
      · rw [← hl.1]
        apply links_congr
        intro x hx
        have hx2 : x ≠ last_of c.root pre := by
          intro e1
          rw [e1] at hx
          exact hitd hx
        rw [hook_set_other _ _ _ _ hx2]
      · rw [← hl2.2]
        apply links_restart
        · intro _
          rw [hook_set_same]
        · intro x hx
          rw [hook_set_other _ _ _ _ (hitp x (List.dropLast_subset _ hx))]
    · rw [last_of_append]
      cases post with
      | nil =>
        rw [last_of_nil] at hlast ⊢
        rw [hook_set_same]
        exact hlast
      | cons q qs =>
        rw [last_of_start _ e (q :: qs) (List.cons_ne_nil _ _)]
        have hm := last_of_mem_nodes e (q :: qs) (List.cons_ne_nil _ _)
        rw [hook_set_other _ _ _ _ (hitp _ hm)]
        exact hlast
    · have hsub : (c.root :: (pre ++ post)).Sublist (c.root :: (pre ++ e :: post)) :=
        List.Sublist.cons₂ _ (List.Sublist.append_left (List.sublist_cons_self _ _) _)
      exact hnd.sublist hsub
    · rw [last_of_append]
      cases post with
      | nil =>
        rw [last_of_nil] at ht ⊢
        rw [if_pos ht]
      | cons q qs =>
        have hm := last_of_mem_nodes e (q :: qs) (List.cons_ne_nil _ _)
        rw [if_neg (by rw [ht]; exact hep _ hm), ht]
        exact last_of_start _ _ _ (List.cons_ne_nil _ _)
  · cases post with
    | nil =>
      rw [last_of_nil] at hlast
      exact hlast
    | cons q qs =>
      simp only [links, Bool.and_eq_true, beq_iff_eq] at hl2
      exact hl2.2.1

theorem mem_dropLast_cons (a x : Nat) (L : List Nat) (hx : x ∈ L.dropLast) :
    x ∈ (a :: L).dropLast := by
  cases L with
  | nil => simp at hx
  | cons q qs =>
    rw [List.dropLast_cons₂]
    exact List.mem_cons_of_mem _ hx

/-- A chain built on the nodes of another one: the root `b` takes the nodes
that the root `a` had, under a memory that keeps the hooks between them. -/
theorem relink (h h1 : Nat → Nat) (a : Nat) (c : buffers_t) (nodes : List Nat)
    (hl : links h a nodes = true) (hnd : (c.root :: nodes).Nodup)
    (hb : nodes ≠ [] → h1 c.root = h a)
    (hd : ∀ x ∈ nodes.dropLast, h1 x = h x)
    (hlast : h1 (last_of c.root nodes) = c.root) (ht : c._tail = last_of c.root nodes) :
    c.linked h1 nodes :=
  ⟨by rw [← hl]; exact links_restart h h1 nodes a c.root hb hd, hlast, hnd, ht⟩

theorem linked_nil_facts (h : Nat → Nat) (c : buffers_t) (hc : c.linked h []) :
    c._tail = c.root ∧ h c.root = c.root :=
  ⟨hc.2.2.2, hc.2.1⟩

theorem linked_tail_facts (h : Nat → Nat) (c : buffers_t) (nodes : List Nat)
    (hc : c.linked h nodes) (hne : nodes ≠ []) :
    c._tail ∈ nodes ∧ c._tail ≠ c.root ∧ h c.root ∈ nodes ∧ h c.root ≠ c.root ∧
    c._tail ∉ nodes.dropLast := by
  obtain ⟨hl, hlast, hnd, ht⟩ := hc
  have hnd1 := List.nodup_cons.mp hnd
  have hm : c._tail ∈ nodes := ht ▸ last_of_mem_nodes c.root nodes hne
  have hd := last_not_mem_dropLast nodes c.root hnd
  rw [← ht] at hd
  cases nodes with
  | nil => exact absurd rfl hne
  | cons n rest =>
    simp only [links, Bool.and_eq_true, beq_iff_eq] at hl
    refine ⟨hm, fun e => hnd1.1 (e ▸ hm), ?_, ?_, fun hx => hd (mem_dropLast_cons _ _ _ hx)⟩
    · rw [hl.1]
      exact List.mem_cons_self _ _
    · rw [hl.1]
      intro e
      exact hnd1.1 (e ▸ List.mem_cons_self _ _)

/-- Member `splice_back`: this chain takes the nodes of the other one behind
its own, and the other chain is left empty. -/
theorem splice_back_linked (h : Nat → Nat) (c other : buffers_t) (nodes onodes : List Nat)
    (hc : c.linked h nodes) (ho : other.linked h onodes)
    (hdis : ∀ x ∈ c.root :: nodes, x ∉ other.root :: onodes) :
    (c.splice_back h other).2.1.linked (c.splice_back h other).1 (nodes ++ onodes) ∧
    (c.splice_back h other).2.2.linked (c.splice_back h other).1 [] := by
  by_cases hne : onodes = []
  · subst hne
    have he : other.empty = true := by
      simp [buffers_t.empty, (linked_nil_facts h other ho).1]
    have hs : c.splice_back h other = (h, c, other) := by
      unfold buffers_t.splice_back
      rw [if_pos he]
    rw [hs, List.append_nil]
    exact ⟨hc, ho⟩
  · obtain ⟨f1, f2, f3, f4, f5⟩ := linked_tail_facts h other onodes ho hne
    have he : other.empty = false := by
      simp [buffers_t.empty, f2]
    have hs : c.splice_back h other
        = (hook_set (hook_set (hook_set h other._tail c.root) c._tail
            (hook_set h other._tail c.root other.root)) other.root other.root,
           { c with _tail := other._tail }, { other with _tail := other.root }) := by
      unfold buffers_t.splice_back
      rw [if_neg (by rw [he]; decide)]
    rw [hs]
    dsimp only
    obtain ⟨hl, hlast, hnd, ht⟩ := hc
    obtain ⟨ol, olast, ond, ot⟩ := ho
    have hroot : c.root ≠ other.root := fun e =>
      hdis c.root (List.mem_cons_self _ _) (e ▸ List.mem_cons_self _ _)
    have htm : c._tail ∈ c.root :: nodes := ht ▸ last_of_mem c.root nodes
    have g1 : c._tail ≠ other.root := fun e => hdis _ htm (e ▸ List.mem_cons_self _ _)
    have g2 : other._tail ≠ c._tail := fun e =>
      hdis _ htm (e ▸ List.mem_cons_of_mem _ f1)
    have g3 : other.root ≠ other._tail := fun e => f2 e.symm
    constructor
    · show links _ c.root _ = true ∧ _ = c.root ∧ (c.root :: _).Nodup ∧
        other._tail = last_of c.root _
      refine ⟨?_, ?_, ?_, ?_⟩
      · rw [links_append, Bool.and_eq_true]
        constructor
        · rw [← hl]
          apply links_congr
          intro x hx
          have hx0 : x ∈ c.root :: nodes := List.dropLast_subset _ hx
          have x1 : x ≠ other.root := fun e => hdis _ hx0 (e ▸ List.mem_cons_self _ _)
          have x2 : x ≠ c._tail := by
            intro e
            rw [e, ht] at hx
            exact last_not_mem_dropLast nodes c.root hnd hx
          have x3 : x ≠ other._tail := fun e => hdis _ hx0 (e ▸ List.mem_cons_of_mem _ f1)
          rw [hook_set_other _ _ _ _ x1, hook_set_other _ _ _ _ x2, hook_set_other _ _ _ _ x3]
        · rw [← ol, ← ht]
          apply links_restart
          · intro _
            rw [hook_set_other _ _ _ _ g1, hook_set_same, hook_set_other _ _ _ _ g3]
          · intro x hx
            have hx0 : x ∈ onodes := List.dropLast_subset _ hx
            have x1 : x ≠ other.root := fun e =>
              (List.nodup_cons.mp ond).1 (e ▸ hx0)
            have x2 : x ≠ c._tail := fun e =>
              hdis _ htm (e ▸ List.mem_cons_of_mem _ hx0)
            have x3 : x ≠ other._tail := by
              intro e
              rw [e] at hx
              exact f5 hx
            rw [hook_set_other _ _ _ _ x1, hook_set_other _ _ _ _ x2,
              hook_set_other _ _ _ _ x3]
      · rw [last_of_append, last_of_start _ other.root onodes hne, ← ot,
          hook_set_other _ _ _ _ f2, hook_set_other _ _ _ _ g2, hook_set_same]
      · have : c.root :: (nodes ++ onodes) = (c.root :: nodes) ++ onodes := rfl
        rw [this, List.nodup_append]
        refine ⟨hnd, (List.nodup_cons.mp ond).2, ?_⟩
        intro x hx hy
        exact hdis x hx (List.mem_cons_of_mem _ hy)
      · rw [last_of_append, last_of_start _ other.root onodes hne]
        exact ot
    · show links _ other.root [] = true ∧ _ = other.root ∧ [other.root].Nodup ∧
        other.root = last_of other.root []
      refine ⟨rfl, ?_, List.nodup_singleton _, rfl⟩
      rw [last_of_nil, hook_set_same]

/-- The loop of `clear_and_dispose` returns after one pass per node, with the
nodes disposed in order. -/
theorem clear_loop_spec (h : Nat → Nat) (root : Nat) : ∀ (nodes : List Nat) (a fuel : Nat)
    (disposed : List Nat), links h a nodes = true → h (last_of a nodes) = root →
    root ∉ nodes → nodes.length ≤ fuel →
    clear_loop h root fuel (h a) disposed = some (disposed ++ nodes) := by
  intro nodes
  induction nodes with
  | nil =>
    intro a fuel disposed _ hlast _ _
    rw [last_of_nil] at hlast
    cases fuel <;> simp [clear_loop, hlast]
  | cons n rest ih =>
    intro a fuel disposed hl hlast hr hf
    simp only [links, Bool.and_eq_true, beq_iff_eq] at hl
    rw [last_of_cons] at hlast
    have hn : n ≠ root := fun e => hr (e ▸ List.mem_cons_self _ _)
    cases fuel with
    | zero => simp at hf
    | succ f =>
      simp only [List.length_cons, Nat.add_le_add_iff_right] at hf
      rw [hl.1]
      simp only [clear_loop]
      rw [if_neg hn, ih n f (disposed ++ [n]) hl.2 hlast
        (fun hm => hr (List.mem_cons_of_mem _ hm)) hf, List.append_assoc]
      rfl

/-- Member `clear_and_dispose`: it returns, every node is handed to the
disposer once, and the chain is left empty. -/
theorem clear_and_dispose_linked (h : Nat → Nat) (c : buffers_t) (nodes : List Nat)
    (hc : c.linked h nodes) (fuel : Nat) (hf : nodes.length ≤ fuel) :
    ∃ r, c.clear_and_dispose h fuel = some r ∧ r.2.2 = nodes ∧ r.2.1.linked r.1 [] := by
  obtain ⟨hl, hlast, hnd, _⟩ := hc
  have hl1 := clear_loop_spec h c.root nodes c.root fuel [] hl hlast
    (List.nodup_cons.mp hnd).1 hf
  refine ⟨(hook_set h c.root c.root, { c with _tail := c.root }, nodes), ?_, rfl, ?_⟩
  · unfold buffers_t.clear_and_dispose
    rw [hl1]
    rfl
  · show links _ c.root [] = true ∧ hook_set h c.root c.root (last_of c.root []) = c.root ∧
      [c.root].Nodup ∧ c.root = last_of c.root []
    refine ⟨rfl, ?_, List.nodup_singleton _, rfl⟩
    rw [last_of_nil, hook_set_same]

/-- The tail that `swap` gives a chain: the last of the nodes it takes, or
its own root when it takes none. -/
theorem swap_tail (h : Nat → Nat) (other : buffers_t) (onodes : List Nat) (r : Nat)
    (ho : other.linked h onodes) :
    (if other._tail = other.root then r else other._tail) = last_of r onodes := by
  cases onodes with
  | nil =>
    rw [if_pos (linked_nil_facts h other ho).1]
    rfl
  | cons n rest =>
    rw [if_neg (linked_tail_facts h other _ ho (List.cons_ne_nil _ _)).2.1, ho.2.2.2]
    exact last_of_start _ _ _ (List.cons_ne_nil _ _)

/-- One half of `swap`: the chain with root `c.root` takes the nodes of the
other chain.  The memory is written at the two roots and at the two new
tails. -/
theorem swap_half (h : Nat → Nat) (c other : buffers_t) (nodes onodes : List Nat)
    (hc : c.linked h nodes) (ho : other.linked h onodes)
    (hdis : ∀ x ∈ c.root :: nodes, x ∉ other.root :: onodes) (v w : Nat) (t2 : Nat)
    (ht2 : t2 ∈ other.root :: nodes) :
    ({ c with _tail := last_of c.root onodes } : buffers_t).linked
      (hook_set (hook_set (hook_set (hook_set h c.root (if h other.root = other.root then c.root
        else h other.root)) other.root v) (last_of c.root onodes) c.root) t2 w) onodes := by
  obtain ⟨hl, hlast, hnd, ht⟩ := hc
  obtain ⟨ol, olast, ond, ot⟩ := ho
  have hnd1 := List.nodup_cons.mp hnd
  have ond1 := List.nodup_cons.mp ond
  have hroot : c.root ≠ other.root := fun e =>
    hdis c.root (List.mem_cons_self _ _) (e ▸ List.mem_cons_self _ _)
  have hro : c.root ∉ onodes := fun hm =>
    hdis c.root (List.mem_cons_self _ _) (List.mem_cons_of_mem _ hm)
  have cross : ∀ x ∈ c.root :: onodes, x ∉ other.root :: nodes := by
    intro x hx hy
    rcases List.mem_cons.mp hx with e | hx1
    · rcases List.mem_cons.mp hy with e1 | hy1
      · exact hroot (e ▸ e1)
      · exact hnd1.1 (e ▸ hy1)
    · rcases List.mem_cons.mp hy with e1 | hy1
      · exact ond1.1 (e1 ▸ hx1)
      · exact hdis x (List.mem_cons_of_mem _ hy1) (List.mem_cons_of_mem _ hx1)
  have hnd2 : (c.root :: onodes).Nodup := List.nodup_cons.mpr ⟨hro, ond1.2⟩
  have hlm := last_of_mem c.root onodes
  have hlt : last_of c.root onodes ≠ t2 := fun e => cross _ hlm (e ▸ ht2)
  refine relink h _ other.root _ onodes ol hnd2 ?_ ?_ ?_ rfl
  · intro hne
    have f := linked_tail_facts h other onodes ⟨ol, olast, ond, ot⟩ hne
    have r1 : c.root ≠ t2 := fun e => cross _ (List.mem_cons_self _ _) (e ▸ ht2)
    have r2 : c.root ≠ last_of c.root onodes := fun e =>
      hro (e ▸ last_of_mem_nodes c.root onodes hne)
    show hook_set _ _ _ c.root = _
    rw [hook_set_other _ _ _ _ r1, hook_set_other _ _ _ _ r2, hook_set_other _ _ _ _ hroot,
      hook_set_same, if_neg f.2.2.2.1]
  · intro x hx
    have hx0 : x ∈ onodes := List.dropLast_subset _ hx
    have x1 : x ≠ t2 := fun e => cross _ (List.mem_cons_of_mem _ hx0) (e ▸ ht2)
    have x2 : x ≠ last_of c.root onodes := by
      intro e
      have := mem_dropLast_cons c.root x onodes hx
      rw [e] at this
      exact last_not_mem_dropLast onodes c.root hnd2 this
    have x3 : x ≠ other.root := fun e => ond1.1 (e ▸ hx0)
    have x4 : x ≠ c.root := fun e => hro (e ▸ hx0)
    rw [hook_set_other _ _ _ _ x1, hook_set_other _ _ _ _ x2, hook_set_other _ _ _ _ x3,
      hook_set_other _ _ _ _ x4]
  · show hook_set _ _ _ (last_of c.root onodes) = c.root
    rw [hook_set_other _ _ _ _ hlt, hook_set_same]

/-- The other half of `swap`: the chain with root `other.root` takes the
nodes of this chain. -/
theorem swap_other_half (h : Nat → Nat) (c other : buffers_t) (nodes onodes : List Nat)
    (hc : c.linked h nodes) (ho : other.linked h onodes)
    (hdis : ∀ x ∈ c.root :: nodes, x ∉ other.root :: onodes) (v : Nat) (t1 : Nat)
    (ht1 : t1 ∈ c.root :: onodes) :
    ({ other with _tail := last_of other.root nodes } : buffers_t).linked
      (hook_set (hook_set (hook_set (hook_set h c.root v) other.root
        (if h c.root = c.root then other.root else h c.root)) t1 c.root)
        (last_of other.root nodes) other.root) nodes := by
  obtain ⟨hl, hlast, hnd, ht⟩ := hc
  obtain ⟨ol, olast, ond, ot⟩ := ho
  have hnd1 := List.nodup_cons.mp hnd
  have ond1 := List.nodup_cons.mp ond
  have hroot : c.root ≠ other.root := fun e =>
    hdis c.root (List.mem_cons_self _ _) (e ▸ List.mem_cons_self _ _)
  have hor : other.root ∉ nodes := fun hm =>
    hdis other.root (List.mem_cons_of_mem _ hm) (List.mem_cons_self _ _)
  have cross : ∀ x ∈ other.root :: nodes, x ∉ c.root :: onodes := by
    intro x hx hy
    rcases List.mem_cons.mp hx with e | hx1
    · rcases List.mem_cons.mp hy with e1 | hy1
      · exact hroot (e1 ▸ e)
      · exact ond1.1 (e ▸ hy1)
    · rcases List.mem_cons.mp hy with e1 | hy1
      · exact hnd1.1 (e1 ▸ hx1)
      · exact hdis x (List.mem_cons_of_mem _ hx1) (List.mem_cons_of_mem _ hy1)
  have ond2 : (other.root :: nodes).Nodup := List.nodup_cons.mpr ⟨hor, hnd1.2⟩
  refine relink h _ c.root _ nodes hl ond2 ?_ ?_ ?_ rfl
  · intro hne
    have f := linked_tail_facts h c nodes ⟨hl, hlast, hnd, ht⟩ hne
    have r1 : other.root ≠ last_of other.root nodes := fun e =>
      hor (e ▸ last_of_mem_nodes other.root nodes hne)
    have r2 : other.root ≠ t1 := fun e => cross _ (List.mem_cons_self _ _) (e ▸ ht1)
    show hook_set _ _ _ other.root = _
    rw [hook_set_other _ _ _ _ r1, hook_set_other _ _ _ _ r2, hook_set_same, if_neg f.2.2.2.1]
  · intro x hx
    have hx0 : x ∈ nodes := List.dropLast_subset _ hx
    have x1 : x ≠ last_of other.root nodes := by
      intro e
      have := mem_dropLast_cons other.root x nodes hx
      rw [e] at this
      exact last_not_mem_dropLast nodes other.root ond2 this
    have x2 : x ≠ t1 := fun e => cross _ (List.mem_cons_of_mem _ hx0) (e ▸ ht1)
    have x3 : x ≠ other.root := fun e => hor (e ▸ hx0)
    have x4 : x ≠ c.root := fun e => hnd1.1 (e ▸ hx0)
    rw [hook_set_other _ _ _ _ x1, hook_set_other _ _ _ _ x2, hook_set_other _ _ _ _ x3,
      hook_set_other _ _ _ _ x4]
  · show hook_set _ _ _ (last_of other.root nodes) = other.root
    rw [hook_set_same]

/-- Member `swap`: the two chains exchange their nodes. -/
theorem swap_linked (h : Nat → Nat) (c other : buffers_t) (nodes onodes : List Nat)
    (hc : c.linked h nodes) (ho : other.linked h onodes)
    (hdis : ∀ x ∈ c.root :: nodes, x ∉ other.root :: onodes) :
    (c.swap h other).2.1.linked (c.swap h other).1 onodes ∧
    (c.swap h other).2.2.linked (c.swap h other).1 nodes := by
  have T1 := swap_tail h other onodes c.root ho
  have T2 := swap_tail h c nodes other.root hc
  have hs : c.swap h other
      = (hook_set (hook_set (hook_set (hook_set h c.root (if h other.root = other.root then c.root
          else h other.root)) other.root (if h c.root = c.root then other.root else h c.root))
          (last_of c.root onodes) c.root) (last_of other.root nodes) other.root,
         { c with _tail := last_of c.root onodes },
         { other with _tail := last_of other.root nodes }) := by
    unfold buffers_t.swap
    simp only [T1, T2]
  rw [hs]
  exact ⟨swap_half h c other nodes onodes hc ho hdis _ _ _ (last_of_mem _ _),
    swap_other_half h c other nodes onodes hc ho hdis _ _ (last_of_mem _ _)⟩

/-- C37: every operation of the node chain `buffers_t` keeps a well-formed
chain well formed.  A chain is well formed with the nodes `nodes` when
following `next` from the root visits exactly these nodes, in order, each
once and none of them the root, and returns to the root, and `_tail` is the
last node visited, the root itself when there is no node.  On a well-formed
chain, with a second well-formed chain on other addresses and an item that is
not linked in the chain: `push_back` links the item behind the nodes and
`push_front` before them; `insert_after` at the root or at a linked node (the
position that ends the nodes `pre`) links the item behind it; `erase_after`
at the root or at a linked node that has a node `e` behind it unlinks `e` and
returns the position behind `e`; `splice_back` links the nodes of the other
chain behind the own ones and leaves the other chain empty; `swap` exchanges
the nodes of the two chains; `clear_and_dispose` returns once the loop had one
pass per node, hands every node to the disposer once and leaves the chain
empty.  The chain that results is well formed in each case. -/
theorem buffers_t_ops_keep_well_formed (next : Nat → Nat) (c other : buffers_t)
    (nodes onodes : List Nat) (item : Nat)
    (hc : c.linked next nodes) (ho : other.linked next onodes)
    (hdis : ∀ x ∈ c.root :: nodes, x ∉ other.root :: onodes)
    (hitem : item ∉ c.root :: nodes) :
    (c.push_back next item).2.linked (c.push_back next item).1 (nodes ++ [item]) ∧
    (c.push_front next item).2.linked (c.push_front next item).1 (item :: nodes) ∧
    (∀ pre post, nodes = pre ++ post →
      (c.insert_after next (last_of c.root pre) item).2.linked
        (c.insert_after next (last_of c.root pre) item).1 (pre ++ item :: post)) ∧
    (∀ pre e post, nodes = pre ++ e :: post →
      (c.erase_after next (last_of c.root pre)).2.1.linked
        (c.erase_after next (last_of c.root pre)).1 (pre ++ post) ∧
      (c.erase_after next (last_of c.root pre)).2.2 = (post.head?).getD c.root) ∧
    ((c.splice_back next other).2.1.linked (c.splice_back next other).1 (nodes ++ onodes) ∧
      (c.splice_back next other).2.2.linked (c.splice_back next other).1 []) ∧
    ((c.swap next other).2.1.linked (c.swap next other).1 onodes ∧
      (c.swap next other).2.2.linked (c.swap next other).1 nodes) ∧
    (∀ fuel, nodes.length ≤ fuel →
      ∃ r, c.clear_and_dispose next fuel = some r ∧ r.2.2 = nodes ∧ r.2.1.linked r.1 []) := by
  refine ⟨push_back_linked next c nodes item hc hitem,
    push_front_linked next c nodes item hc hitem, ?_, ?_,
    splice_back_linked next c other nodes onodes hc ho hdis,
    swap_linked next c other nodes onodes hc ho hdis,
    fun fuel hf => clear_and_dispose_linked next c nodes hc fuel hf⟩
  · intro pre post e
    subst e
    exact insert_after_linked next c pre post item hc hitem
  · intro pre e post e1
    subst e1
    exact erase_after_linked next c pre post e hc

/-- C37 witness: the chain with root 100 and the nodes 1, 2, 3, next to the
chain with root 200 and the nodes 4, 5, and the item 7. -/
theorem buffers_t_ops_keep_well_formed_witness :
    (⟨100, 3⟩ : buffers_t).linked hooks_123 [1, 2, 3] ∧
    (⟨200, 5⟩ : buffers_t).linked hooks_123 [4, 5] ∧
    (buffers_t.push_back hooks_123 ⟨100, 3⟩ 7).2.linked
      (buffers_t.push_back hooks_123 ⟨100, 3⟩ 7).1 [1, 2, 3, 7] ∧
    (buffers_t.push_front hooks_123 ⟨100, 3⟩ 7).2.linked
      (buffers_t.push_front hooks_123 ⟨100, 3⟩ 7).1 [7, 1, 2, 3] ∧
    (buffers_t.insert_after hooks_123 ⟨100, 3⟩ 1 7).2.linked
      (buffers_t.insert_after hooks_123 ⟨100, 3⟩ 1 7).1 [1, 7, 2, 3] ∧
    (buffers_t.erase_after hooks_123 ⟨100, 3⟩ 2).2.1.linked
      (buffers_t.erase_after hooks_123 ⟨100, 3⟩ 2).1 [1, 2] ∧
    (buffers_t.erase_after hooks_123 ⟨100, 3⟩ 2).2.1._tail = 2 ∧
    (buffers_t.erase_after hooks_123 ⟨100, 3⟩ 2).2.2 = 100 ∧
    (buffers_t.splice_back hooks_123 ⟨100, 3⟩ ⟨200, 5⟩).2.1.linked
      (buffers_t.splice_back hooks_123 ⟨100, 3⟩ ⟨200, 5⟩).1 [1, 2, 3, 4, 5] ∧
    (buffers_t.splice_back hooks_123 ⟨100, 3⟩ ⟨200, 5⟩).2.2.linked
      (buffers_t.splice_back hooks_123 ⟨100, 3⟩ ⟨200, 5⟩).1 [] ∧
    (buffers_t.swap hooks_123 ⟨100, 3⟩ ⟨200, 5⟩).2.1.linked
      (buffers_t.swap hooks_123 ⟨100, 3⟩ ⟨200, 5⟩).1 [4, 5] ∧
    (buffers_t.swap hooks_123 ⟨100, 3⟩ ⟨200, 5⟩).2.2.linked
      (buffers_t.swap hooks_123 ⟨100, 3⟩ ⟨200, 5⟩).1 [1, 2, 3] ∧
    (∃ r, buffers_t.clear_and_dispose hooks_123 ⟨100, 3⟩ 3 = some r ∧ r.2.2 = [1, 2, 3] ∧
      r.2.1.linked r.1 []) := by
  have hc : (⟨100, 3⟩ : buffers_t).linked hooks_123 [1, 2, 3] := ⟨rfl, rfl, by decide, rfl⟩
  have ho : (⟨200, 5⟩ : buffers_t).linked hooks_123 [4, 5] := ⟨rfl, rfl, by decide, rfl⟩
  obtain ⟨a1, a2, a3, a4, a5, a6, a7⟩ := buffers_t_ops_keep_well_formed hooks_123 ⟨100, 3⟩
    ⟨200, 5⟩ [1, 2, 3] [4, 5] 7 hc ho (by decide) (by decide)
  exact ⟨hc, ho, a1, a2, a3 [1] [2, 3] rfl, (a4 [1, 2] 3 [] rfl).1, rfl, (a4 [1, 2] 3 [] rfl).2,
    a5.1, a5.2, a6.1, a6.2, a7 3 (by decide)⟩

/-! ## The tail cache across `rebuild_aligned_size_and_memory` (C32) -/

theorem release_next_node (m : Mem) (p : ptr) (q : ptr) (m1 : Mem)
    (h : p.release m = .ok (q, m1)) : m1.next_node = m.next_node := by
  unfold ptr.release at h
  cases hr : p.m_raw with
  | none =>
    simp only [hr] at h
    cases h
    rfl
  | some i =>
    simp only [hr] at h
    cases hm : m.raws i with
    | none =>
      simp only [hm] at h
      cases h
    | some r =>
      simp only [hm] at h
      split at h
      · cases h
        rfl
      · cases h
        rfl

theorem clear_and_dispose_next_node : ∀ (ns : List ptr_node) (m m1 : Mem),
    clear_and_dispose m ns = .ok m1 → m1.next_node = m.next_node := by
  intro ns
  induction ns with
  | nil =>
    intro m m1 h
    unfold clear_and_dispose at h
    cases h
    rfl
  | cons n rest ih =>
    intro m m1 h
    unfold clear_and_dispose ptr_node.dispose at h
    cases hr : n.toptr.release m with
    | error e =>
      simp only [hr] at h
      cases h
    | ok v =>
      obtain ⟨q, m2⟩ := v
      simp only [hr] at h
      rw [ih m2 m1 h, release_next_node m _ q m2 hr]

theorem store_next_node (m m1 : Mem) (i pos : Nat) (src : List Nat) (b : Bool)
    (h : m.store i pos src b = .ok m1) : m1.next_node = m.next_node := by
  unfold Mem.store at h
  split at h
  · cases h
  · split at h
    · cases h
      rfl
    · cases h

theorem copy_in_next_node (m m1 : Mem) (p : ptr) (off len : Nat) (src : List Nat) (b : Bool)
    (h : p.copy_in m off len src b = .ok m1) : m1.next_node = m.next_node := by
  unfold ptr.copy_in at h
  split at h
  · cases h
  · split at h
    · split at h
      · cases h
      · exact store_next_node _ _ _ _ _ _ h
    · cases h

theorem rebuild_copy_next_node (nb : ptr) : ∀ (ns : List ptr_node) (m m1 : Mem) (pos : Nat),
    rebuild_copy m nb ns pos = .ok m1 → m1.next_node = m.next_node := by
  intro ns
  induction ns with
  | nil =>
    intro m m1 pos h
    unfold rebuild_copy at h
    cases h
    rfl
  | cons n rest ih =>
    intro m m1 pos h
    unfold rebuild_copy at h
    cases hs : n.toptr.c_str_data m with
    | error e => simp only [hs] at h; cases h
    | ok src =>
      simp only [hs] at h
      cases hc : nb.copy_in m pos n.toptr.length src false with
      | error e => simp only [hc] at h; cases h
      | ok m2 =>
        simp only [hc] at h
        rw [ih m2 m1 _ h, copy_in_next_node m m2 nb _ _ _ _ hc]

theorem invalidate_crc_nodes_next_node : ∀ (ns : List ptr_node) (m m1 : Mem),
    invalidate_crc_nodes m ns = .ok m1 → m1.next_node = m.next_node := by
  intro ns
  induction ns with
  | nil =>
    intro m m1 h
    unfold invalidate_crc_nodes at h
    cases h
    rfl
  | cons n rest ih =>
    intro m m1 h
    unfold invalidate_crc_nodes at h
    cases hr : n.m_raw with
    | none =>
      simp only [hr] at h
      exact ih m m1 h
    | some i =>
      simp only [hr] at h
      cases hi : m.invalidate_crc i with
      | error e => simp only [hi] at h; cases h
      | ok m2 =>
        simp only [hi] at h
        rw [ih m2 m1 h]
        unfold Mem.invalidate_crc at hi
        split at hi
        · cases hi
        · cases hi
          rfl

theorem rebuild_into_next_node (m m1 : Mem) (L L1 : list) (nb : ptr_node)
    (h : L.rebuild_into m nb = .ok (L1, m1)) : m1.next_node = m.next_node := by
  unfold list.rebuild_into at h
  cases h1 : rebuild_copy m nb.toptr L._buffers 0 with
  | error e => simp only [h1] at h; cases h
  | ok m2 =>
    simp only [h1] at h
    have e1 := rebuild_copy_next_node nb.toptr _ _ _ _ h1
    cases h2 : clear_and_dispose m2 L._buffers with
    | error e => simp only [h2] at h; cases h
    | ok m3 =>
      simp only [h2] at h
      have e2 := clear_and_dispose_next_node _ _ _ h2
      split at h
      · unfold list.invalidate_crc at h
        simp only [] at h
        split at h
        · cases h
        · rename_i m4 h4
          cases h
          rw [invalidate_crc_nodes_next_node _ _ _ h4, e2, e1]
      · unfold list.invalidate_crc at h
        simp only [] at h
        split at h
        · cases h
        · rename_i m4 h4
          have e4 := invalidate_crc_nodes_next_node _ _ _ h4
          split at h
          · cases h
          · rename_i m5 h5
            cases h
            unfold ptr_node.dispose at h5
            split at h5
            · cases h5
            · rename_i q m6 h6
              cases h5
              rw [release_next_node _ _ _ _ h6, e4, e2, e1]

theorem create_copy_next_node (m m1 : Mem) (b : ptr) (n : ptr_node)
    (h : ptr_node.create_copy m b = .ok (n, m1)) :
    n.node_addr = m.next_node ∧ m1.next_node = m.next_node + 1 := by
  unfold ptr_node.create_copy ptr.copy_ctor at h
  cases hb : b.m_raw with
  | none =>
    simp only [hb, Mem.new_node, Except.ok.injEq, Prod.mk.injEq] at h
    obtain ⟨rfl, rfl⟩ := h
    exact ⟨rfl, rfl⟩
  | some i =>
    simp only [hb] at h
    unfold Mem.nref_inc at h
    cases hr : m.raws i with
    | none => simp only [hr] at h; cases h
    | some r =>
      simp only [hr, Mem.new_node, Except.ok.injEq, Prod.mk.injEq] at h
      obtain ⟨rfl, rfl⟩ := h
      exact ⟨rfl, rfl⟩

theorem create_raw_next_node (m m1 : Mem) (i : Nat) (n : ptr_node)
    (h : ptr_node.create_raw m i = .ok (n, m1)) :
    n.node_addr = m.next_node ∧ m1.next_node = m.next_node + 1 := by
  unfold ptr_node.create_raw ptr.of_raw at h
  cases hr : m.raws i with
  | none => simp only [hr] at h; cases h
  | some r =>
    simp only [hr, Mem.new_node, Except.ok.injEq, Prod.mk.injEq] at h
    obtain ⟨rfl, rfl⟩ := h
    exact ⟨rfl, rfl⟩

/-- The node that takes the place of a gathered run is a new node object:
its address is none of those handed out before. -/
theorem consolidate_node (m : Mem) (ul : list) (am : Nat) (n : ptr_node) (rebuilt : Bool)
    (m1 : Mem) (h : consolidate m ul am = .ok (n, rebuilt, m1)) :
    m.next_node ≤ n.node_addr ∧ m.next_node ≤ m1.next_node := by
  have finish : ∀ (ul1 : list) (b : Bool) (m2 : Mem),
      (match ul1._buffers with
        | [] => Except.error Err.undefined
        | front :: _ =>
          match ptr_node.create_copy m2 front.toptr with
          | .error e => .error e
          | .ok (n, m3) =>
            match clear_and_dispose m3 ul1._buffers with
            | .error e => .error e
            | .ok m4 => Except.ok (n, b, m4)) = Except.ok (n, rebuilt, m1) →
      n.node_addr = m2.next_node ∧ m1.next_node = m2.next_node + 1 := by
    intro ul1 b m2 hr
    cases hbs : ul1._buffers with
    | nil => simp [hbs] at hr
    | cons front rest =>
      simp only [hbs] at hr
      cases hcc : ptr_node.create_copy m2 front.toptr with
      | error e => simp [hcc] at hr
      | ok v =>
        obtain ⟨n1, m3⟩ := v
        simp only [hcc] at hr
        cases hcd : clear_and_dispose m3 (front :: rest) with
        | error e => simp [hcd] at hr
        | ok m4 =>
          simp only [hcd, Except.ok.injEq, Prod.mk.injEq] at hr
          obtain ⟨rfl, rfl, rfl⟩ := hr
          obtain ⟨c1, c2⟩ := create_copy_next_node _ _ _ _ hcc
          exact ⟨c1, by rw [clear_and_dispose_next_node _ _ _ hcd, c2]⟩
  have rebuild_it :
      (match create_aligned m ul._len am with
        | .error e => Except.error e
        | .ok (i, m1) =>
          match ptr_node.create_raw m1 i with
          | .error e => .error e
          | .ok (nb, m2) =>
            match ul.rebuild_into m2 nb with
            | .error e => .error e
            | .ok (ul, m3) =>
              match ul._buffers with
              | [] => Except.error Err.undefined
              | front :: _ =>
                match ptr_node.create_copy m3 front.toptr with
                | .error e => .error e
                | .ok (n, m2) =>
                  match clear_and_dispose m2 ul._buffers with
                  | .error e => .error e
                  | .ok m3 => Except.ok (n, true, m3)) = Except.ok (n, rebuilt, m1) →
      m.next_node ≤ n.node_addr ∧ m.next_node ≤ m1.next_node := by
    intro hr
    cases hca : create_aligned m ul._len am with
    | error e => simp [hca] at hr
    | ok v =>
      obtain ⟨i, ma⟩ := v
      simp only [hca] at hr
      obtain ⟨_, _, hnn, _⟩ := create_aligned_spec m _ _ _ _ hca
      cases hcr : ptr_node.create_raw ma i with
      | error e => simp [hcr] at hr
      | ok v =>
        obtain ⟨nb, mb⟩ := v
        simp only [hcr] at hr
        obtain ⟨_, f2⟩ := create_raw_next_node _ _ _ _ hcr
        cases hri : ul.rebuild_into mb nb with
        | error e => simp [hri] at hr
        | ok v =>
          obtain ⟨ul1, mc⟩ := v
          simp only [hri] at hr
          have f3 := rebuild_into_next_node _ _ _ _ _ hri
          obtain ⟨g1, g2⟩ := finish ul1 true mc hr
          exact ⟨by omega, by omega⟩
  unfold consolidate at h
  simp only [] at h
  split at h
  · cases hbs : ul._buffers with
    | nil => simp [hbs] at h
    | cons front rest =>
      simp only [hbs] at h
      cases hal : front.toptr.is_aligned m am with
      | error e => simp [hal] at h
      | ok b =>
        cases b with
        | true =>
          simp only [hal] at h
          obtain ⟨g1, g2⟩ := finish ul false m (by rw [hbs]; exact h)
          exact ⟨by omega, by omega⟩
        | false =>
          simp only [hal] at h
          exact rebuild_it h
  · exact rebuild_it h

/-- The nodes that the loop of `rebuild_aligned_size_and_memory` leaves in
the chain: nodes it has found with a length that is a multiple of
`align_size`, and node objects created since the loop started (`base` is the
first node address that was unused then). -/
theorem rebuild_aligned_loop_nodes (as am base : Nat) (orig : List ptr_node) :
    ∀ (rest : List ptr_node) (m : Mem)
    (kept : List ptr_node) (run : Option list) (num : Nat) (b : Bool) (bs : List ptr_node)
    (num1 : Nat) (b1 : Bool) (m1 : Mem),
    base ≤ m.next_node → (∀ x ∈ rest, x ∈ orig) →
    (∀ x ∈ kept, (x ∈ orig ∧ x.toptr.is_n_align_sized as = .ok true) ∨ base ≤ x.node_addr) →
    rebuild_aligned_loop as am m kept run num b rest = .ok (bs, num1, b1, m1) →
    ∀ x ∈ bs, (x ∈ orig ∧ x.toptr.is_n_align_sized as = .ok true) ∨ base ≤ x.node_addr := by
  have snoc : ∀ (kept : List ptr_node) (n : ptr_node),
      (∀ x ∈ kept, (x ∈ orig ∧ x.toptr.is_n_align_sized as = .ok true) ∨ base ≤ x.node_addr) →
      ((n ∈ orig ∧ n.toptr.is_n_align_sized as = .ok true) ∨ base ≤ n.node_addr) →
      ∀ x ∈ kept ++ [n],
        (x ∈ orig ∧ x.toptr.is_n_align_sized as = .ok true) ∨ base ≤ x.node_addr := by
    intro kept n hk hn x hx
    rcases List.mem_append.mp hx with h1 | h1
    · exact hk x h1
    · rw [List.mem_singleton] at h1
      subst h1
      exact hn
  intro rest
  induction rest with
  | nil =>
    intro m kept run num b bs num1 b1 m1 hbase _ hP h
    unfold rebuild_aligned_loop at h
    cases run with
    | none =>
      simp only [Except.ok.injEq, Prod.mk.injEq] at h
      obtain ⟨rfl, _, _, _⟩ := h
      exact hP
    | some ul =>
      simp only [] at h
      cases hc : consolidate m ul am with
      | error e => simp [hc] at h
      | ok v =>
        obtain ⟨n, rebuilt, m2⟩ := v
        simp only [hc, Except.ok.injEq, Prod.mk.injEq] at h
        obtain ⟨rfl, _, _, _⟩ := h
        obtain ⟨c1, _⟩ := consolidate_node m ul am n rebuilt m2 hc
        exact snoc kept n hP (Or.inr (by omega))
  | cons it rest ih =>
    intro m kept run num b bs num1 b1 m1 hbase hrest hP h
    have hit : it ∈ orig := hrest it (List.mem_cons_self _ _)
    have hrest1 : ∀ x ∈ rest, x ∈ orig := fun x hx => hrest x (List.mem_cons_of_mem _ hx)
    unfold rebuild_aligned_loop at h
    cases run with
    | none =>
      simp only [] at h
      cases hk : node_keep m it as am with
      | error e => simp [hk] at h
      | ok k =>
        cases k with
        | true =>
          simp only [hk] at h
          exact ih m _ _ _ _ _ _ _ _ hbase hrest1
            (snoc kept it hP (Or.inl ⟨hit, ((node_keep_iff m it as am).mp hk).2⟩)) h
        | false =>
          simp only [hk] at h
          exact ih m _ _ _ _ _ _ _ _ hbase hrest1 hP h
    | some ul =>
      simp only [] at h
      cases hg : node_gather m it as am ul._len with
      | error e => simp [hg] at h
      | ok g =>
        cases g with
        | true =>
          simp only [hg] at h
          exact ih m _ _ _ _ _ _ _ _ hbase hrest1 hP h
        | false =>
          simp only [hg] at h
          cases hc : consolidate m ul am with
          | error e => simp [hc] at h
          | ok v =>
            obtain ⟨n, rebuilt, m2⟩ := v
            simp only [hc] at h
            obtain ⟨c1, c2⟩ := consolidate_node m ul am n rebuilt m2 hc
            have hPn := snoc kept n hP (Or.inr (by omega))
            cases hk : node_keep m2 it as am with
            | error e => simp [hk] at h
            | ok k =>
              cases k with
              | true =>
                simp only [hk] at h
                have e : kept ++ [n, it] = (kept ++ [n]) ++ [it] := by simp
                rw [e] at h
                exact ih m2 _ _ _ _ _ _ _ _ (by omega) hrest1
                  (snoc _ it hPn (Or.inl ⟨hit, ((node_keep_iff m2 it as am).mp hk).2⟩)) h
              | false =>
                simp only [hk] at h
                exact ih m2 _ _ _ _ _ _ _ _ (by omega) hrest1 hPn h

/-- A tail cache that is the address of no node of the list is a stale
pointer: every call that reads through it is undefined. -/
theorem stale_cache_undefined (m : Mem) (L : list) (a : Nat)
    (hc : L._tail_pnode_cache = some a) (hn : ∀ n ∈ L._buffers, n.node_addr ≠ a) :
    L.get_append_buffer_unused_tail_length m = .error .undefined ∧
    (∀ c, L.append_char m c = .error .undefined) ∧
    (∀ data len, L.append m data len = .error .undefined) := by
  have hf : ∀ (L0 : list), L0._tail_pnode_cache = some a → L0._buffers = L._buffers →
      L0.get_append_buffer_unused_tail_length m = .error .undefined := by
    intro L0 h0 hb
    unfold list.get_append_buffer_unused_tail_length list.tail_cache_ptr
    have : L0._buffers.find? (fun n => n.node_addr == a) = none := by
      rw [List.find?_eq_none, hb]
      intro x hx
      simp [hn x hx]
    simp only [h0, this]
  refine ⟨hf L hc rfl, ?_, ?_⟩
  · intro c
    unfold list.append_char
    rw [hf L hc rfl]
  · intro data len
    unfold list.append
    simp only []
    rw [hf { L with _len := add64 L._len len } hc rfl]

/-- C32: the call `rebuild_aligned_size_and_memory(align_size, align_memory)`
does not assign the tail cache.  On a list whose tail cache is one of its
nodes (all node objects of the list being allocated), with a length that is
not a multiple of `align_size`, a call that returns leaves the tail cache at
the address it had, and no node of the list has this address any more: the
cached node was gathered and disposed, and the node linked in its place is a
new object.  The calls `get_append_buffer_unused_tail_length()`, `append(c)`
and `append(data, len)` that follow read through the stale pointer. -/
theorem rebuild_aligned_strands_tail_cache (m : Mem) (L : list) (align_size align_memory : Nat)
    (a : Nat) (hcache : L._tail_pnode_cache = some a)
    (hin : ∃ n ∈ L._buffers, n.node_addr = a)
    (haddr : ∀ n ∈ L._buffers, n.node_addr < m.next_node)
    (hodd : ∀ n ∈ L._buffers, n.node_addr = a → n.m_len % align_size ≠ 0)
    (L1 : list) (flag : Bool) (m1 : Mem)
    (h : L.rebuild_aligned_size_and_memory m align_size align_memory 0 = .ok (L1, flag, m1)) :
    L1._tail_pnode_cache = some a ∧ (∀ n ∈ L1._buffers, n.node_addr ≠ a) ∧
    L1.get_append_buffer_unused_tail_length m1 = .error .undefined ∧
    (∀ c, L1.append_char m1 c = .error .undefined) ∧
    (∀ data len, L1.append m1 data len = .error .undefined) := by
  unfold list.rebuild_aligned_size_and_memory at h
  simp only [ne_eq, not_true_eq_false, false_and, if_false] at h
  cases hl : rebuild_aligned_loop align_size align_memory m [] none L._num false L._buffers with
  | error e => simp [hl] at h
  | ok v =>
    obtain ⟨bs, num, mr, m2⟩ := v
    simp only [hl, Except.ok.injEq, Prod.mk.injEq] at h
    obtain ⟨rfl, _, rfl⟩ := h
    have hnodes := rebuild_aligned_loop_nodes align_size align_memory m.next_node L._buffers
      L._buffers m [] none L._num false bs num mr m2 (Nat.le_refl _) (fun x hx => hx)
      (fun x hx => by cases hx) hl
    have ha : a < m.next_node := by
      obtain ⟨n, hn, e⟩ := hin
      rw [← e]
      exact haddr n hn
    have hfree : ∀ n ∈ bs, n.node_addr ≠ a := by
      intro n hn e
      rcases hnodes n hn with ⟨ho, hs⟩ | hb
      · unfold ptr.is_n_align_sized at hs
        split at hs
        · cases hs
        · simp only [Except.ok.injEq, beq_iff_eq] at hs
          exact hodd n ho e hs
      · omega
    exact ⟨hcache, hfree, stale_cache_undefined m2 _ a hcache hfree⟩

/-- C32 witness: `bl.reserve(10); bl.append("abc", 3); bl.rebuild_aligned(8)`.
Before the rebuild the tail cache is the one node of the list, at address 0;
afterwards the list holds `abc` in one node at address 1, the tail cache is
still the address 0, and the next append is undefined. -/
theorem rebuild_aligned_strands_tail_cache_witness :
    reserved_abc.1._tail_pnode_cache = some 0 ∧
    reserved_abc.1._buffers.map (fun n => n.node_addr) = [0] ∧
    reserved_abc.1.bytes reserved_abc.2 = str "abc" ∧
    reserved_abc.1.rebuild_aligned reserved_abc.2 8 = .ok realigned_abc ∧
    realigned_abc.1._tail_pnode_cache = some 0 ∧
    realigned_abc.1._buffers.map (fun n => n.node_addr) = [1] ∧
    realigned_abc.1.bytes realigned_abc.2.2 = str "abc" ∧
    realigned_abc.1.get_append_buffer_unused_tail_length realigned_abc.2.2 = .error .undefined ∧
    realigned_abc.1.append_char realigned_abc.2.2 100 = .error .undefined ∧
    realigned_abc.1.append realigned_abc.2.2 (str "d") 1 = .error .undefined := by
  have hb : reserved_abc.1._buffers = [{ toptr := ⟨some 0, 0, 3⟩, node_addr := 0 }] := rfl
  have hr : reserved_abc.1.rebuild_aligned_size_and_memory reserved_abc.2 8 8 0
      = .ok (realigned_abc.1, realigned_abc.2.1, realigned_abc.2.2) := rfl
  obtain ⟨a1, _, a3, a4, a5⟩ := rebuild_aligned_strands_tail_cache reserved_abc.2 reserved_abc.1
    8 8 0 rfl ⟨_, by rw [hb]; exact List.mem_singleton.mpr rfl, rfl⟩
    (by
      intro n hn
      rw [hb, List.mem_singleton] at hn
      subst hn
      decide)
    (by
      intro n hn _
      rw [hb, List.mem_singleton] at hn
      subst hn
      decide)
    realigned_abc.1 realigned_abc.2.1 realigned_abc.2.2 hr
  exact ⟨rfl, rfl, rfl, rfl, a1, rfl, rfl, a3, a4 100, a5 (str "d") 1⟩

end spec
